import Mathlib

/-!
# Hypervolume indicator (`deap/tools/_hypervolume/_hv.c`, `hv.cpp`)

Shallow embedding of the dimension-sweep hypervolume code (VARIANT 4,
`stop_dimension = 2`) over an arbitrary linearly ordered commutative ring,
i.e. in exact arithmetic.

Memory model.  The `n + 1` list nodes `head[0..n]` are addressed by their
index; index `0` is the sentinel `head`.  Tree node `head[i].tnode` has the
same index `i`; a nullable `avl_node_t *` is an `Option Nat`.  A `double *`
into the caller's buffer `data` is an offset (`Option Nat`, `none` = `NULL`);
a `const double *` that is only read (`item`, `ref`) is the function
`k ↦ p[k]`.  A dereference of `NULL`, a failed `assert`, an out-of-range
index and exhausted loop fuel all yield `none`.
-/

namespace Hv

/-! ## The AVL tree -/

/-- The C struct `avl_node_t` (with `AVL_DEPTH`). -/
structure avl_node_t (α : Type) where
  next : Option Nat
  prev : Option Nat
  parent : Option Nat
  left : Option Nat
  right : Option Nat
  item : Nat → α
  domr : α
  depth : Nat

/-- The C struct `avl_tree_t` (`cmp` and `freeitem` are never called). -/
structure avl_tree_t where
  head : Option Nat
  tail : Option Nat
  top : Option Nat

/-- The tree-node pool `head->tnode[0..n]` together with the global `tree`. -/
structure avl_mem (α : Type) where
  node : Nat → avl_node_t α
  tree : avl_tree_t

section avl
variable {α : Type}

/-- Macro `NODE_DEPTH(n)`: `(n) ? (n)->depth : 0`. -/
def NODE_DEPTH (m : avl_mem α) (n : Option Nat) : Nat :=
  match n with
  | some i => (m.node i).depth
  | none => 0

/-- Macro `L_DEPTH(n)`. -/
def L_DEPTH (m : avl_mem α) (n : Nat) : Nat := NODE_DEPTH m (m.node n).left

/-- Macro `R_DEPTH(n)`. -/
def R_DEPTH (m : avl_mem α) (n : Nat) : Nat := NODE_DEPTH m (m.node n).right

/-- Macro `CALC_DEPTH(n)`, as stored into the `unsigned char depth`. -/
def CALC_DEPTH (m : avl_mem α) (n : Nat) : Nat :=
  ((if L_DEPTH m n > R_DEPTH m n then L_DEPTH m n else R_DEPTH m n) + 1) % 256

/-- Function `avl_check_balance`. -/
def avl_check_balance (m : avl_mem α) (avlnode : Nat) : Int :=
  let d : Int := (R_DEPTH m avlnode : Int) - (L_DEPTH m avlnode : Int)
  if d < -1 then -1 else if d > 1 then 1 else 0

/-- Write one tree node. -/
def avl_mem.setNode (m : avl_mem α) (i : Nat) (v : avl_node_t α) : avl_mem α :=
  { m with node := Function.update m.node i v }

/-- Assignment `i->next = v`. -/
def avl_mem.setNext (m : avl_mem α) (i : Nat) (v : Option Nat) : avl_mem α :=
  m.setNode i { m.node i with next := v }

/-- Assignment `i->prev = v`. -/
def avl_mem.setPrev (m : avl_mem α) (i : Nat) (v : Option Nat) : avl_mem α :=
  m.setNode i { m.node i with prev := v }

/-- Assignment `i->parent = v`. -/
def avl_mem.setParent (m : avl_mem α) (i : Nat) (v : Option Nat) : avl_mem α :=
  m.setNode i { m.node i with parent := v }

/-- Assignment `i->left = v`. -/
def avl_mem.setLeft (m : avl_mem α) (i : Nat) (v : Option Nat) : avl_mem α :=
  m.setNode i { m.node i with left := v }

/-- Assignment `i->right = v`. -/
def avl_mem.setRight (m : avl_mem α) (i : Nat) (v : Option Nat) : avl_mem α :=
  m.setNode i { m.node i with right := v }

/-- Assignment `i->depth = v`. -/
def avl_mem.setDepth (m : avl_mem α) (i : Nat) (v : Nat) : avl_mem α :=
  m.setNode i { m.node i with depth := v }

/-- Assignment `i->domr = v`. -/
def avl_mem.setDomr (m : avl_mem α) (i : Nat) (v : α) : avl_mem α :=
  m.setNode i { m.node i with domr := v }

/-- Assignment `i->item = v`. -/
def avl_mem.setItem (m : avl_mem α) (i : Nat) (v : Nat → α) : avl_mem α :=
  m.setNode i { m.node i with item := v }

/-- Assignment `if (p) p->parent = v` for a nullable `p`. -/
def avl_mem.setParentOpt (m : avl_mem α) (p : Option Nat) (v : Option Nat) : avl_mem α :=
  match p with
  | some i => m.setParent i v
  | none => m

/-- Assignment `*superparent = v`, where `superparent` is
`parent ? (avlnode == parent->left ? &parent->left : &parent->right) : &avltree->top`
(the address is taken before any write, so the side is passed in). -/
def avl_mem.setSuper (m : avl_mem α) (parent : Option Nat) (isLeft : Bool)
    (v : Option Nat) : avl_mem α :=
  match parent with
  | some p => if isLeft then m.setLeft p v else m.setRight p v
  | none => { m with tree := { m.tree with top := v } }

/-- Function `avl_clear_tree`. -/
def avl_clear_tree (m : avl_mem α) : avl_mem α :=
  { m with tree := { head := none, tail := none, top := none } }

/-- Function `avl_clear_node`. -/
def avl_clear_node (m : avl_mem α) (newnode : Nat) : avl_mem α :=
  m.setNode newnode { m.node newnode with left := none, right := none, depth := 1 }

/-- Function `avl_insert_top`. -/
def avl_insert_top (m : avl_mem α) (newnode : Nat) : avl_mem α :=
  let m := avl_clear_node m newnode
  let m := m.setNode newnode { m.node newnode with prev := none, next := none, parent := none }
  { m with tree := { head := some newnode, tail := some newnode, top := some newnode } }

/-- One iteration of the `while(avlnode)` loop of `avl_rebalance`: returns the
memory after the `switch` and the next `avlnode` (the saved `parent`). -/
def avl_rebalance_step (m : avl_mem α) (avlnode : Nat) : Option (avl_mem α × Option Nat) :=
  let parent := (m.node avlnode).parent
  let isLeft : Bool :=
    match parent with
    | some p => decide ((m.node p).left = some avlnode)
    | none => false
  let bal := avl_check_balance m avlnode
  if bal = -1 then
    match (m.node avlnode).left with
    | none => none
    | some child =>
      if L_DEPTH m child ≥ R_DEPTH m child then
        let m := m.setLeft avlnode (m.node child).right
        let m := m.setParentOpt (m.node avlnode).left (some avlnode)
        let m := m.setRight child (some avlnode)
        let m := m.setParent avlnode (some child)
        let m := m.setSuper parent isLeft (some child)
        let m := m.setParent child parent
        let m := m.setDepth avlnode (CALC_DEPTH m avlnode)
        let m := m.setDepth child (CALC_DEPTH m child)
        some (m, parent)
      else
        match (m.node child).right with
        | none => none
        | some gchild =>
          let m := m.setLeft avlnode (m.node gchild).right
          let m := m.setParentOpt (m.node avlnode).left (some avlnode)
          let m := m.setRight child (m.node gchild).left
          let m := m.setParentOpt (m.node child).right (some child)
          let m := m.setRight gchild (some avlnode)
          let m := m.setParentOpt (m.node gchild).right (some gchild)
          let m := m.setLeft gchild (some child)
          let m := m.setParentOpt (m.node gchild).left (some gchild)
          let m := m.setSuper parent isLeft (some gchild)
          let m := m.setParent gchild parent
          let m := m.setDepth avlnode (CALC_DEPTH m avlnode)
          let m := m.setDepth child (CALC_DEPTH m child)
          let m := m.setDepth gchild (CALC_DEPTH m gchild)
          some (m, parent)
  else if bal = 1 then
    match (m.node avlnode).right with
    | none => none
    | some child =>
      if R_DEPTH m child ≥ L_DEPTH m child then
        let m := m.setRight avlnode (m.node child).left
        let m := m.setParentOpt (m.node avlnode).right (some avlnode)
        let m := m.setLeft child (some avlnode)
        let m := m.setParent avlnode (some child)
        let m := m.setSuper parent isLeft (some child)
        let m := m.setParent child parent
        let m := m.setDepth avlnode (CALC_DEPTH m avlnode)
        let m := m.setDepth child (CALC_DEPTH m child)
        some (m, parent)
      else
        match (m.node child).left with
        | none => none
        | some gchild =>
          let m := m.setRight avlnode (m.node gchild).left
          let m := m.setParentOpt (m.node avlnode).right (some avlnode)
          let m := m.setLeft child (m.node gchild).right
          let m := m.setParentOpt (m.node child).left (some child)
          let m := m.setLeft gchild (some avlnode)
          let m := m.setParentOpt (m.node gchild).left (some gchild)
          let m := m.setRight gchild (some child)
          let m := m.setParentOpt (m.node gchild).right (some gchild)
          let m := m.setSuper parent isLeft (some gchild)
          let m := m.setParent gchild parent
          let m := m.setDepth avlnode (CALC_DEPTH m avlnode)
          let m := m.setDepth child (CALC_DEPTH m child)
          let m := m.setDepth gchild (CALC_DEPTH m gchild)
          some (m, parent)
  else
    some (m.setDepth avlnode (CALC_DEPTH m avlnode), parent)

/-- Function `avl_rebalance`; `fuel` bounds the number of loop iterations. -/
def avl_rebalance : Nat → avl_mem α → Option Nat → Option (avl_mem α)
  | _, m, none => some m
  | 0, _, some _ => none
  | fuel + 1, m, some avlnode =>
    match avl_rebalance_step m avlnode with
    | none => none
    | some (m, parent) => avl_rebalance fuel m parent

/-- Function `avl_insert_before` (both `assert`s included). -/
def avl_insert_before (fuel : Nat) (m : avl_mem α) (node : Option Nat) (newnode : Nat) :
    Option (avl_mem α) :=
  match node with
  | none => none
  | some node =>
    if (m.node node).left ≠ none then none else
    let m := avl_clear_node m newnode
    let m := m.setNext newnode (some node)
    let m := m.setParent newnode (some node)
    let m := m.setPrev newnode (m.node node).prev
    let m := match (m.node node).prev with
      | some p => m.setNext p (some newnode)
      | none => { m with tree := { m.tree with head := some newnode } }
    let m := m.setPrev node (some newnode)
    let m := m.setLeft node (some newnode)
    avl_rebalance fuel m (some node)

/-- Function `avl_insert_after` (both `assert`s included). -/
def avl_insert_after (fuel : Nat) (m : avl_mem α) (node : Option Nat) (newnode : Nat) :
    Option (avl_mem α) :=
  match node with
  | none => none
  | some node =>
    if (m.node node).right ≠ none then none else
    let m := avl_clear_node m newnode
    let m := m.setPrev newnode (some node)
    let m := m.setParent newnode (some node)
    let m := m.setNext newnode (m.node node).next
    let m := match (m.node node).next with
      | some p => m.setPrev p (some newnode)
      | none => { m with tree := { m.tree with tail := some newnode } }
    let m := m.setNext node (some newnode)
    let m := m.setRight node (some newnode)
    avl_rebalance fuel m (some node)

/-- Function `avl_unlink_node`. -/
def avl_unlink_node (fuel : Nat) (m : avl_mem α) (avlnode : Nat) : Option (avl_mem α) :=
  let m := match (m.node avlnode).prev with
    | some p => m.setNext p (m.node avlnode).next
    | none => { m with tree := { m.tree with head := (m.node avlnode).next } }
  let m := match (m.node avlnode).next with
    | some p => m.setPrev p (m.node avlnode).prev
    | none => { m with tree := { m.tree with tail := (m.node avlnode).prev } }
  let parent := (m.node avlnode).parent
  let isLeft : Bool :=
    match parent with
    | some p => decide ((m.node p).left = some avlnode)
    | none => false
  let left := (m.node avlnode).left
  let right := (m.node avlnode).right
  match left, right with
  | none, _ =>
    let m := m.setSuper parent isLeft right
    let m := m.setParentOpt right parent
    avl_rebalance fuel m parent
  | some l, none =>
    let m := m.setSuper parent isLeft left
    let m := m.setParent l parent
    avl_rebalance fuel m parent
  | some l, some r =>
    match (m.node avlnode).prev with
    | none => none
    | some subst =>
      if subst = l then
        let m := m.setRight subst right
        let m := m.setParent subst parent
        let m := m.setParent r (some subst)
        let m := m.setSuper parent isLeft (some subst)
        avl_rebalance fuel m (some subst)
      else
        match (m.node subst).parent with
        | none => none
        | some balnode =>
          let m := m.setRight balnode (m.node subst).left
          let m := m.setParentOpt (m.node balnode).right (some balnode)
          let m := m.setLeft subst left
          let m := m.setParent l (some subst)
          let m := m.setRight subst right
          let m := m.setParent subst parent
          let m := m.setParent r (some subst)
          let m := m.setSuper parent isLeft (some subst)
          avl_rebalance fuel m (some balnode)

end avl

/-! ## The per-dimension circular doubly linked lists -/

/-- The C struct `dlnode` (VARIANT 4); `tnode` is the tree node of the same
index, `ignore_best` is only used under `EXPERIMENTAL`. -/
structure dlnode_t (α : Type) where
  x : Option Nat
  next : Nat → Nat
  prev : Nat → Nat
  ignore : Int
  area : Nat → α
  vol : Nat → α

/-- All memory reachable from `list`, the global `tree` and `bound`, together
with the (read-only) caller buffer `data`. -/
structure hv_mem (α : Type) where
  data : List α
  node : Nat → dlnode_t α
  avl : avl_mem α
  bound : Nat → α

/-- The global `int stop_dimension = 2` (VARIANT 4). -/
def stop_dimension : Nat := 2

section cdll
variable {α : Type} [LinearOrderedCommRing α]

/-- The value of `DBL_MAX` from `<float.h>` (IEEE-754 binary64). -/
def DBL_MAX : α := ((2 ^ 1024 - 2 ^ 971 : Nat) : α)

/-- Read `p[k]` for `p` pointing at offset `off` of the buffer. -/
def deref (data : List α) (off k : Nat) : α := data.getD (off + k) 0

/-- Read `nodep->x[k]`; `none` when `nodep->x` is `NULL`. -/
def hv_mem.X (s : hv_mem α) (nodep k : Nat) : Option α :=
  match (s.node nodep).x with
  | some off => some (deref s.data off k)
  | none => none

/-- The `double *` value `nodep->x`, as the array it points to. -/
def hv_mem.xptr (s : hv_mem α) (nodep : Nat) : Option (Nat → α) :=
  match (s.node nodep).x with
  | some off => some (deref s.data off)
  | none => none

/-- Write one list node. -/
def hv_mem.setNode (s : hv_mem α) (p : Nat) (v : dlnode_t α) : hv_mem α :=
  { s with node := Function.update s.node p v }

/-- Assignment `p->next[i] = v`. -/
def hv_mem.setNext (s : hv_mem α) (p i v : Nat) : hv_mem α :=
  s.setNode p { s.node p with next := Function.update (s.node p).next i v }

/-- Assignment `p->prev[i] = v`. -/
def hv_mem.setPrev (s : hv_mem α) (p i v : Nat) : hv_mem α :=
  s.setNode p { s.node p with prev := Function.update (s.node p).prev i v }

/-- Assignment `p->ignore = v`. -/
def hv_mem.setIgnore (s : hv_mem α) (p : Nat) (v : Int) : hv_mem α :=
  s.setNode p { s.node p with ignore := v }

/-- Assignment `p->area[i] = v`. -/
def hv_mem.setArea (s : hv_mem α) (p i : Nat) (v : α) : hv_mem α :=
  s.setNode p { s.node p with area := Function.update (s.node p).area i v }

/-- Assignment `p->vol[i] = v`. -/
def hv_mem.setVol (s : hv_mem α) (p i : Nat) (v : α) : hv_mem α :=
  s.setNode p { s.node p with vol := Function.update (s.node p).vol i v }

/-- Assignment `p->x = v`. -/
def hv_mem.setX (s : hv_mem α) (p : Nat) (v : Option Nat) : hv_mem α :=
  s.setNode p { s.node p with x := v }

/-- Assignment `bound[i] = v`. -/
def hv_mem.setBound (s : hv_mem α) (i : Nat) (v : α) : hv_mem α :=
  { s with bound := Function.update s.bound i v }

/-- Function `compare_node`, on the two keys `*(...)->x` it reads. -/
def compare_node (x1 x2 : α) : Int :=
  if x1 < x2 then -1 else if x1 > x2 then 1 else 0

/-- Function `compare_tree_asc`. -/
def compare_tree_asc (x1 x2 : Nat → α) : Int :=
  if x1 1 > x2 1 then -1 else if x1 1 < x2 1 then 1
  else if x1 0 ≥ x2 0 then -1 else 1

/-- Contract of the C library `qsort` as called by `setup_cdllist`
(`qsort(scratch, n, sizeof(dlnode_t*), compare_node)`): the array of node
pointers is permuted into an order that is ascending under `compare_node`;
the order of elements comparing equal is unspecified.  `key p` is the double
`*p->x` that `compare_node` reads for node `p`. -/
structure qsort_t (α : Type) [LinearOrderedCommRing α] where
  run : (Nat → α) → List Nat → List Nat
  perm : ∀ key scratch, (run key scratch).Perm scratch
  sorted : ∀ key scratch,
    (run key scratch).Pairwise (fun a b => compare_node (key a) (key b) ≤ 0)

/-- Function `avl_search_closest` (called with a non-null `avlnode` out
parameter): returns `(*avlnode, c)`.  `fuel` bounds the descent. -/
def avl_search_closest (fuel : Nat) (m : avl_mem α) (item : Nat → α) :
    Option (Option Nat × Int) :=
  match m.tree.top with
  | none => some (none, 0)
  | some top => go fuel top
where
  /-- The `for(;;)` loop. -/
  go : Nat → Nat → Option (Option Nat × Int)
  | 0, _ => none
  | fuel + 1, node =>
    let c := compare_tree_asc item (m.node node).item
    if c < 0 then
      match (m.node node).left with
      | some l => go fuel l
      | none => some (some node, -1)
    else if c > 0 then
      match (m.node node).right with
      | some r => go fuel r
      | none => some (some node, 1)
    else some (some node, 0)

/-- The initial memory of `setup_cdllist` after the `malloc`s and the first
`for` loop: `head[i].x = data + i*d` (`head->x = NULL` is applied here since
`head` is not in `scratch`), `ignore = 0`; every other field is whatever
`malloc` returned and is modelled as `0` / `NULL`. -/
def setup_init (data : List α) (d : Nat) : hv_mem α :=
  { data := data
    node := fun i =>
      { x := if i = 0 then none else some (i * d)
        next := fun _ => 0
        prev := fun _ => 0
        ignore := 0
        area := fun _ => 0
        vol := fun _ => 0 }
    avl :=
      { node := fun _ =>
          { next := none, prev := none, parent := none, left := none, right := none
            item := fun _ => 0, domr := 0, depth := 0 }
        tree := { head := none, tail := none, top := none } }
    bound := fun _ => 0 }

/-- The loop `for (i = 0; i < n; i++) scratch[i]->x--;`. -/
def setup_decr (s : hv_mem α) : List Nat → hv_mem α
  | [] => s
  | p :: rest =>
    setup_decr (s.setX p (match (s.node p).x with
      | some off => some (off - 1)
      | none => none)) rest

/-- The loop `for (i = 1; i < n; i++) { scratch[i-1]->next[j] = scratch[i];
scratch[i]->prev[j] = scratch[i-1]; }`, walking the sorted array. -/
def setup_link (s : hv_mem α) (j : Nat) : List Nat → hv_mem α
  | a :: b :: rest => setup_link ((s.setNext a j b).setPrev b j a) j (b :: rest)
  | _ => s

/-- Body of the loop `for (j = d-1; j >= 0; j--)` of `setup_cdllist`.
`scratch[0]` and `scratch[n-1]` are out of range when `n = 0`. -/
def setup_dim (q : qsort_t α) (j : Nat) (st : hv_mem α × List Nat) :
    Option (hv_mem α × List Nat) :=
  let s := setup_decr st.1 st.2
  let key : Nat → α := fun p => ((s.X p 0).getD 0)
  let scratch := q.run key st.2
  match scratch.head?, scratch.getLast? with
  | some first, some last =>
    let s := s.setNext 0 j first
    let s := s.setPrev first j 0
    let s := setup_link s j scratch
    let s := s.setNext last j 0
    let s := s.setPrev 0 j last
    some (s, scratch)
  | _, _ => none

/-- The loop `for (j = d-1; j >= 0; j--)`: `k` counts the remaining
iterations, the next one being `j = k - 1`. -/
def setup_dims (q : qsort_t α) : Nat → hv_mem α × List Nat → Option (hv_mem α × List Nat)
  | 0, st => some st
  | k + 1, st =>
    match setup_dim q k st with
    | none => none
    | some st => setup_dims q k st

/-- The loop `for (i = 1; i <= n; i++) (head[i].tnode)->item = head[i].x;`. -/
def setup_items (s : hv_mem α) : List Nat → hv_mem α
  | [] => s
  | p :: rest =>
    setup_items { s with avl := s.avl.setItem p ((s.xptr p).getD (fun _ => 0)) } rest

/-- Function `setup_cdllist`. -/
def setup_cdllist (q : qsort_t α) (data : List α) (d n : Nat) : Option (hv_mem α) :=
  let s := setup_init data d
  let scratch := (List.range n).map (fun i => i + 1)
  match setup_dims q d (s, scratch) with
  | none => none
  | some (s, _) => some (setup_items s ((List.range n).map (fun i => i + 1)))

/-- Function `delete`. -/
def delete (s : hv_mem α) (nodep dim : Nat) : Option (hv_mem α) :=
  go (dim - stop_dimension) stop_dimension s
where
  /-- The loop `for (i = stop_dimension; i < dim; i++)`, `k` iterations left. -/
  go : Nat → Nat → hv_mem α → Option (hv_mem α)
  | 0, _, s => some s
  | k + 1, i, s =>
    let s := s.setNext ((s.node nodep).prev i) i ((s.node nodep).next i)
    let s := s.setPrev ((s.node nodep).next i) i ((s.node nodep).prev i)
    match s.X nodep i with
    | none => none
    | some xi =>
      let s := if s.bound i > xi then s.setBound i xi else s
      go k (i + 1) s

/-- Function `delete_dom`. -/
def delete_dom (s : hv_mem α) (nodep dim : Nat) : hv_mem α :=
  go (dim - stop_dimension) stop_dimension s
where
  /-- The loop `for (i = stop_dimension; i < dim; i++)`, `k` iterations left. -/
  go : Nat → Nat → hv_mem α → hv_mem α
  | 0, _, s => s
  | k + 1, i, s =>
    let s := s.setNext ((s.node nodep).prev i) i ((s.node nodep).next i)
    let s := s.setPrev ((s.node nodep).next i) i ((s.node nodep).prev i)
    go k (i + 1) s

/-- Function `reinsert`. -/
def reinsert (s : hv_mem α) (nodep dim : Nat) : Option (hv_mem α) :=
  go (dim - stop_dimension) stop_dimension s
where
  /-- The loop `for (i = stop_dimension; i < dim; i++)`, `k` iterations left. -/
  go : Nat → Nat → hv_mem α → Option (hv_mem α)
  | 0, _, s => some s
  | k + 1, i, s =>
    let s := s.setNext ((s.node nodep).prev i) i nodep
    let s := s.setPrev ((s.node nodep).next i) i nodep
    match s.X nodep i with
    | none => none
    | some xi =>
      let s := if s.bound i > xi then s.setBound i xi else s
      go k (i + 1) s

/-- Function `reinsert_dom`. -/
def reinsert_dom (s : hv_mem α) (nodep dim : Nat) : Option (hv_mem α) :=
  go (dim - stop_dimension) stop_dimension s
where
  /-- The loop `for (i = stop_dimension; i < dim; i++)`, `k` iterations left. -/
  go : Nat → Nat → hv_mem α → Option (hv_mem α)
  | 0, _, s => some s
  | k + 1, i, s =>
    let p := (s.node nodep).prev i
    let s := s.setNext p i nodep
    let s := s.setPrev ((s.node nodep).next i) i nodep
    let s := s.setArea nodep i ((s.node p).area i)
    match s.X nodep i, s.X p i with
    | some xi, some pxi =>
      let s := s.setVol nodep i ((s.node p).vol i + (s.node p).area i * (xi - pxi))
      go k (i + 1) s
    | _, _ => none

/-- Function `filter_delete_node`. -/
def filter_delete_node (s : hv_mem α) (node d : Nat) : hv_mem α :=
  go d 0 s
where
  /-- The loop `for (i = 0; i < d; i++)`, `k` iterations left. -/
  go : Nat → Nat → hv_mem α → hv_mem α
  | 0, _, s => s
  | k + 1, i, s =>
    let s := s.setPrev ((s.node node).next i) i ((s.node node).prev i)
    let s := s.setNext ((s.node node).prev i) i ((s.node node).next i)
    go k (i + 1) s

/-- The inner loop `for (j = 0; j < np; j++)` of `filter` for dimension `i`
(`k` iterations left): returns the memory and the updated count `n`. -/
def filter_inner (d : Nat) (ref : Nat → α) (i : Nat) :
    Nat → hv_mem α → Nat → Nat → Option (hv_mem α × Nat)
  | 0, s, _, n => some (s, n)
  | k + 1, s, aux, n =>
    match s.X aux i with
    | none => none
    | some xi =>
      if xi < ref i then some (s, n)
      else
        let s := filter_delete_node s aux d
        filter_inner d ref i k s ((s.node aux).prev i) (n - 1)

/-- Function `filter`: returns the memory and the number of points left. -/
def filter (s : hv_mem α) (d n : Nat) (ref : Nat → α) : Option (hv_mem α × Nat) :=
  go d 0 s n
where
  /-- The outer loop `for (i = 0; i < d; i++)`, `k` iterations left. -/
  go : Nat → Nat → hv_mem α → Nat → Option (hv_mem α × Nat)
  | 0, _, s, n => some (s, n)
  | k + 1, i, s, n =>
    match filter_inner d ref i n s ((s.node 0).prev i) n with
    | none => none
    | some (s, n) => go k (i + 1) s n

end cdll

/-! ## The dimension sweep `hv_recursive` -/

section sweep
variable {α : Type} [LinearOrderedCommRing α]

/-- Branch `dim == 0` of `hv_recursive`. -/
def hv_dim0 (ref : Nat → α) (s : hv_mem α) (list : Nat) : Option (α × hv_mem α) :=
  let s := s.setIgnore ((s.node list).next 0) (-1)
  match s.X ((s.node list).next 0) 0 with
  | none => none
  | some x0 => some (ref 0 - x0, s)

/-- The `while ((p0 = p1->next[1])->x)` loop of branch `dim == 1`; returns
`(hypera, hyperv, p1)` and the memory at loop exit. The arithmetic is exact
here; `hv_dim1_loop_double` is the same loop in `double` arithmetic. -/
def hv_dim1_loop (ref : Nat → α) :
    Nat → hv_mem α → Nat → α → α → Option (α × α × Nat × hv_mem α)
  | 0, _, _, _, _ => none
  | fuel + 1, s, p1, hypera, hyperv =>
    let p0 := (s.node p1).next 1
    match (s.node p0).x with
    | none => some (hypera, hyperv, p1, s)
    | some _ =>
      match s.X p0 1, s.X p1 1, s.X p0 0 with
      | some p0x1, some p1x1, some p0x0 =>
        let hyperv := hyperv + (ref 0 - hypera) * (p0x1 - p1x1)
        if p0x0 < hypera then hv_dim1_loop ref fuel s p0 p0x0 hyperv
        else if (s.node p0).ignore = 0 then
          hv_dim1_loop ref fuel (s.setIgnore p0 1) p0 hypera hyperv
        else hv_dim1_loop ref fuel s p0 hypera hyperv
      | _, _, _ => none

/-- Branch `dim == 1` of `hv_recursive`. -/
def hv_dim1 (fuel : Nat) (ref : Nat → α) (s : hv_mem α) (list : Nat) :
    Option (α × hv_mem α) :=
  let p1 := (s.node list).next 1
  match s.X p1 0 with
  | none => none
  | some hypera =>
    match hv_dim1_loop ref fuel s p1 hypera 0 with
    | none => none
    | some (hypera, hyperv, p1, s) =>
      match s.X p1 1 with
      | none => none
      | some p1x1 => some (hyperv + (ref 0 - hypera) * (ref 1 - p1x1), s)

/-- The loop `while (pp->tnode->domr < bound[2]) pp = pp->next[2];`. -/
def hv_dim2_skip : Nat → hv_mem α → Nat → Option Nat
  | 0, _, _ => none
  | fuel + 1, s, pp =>
    if (s.avl.node pp).domr < s.bound 2 then hv_dim2_skip fuel s ((s.node pp).next 2)
    else some pp

/-- The loop `for (pp = pp->next[2]; pp->x[2] < bound[2]; pp = pp->next[2])`
that rebuilds the tree; called with the initial `pp->next[2]`, returns the
memory and the `pp` at which the loop stopped. -/
def hv_dim2_connect (afuel : Nat) (ref : Nat → α) :
    Nat → hv_mem α → Nat → Option (hv_mem α × Nat)
  | 0, _, _ => none
  | fuel + 1, s, pp =>
    match s.X pp 2, s.xptr pp with
    | some x2, some ppx =>
      if x2 < s.bound 2 then
        if (s.avl.node pp).domr ≥ s.bound 2 then
          let m := s.avl.setDomr pp (ref 2)
          match avl_search_closest afuel m ppx with
          | none => none
          | some (tnode, c) =>
            match (if c ≤ 0 then avl_insert_before afuel m tnode pp
                   else avl_insert_after afuel m tnode pp) with
            | none => none
            | some m => hv_dim2_connect afuel ref fuel { s with avl := m } ((s.node pp).next 2)
        else hv_dim2_connect afuel ref fuel s ((s.node pp).next 2)
      else some (s, pp)
    | _, _ => none

/-- The loop `while (tnode->prev)` that unlinks the tree nodes dominated by
`pp`; returns `(tree memory, tnode, cur_ip, prv_ip, hypera)` at loop exit. -/
def hv_dim2_remove (afuel : Nat) (ppx nxt_ip : Nat → α) :
    Nat → avl_mem α → Nat → (Nat → α) → (Nat → α) → α →
      Option (avl_mem α × Nat × (Nat → α) × (Nat → α) × α)
  | 0, _, _, _, _, _ => none
  | fuel + 1, m, tnode, cur_ip, prv_ip, hypera =>
    match (m.node tnode).prev with
    | none => some (m, tnode, cur_ip, prv_ip, hypera)
    | some tp =>
      let prv_ip := (m.node tp).item
      let hypera := hypera - (prv_ip 1 - cur_ip 1) * (nxt_ip 0 - cur_ip 0)
      if prv_ip 0 < ppx 0 then some (m, tnode, cur_ip, prv_ip, hypera)
      else
        match avl_unlink_node afuel m tnode with
        | none => none
        | some m =>
          let m := m.setDomr tnode (ppx 2)
          match (m.node tnode).prev with
          | none => none
          | some t => hv_dim2_remove afuel ppx nxt_ip fuel m t prv_ip prv_ip hypera

/-- Body of the main `for` loop of branch `dim == 2` for a point `pp` that is
not skipped by `pp->ignore >= 2`, from `avl_search_closest` on; returns the
memory, `hyperv` and `hypera`. -/
def hv_dim2_point (fuel : Nat) (ref : Nat → α) (s : hv_mem α) (pp : Nat)
    (ppx : Nat → α) (height hyperv hypera : α) : Option (hv_mem α × α × α) :=
  match avl_search_closest fuel s.avl ppx with
  | none => none
  | some (none, _) => none
  | some (some tnode, cmp) =>
    let nxt_ip : Nat → α :=
      if cmp ≤ 0 then (s.avl.node tnode).item
      else match (s.avl.node tnode).next with
        | some t => (s.avl.node t).item
        | none => ref
    if nxt_ip 0 ≤ ppx 0 then
      let s := s.setIgnore pp 2
      let s := { s with avl := s.avl.setDomr pp (ppx 2) }
      let s := s.setArea pp 2 hypera
      some (s, if height > 0 then hyperv + hypera * height else hyperv, hypera)
    else
      let ins : Option (avl_mem α × Option Nat) :=
        if cmp ≤ 0 then
          match avl_insert_before fuel s.avl (some tnode) pp with
          | none => none
          | some m => some (m, (m.node pp).prev)
        else
          match avl_insert_after fuel s.avl (some tnode) pp with
          | none => none
          | some m => some (m, some tnode)
      match ins with
      | none => none
      | some (m, tnode) =>
        let m := m.setDomr pp (ref 2)
        let after : Option (avl_mem α × (Nat → α) × α) :=
          match tnode with
          | none => some (m, ref, hypera)
          | some tnode =>
            let prv_ip := (m.node tnode).item
            if prv_ip 0 ≥ ppx 0 then
              match (m.node pp).prev with
              | none => none
              | some tnode =>
                let cur_ip := (m.node tnode).item
                match hv_dim2_remove fuel ppx nxt_ip fuel m tnode cur_ip prv_ip hypera with
                | none => none
                | some (m, tnode, cur_ip, prv_ip, hypera) =>
                  match avl_unlink_node fuel m tnode with
                  | none => none
                  | some m =>
                    let m := m.setDomr tnode (ppx 2)
                    if (m.node tnode).prev = none then
                      some (m, ref, hypera - (ref 1 - cur_ip 1) * (nxt_ip 0 - cur_ip 0))
                    else some (m, prv_ip, hypera)
            else some (m, prv_ip, hypera)
        match after with
        | none => none
        | some (m, prv_ip, hypera) =>
          let hypera := hypera + (prv_ip 1 - ppx 1) * (nxt_ip 0 - ppx 0)
          let hyperv := if height > 0 then hyperv + hypera * height else hyperv
          let s := { s with avl := m }
          some (s.setArea pp 2 hypera, hyperv, hypera)

/-- The main loop `for (pp = pp->next[2]; pp->x != NULL; pp = pp->next[2])` of
branch `dim == 2`; returns the memory and `hyperv`. -/
def hv_dim2_loop (afuel : Nat) (ref : Nat → α) (list : Nat) :
    Nat → hv_mem α → Nat → α → α → Option (hv_mem α × α)
  | 0, _, _, _, _ => none
  | fuel + 1, s, pp, hyperv, hypera =>
    match s.xptr pp with
    | none => some (s, hyperv)
    | some ppx =>
      let s := s.setVol pp 2 hyperv
      let height : Option α :=
        if pp = (s.node list).prev 2 then some (ref 2 - ppx 2)
        else match s.X ((s.node pp).next 2) 2 with
          | some nx2 => some (nx2 - ppx 2)
          | none => none
      match height with
      | none => none
      | some height =>
        if (s.node pp).ignore ≥ 2 then
          let hyperv := hyperv + hypera * height
          let s := s.setArea pp 2 hypera
          hv_dim2_loop afuel ref list fuel s ((s.node pp).next 2) hyperv hypera
        else
          match hv_dim2_point afuel ref s pp ppx height hyperv hypera with
          | none => none
          | some (s, hyperv, hypera) =>
            hv_dim2_loop afuel ref list fuel s ((s.node pp).next 2) hyperv hypera

/-- Branch `dim == 2` of `hv_recursive` (VARIANT 4). -/
def hv_dim2 (fuel : Nat) (ref : Nat → α) (s : hv_mem α) (list : Nat) :
    Option (α × hv_mem α) :=
  let pp := (s.node list).prev 2
  match s.X pp 2 with
  | none => none
  | some lastx2 =>
    if lastx2 < s.bound 2 then
      some ((s.node pp).vol 2 + (s.node pp).area 2 * (ref 2 - lastx2), s)
    else
      let pp := (s.node list).next 2
      match s.X pp 2, s.X pp 0, s.X pp 1 with
      | some x2, some x0, some x1 =>
        let first : Option (hv_mem α × Nat) :=
          if x2 ≥ s.bound 2 then
            let s := { s with avl := s.avl.setDomr pp (ref 2) }
            let s := s.setArea pp 2 ((ref 0 - x0) * (ref 1 - x1))
            let s := s.setVol pp 2 0
            let s := s.setIgnore pp 0
            some (s, pp)
          else
            match hv_dim2_skip fuel s pp with
            | none => none
            | some pp => some (s, pp)
        match first with
        | none => none
        | some (s, pp) =>
          let s := s.setIgnore pp 0
          let s := { s with avl := avl_insert_top s.avl pp }
          let s := { s with avl := s.avl.setDomr pp (ref 2) }
          match hv_dim2_connect fuel ref fuel s ((s.node pp).next 2) with
          | none => none
          | some (s, pp) =>
            let pp := (s.node pp).prev 2
            let hyperv := (s.node pp).vol 2
            let hypera := (s.node pp).area 2
            let height : Option α :=
              match s.X pp 2 with
              | none => none
              | some px2 =>
                match s.X ((s.node pp).next 2) 2 with
                | some nx2 => some (nx2 - px2)
                | none => some (ref 2 - px2)
            match height, s.X ((s.node list).prev 2) 2 with
            | some height, some b =>
              let s := s.setBound 2 b
              let hyperv := hyperv + hypera * height
              match hv_dim2_loop fuel ref list fuel s ((s.node pp).next 2) hyperv hypera with
              | none => none
              | some (s, hyperv) => some (hyperv, { s with avl := avl_clear_tree s.avl })
            | _, _ => none
      | _, _, _ => none

/-- The loop `for (pp = p1; pp->x; pp = pp->prev[dim])` resetting `ignore`. -/
def hv_reset (dim : Nat) : Nat → hv_mem α → Nat → Option (hv_mem α)
  | 0, _, _ => none
  | fuel + 1, s, pp =>
    match (s.node pp).x with
    | none => some s
    | some _ =>
      let s := if (s.node pp).ignore < (dim : Int) then s.setIgnore pp 0 else s
      hv_reset dim fuel s ((s.node pp).prev dim)

/-- The first `while (c > 1 && ...)` loop of the general case, deleting points
from the top of chain `dim`; returns the memory and `(p0, p1, c)`. -/
def hv_delete_loop (dim : Nat) :
    Nat → hv_mem α → Nat → Nat → Nat → Option (hv_mem α × Nat × Nat × Nat)
  | 0, _, _, _, _ => none
  | fuel + 1, s, p0, p1, c =>
    if c > 1 then
      match s.X p1 dim with
      | none => none
      | some x1 =>
        let cond : Option Bool :=
          if x1 > s.bound dim then some true
          else match s.X ((s.node p1).prev dim) dim with
            | none => none
            | some xp => some (decide (xp ≥ s.bound dim))
        match cond with
        | none => none
        | some false => some (s, p0, p1, c)
        | some true =>
          match (if (s.node p1).ignore ≥ (dim : Int) then some (delete_dom s p1 dim)
                 else delete s p1 dim) with
          | none => none
          | some s => hv_delete_loop dim fuel s p1 ((s.node p1).prev dim) (c - 1)
    else some (s, p0, p1, c)

/-- The loop `for (i = 1; i <= dim; i++) p1->area[i] = p1->area[i-1] *
(ref[i-1] - p1->x[i-1]);`, `k` iterations left, starting at `i`. -/
def hv_area_init (ref : Nat → α) (p1 : Nat) : Nat → Nat → hv_mem α → Option (hv_mem α)
  | 0, _, s => some s
  | k + 1, i, s =>
    match s.X p1 (i - 1) with
    | none => none
    | some xi =>
      hv_area_init ref p1 k (i + 1) (s.setArea p1 i ((s.node p1).area (i - 1) * (ref (i - 1) - xi)))

/-- The second loop `while (p0->x != NULL)` of the general case, reinserting
the points; `recur` is `hv_recursive(list, dim-1, ·, ref, bound)`.  Returns
the memory, `p1` and `hyperv`. -/
def hv_reinsert_loop (dim : Nat) (recur : hv_mem α → Nat → Option (α × hv_mem α)) :
    Nat → hv_mem α → Nat → Nat → Nat → α → Option (hv_mem α × Nat × α)
  | 0, _, _, _, _, _ => none
  | fuel + 1, s, p0, p1, c, hyperv =>
    match (s.node p0).x with
    | none => some (s, p1, hyperv)
    | some _ =>
      match s.X p0 dim, s.X p1 dim with
      | some p0x, some p1x =>
        let hyperv := hyperv + (s.node p1).area dim * (p0x - p1x)
        let c := c + 1
        let s : Option (hv_mem α) :=
          if (s.node p0).ignore ≥ (dim : Int) then
            match reinsert_dom s p0 dim with
            | none => none
            | some s => some (s.setArea p0 dim ((s.node p1).area dim))
          else
            match reinsert s p0 dim with
            | none => none
            | some s =>
              match recur s c with
              | none => none
              | some (a, s) =>
                let s := s.setArea p0 dim a
                some (if (s.node p0).ignore = (dim : Int) - 1 then s.setIgnore p0 dim else s)
        match s with
        | none => none
        | some s =>
          let p1 := p0
          let p0 := (s.node p0).next dim
          let s := s.setVol p1 dim hyperv
          hv_reinsert_loop dim recur fuel s p0 p1 c hyperv
      | _, _ => none

/-- The general case `dim > stop_dimension` of `hv_recursive` (VARIANT 4);
`recur` is `hv_recursive(list, dim-1, ·, ref, bound)`. -/
def hv_general (fuel : Nat) (ref : Nat → α) (dim : Nat)
    (recur : hv_mem α → Nat → Option (α × hv_mem α))
    (s : hv_mem α) (list c : Nat) : Option (α × hv_mem α) :=
  let p0 := list
  let p1 := (s.node list).prev dim
  match hv_reset dim fuel s p1 with
  | none => none
  | some s =>
    match hv_delete_loop dim fuel s p0 p1 c with
    | none => none
    | some (s, p0, p1, c) =>
      let mid : Option (hv_mem α × α) :=
        if c > 1 then
          let pv := (s.node p1).prev dim
          match s.X p1 dim, s.X pv dim with
          | some p1x, some pvx =>
            let hyperv := (s.node pv).vol dim + (s.node pv).area dim * (p1x - pvx)
            if (s.node p1).ignore ≥ (dim : Int) then
              some (s.setArea p1 dim ((s.node pv).area dim), hyperv)
            else
              match recur s c with
              | none => none
              | some (a, s) =>
                let s := s.setArea p1 dim a
                some (if (s.node p1).ignore = (dim : Int) - 1 then s.setIgnore p1 dim else s,
                      hyperv)
          | _, _ => none
        else
          match hv_area_init ref p1 dim 1 (s.setArea p1 0 1) with
          | none => none
          | some s => some (s, 0)
      match mid with
      | none => none
      | some (s, hyperv) =>
        let s := s.setVol p1 dim hyperv
        match hv_reinsert_loop dim recur fuel s p0 p1 c hyperv with
        | none => none
        | some (s, p1, hyperv) =>
          match s.X p1 dim with
          | none => none
          | some p1x =>
            let s := s.setBound dim p1x
            some (hyperv + (s.node p1).area dim * (ref dim - p1x), s)

/-- Function `hv_recursive(list, dim, c, ref, bound)`: returns `hyperv` and the
memory it leaves.  `fuel` bounds every loop. -/
def hv_recursive (fuel : Nat) (ref : Nat → α) (list : Nat) :
    Nat → hv_mem α → Nat → Option (α × hv_mem α)
  | 0, s, _ => hv_dim0 ref s list
  | 1, s, _ => hv_dim1 fuel ref s list
  | 2, s, _ => hv_dim2 fuel ref s list
  | dim + 3, s, c =>
    hv_general fuel ref (dim + 3) (hv_recursive fuel ref list (dim + 2)) s list c

/-- The loop `for (i = 0; i < d; i++) hyperv *= ref[i] - p->x[i];` of `fpli_hv`,
`k` iterations left, starting at `i`. -/
def fpli_prod (ref : Nat → α) (s : hv_mem α) (p : Nat) : Nat → Nat → α → Option α
  | 0, _, hyperv => some hyperv
  | k + 1, i, hyperv =>
    match s.X p i with
    | none => none
    | some xi => fpli_prod ref s p k (i + 1) (hyperv * (ref i - xi))

/-- Function `fpli_hv(data, d, n, ref)`.  Every loop is given `n + 2`
iterations of fuel.  For `d = 0` the call `hv_recursive(list, -1, ...)` reaches
the `exit(EXIT_FAILURE)` branch. -/
def fpli_hv (q : qsort_t α) (data : List α) (d n : Nat) (ref : Nat → α) : Option α :=
  match setup_cdllist q data d n with
  | none => none
  | some s =>
    let s := { s with bound := fun _ => -DBL_MAX }
    match filter s d n ref with
    | none => none
    | some (s, n1) =>
      if n1 = 0 then some 0
      else if n1 = 1 then fpli_prod ref s ((s.node 0).next 0) d 0 1
      else if d = 0 then none
      else
        match hv_recursive (n + 2) ref 0 (d - 1) s n1 with
        | none => none
        | some (hyperv, _) => some hyperv

end sweep

/-! ## The Python binding `hypervolume` (`hv.cpp`) -/

section binding
variable {α : Type} [LinearOrderedCommRing α]

/-- Outcome of a call of the binding: a float, a raised `TypeError`, or a
crash of the process (null dereference, out-of-range access, `exit`). -/
inductive py_result (α : Type) where
  | value (v : α)
  | type_error (msg : String)
  | crash
deriving DecidableEq

/-- The loop of `hypervolume` over the points, for arguments that are a
sequence of sequences of floats: returns `lDim` and the buffer `lPointSet`.
`lDim` is fixed by the first point; for a point with fewer than `lDim`
coordinates `PySequence_GetItem` returns `NULL`, which `Py_DECREF` then
dereferences. -/
def read_points : List (List α) → Int → List α → Option (Int × List α)
  | [], lDim, lPointSet => some (lDim, lPointSet)
  | lPyPoint :: rest, lDim, lPointSet =>
    let lDim := if lDim < 0 then (lPyPoint.length : Int) else lDim
    if lPyPoint.length < lDim.toNat then none
    else read_points rest lDim (lPointSet ++ lPyPoint.take lDim.toNat)

/-- Function `hypervolume` of `hv.cpp`, for arguments that are a sequence of
sequences of floats and a sequence of floats. -/
def hypervolume (q : qsort_t α) (lPyPointSet : List (List α)) (lPyReference : List α) :
    py_result α :=
  match read_points lPyPointSet (-1) [] with
  | none => py_result.crash
  | some (lDim, lPointSet) =>
    if (lPyReference.length : Int) = lDim then
      match fpli_hv q lPointSet lDim.toNat lPyPointSet.length
          (fun i => lPyReference.getD i 0) with
      | some v => py_result.value v
      | none => py_result.crash
    else py_result.type_error "Reference point is not of same dimensionality as point set"

end binding

/-! ## Reference definitions used to state the properties -/

section reference
variable {α : Type} [LinearOrderedCommRing α]

/-- An implementation of the `qsort` contract: stable insertion sort on the key. -/
def qsort_insertion : qsort_t α where
  run key scratch := List.insertionSort (fun a b => key a ≤ key b) scratch
  perm key scratch := List.perm_insertionSort _ scratch
  sorted key scratch := by
    haveI : IsTotal Nat (fun a b => key a ≤ key b) := ⟨fun a b => le_total (key a) (key b)⟩
    haveI : IsTrans Nat (fun a b => key a ≤ key b) := ⟨fun _ _ _ h1 h2 => le_trans h1 h2⟩
    refine List.Pairwise.imp ?_ (List.sorted_insertionSort (fun a b => key a ≤ key b) scratch)
    intro a b hab
    unfold compare_node
    rw [if_neg (not_lt.mpr hab)]
    split_ifs <;> decide

/-- The `k`-th point (`k = 0, 1, ...`) of the flat buffer `data` of
`d`-dimensional points, as the function `i ↦ data[k*d + i]`. -/
def point_of (data : List α) (d k : Nat) : Nat → α := fun i => data.getD (k * d + i) 0

/-- A point lies strictly below the reference point in each of the first `d` coordinates. -/
def below (d : Nat) (ref p : Nat → α) : Prop := ∀ i, i < d → p i < ref i

instance below_decidable (d : Nat) (ref p : Nat → α) : Decidable (below d ref p) :=
  Nat.decidableBallLT d (fun i _ => p i < ref i)

/-- Componentwise maximum of two points: the lower corner of `[p, ref] ∩ [q, ref]`. -/
def pmax (p q : Nat → α) : Nat → α := fun i => max (p i) (q i)

/-- Volume `Π_{i<d} (ref[i] - p[i])` of the box `[p, ref]`. -/
def box_volume (d : Nat) (ref p : Nat → α) : α :=
  ((List.range d).map (fun i => ref i - p i)).prod

/-- Volume of the union of the boxes `[p, ref]`, `p` in the list, all `p`
strictly below `ref`, by `vol (A ∪ B) = vol B + vol A - vol (A ∩ B)` with
`[p, ref] ∩ [q, ref] = [pmax p q, ref]`; the first argument bounds the
recursion depth by the length of the list. -/
def union_volume_aux (d : Nat) (ref : Nat → α) : Nat → List (Nat → α) → α
  | 0, _ => 0
  | _ + 1, [] => 0
  | k + 1, p :: P =>
    union_volume_aux d ref k P + box_volume d ref p
      - union_volume_aux d ref k (P.map (pmax p))

/-- Volume of the union of the boxes `[p, ref]` over the points `p` of the list. -/
def union_volume (d : Nat) (ref : Nat → α) (P : List (Nat → α)) : α :=
  union_volume_aux d ref P.length P

/-- The points among the first `n` of `data` that lie strictly below `ref`. -/
def dominating_points (data : List α) (d n : Nat) (ref : Nat → α) : List (Nat → α) :=
  ((List.range n).map (point_of data d)).filter (fun p => decide (below d ref p))

/-- Area swept in two dimensions from height `y` on, `m` being the running
minimum of coordinate 0: each step to the next point `p` adds
`(ref[0] - m) * (p[1] - y)`, the last step goes up to `ref[1]`. -/
def sweep2_from (ref : Nat → α) : α → α → List (Nat → α) → α
  | m, y, [] => (ref 0 - m) * (ref 1 - y)
  | m, y, p :: rest => (ref 0 - m) * (p 1 - y) + sweep2_from ref (min m (p 0)) (p 1) rest

/-- The sum computed by the `dim == 1` sweep over the points in the given order. -/
def sweep2 (ref : Nat → α) : List (Nat → α) → α
  | [] => 0
  | p :: rest => sweep2_from ref (p 0) (p 1) rest

/-- The field `next[i]` of all nodes, as a function on node indices. -/
def hv_mem.nx (s : hv_mem α) (i : Nat) (p : Nat) : Nat := (s.node p).next i

/-- The field `prev[i]` of all nodes, as a function on node indices. -/
def hv_mem.pv (s : hv_mem α) (i : Nat) (p : Nat) : Nat := (s.node p).prev i

/-- The coordinate `p->x[k]` of a node whose `x` is not `NULL`. -/
def hv_mem.coord (s : hv_mem α) (p k : Nat) : α := (s.X p k).getD 0

/-- Following `nx` from `a` visits exactly the nodes of `L`, in order, and then
reaches `b`; `pv` leads back the same way. -/
def Linked (nx pv : Nat → Nat) : Nat → List Nat → Nat → Prop
  | a, [], b => nx a = b ∧ pv b = a
  | a, c :: L, b => nx a = c ∧ pv c = a ∧ Linked nx pv c L b

/-- The node indices `1, ..., n` (`scratch` before the first sort). -/
def nodes (n : Nat) : List Nat := (List.range n).map (fun i => i + 1)

/-- State of the `d` circular lists: chain `i` runs from the sentinel through
the nodes `C i` back to the sentinel, the chains hold the same nodes, and chain
`i` is ascending in coordinate `i`. -/
structure Chains (s : hv_mem α) (d : Nat) (C : Nat → List Nat) : Prop where
  head_x : (s.node 0).x = none
  node_x : ∀ i, i < d → ∀ p, p ∈ C i → (s.node p).x ≠ none
  linked : ∀ i, i < d → Linked (s.nx i) (s.pv i) 0 (C i) 0
  nodup : ∀ i, i < d → (0 :: C i).Nodup
  perm : ∀ i j, i < d → j < d → (C i).Perm (C j)
  sorted : ∀ i, i < d → (C i).Pairwise (fun a b => s.coord a i ≤ s.coord b i)

/-- The point is below `ref` in the coordinates `i ≤ m < d`. -/
def below_from (i d : Nat) (ref p : Nat → α) : Prop := ∀ m, m < d → i ≤ m → p m < ref m

instance below_from_decidable (i d : Nat) (ref p : Nat → α) : Decidable (below_from i d ref p) :=
  Nat.decidableBallLT d (fun m _ => i ≤ m → p m < ref m)

/-- Decrement `x--` of a `double *`. -/
def x_decr (x : Option Nat) : Option Nat :=
  match x with
  | some off => some (off - 1)
  | none => none

/-- Loop invariant of `for (j = d-1; j >= 0; j--)` in `setup_cdllist` when `k`
iterations remain: every `x` has been decremented `d - k` times and the chains
of the dimensions `k ≤ j < d` are wired and sorted. -/
structure setup_inv (data : List α) (d n k : Nat) (s : hv_mem α) (scratch : List Nat)
    (C : Nat → List Nat) : Prop where
  data_eq : s.data = data
  head_x : (s.node 0).x = none
  node_x : ∀ p, p ∈ nodes n → (s.node p).x = some ((p - 1) * d + k)
  scratch_perm : scratch.Perm (nodes n)
  linked : ∀ j, k ≤ j → j < d → Linked (s.nx j) (s.pv j) 0 (C j) 0
  perm : ∀ j, k ≤ j → j < d → (C j).Perm (nodes n)
  sorted : ∀ j, k ≤ j → j < d →
    (C j).Pairwise (fun a b => point_of data d (a - 1) j ≤ point_of data d (b - 1) j)

end reference

/-! ## The general case of `hv_recursive`: definitions -/

section
variable {α : Type} [LinearOrderedCommRing α]

/-- The mutable fields of the memory that `hv_recursive` computes with, as
functions: `next[i]` and `prev[i]` of every node, `ignore`, `area[i]`,
`vol[i]`, the `domr` of the tree node, and `bound`. -/
@[ext]
structure view (α : Type) where
  nx : Nat → Nat → Nat
  pv : Nat → Nat → Nat
  ign : Nat → Int
  ar : Nat → Nat → α
  vl : Nat → Nat → α
  dr : Nat → α
  bd : Nat → α

/-- The view of a memory. -/
def hv_mem.view (s : hv_mem α) : view α :=
  { nx := fun i p => (s.node p).next i
    pv := fun i p => (s.node p).prev i
    ign := fun p => (s.node p).ignore
    ar := fun p i => (s.node p).area i
    vl := fun p i => (s.node p).vol i
    dr := fun p => (s.avl.node p).domr
    bd := s.bound }

/-- The fields of the memory that `hv_recursive` only reads: the caller's
buffer and the `x` pointers. -/
def hv_mem.xs (s : hv_mem α) : List α × (Nat → Option Nat) :=
  (s.data, fun p => (s.node p).x)

/-- The static description of a filtered point set: the coordinates of the
nodes, the reference point, and for every dimension the order in which
`setup_cdllist` chained the nodes. -/
structure scene (α : Type) where
  X : Nat → Nat → α
  ref : Nat → α
  ord : Nat → List Nat
  d : Nat
  n : Nat

/-- Well-formedness of a scene. -/
structure scene.ok (sc : scene α) : Prop where
  nodup : ∀ i, i < sc.d → (0 :: sc.ord i).Nodup
  mem : ∀ i, i < sc.d → ∀ p, p ∈ sc.ord i ↔ p ∈ sc.ord 0
  sorted : ∀ i, i < sc.d → (sc.ord i).Pairwise (fun a b => sc.X a i ≤ sc.X b i)
  lt_ref : ∀ p, p ∈ sc.ord 0 → ∀ k, k < sc.d → sc.X p k < sc.ref k
  len : (sc.ord 0).length ≤ sc.n

/-- The memory holds the points of the scene. -/
structure stat (sc : scene α) (s : hv_mem α) : Prop where
  head_x : (s.node 0).x = none
  node_x : ∀ p, p ∈ sc.ord 0 → ∀ k, s.X p k = some (sc.X p k)
  node_xptr : ∀ p, p ∈ sc.ord 0 → s.xptr p = some (sc.X p)
  item : ∀ p, p ∈ sc.ord 0 → (s.avl.node p).item = sc.X p

/-- The nodes of `S` in the order of chain `i`. -/
def scene.chain (sc : scene α) (i : Nat) (S : List Nat) : List Nat :=
  (sc.ord i).filter (fun p => decide (p ∈ S))

/-- Volume of the union of the boxes of the nodes of `A` in the first `k`
coordinates, up to the reference `r`. -/
def scene.vol (sc : scene α) (k : Nat) (r : Nat → α) (A : List Nat) : α :=
  union_volume k r (A.map sc.X)

/-- Node `r` occurs strictly before node `p` in the list. -/
def Before (l : List Nat) (r p : Nat) : Prop := ∃ A B C, l = A ++ r :: (B ++ p :: C)

/-- The cached `area[i]` and `vol[i]` of node `q` are those of the sweep of
dimension `i` over the nodes `A` followed by `q`. -/
def val_at (sc : scene α) (v : view α) (i : Nat) (A : List Nat) (q : Nat) : Prop :=
  v.ar q i = sc.vol i sc.ref (A ++ [q]) ∧
  v.vl q i = sc.vol (i + 1) (Function.update sc.ref i (sc.X q i)) A

/-- Validity of the caches of chain `C` of dimension `i` below `bound[i]`. -/
def val (sc : scene α) (v : view α) (i : Nat) (C : List Nat) : Prop :=
  ∀ A q B, C = A ++ q :: B → sc.X q i < v.bd i → val_at sc v i A q

/-- Every node of `S` flagged with `ignore ≥ 2` has a dominator in the first
two coordinates that precedes it in the chains `2, ..., min (ignore, m)`. -/
def dom (sc : scene α) (v : view α) (m : Nat) (S : List Nat) : Prop :=
  ∀ p, p ∈ S → 2 ≤ v.ign p →
    ∃ r, r ∈ S ∧ sc.X r 0 ≤ sc.X p 0 ∧ sc.X r 1 ≤ sc.X p 1 ∧
      ∀ i, 2 ≤ i → i ≤ m → (i : Int) ≤ v.ign p → Before (sc.ord i) r p

/-- A flagged node has its own third coordinate as `domr`. -/
def own (sc : scene α) (v : view α) (S : List Nat) : Prop :=
  ∀ p, p ∈ S → 2 ≤ v.ign p → v.dr p = sc.X p 2

/-- At height `b` the nodes of `S` below `b` whose `domr` is at least `b` are
an antichain in the first two coordinates that covers all nodes of `S` below
`b`. -/
def stair_at (sc : scene α) (v : view α) (S : List Nat) (b : α) : Prop :=
  (∀ t t', t ∈ S → t' ∈ S → sc.X t 2 < b → sc.X t' 2 < b → b ≤ v.dr t → b ≤ v.dr t' →
      sc.X t 0 ≤ sc.X t' 0 → sc.X t 1 ≤ sc.X t' 1 → t = t') ∧
  (∀ p, p ∈ S → sc.X p 2 < b →
      ∃ t, t ∈ S ∧ sc.X t 2 < b ∧ b ≤ v.dr t ∧ sc.X t 0 ≤ sc.X p 0 ∧ sc.X t 1 ≤ sc.X p 1)

/-- The staircase property at every height up to `bound[2]`. -/
def stair (sc : scene α) (v : view α) (S : List Nat) : Prop :=
  ∀ b, b ≤ v.bd 2 → stair_at sc v S b

/-- Invariant of the memory between two calls of `hv_recursive` with
dimension `m` on the node set `S`. -/
structure vinv (sc : scene α) (m : Nat) (v : view α) (S : List Nat) : Prop where
  sub : ∀ p, p ∈ S → p ∈ sc.ord 0
  nodup : S.Nodup
  linked : ∀ i, 2 ≤ i → i ≤ m → Linked (v.nx i) (v.pv i) 0 (sc.chain i S) 0
  val : ∀ i, 2 ≤ i → i ≤ m → val sc v i (sc.chain i S)
  dom : dom sc v m S
  own : own sc v S
  stair : stair sc v S

/-- The invariant `vinv` together with the static part and the empty tree. -/
structure inv (sc : scene α) (m : Nat) (s : hv_mem α) (S : List Nat) : Prop where
  vi : vinv sc m s.view S
  st : stat sc s
  empty : s.avl.tree.top = none

/-- What a call of `hv_recursive` with dimension `m` on the node set `S`
leaves unchanged. -/
structure frame (m : Nat) (S : List Nat) (v v' : view α) : Prop where
  nx : v'.nx = v.nx
  pv : v'.pv = v.pv
  ar : ∀ p i, m < i → v'.ar p i = v.ar p i
  vl : ∀ p i, m < i → v'.vl p i = v.vl p i
  bd : ∀ i, m < i → v'.bd i = v.bd i
  ign_out : ∀ p, p ∉ S → v'.ign p = v.ign p
  dr_out : ∀ p, p ∉ S → v'.dr p = v.dr p
  ign_hi : ∀ p, (m : Int) < v.ign p ∨ (m : Int) < v'.ign p → v'.ign p = v.ign p

/-- Contract of `hv_recursive(list, m, c, ref, bound)`, `f` being the call as
a function of the memory and `c`. -/
def level_spec (sc : scene α) (m : Nat) (f : hv_mem α → Nat → Option (α × hv_mem α)) : Prop :=
  ∀ s S, inv sc m s S → 2 ≤ S.length →
    ∃ s', f s S.length = some (sc.vol (m + 1) sc.ref S, s') ∧ inv sc m s' S ∧
      frame m S s.view s'.view ∧ s'.xs = s.xs

/-- The links after `delete`/`delete_dom` of node `p`. -/
def view.unlink (v : view α) (lo hi p : Nat) : view α :=
  { v with
    nx := fun j => if lo ≤ j ∧ j < hi then Function.update (v.nx j) (v.pv j p) (v.nx j p)
      else v.nx j
    pv := fun j => if lo ≤ j ∧ j < hi then Function.update (v.pv j) (v.nx j p) (v.pv j p)
      else v.pv j }

/-- The links after `reinsert`/`reinsert_dom` of node `p`. -/
def view.relink (v : view α) (lo hi p : Nat) : view α :=
  { v with
    nx := fun j => if lo ≤ j ∧ j < hi then Function.update (v.nx j) (v.pv j p) p else v.nx j
    pv := fun j => if lo ≤ j ∧ j < hi then Function.update (v.pv j) (v.nx j p) p else v.pv j }

/-- The bounds after `delete`/`reinsert` of a node with coordinates `x`. -/
def view.lower (v : view α) (lo hi : Nat) (x : Nat → α) : view α :=
  { v with bd := fun j => if lo ≤ j ∧ j < hi then min (v.bd j) (x j) else v.bd j }

/-- The caches after `reinsert_dom` of node `p`, whose predecessor in chain
`j` is `pr j`. -/
def view.copy (v : view α) (lo hi p : Nat) (pr : Nat → Nat) (X : Nat → Nat → α) : view α :=
  { v with
    ar := fun q j => if q = p ∧ lo ≤ j ∧ j < hi then v.ar (pr j) j else v.ar q j
    vl := fun q j => if q = p ∧ lo ≤ j ∧ j < hi
      then v.vl (pr j) j + v.ar (pr j) j * (X p j - X (pr j) j) else v.vl q j }

/-- The view after the deletion of node `p` by the first loop of the general
case of dimension `m`. -/
def view.del (sc : scene α) (m : Nat) (v : view α) (p : Nat) : view α :=
  if (m : Int) ≤ v.ign p then v.unlink 2 m p else (v.unlink 2 m p).lower 2 m (sc.X p)

/-- The view after the deletion of the nodes `Bd`, last node first. -/
def view.dels (sc : scene α) (m : Nat) (v : view α) (Bd : List Nat) : view α :=
  Bd.foldr (fun p w => w.del sc m p) v

/-- After the reset loop of a call with dimension `m` every flagged node of
the chain `L` has a dominator that precedes it in `L` and in the chains
below `m`, and carries its own third coordinate as `domr`; the other nodes
have `ignore = 0`. -/
structure flagged (sc : scene α) (m : Nat) (v : view α) (L : List Nat) : Prop where
  dom : ∀ p, p ∈ L → (m : Int) ≤ v.ign p →
    ∃ r, Before L r p ∧ sc.X r 0 ≤ sc.X p 0 ∧ sc.X r 1 ≤ sc.X p 1 ∧
      ∀ i, 2 ≤ i → i < m → Before (sc.ord i) r p
  own : ∀ p, p ∈ L → (m : Int) ≤ v.ign p → v.dr p = sc.X p 2
  zero : ∀ p, p ∈ L → ¬ (m : Int) ≤ v.ign p → v.ign p = 0

/-- Invariant of the general case of dimension `m` while the nodes `Bd` are
still deleted from the chains below `m`: `E` is the view after the reset
loop, `A` the nodes whose `area[m]` and `vol[m]` have been computed, `Al` the
nodes that the chains below `m` hold. -/
structure li (sc : scene α) (m : Nat) (E : view α) (xs0 : List α × (Nat → Option Nat))
    (s : hv_mem α) (A Al Bd : List Nat) : Prop where
  nx : s.view.nx = (E.dels sc m Bd).nx
  pv : s.view.pv = (E.dels sc m Bd).pv
  low : inv sc (m - 1) s Al
  dom : dom sc s.view m Al
  all : ∀ A1 q A2, A = A1 ++ q :: A2 → val_at sc s.view m A1 q
  out : ∀ p, p ∉ A → s.view.ign p = E.ign p ∧ s.view.dr p = E.dr p
  ar : ∀ p i, m < i → s.view.ar p i = E.ar p i
  vl : ∀ p i, m < i → s.view.vl p i = E.vl p i
  bd : ∀ i, m ≤ i → s.view.bd i = E.bd i
  hi : ∀ p, (m : Int) < E.ign p ∨ (m : Int) < s.view.ign p → s.view.ign p = E.ign p
  xs : s.xs = xs0

/-- The facts about the chain `L` of dimension `m` and the view `E` after the
reset loop that the two loops of the general case rely on. -/
structure gctx (sc : scene α) (m : Nat) (E : view α) (L : List Nat) : Prop where
  ok : sc.ok
  two_lt : 2 < m
  lt_d : m < sc.d
  nodup : L.Nodup
  sub : ∀ p, p ∈ L → p ∈ sc.ord 0
  before : ∀ r p, Before L r p → Before (sc.ord m) r p
  linked : ∀ i, 2 ≤ i → i < m → Linked (E.nx i) (E.pv i) 0 (sc.chain i L) 0
  top : Linked (E.nx m) (E.pv m) 0 L 0
  sorted : L.Pairwise (fun a b => sc.X a m ≤ sc.X b m)
  val_top : val sc E m L
  val_low : ∀ i, 2 ≤ i → i < m → val sc E i (sc.chain i L)
  stair : stair sc E L
  fl : flagged sc m E L

/-- The view after the reset loop. -/
def view.reset (v : view α) (m : Nat) (L : List Nat) : view α :=
  { v with ign := fun p => if p ∈ L ∧ v.ign p < (m : Int) then 0 else v.ign p }

end

/-! ## The AVL tree operations: definitions -/

section
variable {α : Type}

/-- Shape of a binary tree whose nodes are node indices. -/
inductive tr where
  | nil : tr
  | node : tr → Nat → tr → tr

/-- The root of a tree, `NULL` for the empty tree. -/
def tr.root : tr → Option Nat
  | .nil => none
  | .node _ k _ => some k

/-- The nodes of a tree in in-order. -/
def tr.inorder : tr → List Nat
  | .nil => []
  | .node l k r => l.inorder ++ k :: r.inorder

/-- The `parent`, `left` and `right` pointers of the memory are those of the
tree `t` hanging below the node `par`. -/
def rep (m : avl_mem α) : tr → Option Nat → Prop
  | .nil, _ => True
  | .node l k r, par =>
    (m.node k).parent = par ∧ (m.node k).left = l.root ∧ (m.node k).right = r.root ∧
      rep m l (some k) ∧ rep m r (some k)

/-- One step of the path from a subtree to the root: the subtree is the left
child of `k`, whose right subtree is `r`, or the right child of `k`, whose
left subtree is `l`. -/
inductive frm where
  | L : Nat → tr → frm
  | R : tr → Nat → frm

/-- The tree obtained by hanging `t` into the hole of a path. -/
def plug : List frm → tr → tr
  | [], t => t
  | frm.L k r :: c, t => plug c (tr.node t k r)
  | frm.R l k :: c, t => plug c (tr.node l k t)

/-- The parent of the hole of a path. -/
def cpar : List frm → Option Nat
  | [] => none
  | frm.L k _ :: _ => some k
  | frm.R _ k :: _ => some k

/-- The nodes on and beside a path. -/
def ckeys : List frm → List Nat
  | [] => []
  | frm.L k r :: c => k :: r.inorder ++ ckeys c
  | frm.R l k :: c => k :: l.inorder ++ ckeys c

/-- The pointers of the memory are those of the path `c`, the pointer to the
hole being `h`. -/
def crep (m : avl_mem α) : List frm → Option Nat → Prop
  | [], h => m.tree.top = h
  | frm.L k r :: c, h =>
    (m.node k).left = h ∧ (m.node k).right = r.root ∧ (m.node k).parent = cpar c ∧
      rep m r (some k) ∧ crep m c (some k)
  | frm.R l k :: c, h =>
    (m.node k).right = h ∧ (m.node k).left = l.root ∧ (m.node k).parent = cpar c ∧
      rep m l (some k) ∧ crep m c (some k)

/-- The first node of a list of nodes, `q` for the empty list. -/
def headOr (T : List Nat) (q : Option Nat) : Option Nat :=
  match T with
  | [] => q
  | x :: _ => some x

/-- The last node of a list of nodes, `p` for the empty list. -/
def lastOr : List Nat → Option Nat → Option Nat
  | [], p => p
  | x :: T, _ => lastOr T (some x)

/-- The `prev` and `next` pointers thread the list `T`, coming from `p` and
going on to `q`. -/
def thr (m : avl_mem α) : Option Nat → List Nat → Option Nat → Prop
  | _, [], _ => True
  | p, x :: T, q => (m.node x).prev = p ∧ (m.node x).next = headOr T q ∧ thr m (some x) T q

/-- The memory holds a tree whose in-order sequence is `T`. -/
def tree_list (m : avl_mem α) (T : List Nat) : Prop :=
  ∃ t, m.tree.top = t.root ∧ rep m t none ∧ t.inorder = T ∧ T.Nodup ∧ thr m none T none ∧
    m.tree.head = headOr T none ∧ m.tree.tail = lastOr T none

/-- The nodes left of the hole of a path, in in-order. -/
def cleft : List frm → List Nat
  | [] => []
  | frm.L _ _ :: c => cleft c
  | frm.R l k :: c => cleft c ++ l.inorder ++ [k]

/-- The nodes right of the hole of a path, in in-order. -/
def cright : List frm → List Nat
  | [] => []
  | frm.L k r :: c => k :: r.inorder ++ cright c
  | frm.R _ _ :: c => cright c

/-- The pointer to the subtree that the path hangs in: the topmost node of
the path, `h` for the empty path. -/
def ctop : List frm → Option Nat → Option Nat
  | [], h => h
  | frm.L k _ :: c, _ => ctop c (some k)
  | frm.R _ k :: c, _ => ctop c (some k)

/-- Every step of the path goes to a right child. -/
def rspine : List frm → Prop
  | [] => True
  | frm.L _ _ :: _ => False
  | frm.R _ _ :: c => rspine c

/-- The rebalancing leaves `prev`, `next`, `item` and `domr` of every node and
`head` and `tail` as they are. -/
def keeps (m m' : avl_mem α) : Prop :=
  (∀ k, (m'.node k).next = (m.node k).next ∧ (m'.node k).prev = (m.node k).prev ∧
    (m'.node k).item = (m.node k).item ∧ (m'.node k).domr = (m.node k).domr) ∧
  m'.tree.head = m.tree.head ∧ m'.tree.tail = m.tree.tail

/-- The side test `avlnode == parent->left` of `avl_rebalance_step`. -/
def side (m : avl_mem α) (par : Option Nat) (k : Nat) (isL : Bool) : Prop :=
  ∀ p, par = some p → (isL = true ↔ (m.node p).left = some k)

/-- The `prev` and `next` pointers and `head` and `tail` after the node `k` was
taken out of the thread. -/
def unthreaded (m m0 : avl_mem α) (k : Nat) : Prop :=
  (∀ j, (m0.node j).next =
    if (m.node k).prev = some j then (m.node k).next else (m.node j).next) ∧
  (∀ j, (m0.node j).prev =
    if (m.node k).next = some j then (m.node k).prev else (m.node j).prev) ∧
  (∀ j, (m0.node j).item = (m.node j).item ∧ (m0.node j).domr = (m.node j).domr) ∧
  m0.tree.head = (if (m.node k).prev = none then (m.node k).next else m.tree.head) ∧
  m0.tree.tail = (if (m.node k).next = none then (m.node k).prev else m.tree.tail)

end

/-! ## The sweep of `dim == 2`: definitions -/

section
variable {α : Type} [LinearOrderedCommRing α]

/-- Area below a staircase of nodes, listed by descending coordinate 1, from
height `top` of coordinate 1 downwards: every node adds the strip between its
own height and that of its predecessor. -/
def stair_area (sc : scene α) : α → List Nat → α
  | _, [] => 0
  | top, t :: T => (sc.ref 0 - sc.X t 0) * (top - sc.X t 1) + stair_area sc (sc.X t 1) T

/-- Coordinate 1 of the last node of a list, `top` for the empty list. -/
def prv1 (sc : scene α) : α → List Nat → α
  | top, [] => top
  | _, t :: T => prv1 sc (sc.X t 1) T

/-- Coordinate 0 of the first node of a list, `ref[0]` for the empty list. -/
def nxt0 (sc : scene α) : List Nat → α
  | [] => sc.ref 0
  | v :: _ => sc.X v 0

/-- The nodes of the list form a staircase: coordinate 0 ascends and
coordinate 1 descends, both strictly. -/
def stairs (sc : scene α) (T : List Nat) : Prop :=
  T.Pairwise (fun a b => sc.X a 0 < sc.X b 0 ∧ sc.X b 1 < sc.X a 1)

/-- What is fixed during a call of `hv_recursive` with `dim == 2` on the node
set `S`: the scene and the chain of dimension 2, as the memory `E` at the
call links it. -/
structure d2ctx (sc : scene α) (S : List Nat) (E : view α) : Prop where
  ok : sc.ok
  d3 : 2 < sc.d
  sub : ∀ p, p ∈ S → p ∈ sc.ord 0
  nodup : S.Nodup
  linked : Linked (E.nx 2) (E.pv 2) 0 (sc.chain 2 S) 0

/-- The height up to which the volume is known before the first node of
`Rest` is swept: its coordinate 2, `ref[2]` after the last node. -/
def zn (sc : scene α) : List Nat → α
  | [] => sc.ref 2
  | p :: _ => sc.X p 2

/-- The item of the first node of a list, `ref` for the empty list. -/
def nxtp (sc : scene α) : List Nat → Nat → α
  | [] => sc.ref
  | v :: _ => sc.X v

/-- The item of the last node of a list, `ref` for the empty list. -/
def prvp (sc : scene α) (T : List Nat) : Nat → α :=
  match lastOr T none with
  | some u => sc.X u
  | none => sc.ref

/-- Invariant of the main loop of `dim == 2`: the nodes `A` of the chain are
swept, the nodes `Rest` are not, and the tree holds the staircase `T`. -/
structure d2 (sc : scene α) (S : List Nat) (E : view α) (xs0 : List α × (Nat → Option Nat))
    (s : hv_mem α) (A Rest T : List Nat) : Prop where
  split : sc.chain 2 S = A ++ Rest
  st : stat sc s
  xs : s.xs = xs0
  tree : tree_list s.avl T
  tsub : ∀ t, t ∈ T → t ∈ A
  tdr : ∀ t, t ∈ T → s.view.dr t = sc.ref 2
  tign : ∀ t, t ∈ T → s.view.ign t < 2
  tst : stairs sc T
  cover : ∀ q, q ∈ A → ∃ t, t ∈ T ∧ sc.X t 0 ≤ sc.X q 0 ∧ sc.X t 1 ≤ sc.X q 1
  low : ∀ q, q ∈ A → q ∉ T → ∀ p, p ∈ Rest → s.view.dr q ≤ sc.X p 2
  val : ∀ A1 q A2, A = A1 ++ q :: A2 → val_at sc s.view 2 A1 q
  dom : dom sc s.view 2 S
  own : own sc s.view S
  bdlt : s.view.bd 2 < sc.ref 2
  stair : ∀ b, b ≤ s.view.bd 2 → (∀ p, p ∈ Rest → b ≤ sc.X p 2) → stair_at sc s.view S b
  nx : s.view.nx = E.nx
  pv : s.view.pv = E.pv
  ar : ∀ p i, i ≠ 2 → s.view.ar p i = E.ar p i
  vl : ∀ p i, i ≠ 2 → s.view.vl p i = E.vl p i
  bd : ∀ i, i ≠ 2 → s.view.bd i = E.bd i
  out : ∀ p, p ∉ S → s.view.ign p = E.ign p ∧ s.view.dr p = E.dr p
  hi : ∀ p, 2 < E.ign p ∨ 2 < s.view.ign p → s.view.ign p = E.ign p

/-- Invariant of the loop that connects the nodes below `bound[2]` whose
`domr` is at least `bound[2]`: the nodes `A` of the chain are visited, the
tree holds the staircase `T` of the visited nodes with `domr ≥ bound[2]`,
and only `domr` of the tree nodes has changed with respect to the view `V`
and the `domr` values `dr0`. -/
structure c2 (sc : scene α) (S : List Nat) (V : view α) (dr0 : Nat → α)
    (xs0 : List α × (Nat → Option Nat)) (s : hv_mem α) (A Rest T : List Nat) : Prop where
  split : sc.chain 2 S = A ++ Rest
  st : stat sc s
  xs : s.xs = xs0
  tree : tree_list s.avl T
  tst : stairs sc T
  tmem : ∀ t, t ∈ T ↔ t ∈ A ∧ V.bd 2 ≤ dr0 t
  tdr : ∀ t, t ∈ T → s.view.dr t = sc.ref 2
  odr : ∀ t, t ∉ T → s.view.dr t = dr0 t
  nx : s.view.nx = V.nx
  pv : s.view.pv = V.pv
  ign : s.view.ign = V.ign
  ar : s.view.ar = V.ar
  vl : s.view.vl = V.vl
  bd : s.view.bd = V.bd

/-- The part of branch `dim == 2` from `pp = pp->prev[2]` after the loop that
rebuilds the tree, `p` being the node at which that loop stopped. -/
def hv_dim2_sweep (fuel : Nat) (ref : Nat → α) (s : hv_mem α) (list p : Nat) :
    Option (α × hv_mem α) :=
  let pp := (s.node p).prev 2
  let hyperv := (s.node pp).vol 2
  let hypera := (s.node pp).area 2
  let height : Option α :=
    match s.X pp 2 with
    | none => none
    | some px2 =>
      match s.X ((s.node pp).next 2) 2 with
      | some nx2 => some (nx2 - px2)
      | none => some (ref 2 - px2)
  match height, s.X ((s.node list).prev 2) 2 with
  | some height, some b =>
    let s := s.setBound 2 b
    let hyperv := hyperv + hypera * height
    match hv_dim2_loop fuel ref list fuel s ((s.node pp).next 2) hyperv hypera with
    | none => none
    | some (s, hyperv) => some (hyperv, { s with avl := avl_clear_tree s.avl })
  | _, _ => none

/-- The part of branch `dim == 2` from `pp->ignore = 0;
avl_insert_top(tree, pp->tnode)` on, `pp` being the first node of the tree. -/
def hv_dim2_tree (fuel : Nat) (ref : Nat → α) (s : hv_mem α) (list pp : Nat) :
    Option (α × hv_mem α) :=
  let s := s.setIgnore pp 0
  let s := { s with avl := avl_insert_top s.avl pp }
  let s := { s with avl := s.avl.setDomr pp (ref 2) }
  match hv_dim2_connect fuel ref fuel s ((s.node pp).next 2) with
  | none => none
  | some (s, p) => hv_dim2_sweep fuel ref s list p

/-- The memory after `pp->ignore = 0; avl_insert_top(tree, pp->tnode);
pp->tnode->domr = ref[2];`. -/
def hv_dim2_top (ref : Nat → α) (s : hv_mem α) (pp : Nat) : hv_mem α :=
  let s := s.setIgnore pp 0
  let s := { s with avl := avl_insert_top s.avl pp }
  { s with avl := s.avl.setDomr pp (ref 2) }

/-- The memory after the assignments to the first node `pp` when every node
has to be processed, `x0` and `x1` being its first coordinates. -/
def hv_dim2_all (ref : Nat → α) (s : hv_mem α) (pp : Nat) (x0 x1 : α) : hv_mem α :=
  let s := { s with avl := s.avl.setDomr pp (ref 2) }
  let s := s.setArea pp 2 ((ref 0 - x0) * (ref 1 - x1))
  let s := s.setVol pp 2 0
  s.setIgnore pp 0

end

/-! ## Functional correctness of `fpli_hv`: definitions -/

section
variable {α : Type} [LinearOrderedCommRing α]

/-- The memories agree on `bound`, on the tree and on every `ignore`. -/
def same_aux (s s' : hv_mem α) : Prop :=
  s'.bound = s.bound ∧ s'.avl = s.avl ∧ ∀ p, (s'.node p).ignore = (s.node p).ignore

/-- The first `n` points of the buffer, each as the list of its `d`
coordinates. -/
def points (data : List α) (d n : Nat) : List (List α) :=
  (List.range n).map (fun k => (List.range d).map (point_of data d k))

/-- The point with the coordinates of the list. -/
def of_coords (l : List α) : Nat → α := fun i => l.getD i 0

/-- The extension of a permutation of the `d` coordinate indices to all
natural numbers. -/
def perm_index {d : Nat} (σ : Equiv.Perm (Fin d)) (i : Nat) : Nat :=
  if h : i < d then (σ ⟨i, h⟩).val else i

end

/-! ## Balance of the AVL tree: definitions -/

section
variable {α : Type}

/-- The height of a tree: the number of nodes on its longest path. -/
def tr.height : tr → Nat
  | .nil => 0
  | .node l _ r => max l.height r.height + 1

/-- The heights of the two subtrees of every node differ by at most one. -/
def tr.bal : tr → Prop
  | .nil => True
  | .node l _ r => l.height ≤ r.height + 1 ∧ r.height ≤ l.height + 1 ∧ l.bal ∧ r.bal

/-- The field `depth` of every node of the tree is the height of its subtree. -/
def dep (m : avl_mem α) : tr → Prop
  | .nil => True
  | .node l k r => (m.node k).depth = max l.height r.height + 1 ∧ dep m l ∧ dep m r

/-- The subtrees beside a path are balanced with correct `depth` fields, and
every node of the path is balanced when a subtree of height `h` hangs in the
hole. -/
def cgood (m : avl_mem α) : List frm → Nat → Prop
  | [], _ => True
  | frm.L _ r :: c, h =>
    dep m r ∧ r.bal ∧ h ≤ r.height + 1 ∧ r.height ≤ h + 1 ∧
      cgood m c (max h r.height + 1)
  | frm.R l _ :: c, h =>
    dep m l ∧ l.bal ∧ h ≤ l.height + 1 ∧ l.height ≤ h + 1 ∧
      cgood m c (max l.height h + 1)

/-- The height of the tree of a path with a subtree of height `h` in the hole. -/
def cheight : List frm → Nat → Nat
  | [], h => h
  | frm.L _ r :: c, h => cheight c (max h r.height + 1)
  | frm.R l _ :: c, h => cheight c (max l.height h + 1)

/-- The value of `CALC_DEPTH` for children of depths `a` and `b`. -/
def cdepth (a b : Nat) : Nat := ((if a > b then a else b) + 1) % 256

/-- The depth that the rebalancing reads through the pointer `x` when the
nodes `S` have their new depth already. -/
def nd (m m1 : avl_mem α) (S : List Nat) (x : Option Nat) : Nat :=
  match x with
  | some i => if i ∈ S then (m1.node i).depth else (m.node i).depth
  | none => 0

/-- The depth that the rebalancing reads at the root of `t` is the height of
`t`. -/
def rd (m m1 : avl_mem α) (S : List Nat) (t : tr) : Prop := nd m m1 S t.root = t.height

/-- Postcondition of one iteration of `avl_rebalance` at the node `k` with the
subtrees `l` and `r` below the path `c`: the memory `m1` holds the subtree `t1`
in place of `k`, balanced and with correct depths, and the height of `t1` is
that of the higher of `l` and `r`, or one more. -/
def step_post (m : avl_mem α) (c : List frm) (l r : tr) (k : Nat) (m1 : avl_mem α) (t1 : tr) :
    Prop :=
  avl_rebalance_step m k = some (m1, cpar c) ∧ rep m1 t1 (cpar c) ∧
    crep m1 c t1.root ∧ t1.inorder = (tr.node l k r).inorder ∧ keeps m m1 ∧
    dep m1 t1 ∧ t1.bal ∧ max l.height r.height ≤ t1.height ∧
    t1.height ≤ max l.height r.height + 1 ∧
    (l.height ≤ r.height + 1 → r.height ≤ l.height + 1 →
      t1.height = max l.height r.height + 1) ∧
    ∀ j, j ∉ (tr.node l k r).inorder → (m1.node j).depth = (m.node j).depth

/-- The number of nodes of a tree. -/
def tr.size : tr → Nat
  | .nil => 0
  | .node l _ r => l.size + r.size + 1

/-- The memory holds a tree with the in-order sequence `T` that is
height-balanced and in which the `depth` of every node is the height of its
subtree. -/
def avl_ok (m : avl_mem α) (T : List Nat) : Prop :=
  ∃ t, m.tree.top = t.root ∧ rep m t none ∧ t.inorder = T ∧ t.bal ∧ dep m t

/-- At every node of `T` the `depth` field is one more than the larger of the
depths of the two children (`0` for a missing child), and the depths of the
two children differ by at most one. -/
def depth_local (m : avl_mem α) (T : List Nat) : Prop :=
  ∀ k, k ∈ T → (m.node k).depth = max (L_DEPTH m k) (R_DEPTH m k) + 1 ∧
    L_DEPTH m k ≤ R_DEPTH m k + 1 ∧ R_DEPTH m k ≤ L_DEPTH m k + 1

/-- The tree that holds the single node `1`, over the integers. -/
def avl_one : avl_mem Int := avl_insert_top (setup_init ([] : List Int) 0).avl 1

end

/-! ## Contracts of the tree and list operations: definitions -/

section
variable {α : Type} [LinearOrderedCommRing α]

/-- The tree order as the specification words it: `a` sorts before `b` when
`a[1] > b[1]`, or when the second coordinates are equal and `a[0] < b[0]`. -/
def tree_order_spec (a b : Nat → α) : Prop := a 1 > b 1 ∨ (a 1 = b 1 ∧ a 0 < b 0)

/-- A memory whose chain of dimension 2 runs from the sentinel `0` through the
nodes `1` and `2` back to the sentinel; nodes 1 and 2 have coordinates. -/
def chain_example : hv_mem Int :=
  ((((setup_init ([1, 2, 3, 4, 5, 6, 7, 8, 9] : List Int) 3).setNext 0 2 1).setNext 1 2 2).setPrev
    2 2 1).setPrev 0 2 2

end

/-! ## Links of the reachable trees: definitions -/

section
variable {α : Type}

/-- The trees reachable from `avl_insert_top` by `avl_insert_before` and
`avl_insert_after` of a fresh node at an anchor of the tree that has no child
on the side used, and by `avl_unlink_node` of a node of the tree; the list is
the in-order sequence that the operations are meant to produce. `fuel` bounds
the loop of `avl_rebalance` and is at least the number of nodes. -/
inductive avl_reach : avl_mem α → List Nat → Prop where
  | top (m : avl_mem α) (p : Nat) : avl_reach (avl_insert_top m p) [p]
  | before {m m' : avl_mem α} {A B : List Nat} {node p : Nat} (fuel : Nat) :
    avl_reach m (A ++ node :: B) → p ∉ A ++ node :: B → (m.node node).left = none →
    (A ++ node :: B).length ≤ fuel → avl_insert_before fuel m (some node) p = some m' →
    avl_reach m' (A ++ p :: node :: B)
  | after {m m' : avl_mem α} {A B : List Nat} {node p : Nat} (fuel : Nat) :
    avl_reach m (A ++ node :: B) → p ∉ A ++ node :: B → (m.node node).right = none →
    (A ++ node :: B).length ≤ fuel → avl_insert_after fuel m (some node) p = some m' →
    avl_reach m' (A ++ node :: p :: B)
  | unlink {m m' : avl_mem α} {A B : List Nat} {node : Nat} (fuel : Nat) :
    avl_reach m (A ++ node :: B) → (A ++ node :: B).length ≤ fuel →
    avl_unlink_node fuel m node = some m' → avl_reach m' (A ++ B)

/-- The `prev`/`next` links enumerate the nodes in the order of `T`, `head`
and `tail` are the first and the last node of `T`, every child of a node of
`T` is a node of `T` whose `parent` is that node, and the root `top` is a node
of `T` without parent (there is no root when `T` is empty). -/
def links_inorder (m : avl_mem α) (T : List Nat) : Prop :=
  (∀ i x, T[i]? = some x →
    (m.node x).prev = (if i = 0 then none else T[i - 1]?) ∧ (m.node x).next = T[i + 1]?) ∧
  m.tree.head = T.head? ∧ m.tree.tail = T.getLast? ∧
  (∀ k, k ∈ T → ∀ c, (m.node k).left = some c ∨ (m.node k).right = some c →
    c ∈ T ∧ (m.node c).parent = some k) ∧
  (∀ r, m.tree.top = some r → r ∈ T ∧ (m.node r).parent = none) ∧
  (T = [] → m.tree.top = none)

end

/-! ## The sweep of three dimensions and the recursion of VARIANT 1: definitions -/

section
variable {α : Type} [LinearOrderedCommRing α]

/-- The sum over the points `p` of the second list, in order, of (the area
of the union of the rectangles `[(q[0], q[1]), (ref[0], ref[1])]` of the
points `q` swept so far, `p` included) times (the distance from `p[2]` to
coordinate 2 of the next point, or to `ref[2]` for the last point); the first
list holds the points swept before. -/
def sweep3 (ref : Nat → α) : List (Nat → α) → List (Nat → α) → α
  | _, [] => 0
  | swept, p :: rest =>
    union_volume 2 ref (swept ++ [p]) * ((match rest with | [] => ref 2 | q :: _ => q 2) - p 2)
      + sweep3 ref (swept ++ [p]) rest

/-- The global `int stop_dimension = 1` of VARIANT 1 (`VARIANT < 4`). -/
def stop_dimension_v1 : Nat := 1

/-- Function `delete` as compiled with `VARIANT == 1`: the parameter `bound`
is unused. -/
def delete_v1 (s : hv_mem α) (nodep dim : Nat) : hv_mem α :=
  go (dim - stop_dimension_v1) stop_dimension_v1 s
where
  /-- The loop `for (i = stop_dimension; i < dim; i++)`, `k` iterations left. -/
  go : Nat → Nat → hv_mem α → hv_mem α
  | 0, _, s => s
  | k + 1, i, s =>
    let s := s.setNext ((s.node nodep).prev i) i ((s.node nodep).next i)
    let s := s.setPrev ((s.node nodep).next i) i ((s.node nodep).prev i)
    go k (i + 1) s

/-- Function `reinsert` as compiled with `VARIANT == 1`. -/
def reinsert_v1 (s : hv_mem α) (nodep dim : Nat) : hv_mem α :=
  go (dim - stop_dimension_v1) stop_dimension_v1 s
where
  /-- The loop `for (i = stop_dimension; i < dim; i++)`, `k` iterations left. -/
  go : Nat → Nat → hv_mem α → hv_mem α
  | 0, _, s => s
  | k + 1, i, s =>
    let s := s.setNext ((s.node nodep).prev i) i nodep
    let s := s.setPrev ((s.node nodep).next i) i nodep
    go k (i + 1) s

/-- The first loop `while (c > 1)` of the general case as compiled with
`VARIANT == 1`; returns the memory and `(p0, p1, c)`. -/
def hv_delete_loop_v1 (dim : Nat) :
    Nat → hv_mem α → Nat → Nat → Nat → Option (hv_mem α × Nat × Nat × Nat)
  | 0, _, _, _, _ => none
  | fuel + 1, s, p0, p1, c =>
    if c > 1 then
      let s := delete_v1 s p1 dim
      hv_delete_loop_v1 dim fuel s p1 ((s.node p1).prev dim) (c - 1)
    else some (s, p0, p1, c)

/-- The second loop `while (p0->x != NULL)` of the general case as compiled
with `VARIANT == 1`; `recur` is `hv_recursive(list, dim-1, ·, ref, NULL)`.
Returns the memory, `p1`, `hyperv` and `hypera`. -/
def hv_reinsert_loop_v1 (dim : Nat) (recur : hv_mem α → Nat → Option (α × hv_mem α)) :
    Nat → hv_mem α → Nat → Nat → Nat → α → α → Option (hv_mem α × Nat × α × α)
  | 0, _, _, _, _, _, _ => none
  | fuel + 1, s, p0, p1, c, hyperv, hypera =>
    match (s.node p0).x with
    | none => some (s, p1, hyperv, hypera)
    | some _ =>
      match s.X p0 dim, s.X p1 dim with
      | some p0x, some p1x =>
        let hyperv := hyperv + hypera * (p0x - p1x)
        let c := c + 1
        let s := reinsert_v1 s p0 dim
        match recur s c with
        | none => none
        | some (hypera, s) =>
          hv_reinsert_loop_v1 dim recur fuel s ((s.node p0).next dim) p0 c hyperv hypera
      | _, _ => none

/-- The general case `dim > stop_dimension` of `hv_recursive` as compiled with
`VARIANT == 1`: every point is deleted, and the recursive call is made after
every reinsertion; nothing is skipped or cached. -/
def hv_general_v1 (fuel : Nat) (ref : Nat → α) (dim : Nat)
    (recur : hv_mem α → Nat → Option (α × hv_mem α))
    (s : hv_mem α) (list c : Nat) : Option (α × hv_mem α) :=
  let p0 := list
  let p1 := (s.node list).prev dim
  match hv_delete_loop_v1 dim fuel s p0 p1 c with
  | none => none
  | some (s, p0, p1, c) =>
    match recur s c with
    | none => none
    | some (hypera, s) =>
      match hv_reinsert_loop_v1 dim recur fuel s p0 p1 c 0 hypera with
      | none => none
      | some (s, p1, hyperv, hypera) =>
        match s.X p1 dim with
        | none => none
        | some p1x => some (hyperv + hypera * (ref dim - p1x), s)

/-- Function `hv_recursive` as compiled with `VARIANT == 1`
(`stop_dimension = 1`): the general case for `dim > 1`, the sweep of branch
`dim == 1`, and branch `dim == 0`; branch `dim == 2` is never reached. -/
def hv_recursive_v1 (fuel : Nat) (ref : Nat → α) (list : Nat) :
    Nat → hv_mem α → Nat → Option (α × hv_mem α)
  | 0, s, _ => hv_dim0 ref s list
  | 1, s, _ => hv_dim1 fuel ref s list
  | dim + 2, s, c =>
    hv_general_v1 fuel ref (dim + 2) (hv_recursive_v1 fuel ref list (dim + 1)) s list c

/-- Function `fpli_hv` as compiled with `VARIANT == 1`: there is no array
`bound`. Every loop is given `n + 2` iterations of fuel. -/
def fpli_hv_v1 (q : qsort_t α) (data : List α) (d n : Nat) (ref : Nat → α) : Option α :=
  match setup_cdllist q data d n with
  | none => none
  | some s =>
    match filter s d n ref with
    | none => none
    | some (s, n1) =>
      if n1 = 0 then some 0
      else if n1 = 1 then fpli_prod ref s ((s.node 0).next 0) d 0 1
      else if d = 0 then none
      else
        match hv_recursive_v1 (n + 2) ref 0 (d - 1) s n1 with
        | none => none
        | some (hyperv, _) => some hyperv

/-- The view after the deletion of the nodes `Bd` by the first loop of the
general case of dimension `m` as compiled with `VARIANT == 1`, last node
first. -/
def view.dels1 (m : Nat) (v : view α) (Bd : List Nat) : view α :=
  Bd.foldr (fun p w => w.unlink 1 m p) v

/-- Invariant of the memory at a call of `hv_recursive` (VARIANT 1) with
dimension `m` on the node set `S`: the chains `1, ..., m` hold the nodes of
`S`. -/
structure inv1 (sc : scene α) (m : Nat) (s : hv_mem α) (S : List Nat) : Prop where
  sub : ∀ p, p ∈ S → p ∈ sc.ord 0
  nodup : S.Nodup
  linked : ∀ i, 1 ≤ i → i ≤ m → Linked (s.view.nx i) (s.view.pv i) 0 (sc.chain i S) 0
  st : stat sc s

/-- Contract of `hv_recursive(list, m, c, ref, NULL)` (VARIANT 1), `f` being
the call as a function of the memory and `c`: it returns the volume of the
union of the boxes of the nodes in the first `m + 1` coordinates and leaves
the links as they were. -/
def level_spec1 (sc : scene α) (m : Nat) (f : hv_mem α → Nat → Option (α × hv_mem α)) : Prop :=
  ∀ s S, inv1 sc m s S → 1 ≤ S.length →
    ∃ s', f s S.length = some (sc.vol (m + 1) sc.ref S, s') ∧
      s'.view.nx = s.view.nx ∧ s'.view.pv = s.view.pv ∧ s'.xs = s.xs ∧ s'.avl = s.avl

end

end Hv

/-!
# NSGA-II selection (`deap/cTools.cpp`)

Shallow embedding of `selNSGA2` over an arbitrary linearly ordered commutative
ring, i.e. in exact arithmetic. The population is the list of the tuples
`fitness.wvalues` of the individuals (`fitness.values` of an individual has as
many entries as its `wvalues`); an individual is identified by its index in the
list. A read through `NULL`, an index outside a vector and exhausted loop fuel
all yield `none`. The crowding distance `lInfinity` is `none`.
-/

namespace CTools

section nsga2
variable {α : Type} [LinearOrderedCommRing α]

/-- Loop of `isDominated` (cTools.cpp lines 69-75) over the entries of
`inIndividual1`, with the flag `notEqual`. Reading `inIndividual2[i]` past its
end has no defined result (`none`). Over a linear order the last branch is
taken only for `a = b`; `isDominated_loop_double` is the same loop on values
of type `double`, where it is also taken when an operand is NaN. -/
def isDominated_loop : List α → List α → Bool → Option Bool
  | [], _, notEqual => some notEqual
  | _ :: _, [], _ => none
  | a :: as, b :: bs, notEqual =>
    if a > b then some false
    else if a < b then isDominated_loop as bs true
    else isDominated_loop as bs notEqual

/-- `isDominated` (cTools.cpp lines 66-77): true if `inIndividual1` is Pareto
dominated by `inIndividual2`. -/
def isDominated (inIndividual1 inIndividual2 : List α) : Option Bool :=
  isDominated_loop inIndividual1 inIndividual2 false

/-- One row of `lPopFit` (lines 104-105): the entries `0 .. lNbrObjectives - 1`
of the tuple `wvalues` of an individual; `PyTuple_GetItem` past the end of the
tuple is `NULL`, and `PyFloat_AS_DOUBLE` of it has no defined result. -/
def copy_row : Nat → List α → Option (List α)
  | 0, _ => some []
  | _ + 1, [] => none
  | j + 1, w :: ws => (copy_row j ws).map (fun r => w :: r)

/-- The copy of the fitness values into `lPopFit` (lines 102-106). -/
def copy_fit (lNbrObjectives : Nat) : List (List α) → Option (List (List α))
  | [] => some []
  | ind :: inds =>
    match copy_row lNbrObjectives ind, copy_fit lNbrObjectives inds with
    | some r, some rs => some (r :: rs)
    | _, _ => none

/-- The variables of the Pareto ranking of `selNSGA2` (lines 109-113). The
vectors `lDominating` and `lDominatedInds` have `lLenListIndv` entries and are
only indexed by individuals, so they are total maps here. -/
structure rank_t where
  lParetoSorted : Nat
  lFrontIndex : Nat
  lParetoFront : List (List Nat)
  lDominating : Nat → Nat
  lDominatedInds : Nat → List Nat

/-- The statement `lParetoFront[idx].push_back(x)`. -/
def push_front : List (List Nat) → Nat → Nat → List (List Nat)
  | [], _, _ => []
  | f :: fs, 0, x => (f ++ [x]) :: fs
  | f :: fs, idx + 1, x => f :: push_front fs idx x

/-- The initial values of lines 109-113. -/
def rank_init : rank_t where
  lParetoSorted := 0
  lFrontIndex := 0
  lParetoFront := [[]]
  lDominating := fun _ => 0
  lDominatedInds := fun _ => []

/-- The branch of line 119 (and of line 123 with `i` and `j` exchanged):
`lDominating[j]++; lDominatedInds[i].push_back(j)`. -/
def rank_count (st : rank_t) (i j : Nat) : rank_t :=
  { st with
    lDominating := Function.update st.lDominating j (st.lDominating j + 1)
    lDominatedInds := Function.update st.lDominatedInds i (st.lDominatedInds i ++ [j]) }

/-- Body of the inner loop of the first ranking (lines 119-126) for the pair
`i`, `j`. -/
def rank_pair (lPopFit : List (List α)) (i : Nat) (st : rank_t) (j : Nat) : Option rank_t :=
  match lPopFit[i]?, lPopFit[j]? with
  | some fi, some fj =>
    match isDominated fj fi with
    | none => none
    | some true => some (rank_count st i j)
    | some false =>
      match isDominated fi fj with
      | none => none
      | some true => some (rank_count st j i)
      | some false => some st
  | _, _ => none

/-- Lines 128-131: `i` joins the current front when nobody dominates it. -/
def rank_first_check (st : rank_t) (i : Nat) : rank_t :=
  if st.lDominating i = 0 then
    { st with
      lParetoFront := push_front st.lParetoFront st.lFrontIndex i
      lParetoSorted := st.lParetoSorted + 1 }
  else st

/-- Body of the outer loop of the first ranking (lines 116-132) for `i`: the
inner loop over `j = i + 1 .. lLenListIndv - 1`, then the test of line 128. -/
def rank_first_step (lPopFit : List (List α)) (lLenListIndv : Nat) (st : rank_t) (i : Nat) :
    Option rank_t :=
  match (List.range' (i + 1) (lLenListIndv - (i + 1))).foldlM (rank_pair lPopFit i) st with
  | none => none
  | some st => some (rank_first_check st i)

/-- The ranking of the first Pareto front (lines 115-132). -/
def rank_first (lPopFit : List (List α)) (lLenListIndv : Nat) : Option rank_t :=
  (List.range lLenListIndv).foldlM (rank_first_step lPopFit lLenListIndv) rank_init

/-- Lines 141-145 for one dominated individual `lIndiceD`; the counter is an
`unsigned int`, so decrementing 0 gives `2^32 - 1`. -/
def peel_one (st : rank_t) (lIndiceD : Nat) : rank_t :=
  let c := if st.lDominating lIndiceD = 0 then 4294967295 else st.lDominating lIndiceD - 1
  let st1 := { st with lDominating := Function.update st.lDominating lIndiceD c }
  if c = 0 then
    { st1 with
      lParetoFront := push_front st1.lParetoFront st1.lFrontIndex lIndiceD
      lParetoSorted := st1.lParetoSorted + 1 }
  else st1

/-- Body of the loop of line 135 (lines 136-147): a new empty front is pushed,
and the individuals dominated by the members of the previous front are
visited. The previous front and `lDominatedInds` are not written by the loops,
so the loops run over their values at entry. -/
def peel_front (st : rank_t) : rank_t :=
  let st1 := { st with
    lFrontIndex := st.lFrontIndex + 1
    lParetoFront := st.lParetoFront ++ [[]] }
  (st1.lParetoFront.getD (st1.lFrontIndex - 1) []).foldl
    (fun st lIndiceP => (st.lDominatedInds lIndiceP).foldl peel_one st) st1

/-- The loop of lines 135-148, for at most `fuel` iterations. -/
def rank_others (k lLenListIndv : Nat) : Nat → rank_t → Option rank_t
  | 0, st => if st.lParetoSorted < k ∧ st.lParetoSorted < lLenListIndv then none else some st
  | fuel + 1, st =>
    if st.lParetoSorted < k ∧ st.lParetoSorted < lLenListIndv then
      rank_others k lLenListIndv fuel (peel_front st)
    else some st

/-- The loop of lines 151-159: whole fronts are appended to the selection
while they fit in `k`. An individual is identified by its index in
`lListIndv`. -/
def append_fronts (k : Nat) : List (List Nat) → List Nat → List Nat
  | [], lListSelect => lListSelect
  | f :: fs, lListSelect =>
    if lListSelect.length + f.length ≤ k then append_fronts k fs (lListSelect ++ f)
    else lListSelect

/-- The comparison of `FitComp` (lines 19-21) on objective `mCompIndex`; the
rows of `lPopFit` have `lNbrObjectives` entries, and the index is below it. -/
def FitComp (mCompIndex : Nat) (a b : List α × Nat) : Bool :=
  decide (a.1.getD mCompIndex 0 < b.1.getD mCompIndex 0)

/-- The library function `std::stable_sort(first, last, comp)`: the sorted
rearrangement that keeps elements equivalent for `comp` in their order (there
is only one, whatever algorithm the library uses). -/
def stable_sort {β : Type} (comp : β → β → Bool) (l : List β) : List β :=
  l.insertionSort (fun a b => comp b a = false)

/-- A crowding distance: `none` is `lInfinity`. -/
abbrev dist_t (α : Type) : Type := Option α

/-- The comparison `a < b` of two distances, `lInfinity` above every number. -/
def dist_lt : dist_t α → dist_t α → Bool
  | some a, some b => decide (a < b)
  | some _, none => true
  | none, _ => false

/-- `crowdDistComp` (lines 62-64). -/
def crowdDistComp (a b : dist_t α × Nat) : Bool := dist_lt a.1 b.1

/-- The variables of the crowding distance pass: the first components of
`lDistances` by position (the second components are `lLastParetoFront` and are
never written), and `lCrowdingList`. -/
structure crowd_t (α : Type) where
  lDistances : Nat → dist_t α
  lCrowdingList : List (List α × Nat)

/-- Lines 175-181: distance 0 for every position, and the pairs (fitness of
`lLastParetoFront[i]`, `i`). -/
def crowd_init (lPopFit : List (List α)) (lLastParetoFront : List Nat) : crowd_t α where
  lDistances := fun _ => some 0
  lCrowdingList := lLastParetoFront.enum.map (fun p => (lPopFit.getD p.2 [], p.1))

/-- Lines 195-196 for the position `j` of the sorted `lCrowdingList`. The sum
is exact here; `crowd_gap_double` is the same statement in `double`
arithmetic, where it rounds and can overflow to `lInfinity`. -/
def crowd_gap (i : Nat) (cl : List (List α × Nat)) (lDistances : Nat → dist_t α) (j : Nat) :
    Nat → dist_t α :=
  match lDistances (cl.getD j ([], 0)).2 with
  | some v =>
    Function.update lDistances (cl.getD j ([], 0)).2
      (some (v + ((cl.getD (j + 1) ([], 0)).1.getD i 0 - (cl.getD (j - 1) ([], 0)).1.getD i 0)))
  | none => lDistances

/-- Body of the loop over the objectives (lines 186-197) for objective `i`.
`lCrowdingList[0]` of an empty list has no defined result. -/
def crowd_objective (st : crowd_t α) (i : Nat) : Option (crowd_t α) :=
  let cl := stable_sort (FitComp i) st.lCrowdingList
  match cl.head?, cl.getLast? with
  | some first, some last =>
    let d := Function.update (Function.update st.lDistances first.2 none) last.2 none
    some { lCrowdingList := cl
           lDistances := (List.range' 1 (cl.length - 2)).foldl (crowd_gap i cl) d }
  | _, _ => none

/-- The crowding distances of the last front (lines 165-198). -/
def crowd_distances (lPopFit : List (List α)) (lNbrObjectives : Nat)
    (lLastParetoFront : List Nat) : Option (crowd_t α) :=
  (List.range lNbrObjectives).foldlM crowd_objective (crowd_init lPopFit lLastParetoFront)

/-- The loop of lines 204-209 from position `i` of the sorted `lDistances`.
The counter is an `unsigned int`: `i >= 0` always holds and `i--` at 0 gives
`2^32 - 1`; `lDistances[i]` outside the vector has no defined result. -/
def pick_last (k : Nat) (ds : List (dist_t α × Nat)) : Nat → Nat → List Nat → Option (List Nat)
  | 0, _, _ => none
  | fuel + 1, i, lListSelect =>
    if k ≤ lListSelect.length then some lListSelect
    else
      match ds[i]? with
      | none => none
      | some d =>
        pick_last k ds fuel (if i = 0 then 4294967295 else i - 1) (lListSelect ++ [d.2])

/-- The copy of the fitness values and the Pareto ranking of `selNSGA2`
(lines 99-148): `lPopFit` and the ranking variables after the loop of line
135. -/
def selNSGA2_rank (lListIndv : List (List α)) (lLenListIndv lNbrObjectives k : Nat) :
    Option (List (List α) × rank_t) :=
  match copy_fit lNbrObjectives (lListIndv.take lLenListIndv) with
  | none => none
  | some lPopFit =>
    match rank_first lPopFit lLenListIndv with
    | none => none
    | some st =>
      match rank_others k lLenListIndv lLenListIndv st with
      | none => none
      | some st => some (lPopFit, st)

/-- The vector `lDistances` after the crowding distance pass: the distance of
every position of `lLastParetoFront` with the individual at that position. -/
def dist_list (lDistances : Nat → dist_t α) (lLastParetoFront : List Nat) :
    List (dist_t α × Nat) :=
  lLastParetoFront.enum.map (fun p => (lDistances p.1, p.2))

/-- The selection of `selNSGA2` from the ranked fronts (lines 150-211). -/
def selNSGA2_select (lNbrObjectives : Nat) (lPopFit : List (List α)) (st : rank_t) (k : Nat) :
    Option (List Nat) :=
  let lListSelect := append_fronts k st.lParetoFront []
  if lListSelect.length = k then some lListSelect
  else
    match st.lParetoFront.getLast? with
    | none => none
    | some lLastParetoFront =>
      match crowd_distances lPopFit lNbrObjectives lLastParetoFront with
      | none => none
      | some c =>
        let lDistances := stable_sort crowdDistComp (dist_list c.lDistances lLastParetoFront)
        pick_last k lDistances (lDistances.length + 1)
          (if lDistances.length = 0 then 4294967295 else lDistances.length - 1)
          lListSelect

/-- `selNSGA2` (lines 79-212) on the list of the `wvalues` of the individuals
and `k`; the result lists the selected individuals by their index in
`lListIndv`. The casts to `unsigned int` of lines 93-94 keep the low 32 bits.
Line 94 reads individual 0, which is `NULL` for an empty list, before
`k == 0` is tested. -/
def selNSGA2 (lListIndv : List (List α)) (k : Nat) : Option (List Nat) :=
  match lListIndv with
  | [] => none
  | ind0 :: _ =>
    if k = 0 then some []
    else
      match selNSGA2_rank lListIndv (lListIndv.length % 4294967296)
          (ind0.length % 4294967296) k with
      | none => none
      | some (lPopFit, st) =>
        selNSGA2_select (ind0.length % 4294967296) lPopFit st k

/-- Pareto dominance on fitness vectors (maximisation): `a` dominates `b` when
`a[i] ≥ b[i]` for every objective and `a[i] > b[i]` for at least one. -/
def dominates (a b : List α) : Prop :=
  (∀ (i : Nat) (x y : α), a[i]? = some x → b[i]? = some y → y ≤ x) ∧
    ∃ (i : Nat) (x y : α), a[i]? = some x ∧ b[i]? = some y ∧ y < x

/-- The test "individual `x` dominates individual `y`" as `selNSGA2` makes it
(line 119): `isDominated(lPopFit[y], lPopFit[x])`. -/
def dom_ind (lPopFit : List (List α)) (x y : Nat) : Bool :=
  match lPopFit[x]?, lPopFit[y]? with
  | some fx, some fy => isDominated fy fx == some true
  | _, _ => false

/-- A population whose fitness vectors all have `m` entries. -/
def wf_pop (pop : List (List α)) (m : Nat) : Prop := ∀ ind, ind ∈ pop → ind.length = m

instance wf_pop_decidable (pop : List (List α)) (m : Nat) : Decidable (wf_pop pop m) :=
  inferInstanceAs (Decidable (∀ ind, ind ∈ pop → ind.length = m))

/-- The pairs of distinct individuals `x`, `y` below `n` that the first
ranking has compared when its outer loop is at `i` and its inner loop at
`j0`. -/
def seen (n i j0 x y : Nat) : Bool :=
  decide (x ≠ y ∧ x < n ∧ y < n ∧ (x < i ∨ y < i ∨ (x = i ∧ y < j0) ∨ (y = i ∧ x < j0)))

/-- Invariant of the loops of the first ranking (lines 116-132). -/
structure first_inv (fit : List (List α)) (i j0 : Nat) (st : rank_t) : Prop where
  cnt : ∀ x, st.lDominating x =
    (List.range fit.length).countP (fun y => dom_ind fit y x && seen fit.length i j0 x y)
  inds_nodup : ∀ x, (st.lDominatedInds x).Nodup
  inds_mem : ∀ x y, y ∈ st.lDominatedInds x ↔
    (dom_ind fit x y = true ∧ seen fit.length i j0 x y = true)
  idx : st.lFrontIndex = 0
  front : st.lParetoFront = [(List.range i).filter
    (fun x => (List.range fit.length).all (fun y => !dom_ind fit y x))]
  sorted : st.lParetoSorted = ((List.range i).filter
    (fun x => (List.range fit.length).all (fun y => !dom_ind fit y x))).length

/-- Invariant of the loop of line 135: `pre` are the fronts before the last
one, `cur` is the last front. -/
structure rank_inv (fit : List (List α)) (pre : List (List Nat)) (cur : List Nat)
    (st : rank_t) : Prop where
  front : st.lParetoFront = pre ++ [cur]
  idx : st.lFrontIndex = pre.length
  sorted : st.lParetoSorted = (pre ++ [cur]).flatten.length
  nodup : (pre ++ [cur]).flatten.Nodup
  lt : ∀ x, x ∈ (pre ++ [cur]).flatten → x < fit.length
  cnt : ∀ x, st.lDominating x =
    (List.range fit.length).countP (fun y => dom_ind fit y x && !decide (y ∈ pre.flatten))
  done : ∀ x, x < fit.length → (x ∈ (pre ++ [cur]).flatten ↔ st.lDominating x = 0)
  inds_nodup : ∀ x, (st.lDominatedInds x).Nodup
  inds_mem : ∀ x y, y ∈ st.lDominatedInds x ↔ dom_ind fit x y = true
  rank : ∀ s x, x ∈ (pre ++ [cur]).getD s [] →
    (∀ y, dom_ind fit y x = true → ∃ s', s' < s ∧ y ∈ (pre ++ [cur]).getD s' []) ∧
    (0 < s → ∃ y, y ∈ (pre ++ [cur]).getD (s - 1) [] ∧ dom_ind fit y x = true)

/-- The list `lCrowdingList` at the start of the pass for objective `i`: the
initial list sorted (stably) by the objectives `0 .. i - 1` in turn. The sort
order of objective `i` is `crowd_list lPopFit L (i + 1)`. -/
def crowd_list (lPopFit : List (List α)) (L : List Nat) : Nat → List (List α × Nat)
  | 0 => (crowd_init lPopFit L).lCrowdingList
  | i + 1 => stable_sort (FitComp i) (crowd_list lPopFit L i)

/-- Position `p` of the front is first or last in the sorted list `cl`. -/
def is_extreme (cl : List (List α × Nat)) (p : Nat) : Bool :=
  (cl.head?.map Prod.snd == some p) || (cl.getLast?.map Prod.snd == some p)

/-- For position `p` of the front in the sorted list `cl`: the value in
objective `i` of its successor minus the value of its predecessor. -/
def gap_of (cl : List (List α × Nat)) (i p : Nat) : α :=
  (cl.getD ((cl.map Prod.snd).indexOf p + 1) ([], 0)).1.getD i 0
    - (cl.getD ((cl.map Prod.snd).indexOf p - 1) ([], 0)).1.getD i 0

/-- The crowding distance of position `p` of the front after the objectives
`0 .. i - 1`, as the specification describes it: infinite once `p` was first
or last in a sort order, else the sum of the gaps. -/
def crowd_spec (lPopFit : List (List α)) (L : List Nat) : Nat → Nat → dist_t α
  | 0, _ => some 0
  | i + 1, p =>
    if is_extreme (crowd_list lPopFit L (i + 1)) p = true then none
    else (crowd_spec lPopFit L i p).map (fun v => v + gap_of (crowd_list lPopFit L (i + 1)) i p)

/-- Outcome of a call of `selNSGA2` as its Python caller sees it: the list
returned, an exception (the function returns `NULL` with an error set), or a
crash of the process. -/
inductive call_result where
  | selection (lListSelect : List Nat)
  | error
  | crash
deriving DecidableEq

/-- A call of `selNSGA2` (lines 79-212). The function has no `return NULL`
and sets no exception: each of its two `return` statements returns
`lListSelect`, and where the model has no result the code reads through
`NULL` or outside a vector. -/
def selNSGA2_call (lListIndv : List (List α)) (k : Nat) : call_result :=
  match selNSGA2 lListIndv k with
  | some lListSelect => call_result.selection lListSelect
  | none => call_result.crash

/-- A population of five individuals with two objectives; individuals 2 and 4
have the same fitness. -/
def pop_example : List (List Int) := [[1, 5], [5, 1], [3, 3], [2, 2], [3, 3]]

/-- The individuals that the loop of lines 140-146 pushes to the new front
when it visits the dominated individuals `Ds` in turn, `c` being the counters
`lDominating`: an individual is pushed when its counter goes from 1 to 0. -/
def pushed_of (c : Nat → Nat) : List Nat → List Nat
  | [] => []
  | D :: Ds => (if c D = 1 then [D] else []) ++ pushed_of (Function.update c D (c D - 1)) Ds

/-- In the list the individuals `a` and `b` occur in turn, `a` first and `b`
last; the flag is set when the list starts after an `a`, before its `b`. -/
def alternate (a b : Nat) : Bool → List Nat → Prop
  | false, [] => True
  | true, [] => False
  | false, D :: Ds =>
    if D = a then alternate a b true Ds else if D = b then False else alternate a b false Ds
  | true, D :: Ds =>
    if D = b then alternate a b false Ds else if D = a then False else alternate a b true Ds

/-- In every front of the list `b` is a member exactly when `a` is, and then
`a` comes before `b`. -/
def twins_ok (fs : List (List Nat)) (a b : Nat) : Prop :=
  ∀ f, f ∈ fs → (a ∈ f ↔ b ∈ f) ∧ (b ∈ f → List.Sublist [a, b] f)

end nsga2

end CTools

/-!
# The C type `double`

The values of the IEEE 754 binary64 format with the operations that the code
applies to them: a finite value is the number `m * 2^e` (kept in lowest terms:
`m` odd, or `m = 0` and `e = 0`), and there are the two infinities and NaN.
Every operation rounds its exact result to the nearest value, ties to even; a
result of magnitude `2^1024` or more becomes an infinity. The sign of a zero is
not recorded (no operation used here depends on it), and all NaNs are one value.
-/

namespace Ieee

/-- A value of the type `double`. -/
inductive double where
  | fin (m : Int) (e : Int)
  | inf (neg : Bool)
  | nan
deriving DecidableEq

/-- Number of binary digits of a natural number. -/
def bits (a : Nat) : Nat := go a a
where
  /-- The digits are counted by halving, at most `fuel` times. -/
  go : Nat → Nat → Nat
  | 0, _ => 0
  | fuel + 1, a => if a = 0 then 0 else go fuel (a / 2) + 1

/-- The finite value `m * 2^e` in lowest terms; `fuel` is the number of binary
digits of `m`, which bounds the number of factors 2 taken out of `m` (there
is no digit when `m = 0`). -/
def lowest : Nat → Int → Int → double
  | 0, _, _ => double.fin 0 0
  | fuel + 1, m, e =>
    if m % 2 = 0 then lowest fuel (m / 2) (e + 1)
    else double.fin m e

/-- The `double` nearest to the number `m * 2^e` (round to nearest, ties to
even): the unit in the last place is `2^q` with `q = max (e + bits |m| - 53)
(-1074)`, and a rounded magnitude of `2^1024` or more gives an infinity. -/
def round (m : Int) (e : Int) : double :=
  let a := m.natAbs
  if a = 0 then double.fin 0 0
  else
    let q := max (e + (bits a : Int) - 53) (-1074)
    if q ≤ e then
      if e + (bits a : Int) > 1024 then double.inf (decide (m < 0))
      else lowest (bits a) m e
    else
      let s := (q - e).toNat
      let lo := a % (1 <<< s)
      let hi := a >>> s
      let r := if lo > 1 <<< (s - 1) ∨ (lo = 1 <<< (s - 1) ∧ hi % 2 = 1) then hi + 1 else hi
      if q + (bits r : Int) > 1024 then double.inf (decide (m < 0))
      else lowest (bits r) (if m < 0 then -(r : Int) else (r : Int)) q

/-- Unary minus. -/
def neg : double → double
  | double.fin m e => double.fin (-m) e
  | double.inf s => double.inf (!s)
  | double.nan => double.nan

/-- Addition. -/
def add : double → double → double
  | double.nan, _ => double.nan
  | _, double.nan => double.nan
  | double.inf s, double.inf t => if s = t then double.inf s else double.nan
  | double.inf s, double.fin _ _ => double.inf s
  | double.fin _ _, double.inf t => double.inf t
  | double.fin m1 e1, double.fin m2 e2 =>
    round (m1 * ((1 <<< (e1 - min e1 e2).toNat : Nat) : Int)
      + m2 * ((1 <<< (e2 - min e1 e2).toNat : Nat) : Int)) (min e1 e2)

/-- Subtraction. -/
def sub (a b : double) : double := add a (neg b)

/-- Multiplication. -/
def mul : double → double → double
  | double.nan, _ => double.nan
  | _, double.nan => double.nan
  | double.inf s, double.inf t => double.inf (xor s t)
  | double.inf s, double.fin m _ =>
    if m = 0 then double.nan else double.inf (xor s (decide (m < 0)))
  | double.fin m _, double.inf t =>
    if m = 0 then double.nan else double.inf (xor (decide (m < 0)) t)
  | double.fin m1 e1, double.fin m2 e2 => round (m1 * m2) (e1 + e2)

/-- The comparison `a < b`; it is false when an operand is NaN. -/
def lt : double → double → Bool
  | double.nan, _ => false
  | _, double.nan => false
  | double.inf s, double.inf t => s && !t
  | double.inf s, double.fin _ _ => s
  | double.fin _ _, double.inf t => !t
  | double.fin m1 e1, double.fin m2 e2 =>
    decide (m1 * ((1 <<< (e1 - min e1 e2).toNat : Nat) : Int)
      < m2 * ((1 <<< (e2 - min e1 e2).toNat : Nat) : Int))

/-- The comparison `a <= b`; it is false when an operand is NaN. -/
def le : double → double → Bool
  | double.nan, _ => false
  | _, double.nan => false
  | a, b => !lt b a

instance double_add : Add double := ⟨add⟩

instance double_sub : Sub double := ⟨sub⟩

instance double_mul : Mul double := ⟨mul⟩

instance double_neg : Neg double := ⟨neg⟩

instance double_lt : LT double := ⟨fun a b => lt a b = true⟩

instance double_le : LE double := ⟨fun a b => le a b = true⟩

instance double_lt_decidable (a b : double) : Decidable (a < b) :=
  inferInstanceAs (Decidable (lt a b = true))

instance double_le_decidable (a b : double) : Decidable (a ≤ b) :=
  inferInstanceAs (Decidable (le a b = true))

/-- The `double` of an integer constant. -/
instance double_ofNat (n : Nat) : OfNat double n := ⟨round (n : Int) 0⟩

/-- A value is finite. -/
def double.finite : double → Bool
  | double.fin _ _ => true
  | _ => false

end Ieee

/-! ## The code in `double` arithmetic: definitions -/

namespace Hv

/-- The loop of lines 1478-1480 of `fpli_hv` (`n == 1`) in `double`
arithmetic, `k` iterations left: `hyperv *= ref[i] - p->x[i]`; `x` is the
array of the node `p`. -/
def fpli_prod_double (ref x : List Ieee.double) : Nat → Nat → Ieee.double → Ieee.double
  | 0, _, hyperv => hyperv
  | k + 1, i, hyperv => fpli_prod_double ref x k (i + 1) (hyperv * (ref.getD i 0 - x.getD i 0))

/-- The `while ((p0 = p1->next[1])->x)` loop of branch `dim == 1` (lines
1001-1008) in `double` arithmetic, over the arrays `x` of the nodes that
follow `p1` in chain 1; returns `(hypera, hyperv, p1)` at loop exit. The
writes to `ignore` do not enter the value and are left out. -/
def hv_dim1_loop_double (ref : List Ieee.double) :
    List (List Ieee.double) → List Ieee.double → Ieee.double → Ieee.double →
      Ieee.double × Ieee.double × List Ieee.double
  | [], p1, hypera, hyperv => (hypera, hyperv, p1)
  | p0 :: rest, p1, hypera, hyperv =>
    let hyperv := hyperv + (ref.getD 0 0 - hypera) * (p0.getD 1 0 - p1.getD 1 0)
    if p0.getD 0 0 < hypera then hv_dim1_loop_double ref rest p0 (p0.getD 0 0) hyperv
    else hv_dim1_loop_double ref rest p0 hypera hyperv

/-- Branch `dim == 1` of `hv_recursive` (lines 995-1011) in `double`
arithmetic; the list holds the arrays `x` of the nodes of chain 1 in chain
order, from `list->next[1]` on. -/
def hv_dim1_double (ref : List Ieee.double) : List (List Ieee.double) → Option Ieee.double
  | [] => none
  | p1 :: rest =>
    match hv_dim1_loop_double ref rest p1 (p1.getD 0 0) 0 with
    | (hypera, hyperv, p1) =>
      some (hyperv + (ref.getD 0 0 - hypera) * (ref.getD 1 0 - p1.getD 1 0))

/-- Lines 1473-1484 of `fpli_hv` for `d = 2` in `double` arithmetic, after
`setup_cdllist` and `filter`: `chain` holds the arrays `x` of the `n` nodes
that `filter` left, in the order of chain 1. -/
def fpli_hv_double (ref : List Ieee.double) (chain : List (List Ieee.double)) :
    Option Ieee.double :=
  if chain.length = 0 then some 0
  else if chain.length = 1 then some (fpli_prod_double ref (chain.headD []) 2 0 1)
  else hv_dim1_double ref chain

/-- What `setup_cdllist` and `filter` leave in chain 1 for `d = 2`: every
point is strictly below the reference in both coordinates, and coordinate 1
does not descend along the chain. -/
def chain_double (ref : List Ieee.double) (chain : List (List Ieee.double)) : Prop :=
  (∀ p, p ∈ chain → p.getD 0 0 < ref.getD 0 0 ∧ p.getD 1 0 < ref.getD 1 0) ∧
    chain.Pairwise (fun a b => a.getD 1 0 ≤ b.getD 1 0)

instance chain_double_decidable (ref : List Ieee.double) (chain : List (List Ieee.double)) :
    Decidable (chain_double ref chain) :=
  inferInstanceAs (Decidable (_ ∧ _))

end Hv

namespace CTools

/-- Loop of `isDominated` (cTools.cpp lines 69-75) on vectors of `double`. -/
def isDominated_loop_double : List Ieee.double → List Ieee.double → Bool → Option Bool
  | [], _, notEqual => some notEqual
  | _ :: _, [], _ => none
  | a :: as, b :: bs, notEqual =>
    if a > b then some false
    else if a < b then isDominated_loop_double as bs true
    else isDominated_loop_double as bs notEqual

/-- `isDominated` (cTools.cpp lines 66-77) on vectors of `double`. -/
def isDominated_double (inIndividual1 inIndividual2 : List Ieee.double) : Option Bool :=
  isDominated_loop_double inIndividual1 inIndividual2 false

/-- Body of the inner loop of the first ranking (lines 119-126) for the pair
`i`, `j`, on fitness values of type `double`. -/
def rank_pair_double (lPopFit : List (List Ieee.double)) (i : Nat) (st : rank_t) (j : Nat) :
    Option rank_t :=
  match lPopFit[i]?, lPopFit[j]? with
  | some fi, some fj =>
    match isDominated_double fj fi with
    | none => none
    | some true => some (rank_count st i j)
    | some false =>
      match isDominated_double fi fj with
      | none => none
      | some true => some (rank_count st j i)
      | some false => some st
  | _, _ => none

/-- Body of the outer loop of the first ranking (lines 116-132) for `i`, on
fitness values of type `double`. -/
def rank_first_step_double (lPopFit : List (List Ieee.double)) (lLenListIndv : Nat)
    (st : rank_t) (i : Nat) : Option rank_t :=
  match (List.range' (i + 1) (lLenListIndv - (i + 1))).foldlM (rank_pair_double lPopFit i) st with
  | none => none
  | some st => some (rank_first_check st i)

/-- The ranking of the first Pareto front (lines 115-132) on fitness values
of type `double`. -/
def rank_first_double (lPopFit : List (List Ieee.double)) (lLenListIndv : Nat) :
    Option rank_t :=
  (List.range lLenListIndv).foldlM (rank_first_step_double lPopFit lLenListIndv) rank_init

/-- Pareto dominance as the specification defines it, with the comparisons of
`double`: `a` dominates `b` when `a[i] >= b[i]` for every objective and
`a[i] > b[i]` for at least one. -/
def dominates_double (a b : List Ieee.double) : Prop :=
  (∀ p, p ∈ a.zip b → p.1 ≥ p.2) ∧ ∃ p, p ∈ a.zip b ∧ p.1 > p.2

instance dominates_double_decidable (a b : List Ieee.double) :
    Decidable (dominates_double a b) :=
  inferInstanceAs (Decidable (_ ∧ _))

/-- The comparison of `FitComp` (lines 19-21) on rows of `double`. -/
def FitComp_double (mCompIndex : Nat) (a b : List Ieee.double × Nat) : Bool :=
  decide (a.1.getD mCompIndex 0 < b.1.getD mCompIndex 0)

/-- The variables of the crowding distance pass with distances of type
`double`: the first components of `lDistances` by position, and
`lCrowdingList`. -/
structure crowd_double_t where
  lDistances : Nat → Ieee.double
  lCrowdingList : List (List Ieee.double × Nat)

/-- The value `lInfinity` (line 169). -/
def lInfinity : Ieee.double := Ieee.double.inf false

/-- Lines 175-181 with distances of type `double`. -/
def crowd_init_double (lPopFit : List (List Ieee.double)) (lLastParetoFront : List Nat) :
    crowd_double_t where
  lDistances := fun _ => 0
  lCrowdingList := lLastParetoFront.enum.map (fun p => (lPopFit.getD p.2 [], p.1))

/-- Lines 195-196 for the position `j` of the sorted `lCrowdingList`, in
`double` arithmetic. -/
def crowd_gap_double (i : Nat) (cl : List (List Ieee.double × Nat))
    (lDistances : Nat → Ieee.double) (j : Nat) : Nat → Ieee.double :=
  if lDistances (cl.getD j ([], 0)).2 < lInfinity then
    Function.update lDistances (cl.getD j ([], 0)).2
      (lDistances (cl.getD j ([], 0)).2
        + ((cl.getD (j + 1) ([], 0)).1.getD i 0 - (cl.getD (j - 1) ([], 0)).1.getD i 0))
  else lDistances

/-- Body of the loop over the objectives (lines 186-197) for objective `i`,
in `double` arithmetic. -/
def crowd_objective_double (st : crowd_double_t) (i : Nat) : Option crowd_double_t :=
  let cl := stable_sort (FitComp_double i) st.lCrowdingList
  match cl.head?, cl.getLast? with
  | some first, some last =>
    let d := Function.update (Function.update st.lDistances first.2 lInfinity) last.2 lInfinity
    some { lCrowdingList := cl
           lDistances := (List.range' 1 (cl.length - 2)).foldl (crowd_gap_double i cl) d }
  | _, _ => none

/-- The crowding distances of the last front (lines 165-198) in `double`
arithmetic. -/
def crowd_distances_double (lPopFit : List (List Ieee.double)) (lNbrObjectives : Nat)
    (lLastParetoFront : List Nat) : Option crowd_double_t :=
  (List.range lNbrObjectives).foldlM crowd_objective_double
    (crowd_init_double lPopFit lLastParetoFront)

/-- A population of three individuals with three objectives whose fitness
values hold one NaN each. -/
def pop_nan : List (List Ieee.double) :=
  [[0, Ieee.double.nan, 5], [1, 5, Ieee.double.nan], [Ieee.double.nan, 6, 4]]

/-- A population of three individuals with two objectives and finite fitness
values: `(-2^1023, 2^1023)`, `(0, 0)`, `(2^1023, -2^1023)`. -/
def pop_large : List (List Ieee.double) :=
  [[Ieee.double.fin (-1) 1023, Ieee.double.fin 1 1023], [0, 0],
    [Ieee.double.fin 1 1023, Ieee.double.fin (-1) 1023]]

end CTools

/-!
# The ant simulator (`examples/gp/ant/AntSimulatorFast.cpp`)

Shallow embedding of the member functions `turnLeft`, `turnRight` and
`moveForward` of class `AntSimulatorFast`. The `unsigned int` members are
natural numbers with arithmetic modulo `2^32`; a `char` is its code; the trail
`mExecTrail` is a list of rows. An access outside a vector (`front()` of an
empty vector, `mExecTrail[r][c]` out of range) has no defined result (`none`).
-/

namespace AntSimulatorFast

/-- The member `eStart = 'S'` of `enum State`. -/
def eStart : Nat := 83

/-- The member `eEmpty = '.'` of `enum State`. -/
def eEmpty : Nat := 46

/-- The member `ePassed = 'x'` of `enum State`. -/
def ePassed : Nat := 120

/-- The member `eFoodPiece = '#'` of `enum State`. -/
def eFoodPiece : Nat := 35

/-- The member `eEatenPiece = '@'` of `enum State`. -/
def eEatenPiece : Nat := 64

/-- The member `eAntNorth = '^'` of `enum State`. -/
def eAntNorth : Nat := 94

/-- The member `eAntEast` of `enum State` (a closing brace). -/
def eAntEast : Nat := 125

/-- The member `eAntSouth = 'v'` of `enum State`. -/
def eAntSouth : Nat := 118

/-- The member `eAntWest` of `enum State` (an opening brace). -/
def eAntWest : Nat := 123

/-- The data members of `AntSimulatorFast` that the three movement functions
read or write. -/
structure ant_t where
  mMaxMoves : Nat
  mNbMovesAnt : Nat
  mNbPiecesEaten : Nat
  mRowAnt : Nat
  mColAnt : Nat
  mDirectionAnt : Nat
  mExecTrail : List (List Nat)
deriving DecidableEq

/-- Member function `turnLeft`. -/
def turnLeft (s : ant_t) : ant_t :=
  if s.mNbMovesAnt ≥ s.mMaxMoves then s
  else
    let s := { s with mNbMovesAnt := (s.mNbMovesAnt + 1) % 4294967296 }
    if s.mDirectionAnt = eAntNorth then { s with mDirectionAnt := eAntWest }
    else if s.mDirectionAnt = eAntEast then { s with mDirectionAnt := eAntNorth }
    else if s.mDirectionAnt = eAntSouth then { s with mDirectionAnt := eAntEast }
    else if s.mDirectionAnt = eAntWest then { s with mDirectionAnt := eAntSouth }
    else s

/-- Member function `turnRight`. -/
def turnRight (s : ant_t) : ant_t :=
  if s.mNbMovesAnt ≥ s.mMaxMoves then s
  else
    let s := { s with mNbMovesAnt := (s.mNbMovesAnt + 1) % 4294967296 }
    if s.mDirectionAnt = eAntNorth then { s with mDirectionAnt := eAntEast }
    else if s.mDirectionAnt = eAntEast then { s with mDirectionAnt := eAntSouth }
    else if s.mDirectionAnt = eAntSouth then { s with mDirectionAnt := eAntWest }
    else if s.mDirectionAnt = eAntWest then { s with mDirectionAnt := eAntNorth }
    else s

/-- The first `switch` of `moveForward`: the new position. `size() - 1` is
computed in `size_t` and stored in an `unsigned int`. -/
def advance (s : ant_t) : Option ant_t :=
  if s.mDirectionAnt = eAntNorth then
    if s.mRowAnt = 0 then
      some { s with mRowAnt := (s.mExecTrail.length + 4294967295) % 4294967296 }
    else some { s with mRowAnt := s.mRowAnt - 1 }
  else if s.mDirectionAnt = eAntEast then
    let s := { s with mColAnt := (s.mColAnt + 1) % 4294967296 }
    match s.mExecTrail.head? with
    | none => none
    | some front => if s.mColAnt ≥ front.length then some { s with mColAnt := 0 } else some s
  else if s.mDirectionAnt = eAntSouth then
    let s := { s with mRowAnt := (s.mRowAnt + 1) % 4294967296 }
    if s.mRowAnt ≥ s.mExecTrail.length then some { s with mRowAnt := 0 } else some s
  else if s.mDirectionAnt = eAntWest then
    if s.mColAnt = 0 then
      match s.mExecTrail.head? with
      | none => none
      | some front => some { s with mColAnt := (front.length + 4294967295) % 4294967296 }
    else some { s with mColAnt := s.mColAnt - 1 }
  else some s

/-- The assignment `mExecTrail[mRowAnt][mColAnt] = v` (both indices in range). -/
def setCell (s : ant_t) (row : List Nat) (v : Nat) : ant_t :=
  { s with mExecTrail := s.mExecTrail.set s.mRowAnt (row.set s.mColAnt v) }

/-- The second `switch` of `moveForward`: the cell the ant has moved to. -/
def visit (s : ant_t) : Option ant_t :=
  match s.mExecTrail[s.mRowAnt]? with
  | none => none
  | some row =>
    match row[s.mColAnt]? with
    | none => none
    | some cell =>
      if cell = eStart ∨ cell = ePassed ∨ cell = eEatenPiece then some s
      else if cell = eEmpty then some (setCell s row ePassed)
      else if cell = eFoodPiece then
        some { setCell s row eEatenPiece with
          mNbPiecesEaten := (s.mNbPiecesEaten + 1) % 4294967296 }
      else some s

/-- Member function `moveForward`. -/
def moveForward (s : ant_t) : Option ant_t :=
  if s.mNbMovesAnt ≥ s.mMaxMoves then some s
  else
    let s := { s with mNbMovesAnt := (s.mNbMovesAnt + 1) % 4294967296 }
    match advance s with
    | none => none
    | some s => visit s

/-- A call of one of the three movement functions. -/
inductive call_t where
  | turnLeft
  | turnRight
  | moveForward
deriving DecidableEq

/-- The effect of one call. -/
def call (s : ant_t) : call_t → Option ant_t
  | call_t.turnLeft => some (turnLeft s)
  | call_t.turnRight => some (turnRight s)
  | call_t.moveForward => moveForward s

/-- The effect of a sequence of calls. -/
def calls (s : ant_t) : List call_t → Option ant_t
  | [] => some s
  | c :: rest =>
    match call s c with
    | none => none
    | some s => calls s rest

/-- The number of columns `mExecTrail.front().size()`. -/
def cols (s : ant_t) : Nat := (s.mExecTrail.headD []).length

/-- A simulator whose trail has been set up: the trail is a non-empty
rectangle (as `parseMatrix` builds it, with `ROWS_NBR` rows of `COLS_NBR`
columns), the ant is on it, and the move counter, which starts at `0`, is at
most `mMaxMoves`. -/
def ready (s : ant_t) : Prop :=
  0 < s.mExecTrail.length ∧ s.mExecTrail.length < 4294967296 ∧
    0 < cols s ∧ cols s < 4294967296 ∧
    (∀ row, row ∈ s.mExecTrail → row.length = cols s) ∧
    s.mRowAnt < s.mExecTrail.length ∧ s.mColAnt < cols s ∧
    s.mMaxMoves < 4294967296 ∧ s.mNbMovesAnt ≤ s.mMaxMoves

instance ready_decidable (s : ant_t) : Decidable (ready s) :=
  inferInstanceAs (Decidable (_ ∧ _))

/-- What a call does to the move counter: below `mMaxMoves` it is raised by
one, at `mMaxMoves` the simulator stays as it is. -/
def counted (s s' : ant_t) : Prop :=
  s'.mMaxMoves = s.mMaxMoves ∧ s'.mNbMovesAnt ≤ s'.mMaxMoves ∧
    (s.mNbMovesAnt < s.mMaxMoves → s'.mNbMovesAnt = s.mNbMovesAnt + 1) ∧
    (s.mMaxMoves ≤ s.mNbMovesAnt → s' = s)

/-- A simulator with a trail of two rows and three columns, the ant at the
start looking east, and two moves allowed. -/
def ant_example : ant_t :=
  { mMaxMoves := 2, mNbMovesAnt := 0, mNbPiecesEaten := 0, mRowAnt := 0, mColAnt := 0,
    mDirectionAnt := eAntEast, mExecTrail := [[83, 35, 46], [46, 46, 35]] }

end AntSimulatorFast

/-!
# The sorting network evaluator (`tutorials/part_4/SNC.cpp`)

Shallow embedding of the network creation loop of `evalNetwork`. A `Level`
(`std::map<unsigned int, unsigned int>`) is the list of its entries in
ascending order of the key; the network `mNetwork` is the list of its levels.
The connector list is the list of the pairs of Python integers; the casts to
`unsigned int` keep the low 32 bits.
-/

namespace SNC

/-- The type `Level`: the entries `(first, second)` of the map in key order. -/
abbrev Level := List (Nat × Nat)

/-- The assignment `lLevel[k] = v` of `std::map`: the entry with key `k` is
replaced, or a new entry is put at its place in the key order. -/
def Level.assign : Level → Nat → Nat → Level
  | [], k, v => [(k, v)]
  | c :: L, k, v =>
    if k < c.1 then (k, v) :: c :: L
    else if k = c.1 then (k, v) :: L
    else c :: Level.assign L k v

/-- The test for a conflict of the connector `(inWire1, inWire2)` with the
entries of the last level (lines 78-91): `lIterConnNext` is the first entry
whose key is not below `inWire1`, `lIterConnPrev` the entry before it. -/
def conflict (back : Level) (inWire1 inWire2 : Nat) : Bool :=
  let before := back.takeWhile (fun c => decide (inWire1 > c.1))
  let after := back.dropWhile (fun c => decide (inWire1 > c.1))
  let c1 : Bool :=
    match after.head? with
    | some lIterConnNext => decide (inWire2 ≥ lIterConnNext.1)
    | none => false
  let c2 : Bool :=
    match before.getLast? with
    | some lIterConnPrev => decide (inWire1 ≤ lIterConnPrev.2)
    | none => false
  c1 || c2

/-- One iteration of the loop `for (k = 0; k < lgth; k++)` (lines 56-102) for
the connector `(a, b)`. -/
def add_connector (mNetwork : List Level) (a b : Int) : List Level :=
  let inWire1 := (a % 4294967296).toNat
  let inWire2 := (b % 4294967296).toNat
  if inWire1 = inWire2 then mNetwork
  else
    let w : Nat × Nat := if inWire1 > inWire2 then (inWire2, inWire1) else (inWire1, inWire2)
    match mNetwork.getLast? with
    | none => [[(w.1, w.2)]]
    | some back =>
      if conflict back w.1 w.2 = true then mNetwork ++ [[(w.1, w.2)]]
      else mNetwork.dropLast ++ [Level.assign back w.1 w.2]

/-- The network creation loop of `evalNetwork`: the levels built from the
connector list. -/
def evalNetwork_mNetwork (listNetwork : List (Int × Int)) : List Level :=
  listNetwork.foldl (fun mNetwork c => add_connector mNetwork c.1 c.2) []

/-- The connectors of a level, in key order, lie strictly one after the
other, and each has its first wire below its second. -/
def Level.ok (L : Level) : Prop :=
  (∀ c, c ∈ L → c.1 < c.2) ∧ L.Pairwise (fun c1 c2 => c1.2 < c2.1)

end SNC

namespace Hv

/-! ## Properties -/

section properties
set_option linter.unusedSectionVars false
variable {α : Type} [LinearOrderedCommRing α]

theorem setup_dims_nil (q : qsort_t α) (s : hv_mem α) (k : Nat) :
    setup_dims q (k + 1) (s, []) = none := by
  have h : q.run (fun p => ((setup_decr s []).X p 0).getD 0) [] = [] :=
    List.Perm.eq_nil (q.perm _ [])
  simp [setup_dims, setup_dim, h]

theorem setup_cdllist_zero (q : qsort_t α) (data : List α) (d : Nat) :
    setup_cdllist q data (d + 1) 0 = none := by
  simp [setup_cdllist, setup_dims_nil]

theorem fpli_hv_zero (q : qsort_t α) (data : List α) (d : Nat) (ref : Nat → α) :
    fpli_hv q data (d + 1) 0 ref = none := by
  simp [fpli_hv, setup_cdllist_zero]

theorem Linked.congr_links {nx pv nx' pv' : Nat → Nat} :
    ∀ {L : List Nat} {a b : Nat}, Linked nx pv a L b →
      (∀ p, p ∈ a :: L → nx' p = nx p) → (∀ p, p ∈ L ++ [b] → pv' p = pv p) →
      Linked nx' pv' a L b
  | [], a, b, h, hn, hp => by
    simp only [Linked] at h ⊢
    rw [hn a (by simp), hp b (by simp)]
    exact h
  | c :: L, a, b, h, hn, hp => by
    simp only [Linked] at h ⊢
    refine ⟨by rw [hn a (by simp)]; exact h.1, by rw [hp c (by simp)]; exact h.2.1, ?_⟩
    exact Linked.congr_links h.2.2 (fun p hp1 => hn p (List.mem_cons_of_mem _ hp1))
      (fun p hp1 => hp p (by simpa using Or.inr (by simpa using hp1)))

theorem Linked.pv_mem {nx pv : Nat → Nat} :
    ∀ {L : List Nat} {a b : Nat}, Linked nx pv a L b → ∀ p, p ∈ L ++ [b] → pv p ∈ a :: L
  | [], a, b, h, p, hp => by
    simp only [Linked] at h
    simp at hp
    subst hp
    simp [h.2]
  | c :: L, a, b, h, p, hp => by
    simp only [Linked] at h
    simp only [List.cons_append, List.mem_cons] at hp
    rcases hp with rfl | hp
    · simp [h.2.1]
    · exact List.mem_cons_of_mem _ (Linked.pv_mem h.2.2 p hp)

theorem Linked.nx_mem {nx pv : Nat → Nat} :
    ∀ {L : List Nat} {a b : Nat}, Linked nx pv a L b → ∀ p, p ∈ a :: L → nx p ∈ L ++ [b]
  | [], a, b, h, p, hp => by
    simp only [Linked] at h
    simp at hp
    subst hp
    simp [h.1]
  | c :: L, a, b, h, p, hp => by
    simp only [Linked] at h
    simp only [List.mem_cons] at hp
    rcases hp with rfl | hp
    · simp [h.1]
    · exact List.mem_cons_of_mem _ (Linked.nx_mem h.2.2 p (by simpa using hp))

/-- Unlinking `node` from a chain: `pv node ->next = nx node; nx node ->prev = pv node`. -/
theorem Linked.erase {nx pv : Nat → Nat} (node : Nat) :
    ∀ {L : List Nat} {a b : Nat}, Linked nx pv a L b → (a :: L).Nodup → b ∉ L → node ∈ L →
      Linked (Function.update nx (pv node) (nx node)) (Function.update pv (nx node) (pv node))
        a (L.erase node) b
  | [], a, b, _, _, _, hm => by simp at hm
  | c :: L, a, b, h, hnd, hb, hm => by
    have h' := h
    simp only [Linked] at h
    obtain ⟨h1, h2, h3⟩ := h
    have hac : a ≠ c := by
      intro e; subst e; simp at hnd
    have haL : a ∉ L := by
      intro e; simp at hnd; exact hnd.1.2 e
    have hcL : c ∉ L := by
      intro e; simp at hnd; exact hnd.2.1 e
    have hbc : b ≠ c := by
      intro e; subst e; simp at hb
    have hbL : b ∉ L := fun e => hb (List.mem_cons_of_mem _ e)
    have hndL : (c :: L).Nodup := (List.nodup_cons.mp hnd).2
    by_cases hc : node = c
    · subst hc
      rw [List.erase_cons_head]
      rw [h2]
      have hnxmem := Linked.nx_mem h3 node (by simp)
      refine @Linked.congr_links (Function.update nx a (nx node))
        (Function.update pv (nx node) a) _ _ _ _ _ ?_ (fun _ _ => rfl) (fun _ _ => rfl)
      cases L with
      | nil =>
        simp only [Linked] at h3 ⊢
        rw [h3.1]
        simp
      | cons c' L' =>
        simp only [Linked] at h3 ⊢
        obtain ⟨g1, g2, g3⟩ := h3
        rw [g1]
        refine ⟨by simp, by simp, ?_⟩
        refine Linked.congr_links g3 ?_ ?_
        · intro p hp
          have : p ≠ a := by
            intro e; subst e
            exact haL hp
          simp [Function.update, this]
        · intro p hp
          have : p ≠ c' := by
            intro e; subst e
            simp only [List.mem_append, List.mem_singleton] at hp
            rcases hp with hp | hp
            · simp at hndL; exact hndL.2.1 hp
            · subst hp; simp at hbL
          simp [Function.update, this]
    · have hmL : node ∈ L := by
        simp only [List.mem_cons] at hm
        rcases hm with hm | hm
        · exact absurd hm hc
        · exact hm
      have hce : (c :: L).erase node = c :: L.erase node := by
        rw [List.erase_cons_tail]
        simpa using fun e => hc e.symm
      rw [hce]
      have ih := Linked.erase node h3 hndL hbL hmL
      have hpvn : pv node ∈ c :: L := Linked.pv_mem h3 node (by simp [hmL])
      have hnxn : nx node ∈ L ++ [b] := Linked.nx_mem h3 node (by simp [hmL])
      simp only [Linked]
      refine ⟨?_, ?_, ih⟩
      · have : a ≠ pv node := by
          intro e; rw [← e] at hpvn
          simp at hnd hpvn
          rcases hpvn with hpvn | hpvn
          · exact hac hpvn
          · exact haL hpvn
        simp [Function.update, this, h1]
      · have : c ≠ nx node := by
          intro e; rw [← e] at hnxn
          simp only [List.mem_append, List.mem_singleton] at hnxn
          rcases hnxn with hnxn | hnxn
          · exact hcL hnxn
          · exact hbc hnxn.symm
        simp [Function.update, this, h2]

theorem Linked.nx_pv {nx pv : Nat → Nat} :
    ∀ {L : List Nat} {a b : Nat}, Linked nx pv a L b → nx (pv b) = b
  | [], a, b, h => by
    simp only [Linked] at h
    rw [h.2, h.1]
  | c :: L, a, b, h => by
    simp only [Linked] at h
    exact Linked.nx_pv h.2.2

theorem Linked.pv_last {nx pv : Nat → Nat} :
    ∀ {L : List Nat} {a b : Nat}, Linked nx pv a L b →
      pv b = (a :: L).getLast (List.cons_ne_nil a L)
  | [], a, b, h => by
    simp only [Linked] at h
    simp [h.2]
  | c :: L, a, b, h => by
    simp only [Linked] at h
    rw [Linked.pv_last h.2.2]
    simp [List.getLast_cons]

@[simp] theorem nx_setNext (s : hv_mem α) (p i v j : Nat) :
    (s.setNext p i v).nx j = if j = i then Function.update (s.nx i) p v else s.nx j := by
  funext r
  by_cases hj : j = i
  · subst hj
    by_cases hr : r = p
    · subst hr; simp [hv_mem.nx, hv_mem.setNext, hv_mem.setNode]
    · simp [hv_mem.nx, hv_mem.setNext, hv_mem.setNode, Function.update, hr]
  · by_cases hr : r = p
    · subst hr; simp [hv_mem.nx, hv_mem.setNext, hv_mem.setNode, Function.update, hj]
    · simp [hv_mem.nx, hv_mem.setNext, hv_mem.setNode, Function.update, hr, hj]

@[simp] theorem pv_setNext (s : hv_mem α) (p i v j : Nat) :
    (s.setNext p i v).pv j = s.pv j := by
  funext r
  by_cases hr : r = p
  · subst hr; simp [hv_mem.pv, hv_mem.setNext, hv_mem.setNode]
  · simp [hv_mem.pv, hv_mem.setNext, hv_mem.setNode, Function.update, hr]

@[simp] theorem pv_setPrev (s : hv_mem α) (p i v j : Nat) :
    (s.setPrev p i v).pv j = if j = i then Function.update (s.pv i) p v else s.pv j := by
  funext r
  by_cases hj : j = i
  · subst hj
    by_cases hr : r = p
    · subst hr; simp [hv_mem.pv, hv_mem.setPrev, hv_mem.setNode]
    · simp [hv_mem.pv, hv_mem.setPrev, hv_mem.setNode, Function.update, hr]
  · by_cases hr : r = p
    · subst hr; simp [hv_mem.pv, hv_mem.setPrev, hv_mem.setNode, Function.update, hj]
    · simp [hv_mem.pv, hv_mem.setPrev, hv_mem.setNode, Function.update, hr, hj]

@[simp] theorem nx_setPrev (s : hv_mem α) (p i v j : Nat) :
    (s.setPrev p i v).nx j = s.nx j := by
  funext r
  by_cases hr : r = p
  · subst hr; simp [hv_mem.nx, hv_mem.setPrev, hv_mem.setNode]
  · simp [hv_mem.nx, hv_mem.setPrev, hv_mem.setNode, Function.update, hr]

@[simp] theorem x_setNext (s : hv_mem α) (p i v r : Nat) :
    ((s.setNext p i v).node r).x = (s.node r).x := by
  by_cases hr : r = p
  · subst hr; simp [hv_mem.setNext, hv_mem.setNode]
  · simp [hv_mem.setNext, hv_mem.setNode, Function.update, hr]

@[simp] theorem x_setPrev (s : hv_mem α) (p i v r : Nat) :
    ((s.setPrev p i v).node r).x = (s.node r).x := by
  by_cases hr : r = p
  · subst hr; simp [hv_mem.setPrev, hv_mem.setNode]
  · simp [hv_mem.setPrev, hv_mem.setNode, Function.update, hr]

@[simp] theorem data_setNext (s : hv_mem α) (p i v : Nat) :
    (s.setNext p i v).data = s.data := rfl

@[simp] theorem data_setPrev (s : hv_mem α) (p i v : Nat) :
    (s.setPrev p i v).data = s.data := rfl

/-- Effect of the loop of `filter_delete_node` on the links. -/
theorem filter_delete_node_go_spec (node : Nat) :
    ∀ (k i : Nat) (s : hv_mem α),
      (∀ j, i ≤ j → j < i + k →
        (filter_delete_node.go node k i s).nx j
            = Function.update (s.nx j) (s.pv j node) (s.nx j node) ∧
        (filter_delete_node.go node k i s).pv j
            = Function.update (s.pv j) (s.nx j node) (s.pv j node)) ∧
      (∀ j, (j < i ∨ i + k ≤ j) →
        (filter_delete_node.go node k i s).nx j = s.nx j ∧
        (filter_delete_node.go node k i s).pv j = s.pv j) ∧
      (∀ r, ((filter_delete_node.go node k i s).node r).x = (s.node r).x) ∧
      (filter_delete_node.go node k i s).data = s.data
  | 0, i, s => by
    refine ⟨fun j h1 h2 => by omega, fun j _ => ⟨rfl, rfl⟩, fun r => rfl, rfl⟩
  | k + 1, i, s => by
    have ih := filter_delete_node_go_spec node k (i + 1)
      ((s.setPrev ((s.node node).next i) i ((s.node node).prev i)).setNext
        (((s.setPrev ((s.node node).next i) i ((s.node node).prev i)).node node).prev i) i
        (((s.setPrev ((s.node node).next i) i ((s.node node).prev i)).node node).next i))
    obtain ⟨ih1, ih2, ih3, ih4⟩ := ih
    have hprev : ((s.setPrev ((s.node node).next i) i ((s.node node).prev i)).node node).prev i
        = (s.node node).prev i := by
      have := congrFun (pv_setPrev s ((s.node node).next i) i ((s.node node).prev i) i) node
      simp only [hv_mem.pv, if_true] at this
      rw [this]
      by_cases e : node = (s.node node).next i
      · rw [Function.update_apply, if_pos e]
      · rw [Function.update_apply, if_neg e]
        rfl
    have hnext : ((s.setPrev ((s.node node).next i) i ((s.node node).prev i)).node node).next i
        = (s.node node).next i := by
      have := congrFun (nx_setPrev s ((s.node node).next i) i ((s.node node).prev i) i) node
      simpa only [hv_mem.nx] using this
    rw [hprev, hnext] at ih1 ih2 ih3 ih4
    simp only [filter_delete_node.go]
    rw [hprev, hnext]
    refine ⟨?_, ?_, ?_, ?_⟩
    · intro j h1 h2
      by_cases hj : j = i
      · subst hj
        have := ih2 j (Or.inl (Nat.lt_succ_self j))
        rw [this.1, this.2]
        simp [hv_mem.nx, hv_mem.pv]
      · have := ih1 j (by omega) (by omega)
        rw [this.1, this.2]
        simp [hj]
    · intro j hj
      have hji : j ≠ i := by omega
      have := ih2 j (by omega)
      rw [this.1, this.2]
      simp [hji]
    · intro r
      rw [ih3 r]
      simp
    · rw [ih4]
      simp

theorem filter_erase_of_not (P : Nat → Bool) (a : Nat) (ha : P a = false) :
    ∀ l : List Nat, (l.erase a).filter P = l.filter P
  | [] => rfl
  | b :: l => by
    by_cases hb : b = a
    · subst hb
      rw [List.erase_cons_head, List.filter_cons_of_neg (by simp [ha])]
    · rw [List.erase_cons_tail (by simpa using hb)]
      simp only [List.filter_cons]
      rw [filter_erase_of_not P a ha l]

theorem coord_eq_of (s s' : hv_mem α) (hx : ∀ r, (s'.node r).x = (s.node r).x)
    (hd : s'.data = s.data) : s'.coord = s.coord := by
  funext p k
  simp [hv_mem.coord, hv_mem.X, hx, hd]

theorem Chains.congr_lists {s : hv_mem α} {d : Nat} {C C' : Nat → List Nat} (h : Chains s d C)
    (e : ∀ j, j < d → C' j = C j) : Chains s d C' where
  head_x := h.head_x
  node_x i hi p hp := h.node_x i hi p (by rw [← e i hi]; exact hp)
  linked i hi := by rw [e i hi]; exact h.linked i hi
  nodup i hi := by rw [e i hi]; exact h.nodup i hi
  perm i j hi hj := by rw [e i hi, e j hj]; exact h.perm i j hi hj
  sorted i hi := by rw [e i hi]; exact h.sorted i hi

theorem Chains.delete {s : hv_mem α} {d : Nat} {C : Nat → List Nat} (h : Chains s d C)
    (a : Nat) (ha : ∀ i, i < d → a ∈ C i) :
    Chains (filter_delete_node s a d) d (fun j => (C j).erase a) := by
  obtain ⟨g1, g2, g3, g4⟩ := filter_delete_node_go_spec a d 0 s
  have hco : (filter_delete_node s a d).coord = s.coord := coord_eq_of _ _ g3 g4
  refine ⟨?_, ?_, ?_, ?_, ?_, ?_⟩
  · show ((filter_delete_node.go a d 0 s).node 0).x = none
    rw [g3]; exact h.head_x
  · intro i hi p hp
    show ((filter_delete_node.go a d 0 s).node p).x ≠ none
    rw [g3]; exact h.node_x i hi p (List.mem_of_mem_erase hp)
  · intro i hi
    have := g1 i (Nat.zero_le _) (by omega)
    show Linked ((filter_delete_node.go a d 0 s).nx i) ((filter_delete_node.go a d 0 s).pv i) 0 _ 0
    rw [this.1, this.2]
    have hnd := h.nodup i hi
    exact Linked.erase a (h.linked i hi) hnd (List.nodup_cons.mp hnd).1 (ha i hi)
  · intro i hi
    have hnd := h.nodup i hi
    rw [List.nodup_cons] at hnd ⊢
    exact ⟨fun hm => hnd.1 (List.mem_of_mem_erase hm), hnd.2.erase a⟩
  · intro i j hi hj
    exact (h.perm i j hi hj).erase a
  · intro i hi
    rw [hco]
    exact (h.sorted i hi).sublist (List.erase_sublist a (C i))

theorem Chains.length_eq {s : hv_mem α} {d : Nat} {C : Nat → List Nat} (h : Chains s d C)
    {i j : Nat} (hi : i < d) (hj : j < d) : (C i).length = (C j).length :=
  (h.perm i j hi hj).length_eq

theorem Chains.mem_iff {s : hv_mem α} {d : Nat} {C : Nat → List Nat} (h : Chains s d C)
    {i j : Nat} (hi : i < d) (hj : j < d) (p : Nat) : p ∈ C i ↔ p ∈ C j :=
  (h.perm i j hi hj).mem_iff

theorem getLast_mem_of_pairwise {r : Nat → Nat → Prop} (hr : ∀ a, r a a) :
    ∀ (l : List Nat) (hl : l ≠ []), l.Pairwise r → ∀ p, p ∈ l → r p (l.getLast hl)
  | [], hl, _, _, _ => absurd rfl hl
  | [a], _, _, p, hp => by
    simp at hp; subst hp; simpa using hr p
  | a :: b :: l, _, hpw, p, hp => by
    rw [List.getLast_cons (List.cons_ne_nil b l)]
    rw [List.pairwise_cons] at hpw
    simp only [List.mem_cons] at hp
    rcases hp with rfl | hp
    · exact hpw.1 _ (List.getLast_mem _)
    · exact getLast_mem_of_pairwise hr (b :: l) _ hpw.2 p (by simpa using hp)

/-- The inner loop of `filter` for dimension `i` removes exactly the nodes
whose coordinate `i` is not below `ref[i]`. -/
theorem filter_inner_spec (d : Nat) (ref : Nat → α) (i : Nat) (hi : i < d) :
    ∀ (k : Nat) (s : hv_mem α) (C : Nat → List Nat), Chains s d C → (C i).length = k →
      ∃ s', filter_inner d ref i k s (s.pv i 0) k
          = some (s', ((C i).filter (fun p => decide (s.coord p i < ref i))).length) ∧
        Chains s' d (fun j => (C j).filter (fun p => decide (s.coord p i < ref i))) ∧
        (∀ r, (s'.node r).x = (s.node r).x) ∧ s'.data = s.data
  | 0, s, C, h, hk => by
    have hnil : ∀ j, j < d → C j = [] := fun j hj =>
      List.length_eq_zero.mp ((h.length_eq hj hi).trans hk)
    refine ⟨s, ?_, h.congr_lists (fun j hj => by simp [hnil j hj]), fun _ => rfl, rfl⟩
    simp [filter_inner, hnil i hi]
  | k + 1, s, C, h, hk => by
    have hne : C i ≠ [] := by
      intro e; rw [e] at hk; simp at hk
    have hlast : s.pv i 0 = (C i).getLast hne := by
      rw [Linked.pv_last (h.linked i hi), List.getLast_cons hne]
    have hmem : s.pv i 0 ∈ C i := by rw [hlast]; exact List.getLast_mem _
    obtain ⟨off, hoff⟩ := Option.ne_none_iff_exists'.mp (h.node_x i hi _ hmem)
    have hX : s.X (s.pv i 0) i = some (s.coord (s.pv i 0) i) := by
      simp [hv_mem.coord, hv_mem.X, hoff]
    rw [filter_inner, hX]
    by_cases hlt : s.coord (s.pv i 0) i < ref i
    · have hall : ∀ j, j < d → ∀ p, p ∈ C j → s.coord p i < ref i := by
        intro j hj p hp
        have hp' : p ∈ C i := (h.mem_iff hj hi p).mp hp
        have := getLast_mem_of_pairwise (r := fun a b => s.coord a i ≤ s.coord b i)
          (fun a => le_refl _) (C i) hne (h.sorted i hi) p hp'
        rw [← hlast] at this
        exact lt_of_le_of_lt this hlt
      have hfil : ∀ j, j < d → (C j).filter (fun p => decide (s.coord p i < ref i)) = C j :=
        fun j hj => List.filter_eq_self.mpr (fun p hp => by simpa using hall j hj p hp)
      refine ⟨s, ?_, h.congr_lists hfil, fun _ => rfl, rfl⟩
      simp only [if_pos hlt]
      rw [hfil i hi, hk]
    · simp only [if_neg hlt]
      have hdel := h.delete (s.pv i 0) (fun j hj => (h.mem_iff hi hj _).mp hmem)
      obtain ⟨g1, g2, g3, g4⟩ := filter_delete_node_go_spec (s.pv i 0) d 0 s
      have hco : (filter_delete_node s (s.pv i 0) d).coord = s.coord := coord_eq_of _ _ g3 g4
      have ha0 : s.pv i 0 ≠ 0 := by
        intro e
        have := (List.nodup_cons.mp (h.nodup i hi)).1
        rw [e] at hmem
        exact this hmem
      have hpv := (g1 i (Nat.zero_le _) (by omega)).2
      have hnx0 : s.nx i (s.pv i 0) = 0 := Linked.nx_pv (h.linked i hi)
      have haux : ((filter_delete_node s (s.pv i 0) d).node (s.pv i 0)).prev i
          = (filter_delete_node s (s.pv i 0) d).pv i 0 := by
        show (filter_delete_node.go (s.pv i 0) d 0 s).pv i (s.pv i 0)
          = (filter_delete_node.go (s.pv i 0) d 0 s).pv i 0
        rw [hpv, hnx0]
        simp [Function.update, ha0]
      have hlen : ((fun j => (C j).erase (s.pv i 0)) i).length = k := by
        simp only []
        rw [List.length_erase_of_mem hmem, hk]
        rfl
      obtain ⟨s', e1, e2, e3, e4⟩ := filter_inner_spec d ref i hi k _ _ hdel hlen
      have hP : (fun p => decide (s.coord p i < ref i)) (s.pv i 0) = false := by
        simpa using hlt
      refine ⟨s', ?_, ?_, ?_, ?_⟩
      · rw [haux]
        simp only [Nat.add_sub_cancel]
        rw [e1, hco]
        show some (s', (((C i).erase (s.pv i 0)).filter _).length) = _
        rw [filter_erase_of_not _ _ hP]
      · rw [hco] at e2
        refine e2.congr_lists (fun j _ => ?_)
        show _ = ((C j).erase (s.pv i 0)).filter _
        rw [filter_erase_of_not _ _ hP]
      · intro r; rw [e3]; exact g3 r
      · rw [e4]; exact g4

theorem below_from_zero (d : Nat) (ref p : Nat → α) : below_from 0 d ref p ↔ below d ref p := by
  simp [below_from, below]

theorem below_from_step (i d : Nat) (ref p : Nat → α) (hi : i < d) :
    below_from i d ref p ↔ (p i < ref i ∧ below_from (i + 1) d ref p) := by
  constructor
  · intro h
    exact ⟨h i hi (le_refl _), fun m hm him => h m hm (by omega)⟩
  · intro h m hm him
    by_cases e : m = i
    · subst e; exact h.1
    · exact h.2 m hm (by omega)

/-- The outer loop of `filter`. -/
theorem filter_go_spec (d : Nat) (ref : Nat → α) :
    ∀ (k i : Nat) (s : hv_mem α) (C : Nat → List Nat) (n : Nat), i + k = d → Chains s d C →
      (∀ j, j < d → (C j).length = n) →
      ∃ s' n', filter.go d ref k i s n = some (s', n') ∧
        Chains s' d (fun j => (C j).filter (fun p => decide (below_from i d ref (s.coord p)))) ∧
        (∀ j, j < d →
          ((C j).filter (fun p => decide (below_from i d ref (s.coord p)))).length = n') ∧
        (∀ r, (s'.node r).x = (s.node r).x) ∧ s'.data = s.data
  | 0, i, s, C, n, hik, h, hn => by
    have hP : ∀ p, below_from i d ref (s.coord p) := fun p m hm him => by omega
    have hfil : ∀ j, (C j).filter (fun p => decide (below_from i d ref (s.coord p))) = C j :=
      fun j => List.filter_eq_self.mpr (fun p _ => by simpa using hP p)
    refine ⟨s, n, rfl, h.congr_lists (fun j _ => hfil j), fun j hj => ?_, fun _ => rfl, rfl⟩
    rw [hfil j]; exact hn j hj
  | k + 1, i, s, C, n, hik, h, hn => by
    have hi : i < d := by omega
    obtain ⟨s1, e1, e2, e3, e4⟩ := filter_inner_spec d ref i hi n s C h (hn i hi)
    have hco : s1.coord = s.coord := coord_eq_of _ _ e3 e4
    have hlen : ∀ j, j < d →
        ((fun j => (C j).filter (fun p => decide (s.coord p i < ref i))) j).length
          = ((C i).filter (fun p => decide (s.coord p i < ref i))).length :=
      fun j hj => e2.length_eq hj hi
    obtain ⟨s', n', f1, f2, f3, f4, f5⟩ :=
      filter_go_spec d ref k (i + 1) s1 _ _ (by omega) e2 hlen
    have hff : ∀ j, ((C j).filter (fun p => decide (s.coord p i < ref i))).filter
          (fun p => decide (below_from (i + 1) d ref (s.coord p)))
        = (C j).filter (fun p => decide (below_from i d ref (s.coord p))) := by
      intro j
      rw [List.filter_filter]
      congr 1
      funext p
      have := below_from_step i d ref (s.coord p) hi
      by_cases h1 : s.coord p i < ref i <;> by_cases h2 : below_from (i + 1) d ref (s.coord p)
        <;> simp [h1, h2, this]
    rw [hco] at f2 f3
    refine ⟨s', n', ?_, f2.congr_lists (fun j _ => (hff j).symm), ?_, ?_, ?_⟩
    · rw [filter.go]
      have : (s.node 0).prev i = s.pv i 0 := rfl
      rw [this, e1]
      exact f1
    · intro j hj
      rw [← hff j]
      exact f3 j hj
    · intro r; rw [f4, e3]
    · rw [f5, e4]

theorem mem_nodes {n p : Nat} : p ∈ nodes n ↔ 1 ≤ p ∧ p ≤ n := by
  simp only [nodes, List.mem_map, List.mem_range]
  constructor
  · rintro ⟨a, ha, rfl⟩; omega
  · intro h; exact ⟨p - 1, by omega, by omega⟩

theorem nodup_nodes (n : Nat) : (nodes n).Nodup :=
  (List.nodup_range n).map (fun a b h => by simpa using h)

@[simp] theorem nx_setX (s : hv_mem α) (p : Nat) (v : Option Nat) (j : Nat) :
    (s.setX p v).nx j = s.nx j := by
  funext r
  by_cases hr : r = p
  · subst hr; simp [hv_mem.nx, hv_mem.setX, hv_mem.setNode]
  · simp [hv_mem.nx, hv_mem.setX, hv_mem.setNode, Function.update, hr]

@[simp] theorem pv_setX (s : hv_mem α) (p : Nat) (v : Option Nat) (j : Nat) :
    (s.setX p v).pv j = s.pv j := by
  funext r
  by_cases hr : r = p
  · subst hr; simp [hv_mem.pv, hv_mem.setX, hv_mem.setNode]
  · simp [hv_mem.pv, hv_mem.setX, hv_mem.setNode, Function.update, hr]

theorem x_setX (s : hv_mem α) (p : Nat) (v : Option Nat) (r : Nat) :
    ((s.setX p v).node r).x = if r = p then v else (s.node r).x := by
  by_cases hr : r = p
  · subst hr; simp [hv_mem.setX, hv_mem.setNode]
  · simp [hv_mem.setX, hv_mem.setNode, Function.update, hr]

theorem setup_decr_spec :
    ∀ (l : List Nat) (s : hv_mem α), l.Nodup →
      (∀ r, ((setup_decr s l).node r).x = if r ∈ l then x_decr (s.node r).x else (s.node r).x) ∧
      (∀ j, (setup_decr s l).nx j = s.nx j) ∧ (∀ j, (setup_decr s l).pv j = s.pv j) ∧
      (setup_decr s l).data = s.data
  | [], s, _ => by simp [setup_decr]
  | p :: rest, s, hnd => by
    obtain ⟨hp, hrest⟩ := List.nodup_cons.mp hnd
    obtain ⟨i1, i2, i3, i4⟩ := setup_decr_spec rest (s.setX p (x_decr (s.node p).x)) hrest
    have e : setup_decr s (p :: rest) = setup_decr (s.setX p (x_decr (s.node p).x)) rest := rfl
    rw [e]
    refine ⟨?_, ?_, ?_, ?_⟩
    · intro r
      rw [i1 r, x_setX]
      by_cases hr : r = p
      · subst hr; simp [hp]
      · simp [hr]
    · intro j; rw [i2 j]; simp
    · intro j; rw [i3 j]; simp
    · rw [i4]; rfl

/-- The wiring of one dimension by `setup_cdllist` (the `setup_link` loop and
the two assignments closing the cycle at `head`). -/
theorem setup_link_spec (j : Nat) :
    ∀ (l : List Nat) (a : Nat) (s : hv_mem α), (a :: l).Nodup → 0 ∉ a :: l →
      Linked
        ((((setup_link s j (a :: l)).setNext ((a :: l).getLast (List.cons_ne_nil a l)) j 0).setPrev
          0 j ((a :: l).getLast (List.cons_ne_nil a l))).nx j)
        ((((setup_link s j (a :: l)).setNext ((a :: l).getLast (List.cons_ne_nil a l)) j 0).setPrev
          0 j ((a :: l).getLast (List.cons_ne_nil a l))).pv j) a l 0 ∧
      (∀ p, p ∉ a :: l →
        (((setup_link s j (a :: l)).setNext ((a :: l).getLast (List.cons_ne_nil a l)) j 0).setPrev
          0 j ((a :: l).getLast (List.cons_ne_nil a l))).nx j p = s.nx j p) ∧
      (∀ p, p ∉ l ++ [0] →
        (((setup_link s j (a :: l)).setNext ((a :: l).getLast (List.cons_ne_nil a l)) j 0).setPrev
          0 j ((a :: l).getLast (List.cons_ne_nil a l))).pv j p = s.pv j p) ∧
      (∀ i, i ≠ j →
        (((setup_link s j (a :: l)).setNext ((a :: l).getLast (List.cons_ne_nil a l)) j 0).setPrev
          0 j ((a :: l).getLast (List.cons_ne_nil a l))).nx i = s.nx i ∧
        (((setup_link s j (a :: l)).setNext ((a :: l).getLast (List.cons_ne_nil a l)) j 0).setPrev
          0 j ((a :: l).getLast (List.cons_ne_nil a l))).pv i = s.pv i) ∧
      (∀ r,
        ((((setup_link s j (a :: l)).setNext ((a :: l).getLast (List.cons_ne_nil a l)) j 0).setPrev
          0 j ((a :: l).getLast (List.cons_ne_nil a l))).node r).x = (s.node r).x) ∧
      (((setup_link s j (a :: l)).setNext ((a :: l).getLast (List.cons_ne_nil a l)) j 0).setPrev
          0 j ((a :: l).getLast (List.cons_ne_nil a l))).data = s.data
  | [], a, s, _, h0 => by
    have ha0 : a ≠ 0 := by
      intro e; subst e; simp at h0
    simp only [setup_link, List.getLast_singleton, Linked]
    refine ⟨by simp [Function.update, ha0], ?_, ?_, ?_, ?_, ?_⟩
    · intro p hp
      have : p ≠ a := by simpa using hp
      simp [Function.update, this]
    · intro p hp
      have : p ≠ 0 := by simpa using hp
      simp [Function.update, this]
    · intro i hi; simp [hi]
    · intro r; simp
    · simp
  | b :: rest, a, s, hnd, h0 => by
    obtain ⟨hab, hnd'⟩ := List.nodup_cons.mp hnd
    have h0' : 0 ∉ b :: rest := fun e => h0 (List.mem_cons_of_mem _ e)
    obtain ⟨i1, i2, i3, i4, i5, i6⟩ :=
      setup_link_spec j rest b ((s.setNext a j b).setPrev b j a) hnd' h0'
    have e1 : setup_link s j (a :: b :: rest)
        = setup_link ((s.setNext a j b).setPrev b j a) j (b :: rest) := rfl
    have e2 : (a :: b :: rest).getLast (List.cons_ne_nil a (b :: rest))
        = (b :: rest).getLast (List.cons_ne_nil b rest) := List.getLast_cons _
    rw [e1, e2]
    have hb0 : b ≠ 0 := by
      intro e; subst e; simp at h0'
    have hbr : b ∉ rest := (List.nodup_cons.mp hnd').1
    refine ⟨?_, ?_, ?_, ?_, ?_, ?_⟩
    · simp only [Linked]
      refine ⟨?_, ?_, i1⟩
      · rw [i2 a hab]; simp
      · rw [i3 b (by simp [hbr, hb0])]; simp
    · intro p hp
      have hpa : p ≠ a := fun e => hp (by simp [e])
      rw [i2 p (fun e => hp (List.mem_cons_of_mem _ e))]
      simp [Function.update, hpa]
    · intro p hp
      have hpb : p ≠ b := fun e => hp (by simp [e])
      rw [i3 p (fun e => hp (by simp at e ⊢; tauto))]
      simp [Function.update, hpb]
    · intro i hi
      rw [(i4 i hi).1, (i4 i hi).2]
      simp [hi]
    · intro r; rw [i5]; simp
    · rw [i6]; simp

theorem compare_node_le_zero {x1 x2 : α} (h : compare_node x1 x2 ≤ 0) : x1 ≤ x2 := by
  unfold compare_node at h
  by_contra hlt
  rw [if_neg (fun e => hlt (le_of_lt e)), if_pos (not_le.mp hlt)] at h
  exact absurd h (by decide)

theorem setup_dim_spec (q : qsort_t α) (j : Nat) (s : hv_mem α) (scratch : List Nat)
    (hnd : scratch.Nodup) (h0 : 0 ∉ scratch) (hne : scratch ≠ []) :
    ∃ s', setup_dim q j (s, scratch)
        = some (s', q.run (fun p => ((setup_decr s scratch).X p 0).getD 0) scratch) ∧
      Linked (s'.nx j) (s'.pv j) 0
        (q.run (fun p => ((setup_decr s scratch).X p 0).getD 0) scratch) 0 ∧
      (∀ i, i ≠ j → s'.nx i = s.nx i ∧ s'.pv i = s.pv i) ∧
      (∀ r, (s'.node r).x = if r ∈ scratch then x_decr (s.node r).x else (s.node r).x) ∧
      s'.data = s.data := by
  obtain ⟨d1, d2, d3, d4⟩ := setup_decr_spec scratch s hnd
  generalize hkey : (fun p => ((setup_decr s scratch).X p 0).getD 0) = key
  have hperm := q.perm key scratch
  have hnd' : (q.run key scratch).Nodup := hperm.nodup_iff.mpr hnd
  have h0' : 0 ∉ q.run key scratch := fun e => h0 (hperm.mem_iff.mp e)
  have hne' : q.run key scratch ≠ [] := fun e => hne (by
    have := hperm.length_eq; rw [e] at this
    exact List.length_eq_zero.mp this.symm)
  obtain ⟨first, l, hfl⟩ := List.exists_cons_of_ne_nil hne'
  rw [hfl] at hnd' h0'
  have hf0 : first ≠ 0 := by
    intro e; subst e; simp at h0'
  have hfl' : first ∉ l ++ [0] := by
    simp only [List.mem_append, List.mem_singleton, not_or]
    exact ⟨(List.nodup_cons.mp hnd').1, hf0⟩
  obtain ⟨i1, i2, i3, i4, i5, i6⟩ := setup_link_spec j l first
    (((setup_decr s scratch).setNext 0 j first).setPrev first j 0) hnd' h0'
  refine ⟨((setup_link (((setup_decr s scratch).setNext 0 j first).setPrev first j 0) j
      (first :: l)).setNext ((first :: l).getLast (List.cons_ne_nil _ _)) j 0).setPrev 0 j
      ((first :: l).getLast (List.cons_ne_nil _ _)), ?_, ?_, ?_, ?_, ?_⟩
  · simp only [setup_dim, hkey, hfl, List.head?_cons]
    rw [List.getLast?_eq_getLast (first :: l) (List.cons_ne_nil _ _)]
  · rw [hfl]
    simp only [Linked]
    refine ⟨?_, ?_, i1⟩
    · rw [i2 0 h0']; simp
    · rw [i3 first hfl']; simp
  · intro i hi
    rw [(i4 i hi).1, (i4 i hi).2]
    simp [hi, d2, d3]
  · intro r
    rw [i5 r]
    simpa using d1 r
  · rw [i6]
    simpa using d4

theorem setup_dims_spec (q : qsort_t α) (data : List α) (d n : Nat) (hn : 1 ≤ n) :
    ∀ (k : Nat) (s : hv_mem α) (scratch : List Nat) (C : Nat → List Nat), k ≤ d →
      setup_inv data d n k s scratch C →
      ∃ s' scratch' C', setup_dims q k (s, scratch) = some (s', scratch') ∧
        setup_inv data d n 0 s' scratch' C'
  | 0, s, scratch, C, _, h => ⟨s, scratch, C, rfl, h⟩
  | k + 1, s, scratch, C, hk, h => by
    have hnd : scratch.Nodup := h.scratch_perm.nodup_iff.mpr (nodup_nodes n)
    have h0 : 0 ∉ scratch := fun e => by
      have := mem_nodes.mp (h.scratch_perm.mem_iff.mp e)
      omega
    have hne : scratch ≠ [] := by
      intro e
      have : (1 : Nat) ∈ scratch := h.scratch_perm.mem_iff.mpr (mem_nodes.mpr ⟨le_refl _, hn⟩)
      rw [e] at this
      simp at this
    obtain ⟨s1, e1, e2, e3, e4, e5⟩ := setup_dim_spec q k s scratch hnd h0 hne
    generalize hkey : (fun p => ((setup_decr s scratch).X p 0).getD 0) = key at e1 e2
    have hx1 : ∀ p, p ∈ nodes n → (s1.node p).x = some ((p - 1) * d + k) := by
      intro p hp
      rw [e4 p, if_pos (h.scratch_perm.mem_iff.mpr hp), h.node_x p hp]
      rfl
    have hkeyv : ∀ p, p ∈ nodes n → key p = point_of data d (p - 1) k := by
      intro p hp
      obtain ⟨d1, _, _, d4⟩ := setup_decr_spec scratch s hnd
      rw [← hkey]
      simp only [hv_mem.X]
      rw [d1 p, if_pos (h.scratch_perm.mem_iff.mpr hp), h.node_x p hp, d4, h.data_eq]
      simp [x_decr, deref, point_of]
    have hperm1 : (q.run key scratch).Perm (nodes n) := (q.perm key scratch).trans h.scratch_perm
    have inv1 : setup_inv data d n k s1 (q.run key scratch)
        (Function.update C k (q.run key scratch)) := by
      refine ⟨?_, ?_, hx1, hperm1, ?_, ?_, ?_⟩
      · rw [e5]; exact h.data_eq
      · rw [e4 0, if_neg h0]; exact h.head_x
      · intro j hkj hjd
        by_cases hj : j = k
        · subst hj; simpa using e2
        · rw [Function.update_noteq hj, (e3 j hj).1, (e3 j hj).2]
          exact h.linked j (by omega) hjd
      · intro j hkj hjd
        by_cases hj : j = k
        · subst hj; simpa using hperm1
        · rw [Function.update_noteq hj]
          exact h.perm j (by omega) hjd
      · intro j hkj hjd
        by_cases hj : j = k
        · subst hj
          rw [Function.update_same]
          refine List.Pairwise.imp_of_mem ?_ (q.sorted key scratch)
          intro a b ha hb hab
          rw [← hkeyv a (hperm1.mem_iff.mp ha), ← hkeyv b (hperm1.mem_iff.mp hb)]
          exact compare_node_le_zero hab
        · rw [Function.update_noteq hj]
          exact h.sorted j (by omega) hjd
    obtain ⟨s', scratch', C', f1, f2⟩ := setup_dims_spec q data d n hn k s1 _ _ (by omega) inv1
    refine ⟨s', scratch', C', ?_, f2⟩
    rw [setup_dims, e1]
    exact f1

theorem setup_items_frame :
    ∀ (l : List Nat) (s : hv_mem α), (setup_items s l).node = s.node ∧
      (setup_items s l).data = s.data ∧ (setup_items s l).bound = s.bound
  | [], _ => ⟨rfl, rfl, rfl⟩
  | p :: rest, s => by
    obtain ⟨h1, h2, h3⟩ := setup_items_frame rest
      { s with avl := s.avl.setItem p ((s.xptr p).getD (fun _ => 0)) }
    exact ⟨h1, h2, h3⟩

theorem Chains.of_eq {s s' : hv_mem α} {d : Nat} {C : Nat → List Nat} (h : Chains s d C)
    (hn : s'.node = s.node) (hd : s'.data = s.data) : Chains s' d C := by
  have hnx : s'.nx = s.nx := by funext i p; simp [hv_mem.nx, hn]
  have hpv : s'.pv = s.pv := by funext i p; simp [hv_mem.pv, hn]
  have hco : s'.coord = s.coord := coord_eq_of _ _ (fun r => by rw [hn]) hd
  refine ⟨by rw [hn]; exact h.head_x, fun i hi p hp => by rw [hn]; exact h.node_x i hi p hp,
    fun i hi => by rw [hnx, hpv]; exact h.linked i hi, h.nodup, h.perm,
    fun i hi => by rw [hco]; exact h.sorted i hi⟩

/-- Postcondition of `setup_cdllist` for `n ≥ 1`. -/
theorem setup_cdllist_spec (q : qsort_t α) (data : List α) (d n : Nat) (hn : 1 ≤ n) :
    ∃ s C, setup_cdllist q data d n = some s ∧ Chains s d C ∧
      (∀ j, j < d → (C j).Perm (nodes n)) ∧
      (∀ p, p ∈ nodes n → (s.node p).x = some ((p - 1) * d)) ∧ s.data = data := by
  have inv0 : setup_inv data d n d (setup_init data d) (nodes n) (fun _ => []) := by
    refine ⟨rfl, rfl, ?_, List.Perm.refl _, fun j h1 h2 => by omega, fun j h1 h2 => by omega,
      fun j h1 h2 => by omega⟩
    intro p hp
    have hp1 := (mem_nodes.mp hp).1
    have : p ≠ 0 := by omega
    simp only [setup_init, if_neg this]
    congr 1
    obtain ⟨m, rfl⟩ : ∃ m, p = m + 1 := ⟨p - 1, by omega⟩
    simp [Nat.succ_mul]
  obtain ⟨s', scratch', C', f1, f2⟩ := setup_dims_spec q data d n hn d _ _ _ (le_refl _) inv0
  obtain ⟨g1, g2, g3⟩ := setup_items_frame (nodes n) s'
  have hx : ∀ p, p ∈ nodes n → ((setup_items s' (nodes n)).node p).x = some ((p - 1) * d) := by
    intro p hp; rw [g1]; simpa using f2.node_x p hp
  have hch : Chains s' d C' := by
    refine ⟨f2.head_x, ?_, fun i hi => f2.linked i (Nat.zero_le _) hi, ?_, ?_, ?_⟩
    · intro i hi p hp
      rw [f2.node_x p ((f2.perm i (Nat.zero_le _) hi).mem_iff.mp hp)]
      simp
    · intro i hi
      have hp := f2.perm i (Nat.zero_le _) hi
      rw [List.nodup_cons]
      refine ⟨fun e => ?_, hp.nodup_iff.mpr (nodup_nodes n)⟩
      have := mem_nodes.mp (hp.mem_iff.mp e)
      omega
    · intro i j hi hj
      exact (f2.perm i (Nat.zero_le _) hi).trans (f2.perm j (Nat.zero_le _) hj).symm
    · intro i hi
      refine List.Pairwise.imp_of_mem ?_ (f2.sorted i (Nat.zero_le _) hi)
      intro a b ha hb hab
      have ha' := (f2.perm i (Nat.zero_le _) hi).mem_iff.mp ha
      have hb' := (f2.perm i (Nat.zero_le _) hi).mem_iff.mp hb
      simp only [hv_mem.coord, hv_mem.X, f2.node_x a ha', f2.node_x b hb', f2.data_eq]
      simpa [deref, point_of] using hab
  refine ⟨setup_items s' (nodes n), C', ?_, hch.of_eq g1 g2,
    fun j hj => f2.perm j (Nat.zero_le _) hj, hx, ?_⟩
  · simp only [setup_cdllist]
    have : setup_dims q d (setup_init data d, List.map (fun i => i + 1) (List.range n))
        = some (s', scratch') := f1
    rw [this]
    rfl
  · rw [g2]; exact f2.data_eq

theorem union_volume_nil (d : Nat) (ref : Nat → α) : union_volume d ref [] = 0 := rfl

theorem union_volume_cons (d : Nat) (ref : Nat → α) (p : Nat → α) (P : List (Nat → α)) :
    union_volume d ref (p :: P)
      = union_volume d ref P + box_volume d ref p - union_volume d ref (P.map (pmax p)) := by
  simp [union_volume, union_volume_aux]

theorem pmax_comm (p q : Nat → α) : pmax p q = pmax q p := by
  funext i
  exact max_comm _ _

theorem pmax_pmax_comp (p q : Nat → α) : pmax (pmax p q) ∘ pmax p = pmax (pmax p q) := by
  funext x i
  simp only [Function.comp, pmax]
  rw [max_assoc, ← max_assoc (q i), max_comm (q i) (p i), max_assoc (p i), ← max_assoc (p i),
    max_self]

theorem pmax_pmax_comp' (p q : Nat → α) : pmax (pmax p q) ∘ pmax q = pmax (pmax p q) := by
  rw [pmax_comm p q]
  exact pmax_pmax_comp q p

theorem union_volume_swap (d : Nat) (ref : Nat → α) (x y : Nat → α) (l : List (Nat → α)) :
    union_volume d ref (y :: x :: l) = union_volume d ref (x :: y :: l) := by
  simp only [union_volume_cons, List.map_cons, List.map_map]
  rw [pmax_pmax_comp y x, pmax_pmax_comp x y, pmax_comm y x]
  ring

theorem union_volume_perm_aux (d : Nat) (ref : Nat → α) :
    ∀ (n : Nat) (P Q : List (Nat → α)), P.Perm Q → P.length ≤ n →
      union_volume d ref P = union_volume d ref Q := by
  intro n
  induction n with
  | zero =>
    intro P Q hperm hlen
    have : P = [] := List.length_eq_zero.mp (Nat.le_zero.mp hlen)
    subst this
    rw [hperm.nil_eq]
  | succ n ihn =>
    intro P Q hperm
    induction hperm with
    | nil => intro _; rfl
    | @cons x l1 l2 hpq _ =>
      intro hlen
      have hl : l1.length ≤ n := by simpa using hlen
      rw [union_volume_cons, union_volume_cons, ihn l1 l2 hpq hl,
        ihn (l1.map (pmax x)) (l2.map (pmax x)) (hpq.map _) (by simpa using hl)]
    | swap x y l => intro _; exact union_volume_swap d ref x y l
    | @trans l1 l2 l3 h1 _ ih1 ih2 =>
      intro hlen
      rw [ih1 hlen, ih2 (h1.length_eq ▸ hlen)]

/-- The volume of the union does not depend on the order of the points. -/
theorem union_volume_perm (d : Nat) (ref : Nat → α) {P Q : List (Nat → α)} (h : P.Perm Q) :
    union_volume d ref P = union_volume d ref Q :=
  union_volume_perm_aux d ref P.length P Q h (le_refl _)

theorem min_add_max' (a b : α) : min a b + max a b = a + b := by
  rcases le_total a b with h | h
  · rw [min_eq_left h, max_eq_right h]
  · rw [min_eq_right h, max_eq_left h, add_comm]

theorem sweep2_from_clip (ref : Nat → α) (p : Nat → α) :
    ∀ (rest : List (Nat → α)) (m y : α), (∀ x, x ∈ rest → p 1 ≤ x 1) →
      sweep2_from ref (min (p 0) m) y rest
        = (ref 0 - p 0) * (ref 1 - y) + sweep2_from ref m y rest
          - sweep2_from ref (max (p 0) m) y (rest.map (pmax p))
  | [], m, y, _ => by
    simp only [sweep2_from, List.map_nil]
    have := min_add_max' (p 0) m
    have e : min (p 0) m = p 0 + m - max (p 0) m := by rw [← this]; ring
    rw [e]; ring
  | x :: rest, m, y, h => by
    have hx : p 1 ≤ x 1 := h x (by simp)
    have ih := sweep2_from_clip ref p rest (min m (x 0)) (x 1)
      (fun z hz => h z (List.mem_cons_of_mem _ hz))
    simp only [sweep2_from, List.map_cons]
    have e1 : min (min (p 0) m) (x 0) = min (p 0) (min m (x 0)) := min_assoc _ _ _
    have e2 : min (max (p 0) m) (pmax p x 0) = max (p 0) (min m (x 0)) := by
      simp only [pmax]
      exact (max_min_distrib_left _ _ _).symm
    have e3 : pmax p x 1 = x 1 := by
      simp only [pmax]; exact max_eq_right hx
    rw [e1, e2, e3, ih]
    have := min_add_max' (p 0) m
    have e : min (p 0) m = p 0 + m - max (p 0) m := by rw [← this]; ring
    rw [e]; ring

theorem box_volume_two (ref p : Nat → α) :
    box_volume 2 ref p = (ref 0 - p 0) * (ref 1 - p 1) := by
  simp [box_volume, List.range_succ]

theorem sweep2_eq_union_volume_aux (ref : Nat → α) :
    ∀ (n : Nat) (P : List (Nat → α)), P.length ≤ n → P.Pairwise (fun a b => a 1 ≤ b 1) →
      sweep2 ref P = union_volume 2 ref P
  | 0, P, hlen, _ => by
    have : P = [] := List.length_eq_zero.mp (Nat.le_zero.mp hlen)
    subst this; rfl
  | n + 1, [], _, _ => rfl
  | n + 1, [p], _, _ => by
    simp [sweep2, sweep2_from, union_volume_cons, union_volume_nil, box_volume_two]
  | n + 1, p :: x :: rest, hlen, hs => by
    have hlen' : (x :: rest).length ≤ n := by simpa using hlen
    obtain ⟨hp, hs'⟩ := List.pairwise_cons.mp hs
    have ih1 := sweep2_eq_union_volume_aux ref n (x :: rest) hlen' hs'
    have hmap : ((x :: rest).map (pmax p)).Pairwise (fun a b => a 1 ≤ b 1) := by
      rw [List.pairwise_map]
      refine hs'.imp ?_
      intro a b hab
      simp only [pmax]
      exact max_le_max (le_refl _) hab
    have ih2 := sweep2_eq_union_volume_aux ref n ((x :: rest).map (pmax p)) (by simpa using hlen')
      hmap
    rw [union_volume_cons, ← ih1, ← ih2]
    simp only [List.map_cons, sweep2, sweep2_from]
    have hx : p 1 ≤ x 1 := hp x (by simp)
    have e3 : pmax p x 1 = x 1 := by
      simp only [pmax]; exact max_eq_right hx
    have e0 : pmax p x 0 = max (p 0) (x 0) := rfl
    rw [e3, e0, sweep2_from_clip ref p rest (x 0) (x 1)
      (fun z hz => hp z (List.mem_cons_of_mem _ hz)), box_volume_two]
    ring

/-- For points sorted by coordinate 1, the sweep sum is the area of the union. -/
theorem sweep2_eq_union_volume (ref : Nat → α) (P : List (Nat → α))
    (hs : P.Pairwise (fun a b => a 1 ≤ b 1)) : sweep2 ref P = union_volume 2 ref P :=
  sweep2_eq_union_volume_aux ref P.length P (le_refl _) hs

theorem coord_of_x {s : hv_mem α} {p off : Nat} (h : (s.node p).x = some off) (k : Nat) :
    s.X p k = some (s.coord p k) ∧ s.coord p k = s.data.getD (off + k) 0 := by
  simp [hv_mem.coord, hv_mem.X, h, deref]

theorem dominating_points_length_zero (data : List α) (n : Nat) (ref : Nat → α) :
    (dominating_points data 0 n ref).length = n := by
  have : ∀ p : Nat → α, below 0 ref p := fun p i hi => absurd hi (Nat.not_lt_zero _)
  simp [dominating_points, this]

theorem nodes_map_point (data : List α) (d n : Nat) :
    (nodes n).map (fun p => point_of data d (p - 1)) = (List.range n).map (point_of data d) := by
  simp [nodes, List.map_map, Function.comp]

/-- `setup_cdllist` followed by `filter`: the chains hold exactly the nodes of
the points strictly below `ref`, and the returned count is their number. -/
theorem setup_filter_spec (q : qsort_t α) (data : List α) (d n : Nat) (ref : Nat → α)
    (hn : 1 ≤ n) :
    ∃ s0, setup_cdllist q data d n = some s0 ∧ ∀ b : Nat → α, ∃ s1 C,
      filter { s0 with bound := b } d n ref
        = some (s1, (dominating_points data d n ref).length) ∧
      Chains s1 d C ∧ s1.data = data ∧
      (∀ j, j < d →
        ((C j).map (fun p => point_of data d (p - 1))).Perm (dominating_points data d n ref)) ∧
      (∀ j, j < d → ∀ p, p ∈ C j →
        p ∈ nodes n ∧ below d ref (point_of data d (p - 1)) ∧
          s1.coord p = point_of data d (p - 1)) ∧
      (∀ j, j < d → ∀ p, p ∈ nodes n → below d ref (point_of data d (p - 1)) → p ∈ C j) ∧
      (∀ p, p ∈ nodes n → (s1.node p).x = some ((p - 1) * d)) := by
  obtain ⟨s0, C0, h1, h2, h3, h4, h5⟩ := setup_cdllist_spec q data d n hn
  refine ⟨s0, h1, fun b => ?_⟩
  have hch : Chains { s0 with bound := b } d C0 := h2.of_eq rfl rfl
  have hlen : ∀ j, j < d → (C0 j).length = n := fun j hj => by
    rw [(h3 j hj).length_eq]; simp [nodes]
  obtain ⟨s1, n1, f1, f2, f3, f4, f5⟩ := filter_go_spec d ref d 0 _ C0 n (by omega) hch hlen
  have hco0 : ∀ p, p ∈ nodes n → s0.coord p = point_of data d (p - 1) := by
    intro p hp
    funext k
    rw [(coord_of_x (h4 p hp) k).2, h5]
    rfl
  have hco0' : (hv_mem.coord { s0 with bound := b }) = s0.coord := coord_eq_of _ _ (fun _ => rfl) rfl
  have hco1 : s1.coord = s0.coord := (coord_eq_of _ _ f4 f5).trans hco0'
  rw [hco0'] at f2 f3
  have hmem : ∀ j, j < d → ∀ p,
      p ∈ (C0 j).filter (fun p => decide (below_from 0 d ref (s0.coord p)))
        ↔ p ∈ nodes n ∧ below d ref (point_of data d (p - 1)) := by
    intro j hj p
    rw [List.mem_filter, (h3 j hj).mem_iff]
    constructor
    · rintro ⟨hp, hb⟩
      refine ⟨hp, ?_⟩
      rw [← hco0 p hp, ← below_from_zero]
      simpa using hb
    · rintro ⟨hp, hb⟩
      refine ⟨hp, ?_⟩
      rw [← hco0 p hp, ← below_from_zero] at hb
      simpa using hb
  have hperm : ∀ j, j < d →
      (((C0 j).filter (fun p => decide (below_from 0 d ref (s0.coord p)))).map
        (fun p => point_of data d (p - 1))).Perm (dominating_points data d n ref) := by
    intro j hj
    have e1 : (C0 j).filter (fun p => decide (below_from 0 d ref (s0.coord p)))
        = (C0 j).filter (fun p => decide (below d ref (point_of data d (p - 1)))) := by
      apply List.filter_congr
      intro p hp
      rw [hco0 p ((h3 j hj).mem_iff.mp hp)]
      simp [below_from_zero]
    rw [e1]
    have e2 : dominating_points data d n ref
        = ((nodes n).filter (fun p => decide (below d ref (point_of data d (p - 1))))).map
            (fun p => point_of data d (p - 1)) := by
      rw [dominating_points, ← nodes_map_point, List.filter_map]
      rfl
    rw [e2]
    exact ((h3 j hj).filter _).map _
  refine ⟨s1, _, ?_, f2, by rw [f5]; exact h5, hperm, ?_, ?_,
    fun p hp => by rw [f4]; exact h4 p hp⟩
  · rcases Nat.eq_zero_or_pos d with hd | hd
    · subst hd
      simp only [filter, filter.go] at f1 ⊢
      rw [dominating_points_length_zero]
      simp only [Option.some.injEq, Prod.mk.injEq] at f1 ⊢
      exact ⟨f1.1, trivial⟩
    · have e := f3 0 hd
      have e' := (hperm 0 hd).length_eq
      rw [List.length_map] at e'
      have : filter { s0 with bound := b } d n ref = some (s1, n1) := f1
      rw [this, ← e, e']
  · intro j hj p hp
    have := (hmem j hj p).mp hp
    refine ⟨this.1, this.2, ?_⟩
    rw [hco1]; exact hco0 p this.1
  · intro j hj p hp hb
    exact (hmem j hj p).mpr ⟨hp, hb⟩

theorem fpli_prod_spec (ref : Nat → α) (s : hv_mem α) (p : Nat) (hx : (s.node p).x ≠ none) :
    ∀ (k i : Nat) (acc : α),
      fpli_prod ref s p k i acc
        = some (acc * ((List.range' i k).map (fun m => ref m - s.coord p m)).prod)
  | 0, i, acc => by simp [fpli_prod]
  | k + 1, i, acc => by
    obtain ⟨off, hoff⟩ := Option.ne_none_iff_exists'.mp hx
    rw [fpli_prod, (coord_of_x hoff i).1]
    simp only []
    rw [fpli_prod_spec ref s p hx k (i + 1)]
    simp [List.range'_succ, mul_assoc]

theorem fpli_hv_single_aux (q : qsort_t α) (data : List α) (d : Nat) (ref : Nat → α)
    (hd : 1 ≤ d) :
    fpli_hv q data d 1 ref
      = some (if below d ref (point_of data d 0) then box_volume d ref (point_of data d 0)
              else 0) := by
  obtain ⟨s0, h1, hb⟩ := setup_filter_spec q data d 1 ref (le_refl _)
  obtain ⟨s1, C, h2, h3, h4, h5, h6, h7, _⟩ := hb (fun _ => -DBL_MAX)
  have hgood : dominating_points data d 1 ref
      = if below d ref (point_of data d 0) then [point_of data d 0] else [] := by
    have e : List.range 1 = [0] := rfl
    simp only [dominating_points, e, List.map_cons, List.map_nil]
    by_cases hb : below d ref (point_of data d 0)
    · simp [hb]
    · simp [hb]
  unfold fpli_hv
  rw [h1]
  simp only []
  rw [h2]
  by_cases hb : below d ref (point_of data d 0)
  · rw [hgood, if_pos hb, if_pos hb]
    simp only [List.length_singleton, one_ne_zero, if_false, if_true]
    have h1C : (1 : Nat) ∈ C 0 := h7 0 hd 1 (mem_nodes.mpr ⟨le_refl _, le_refl _⟩) hb
    have hlink := h3.linked 0 hd
    have hlen : (C 0).length = 1 := by
      have := (h5 0 hd).length_eq
      rw [hgood, if_pos hb] at this
      simpa using this
    obtain ⟨a, ha⟩ := List.length_eq_one.mp hlen
    rw [ha] at h1C hlink
    have ha1 : a = 1 := by simpa using (List.mem_singleton.mp h1C).symm
    subst ha1
    simp only [Linked] at hlink
    have hn0 : (s1.node 0).next 0 = 1 := hlink.1
    rw [hn0, fpli_prod_spec ref s1 1 (h3.node_x 0 hd 1 (by rw [ha]; simp)) d 0 1]
    have hco := (h6 0 hd 1 (by rw [ha]; simp)).2.2
    rw [hco, one_mul, box_volume, List.range_eq_range']
  · rw [hgood, if_neg hb, if_neg hb]
    simp

theorem setIgnore_frame (s : hv_mem α) (p : Nat) (v : Int) :
    (∀ j, (s.setIgnore p v).nx j = s.nx j) ∧ (∀ j, (s.setIgnore p v).pv j = s.pv j) ∧
      (∀ r, ((s.setIgnore p v).node r).x = (s.node r).x) ∧ (s.setIgnore p v).data = s.data := by
  refine ⟨fun j => ?_, fun j => ?_, fun r => ?_, rfl⟩
  · funext r
    by_cases hr : r = p
    · subst hr; simp [hv_mem.nx, hv_mem.setIgnore, hv_mem.setNode]
    · simp [hv_mem.nx, hv_mem.setIgnore, hv_mem.setNode, Function.update, hr]
  · funext r
    by_cases hr : r = p
    · subst hr; simp [hv_mem.pv, hv_mem.setIgnore, hv_mem.setNode]
    · simp [hv_mem.pv, hv_mem.setIgnore, hv_mem.setNode, Function.update, hr]
  · by_cases hr : r = p
    · subst hr; simp [hv_mem.setIgnore, hv_mem.setNode]
    · simp [hv_mem.setIgnore, hv_mem.setNode, Function.update, hr]

/-- The `dim == 1` loop: walking the chain from `p1` through `rest` to the
sentinel accumulates the sweep sum. -/
theorem hv_dim1_loop_spec (ref : Nat → α) :
    ∀ (rest : List Nat) (fuel : Nat) (s : hv_mem α) (p1 : Nat) (hypera hyperv : α),
      Linked (s.nx 1) (s.pv 1) p1 rest 0 → (s.node 0).x = none →
      (∀ p, p ∈ p1 :: rest → (s.node p).x ≠ none) → rest.length < fuel →
      ∃ m v pl s', hv_dim1_loop ref fuel s p1 hypera hyperv = some (m, v, pl, s') ∧
        (s'.node pl).x ≠ none ∧ s'.coord = s.coord ∧
        v + (ref 0 - m) * (ref 1 - s.coord pl 1)
          = hyperv + sweep2_from ref hypera (s.coord p1 1) (rest.map (fun p => s.coord p))
  | [], fuel, s, p1, hypera, hyperv, hl, h0, hx, hf => by
    obtain ⟨f, rfl⟩ : ∃ f, fuel = f + 1 := ⟨fuel - 1, by omega⟩
    simp only [Linked] at hl
    have hn : (s.node p1).next 1 = 0 := hl.1
    refine ⟨hypera, hyperv, p1, s, ?_, hx p1 (by simp), rfl, ?_⟩
    · rw [hv_dim1_loop]
      simp only [hn, h0]
    · simp [sweep2_from]
  | c :: rest, fuel, s, p1, hypera, hyperv, hl, h0, hx, hf => by
    obtain ⟨f, rfl⟩ : ∃ f, fuel = f + 1 := ⟨fuel - 1, by omega⟩
    simp only [Linked] at hl
    obtain ⟨hn, _, hl'⟩ := hl
    have hn' : (s.node p1).next 1 = c := hn
    obtain ⟨offc, hoffc⟩ := Option.ne_none_iff_exists'.mp (hx c (by simp))
    obtain ⟨off1, hoff1⟩ := Option.ne_none_iff_exists'.mp (hx p1 (by simp))
    have hf' : rest.length < f := by simp at hf; omega
    have hx' : ∀ p, p ∈ c :: rest → (s.node p).x ≠ none :=
      fun p hp => hx p (List.mem_cons_of_mem _ hp)
    rw [hv_dim1_loop]
    simp only [hn', hoffc, (coord_of_x hoffc 1).1, (coord_of_x hoff1 1).1, (coord_of_x hoffc 0).1]
    by_cases hlt : s.coord c 0 < hypera
    · simp only [if_pos hlt]
      obtain ⟨m, v, pl, s', e1, e2, e3, e4⟩ := hv_dim1_loop_spec ref rest f s c (s.coord c 0)
        (hyperv + (ref 0 - hypera) * (s.coord c 1 - s.coord p1 1)) hl' h0 hx' hf'
      refine ⟨m, v, pl, s', e1, e2, e3, ?_⟩
      rw [e4]
      simp only [List.map_cons, sweep2_from, min_eq_right (le_of_lt hlt)]
      ring
    · simp only [if_neg hlt]
      have hmin : min hypera (s.coord c 0) = hypera := min_eq_left (not_lt.mp hlt)
      by_cases hig : (s.node c).ignore = 0
      · simp only [if_pos hig]
        obtain ⟨g1, g2, g3, g4⟩ := setIgnore_frame s c 1
        have hco : (s.setIgnore c 1).coord = s.coord := coord_eq_of _ _ g3 g4
        obtain ⟨m, v, pl, s', e1, e2, e3, e4⟩ := hv_dim1_loop_spec ref rest f (s.setIgnore c 1) c
          hypera (hyperv + (ref 0 - hypera) * (s.coord c 1 - s.coord p1 1))
          (by rw [g1, g2]; exact hl') (by rw [g3]; exact h0)
          (fun p hp => by rw [g3]; exact hx' p hp) hf'
        refine ⟨m, v, pl, s', e1, e2, e3.trans hco, ?_⟩
        rw [hco] at e4
        rw [e4]
        simp only [List.map_cons, sweep2_from, hmin]
        ring
      · simp only [if_neg hig]
        obtain ⟨m, v, pl, s', e1, e2, e3, e4⟩ := hv_dim1_loop_spec ref rest f s c hypera
          (hyperv + (ref 0 - hypera) * (s.coord c 1 - s.coord p1 1)) hl' h0 hx' hf'
        refine ⟨m, v, pl, s', e1, e2, e3, ?_⟩
        rw [e4]
        simp only [List.map_cons, sweep2_from, hmin]
        ring

theorem dominating_points_length_le (data : List α) (d n : Nat) (ref : Nat → α) :
    (dominating_points data d n ref).length ≤ n := by
  have := List.length_filter_le (fun p => decide (below d ref p))
    ((List.range n).map (point_of data d))
  simpa [dominating_points] using this

theorem fpli_hv_two_aux (q : qsort_t α) (data : List α) (n : Nat) (ref : Nat → α)
    (h2 : 2 ≤ (dominating_points data 2 n ref).length) :
    ∃ L : List (Nat → α), L.Perm (dominating_points data 2 n ref) ∧
      L.Pairwise (fun a b => a 1 ≤ b 1) ∧
      fpli_hv q data 2 n ref = some (sweep2 ref L) ∧
      sweep2 ref L = union_volume 2 ref (dominating_points data 2 n ref) := by
  have hNn := dominating_points_length_le data 2 n ref
  have hn : 1 ≤ n := by omega
  obtain ⟨s0, h1, hb⟩ := setup_filter_spec q data 2 n ref hn
  obtain ⟨s1, C, hf, h3, h4, h5, h6, h7, _⟩ := hb (fun _ => -DBL_MAX)
  have hmap : (C 1).map (fun p => s1.coord p) = (C 1).map (fun p => point_of data 2 (p - 1)) :=
    List.map_congr_left (fun p hp => (h6 1 (by omega) p hp).2.2)
  have hperm : ((C 1).map (fun p => s1.coord p)).Perm (dominating_points data 2 n ref) := by
    rw [hmap]; exact h5 1 (by omega)
  have hsorted : ((C 1).map (fun p => s1.coord p)).Pairwise (fun a b => a 1 ≤ b 1) := by
    rw [List.pairwise_map]
    exact h3.sorted 1 (by omega)
  refine ⟨(C 1).map (fun p => s1.coord p), hperm, hsorted, ?_, ?_⟩
  · have hlen : (C 1).length = (dominating_points data 2 n ref).length := by
      rw [← hperm.length_eq, List.length_map]
    obtain ⟨c0, rest, hC⟩ : ∃ c0 rest, C 1 = c0 :: rest := by
      cases hc : C 1 with
      | nil => rw [hc] at hlen; simp at hlen; omega
      | cons c0 rest => exact ⟨c0, rest, rfl⟩
    have hlink := h3.linked 1 (by omega)
    rw [hC] at hlink
    simp only [Linked] at hlink
    obtain ⟨hn0, _, hl⟩ := hlink
    have hn0' : (s1.node 0).next 1 = c0 := hn0
    have hx : ∀ p, p ∈ c0 :: rest → (s1.node p).x ≠ none :=
      fun p hp => h3.node_x 1 (by omega) p (by rw [hC]; exact hp)
    obtain ⟨off0, hoff0⟩ := Option.ne_none_iff_exists'.mp (hx c0 (by simp))
    have hfuel : rest.length < n + 2 := by
      rw [hC] at hlen; simp at hlen; omega
    obtain ⟨m, v, pl, s', e1, e2, e3, e4⟩ := hv_dim1_loop_spec ref rest (n + 2) s1 c0
      (s1.coord c0 0) 0 hl h3.head_x hx hfuel
    obtain ⟨offl, hoffl⟩ := Option.ne_none_iff_exists'.mp e2
    unfold fpli_hv
    rw [h1]
    simp only []
    rw [hf]
    have hN0 : (dominating_points data 2 n ref).length ≠ 0 := by omega
    have hN1 : (dominating_points data 2 n ref).length ≠ 1 := by omega
    simp only [if_neg hN0, if_neg hN1, if_neg (show (2 : Nat) ≠ 0 by decide)]
    have hrec : hv_recursive (n + 2) ref 0 (2 - 1) s1 (dominating_points data 2 n ref).length
        = hv_dim1 (n + 2) ref s1 0 := rfl
    rw [hrec, hv_dim1]
    simp only [hn0', (coord_of_x hoff0 0).1, e1, (coord_of_x hoffl 1).1]
    rw [e3, e4, hC]
    simp [sweep2]
  · rw [sweep2_eq_union_volume ref _ hsorted]
    exact union_volume_perm 2 ref hperm

/-! ### The claims -/

/-- For `n = 0` and any `d ≥ 1`, `setup_cdllist` indexes `scratch[0]` and
`scratch[n-1]` of a zero-length array, so a call of `fpli_hv` with no point
yields no value, whereas the union of no boxes has volume `0`. (The binding
`hypervolume` never makes this call.) -/
theorem fpli_hv_empty_list_no_volume (q : qsort_t α) (data : List α) (d : Nat)
    (ref : Nat → α) :
    fpli_hv q data (d + 1) 0 ref = none ∧
      union_volume (d + 1) ref (dominating_points data (d + 1) 0 ref) = 0 :=
  ⟨fpli_hv_zero q data d ref, rfl⟩

/-- For `n = 0` and any `d ≥ 1` a call of `fpli_hv` returns no value at
all. -/
theorem fpli_hv_empty_list_no_value (q : qsort_t α) (data : List α) (d : Nat)
    (ref : Nat → α) :
    ¬ ∃ v : α, fpli_hv q data (d + 1) 0 ref = some v ∧ 0 ≤ v := by
  rw [fpli_hv_zero]
  rintro ⟨v, hv, _⟩
  exact Option.noConfusion hv

/-- C3 (the hypervolume of the empty point set is `0` and no error is
signalled): with no point `lDim` keeps its initial value `-1`, no reference
point has that length, and the binding raises `TypeError`. -/
theorem hypervolume_empty_type_error (q : qsort_t α) (lPyReference : List α) :
    hypervolume q [] lPyReference
      = py_result.type_error "Reference point is not of same dimensionality as point set" := by
  have h : ¬ ((lPyReference.length : Int) = -1) := by omega
  simp [hypervolume, read_points, h]

/-- C4: for `d ≥ 1` and a single point `p`, `fpli_hv` returns
`Π_i (ref[i] - p[i])` when `p[i] < ref[i]` for every `i`; otherwise `filter`
removes the point (it returns the count `0`) and the result is `0`. -/
theorem fpli_hv_single_point (q : qsort_t α) (data : List α) (d : Nat) (ref : Nat → α)
    (hd : 1 ≤ d) :
    fpli_hv q data d 1 ref
        = some (if below d ref (point_of data d 0) then box_volume d ref (point_of data d 0)
                else 0) ∧
      ∃ s0 s1, setup_cdllist q data d 1 = some s0 ∧
        filter s0 d 1 ref = some (s1, if below d ref (point_of data d 0) then 1 else 0) := by
  refine ⟨fpli_hv_single_aux q data d ref hd, ?_⟩
  obtain ⟨s0, h1, hb⟩ := setup_filter_spec q data d 1 ref (le_refl _)
  obtain ⟨s1, C, h2, _⟩ := hb s0.bound
  refine ⟨s0, s1, h1, ?_⟩
  have e : List.range 1 = [0] := rfl
  have hgood : (dominating_points data d 1 ref).length
      = if below d ref (point_of data d 0) then 1 else 0 := by
    simp only [dominating_points, e, List.map_cons, List.map_nil]
    by_cases hb : below d ref (point_of data d 0)
    · simp [hb]
    · simp [hb]
  rw [← hgood]
  exact h2

/-- Witness for `fpli_hv_single_point`: the point `(1, 2, 3)` with reference `(4, 4, 4)`. -/
theorem fpli_hv_single_point_witness :
    1 ≤ 3 ∧
      (fpli_hv qsort_insertion ([1, 2, 3] : List Int) 3 1 (fun _ => 4)
          = some (if below 3 (fun _ => 4) (point_of ([1, 2, 3] : List Int) 3 0)
                  then box_volume 3 (fun _ => 4) (point_of ([1, 2, 3] : List Int) 3 0)
                  else 0) ∧
        ∃ s0 s1, setup_cdllist qsort_insertion ([1, 2, 3] : List Int) 3 1 = some s0 ∧
          filter s0 3 1 (fun _ => 4)
            = some (s1, if below 3 (fun _ => 4) (point_of ([1, 2, 3] : List Int) 3 0)
                        then 1 else 0)) :=
  ⟨by decide, fpli_hv_single_point qsort_insertion [1, 2, 3] 3 (fun _ => 4) (by decide)⟩

end properties

/-! ## Volumes of unions of boxes -/

section
set_option linter.unusedSectionVars false
variable {α : Type} [LinearOrderedCommRing α]

/-! ### More on `union_volume` -/

theorem box_volume_congr (d : Nat) {ref ref' p p' : Nat → α}
    (hr : ∀ i, i < d → ref i = ref' i) (hp : ∀ i, i < d → p i = p' i) :
    box_volume d ref p = box_volume d ref' p' := by
  unfold box_volume
  congr 1
  apply List.map_congr_left
  intro i hi
  rw [hr i (List.mem_range.mp hi), hp i (List.mem_range.mp hi)]

theorem box_volume_succ (k : Nat) (ref p : Nat → α) :
    box_volume (k + 1) ref p = box_volume k ref p * (ref k - p k) := by
  simp [box_volume, List.range_succ]

theorem union_volume_congr (d : Nat) {ref ref' : Nat → α} (hr : ∀ i, i < d → ref i = ref' i) :
    ∀ (n : Nat) (P Q : List (Nat → α)), P.length ≤ n →
      List.Forall₂ (fun p q => ∀ i, i < d → p i = q i) P Q →
      union_volume d ref P = union_volume d ref' Q
  | 0, P, Q, hlen, h => by
    have : P = [] := List.length_eq_zero.mp (Nat.le_zero.mp hlen)
    subst this
    cases h
    rfl
  | n + 1, [], Q, _, h => by cases h; rfl
  | n + 1, p :: P, Q, hlen, h => by
    cases h with
    | cons hpq hPQ =>
      rename_i q Q'
      rw [union_volume_cons, union_volume_cons]
      have hl : P.length ≤ n := by simpa using hlen
      rw [union_volume_congr d hr n P Q' hl hPQ, box_volume_congr d hr hpq,
        union_volume_congr d hr n (P.map (pmax p)) (Q'.map (pmax q)) (by simpa using hl)]
      rw [List.forall₂_map_left_iff, List.forall₂_map_right_iff]
      refine hPQ.imp ?_
      intro a b hab i hi
      simp only [pmax]
      rw [hpq i hi, hab i hi]

theorem union_volume_congr_ref (d : Nat) {ref ref' : Nat → α} (hr : ∀ i, i < d → ref i = ref' i)
    (P : List (Nat → α)) : union_volume d ref P = union_volume d ref' P :=
  union_volume_congr d hr P.length P P (le_refl _)
    (List.forall₂_same.mpr (fun _ _ _ _ => rfl))

/-- A list of boxes that all have zero extent in coordinate `k` has volume `0`. -/
theorem union_volume_flat (d k : Nat) (hk : k < d) (ref : Nat → α) :
    ∀ (n : Nat) (P : List (Nat → α)), P.length ≤ n → (∀ p, p ∈ P → p k = ref k) →
      union_volume d ref P = 0
  | 0, P, hlen, _ => by
    have : P = [] := List.length_eq_zero.mp (Nat.le_zero.mp hlen)
    subst this; rfl
  | n + 1, [], _, _ => rfl
  | n + 1, p :: P, hlen, h => by
    have hl : P.length ≤ n := by simpa using hlen
    have hp : p k = ref k := h p (by simp)
    have hbox : box_volume d ref p = 0 := by
      unfold box_volume
      apply List.prod_eq_zero
      rw [List.mem_map]
      exact ⟨k, List.mem_range.mpr hk, by rw [hp, sub_self]⟩
    rw [union_volume_cons, hbox, union_volume_flat d k hk ref n P hl
      (fun q hq => h q (List.mem_cons_of_mem _ hq)),
      union_volume_flat d k hk ref n (P.map (pmax p)) (by simpa using hl)]
    · simp
    · intro q hq
      obtain ⟨q', hq', rfl⟩ := List.mem_map.mp hq
      simp only [pmax]
      rw [hp, h q' (List.mem_cons_of_mem _ hq'), max_self]

/-- Raising the reference in the last coordinate `k` from `y` to `y'` adds
`(y' - y)` times the `k`-dimensional volume. -/
theorem union_volume_raise (k : Nat) (ref : Nat → α) (y y' : α) :
    ∀ (n : Nat) (P : List (Nat → α)), P.length ≤ n →
      union_volume (k + 1) (Function.update ref k y') P
        = union_volume (k + 1) (Function.update ref k y) P + (y' - y) * union_volume k ref P
  | 0, P, hlen => by
    have : P = [] := List.length_eq_zero.mp (Nat.le_zero.mp hlen)
    subst this; simp [union_volume_nil]
  | n + 1, [], _ => by simp [union_volume_nil]
  | n + 1, p :: P, hlen => by
    have hl : P.length ≤ n := by simpa using hlen
    have hb : ∀ z : α, box_volume k (Function.update ref k z) p = box_volume k ref p :=
      fun z => box_volume_congr k (fun i hi => by
        rw [Function.update_noteq (Nat.ne_of_lt hi)]) (fun _ _ => rfl)
    simp only [union_volume_cons, box_volume_succ, Function.update_same, hb]
    rw [union_volume_raise k ref y y' n P hl,
      union_volume_raise k ref y y' n (P.map (pmax p)) (by simpa using hl)]
    ring

theorem exists_perm_cons {β : Type} {a : β} {l : List β} (h : a ∈ l) :
    ∃ l', l.Perm (a :: l') := by
  obtain ⟨s, t, rfl⟩ := List.append_of_mem h
  exact ⟨s ++ t, List.perm_middle⟩

theorem union_volume_singleton (d : Nat) (ref p : Nat → α) :
    union_volume d ref [p] = box_volume d ref p := by
  simp [union_volume_cons, union_volume_nil]

/-- Absorption of dominated points, together with the volume of a list that
has a point dominating all others. -/
theorem union_volume_dominated_aux (d : Nat) (ref : Nat → α) :
    ∀ (n : Nat),
      (∀ (P : List (Nat → α)) (p r : Nat → α), P.length ≤ n → r ∈ P →
        (∀ i, i < d → r i ≤ p i) → union_volume d ref (p :: P) = union_volume d ref P) ∧
      (∀ (P : List (Nat → α)) (r : Nat → α), P.length ≤ n → r ∈ P →
        (∀ q, q ∈ P → ∀ i, i < d → r i ≤ q i) → union_volume d ref P = box_volume d ref r) := by
  intro n
  induction n with
  | zero =>
    refine ⟨?_, ?_⟩
    · intro P p r hlen hr
      have : P = [] := List.length_eq_zero.mp (Nat.le_zero.mp hlen)
      subst this; simp at hr
    · intro P r hlen hr
      have : P = [] := List.length_eq_zero.mp (Nat.le_zero.mp hlen)
      subst this; simp at hr
  | succ n ih =>
    obtain ⟨ihA, ihB⟩ := ih
    have hB : ∀ (P : List (Nat → α)) (r : Nat → α), P.length ≤ n + 1 → r ∈ P →
        (∀ q, q ∈ P → ∀ i, i < d → r i ≤ q i) →
        union_volume d ref P = box_volume d ref r := by
      intro P r hlen hr hdom
      obtain ⟨P', hperm⟩ := exists_perm_cons hr
      rw [union_volume_perm d ref hperm]
      have hlen' : P'.length ≤ n := by
        have := hperm.length_eq
        simp at this; omega
      cases P' with
      | nil => exact union_volume_singleton d ref r
      | cons q P'' =>
        have hq : q ∈ P := hperm.mem_iff.mpr (by simp)
        rw [union_volume_perm d ref (List.Perm.swap q r P''),
          ihA (r :: P'') q r (by simpa using hlen') (by simp) (hdom q hq)]
        refine ihB (r :: P'') r (by simpa using hlen') (by simp) ?_
        intro q' hq'
        exact hdom q' (hperm.mem_iff.mpr (by
          simp only [List.mem_cons] at hq' ⊢
          tauto))
    refine ⟨?_, hB⟩
    intro P p r hlen hr hdom
    rw [union_volume_cons]
    have hmem : pmax p r ∈ P.map (pmax p) := List.mem_map.mpr ⟨r, hr, rfl⟩
    rw [hB (P.map (pmax p)) (pmax p r) (by simpa using hlen) hmem ?_]
    · rw [box_volume_congr d (fun _ _ => rfl)
        (fun i hi => show pmax p r i = p i from max_eq_left (hdom i hi))]
      ring
    · intro q hq i hi
      obtain ⟨q', _, rfl⟩ := List.mem_map.mp hq
      show max (p i) (r i) ≤ max (p i) (q' i)
      rw [max_eq_left (hdom i hi)]
      exact le_max_left _ _

/-- Adding a point that some point of the list dominates does not change the volume. -/
theorem union_volume_dominated (d : Nat) (ref : Nat → α) (P : List (Nat → α)) (p r : Nat → α)
    (hr : r ∈ P) (hdom : ∀ i, i < d → r i ≤ p i) :
    union_volume d ref (p :: P) = union_volume d ref P :=
  (union_volume_dominated_aux d ref P.length).1 P p r (le_refl _) hr hdom

/-- A point of maximal coordinate `k` adds nothing below its own height. -/
theorem union_volume_top (k : Nat) (ref : Nat → α) (q : Nat → α) (P : List (Nat → α))
    (h : ∀ p, p ∈ P → p k ≤ q k) :
    union_volume (k + 1) (Function.update ref k (q k)) (q :: P)
      = union_volume (k + 1) (Function.update ref k (q k)) P := by
  rw [union_volume_cons]
  have hb : box_volume (k + 1) (Function.update ref k (q k)) q = 0 := by
    rw [box_volume_succ]
    simp
  rw [hb, union_volume_flat (k + 1) k (Nat.lt_succ_self k) _ _ (P.map (pmax q)) (le_refl _)]
  · ring
  · intro p hp
    obtain ⟨p', hp', rfl⟩ := List.mem_map.mp hp
    simp only [pmax, Function.update_same]
    exact max_eq_left (h p' hp')

/-- One step of the sweep along coordinate `k`: for a point `q` of maximal
coordinate `k`, the volume up to height `y ≥ q[k]` is the volume of the other
points up to height `q[k]` plus a slab over the `k`-dimensional volume. -/
theorem union_volume_slab (k : Nat) (ref : Nat → α) (q : Nat → α) (P : List (Nat → α))
    (h : ∀ p, p ∈ P → p k ≤ q k) (y : α) :
    union_volume (k + 1) (Function.update ref k y) (q :: P)
      = union_volume (k + 1) (Function.update ref k (q k)) P
        + (y - q k) * union_volume k ref (q :: P) := by
  rw [union_volume_raise k ref (q k) y _ (q :: P) (le_refl _), union_volume_top k ref q P h]

theorem update_eq_self' (ref : Nat → α) (k : Nat) : Function.update ref k (ref k) = ref :=
  Function.update_eq_self k ref

theorem union_volume_zero_dim :
    ∀ (n : Nat) (ref : Nat → α) (P : List (Nat → α)), P.length ≤ n → P ≠ [] →
      union_volume 0 ref P = 1
  | 0, ref, P, hlen, hne => by
    exact absurd (List.length_eq_zero.mp (Nat.le_zero.mp hlen)) hne
  | n + 1, ref, [], _, hne => absurd rfl hne
  | n + 1, ref, [p], _, _ => by simp [union_volume_singleton, box_volume]
  | n + 1, ref, p :: q :: P, hlen, _ => by
    have hl : (q :: P).length ≤ n := by simpa using hlen
    rw [union_volume_cons, union_volume_zero_dim n ref (q :: P) hl (by simp),
      union_volume_zero_dim n ref ((q :: P).map (pmax p)) (by simpa using hl) (by simp)]
    simp [box_volume]

theorem exists_max_coord (k : Nat) :
    ∀ (P : List (Nat → α)), P ≠ [] → ∃ q, q ∈ P ∧ ∀ p, p ∈ P → p k ≤ q k
  | [], h => absurd rfl h
  | [p], _ => ⟨p, by simp, by simp⟩
  | p :: p' :: P, _ => by
    obtain ⟨q, hq, hmax⟩ := exists_max_coord k (p' :: P) (by simp)
    rcases le_total (p k) (q k) with h | h
    · refine ⟨q, List.mem_cons_of_mem _ hq, ?_⟩
      intro x hx
      rcases List.mem_cons.mp hx with rfl | hx
      · exact h
      · exact hmax x hx
    · refine ⟨p, by simp, ?_⟩
      intro x hx
      rcases List.mem_cons.mp hx with rfl | hx
      · exact le_refl _
      · exact le_trans (hmax x hx) h

/-- The volume of a union of boxes `[p, ref]` with `p ≤ ref` is not negative. -/
theorem union_volume_nonneg :
    ∀ (d n : Nat) (ref : Nat → α) (P : List (Nat → α)), P.length ≤ n →
      (∀ p, p ∈ P → ∀ i, i < d → p i ≤ ref i) → 0 ≤ union_volume d ref P
  | 0, _, ref, P, _, _ => by
    by_cases hP : P = []
    · subst hP; exact le_refl _
    · rw [union_volume_zero_dim P.length ref P (le_refl _) hP]
      exact zero_le_one
  | k + 1, 0, ref, P, hlen, _ => by
    have : P = [] := List.length_eq_zero.mp (Nat.le_zero.mp hlen)
    subst this; exact le_refl _
  | k + 1, n + 1, ref, P, hlen, h => by
    by_cases hP : P = []
    · subst hP; exact le_refl _
    · obtain ⟨q, hq, hmax⟩ := exists_max_coord k P hP
      obtain ⟨P', hperm⟩ := exists_perm_cons hq
      have hsub : ∀ p, p ∈ P' → p ∈ P := fun p hp =>
        hperm.mem_iff.mpr (List.mem_cons_of_mem _ hp)
      have hlen' : P'.length ≤ n := by
        have := hperm.length_eq
        simp only [List.length_cons] at this
        omega
      have e := union_volume_slab k ref q P' (fun p hp => hmax p (hsub p hp)) (ref k)
      rw [update_eq_self'] at e
      rw [union_volume_perm (k + 1) ref hperm, e]
      have hqk : q k ≤ ref k := h q hq k (Nat.lt_succ_self k)
      have h1 : 0 ≤ union_volume (k + 1) (Function.update ref k (q k)) P' := by
        apply union_volume_nonneg (k + 1) n _ _ hlen'
        intro p hp i hi
        by_cases hik : i = k
        · subst hik
          rw [Function.update_same]
          exact hmax p (hsub p hp)
        · rw [Function.update_noteq hik]
          exact h p (hsub p hp) i hi
      have h2 : 0 ≤ union_volume k ref (q :: P') := by
        apply union_volume_nonneg k (n + 1) _ _ (by simpa using hlen')
        intro p hp i hi
        exact h p (hperm.mem_iff.mpr hp) i (Nat.lt_succ_of_lt hi)
      have h3 : 0 ≤ ref k - q k := sub_nonneg.mpr hqk
      have := mul_nonneg h3 h2
      linarith

end

/-! ## The general case of `hv_recursive` -/

section
set_option linter.unusedSectionVars false
variable {α : Type} [LinearOrderedCommRing α]

/-! ### Views after the assignments -/

theorem view_setNext (s : hv_mem α) (p i w : Nat) :
    (s.setNext p i w).view
      = { s.view with nx := Function.update s.view.nx i (Function.update (s.view.nx i) p w) } := by
  simp only [hv_mem.view, hv_mem.setNext, hv_mem.setNode]
  congr 1
  all_goals
    first
    | rfl
    | (funext a b
       by_cases h2 : b = p <;> by_cases h3 : a = i
       · subst h2; subst h3; simp
       · subst h2; simp [Function.update_apply, h3]
       · subst h3; simp [Function.update_apply, h2]
       · simp [Function.update_apply, h2, h3])
    | (funext a b
       by_cases h2 : a = p <;> by_cases h3 : b = i
       · subst h2; subst h3; simp
       · subst h2; simp [Function.update_apply, h3]
       · subst h3; simp [Function.update_apply, h2]
       · simp [Function.update_apply, h2, h3])
    | (funext a
       by_cases h1 : a = p
       · subst h1; simp
       · simp [Function.update_apply, h1])

theorem view_setPrev (s : hv_mem α) (p i w : Nat) :
    (s.setPrev p i w).view
      = { s.view with pv := Function.update s.view.pv i (Function.update (s.view.pv i) p w) } := by
  simp only [hv_mem.view, hv_mem.setPrev, hv_mem.setNode]
  congr 1
  all_goals
    first
    | rfl
    | (funext a b
       by_cases h2 : b = p <;> by_cases h3 : a = i
       · subst h2; subst h3; simp
       · subst h2; simp [Function.update_apply, h3]
       · subst h3; simp [Function.update_apply, h2]
       · simp [Function.update_apply, h2, h3])
    | (funext a b
       by_cases h2 : a = p <;> by_cases h3 : b = i
       · subst h2; subst h3; simp
       · subst h2; simp [Function.update_apply, h3]
       · subst h3; simp [Function.update_apply, h2]
       · simp [Function.update_apply, h2, h3])
    | (funext a
       by_cases h1 : a = p
       · subst h1; simp
       · simp [Function.update_apply, h1])

theorem view_setIgnore (s : hv_mem α) (p : Nat) (w : Int) :
    (s.setIgnore p w).view = { s.view with ign := Function.update s.view.ign p w } := by
  simp only [hv_mem.view, hv_mem.setIgnore, hv_mem.setNode]
  congr 1
  all_goals
    first
    | rfl
    | (funext a b
       by_cases h2 : b = p
       · subst h2; simp
       · simp [Function.update_apply, h2])
    | (funext a b
       by_cases h2 : a = p
       · subst h2; simp
       · simp [Function.update_apply, h2])
    | (funext a
       by_cases h1 : a = p
       · subst h1; simp
       · simp [Function.update_apply, h1])

theorem view_setArea (s : hv_mem α) (p i : Nat) (w : α) :
    (s.setArea p i w).view
      = { s.view with ar := Function.update s.view.ar p (Function.update (s.view.ar p) i w) } := by
  simp only [hv_mem.view, hv_mem.setArea, hv_mem.setNode]
  congr 1
  all_goals
    first
    | rfl
    | (funext a b
       by_cases h2 : b = p <;> by_cases h3 : a = i
       · subst h2; subst h3; simp
       · subst h2; simp [Function.update_apply, h3]
       · subst h3; simp [Function.update_apply, h2]
       · simp [Function.update_apply, h2, h3])
    | (funext a b
       by_cases h2 : a = p <;> by_cases h3 : b = i
       · subst h2; subst h3; simp
       · subst h2; simp [Function.update_apply, h3]
       · subst h3; simp [Function.update_apply, h2]
       · simp [Function.update_apply, h2, h3])
    | (funext a
       by_cases h1 : a = p
       · subst h1; simp
       · simp [Function.update_apply, h1])

theorem view_setVol (s : hv_mem α) (p i : Nat) (w : α) :
    (s.setVol p i w).view
      = { s.view with vl := Function.update s.view.vl p (Function.update (s.view.vl p) i w) } := by
  simp only [hv_mem.view, hv_mem.setVol, hv_mem.setNode]
  congr 1
  all_goals
    first
    | rfl
    | (funext a b
       by_cases h2 : b = p <;> by_cases h3 : a = i
       · subst h2; subst h3; simp
       · subst h2; simp [Function.update_apply, h3]
       · subst h3; simp [Function.update_apply, h2]
       · simp [Function.update_apply, h2, h3])
    | (funext a b
       by_cases h2 : a = p <;> by_cases h3 : b = i
       · subst h2; subst h3; simp
       · subst h2; simp [Function.update_apply, h3]
       · subst h3; simp [Function.update_apply, h2]
       · simp [Function.update_apply, h2, h3])
    | (funext a
       by_cases h1 : a = p
       · subst h1; simp
       · simp [Function.update_apply, h1])

theorem view_setBound (s : hv_mem α) (i : Nat) (w : α) :
    (s.setBound i w).view = { s.view with bd := Function.update s.view.bd i w } := rfl

theorem view_setAvl (s : hv_mem α) (m : avl_mem α) :
    ({ s with avl := m } : hv_mem α).view = { s.view with dr := fun p => (m.node p).domr } := rfl

theorem xs_setNext (s : hv_mem α) (p i w : Nat) : (s.setNext p i w).xs = s.xs := by
  simp only [hv_mem.xs, data_setNext, x_setNext]

theorem xs_setPrev (s : hv_mem α) (p i w : Nat) : (s.setPrev p i w).xs = s.xs := by
  simp only [hv_mem.xs, data_setPrev, x_setPrev]

theorem xs_setIgnore (s : hv_mem α) (p : Nat) (w : Int) : (s.setIgnore p w).xs = s.xs := by
  simp only [hv_mem.xs, hv_mem.setIgnore, hv_mem.setNode]
  congr 1
  funext q
  by_cases hq : q = p
  · subst hq; simp
  · simp [Function.update, hq]

theorem xs_setArea (s : hv_mem α) (p i : Nat) (w : α) : (s.setArea p i w).xs = s.xs := by
  simp only [hv_mem.xs, hv_mem.setArea, hv_mem.setNode]
  congr 1
  funext q
  by_cases hq : q = p
  · subst hq; simp
  · simp [Function.update, hq]

theorem xs_setVol (s : hv_mem α) (p i : Nat) (w : α) : (s.setVol p i w).xs = s.xs := by
  simp only [hv_mem.xs, hv_mem.setVol, hv_mem.setNode]
  congr 1
  funext q
  by_cases hq : q = p
  · subst hq; simp
  · simp [Function.update, hq]

theorem xs_setBound (s : hv_mem α) (i : Nat) (w : α) : (s.setBound i w).xs = s.xs := rfl

theorem X_of_xs {s s' : hv_mem α} (h : s'.xs = s.xs) (p k : Nat) : s'.X p k = s.X p k := by
  have h1 : s'.data = s.data := congrArg Prod.fst h
  have h2 : (s'.node p).x = (s.node p).x := congrFun (congrArg Prod.snd h) p
  simp only [hv_mem.X, h1, h2]

theorem xptr_of_xs {s s' : hv_mem α} (h : s'.xs = s.xs) (p : Nat) : s'.xptr p = s.xptr p := by
  have h1 : s'.data = s.data := congrArg Prod.fst h
  have h2 : (s'.node p).x = (s.node p).x := congrFun (congrArg Prod.snd h) p
  simp only [hv_mem.xptr, h1, h2]

theorem x_of_xs {s s' : hv_mem α} (h : s'.xs = s.xs) (p : Nat) : (s'.node p).x = (s.node p).x :=
  congrFun (congrArg Prod.snd h) p

theorem stat.of_xs {sc : scene α} {s s' : hv_mem α} (h : stat sc s) (hx : s'.xs = s.xs)
    (hi : ∀ p, (s'.avl.node p).item = (s.avl.node p).item) : stat sc s' where
  head_x := by rw [x_of_xs hx]; exact h.head_x
  node_x := fun p hp k => by rw [X_of_xs hx]; exact h.node_x p hp k
  node_xptr := fun p hp => by rw [xptr_of_xs hx]; exact h.node_xptr p hp
  item := fun p hp => by rw [hi]; exact h.item p hp

theorem stat.x_ne {sc : scene α} {s : hv_mem α} (h : stat sc s) {p : Nat} (hp : p ∈ sc.ord 0) :
    (s.node p).x ≠ none := by
  intro hx
  have := h.node_x p hp 0
  simp [hv_mem.X, hx] at this

/-! ### Lists without duplicates -/

theorem split_unique {p : Nat} :
    ∀ {A A' B B' : List Nat}, (A ++ p :: B).Nodup → A ++ p :: B = A' ++ p :: B' →
      A = A' ∧ B = B'
  | [], [], B, B', _, h => by
    simp only [List.nil_append, List.cons.injEq, true_and] at h
    exact ⟨rfl, h⟩
  | [], a :: A', B, B', hnd, h => by
    simp only [List.nil_append, List.cons_append, List.cons.injEq] at h
    obtain ⟨h1, h2⟩ := h
    subst h1
    rw [h2] at hnd
    simp at hnd
  | a :: A, [], B, B', hnd, h => by
    simp only [List.nil_append, List.cons_append, List.cons.injEq] at h
    obtain ⟨h1, _⟩ := h
    subst h1
    simp at hnd
  | a :: A, a' :: A', B, B', hnd, h => by
    simp only [List.cons_append, List.cons.injEq] at h
    obtain ⟨h1, h2⟩ := h
    subst h1
    have hnd' : (A ++ p :: B).Nodup := (List.nodup_cons.mp hnd).2
    obtain ⟨e1, e2⟩ := split_unique hnd' h2
    exact ⟨by rw [e1], e2⟩

/-! ### Order of occurrence -/

theorem Before.rel_of_pairwise {R : Nat → Nat → Prop} {l : List Nat} {r p : Nat} (h : Before l r p)
    (hs : l.Pairwise R) : R r p := by
  obtain ⟨A, B, C, rfl⟩ := h
  have h1 := (List.pairwise_append.mp hs).2.1
  exact (List.pairwise_cons.mp h1).1 p (by simp)

theorem Before.mem_left {l : List Nat} {r p : Nat} (h : Before l r p) : r ∈ l := by
  obtain ⟨A, B, C, rfl⟩ := h
  simp

theorem Before.mem_right {l : List Nat} {r p : Nat} (h : Before l r p) : p ∈ l := by
  obtain ⟨A, B, C, rfl⟩ := h
  simp

theorem Before.ne_of_nodup {l : List Nat} {r p : Nat} (h : Before l r p) (hnd : l.Nodup) : r ≠ p := by
  obtain ⟨A, B, C, rfl⟩ := h
  have h1 := (List.nodup_append.mp hnd).2.1
  have h2 := (List.nodup_cons.mp h1).1
  intro e
  subst e
  exact h2 (by simp)

theorem Before.mem_of_split {l : List Nat} {r p : Nat} (h : Before l r p) (hnd : l.Nodup)
    {C1 C2 : List Nat} (hl : l = C1 ++ p :: C2) : r ∈ C1 := by
  obtain ⟨A, B, C, e⟩ := h
  have e' : C1 ++ p :: C2 = (A ++ r :: B) ++ p :: C := by
    rw [← hl, e]; simp
  have := (split_unique (by rw [← hl]; exact hnd) e').1
  rw [this]
  simp

theorem Before.of_split {C1 C2 : List Nat} {r p : Nat} (h : r ∈ C1) :
    Before (C1 ++ p :: C2) r p := by
  obtain ⟨A, B, rfl⟩ := List.append_of_mem h
  exact ⟨A, B, C2, by simp⟩

theorem Before.filter_of_mem {f : Nat → Bool} {l : List Nat} {r p : Nat} (h : Before l r p)
    (hr : f r = true) (hp : f p = true) : Before (l.filter f) r p := by
  obtain ⟨A, B, C, rfl⟩ := h
  refine ⟨A.filter f, B.filter f, C.filter f, ?_⟩
  simp [List.filter_append, List.filter_cons, hr, hp]

theorem Before.of_filter_list {f : Nat → Bool} {r p : Nat} :
    ∀ {l : List Nat}, Before (l.filter f) r p → Before l r p
  | [], h => by
    obtain ⟨A, B, C, e⟩ := h
    simp at e
  | a :: l, h => by
    by_cases ha : f a = true
    · rw [List.filter_cons_of_pos ha] at h
      obtain ⟨A, B, C, e⟩ := h
      cases A with
      | nil =>
        simp only [List.nil_append, List.cons.injEq] at e
        obtain ⟨e1, e2⟩ := e
        subst e1
        have hp : p ∈ l.filter f := by rw [e2]; simp
        obtain ⟨U, V, rfl⟩ := List.append_of_mem (List.mem_filter.mp hp).1
        exact ⟨[], U, V, rfl⟩
      | cons a' A' =>
        simp only [List.cons_append, List.cons.injEq] at e
        obtain ⟨e1, e2⟩ := e
        obtain ⟨A2, B2, C2, e3⟩ := Before.of_filter_list (l := l) ⟨A', B, C, e2⟩
        exact ⟨a :: A2, B2, C2, by rw [e3]; rfl⟩
    · rw [List.filter_cons_of_neg ha] at h
      obtain ⟨A2, B2, C2, e3⟩ := Before.of_filter_list (l := l) h
      exact ⟨a :: A2, B2, C2, by rw [e3]; rfl⟩

/-! ### Chains of a node set -/

theorem mem_chain {sc : scene α} {i : Nat} {S : List Nat} {p : Nat} :
    p ∈ sc.chain i S ↔ p ∈ sc.ord i ∧ p ∈ S := by
  simp [scene.chain, List.mem_filter]

theorem chain_nodup {sc : scene α} (hok : sc.ok) {i : Nat} (hi : i < sc.d) (S : List Nat) :
    (0 :: sc.chain i S).Nodup := by
  have h := hok.nodup i hi
  rw [List.nodup_cons] at h ⊢
  exact ⟨fun h0 => h.1 (mem_chain.mp h0).1, h.2.filter _⟩

theorem chain_sorted {sc : scene α} (hok : sc.ok) {i : Nat} (hi : i < sc.d) (S : List Nat) :
    (sc.chain i S).Pairwise (fun a b => sc.X a i ≤ sc.X b i) :=
  (hok.sorted i hi).filter _

theorem chain_congr {sc : scene α} {i : Nat} {S S' : List Nat} (h : ∀ p, p ∈ sc.ord i → (p ∈ S ↔ p ∈ S')) :
    sc.chain i S = sc.chain i S' := by
  unfold scene.chain
  apply List.filter_congr
  intro p hp
  simp [h p hp]

theorem chain_perm {sc : scene α} (hok : sc.ok) {i : Nat} (hi : i < sc.d) {S : List Nat} (hnd : S.Nodup)
    (hsub : ∀ p, p ∈ S → p ∈ sc.ord 0) : (sc.chain i S).Perm S := by
  rw [List.perm_ext_iff_of_nodup (List.nodup_cons.mp (chain_nodup hok hi S)).2 hnd]
  intro p
  rw [mem_chain]
  constructor
  · exact fun h => h.2
  · exact fun h => ⟨(hok.mem i hi p).mpr (hsub p h), h⟩

theorem chain_length {sc : scene α} (hok : sc.ok) {i : Nat} (hi : i < sc.d) {S : List Nat} (hnd : S.Nodup)
    (hsub : ∀ p, p ∈ S → p ∈ sc.ord 0) : (sc.chain i S).length = S.length :=
  (chain_perm hok hi hnd hsub).length_eq

theorem chain_chain {sc : scene α} {i j : Nat} (S : List Nat) (h : ∀ p, p ∈ sc.ord i → p ∈ sc.ord j) :
    sc.chain i (sc.chain j S) = sc.chain i S := by
  apply chain_congr
  intro p hp
  rw [mem_chain]
  exact ⟨fun h1 => h1.2, fun h1 => ⟨h p hp, h1⟩⟩

/-- Removing the node `p` from the set removes it from the chain. -/
theorem chain_split {sc : scene α} (hok : sc.ok) {i : Nat} (hi : i < sc.d) {A : List Nat} {p : Nat}
    (hp : p ∈ sc.ord 0) (hpA : p ∉ A) :
    ∃ C1 C2, sc.chain i (A ++ [p]) = C1 ++ p :: C2 ∧ sc.chain i A = C1 ++ C2 := by
  have hpi : p ∈ sc.ord i := (hok.mem i hi p).mpr hp
  obtain ⟨O1, O2, e⟩ := List.append_of_mem hpi
  have hnd : (sc.ord i).Nodup := (List.nodup_cons.mp (hok.nodup i hi)).2
  rw [e] at hnd
  have h1 : p ∉ O1 := fun h => (List.nodup_append.mp hnd).2.2 h (by simp)
  have h2 : p ∉ O2 := (List.nodup_cons.mp (List.nodup_append.mp hnd).2.1).1
  refine ⟨O1.filter (fun q => decide (q ∈ A)), O2.filter (fun q => decide (q ∈ A)), ?_, ?_⟩
  · unfold scene.chain
    rw [e, List.filter_append, List.filter_cons_of_pos (by simp)]
    congr 1
    · apply List.filter_congr
      intro q hq
      have : q ≠ p := fun h => h1 (h ▸ hq)
      simp [this]
    · congr 1
      apply List.filter_congr
      intro q hq
      have : q ≠ p := fun h => h2 (h ▸ hq)
      simp [this]
  · unfold scene.chain
    rw [e, List.filter_append, List.filter_cons_of_neg (by simpa using hpA)]

/-! ### Linked chains -/

theorem Linked.split_iff {nx pv : Nat → Nat} {p : Nat} :
    ∀ {C1 C2 : List Nat} {a b : Nat},
      Linked nx pv a (C1 ++ p :: C2) b ↔ Linked nx pv a C1 p ∧ Linked nx pv p C2 b
  | [], C2, a, b => by
    simp only [List.nil_append, Linked]
    tauto
  | c :: C1, C2, a, b => by
    have ih := @Linked.split_iff nx pv p C1 C2 c b
    show nx a = c ∧ pv c = a ∧ Linked nx pv c (C1 ++ p :: C2) b ↔
      (nx a = c ∧ pv c = a ∧ Linked nx pv c C1 p) ∧ Linked nx pv p C2 b
    rw [ih]
    tauto

theorem Linked.nx_head {nx pv : Nat → Nat} :
    ∀ {L : List Nat} {a b : Nat}, Linked nx pv a L b → nx a = (L ++ [b]).head (by simp) ∧
      pv (nx a) = a
  | [], a, b, h => by
    simp only [Linked] at h
    simp [h.1, h.2]
  | c :: L, a, b, h => by
    simp only [Linked] at h
    simp [h.1, h.2.1]

/-- The neighbours of an inner node of a chain. -/
theorem Linked.inner {nx pv : Nat → Nat} {p a b : Nat} {C1 C2 : List Nat}
    (h : Linked nx pv a (C1 ++ p :: C2) b) :
    pv p = (a :: C1).getLast (List.cons_ne_nil a C1) ∧ nx p = (C2 ++ [b]).head (by simp) ∧
      nx (pv p) = p ∧ pv (nx p) = p := by
  obtain ⟨h1, h2⟩ := Linked.split_iff.mp h
  exact ⟨Linked.pv_last h1, (Linked.nx_head h2).1, Linked.nx_pv h1, (Linked.nx_head h2).2⟩

/-- In a chain without duplicates no inner node is its own neighbour. -/
theorem Linked.inner_ne {nx pv : Nat → Nat} {p a b : Nat} {C1 C2 : List Nat}
    (h : Linked nx pv a (C1 ++ p :: C2) b) (hnd : (a :: (C1 ++ p :: C2)).Nodup)
    (hb : b ∉ C1 ++ p :: C2) : pv p ≠ p ∧ nx p ≠ p := by
  obtain ⟨e1, e2, _, _⟩ := Linked.inner h
  constructor
  · intro e
    have hm : pv p ∈ a :: C1 := by rw [e1]; exact List.getLast_mem _
    rw [e] at hm
    have hnd' : ((a :: C1) ++ p :: C2).Nodup := by simpa using hnd
    exact (List.nodup_append.mp hnd').2.2 hm (by simp)
  · intro e
    have hm : nx p ∈ C2 ++ [b] := by rw [e2]; exact List.head_mem _
    rw [e] at hm
    rcases List.mem_append.mp hm with h3 | h3
    · have hnd' : (C1 ++ p :: C2).Nodup := (List.nodup_cons.mp hnd).2
      exact (List.nodup_cons.mp (List.nodup_append.mp hnd').2.1).1 h3
    · simp only [List.mem_singleton] at h3
      exact hb (by rw [← h3]; simp)

/-! ### Unlinking and relinking a node in the chains `lo ≤ j < hi` -/

theorem relink_unlink (v : view α) (lo hi p : Nat)
    (h1 : ∀ j, lo ≤ j → j < hi → v.nx j (v.pv j p) = p)
    (h2 : ∀ j, lo ≤ j → j < hi → v.pv j (v.nx j p) = p)
    (h3 : ∀ j, lo ≤ j → j < hi → v.pv j p ≠ p)
    (h4 : ∀ j, lo ≤ j → j < hi → v.nx j p ≠ p) :
    ((v.unlink lo hi p).relink lo hi p).nx = v.nx ∧
    ((v.unlink lo hi p).relink lo hi p).pv = v.pv := by
  constructor
  · funext j
    simp only [view.relink, view.unlink]
    by_cases hj : lo ≤ j ∧ j < hi
    · simp only [hj, and_self, if_true]
      rw [Function.update_noteq (h4 j hj.1 hj.2).symm, Function.update_idem]
      nth_rewrite 2 [← h1 j hj.1 hj.2]
      exact Function.update_eq_self _ _
    · simp only [hj, if_false]
  · funext j
    simp only [view.relink, view.unlink]
    by_cases hj : lo ≤ j ∧ j < hi
    · simp only [hj, and_self, if_true]
      rw [Function.update_noteq (h3 j hj.1 hj.2).symm, Function.update_idem]
      nth_rewrite 2 [← h2 j hj.1 hj.2]
      exact Function.update_eq_self _ _
    · simp only [hj, if_false]

/-! ### Composition of the per-dimension steps -/

theorem unlink_unlink (v : view α) (i h p : Nat) (hi : i < h) :
    (v.unlink i (i + 1) p).unlink (i + 1) h p = v.unlink i h p := by
  ext j q
  · simp only [view.unlink]
    by_cases h1 : i + 1 ≤ j ∧ j < h
    · have h2 : ¬ (i ≤ j ∧ j < i + 1) := by omega
      have h3 : i ≤ j ∧ j < h := by omega
      simp only [if_pos h1, if_neg h2, if_pos h3]
    · by_cases h2 : i ≤ j ∧ j < i + 1
      · have h3 : i ≤ j ∧ j < h := by omega
        simp only [if_neg h1, if_pos h2, if_pos h3]
      · have h3 : ¬ (i ≤ j ∧ j < h) := by omega
        simp only [if_neg h1, if_neg h2, if_neg h3]
  · simp only [view.unlink]
    by_cases h1 : i + 1 ≤ j ∧ j < h
    · have h2 : ¬ (i ≤ j ∧ j < i + 1) := by omega
      have h3 : i ≤ j ∧ j < h := by omega
      simp only [if_pos h1, if_neg h2, if_pos h3]
    · by_cases h2 : i ≤ j ∧ j < i + 1
      · have h3 : i ≤ j ∧ j < h := by omega
        simp only [if_neg h1, if_pos h2, if_pos h3]
      · have h3 : ¬ (i ≤ j ∧ j < h) := by omega
        simp only [if_neg h1, if_neg h2, if_neg h3]
  all_goals rfl

theorem relink_relink (v : view α) (i h p : Nat) (hi : i < h) :
    (v.relink i (i + 1) p).relink (i + 1) h p = v.relink i h p := by
  ext j q
  · simp only [view.relink]
    by_cases h1 : i + 1 ≤ j ∧ j < h
    · have h2 : ¬ (i ≤ j ∧ j < i + 1) := by omega
      have h3 : i ≤ j ∧ j < h := by omega
      simp only [if_pos h1, if_neg h2, if_pos h3]
    · by_cases h2 : i ≤ j ∧ j < i + 1
      · have h3 : i ≤ j ∧ j < h := by omega
        simp only [if_neg h1, if_pos h2, if_pos h3]
      · have h3 : ¬ (i ≤ j ∧ j < h) := by omega
        simp only [if_neg h1, if_neg h2, if_neg h3]
  · simp only [view.relink]
    by_cases h1 : i + 1 ≤ j ∧ j < h
    · have h2 : ¬ (i ≤ j ∧ j < i + 1) := by omega
      have h3 : i ≤ j ∧ j < h := by omega
      simp only [if_pos h1, if_neg h2, if_pos h3]
    · by_cases h2 : i ≤ j ∧ j < i + 1
      · have h3 : i ≤ j ∧ j < h := by omega
        simp only [if_neg h1, if_pos h2, if_pos h3]
      · have h3 : ¬ (i ≤ j ∧ j < h) := by omega
        simp only [if_neg h1, if_neg h2, if_neg h3]
  all_goals rfl

theorem lower_lower (v : view α) (i h : Nat) (x : Nat → α) (hi : i < h) :
    (v.lower i (i + 1) x).lower (i + 1) h x = v.lower i h x := by
  ext j
  any_goals rfl
  simp only [view.lower]
  by_cases h1 : i + 1 ≤ j ∧ j < h
  · have h2 : ¬ (i ≤ j ∧ j < i + 1) := by omega
    have h3 : i ≤ j ∧ j < h := by omega
    simp only [if_pos h1, if_neg h2, if_pos h3]
  · by_cases h2 : i ≤ j ∧ j < i + 1
    · have h3 : i ≤ j ∧ j < h := by omega
      simp only [if_neg h1, if_pos h2, if_pos h3]
    · have h3 : ¬ (i ≤ j ∧ j < h) := by omega
      simp only [if_neg h1, if_neg h2, if_neg h3]

theorem copy_copy (v : view α) (i h p : Nat) (pr pr' : Nat → Nat) (X : Nat → Nat → α)
    (hi : i < h) (hpr : ∀ j, i + 1 ≤ j → j < h → pr' j = pr j) :
    (v.copy i (i + 1) p pr X).copy (i + 1) h p pr' X = v.copy i h p pr X := by
  ext q j
  any_goals rfl
  all_goals
    simp only [view.copy]
    by_cases hq : q = p
    · by_cases h1 : i + 1 ≤ j ∧ j < h
      · have h2 : ¬ (pr' j = p ∧ i ≤ j ∧ j < i + 1) := by omega
        have h3 : q = p ∧ i ≤ j ∧ j < h := ⟨hq, by omega, h1.2⟩
        have h4 : q = p ∧ i + 1 ≤ j ∧ j < h := ⟨hq, h1⟩
        rw [if_pos h4, if_neg h2, if_pos h3, hpr j h1.1 h1.2]
        try simp only [ite_self]
      · have h4 : ¬ (q = p ∧ i + 1 ≤ j ∧ j < h) := fun hh => h1 hh.2
        by_cases h2 : i ≤ j ∧ j < i + 1
        · have h3 : q = p ∧ i ≤ j ∧ j < h := ⟨hq, h2.1, by omega⟩
          have h5 : q = p ∧ i ≤ j ∧ j < i + 1 := ⟨hq, h2⟩
          rw [if_neg h4, if_pos h5, if_pos h3]
        · have h3 : ¬ (q = p ∧ i ≤ j ∧ j < h) := by omega
          have h5 : ¬ (q = p ∧ i ≤ j ∧ j < i + 1) := fun hh => h2 hh.2
          rw [if_neg h4, if_neg h5, if_neg h3]
    · have h3 : ¬ (q = p ∧ i ≤ j ∧ j < h) := fun hh => hq hh.1
      have h4 : ¬ (q = p ∧ i + 1 ≤ j ∧ j < h) := fun hh => hq hh.1
      have h5 : ¬ (q = p ∧ i ≤ j ∧ j < i + 1) := fun hh => hq hh.1
      rw [if_neg h4, if_neg h5, if_neg h3]

theorem unlink_empty (v : view α) (i p : Nat) : v.unlink i i p = v := by
  ext j q
  any_goals rfl
  all_goals
    simp only [view.unlink]
    have h2 : ¬ (i ≤ j ∧ j < i) := by omega
    simp only [if_neg h2]

theorem relink_empty (v : view α) (i p : Nat) : v.relink i i p = v := by
  ext j q
  any_goals rfl
  all_goals
    simp only [view.relink]
    have h2 : ¬ (i ≤ j ∧ j < i) := by omega
    simp only [if_neg h2]

theorem lower_empty (v : view α) (i : Nat) (x : Nat → α) : v.lower i i x = v := by
  ext j
  any_goals rfl
  simp only [view.lower]
  have h2 : ¬ (i ≤ j ∧ j < i) := by omega
  simp only [if_neg h2]

theorem copy_empty (v : view α) (i p : Nat) (pr : Nat → Nat) (X : Nat → Nat → α) :
    v.copy i i p pr X = v := by
  ext q j
  any_goals rfl
  all_goals
    simp only [view.copy]
    have h2 : ¬ (q = p ∧ i ≤ j ∧ j < i) := by omega
    simp only [if_neg h2]

/-! ### The list operations on views -/

theorem update_self_apply {β : Type} (f : Nat → β) (a p : Nat) :
    Function.update f a (f p) p = f p := by
  by_cases h : p = a
  · subst h; simp
  · simp [Function.update_noteq h]

theorem unlink_one (v : view α) (i p : Nat) :
    v.unlink i (i + 1) p =
      { v with
        nx := Function.update v.nx i (Function.update (v.nx i) (v.pv i p) (v.nx i p))
        pv := Function.update v.pv i (Function.update (v.pv i) (v.nx i p) (v.pv i p)) } := by
  ext j q
  any_goals rfl
  all_goals
    simp only [view.unlink]
    by_cases hj : j = i
    · subst hj
      have h1 : j ≤ j ∧ j < j + 1 := by omega
      rw [if_pos h1, Function.update_same]
    · have h1 : ¬ (i ≤ j ∧ j < i + 1) := by omega
      rw [if_neg h1, Function.update_noteq hj]

theorem relink_one (v : view α) (i p : Nat) :
    v.relink i (i + 1) p =
      { v with
        nx := Function.update v.nx i (Function.update (v.nx i) (v.pv i p) p)
        pv := Function.update v.pv i (Function.update (v.pv i) (v.nx i p) p) } := by
  ext j q
  any_goals rfl
  all_goals
    simp only [view.relink]
    by_cases hj : j = i
    · subst hj
      have h1 : j ≤ j ∧ j < j + 1 := by omega
      rw [if_pos h1, Function.update_same]
    · have h1 : ¬ (i ≤ j ∧ j < i + 1) := by omega
      rw [if_neg h1, Function.update_noteq hj]

theorem lower_one (v : view α) (i : Nat) (x : Nat → α) :
    v.lower i (i + 1) x = { v with bd := Function.update v.bd i (min (v.bd i) (x i)) } := by
  ext j
  any_goals rfl
  simp only [view.lower]
  by_cases hj : j = i
  · subst hj
    have h1 : j ≤ j ∧ j < j + 1 := by omega
    rw [if_pos h1, Function.update_same]
  · have h1 : ¬ (i ≤ j ∧ j < i + 1) := by omega
    rw [if_neg h1, Function.update_noteq hj]

theorem copy_one (v : view α) (i p : Nat) (pr : Nat → Nat) (X : Nat → Nat → α) :
    v.copy i (i + 1) p pr X =
      { v with
        ar := Function.update v.ar p (Function.update (v.ar p) i (v.ar (pr i) i))
        vl := Function.update v.vl p (Function.update (v.vl p) i
          (v.vl (pr i) i + v.ar (pr i) i * (X p i - X (pr i) i))) } := by
  ext q j
  any_goals rfl
  all_goals
    simp only [view.copy]
    by_cases hq : q = p
    · subst hq
      by_cases hj : j = i
      · subst hj
        have h1 : q = q ∧ j ≤ j ∧ j < j + 1 := ⟨rfl, by omega⟩
        rw [if_pos h1, Function.update_same, Function.update_same]
      · have h1 : ¬ (q = q ∧ i ≤ j ∧ j < i + 1) := by omega
        rw [if_neg h1, Function.update_same, Function.update_noteq hj]
    · have h1 : ¬ (q = p ∧ i ≤ j ∧ j < i + 1) := fun hh => hq hh.1
      rw [if_neg h1, Function.update_noteq hq]

/-- Effect of the loop of `delete`. -/
theorem delete_go_spec (p : Nat) (x : Nat → α) :
    ∀ (k i : Nat) (s : hv_mem α), (∀ j, i ≤ j → j < i + k → s.X p j = some (x j)) →
      ∃ s', delete.go p k i s = some s' ∧
        s'.view = (s.view.unlink i (i + k) p).lower i (i + k) x ∧ s'.xs = s.xs ∧
        s'.avl = s.avl
  | 0, i, s, _ => ⟨s, rfl, by rw [Nat.add_zero, unlink_empty, lower_empty], rfl, rfl⟩
  | k + 1, i, s, hx => by
    have hxi := hx i (le_refl _) (by omega)
    let s1 := s.setNext ((s.node p).prev i) i ((s.node p).next i)
    let s2 := s1.setPrev ((s1.node p).next i) i ((s1.node p).prev i)
    let s3 := if s2.bound i > x i then s2.setBound i (x i) else s2
    have hxs2 : s2.xs = s.xs := by
      show (s1.setPrev _ _ _).xs = s.xs
      rw [xs_setPrev]
      exact xs_setNext _ _ _ _
    have hxs3 : s3.xs = s.xs := by
      show (if s2.bound i > x i then s2.setBound i (x i) else s2).xs = s.xs
      split
      · rw [xs_setBound]; exact hxs2
      · exact hxs2
    have hX2 : s2.X p i = some (x i) := by rw [X_of_xs hxs2]; exact hxi
    have hstep : delete.go p (k + 1) i s = delete.go p k (i + 1) s3 := by
      show (match s2.X p i with
        | none => none
        | some xi => delete.go p k (i + 1) (if s2.bound i > xi then s2.setBound i xi else s2))
        = _
      rw [hX2]
    have hv1 : s1.view = { s.view with
        nx := Function.update s.view.nx i
          (Function.update (s.view.nx i) (s.view.pv i p) (s.view.nx i p)) } :=
      view_setNext s _ i _
    have hv2 : s2.view = s.view.unlink i (i + 1) p := by
      rw [unlink_one]
      show (s1.setPrev _ _ _).view = _
      rw [view_setPrev]
      have e1 : (s1.node p).next i = s.view.nx i p := by
        show s1.view.nx i p = _
        rw [hv1]
        show Function.update s.view.nx i _ i p = _
        rw [Function.update_same]
        exact update_self_apply _ _ _
      have e2 : (s1.node p).prev i = s.view.pv i p := by
        show s1.view.pv i p = _
        rw [hv1]
      rw [e1, e2, hv1]
    have hv3 : s3.view = (s.view.unlink i (i + 1) p).lower i (i + 1) x := by
      rw [lower_one, ← hv2]
      show (if s2.bound i > x i then s2.setBound i (x i) else s2).view = _
      split
      · rename_i hgt
        rw [view_setBound]
        have : min (s2.view.bd i) (x i) = x i := min_eq_right (le_of_lt hgt)
        rw [this]
      · rename_i hgt
        have : min (s2.view.bd i) (x i) = s2.view.bd i := min_eq_left (not_lt.mp hgt)
        rw [this, Function.update_eq_self]
    have hx3 : ∀ j, i + 1 ≤ j → j < i + 1 + k → s3.X p j = some (x j) := by
      intro j h1 h2
      rw [X_of_xs hxs3]
      exact hx j (by omega) (by omega)
    obtain ⟨s', e, hv, hxs, havl⟩ := delete_go_spec p x k (i + 1) s3 hx3
    refine ⟨s', by rw [hstep]; exact e, ?_, by rw [hxs]; exact hxs3, ?_⟩
    · rw [hv, hv3]
      have : i + 1 + k = i + (k + 1) := by omega
      rw [this]
      have e1 : (((s.view.unlink i (i + 1) p).lower i (i + 1) x).unlink (i + 1) (i + (k + 1)) p)
          = ((s.view.unlink i (i + 1) p).unlink (i + 1) (i + (k + 1)) p).lower i (i + 1) x := rfl
      rw [e1, unlink_unlink _ _ _ _ (by omega), lower_lower _ _ _ _ (by omega)]
    · rw [havl]
      show (if s2.bound i > x i then s2.setBound i (x i) else s2).avl = s.avl
      split <;> rfl

/-- Effect of the loop of `delete_dom`. -/
theorem delete_dom_go_spec (p : Nat) :
    ∀ (k i : Nat) (s : hv_mem α),
      (delete_dom.go p k i s).view = s.view.unlink i (i + k) p ∧
        (delete_dom.go p k i s).xs = s.xs ∧ (delete_dom.go p k i s).avl = s.avl ∧
        (delete_dom.go p k i s).bound = s.bound
  | 0, i, s => ⟨by rw [Nat.add_zero, unlink_empty]; rfl, rfl, rfl, rfl⟩
  | k + 1, i, s => by
    let s1 := s.setNext ((s.node p).prev i) i ((s.node p).next i)
    let s2 := s1.setPrev ((s1.node p).next i) i ((s1.node p).prev i)
    have hxs2 : s2.xs = s.xs := by
      show (s1.setPrev _ _ _).xs = s.xs
      rw [xs_setPrev]
      exact xs_setNext _ _ _ _
    have hstep : delete_dom.go p (k + 1) i s = delete_dom.go p k (i + 1) s2 := rfl
    have hv1 : s1.view = { s.view with
        nx := Function.update s.view.nx i
          (Function.update (s.view.nx i) (s.view.pv i p) (s.view.nx i p)) } :=
      view_setNext s _ i _
    have hv2 : s2.view = s.view.unlink i (i + 1) p := by
      rw [unlink_one]
      show (s1.setPrev _ _ _).view = _
      rw [view_setPrev]
      have e1 : (s1.node p).next i = s.view.nx i p := by
        show s1.view.nx i p = _
        rw [hv1]
        show Function.update s.view.nx i _ i p = _
        rw [Function.update_same]
        exact update_self_apply _ _ _
      have e2 : (s1.node p).prev i = s.view.pv i p := by
        show s1.view.pv i p = _
        rw [hv1]
      rw [e1, e2, hv1]
    obtain ⟨hv, hxs, havl, hb⟩ := delete_dom_go_spec p k (i + 1) s2
    rw [hstep]
    refine ⟨?_, by rw [hxs]; exact hxs2, by rw [havl]; rfl, by rw [hb]; rfl⟩
    rw [hv, hv2]
    have : i + 1 + k = i + (k + 1) := by omega
    rw [this, unlink_unlink _ _ _ _ (by omega)]

/-- Effect of the loop of `reinsert`. -/
theorem reinsert_go_spec (p : Nat) (x : Nat → α) :
    ∀ (k i : Nat) (s : hv_mem α), (∀ j, i ≤ j → j < i + k → s.X p j = some (x j)) →
      (∀ j, i ≤ j → j < i + k → s.view.pv j p ≠ p) →
      ∃ s', reinsert.go p k i s = some s' ∧
        s'.view = (s.view.relink i (i + k) p).lower i (i + k) x ∧ s'.xs = s.xs ∧
        s'.avl = s.avl
  | 0, i, s, _, _ => ⟨s, rfl, by rw [Nat.add_zero, relink_empty, lower_empty], rfl, rfl⟩
  | k + 1, i, s, hx, hne => by
    have hxi := hx i (le_refl _) (by omega)
    let s1 := s.setNext ((s.node p).prev i) i p
    let s2 := s1.setPrev ((s1.node p).next i) i p
    let s3 := if s2.bound i > x i then s2.setBound i (x i) else s2
    have hxs2 : s2.xs = s.xs := by
      show (s1.setPrev _ _ _).xs = s.xs
      rw [xs_setPrev]
      exact xs_setNext _ _ _ _
    have hxs3 : s3.xs = s.xs := by
      show (if s2.bound i > x i then s2.setBound i (x i) else s2).xs = s.xs
      split
      · rw [xs_setBound]; exact hxs2
      · exact hxs2
    have hX2 : s2.X p i = some (x i) := by rw [X_of_xs hxs2]; exact hxi
    have hstep : reinsert.go p (k + 1) i s = reinsert.go p k (i + 1) s3 := by
      show (match s2.X p i with
        | none => none
        | some xi => reinsert.go p k (i + 1) (if s2.bound i > xi then s2.setBound i xi else s2))
        = _
      rw [hX2]
    have hv1 : s1.view = { s.view with
        nx := Function.update s.view.nx i (Function.update (s.view.nx i) (s.view.pv i p) p) } :=
      view_setNext s _ i _
    have hv2 : s2.view = s.view.relink i (i + 1) p := by
      rw [relink_one]
      show (s1.setPrev _ _ _).view = _
      rw [view_setPrev]
      have e1 : (s1.node p).next i = s.view.nx i p := by
        show s1.view.nx i p = _
        rw [hv1]
        show Function.update s.view.nx i _ i p = _
        rw [Function.update_same]
        exact Function.update_noteq (hne i (le_refl _) (by omega)).symm _ _
      rw [e1, hv1]
    have hv3 : s3.view = (s.view.relink i (i + 1) p).lower i (i + 1) x := by
      rw [lower_one, ← hv2]
      show (if s2.bound i > x i then s2.setBound i (x i) else s2).view = _
      split
      · rename_i hgt
        rw [view_setBound]
        have : min (s2.view.bd i) (x i) = x i := min_eq_right (le_of_lt hgt)
        rw [this]
      · rename_i hgt
        have : min (s2.view.bd i) (x i) = s2.view.bd i := min_eq_left (not_lt.mp hgt)
        rw [this, Function.update_eq_self]
    have hx3 : ∀ j, i + 1 ≤ j → j < i + 1 + k → s3.X p j = some (x j) := by
      intro j h1 h2
      rw [X_of_xs hxs3]
      exact hx j (by omega) (by omega)
    have hne3 : ∀ j, i + 1 ≤ j → j < i + 1 + k → s3.view.pv j p ≠ p := by
      intro j h1 h2
      rw [hv3]
      show (s.view.relink i (i + 1) p).pv j p ≠ p
      simp only [view.relink]
      have h3 : ¬ (i ≤ j ∧ j < i + 1) := by omega
      rw [if_neg h3]
      exact hne j (by omega) (by omega)
    obtain ⟨s', e, hv, hxs, havl⟩ := reinsert_go_spec p x k (i + 1) s3 hx3 hne3
    refine ⟨s', by rw [hstep]; exact e, ?_, by rw [hxs]; exact hxs3, ?_⟩
    · rw [hv, hv3]
      have : i + 1 + k = i + (k + 1) := by omega
      rw [this]
      have e1 : (((s.view.relink i (i + 1) p).lower i (i + 1) x).relink (i + 1) (i + (k + 1)) p)
          = ((s.view.relink i (i + 1) p).relink (i + 1) (i + (k + 1)) p).lower i (i + 1) x := rfl
      rw [e1, relink_relink _ _ _ _ (by omega), lower_lower _ _ _ _ (by omega)]
    · rw [havl]
      show (if s2.bound i > x i then s2.setBound i (x i) else s2).avl = s.avl
      split <;> rfl

/-- Effect of the loop of `reinsert_dom`. -/
theorem reinsert_dom_go_spec (p : Nat) (X : Nat → Nat → α) :
    ∀ (k i : Nat) (s : hv_mem α), (∀ j, i ≤ j → j < i + k → s.X p j = some (X p j)) →
      (∀ j, i ≤ j → j < i + k → s.X (s.view.pv j p) j = some (X (s.view.pv j p) j)) →
      (∀ j, i ≤ j → j < i + k → s.view.pv j p ≠ p) →
      ∃ s', reinsert_dom.go p k i s = some s' ∧
        s'.view = (s.view.relink i (i + k) p).copy i (i + k) p (fun j => s.view.pv j p) X ∧
        s'.xs = s.xs ∧ s'.avl = s.avl ∧ s'.bound = s.bound
  | 0, i, s, _, _, _ =>
    ⟨s, rfl, by rw [Nat.add_zero, relink_empty, copy_empty], rfl, rfl, rfl⟩
  | k + 1, i, s, hx, hxp, hne => by
    have hxi := hx i (le_refl _) (by omega)
    have hxpi := hxp i (le_refl _) (by omega)
    let q := (s.node p).prev i
    have hq : q = s.view.pv i p := rfl
    let s1 := s.setNext q i p
    let s2 := s1.setPrev ((s1.node p).next i) i p
    let s3 := s2.setArea p i ((s2.node q).area i)
    let s4 := s3.setVol p i ((s3.node q).vol i + (s3.node q).area i * (X p i - X q i))
    have hxs2 : s2.xs = s.xs := by
      show (s1.setPrev _ _ _).xs = s.xs
      rw [xs_setPrev]
      exact xs_setNext _ _ _ _
    have hxs3 : s3.xs = s.xs := by
      show (s2.setArea _ _ _).xs = s.xs
      rw [xs_setArea]; exact hxs2
    have hxs4 : s4.xs = s.xs := by
      show (s3.setVol _ _ _).xs = s.xs
      rw [xs_setVol]; exact hxs3
    have hX3 : s3.X p i = some (X p i) := by rw [X_of_xs hxs3]; exact hxi
    have hX3q : s3.X q i = some (X q i) := by rw [X_of_xs hxs3]; exact hxpi
    have hstep : reinsert_dom.go p (k + 1) i s = reinsert_dom.go p k (i + 1) s4 := by
      show (match s3.X p i, s3.X q i with
        | some xi, some pxi =>
          reinsert_dom.go p k (i + 1)
            (s3.setVol p i ((s3.node q).vol i + (s3.node q).area i * (xi - pxi)))
        | _, _ => none) = _
      rw [hX3, hX3q]
    have hv1 : s1.view = { s.view with
        nx := Function.update s.view.nx i (Function.update (s.view.nx i) (s.view.pv i p) p) } :=
      view_setNext s _ i _
    have hv2 : s2.view = s.view.relink i (i + 1) p := by
      rw [relink_one]
      show (s1.setPrev _ _ _).view = _
      rw [view_setPrev]
      have e1 : (s1.node p).next i = s.view.nx i p := by
        show s1.view.nx i p = _
        rw [hv1]
        show Function.update s.view.nx i _ i p = _
        rw [Function.update_same]
        exact Function.update_noteq (hne i (le_refl _) (by omega)).symm _ _
      rw [e1, hv1]
    have hqp : q ≠ p := hne i (le_refl _) (by omega)
    have hv4 : s4.view = (s.view.relink i (i + 1) p).copy i (i + 1) p
        (fun j => s.view.pv j p) X := by
      rw [copy_one, ← hv2]
      show (s3.setVol _ _ _).view = _
      rw [view_setVol]
      have hv3 : s3.view = { s2.view with
          ar := Function.update s2.view.ar p
            (Function.update (s2.view.ar p) i (s2.view.ar q i)) } := view_setArea s2 _ _ _
      have e1 : (s3.node q).vol i = s2.view.vl q i := by
        show s3.view.vl q i = _
        rw [hv3]
      have e2 : (s3.node q).area i = s2.view.ar q i := by
        show s3.view.ar q i = _
        rw [hv3]
        show Function.update s2.view.ar p _ q i = _
        rw [Function.update_noteq hqp]
      rw [e1, e2, hv3]
      rfl
    have hx4 : ∀ j, i + 1 ≤ j → j < i + 1 + k → s4.X p j = some (X p j) := by
      intro j h1 h2
      rw [X_of_xs hxs4]
      exact hx j (by omega) (by omega)
    have hpv4 : ∀ j, i + 1 ≤ j → j < i + 1 + k → s4.view.pv j p = s.view.pv j p := by
      intro j h1 h2
      rw [hv4]
      show (s.view.relink i (i + 1) p).pv j p = _
      simp only [view.relink]
      have h3 : ¬ (i ≤ j ∧ j < i + 1) := by omega
      rw [if_neg h3]
    have hxp4 : ∀ j, i + 1 ≤ j → j < i + 1 + k →
        s4.X (s4.view.pv j p) j = some (X (s4.view.pv j p) j) := by
      intro j h1 h2
      rw [hpv4 j h1 h2, X_of_xs hxs4]
      exact hxp j (by omega) (by omega)
    have hne4 : ∀ j, i + 1 ≤ j → j < i + 1 + k → s4.view.pv j p ≠ p := by
      intro j h1 h2
      rw [hpv4 j h1 h2]
      exact hne j (by omega) (by omega)
    obtain ⟨s', e, hv, hxs, havl, hb⟩ := reinsert_dom_go_spec p X k (i + 1) s4 hx4 hxp4 hne4
    refine ⟨s', by rw [hstep]; exact e, ?_, by rw [hxs]; exact hxs4, by rw [havl]; rfl,
      by rw [hb]; rfl⟩
    rw [hv, hv4]
    have : i + 1 + k = i + (k + 1) := by omega
    rw [this]
    have e1 : (((s.view.relink i (i + 1) p).copy i (i + 1) p (fun j => s.view.pv j p) X).relink
          (i + 1) (i + (k + 1)) p)
        = ((s.view.relink i (i + 1) p).relink (i + 1) (i + (k + 1)) p).copy i (i + 1) p
            (fun j => s.view.pv j p) X := rfl
    rw [e1, relink_relink _ _ _ _ (by omega)]
    exact copy_copy _ i _ p _ _ X (by omega) (fun j h1 h2 => by
      have h3 := hpv4 j h1 (by omega)
      rw [hv4] at h3
      exact h3)

/-! ### Volumes of node sets -/

theorem vol_perm (sc : scene α) (k : Nat) (r : Nat → α) {A B : List Nat} (h : A.Perm B) :
    sc.vol k r A = sc.vol k r B :=
  union_volume_perm k r (h.map sc.X)

/-- A node dominated by another node of the list adds no volume. -/
theorem vol_absorb (sc : scene α) (k : Nat) (ref : Nat → α) {C D : List Nat} {r p : Nat}
    (hr : r ∈ C ++ D) (hdom : ∀ j, j < k → sc.X r j ≤ sc.X p j) :
    sc.vol k ref (C ++ p :: D) = sc.vol k ref (C ++ D) := by
  rw [vol_perm sc k ref (List.perm_middle : (C ++ p :: D).Perm (p :: (C ++ D)))]
  unfold scene.vol
  rw [List.map_cons]
  exact union_volume_dominated k ref _ _ (sc.X r) (List.mem_map_of_mem _ hr) hdom

theorem vol_absorb_last (sc : scene α) (k : Nat) (ref : Nat → α) {C : List Nat} {r p : Nat}
    (hr : r ∈ C) (hdom : ∀ j, j < k → sc.X r j ≤ sc.X p j) :
    sc.vol k ref (C ++ [p]) = sc.vol k ref C := by
  have h := vol_absorb sc k ref (C := C) (D := []) (r := r) (p := p) (by simpa using hr) hdom
  simpa using h

/-- The volume below height `y` of a list whose last node is highest. -/
theorem vol_slab (sc : scene α) (k : Nat) (ref : Nat → α) {A : List Nat} {q : Nat}
    (h : ∀ a, a ∈ A → sc.X a k ≤ sc.X q k) (y : α) :
    sc.vol (k + 1) (Function.update ref k y) (A ++ [q])
      = sc.vol (k + 1) (Function.update ref k (sc.X q k)) A
        + (y - sc.X q k) * sc.vol k ref (A ++ [q]) := by
  have hp : (A ++ [q]).Perm (q :: A) := List.perm_append_comm
  rw [vol_perm sc _ _ hp, vol_perm sc k ref hp]
  unfold scene.vol
  rw [List.map_cons]
  apply union_volume_slab
  intro p hp
  obtain ⟨a, ha, rfl⟩ := List.mem_map.mp hp
  exact h a ha

theorem vol_slab_ref (sc : scene α) (k : Nat) (ref : Nat → α) {A : List Nat} {q : Nat}
    (h : ∀ a, a ∈ A → sc.X a k ≤ sc.X q k) :
    sc.vol (k + 1) ref (A ++ [q])
      = sc.vol (k + 1) (Function.update ref k (sc.X q k)) A
        + (ref k - sc.X q k) * sc.vol k ref (A ++ [q]) := by
  have e := vol_slab sc k ref h (ref k)
  rw [Function.update_eq_self] at e
  exact e

/-! ### Decompositions of lists without duplicates -/

theorem split_mem_left {C1 C2 A B : List Nat} {q : Nat} (hnd : (C1 ++ C2).Nodup)
    (e : C1 ++ C2 = A ++ q :: B) (hq : q ∈ C1) : ∃ W, C1 = A ++ q :: W ∧ B = W ++ C2 := by
  obtain ⟨U, W, rfl⟩ := List.append_of_mem hq
  have e' : U ++ q :: (W ++ C2) = A ++ q :: B := by rw [← e]; simp
  obtain ⟨e1, e2⟩ := split_unique (by simpa using hnd) e'
  exact ⟨W, by rw [e1], e2.symm⟩

theorem split_mem_right {C1 C2 A B : List Nat} {q : Nat} (hnd : (C1 ++ C2).Nodup)
    (e : C1 ++ C2 = A ++ q :: B) (hq : q ∈ C2) : ∃ U, C2 = U ++ q :: B ∧ A = C1 ++ U := by
  obtain ⟨U, W, rfl⟩ := List.append_of_mem hq
  have e' : (C1 ++ U) ++ q :: W = A ++ q :: B := by rw [← e]; simp
  obtain ⟨e1, e2⟩ := split_unique (by simpa using hnd) e'
  exact ⟨U, by rw [e2], e1.symm⟩

/-! ### The caches under deletion and reinsertion -/

theorem val_delete {sc : scene α} {v v' : view α} {i : Nat} {C1 C2 : List Nat} {p : Nat}
    (h : val sc v i (C1 ++ p :: C2)) (hnd : (C1 ++ p :: C2).Nodup)
    (hs : (C1 ++ p :: C2).Pairwise (fun a b => sc.X a i ≤ sc.X b i))
    (har : ∀ q, v'.ar q i = v.ar q i) (hvl : ∀ q, v'.vl q i = v.vl q i)
    (hb1 : v'.bd i ≤ v.bd i) (hb2 : v'.bd i ≤ sc.X p i) : val sc v' i (C1 ++ C2) := by
  intro A q B e hq
  have hnd' : (C1 ++ C2).Nodup := by
    have := List.nodup_middle.mp hnd
    exact (List.nodup_cons.mp this).2
  have hqm : q ∈ C1 ++ C2 := by rw [e]; simp
  rcases List.mem_append.mp hqm with h1 | h2
  · obtain ⟨W, e1, e2⟩ := split_mem_left hnd' e h1
    have := h A q (W ++ p :: C2) (by rw [e1]; simp) (lt_of_lt_of_le hq hb1)
    unfold val_at at this ⊢
    rw [har, hvl]
    exact this
  · exfalso
    have h3 : sc.X p i ≤ sc.X q i :=
      (List.pairwise_cons.mp (List.pairwise_append.mp hs).2.1).1 q h2
    exact absurd (lt_of_lt_of_le hq hb2) (not_lt.mpr h3)

theorem val_insert {sc : scene α} {v v' : view α} {i : Nat} {C1 C2 : List Nat} {p : Nat}
    (h : val sc v i (C1 ++ C2)) (hnd : (C1 ++ p :: C2).Nodup)
    (hs : (C1 ++ p :: C2).Pairwise (fun a b => sc.X a i ≤ sc.X b i))
    (har : ∀ q, v'.ar q i = v.ar q i) (hvl : ∀ q, v'.vl q i = v.vl q i)
    (hb1 : v'.bd i ≤ v.bd i) (hb2 : v'.bd i ≤ sc.X p i) : val sc v' i (C1 ++ p :: C2) := by
  intro A q B e hq
  have hqm : q ∈ C1 ++ p :: C2 := by rw [e]; simp
  have hlt : sc.X q i < sc.X p i := lt_of_lt_of_le hq hb2
  rcases List.mem_append.mp hqm with h1 | h2
  · obtain ⟨W, e1, e2⟩ := split_mem_left hnd e h1
    have := h A q (W ++ C2) (by rw [e1]; simp) (lt_of_lt_of_le hq hb1)
    unfold val_at at this ⊢
    rw [har, hvl]
    exact this
  · exfalso
    rcases List.mem_cons.mp h2 with h3 | h3
    · rw [h3] at hlt
      exact lt_irrefl _ hlt
    · have h4 : sc.X p i ≤ sc.X q i :=
        (List.pairwise_cons.mp (List.pairwise_append.mp hs).2.1).1 q h3
      exact absurd hlt (not_lt.mpr h4)

theorem val_delete_dom {sc : scene α} {v v' : view α} {i : Nat} {C1 C2 : List Nat} {p r : Nat}
    (h : val sc v i (C1 ++ p :: C2)) (hnd : (C1 ++ p :: C2).Nodup)
    (hr : r ∈ C1) (hdom : ∀ j, j < i + 1 → sc.X r j ≤ sc.X p j)
    (har : ∀ q, v'.ar q i = v.ar q i) (hvl : ∀ q, v'.vl q i = v.vl q i)
    (hb1 : v'.bd i ≤ v.bd i) : val sc v' i (C1 ++ C2) := by
  intro A q B e hq
  have hnd' : (C1 ++ C2).Nodup := by
    have := List.nodup_middle.mp hnd
    exact (List.nodup_cons.mp this).2
  have hqm : q ∈ C1 ++ C2 := by rw [e]; simp
  rcases List.mem_append.mp hqm with h1 | h2
  · obtain ⟨W, e1, e2⟩ := split_mem_left hnd' e h1
    have := h A q (W ++ p :: C2) (by rw [e1]; simp) (lt_of_lt_of_le hq hb1)
    unfold val_at at this ⊢
    rw [har, hvl]
    exact this
  · obtain ⟨U, e1, e2⟩ := split_mem_right hnd' e h2
    have := h (C1 ++ p :: U) q B (by rw [e1]; simp) (lt_of_lt_of_le hq hb1)
    unfold val_at at this ⊢
    rw [har, hvl, this.1, this.2, e2]
    constructor
    · have e3 : (C1 ++ p :: U) ++ [q] = C1 ++ p :: (U ++ [q]) := by simp
      have e4 : (C1 ++ U) ++ [q] = C1 ++ (U ++ [q]) := by simp
      rw [e3, e4]
      exact vol_absorb sc i sc.ref (List.mem_append_left _ hr)
        (fun j hj => hdom j (Nat.lt_succ_of_lt hj))
    · exact vol_absorb sc (i + 1) _ (List.mem_append_left _ hr) hdom

theorem val_insert_dom {sc : scene α} {v v' : view α} {i : Nat} {C0 C2 : List Nat}
    {p r pr : Nat}
    (h : val sc v i ((C0 ++ [pr]) ++ C2)) (hnd : ((C0 ++ [pr]) ++ p :: C2).Nodup)
    (hs : ((C0 ++ [pr]) ++ p :: C2).Pairwise (fun a b => sc.X a i ≤ sc.X b i))
    (hr : r ∈ C0 ++ [pr]) (hdom : ∀ j, j < i + 1 → sc.X r j ≤ sc.X p j)
    (har : ∀ q, q ≠ p → v'.ar q i = v.ar q i) (hvl : ∀ q, q ≠ p → v'.vl q i = v.vl q i)
    (harp : v'.ar p i = v.ar pr i)
    (hvlp : v'.vl p i = v.vl pr i + v.ar pr i * (sc.X p i - sc.X pr i))
    (hb1 : v'.bd i ≤ v.bd i) : val sc v' i ((C0 ++ [pr]) ++ p :: C2) := by
  intro A q B e hq
  have hqm : q ∈ (C0 ++ [pr]) ++ p :: C2 := by rw [e]; simp
  have hpC1 : p ∉ C0 ++ [pr] := fun hh => (List.nodup_append.mp hnd).2.2 hh (by simp)
  have hpC2 : p ∉ C2 := (List.nodup_cons.mp (List.nodup_append.mp hnd).2.1).1
  rcases List.mem_append.mp hqm with h1 | h2
  · obtain ⟨W, e1, e2⟩ := split_mem_left hnd e h1
    have := h A q (W ++ C2) (by rw [e1]; simp) (lt_of_lt_of_le hq hb1)
    have hqp : q ≠ p := fun hh => hpC1 (hh ▸ h1)
    unfold val_at at this ⊢
    rw [har q hqp, hvl q hqp]
    exact this
  · rcases List.mem_cons.mp h2 with h3 | h3
    · subst h3
      obtain ⟨e1, e2⟩ := split_unique (by rw [← e]; exact hnd) e.symm
      subst e1
      have hprq : sc.X pr i ≤ sc.X q i :=
        (List.pairwise_append.mp hs).2.2 pr (by simp) q (by simp)
      have := h C0 pr C2 (by simp) (lt_of_le_of_lt hprq (lt_of_lt_of_le hq hb1))
      unfold val_at at this ⊢
      rw [harp, hvlp, this.1, this.2]
      constructor
      · exact (vol_absorb_last sc i sc.ref hr (fun j hj => hdom j (Nat.lt_succ_of_lt hj))).symm
      · have hmax : ∀ a, a ∈ C0 → sc.X a i ≤ sc.X pr i := by
          intro a ha
          have h5 := (List.pairwise_append.mp hs).1
          exact (List.pairwise_append.mp h5).2.2 a ha pr (by simp)
        rw [vol_slab sc i sc.ref hmax (sc.X q i)]
        ring
    · have hnd' : ((C0 ++ [pr]) ++ p :: C2).Nodup := hnd
      have e' : ((C0 ++ [pr]) ++ [p]) ++ C2 = A ++ q :: B := by rw [← e]; simp
      obtain ⟨U, e1, e2⟩ := split_mem_right (by simpa using hnd) e' h3
      have := h ((C0 ++ [pr]) ++ U) q B (by rw [e1]; simp) (lt_of_lt_of_le hq hb1)
      have hqp : q ≠ p := fun hh => hpC2 (hh ▸ h3)
      unfold val_at at this ⊢
      rw [har q hqp, hvl q hqp, this.1, this.2, e2]
      constructor
      · have e3 : (((C0 ++ [pr]) ++ [p]) ++ U) ++ [q] = (C0 ++ [pr]) ++ p :: (U ++ [q]) := by simp
        have e4 : ((C0 ++ [pr]) ++ U) ++ [q] = (C0 ++ [pr]) ++ (U ++ [q]) := by simp
        rw [e3, e4]
        exact (vol_absorb sc i sc.ref (List.mem_append_left _ hr)
          (fun j hj => hdom j (Nat.lt_succ_of_lt hj))).symm
      · have e3 : ((C0 ++ [pr]) ++ [p]) ++ U = (C0 ++ [pr]) ++ p :: U := by simp
        rw [e3]
        exact (vol_absorb sc (i + 1) _ (List.mem_append_left _ hr) hdom).symm

/-! ### The staircase under deletion and reinsertion -/

theorem stair_at_remove {sc : scene α} {v v' : view α} {A : List Nat} {p : Nat} {b : α}
    (h : stair_at sc v (A ++ [p]) b) (hdr : ∀ q, q ∈ A → v'.dr q = v.dr q)
    (hp : sc.X p 2 < b → v.dr p < b) : stair_at sc v' A b := by
  constructor
  · intro t t' ht ht' h1 h2 h3 h4 h5 h6
    rw [hdr t ht] at h3
    rw [hdr t' ht'] at h4
    exact h.1 t t' (List.mem_append_left _ ht) (List.mem_append_left _ ht') h1 h2 h3 h4 h5 h6
  · intro q hq h1
    obtain ⟨t, ht, h2, h3, h4⟩ := h.2 q (List.mem_append_left _ hq) h1
    rcases List.mem_append.mp ht with h5 | h5
    · exact ⟨t, h5, h2, by rw [hdr t h5]; exact h3, h4⟩
    · simp only [List.mem_singleton] at h5
      subst h5
      exact absurd (hp h2) (not_lt.mpr h3)

theorem stair_at_add {sc : scene α} {v v' : view α} {A : List Nat} {p : Nat} {b : α}
    (h : stair_at sc v A b) (hdr : ∀ q, q ∈ A → v'.dr q = v.dr q)
    (hp : sc.X p 2 < b → v'.dr p < b ∧
      ∃ r, r ∈ A ∧ sc.X r 2 < b ∧ sc.X r 0 ≤ sc.X p 0 ∧ sc.X r 1 ≤ sc.X p 1) :
    stair_at sc v' (A ++ [p]) b := by
  have hnot : ∀ t, t ∈ A ++ [p] → sc.X t 2 < b → b ≤ v'.dr t → t ∈ A := by
    intro t ht h1 h2
    rcases List.mem_append.mp ht with h5 | h5
    · exact h5
    · simp only [List.mem_singleton] at h5
      subst h5
      exact absurd (hp h1).1 (not_lt.mpr h2)
  constructor
  · intro t t' ht ht' h1 h2 h3 h4 h5 h6
    have m1 := hnot t ht h1 h3
    have m2 := hnot t' ht' h2 h4
    rw [hdr t m1] at h3
    rw [hdr t' m2] at h4
    exact h.1 t t' m1 m2 h1 h2 h3 h4 h5 h6
  · intro q hq h1
    have key : ∀ q', q' ∈ A → sc.X q' 2 < b → ∃ t, t ∈ A ++ [p] ∧ sc.X t 2 < b ∧ b ≤ v'.dr t ∧
        sc.X t 0 ≤ sc.X q' 0 ∧ sc.X t 1 ≤ sc.X q' 1 := by
      intro q' hq' h1'
      obtain ⟨t, ht, h2, h3, h4⟩ := h.2 q' hq' h1'
      exact ⟨t, List.mem_append_left _ ht, h2, by rw [hdr t ht]; exact h3, h4⟩
    rcases List.mem_append.mp hq with h5 | h5
    · exact key q h5 h1
    · simp only [List.mem_singleton] at h5
      subst h5
      obtain ⟨_, r, hr, hr2, hr0, hr1⟩ := hp h1
      obtain ⟨t, ht, h2, h3, h4, h6⟩ := key r hr hr2
      exact ⟨t, ht, h2, h3, le_trans h4 hr0, le_trans h6 hr1⟩

/-! ### Deleting the top of the chain -/

theorem del_fields (sc : scene α) (m : Nat) (v : view α) (p : Nat) :
    (v.del sc m p).ign = v.ign ∧ (v.del sc m p).ar = v.ar ∧ (v.del sc m p).vl = v.vl ∧
    (v.del sc m p).dr = v.dr ∧
    (∀ j, ¬ (2 ≤ j ∧ j < m) → (v.del sc m p).nx j = v.nx j ∧ (v.del sc m p).pv j = v.pv j ∧
      (v.del sc m p).bd j = v.bd j) ∧
    (∀ j, 2 ≤ j → j < m →
      (v.del sc m p).nx j = Function.update (v.nx j) (v.pv j p) (v.nx j p) ∧
      (v.del sc m p).pv j = Function.update (v.pv j) (v.nx j p) (v.pv j p) ∧
      (v.del sc m p).bd j ≤ v.bd j ∧
      (¬ (m : Int) ≤ v.ign p → (v.del sc m p).bd j ≤ sc.X p j) ∧
      ((m : Int) ≤ v.ign p → (v.del sc m p).bd j = v.bd j)) := by
  unfold view.del
  by_cases h : (m : Int) ≤ v.ign p
  · rw [if_pos h]
    refine ⟨rfl, rfl, rfl, rfl, ?_, ?_⟩
    · intro j hj
      exact ⟨if_neg hj, if_neg hj, rfl⟩
    · intro j h1 h2
      have hj : 2 ≤ j ∧ j < m := ⟨h1, h2⟩
      exact ⟨if_pos hj, if_pos hj, le_refl _, fun hh => absurd h hh, fun _ => rfl⟩
  · rw [if_neg h]
    refine ⟨rfl, rfl, rfl, rfl, ?_, ?_⟩
    · intro j hj
      exact ⟨if_neg hj, if_neg hj, if_neg hj⟩
    · intro j h1 h2
      have hj : 2 ≤ j ∧ j < m := ⟨h1, h2⟩
      have hb : ((v.unlink 2 m p).lower 2 m (sc.X p)).bd j = min (v.bd j) (sc.X p j) :=
        if_pos hj
      refine ⟨if_pos hj, if_pos hj, ?_, fun _ => ?_, fun hh => absurd hh h⟩
      · rw [hb]; exact min_le_left _ _
      · rw [hb]; exact min_le_right _ _

theorem dels_fields (sc : scene α) (m : Nat) (v : view α) :
    ∀ Bd : List Nat, (v.dels sc m Bd).ign = v.ign ∧ (v.dels sc m Bd).ar = v.ar ∧
      (v.dels sc m Bd).vl = v.vl ∧ (v.dels sc m Bd).dr = v.dr ∧
      (∀ j, ¬ (2 ≤ j ∧ j < m) → (v.dels sc m Bd).nx j = v.nx j ∧
        (v.dels sc m Bd).pv j = v.pv j ∧ (v.dels sc m Bd).bd j = v.bd j) ∧
      (∀ j, (v.dels sc m Bd).bd j ≤ v.bd j)
  | [] => ⟨rfl, rfl, rfl, rfl, fun _ _ => ⟨rfl, rfl, rfl⟩, fun _ => le_refl _⟩
  | p :: Bd => by
    obtain ⟨h1, h2, h3, h4, h5, h6⟩ := dels_fields sc m v Bd
    obtain ⟨g1, g2, g3, g4, g5, g6⟩ := del_fields sc m (v.dels sc m Bd) p
    have e : v.dels sc m (p :: Bd) = (v.dels sc m Bd).del sc m p := rfl
    rw [e]
    refine ⟨g1.trans h1, g2.trans h2, g3.trans h3, g4.trans h4, ?_, ?_⟩
    · intro j hj
      obtain ⟨a1, a2, a3⟩ := g5 j hj
      obtain ⟨b1, b2, b3⟩ := h5 j hj
      exact ⟨a1.trans b1, a2.trans b2, a3.trans b3⟩
    · intro j
      by_cases hj : 2 ≤ j ∧ j < m
      · exact le_trans (g6 j hj.1 hj.2).2.2.1 (h6 j)
      · rw [(g5 j hj).2.2]
        exact h6 j

/-- After the deletion of the nodes `Bd` the chains below `m` hold the
remaining nodes. -/
theorem linked_dels {sc : scene α} (hok : sc.ok) (m : Nat) (v : view α) {i : Nat}
    (h2 : 2 ≤ i) (him : i < m) (hid : i < sc.d) :
    ∀ (Bd A : List Nat), (A ++ Bd).Nodup → (∀ p, p ∈ A ++ Bd → p ∈ sc.ord 0) →
      Linked (v.nx i) (v.pv i) 0 (sc.chain i (A ++ Bd)) 0 →
      Linked ((v.dels sc m Bd).nx i) ((v.dels sc m Bd).pv i) 0 (sc.chain i A) 0
  | [], A, _, _, h => by
    rw [List.append_nil] at h
    exact h
  | p :: Bd, A, hnd, hsub, h => by
    have e0 : A ++ p :: Bd = (A ++ [p]) ++ Bd := by simp
    have ih := linked_dels hok m v h2 him hid Bd (A ++ [p]) (by rw [← e0]; exact hnd)
      (by rw [← e0]; exact hsub) (by rw [← e0]; exact h)
    have hpA : p ∉ A := fun hh => by
      have := (List.nodup_append.mp hnd).2.2 hh
      exact this (by simp)
    obtain ⟨C1, C2, e1, e2⟩ := chain_split hok hid (hsub p (by simp)) hpA
    rw [e1] at ih
    have hnd1 : (0 :: (C1 ++ p :: C2)).Nodup := by rw [← e1]; exact chain_nodup hok hid _
    have h0 : (0 : Nat) ∉ C1 ++ p :: C2 := (List.nodup_cons.mp hnd1).1
    have her := Linked.erase p ih hnd1 h0 (by simp)
    have hpC1 : p ∉ C1 := fun hh =>
      (List.nodup_append.mp (List.nodup_cons.mp hnd1).2).2.2 hh (by simp)
    have e3 : (C1 ++ p :: C2).erase p = C1 ++ C2 := by
      rw [List.erase_append_right _ hpC1, List.erase_cons_head]
    rw [e3, ← e2] at her
    have e : v.dels sc m (p :: Bd) = (v.dels sc m Bd).del sc m p := rfl
    obtain ⟨g1, g2, _⟩ := (del_fields sc m (v.dels sc m Bd) p).2.2.2.2.2 i h2 him
    rw [e, g1, g2]
    exact her

/-! ### The flags at the start of a call -/

/-- Coordinates of a dominator that precedes the node in the chains. -/
theorem dominator_le {sc : scene α} (hok : sc.ok) {m : Nat} (hmd : m ≤ sc.d) {r p : Nat}
    (h0 : sc.X r 0 ≤ sc.X p 0) (h1 : sc.X r 1 ≤ sc.X p 1)
    (hb : ∀ i, 2 ≤ i → i < m → Before (sc.ord i) r p) :
    ∀ j, j < m → sc.X r j ≤ sc.X p j := by
  intro j hj
  rcases Nat.lt_or_ge j 2 with h | h
  · rcases Nat.lt_or_ge j 1 with h' | h'
    · have : j = 0 := by omega
      subst this; exact h0
    · have : j = 1 := by omega
      subst this; exact h1
  · exact (hb j h hj).rel_of_pairwise (hok.sorted j (by omega))

/-- The caches and the staircase of the chains below `m` after the deletion
of the nodes `Bd` from the top of chain `m`. -/
theorem low_dels {sc : scene α} (hok : sc.ok) (m : Nat) (h2m : 2 < m) (hmd : m ≤ sc.d)
    (E : view α) :
    ∀ (Bd A : List Nat), (A ++ Bd).Nodup → (∀ p, p ∈ A ++ Bd → p ∈ sc.ord 0) →
      flagged sc m E (A ++ Bd) →
      (∀ i, 2 ≤ i → i < m → val sc E i (sc.chain i (A ++ Bd))) → stair sc E (A ++ Bd) →
      (∀ i, 2 ≤ i → i < m → val sc (E.dels sc m Bd) i (sc.chain i A)) ∧
        stair sc (E.dels sc m Bd) A
  | [], A, _, _, _, hv, hst => by
    rw [List.append_nil] at hv hst
    exact ⟨hv, hst⟩
  | p :: Bd, A, hnd, hsub, hfl, hv, hst => by
    have e0 : A ++ p :: Bd = (A ++ [p]) ++ Bd := by simp
    obtain ⟨ihv, ihs⟩ := low_dels hok m h2m hmd E Bd (A ++ [p]) (by rw [← e0]; exact hnd)
      (by rw [← e0]; exact hsub) (by rw [← e0]; exact hfl) (by rw [← e0]; exact hv)
      (by rw [← e0]; exact hst)
    have hpA : p ∉ A := fun hh => (List.nodup_append.mp hnd).2.2 hh (by simp)
    have hpL : p ∈ A ++ p :: Bd := by simp
    have e : E.dels sc m (p :: Bd) = (E.dels sc m Bd).del sc m p := rfl
    obtain ⟨f1, f2, f3, f4, f5, f6⟩ := dels_fields sc m E Bd
    obtain ⟨g1, g2, g3, g4, g5, g6⟩ := del_fields sc m (E.dels sc m Bd) p
    rw [e]
    by_cases hflag : (m : Int) ≤ E.ign p
    · obtain ⟨r, hrL, hr0, hr1, hrb⟩ := hfl.dom p hpL hflag
      have hrA : r ∈ A := hrL.mem_of_split hnd rfl
      have hle := dominator_le hok hmd hr0 hr1 hrb
      constructor
      · intro i h2 him
        have hid : i < sc.d := by omega
        obtain ⟨C1, C2, e1, e2⟩ := chain_split hok hid (hsub p hpL) hpA
        have hnd1 : (C1 ++ p :: C2).Nodup := by
          rw [← e1]; exact (List.nodup_cons.mp (chain_nodup hok hid _)).2
        have hrC : r ∈ C1 := by
          have hb : Before (sc.chain i (A ++ [p])) r p :=
            (hrb i h2 him).filter_of_mem (by simp [hrA]) (by simp)
          exact hb.mem_of_split (by rw [e1]; exact hnd1) e1
        rw [e2]
        have hvi := ihv i h2 him
        rw [e1] at hvi
        refine val_delete_dom hvi hnd1 hrC (fun j hj => ?_) (fun q => by rw [g2]) (fun q => by rw [g3])
          (g6 i h2 him).2.2.1
        rcases Nat.lt_or_ge j i with h | h
        · exact hle j (by omega)
        · have : j = i := by omega
          subst this
          exact hle j him
      · intro b hb
        have hb' : b ≤ (E.dels sc m Bd).bd 2 := le_trans hb (g6 2 (le_refl _) h2m).2.2.1
        refine stair_at_remove (ihs b hb') (fun q _ => by rw [g4]) (fun hlt => ?_)
        rw [f4, hfl.own p hpL hflag]
        exact hlt
    · have hflag' : ¬ (m : Int) ≤ (E.dels sc m Bd).ign p := by rw [f1]; exact hflag
      constructor
      · intro i h2 him
        have hid : i < sc.d := by omega
        obtain ⟨C1, C2, e1, e2⟩ := chain_split hok hid (hsub p hpL) hpA
        have hnd1 : (C1 ++ p :: C2).Nodup := by
          rw [← e1]; exact (List.nodup_cons.mp (chain_nodup hok hid _)).2
        rw [e2]
        have hvi := ihv i h2 him
        rw [e1] at hvi
        have hs := chain_sorted hok hid (A ++ [p])
        rw [e1] at hs
        exact val_delete hvi hnd1 hs (fun q => by rw [g2]) (fun q => by rw [g3])
          (g6 i h2 him).2.2.1 ((g6 i h2 him).2.2.2.1 hflag')
      · intro b hb
        have hb' : b ≤ (E.dels sc m Bd).bd 2 := le_trans hb (g6 2 (le_refl _) h2m).2.2.1
        refine stair_at_remove (ihs b hb') (fun q _ => by rw [g4]) (fun hlt => ?_)
        exfalso
        have := (g6 2 (le_refl _) h2m).2.2.2.1 hflag'
        exact absurd (lt_of_lt_of_le hlt (le_trans hb this)) (lt_irrefl _)

/-! ### Congruence of the invariants -/

theorem val_congr {sc : scene α} {v v' : view α} {i : Nat} {C : List Nat} (h : val sc v i C)
    (har : ∀ q, q ∈ C → v'.ar q i = v.ar q i) (hvl : ∀ q, q ∈ C → v'.vl q i = v.vl q i)
    (hbd : v'.bd i ≤ v.bd i) : val sc v' i C := by
  intro A q B e hq
  have hqC : q ∈ C := by rw [e]; simp
  have := h A q B e (lt_of_lt_of_le hq hbd)
  unfold val_at at this ⊢
  rw [har q hqC, hvl q hqC]
  exact this

theorem stair_congr {sc : scene α} {v v' : view α} {S : List Nat} (h : stair sc v S)
    (hdr : ∀ q, q ∈ S → v'.dr q = v.dr q) (hbd : v'.bd 2 ≤ v.bd 2) : stair sc v' S := by
  intro b hb
  obtain ⟨h1, h2⟩ := h b (le_trans hb hbd)
  constructor
  · intro t t' ht ht' a1 a2 a3 a4 a5 a6
    rw [hdr t ht] at a3
    rw [hdr t' ht'] at a4
    exact h1 t t' ht ht' a1 a2 a3 a4 a5 a6
  · intro p hp a1
    obtain ⟨t, ht, b1, b2, b3⟩ := h2 p hp a1
    exact ⟨t, ht, b1, by rw [hdr t ht]; exact b2, b3⟩

theorem dom_congr {sc : scene α} {v v' : view α} {m : Nat} {S : List Nat} (h : dom sc v m S)
    (hign : ∀ q, q ∈ S → v'.ign q = v.ign q) : dom sc v' m S := by
  intro p hp h2
  rw [hign p hp] at h2
  obtain ⟨r, hr, a1, a2, a3⟩ := h p hp h2
  exact ⟨r, hr, a1, a2, fun i b1 b2 b3 => a3 i b1 b2 (by rw [hign p hp] at b3; exact b3)⟩

theorem dom_mono {sc : scene α} {v : view α} {m k : Nat} {S : List Nat} (h : dom sc v m S)
    (hk : k ≤ m) : dom sc v k S := by
  intro p hp h2
  obtain ⟨r, hr, a1, a2, a3⟩ := h p hp h2
  exact ⟨r, hr, a1, a2, fun i b1 b2 b3 => a3 i b1 (le_trans b2 hk) b3⟩

theorem own_congr {sc : scene α} {v v' : view α} {S : List Nat} (h : own sc v S)
    (hign : ∀ q, q ∈ S → v'.ign q = v.ign q) (hdr : ∀ q, q ∈ S → v'.dr q = v.dr q) :
    own sc v' S := by
  intro p hp h2
  rw [hign p hp] at h2
  rw [hdr p hp]
  exact h p hp h2

theorem vinv_congr {sc : scene α} {k : Nat} {v v' : view α} {S : List Nat} (h : vinv sc k v S)
    (hnx : v'.nx = v.nx) (hpv : v'.pv = v.pv) (hign : ∀ q, q ∈ S → v'.ign q = v.ign q)
    (hdr : ∀ q, q ∈ S → v'.dr q = v.dr q) (hbd : ∀ i, 2 ≤ i → i ≤ k → v'.bd i = v.bd i)
    (hbd2 : v'.bd 2 ≤ v.bd 2)
    (har : ∀ q i, i ≤ k → v'.ar q i = v.ar q i) (hvl : ∀ q i, i ≤ k → v'.vl q i = v.vl q i) :
    vinv sc k v' S where
  sub := h.sub
  nodup := h.nodup
  linked := fun i h1 h2 => by rw [hnx, hpv]; exact h.linked i h1 h2
  val := fun i h1 h2 => val_congr (h.val i h1 h2) (fun q _ => har q i h2) (fun q _ => hvl q i h2)
    (le_of_eq (hbd i h1 h2))
  dom := dom_congr h.dom hign
  own := own_congr h.own hign hdr
  stair := stair_congr h.stair hdr hbd2

/-- The invariant only depends on the members of the node set. -/
theorem vinv_of_mem_iff {sc : scene α} {k : Nat} {v : view α} {S S' : List Nat}
    (h : vinv sc k v S) (hm : ∀ p, p ∈ S' ↔ p ∈ S) (hnd : S'.Nodup) : vinv sc k v S' where
  sub := fun p hp => h.sub p ((hm p).mp hp)
  nodup := hnd
  linked := fun i h1 h2 => by
    rw [chain_congr (fun p _ => hm p)]; exact h.linked i h1 h2
  val := fun i h1 h2 => by
    rw [chain_congr (fun p _ => hm p)]; exact h.val i h1 h2
  dom := fun p hp h2 => by
    obtain ⟨r, hr, a⟩ := h.dom p ((hm p).mp hp) h2
    exact ⟨r, (hm r).mpr hr, a⟩
  own := fun p hp h2 => h.own p ((hm p).mp hp) h2
  stair := fun b hb => by
    obtain ⟨h1, h2⟩ := h.stair b hb
    constructor
    · intro t t' ht ht'
      exact h1 t t' ((hm t).mp ht) ((hm t').mp ht')
    · intro p hp a1
      obtain ⟨t, ht, b1⟩ := h2 p ((hm p).mp hp) a1
      exact ⟨t, (hm t).mpr ht, b1⟩

/-! ### The invariant of the second loop -/

theorem del_links (sc : scene α) (m : Nat) (v : view α) (p : Nat) :
    (v.del sc m p).nx = (v.unlink 2 m p).nx ∧ (v.del sc m p).pv = (v.unlink 2 m p).pv := by
  unfold view.del
  by_cases h : (m : Int) ≤ v.ign p
  · rw [if_pos h]; exact ⟨rfl, rfl⟩
  · rw [if_neg h]; exact ⟨rfl, rfl⟩

theorem relink_congr {v w : view α} (hnx : v.nx = w.nx) (hpv : v.pv = w.pv) (lo hi p : Nat) :
    (v.relink lo hi p).nx = (w.relink lo hi p).nx ∧
      (v.relink lo hi p).pv = (w.relink lo hi p).pv := by
  simp only [view.relink, hnx, hpv, and_self]

/-- The links of a deleted node and the effect of its reinsertion. -/
theorem links_reinsert {sc : scene α} (hok : sc.ok) {m : Nat} (hmd : m ≤ sc.d) {E v : view α}
    {A Bd : List Nat} {p : Nat} (hnd : (A ++ p :: Bd).Nodup)
    (hsub : ∀ q, q ∈ A ++ p :: Bd → q ∈ sc.ord 0)
    (hE : ∀ i, 2 ≤ i → i < m → Linked (E.nx i) (E.pv i) 0 (sc.chain i (A ++ p :: Bd)) 0)
    (hnx : v.nx = (E.dels sc m (p :: Bd)).nx) (hpv : v.pv = (E.dels sc m (p :: Bd)).pv) :
    (v.relink 2 m p).nx = (E.dels sc m Bd).nx ∧ (v.relink 2 m p).pv = (E.dels sc m Bd).pv ∧
    ∀ j, 2 ≤ j → j < m → ∀ C1 C2, sc.chain j (A ++ [p]) = C1 ++ p :: C2 →
      v.pv j p = (0 :: C1).getLast (List.cons_ne_nil 0 C1) ∧ v.pv j p ≠ p := by
  have e0 : A ++ p :: Bd = (A ++ [p]) ++ Bd := by simp
  have hlk : ∀ j, 2 ≤ j → j < m →
      Linked ((E.dels sc m Bd).nx j) ((E.dels sc m Bd).pv j) 0 (sc.chain j (A ++ [p])) 0 :=
    fun j h1 h2 => linked_dels hok m E h1 h2 (by omega) Bd (A ++ [p]) (by rw [← e0]; exact hnd)
      (by rw [← e0]; exact hsub) (by rw [← e0]; exact hE j h1 h2)
  have hpA : p ∉ A := fun hh => (List.nodup_append.mp hnd).2.2 hh (by simp)
  have hp0 : p ∈ sc.ord 0 := hsub p (by simp)
  have hfacts : ∀ j, 2 ≤ j → j < m → ∀ C1 C2, sc.chain j (A ++ [p]) = C1 ++ p :: C2 →
      (E.dels sc m Bd).pv j p = (0 :: C1).getLast (List.cons_ne_nil 0 C1) ∧
      (E.dels sc m Bd).nx j ((E.dels sc m Bd).pv j p) = p ∧
      (E.dels sc m Bd).pv j ((E.dels sc m Bd).nx j p) = p ∧
      (E.dels sc m Bd).pv j p ≠ p ∧ (E.dels sc m Bd).nx j p ≠ p := by
    intro j h1 h2 C1 C2 e
    have hl := hlk j h1 h2
    rw [e] at hl
    have hnd1 : (0 :: (C1 ++ p :: C2)).Nodup := by
      rw [← e]; exact chain_nodup hok (by omega) _
    obtain ⟨a1, _, a3, a4⟩ := Linked.inner hl
    obtain ⟨b1, b2⟩ := Linked.inner_ne hl hnd1 (List.nodup_cons.mp hnd1).1
    exact ⟨a1, a3, a4, b1, b2⟩
  have hex : ∀ j, j < sc.d → ∃ C1 C2, sc.chain j (A ++ [p]) = C1 ++ p :: C2 := fun j hj => by
    obtain ⟨C1, C2, e, _⟩ := chain_split hok hj hp0 hpA
    exact ⟨C1, C2, e⟩
  have e : E.dels sc m (p :: Bd) = (E.dels sc m Bd).del sc m p := rfl
  obtain ⟨d1, d2⟩ := del_links sc m (E.dels sc m Bd) p
  rw [e, d1] at hnx
  rw [e, d2] at hpv
  obtain ⟨r1, r2⟩ := relink_congr hnx hpv 2 m p
  obtain ⟨u1, u2⟩ := relink_unlink (E.dels sc m Bd) 2 m p
    (fun j h1 h2 => by
      obtain ⟨C1, C2, e⟩ := hex j (by omega)
      exact (hfacts j h1 h2 C1 C2 e).2.1)
    (fun j h1 h2 => by
      obtain ⟨C1, C2, e⟩ := hex j (by omega)
      exact (hfacts j h1 h2 C1 C2 e).2.2.1)
    (fun j h1 h2 => by
      obtain ⟨C1, C2, e⟩ := hex j (by omega)
      exact (hfacts j h1 h2 C1 C2 e).2.2.2.1)
    (fun j h1 h2 => by
      obtain ⟨C1, C2, e⟩ := hex j (by omega)
      exact (hfacts j h1 h2 C1 C2 e).2.2.2.2)
  refine ⟨r1.trans u1, r2.trans u2, ?_⟩
  intro j h1 h2 C1 C2 e
  obtain ⟨a1, _, _, a4, a5⟩ := hfacts j h1 h2 C1 C2 e
  have hj : 2 ≤ j ∧ j < m := ⟨h1, h2⟩
  have e5 : v.pv j p = (E.dels sc m Bd).pv j p := by
    rw [hpv]
    show (if 2 ≤ j ∧ j < m then Function.update ((E.dels sc m Bd).pv j)
      ((E.dels sc m Bd).nx j p) ((E.dels sc m Bd).pv j p) else (E.dels sc m Bd).pv j) p = _
    rw [if_pos hj, Function.update_noteq a5.symm]
  rw [e5]
  exact ⟨a1, a4⟩

theorem gctx.dominator {sc : scene α} {m : Nat} {E : view α} {L : List Nat}
    (hc : gctx sc m E L) {A Bd : List Nat} {p : Nat} (hL : L = A ++ p :: Bd)
    (hflag : (m : Int) ≤ E.ign p) :
    ∃ r, r ∈ A ∧ (∀ j, j < m + 1 → sc.X r j ≤ sc.X p j) ∧
      (∀ i, 2 ≤ i → i ≤ m → Before (sc.ord i) r p) := by
  obtain ⟨r, hrL, h0, h1, hb⟩ := hc.fl.dom p (by rw [hL]; simp) hflag
  have hb' : ∀ i, 2 ≤ i → i < m + 1 → Before (sc.ord i) r p := by
    intro i h2 hi
    rcases Nat.lt_or_ge i m with h | h
    · exact hb i h2 h
    · have : i = m := by omega
      subst this
      exact hc.before r p hrL
  exact ⟨r, hrL.mem_of_split hc.nodup hL,
    dominator_le hc.ok (by have := hc.lt_d; omega) h0 h1 hb',
    fun i h2 hi => hb' i h2 (by omega)⟩

/-- Reinsertion of a node that is not flagged. -/
theorem li_reinsert {sc : scene α} {m : Nat} {E : view α} {L : List Nat}
    (hc : gctx sc m E L) {xs0 : List α × (Nat → Option Nat)} {s s1 : hv_mem α}
    {A Bd : List Nat} {p : Nat} (hL : L = A ++ p :: Bd)
    (h : li sc m E xs0 s A A (p :: Bd)) (hflag : ¬ (m : Int) ≤ E.ign p)
    (hv : s1.view = (s.view.relink 2 m p).lower 2 m (sc.X p)) (hxs : s1.xs = s.xs)
    (havl : s1.avl = s.avl) : li sc m E xs0 s1 A (A ++ [p]) Bd := by
  have hok := hc.ok
  have h2m := hc.two_lt
  have hmd := hc.lt_d
  have hpL : p ∈ L := by rw [hL]; simp
  have hnd : (A ++ p :: Bd).Nodup := by rw [← hL]; exact hc.nodup
  have hsub : ∀ q, q ∈ A ++ p :: Bd → q ∈ sc.ord 0 := by rw [← hL]; exact hc.sub
  have hpA : p ∉ A := fun hh => (List.nodup_append.mp hnd).2.2 hh (by simp)
  have hp0 : p ∈ sc.ord 0 := hc.sub p hpL
  have e0 : A ++ p :: Bd = (A ++ [p]) ++ Bd := by simp
  have hndA : (A ++ [p]).Nodup := by
    rw [e0] at hnd
    exact (List.nodup_append.mp hnd).1
  obtain ⟨l1, l2, _⟩ := links_reinsert hok (le_of_lt hmd) hnd hsub
    (by rw [← hL]; exact hc.linked) h.nx h.pv
  have hnx1 : s1.view.nx = (E.dels sc m Bd).nx := by rw [hv]; exact l1
  have hpv1 : s1.view.pv = (E.dels sc m Bd).pv := by rw [hv]; exact l2
  have hign : s1.view.ign = s.view.ign := by rw [hv]; rfl
  have hdr : s1.view.dr = s.view.dr := by rw [hv]; rfl
  have har : s1.view.ar = s.view.ar := by rw [hv]; rfl
  have hvl : s1.view.vl = s.view.vl := by rw [hv]; rfl
  have hbd_in : ∀ i, 2 ≤ i → i < m → s1.view.bd i = min (s.view.bd i) (sc.X p i) := by
    intro i h1 h2
    rw [hv]
    exact if_pos ⟨h1, h2⟩
  have hbd_out : ∀ i, m ≤ i → s1.view.bd i = s.view.bd i := by
    intro i h1
    rw [hv]
    exact if_neg (by omega)
  have hignp : s.view.ign p = 0 := by
    rw [(h.out p hpA).1]
    exact hc.fl.zero p hpL hflag
  have hdom : dom sc s1.view m (A ++ [p]) := by
    intro q hq h2
    rw [hign] at h2
    rcases List.mem_append.mp hq with h3 | h3
    · obtain ⟨r, hr, a1, a2, a3⟩ := h.dom q h3 h2
      exact ⟨r, List.mem_append_left _ hr, a1, a2, fun i b1 b2 b3 =>
        a3 i b1 b2 (by rw [hign] at b3; exact b3)⟩
    · simp only [List.mem_singleton] at h3
      subst h3
      rw [hignp] at h2
      omega
  refine ⟨hnx1, hpv1, ⟨?_, stat.of_xs h.low.st hxs (fun q => by rw [havl]),
    by rw [havl]; exact h.low.empty⟩, hdom, ?_, ?_, ?_, ?_, ?_, ?_, by rw [hxs]; exact h.xs⟩
  · refine ⟨?_, hndA, ?_, ?_, dom_mono hdom (Nat.sub_le _ _), ?_, ?_⟩
    · intro q hq
      exact hsub q (by rw [e0]; exact List.mem_append_left _ hq)
    · intro i h1 h2
      rw [hnx1, hpv1]
      exact linked_dels hok m E h1 (by omega) (by omega) Bd (A ++ [p])
        (by rw [← e0]; exact hnd) (by rw [← e0]; exact hsub)
        (by rw [← e0, ← hL]; exact hc.linked i h1 (by omega))
    · intro i h1 h2
      have hid : i < sc.d := by omega
      obtain ⟨C1, C2, e1, e2⟩ := chain_split hok hid hp0 hpA
      have hnd1 : (C1 ++ p :: C2).Nodup := by
        rw [← e1]; exact (List.nodup_cons.mp (chain_nodup hok hid _)).2
      have hs := chain_sorted hok hid (A ++ [p])
      rw [e1] at hs ⊢
      have hvi := h.low.vi.val i h1 h2
      rw [e2] at hvi
      have hb := hbd_in i h1 (by omega)
      exact val_insert hvi hnd1 hs (fun q => by rw [har]) (fun q => by rw [hvl])
        (by rw [hb]; exact min_le_left _ _) (by rw [hb]; exact min_le_right _ _)
    · intro q hq h2
      rw [hign] at h2
      rw [hdr]
      rcases List.mem_append.mp hq with h3 | h3
      · exact h.low.vi.own q h3 h2
      · simp only [List.mem_singleton] at h3
        subst h3
        rw [hignp] at h2
        omega
    · intro b hb
      have hb2 := hbd_in 2 (le_refl _) h2m
      rw [hb2] at hb
      refine stair_at_add (h.low.vi.stair b (le_trans hb (min_le_left _ _)))
        (fun q _ => by rw [hdr]) (fun hlt => ?_)
      exact absurd (lt_of_lt_of_le hlt (le_trans hb (min_le_right _ _))) (lt_irrefl _)
  · intro A1 q A2 e
    have := h.all A1 q A2 e
    unfold val_at at this ⊢
    rw [har, hvl]
    exact this
  · intro q hq
    rw [hign, hdr]
    exact h.out q hq
  · intro q i hi
    rw [har]
    exact h.ar q i hi
  · intro q i hi
    rw [hvl]
    exact h.vl q i hi
  · intro i hi
    rw [hbd_out i hi]
    exact h.bd i hi
  · intro q hq
    rw [hign] at hq ⊢
    exact h.hi q hq

/-- The predecessor of a flagged deleted node in the chains below `m`. -/
theorem li_pred {sc : scene α} {m : Nat} {E : view α} {L : List Nat}
    (hc : gctx sc m E L) {xs0 : List α × (Nat → Option Nat)} {s : hv_mem α}
    {A Bd : List Nat} {p : Nat} (hL : L = A ++ p :: Bd)
    (h : li sc m E xs0 s A A (p :: Bd)) :
    (∀ j, 2 ≤ j → j < m → s.view.pv j p ≠ p) ∧
    ((m : Int) ≤ E.ign p → ∀ j, 2 ≤ j → j < m → s.view.pv j p ∈ sc.ord 0) := by
  have hok := hc.ok
  have hmd := hc.lt_d
  have hpL : p ∈ L := by rw [hL]; simp
  have hnd : (A ++ p :: Bd).Nodup := by rw [← hL]; exact hc.nodup
  have hsub : ∀ q, q ∈ A ++ p :: Bd → q ∈ sc.ord 0 := by rw [← hL]; exact hc.sub
  have hpA : p ∉ A := fun hh => (List.nodup_append.mp hnd).2.2 hh (by simp)
  have hp0 : p ∈ sc.ord 0 := hc.sub p hpL
  obtain ⟨_, _, l3⟩ := links_reinsert hok (le_of_lt hmd) hnd hsub
    (by rw [← hL]; exact hc.linked) h.nx h.pv
  constructor
  · intro j h1 h2
    obtain ⟨C1, C2, e1, _⟩ := chain_split hok (by omega : j < sc.d) hp0 hpA
    exact (l3 j h1 h2 C1 C2 e1).2
  · intro hflag j h1 h2
    obtain ⟨C1, C2, e1, e2⟩ := chain_split hok (by omega : j < sc.d) hp0 hpA
    obtain ⟨r, hrA, _, hrb⟩ := hc.dominator hL hflag
    have hnd1 : (C1 ++ p :: C2).Nodup := by
      rw [← e1]; exact (List.nodup_cons.mp (chain_nodup hok (by omega) _)).2
    have hrC : r ∈ C1 := by
      have hb : Before (sc.chain j (A ++ [p])) r p :=
        (hrb j h1 (by omega)).filter_of_mem (by simp [hrA]) (by simp)
      exact hb.mem_of_split (by rw [e1]; exact hnd1) e1
    have hne : C1 ≠ [] := List.ne_nil_of_mem hrC
    rw [(l3 j h1 h2 C1 C2 e1).1, List.getLast_cons hne]
    have hm : C1.getLast hne ∈ sc.chain j (A ++ [p]) := by
      rw [e1]; exact List.mem_append_left _ (List.getLast_mem hne)
    exact (hok.mem j (by omega) _).mp (mem_chain.mp hm).1

/-- Reinsertion of a flagged node. -/
theorem li_reinsert_dom {sc : scene α} {m : Nat} {E : view α} {L : List Nat}
    (hc : gctx sc m E L) {xs0 : List α × (Nat → Option Nat)} {s s1 : hv_mem α}
    {A Bd : List Nat} {p : Nat} (hL : L = A ++ p :: Bd)
    (h : li sc m E xs0 s A A (p :: Bd)) (hflag : (m : Int) ≤ E.ign p)
    (hv : s1.view = (s.view.relink 2 m p).copy 2 m p (fun j => s.view.pv j p) sc.X)
    (hxs : s1.xs = s.xs) (havl : s1.avl = s.avl) : li sc m E xs0 s1 A (A ++ [p]) Bd := by
  have hok := hc.ok
  have h2m := hc.two_lt
  have hmd := hc.lt_d
  have hpL : p ∈ L := by rw [hL]; simp
  have hnd : (A ++ p :: Bd).Nodup := by rw [← hL]; exact hc.nodup
  have hsub : ∀ q, q ∈ A ++ p :: Bd → q ∈ sc.ord 0 := by rw [← hL]; exact hc.sub
  have hpA : p ∉ A := fun hh => (List.nodup_append.mp hnd).2.2 hh (by simp)
  have hp0 : p ∈ sc.ord 0 := hc.sub p hpL
  have e0 : A ++ p :: Bd = (A ++ [p]) ++ Bd := by simp
  have hndA : (A ++ [p]).Nodup := by
    rw [e0] at hnd
    exact (List.nodup_append.mp hnd).1
  obtain ⟨l1, l2, l3⟩ := links_reinsert hok (le_of_lt hmd) hnd hsub
    (by rw [← hL]; exact hc.linked) h.nx h.pv
  obtain ⟨r, hrA, hrle, hrb⟩ := hc.dominator hL hflag
  have hnx1 : s1.view.nx = (E.dels sc m Bd).nx := by rw [hv]; exact l1
  have hpv1 : s1.view.pv = (E.dels sc m Bd).pv := by rw [hv]; exact l2
  have hign : s1.view.ign = s.view.ign := by rw [hv]; rfl
  have hdr : s1.view.dr = s.view.dr := by rw [hv]; rfl
  have hbd : s1.view.bd = s.view.bd := by rw [hv]; rfl
  have har_out : ∀ q i, ¬ (q = p ∧ 2 ≤ i ∧ i < m) → s1.view.ar q i = s.view.ar q i := by
    intro q i hqi
    rw [hv]
    exact if_neg hqi
  have hvl_out : ∀ q i, ¬ (q = p ∧ 2 ≤ i ∧ i < m) → s1.view.vl q i = s.view.vl q i := by
    intro q i hqi
    rw [hv]
    exact if_neg hqi
  have hignp : s.view.ign p = E.ign p := (h.out p hpA).1
  have hdrp : s.view.dr p = sc.X p 2 := by
    rw [(h.out p hpA).2]
    exact hc.fl.own p hpL hflag
  have hdom : dom sc s1.view m (A ++ [p]) := by
    intro q hq h2
    rw [hign] at h2
    rcases List.mem_append.mp hq with h3 | h3
    · obtain ⟨r', hr', a1, a2, a3⟩ := h.dom q h3 h2
      exact ⟨r', List.mem_append_left _ hr', a1, a2, fun i b1 b2 b3 =>
        a3 i b1 b2 (by rw [hign] at b3; exact b3)⟩
    · simp only [List.mem_singleton] at h3
      subst h3
      exact ⟨r, List.mem_append_left _ hrA, hrle 0 (by omega), hrle 1 (by omega),
        fun i b1 b2 _ => hrb i b1 b2⟩
  refine ⟨hnx1, hpv1, ⟨?_, stat.of_xs h.low.st hxs (fun q => by rw [havl]),
    by rw [havl]; exact h.low.empty⟩, hdom, ?_, ?_, ?_, ?_, ?_, ?_, by rw [hxs]; exact h.xs⟩
  · refine ⟨?_, hndA, ?_, ?_, dom_mono hdom (Nat.sub_le _ _), ?_, ?_⟩
    · intro q hq
      exact hsub q (by rw [e0]; exact List.mem_append_left _ hq)
    · intro i h1 h2
      rw [hnx1, hpv1]
      exact linked_dels hok m E h1 (by omega) (by omega) Bd (A ++ [p])
        (by rw [← e0]; exact hnd) (by rw [← e0]; exact hsub)
        (by rw [← e0, ← hL]; exact hc.linked i h1 (by omega))
    · intro i h1 h2
      have hid : i < sc.d := by omega
      have him : i < m := by omega
      obtain ⟨C1, C2, e1, e2⟩ := chain_split hok hid hp0 hpA
      have hnd1 : (C1 ++ p :: C2).Nodup := by
        rw [← e1]; exact (List.nodup_cons.mp (chain_nodup hok hid _)).2
      have hrC : r ∈ C1 := by
        have hb : Before (sc.chain i (A ++ [p])) r p :=
          (hrb i h1 (by omega)).filter_of_mem (by simp [hrA]) (by simp)
        exact hb.mem_of_split (by rw [e1]; exact hnd1) e1
      have hne : C1 ≠ [] := List.ne_nil_of_mem hrC
      have hpr : s.view.pv i p = C1.getLast hne := by
        rw [(l3 i h1 him C1 C2 e1).1, List.getLast_cons hne]
      have eC : C1 = C1.dropLast ++ [C1.getLast hne] := (List.dropLast_append_getLast hne).symm
      have hs := chain_sorted hok hid (A ++ [p])
      rw [e1] at hs ⊢
      have hvi := h.low.vi.val i h1 h2
      rw [e2] at hvi
      rw [eC] at hvi hs hnd1 hrC ⊢
      have hin : p = p ∧ 2 ≤ i ∧ i < m := ⟨rfl, h1, him⟩
      refine val_insert_dom hvi hnd1 hs hrC (fun j hj => hrle j (by omega))
        (fun q hq => har_out q i (fun hh => hq hh.1)) (fun q hq => hvl_out q i (fun hh => hq hh.1))
        ?_ ?_ (by rw [hbd])
      · rw [hv, ← hpr]
        exact if_pos hin
      · rw [hv, ← hpr]
        exact if_pos hin
    · intro q hq h2
      rw [hign] at h2
      rw [hdr]
      rcases List.mem_append.mp hq with h3 | h3
      · exact h.low.vi.own q h3 h2
      · simp only [List.mem_singleton] at h3
        subst h3
        exact hdrp
    · intro b hb
      rw [hbd] at hb
      refine stair_at_add (h.low.vi.stair b hb) (fun q _ => by rw [hdr]) (fun hlt => ?_)
      rw [hdr, hdrp]
      have hr2 : sc.X r 2 ≤ sc.X p 2 := hrle 2 (by omega)
      exact ⟨hlt, r, hrA, lt_of_le_of_lt hr2 hlt, hrle 0 (by omega), hrle 1 (by omega)⟩
  · intro A1 q A2 e
    have hqA : q ∈ A := by rw [e]; simp
    have hqp : q ≠ p := fun hh => hpA (hh ▸ hqA)
    have := h.all A1 q A2 e
    unfold val_at at this ⊢
    rw [har_out q m (fun hh => hqp hh.1), hvl_out q m (fun hh => hqp hh.1)]
    exact this
  · intro q hq
    rw [hign, hdr]
    exact h.out q hq
  · intro q i hi
    rw [har_out q i (by omega)]
    exact h.ar q i hi
  · intro q i hi
    rw [hvl_out q i (by omega)]
    exact h.vl q i hi
  · intro i hi
    rw [hbd]
    exact h.bd i hi
  · intro q hq
    rw [hign] at hq ⊢
    exact h.hi q hq

/-- Raising the flag of a flagged node keeps the invariant. -/
theorem vinv_promote {sc : scene α} {k : Nat} {v v' : view α} {S : List Nat} {p : Nat}
    (h : vinv sc k v S) (hk : 2 ≤ k) (hf : (k : Int) ≤ v.ign p) (hf' : (k : Int) ≤ v'.ign p)
    (hnx : v'.nx = v.nx) (hpv : v'.pv = v.pv) (hign : ∀ q, q ≠ p → v'.ign q = v.ign q)
    (hdr : v'.dr = v.dr) (hbd : v'.bd = v.bd)
    (har : ∀ q i, i ≤ k → v'.ar q i = v.ar q i) (hvl : ∀ q i, i ≤ k → v'.vl q i = v.vl q i) :
    vinv sc k v' S where
  sub := h.sub
  nodup := h.nodup
  linked := fun i h1 h2 => by rw [hnx, hpv]; exact h.linked i h1 h2
  val := fun i h1 h2 => val_congr (h.val i h1 h2) (fun q _ => har q i h2) (fun q _ => hvl q i h2)
    (by rw [hbd])
  dom := by
    intro q hq h2
    by_cases hqp : q = p
    · subst hqp
      obtain ⟨r, hr, a1, a2, a3⟩ := h.dom q hq (by omega)
      exact ⟨r, hr, a1, a2, fun i b1 b2 _ => a3 i b1 b2 (by omega)⟩
    · rw [hign q hqp] at h2
      obtain ⟨r, hr, a1, a2, a3⟩ := h.dom q hq h2
      exact ⟨r, hr, a1, a2, fun i b1 b2 b3 => a3 i b1 b2 (by rw [hign q hqp] at b3; exact b3)⟩
  own := by
    intro q hq h2
    rw [hdr]
    by_cases hqp : q = p
    · subst hqp
      exact h.own q hq (by omega)
    · rw [hign q hqp] at h2
      exact h.own q hq h2
  stair := stair_congr h.stair (fun q _ => by rw [hdr]) (by rw [hbd])

/-- The node `p`, flagged, takes over the area of its predecessor. -/
theorem li_eval_dom {sc : scene α} {m : Nat} {E : view α} {L : List Nat}
    (hc : gctx sc m E L) {xs0 : List α × (Nat → Option Nat)} {s : hv_mem α}
    {A Bd : List Nat} {p : Nat} (hL : L = A ++ p :: Bd)
    (h : li sc m E xs0 s A (A ++ [p]) Bd) (hflag : (m : Int) ≤ E.ign p)
    {A1 : List Nat} {p1 : Nat} (hA : A = A1 ++ [p1]) {hyperv : α}
    (hyp : hyperv = sc.vol (m + 1) (Function.update sc.ref m (sc.X p m)) A) :
    li sc m E xs0 ((s.setArea p m ((s.node p1).area m)).setVol p m hyperv)
      (A ++ [p]) (A ++ [p]) Bd := by
  have h2m := hc.two_lt
  have hnd : (A ++ p :: Bd).Nodup := by rw [← hL]; exact hc.nodup
  have hpA : p ∉ A := fun hh => (List.nodup_append.mp hnd).2.2 hh (by simp)
  have hp1A : p1 ∈ A := by rw [hA]; simp
  have hp1p : p1 ≠ p := fun hh => hpA (hh ▸ hp1A)
  obtain ⟨r, hrA, hrle, _⟩ := hc.dominator hL hflag
  set s' := (s.setArea p m ((s.node p1).area m)).setVol p m hyperv with hs'
  have hv : s'.view = { s.view with
      ar := Function.update s.view.ar p (Function.update (s.view.ar p) m (s.view.ar p1 m))
      vl := Function.update s.view.vl p (Function.update (s.view.vl p) m hyperv) } := by
    rw [hs', view_setVol, view_setArea]
    rfl
  have hxs : s'.xs = s.xs := by rw [hs', xs_setVol, xs_setArea]
  have havl : s'.avl = s.avl := rfl
  have hnx : s'.view.nx = s.view.nx := by rw [hv]
  have hpv : s'.view.pv = s.view.pv := by rw [hv]
  have hign : s'.view.ign = s.view.ign := by rw [hv]
  have hdr : s'.view.dr = s.view.dr := by rw [hv]
  have hbd : s'.view.bd = s.view.bd := by rw [hv]
  have har : ∀ q i, ¬ (q = p ∧ i = m) → s'.view.ar q i = s.view.ar q i := by
    intro q i hqi
    rw [hv]
    show Function.update s.view.ar p _ q i = _
    by_cases hq : q = p
    · subst hq
      rw [Function.update_same, Function.update_noteq (fun hh => hqi ⟨rfl, hh⟩)]
    · rw [Function.update_noteq hq]
  have hvl : ∀ q i, ¬ (q = p ∧ i = m) → s'.view.vl q i = s.view.vl q i := by
    intro q i hqi
    rw [hv]
    show Function.update s.view.vl p _ q i = _
    by_cases hq : q = p
    · subst hq
      rw [Function.update_same, Function.update_noteq (fun hh => hqi ⟨rfl, hh⟩)]
    · rw [Function.update_noteq hq]
  have harp : s'.view.ar p m = s.view.ar p1 m := by
    rw [hv]
    show Function.update s.view.ar p _ p m = _
    rw [Function.update_same, Function.update_same]
  have hvlp : s'.view.vl p m = hyperv := by
    rw [hv]
    show Function.update s.view.vl p _ p m = _
    rw [Function.update_same, Function.update_same]
  refine ⟨by rw [hnx]; exact h.nx, by rw [hpv]; exact h.pv,
    ⟨vinv_congr h.low.vi hnx hpv (fun q _ => by rw [hign]) (fun q _ => by rw [hdr])
      (fun i _ _ => by rw [hbd]) (by rw [hbd]) (fun q i hi => har q i (by omega))
      (fun q i hi => hvl q i (by omega)),
      stat.of_xs h.low.st hxs (fun q => by rw [havl]), by rw [havl]; exact h.low.empty⟩,
    dom_congr h.dom (fun q _ => by rw [hign]), ?_, ?_, ?_, ?_, ?_, ?_, by rw [hxs]; exact h.xs⟩
  · intro B1 q B2 e
    have hqm : q ∈ A ++ [p] := by rw [e]; simp
    rcases List.mem_append.mp hqm with h3 | h3
    · obtain ⟨W, e1, _⟩ := split_mem_left h.low.vi.nodup e h3
      have hqp : q ≠ p := fun hh => hpA (hh ▸ h3)
      have := h.all B1 q W e1
      unfold val_at at this ⊢
      rw [har q m (fun hh => hqp hh.1), hvl q m (fun hh => hqp hh.1)]
      exact this
    · simp only [List.mem_singleton] at h3
      subst h3
      have e' : A ++ q :: [] = B1 ++ q :: B2 := e
      obtain ⟨e1, _⟩ := split_unique (by simpa using h.low.vi.nodup) e'
      subst e1
      have h1 := h.all A1 p1 [] hA
      unfold val_at at h1 ⊢
      rw [harp, hvlp, h1.1, ← hA]
      exact ⟨(vol_absorb_last sc m sc.ref hrA (fun j hj => hrle j (by omega))).symm, hyp⟩
  · intro q hq
    rw [hign, hdr]
    exact h.out q (fun hh => hq (List.mem_append_left _ hh))
  · intro q i hi
    rw [har q i (by omega)]
    exact h.ar q i hi
  · intro q i hi
    rw [hvl q i (by omega)]
    exact h.vl q i hi
  · intro i hi
    rw [hbd]
    exact h.bd i hi
  · intro q hq
    rw [hign] at hq ⊢
    exact h.hi q hq

/-- The node `p`, not flagged, gets its area from the recursive call. -/
theorem li_eval_rec {sc : scene α} {m : Nat} {E : view α} {L : List Nat}
    (hc : gctx sc m E L) {xs0 : List α × (Nat → Option Nat)} {s : hv_mem α}
    {A Bd : List Nat} {p : Nat} (hL : L = A ++ p :: Bd) (hA : A ≠ [])
    {recur : hv_mem α → Nat → Option (α × hv_mem α)} (hrec : level_spec sc (m - 1) recur)
    (h : li sc m E xs0 s A (A ++ [p]) Bd) (hflag : ¬ (m : Int) ≤ E.ign p) {hyperv : α}
    (hyp : hyperv = sc.vol (m + 1) (Function.update sc.ref m (sc.X p m)) A) :
    ∃ s2, recur s (A.length + 1) = some (sc.vol m sc.ref (A ++ [p]), s2) ∧
      li sc m E xs0
        ((if ((s2.setArea p m (sc.vol m sc.ref (A ++ [p]))).node p).ignore = (m : Int) - 1
          then (s2.setArea p m (sc.vol m sc.ref (A ++ [p]))).setIgnore p (m : Int)
          else s2.setArea p m (sc.vol m sc.ref (A ++ [p]))).setVol p m hyperv)
        (A ++ [p]) (A ++ [p]) Bd := by
  have h2m := hc.two_lt
  have hmd := hc.lt_d
  have hnd : (A ++ p :: Bd).Nodup := by rw [← hL]; exact hc.nodup
  have hpA : p ∉ A := fun hh => (List.nodup_append.mp hnd).2.2 hh (by simp)
  have hpL : p ∈ L := by rw [hL]; simp
  have hm1 : m - 1 + 1 = m := by omega
  obtain ⟨s2, e2, hinv2, hfr, hxs2⟩ := hrec s (A ++ [p]) h.low (by
    rw [List.length_append, List.length_singleton]
    have := List.length_pos.mpr hA
    omega)
  rw [List.length_append, List.length_singleton, hm1] at e2
  refine ⟨s2, e2, ?_⟩
  set a := sc.vol m sc.ref (A ++ [p]) with ha
  set s3 := s2.setArea p m a with hs3
  have hv3 : s3.view = { s2.view with
      ar := Function.update s2.view.ar p (Function.update (s2.view.ar p) m a) } :=
    view_setArea s2 p m a
  have hign3 : (s3.node p).ignore = s2.view.ign p := by
    show s3.view.ign p = _
    rw [hv3]
  rw [hign3]
  have hignp : s.view.ign p = 0 := by
    rw [(h.out p hpA).1]
    exact hc.fl.zero p hpL hflag
  -- the view of the final memory
  have key : ∀ (s4 : hv_mem α) (f : Int), s4.view = { s3.view with
        ign := Function.update s3.view.ign p f } → s4.xs = s3.xs → s4.avl = s3.avl →
      (f = s2.view.ign p ∨ (s2.view.ign p = (m : Int) - 1 ∧ f = (m : Int))) →
      li sc m E xs0 (s4.setVol p m hyperv) (A ++ [p]) (A ++ [p]) Bd := by
    intro s4 f hv4 hxs4 havl4 hf
    have hfle : f ≤ (m : Int) := by
      rcases hf with hf | hf
      · by_contra hgt
        have e3 := hfr.ign_hi p (Or.inr (by rw [← hf]; omega))
        rw [hf, e3, hignp] at hgt
        omega
      · omega
    set s' := s4.setVol p m hyperv with hs'
    have hv : s'.view = { s2.view with
        ar := Function.update s2.view.ar p (Function.update (s2.view.ar p) m a)
        ign := Function.update s2.view.ign p f
        vl := Function.update s2.view.vl p (Function.update (s2.view.vl p) m hyperv) } := by
      rw [hs', view_setVol, hv4, hv3]
    have hxs : s'.xs = s2.xs := by
      rw [hs', xs_setVol, hxs4, hs3, xs_setArea]
    have havl : s'.avl = s2.avl := by
      show s4.avl = _
      rw [havl4]
      rfl
    have hnx : s'.view.nx = s2.view.nx := by rw [hv]
    have hpv : s'.view.pv = s2.view.pv := by rw [hv]
    have hdr : s'.view.dr = s2.view.dr := by rw [hv]
    have hbd : s'.view.bd = s2.view.bd := by rw [hv]
    have hign : ∀ q, q ≠ p → s'.view.ign q = s2.view.ign q := by
      intro q hq
      rw [hv]
      show Function.update s2.view.ign p f q = _
      rw [Function.update_noteq hq]
    have hignp' : s'.view.ign p = f := by
      rw [hv]
      show Function.update s2.view.ign p f p = _
      rw [Function.update_same]
    have har : ∀ q i, ¬ (q = p ∧ i = m) → s'.view.ar q i = s2.view.ar q i := by
      intro q i hqi
      rw [hv]
      show Function.update s2.view.ar p _ q i = _
      by_cases hq : q = p
      · subst hq
        rw [Function.update_same, Function.update_noteq (fun hh => hqi ⟨rfl, hh⟩)]
      · rw [Function.update_noteq hq]
    have hvl : ∀ q i, ¬ (q = p ∧ i = m) → s'.view.vl q i = s2.view.vl q i := by
      intro q i hqi
      rw [hv]
      show Function.update s2.view.vl p _ q i = _
      by_cases hq : q = p
      · subst hq
        rw [Function.update_same, Function.update_noteq (fun hh => hqi ⟨rfl, hh⟩)]
      · rw [Function.update_noteq hq]
    have harp : s'.view.ar p m = a := by
      rw [hv]
      show Function.update s2.view.ar p _ p m = _
      rw [Function.update_same, Function.update_same]
    have hvlp : s'.view.vl p m = hyperv := by
      rw [hv]
      show Function.update s2.view.vl p _ p m = _
      rw [Function.update_same, Function.update_same]
    have hvinv : vinv sc (m - 1) s'.view (A ++ [p]) := by
      rcases hf with hfe | ⟨b1, b2⟩
      · refine vinv_congr hinv2.vi hnx hpv (fun q _ => ?_) (fun q _ => by rw [hdr])
          (fun i _ _ => by rw [hbd]) (by rw [hbd]) (fun q i hi => har q i (by omega))
          (fun q i hi => hvl q i (by omega))
        by_cases hq : q = p
        · subst hq
          rw [hignp', hfe]
        · exact hign q hq
      · exact vinv_promote hinv2.vi (by omega) (by rw [b1]; omega) (by rw [hignp', b2]; omega)
          hnx hpv hign hdr hbd
          (fun q i hi => har q i (by omega)) (fun q i hi => hvl q i (by omega))
    have hdom : dom sc s'.view m (A ++ [p]) := by
      intro q hq h2
      by_cases hqp : q = p
      · subst hqp
        rw [hignp'] at h2
        have hold : 2 ≤ s2.view.ign q ∧ (∀ i : Nat, (i : Int) ≤ f → i < m → (i : Int) ≤ s2.view.ign q) := by
          rcases hf with hf | hf
          · rw [← hf]; exact ⟨h2, fun i hi _ => hi⟩
          · rw [hf.1]; exact ⟨by omega, fun i _ hi => by omega⟩
        obtain ⟨r, hr, a1, a2, a3⟩ := hinv2.vi.dom q hq hold.1
        have hb2 := a3 2 (le_refl _) (by omega) (by omega)
        have hrq : r ≠ q :=
          hb2.ne_of_nodup (List.nodup_cons.mp (hc.ok.nodup 2 (by omega))).2
        have hrA : r ∈ A := by
          rcases List.mem_append.mp hr with h3 | h3
          · exact h3
          · simp only [List.mem_singleton] at h3
            exact absurd h3 hrq
        refine ⟨r, hr, a1, a2, fun i c1 c2 c3 => ?_⟩
        rw [hignp'] at c3
        rcases Nat.lt_or_ge i m with h4 | h4
        · exact a3 i c1 (by omega) (hold.2 i c3 h4)
        · have : i = m := by omega
          subst this
          exact hc.before r q (by rw [hL]; exact Before.of_split hrA)
      · rw [hign q hqp] at h2
        have hqA : q ∈ A := by
          rcases List.mem_append.mp hq with h3 | h3
          · exact h3
          · simp only [List.mem_singleton] at h3
            exact absurd h3 hqp
        by_cases hhi : ((m - 1 : Nat) : Int) < s2.view.ign q
        · have e3 := hfr.ign_hi q (Or.inr hhi)
          rw [e3] at h2
          obtain ⟨r, hr, a1, a2, a3⟩ := h.dom q hq h2
          exact ⟨r, hr, a1, a2, fun i c1 c2 c3 => a3 i c1 c2
            (by rw [hign q hqp, e3] at c3; exact c3)⟩
        · obtain ⟨r, hr, a1, a2, a3⟩ := hinv2.vi.dom q hq h2
          exact ⟨r, hr, a1, a2, fun i c1 c2 c3 => by
            rw [hign q hqp] at c3
            exact a3 i c1 (by omega) c3⟩
    refine ⟨by rw [hnx, hfr.nx]; exact h.nx, by rw [hpv, hfr.pv]; exact h.pv,
      ⟨hvinv, stat.of_xs hinv2.st hxs (fun q => by rw [havl]), by rw [havl]; exact hinv2.empty⟩,
      hdom, ?_, ?_, ?_, ?_, ?_, ?_, by rw [hxs, hxs2]; exact h.xs⟩
    · intro B1 q B2 e
      have hqm : q ∈ A ++ [p] := by rw [e]; simp
      rcases List.mem_append.mp hqm with h3 | h3
      · obtain ⟨W, e1, _⟩ := split_mem_left h.low.vi.nodup e h3
        have hqp : q ≠ p := fun hh => hpA (hh ▸ h3)
        have := h.all B1 q W e1
        unfold val_at at this ⊢
        rw [har q m (fun hh => hqp hh.1), hvl q m (fun hh => hqp hh.1),
          hfr.ar q m (by omega), hfr.vl q m (by omega)]
        exact this
      · simp only [List.mem_singleton] at h3
        subst h3
        have e' : A ++ q :: [] = B1 ++ q :: B2 := e
        obtain ⟨e1, _⟩ := split_unique (by simpa using h.low.vi.nodup) e'
        subst e1
        unfold val_at
        rw [harp, hvlp]
        exact ⟨rfl, hyp⟩
    · intro q hq
      have hqp : q ≠ p := fun hh => hq (by rw [hh]; simp)
      rw [hign q hqp, hdr, hfr.ign_out q hq, hfr.dr_out q hq]
      exact h.out q (fun hh => hq (List.mem_append_left _ hh))
    · intro q i hi
      rw [har q i (by omega), hfr.ar q i (by omega)]
      exact h.ar q i hi
    · intro q i hi
      rw [hvl q i (by omega), hfr.vl q i (by omega)]
      exact h.vl q i hi
    · intro i hi
      rw [hbd, hfr.bd i (by omega)]
      exact h.bd i hi
    · intro q hq
      by_cases hqp : q = p
      · subst hqp
        exfalso
        rw [hignp'] at hq
        rcases hq with hq | hq
        · exact hflag (le_of_lt hq)
        · omega
      · rw [hign q hqp] at hq ⊢
        have e3 : s2.view.ign q = s.view.ign q := by
          rcases hq with hq | hq
          · have e4 := h.hi q (Or.inl hq)
            exact hfr.ign_hi q (Or.inl (by rw [e4]; omega))
          · exact hfr.ign_hi q (Or.inr (by omega))
        rw [e3] at hq ⊢
        exact h.hi q hq
  by_cases hpr : s2.view.ign p = (m : Int) - 1
  · rw [if_pos hpr]
    exact key (s3.setIgnore p (m : Int)) (m : Int) (view_setIgnore s3 p _) (xs_setIgnore s3 p _)
      rfl (Or.inr ⟨hpr, rfl⟩)
  · rw [if_neg hpr]
    refine key s3 (s2.view.ign p) ?_ rfl rfl (Or.inl rfl)
    have e5 : s3.view.ign p = s2.view.ign p := by rw [hv3]
    have e6 : Function.update s3.view.ign p (s2.view.ign p) = s3.view.ign := by
      rw [← e5]
      exact Function.update_eq_self _ _
    rw [e6]

/-! ### The loops of the general case -/

/-- Effect of the loop that resets the flags below `m` along chain `m`. -/
theorem hv_reset_spec {sc : scene α} (m : Nat) (L : List Nat)
    (hsub : ∀ p, p ∈ L → p ∈ sc.ord 0) (hnd : (0 :: L).Nodup) :
    ∀ (fuel : Nat) (s : hv_mem α) (A B : List Nat), stat sc s →
      Linked (s.view.nx m) (s.view.pv m) 0 L 0 → L = A ++ B → A.length < fuel →
      ∃ s', hv_reset m fuel s ((0 :: A).getLast (List.cons_ne_nil 0 A)) = some s' ∧
        s'.view = { s.view with
          ign := fun p => if p ∈ A ∧ s.view.ign p < (m : Int) then 0 else s.view.ign p } ∧
        s'.xs = s.xs ∧ s'.avl = s.avl
  | 0, _, _, _, _, _, _, hf => absurd hf (Nat.not_lt_zero _)
  | fuel + 1, s, A, B, hst, hl, hL, hf => by
    rcases List.eq_nil_or_concat A with hA | ⟨A0, a, hA⟩
    · subst hA
      refine ⟨s, ?_, ?_, rfl, rfl⟩
      · show hv_reset m (fuel + 1) s 0 = some s
        unfold hv_reset
        rw [hst.head_x]
      · ext
        all_goals rfl
    · rw [List.concat_eq_append] at hA
      subst hA
      have haL : a ∈ L := by rw [hL]; simp
      have e1 : (0 :: (A0 ++ [a])).getLast (List.cons_ne_nil 0 _) = a := by
        rw [List.getLast_cons (by simp), List.getLast_append_singleton]
      rw [e1]
      obtain ⟨off, hx⟩ := Option.ne_none_iff_exists'.mp (hst.x_ne (hsub a haL))
      set s1 := if (s.node a).ignore < (m : Int) then s.setIgnore a 0 else s with hs1
      have hstep : hv_reset m (fuel + 1) s a = hv_reset m fuel s1 ((s1.node a).prev m) := by
        conv_lhs => unfold hv_reset
        rw [hx]
      have hxs1 : s1.xs = s.xs := by
        rw [hs1]; split
        · exact xs_setIgnore _ _ _
        · rfl
      have havl1 : s1.avl = s.avl := by
        rw [hs1]; split <;> rfl
      have hv1 : s1.view = { s.view with
          ign := fun p => if p = a ∧ s.view.ign p < (m : Int) then 0 else s.view.ign p } := by
        rw [hs1]
        split
        · rename_i hlt
          rw [view_setIgnore]
          ext q
          any_goals rfl
          show Function.update s.view.ign a 0 q
            = if q = a ∧ s.view.ign q < (m : Int) then 0 else s.view.ign q
          by_cases hq : q = a
          · subst hq
            rw [Function.update_same, if_pos ⟨rfl, hlt⟩]
          · rw [Function.update_noteq hq, if_neg (fun hh => hq hh.1)]
        · rename_i hlt
          ext q
          any_goals rfl
          show s.view.ign q = if q = a ∧ s.view.ign q < (m : Int) then 0 else s.view.ign q
          by_cases hq : q = a
          · subst hq
            rw [if_neg (fun hh => hlt hh.2)]
          · rw [if_neg (fun hh => hq hh.1)]
      have hL' : L = A0 ++ a :: B := by rw [hL]; simp
      have hl' := hl
      rw [hL'] at hl'
      have hprev : (s1.node a).prev m = (0 :: A0).getLast (List.cons_ne_nil 0 A0) := by
        show s1.view.pv m a = _
        rw [hv1]
        exact (Linked.inner hl').1
      rw [hstep, hprev]
      have hl1 : Linked (s1.view.nx m) (s1.view.pv m) 0 L 0 := by rw [hv1]; exact hl
      obtain ⟨s', e, hv, hxs, havl⟩ := hv_reset_spec m L hsub hnd fuel s1 A0 (a :: B)
        (stat.of_xs hst hxs1 (fun q => by rw [havl1])) hl1 hL'
        (by rw [List.length_append, List.length_singleton] at hf; omega)
      refine ⟨s', e, ?_, by rw [hxs, hxs1], by rw [havl, havl1]⟩
      rw [hv, hv1]
      have haA0 : a ∉ A0 := by
        have h1 : (A0 ++ a :: B).Nodup := by rw [← hL']; exact (List.nodup_cons.mp hnd).2
        exact fun hh => (List.nodup_append.mp h1).2.2 hh (by simp)
      ext q
      any_goals rfl
      show (if q ∈ A0 ∧ (if q = a ∧ s.view.ign q < (m : Int) then 0 else s.view.ign q) < (m : Int)
          then 0 else (if q = a ∧ s.view.ign q < (m : Int) then 0 else s.view.ign q))
        = if q ∈ A0 ++ [a] ∧ s.view.ign q < (m : Int) then 0 else s.view.ign q
      by_cases hq : q = a
      · subst hq
        rw [if_neg (fun hh => haA0 hh.1)]
        by_cases hlt : s.view.ign q < (m : Int)
        · rw [if_pos ⟨rfl, hlt⟩, if_pos ⟨by simp, hlt⟩]
        · rw [if_neg (fun hh => hlt hh.2), if_neg (fun hh => hlt hh.2)]
      · have e2 : (if q = a ∧ s.view.ign q < (m : Int) then 0 else s.view.ign q) = s.view.ign q :=
          if_neg (fun hh => hq hh.1)
        rw [e2]
        by_cases hin : q ∈ A0 ∧ s.view.ign q < (m : Int)
        · rw [if_pos hin, if_pos ⟨List.mem_append_left _ hin.1, hin.2⟩]
        · rw [if_neg hin, if_neg]
          intro hh
          apply hin
          refine ⟨?_, hh.2⟩
          rcases List.mem_append.mp hh.1 with h3 | h3
          · exact h3
          · simp only [List.mem_singleton] at h3
            exact absurd h3 hq

theorem dels_top (sc : scene α) (m : Nat) (E : view α) (Bd : List Nat) :
    (E.dels sc m Bd).nx m = E.nx m ∧ (E.dels sc m Bd).pv m = E.pv m ∧
      (E.dels sc m Bd).bd m = E.bd m :=
  (dels_fields sc m E Bd).2.2.2.2.1 m (by omega)

/-- Effect of the first loop of the general case: it deletes the nodes `Bd'`
from the top of chain `m`. -/
theorem hv_delete_loop_spec {sc : scene α} {m : Nat} {E : view α} {L : List Nat}
    (hc : gctx sc m E L) :
    ∀ (fuel : Nat) (s : hv_mem α) (A Bd : List Nat) (p1 : Nat), stat sc s →
      L = A ++ p1 :: Bd → s.view = E.dels sc m Bd → A.length < fuel →
      ∃ s' A' p1' Bd',
        hv_delete_loop m fuel s ((Bd ++ [0]).head (by simp)) p1 (A.length + 1)
          = some (s', (Bd' ++ [0]).head (by simp), p1', A'.length + 1) ∧
        L = A' ++ p1' :: Bd' ∧ s'.view = E.dels sc m Bd' ∧ s'.xs = s.xs ∧ s'.avl = s.avl ∧
        (A' = [] ∨ (sc.X p1' m ≤ E.bd m ∧ ∃ A'' a, A' = A'' ++ [a] ∧ sc.X a m < E.bd m))
  | 0, _, _, _, _, _, _, _, hf => absurd hf (Nat.not_lt_zero _)
  | fuel + 1, s, A, Bd, p1, hst, hL, hv, hf => by
    rcases List.eq_nil_or_concat A with hA | ⟨A0, a, hA⟩
    · subst hA
      refine ⟨s, [], p1, Bd, ?_, hL, hv, rfl, rfl, Or.inl rfl⟩
      unfold hv_delete_loop
      simp
    · rw [List.concat_eq_append] at hA
      subst hA
      have h2m := hc.two_lt
      have hp1L : p1 ∈ L := by rw [hL]; simp
      have haL : a ∈ L := by rw [hL]; simp
      have hX1 : s.X p1 m = some (sc.X p1 m) := hst.node_x p1 (hc.sub p1 hp1L) m
      have hXa : s.X a m = some (sc.X a m) := hst.node_x a (hc.sub a haL) m
      obtain ⟨t1, t2, t3⟩ := dels_top sc m E Bd
      have hlt := hc.top
      rw [hL] at hlt
      have hprev : (s.node p1).prev m = a := by
        show s.view.pv m p1 = a
        rw [hv, t2, (Linked.inner hlt).1, List.getLast_cons (by simp),
          List.getLast_append_singleton]
      have hbd : s.bound m = E.bd m := by
        show s.view.bd m = _
        rw [hv, t3]
      have hc1 : (A0 ++ [a]).length + 1 > 1 := by
        rw [List.length_append, List.length_singleton]; omega
      by_cases hcond : sc.X p1 m > E.bd m ∨ sc.X a m ≥ E.bd m
      · -- the node is deleted
        have hdel : ∃ s1, (if (s.node p1).ignore ≥ (m : Int) then some (delete_dom s p1 m)
              else delete s p1 m) = some s1 ∧ s1.view = E.dels sc m (p1 :: Bd) ∧
              s1.xs = s.xs ∧ s1.avl = s.avl := by
          have em : 2 + (m - 2) = m := by omega
          have e : E.dels sc m (p1 :: Bd) = (E.dels sc m Bd).del sc m p1 := rfl
          by_cases hflag : (s.node p1).ignore ≥ (m : Int)
          · rw [if_pos hflag]
            obtain ⟨a1, a2, a3, _⟩ := delete_dom_go_spec p1 (m - 2) 2 s
            refine ⟨_, rfl, ?_, a2, a3⟩
            rw [e, ← hv]
            unfold view.del
            have hflag' : (m : Int) ≤ s.view.ign p1 := hflag
            rw [if_pos hflag']
            rw [em] at a1
            exact a1
          · rw [if_neg hflag]
            obtain ⟨s1, a0, a1, a2, a3⟩ := delete_go_spec p1 (sc.X p1) (m - 2) 2 s
              (fun j _ _ => hst.node_x p1 (hc.sub p1 hp1L) j)
            refine ⟨s1, a0, ?_, a2, a3⟩
            rw [e, ← hv]
            unfold view.del
            have hflag' : ¬ (m : Int) ≤ s.view.ign p1 := hflag
            rw [if_neg hflag']
            rw [em] at a1
            exact a1
        obtain ⟨s1, e1, hv1, hxs1, havl1⟩ := hdel
        have hL' : L = A0 ++ a :: (p1 :: Bd) := by rw [hL]; simp
        obtain ⟨u1, u2, u3⟩ := dels_top sc m E (p1 :: Bd)
        have hprev1 : (s1.node p1).prev m = a := by
          show s1.view.pv m p1 = a
          rw [hv1, u2, (Linked.inner hlt).1, List.getLast_cons (by simp),
            List.getLast_append_singleton]
        obtain ⟨s', A', p1', Bd', e, r1, r2, r3, r4, r5⟩ :=
          hv_delete_loop_spec hc fuel s1 A0 (p1 :: Bd) a
            (stat.of_xs hst hxs1 (fun q => by rw [havl1])) hL' hv1
            (by rw [List.length_append, List.length_singleton] at hf; omega)
        refine ⟨s', A', p1', Bd', ?_, r1, r2, by rw [r3, hxs1], by rw [r4, havl1], r5⟩
        rw [← e]
        conv_lhs => unfold hv_delete_loop
        rw [if_pos hc1, hX1]
        simp only [hprev, hXa, hbd]
        have hcb : (if sc.X p1 m > E.bd m then some true
            else some (decide (sc.X a m ≥ E.bd m))) = some true := by
          rcases hcond with h1 | h1
          · rw [if_pos h1]
          · split
            · rfl
            · simp [h1]
        rw [hcb]
        simp only [e1, hprev1]
        congr 1
        rw [List.length_append, List.length_singleton]
        rfl
      · -- the loop stops
        have hn1 : ¬ sc.X p1 m > E.bd m := fun hh => hcond (Or.inl hh)
        have hn2 : ¬ sc.X a m ≥ E.bd m := fun hh => hcond (Or.inr hh)
        refine ⟨s, A0 ++ [a], p1, Bd, ?_, hL, hv, rfl, rfl,
          Or.inr ⟨not_lt.mp hn1, A0, a, rfl, not_le.mp hn2⟩⟩
        conv_lhs => unfold hv_delete_loop
        rw [if_pos hc1, hX1]
        simp only [hprev, hXa, hbd]
        rw [if_neg hn1]
        simp [hn2]

/-- Effect of the loop that initialises the areas of the first node. -/
theorem hv_area_init_spec (ref : Nat → α) (p : Nat) (x : Nat → α) :
    ∀ (k i : Nat) (s : hv_mem α), 1 ≤ i → (∀ j, s.X p j = some (x j)) →
      s.view.ar p (i - 1) = box_volume (i - 1) ref x →
      ∃ s', hv_area_init ref p k i s = some s' ∧
        s'.view = { s.view with
          ar := fun q j => if q = p ∧ i ≤ j ∧ j < i + k then box_volume j ref x
            else s.view.ar q j } ∧
        s'.xs = s.xs ∧ s'.avl = s.avl
  | 0, i, s, _, _, _ => by
    refine ⟨s, rfl, ?_, rfl, rfl⟩
    ext q j
    any_goals rfl
    show s.view.ar q j = if q = p ∧ i ≤ j ∧ j < i + 0 then box_volume j ref x else s.view.ar q j
    rw [if_neg (by omega)]
  | k + 1, i, s, hi, hx, har => by
    set s1 := s.setArea p i ((s.node p).area (i - 1) * (ref (i - 1) - x (i - 1))) with hs1
    have hstep : hv_area_init ref p (k + 1) i s = hv_area_init ref p k (i + 1) s1 := by
      conv_lhs => unfold hv_area_init
      rw [hx (i - 1)]
    have hxs1 : s1.xs = s.xs := xs_setArea _ _ _ _
    have hv1 : s1.view = { s.view with
        ar := Function.update s.view.ar p (Function.update (s.view.ar p) i
          (box_volume i ref x)) } := by
      rw [hs1, view_setArea]
      have e1 : (s.node p).area (i - 1) = s.view.ar p (i - 1) := rfl
      have e2 : box_volume i ref x = box_volume (i - 1) ref x * (ref (i - 1) - x (i - 1)) := by
        have := box_volume_succ (i - 1) ref x
        rw [Nat.sub_add_cancel hi] at this
        exact this
      rw [e1, har, e2]
    have har1 : s1.view.ar p (i + 1 - 1) = box_volume (i + 1 - 1) ref x := by
      rw [Nat.add_sub_cancel, hv1]
      show Function.update s.view.ar p _ p i = _
      rw [Function.update_same, Function.update_same]
    obtain ⟨s', e, hv, hxs, havl⟩ := hv_area_init_spec ref p x k (i + 1) s1 (by omega)
      (fun j => by rw [X_of_xs hxs1]; exact hx j) har1
    refine ⟨s', by rw [hstep]; exact e, ?_, by rw [hxs, hxs1], by rw [havl]; rfl⟩
    rw [hv, hv1]
    ext q j
    any_goals rfl
    show (if q = p ∧ i + 1 ≤ j ∧ j < i + 1 + k then box_volume j ref x
        else Function.update s.view.ar p (Function.update (s.view.ar p) i
          (box_volume i ref x)) q j)
      = if q = p ∧ i ≤ j ∧ j < i + (k + 1) then box_volume j ref x else s.view.ar q j
    by_cases hq : q = p
    · subst hq
      rw [Function.update_same]
      by_cases hj : j = i
      · subst hj
        rw [Function.update_same, if_neg (by omega), if_pos ⟨rfl, by omega⟩]
      · rw [Function.update_noteq hj]
        by_cases h1 : i + 1 ≤ j ∧ j < i + 1 + k
        · rw [if_pos ⟨rfl, h1⟩, if_pos ⟨rfl, by omega⟩]
        · rw [if_neg (fun hh => h1 hh.2), if_neg (fun hh => h1 (by omega))]
    · rw [Function.update_noteq hq, if_neg (fun hh => hq hh.1), if_neg (fun hh => hq hh.1)]

/-- A dominator of a node of a prefix of the chain lies in the prefix. -/
theorem before_prefix {P Bd : List Nat} {r q : Nat} (hnd : (P ++ Bd).Nodup)
    (hb : Before (P ++ Bd) r q) (hq : q ∈ P) : r ∈ P := by
  obtain ⟨P1, P2, rfl⟩ := List.append_of_mem hq
  have e : (P1 ++ q :: P2) ++ Bd = P1 ++ q :: (P2 ++ Bd) := by simp
  exact List.mem_append_left _ (hb.mem_of_split hnd e)

/-- The invariant of the second loop holds when the first loop stops. -/
theorem li_after_delete {sc : scene α} {m : Nat} {E : view α} {L : List Nat}
    (hc : gctx sc m E L) {xs0 : List α × (Nat → Option Nat)} {s : hv_mem α}
    {A Bd : List Nat} {p : Nat} (hL : L = A ++ p :: Bd) (hv : s.view = E.dels sc m Bd)
    (hst : stat sc s) (hem : s.avl.tree.top = none) (hxs : s.xs = xs0)
    (hA : ∀ q, q ∈ A → sc.X q m < E.bd m) : li sc m E xs0 s A (A ++ [p]) Bd := by
  have hok := hc.ok
  have h2m := hc.two_lt
  have hmd := hc.lt_d
  have e0 : A ++ p :: Bd = (A ++ [p]) ++ Bd := by simp
  have hL' : L = (A ++ [p]) ++ Bd := by rw [hL, e0]
  have hnd : ((A ++ [p]) ++ Bd).Nodup := by rw [← hL']; exact hc.nodup
  have hsub : ∀ q, q ∈ (A ++ [p]) ++ Bd → q ∈ sc.ord 0 := by rw [← hL']; exact hc.sub
  obtain ⟨f1, f2, f3, f4, f5, f6⟩ := dels_fields sc m E Bd
  obtain ⟨lv, ls⟩ := low_dels hok m h2m (le_of_lt hmd) E Bd (A ++ [p]) hnd hsub
    (by rw [← hL']; exact hc.fl) (by rw [← hL']; exact hc.val_low) (by rw [← hL']; exact hc.stair)
  have hflag : ∀ q, q ∈ A ++ [p] → 2 ≤ E.ign q → (m : Int) ≤ E.ign q := by
    intro q hq h2
    by_contra hn
    have := hc.fl.zero q (by rw [hL']; exact List.mem_append_left _ hq) hn
    omega
  have hdom : dom sc s.view m (A ++ [p]) := by
    intro q hq h2
    rw [hv, f1] at h2
    have hqL : q ∈ L := by rw [hL']; exact List.mem_append_left _ hq
    obtain ⟨r, hrL, a1, a2, a3⟩ := hc.fl.dom q hqL (hflag q hq h2)
    refine ⟨r, before_prefix hnd (by rw [← hL']; exact hrL) hq, a1, a2, fun i b1 b2 _ => ?_⟩
    rcases Nat.lt_or_ge i m with h4 | h4
    · exact a3 i b1 h4
    · have : i = m := by omega
      subst this
      exact hc.before r q hrL
  refine ⟨by rw [hv], by rw [hv], ⟨⟨fun q hq => hsub q (List.mem_append_left _ hq),
    (List.nodup_append.mp hnd).1, ?_, ?_, dom_mono hdom (Nat.sub_le _ _), ?_, ?_⟩, hst, hem⟩,
    hdom, ?_, ?_, ?_, ?_, ?_, ?_, hxs⟩
  · intro i h1 h2
    rw [hv]
    exact linked_dels hok m E h1 (by omega) (by omega) Bd (A ++ [p]) hnd hsub
      (by rw [← hL']; exact hc.linked i h1 (by omega))
  · intro i h1 h2
    rw [hv]
    exact lv i h1 (by omega)
  · intro q hq h2
    rw [hv, f1] at h2
    rw [hv, f4]
    exact hc.fl.own q (by rw [hL']; exact List.mem_append_left _ hq) (hflag q hq h2)
  · rw [hv]
    exact ls
  · intro A1 q A2 e
    have hqA : q ∈ A := by rw [e]; simp
    have := hc.val_top A1 q (A2 ++ p :: Bd) (by rw [hL, e]; simp) (hA q hqA)
    unfold val_at at this ⊢
    rw [hv, f2, f3]
    exact this
  · intro q _
    rw [hv, f1, f4]
    exact ⟨rfl, rfl⟩
  · intro q i _
    rw [hv, f2]
  · intro q i _
    rw [hv, f3]
  · intro i hi
    rw [hv]
    exact (f5 i (by omega)).2.2
  · intro q _
    rw [hv, f1]

/-- The first node of the chain: its areas are those of its own box. -/
theorem li_first {sc : scene α} {m : Nat} {E : view α} {L : List Nat}
    (hc : gctx sc m E L) {xs0 : List α × (Nat → Option Nat)} {s s' : hv_mem α}
    {Bd : List Nat} {p : Nat} (hL : L = p :: Bd) (h : li sc m E xs0 s [] [p] Bd)
    (hnx : s'.view.nx = s.view.nx) (hpv : s'.view.pv = s.view.pv)
    (hign : s'.view.ign = s.view.ign) (hdr : s'.view.dr = s.view.dr)
    (hbd : s'.view.bd = s.view.bd)
    (har : ∀ q j, ¬ (q = p ∧ j ≤ m) → s'.view.ar q j = s.view.ar q j)
    (harp : ∀ j, 1 ≤ j → j ≤ m → s'.view.ar p j = box_volume j sc.ref (sc.X p))
    (hvl : ∀ q j, ¬ (q = p ∧ j = m) → s'.view.vl q j = s.view.vl q j)
    (hvlp : s'.view.vl p m = 0) (hxs : s'.xs = s.xs) (havl : s'.avl = s.avl) :
    li sc m E xs0 s' [p] [p] Bd := by
  have h2m := hc.two_lt
  have hmd := hc.lt_d
  have hpL : p ∈ L := by rw [hL]; simp
  have hp0 : p ∈ sc.ord 0 := hc.sub p hpL
  have hnof : ¬ (m : Int) ≤ E.ign p := by
    intro hh
    obtain ⟨r, hr, _⟩ := hc.dominator (A := []) (show L = [] ++ p :: Bd by simpa using hL) hh
    simp at hr
  have hignp : s.view.ign p = 0 := by
    rw [(h.out p (by simp)).1]
    exact hc.fl.zero p hpL hnof
  have hchain : ∀ i, i < sc.d → sc.chain i [p] = [p] := by
    intro i hi
    have hp := chain_perm hc.ok hi (List.nodup_singleton p) (by simpa using hp0)
    exact List.perm_singleton.mp hp
  have hbox : ∀ j, sc.vol j sc.ref [p] = box_volume j sc.ref (sc.X p) := fun j =>
    union_volume_singleton j sc.ref (sc.X p)
  refine ⟨by rw [hnx]; exact h.nx, by rw [hpv]; exact h.pv,
    ⟨⟨h.low.vi.sub, h.low.vi.nodup, ?_, ?_, dom_congr h.low.vi.dom (fun q _ => by rw [hign]),
      own_congr h.low.vi.own (fun q _ => by rw [hign]) (fun q _ => by rw [hdr]),
      stair_congr h.low.vi.stair (fun q _ => by rw [hdr]) (by rw [hbd])⟩,
      stat.of_xs h.low.st hxs (fun q => by rw [havl]), by rw [havl]; exact h.low.empty⟩,
    dom_congr h.dom (fun q _ => by rw [hign]), ?_, ?_, ?_, ?_, ?_, ?_, by rw [hxs]; exact h.xs⟩
  · intro i h1 h2
    rw [hnx, hpv]
    exact h.low.vi.linked i h1 h2
  · intro i h1 h2
    have hv := h.low.vi.val i h1 h2
    rw [hchain i (by omega)] at hv ⊢
    intro A1 q A2 e hlt
    have e' : [] ++ p :: [] = A1 ++ q :: A2 := e
    have hq : q = p := by
      have : q ∈ [p] := by rw [e]; simp
      simpa using this
    subst hq
    obtain ⟨e1, e2⟩ := split_unique (by simp) e'
    subst e1
    rw [hbd] at hlt
    have := hv [] q [] rfl hlt
    unfold val_at at this ⊢
    rw [harp i (by omega) (by omega), hvl q i (by omega), this.2]
    exact ⟨(hbox i).symm, rfl⟩
  · intro A1 q A2 e
    have e' : [] ++ p :: [] = A1 ++ q :: A2 := e
    have hq : q = p := by
      have : q ∈ [p] := by rw [e]; simp
      simpa using this
    subst hq
    obtain ⟨e1, e2⟩ := split_unique (by simp) e'
    subst e1
    unfold val_at
    rw [harp m (by omega) (le_refl _), hvlp]
    exact ⟨(hbox m).symm, rfl⟩
  · intro q hq
    rw [hign, hdr]
    exact h.out q (by simp)
  · intro q i hi
    rw [har q i (by omega)]
    exact h.ar q i hi
  · intro q i hi
    rw [hvl q i (by omega)]
    exact h.vl q i hi
  · intro i hi
    rw [hbd]
    exact h.bd i hi
  · intro q hq
    rw [hign] at hq ⊢
    exact h.hi q hq

/-- The volume below the next node. -/
theorem li_hyperv {sc : scene α} {m : Nat} {E : view α} {L : List Nat}
    (hc : gctx sc m E L) {xs0 : List α × (Nat → Option Nat)} {s : hv_mem α}
    {A1 Al Bd Bd' : List Nat} {p1 : Nat} (hL : L = (A1 ++ [p1]) ++ Bd)
    (h : li sc m E xs0 s (A1 ++ [p1]) Al Bd') {hyperv : α}
    (hyp : hyperv = sc.vol (m + 1) (Function.update sc.ref m (sc.X p1 m)) A1) (y : α) :
    hyperv + (s.node p1).area m * (y - sc.X p1 m)
      = sc.vol (m + 1) (Function.update sc.ref m y) (A1 ++ [p1]) := by
  have hmax : ∀ a, a ∈ A1 → sc.X a m ≤ sc.X p1 m := by
    intro a ha
    have hs := hc.sorted
    rw [hL] at hs
    exact (List.pairwise_append.mp (List.pairwise_append.mp hs).1).2.2 a ha p1 (by simp)
  have e1 : (s.node p1).area m = sc.vol m sc.ref (A1 ++ [p1]) := (h.all A1 p1 [] rfl).1
  rw [vol_slab sc m sc.ref hmax y, e1, hyp]
  ring

/-- Effect of the second loop of the general case. -/
theorem hv_reinsert_loop_spec {sc : scene α} {m : Nat} {E : view α} {L : List Nat}
    (hc : gctx sc m E L) {xs0 : List α × (Nat → Option Nat)}
    {recur : hv_mem α → Nat → Option (α × hv_mem α)} (hrec : level_spec sc (m - 1) recur) :
    ∀ (fuel : Nat) (s : hv_mem α) (A1 : List Nat) (p1 : Nat) (Bd : List Nat) (hyperv : α),
      L = (A1 ++ [p1]) ++ Bd → li sc m E xs0 s (A1 ++ [p1]) (A1 ++ [p1]) Bd →
      hyperv = sc.vol (m + 1) (Function.update sc.ref m (sc.X p1 m)) A1 → Bd.length < fuel →
      ∃ s' L1 pl hv',
        hv_reinsert_loop m recur fuel s ((Bd ++ [0]).head (by simp)) p1 (A1.length + 1) hyperv
          = some (s', pl, hv') ∧
        L = L1 ++ [pl] ∧ li sc m E xs0 s' L L [] ∧
        hv' = sc.vol (m + 1) (Function.update sc.ref m (sc.X pl m)) L1
  | 0, _, _, _, _, _, _, _, _, hf => absurd hf (Nat.not_lt_zero _)
  | fuel + 1, s, A1, p1, Bd, hyperv, hL, h, hyp, hf => by
    cases Bd with
    | nil =>
      rw [List.append_nil] at hL
      refine ⟨s, A1, p1, hyperv, ?_, hL, by rw [hL]; exact h, hyp⟩
      show hv_reinsert_loop m recur (fuel + 1) s 0 p1 (A1.length + 1) hyperv = _
      unfold hv_reinsert_loop
      rw [h.low.st.head_x]
    | cons p0 Bd' =>
      have h2m := hc.two_lt
      have hmd := hc.lt_d
      have hL2 : L = (A1 ++ [p1]) ++ p0 :: Bd' := hL
      have hp0L : p0 ∈ L := by rw [hL]; simp
      have hp1L : p1 ∈ L := by rw [hL]; simp
      have hnd : ((A1 ++ [p1]) ++ p0 :: Bd').Nodup := by rw [← hL]; exact hc.nodup
      have hp0A : p0 ∉ A1 ++ [p1] := fun hh => (List.nodup_append.mp hnd).2.2 hh (by simp)
      have hst := h.low.st
      obtain ⟨off, hx⟩ := Option.ne_none_iff_exists'.mp (hst.x_ne (hc.sub p0 hp0L))
      have hX0 : s.X p0 m = some (sc.X p0 m) := hst.node_x p0 (hc.sub p0 hp0L) m
      have hX1 : s.X p1 m = some (sc.X p1 m) := hst.node_x p1 (hc.sub p1 hp1L) m
      have hign0 : (s.node p0).ignore = E.ign p0 := (h.out p0 hp0A).1
      have em : 2 + (m - 2) = m := by omega
      set hyperv' := hyperv + (s.node p1).area m * (sc.X p0 m - sc.X p1 m) with hhv
      have hyp' : hyperv' = sc.vol (m + 1) (Function.update sc.ref m (sc.X p0 m)) (A1 ++ [p1]) :=
        li_hyperv hc hL h hyp _
      obtain ⟨q1, q2⟩ := li_pred hc hL2 h
      -- the new memory before `vol` is stored
      have hinner : ∃ s2,
          (if (s.node p0).ignore ≥ (m : Int) then
            match reinsert_dom s p0 m with
            | none => none
            | some s => some (s.setArea p0 m ((s.node p1).area m))
          else
            match reinsert s p0 m with
            | none => none
            | some s =>
              match recur s (A1.length + 1 + 1) with
              | none => none
              | some (a, s) =>
                some (if ((s.setArea p0 m a).node p0).ignore = (m : Int) - 1
                  then (s.setArea p0 m a).setIgnore p0 m else s.setArea p0 m a))
            = some s2 ∧
          li sc m E xs0 (s2.setVol p0 m hyperv') ((A1 ++ [p1]) ++ [p0]) ((A1 ++ [p1]) ++ [p0]) Bd' := by
        by_cases hflag : (s.node p0).ignore ≥ (m : Int)
        · rw [if_pos hflag]
          have hflag' : (m : Int) ≤ E.ign p0 := by rw [← hign0]; exact hflag
          obtain ⟨s1, a0, a1, a2, a3, _⟩ := reinsert_dom_go_spec p0 sc.X (m - 2) 2 s
            (fun j _ _ => hst.node_x p0 (hc.sub p0 hp0L) j)
            (fun j b1 b2 => hst.node_x _ (q2 hflag' j b1 (by omega)) j)
            (fun j b1 b2 => q1 j b1 (by omega))
          rw [em] at a1
          have e1 : reinsert_dom s p0 m = some s1 := a0
          rw [e1]
          have hli := li_reinsert_dom hc hL2 h hflag' a1 a2 a3
          exact ⟨_, rfl, li_eval_dom hc hL2 hli hflag' rfl hyp'⟩
        · rw [if_neg hflag]
          have hflag' : ¬ (m : Int) ≤ E.ign p0 := by rw [← hign0]; exact hflag
          obtain ⟨s1, a0, a1, a2, a3⟩ := reinsert_go_spec p0 (sc.X p0) (m - 2) 2 s
            (fun j _ _ => hst.node_x p0 (hc.sub p0 hp0L) j)
            (fun j b1 b2 => q1 j b1 (by omega))
          rw [em] at a1
          have e1 : reinsert s p0 m = some s1 := a0
          rw [e1]
          have hli := li_reinsert hc hL2 h hflag' a1 a2 a3
          obtain ⟨s2, e2, hli2⟩ := li_eval_rec hc hL2 (by simp) hrec hli hflag' hyp'
          have elen : (A1 ++ [p1]).length + 1 = A1.length + 1 + 1 := by
            rw [List.length_append, List.length_singleton]
          rw [elen] at e2
          simp only [e2]
          exact ⟨_, rfl, hli2⟩
      obtain ⟨s2, e2, hli2⟩ := hinner
      have hL3 : L = ((A1 ++ [p1]) ++ [p0]) ++ Bd' := by rw [hL]; simp
      have hnext : (s2.node p0).next m = (Bd' ++ [0]).head (by simp) := by
        have e3 : (s2.node p0).next m = (s2.setVol p0 m hyperv').view.nx m p0 := by
          rw [view_setVol]; rfl
        rw [e3, hli2.nx, (dels_top sc m E Bd').1]
        have hlt := hc.top
        rw [hL2] at hlt
        exact (Linked.inner hlt).2.1
      obtain ⟨s', L1, pl, hv', e, r1, r2, r3⟩ := hv_reinsert_loop_spec hc hrec fuel
        (s2.setVol p0 m hyperv') (A1 ++ [p1]) p0 Bd' hyperv' hL3 hli2 hyp'
        (by simp only [List.length_cons] at hf; omega)
      refine ⟨s', L1, pl, hv', ?_, r1, r2, r3⟩
      rw [← e]
      conv_lhs => unfold hv_reinsert_loop
      have ehead : ((p0 :: Bd') ++ [0]).head (by simp) = p0 := rfl
      simp only [ehead, hx, hX0, hX1]
      split
      · rename_i heq
        exact absurd (e2.symm.trans heq) (by simp)
      · rename_i s3 heq
        have e3 : s3 = s2 := Option.some.inj (heq.symm.trans e2)
        subst e3
        rw [hnext]
        congr 1
        rw [List.length_append, List.length_singleton]

/-- After the reset loop the chain satisfies what the two loops need. -/
theorem gctx_of_vinv {sc : scene α} (hok : sc.ok) {m : Nat} (h2m : 2 < m) (hmd : m < sc.d)
    {v : view α} {S : List Nat} (h : vinv sc m v S) :
    gctx sc m (v.reset m (sc.chain m S)) (sc.chain m S) := by
  have hmem : ∀ p, p ∈ sc.chain m S ↔ p ∈ S := fun p =>
    ⟨fun hp => (mem_chain.mp hp).2, fun hp => mem_chain.mpr ⟨(hok.mem m hmd p).mpr (h.sub p hp), hp⟩⟩
  have hnd : (sc.chain m S).Nodup := (List.nodup_cons.mp (chain_nodup hok hmd S)).2
  have hL := vinv_of_mem_iff h hmem hnd
  have hch : ∀ i, sc.chain i (sc.chain m S) = sc.chain i S := fun i =>
    chain_congr (fun p _ => hmem p)
  have hign : ∀ p, (m : Int) ≤ (v.reset m (sc.chain m S)).ign p →
      (v.reset m (sc.chain m S)).ign p = v.ign p := by
    intro p hp
    show (if p ∈ sc.chain m S ∧ v.ign p < (m : Int) then 0 else v.ign p) = v.ign p
    by_cases hc : p ∈ sc.chain m S ∧ v.ign p < (m : Int)
    · exfalso
      have e : (v.reset m (sc.chain m S)).ign p = 0 := if_pos hc
      rw [e] at hp
      omega
    · rw [if_neg hc]
  refine ⟨hok, h2m, hmd, hnd, hL.sub, fun r p hb => hb.of_filter_list, ?_, ?_,
    chain_sorted hok hmd S, ?_, ?_, ?_, ⟨?_, ?_, ?_⟩⟩
  · intro i h1 h2
    exact hL.linked i h1 (by omega)
  · have := hL.linked m (by omega) (le_refl _)
    rw [hch] at this
    exact this
  · have := hL.val m (by omega) (le_refl _)
    rw [hch] at this
    exact this
  · intro i h1 h2
    exact hL.val i h1 (by omega)
  · exact hL.stair
  · intro p hp hf
    have e := hign p hf
    rw [e] at hf
    obtain ⟨r, hr, a1, a2, a3⟩ := hL.dom p hp (by omega)
    have hb := a3 m (by omega) (le_refl _) hf
    exact ⟨r, hb.filter_of_mem (by simpa using (hmem r).mp hr) (by simpa using (hmem p).mp hp),
      a1, a2, fun i b1 b2 => a3 i b1 (by omega) (by omega)⟩
  · intro p hp hf
    have e := hign p hf
    rw [e] at hf
    exact hL.own p hp (by omega)
  · intro p hp hf
    show (if p ∈ sc.chain m S ∧ v.ign p < (m : Int) then 0 else v.ign p) = 0
    by_cases hc : p ∈ sc.chain m S ∧ v.ign p < (m : Int)
    · rw [if_pos hc]
    · exfalso
      apply hf
      have e : (v.reset m (sc.chain m S)).ign p = v.ign p := if_neg hc
      rw [e]
      have hn : ¬ v.ign p < (m : Int) := fun hh => hc ⟨hp, hh⟩
      omega

/-- The part of the general case between the two loops: the top node that
is left in the chains gets its area and its volume. -/
theorem hv_mid_spec {sc : scene α} {m : Nat} {E : view α} {L : List Nat}
    (hc : gctx sc m E L) {xs0 : List α × (Nat → Option Nat)}
    {recur : hv_mem α → Nat → Option (α × hv_mem α)} (hrec : level_spec sc (m - 1) recur)
    {s : hv_mem α} {A Bd : List Nat} {p1 : Nat} (hL : L = A ++ p1 :: Bd)
    (hv : s.view = E.dels sc m Bd) (hst : stat sc s) (hem : s.avl.tree.top = none)
    (hxs : s.xs = xs0)
    (hstop : A = [] ∨ (sc.X p1 m ≤ E.bd m ∧ ∃ A0 a, A = A0 ++ [a] ∧ sc.X a m < E.bd m)) :
    ∃ s3 hyperv,
      (if A.length + 1 > 1 then
        match s.X p1 m, s.X ((s.node p1).prev m) m with
        | some p1x, some pvx =>
          if (s.node p1).ignore ≥ (m : Int) then
            some (s.setArea p1 m ((s.node ((s.node p1).prev m)).area m),
              (s.node ((s.node p1).prev m)).vol m
                + (s.node ((s.node p1).prev m)).area m * (p1x - pvx))
          else
            match recur s (A.length + 1) with
            | none => none
            | some (a, s') =>
              some (if ((s'.setArea p1 m a).node p1).ignore = (m : Int) - 1
                  then (s'.setArea p1 m a).setIgnore p1 m else s'.setArea p1 m a,
                (s.node ((s.node p1).prev m)).vol m
                  + (s.node ((s.node p1).prev m)).area m * (p1x - pvx))
        | _, _ => none
      else
        match hv_area_init sc.ref p1 m 1 (s.setArea p1 0 1) with
        | none => none
        | some s' => some (s', 0)) = some (s3, hyperv) ∧
      li sc m E xs0 (s3.setVol p1 m hyperv) (A ++ [p1]) (A ++ [p1]) Bd ∧
      hyperv = sc.vol (m + 1) (Function.update sc.ref m (sc.X p1 m)) A := by
  have h2m := hc.two_lt
  have hp1L : p1 ∈ L := by rw [hL]; simp
  have hp10 : p1 ∈ sc.ord 0 := hc.sub p1 hp1L
  have hA : ∀ q, q ∈ A → sc.X q m < E.bd m := by
    rcases hstop with h1 | ⟨_, A0, a, h2, h3⟩
    · subst h1; simp
    · intro q hq
      subst h2
      rcases List.mem_append.mp hq with h4 | h4
      · have hs := hc.sorted
        rw [hL] at hs
        have := (List.pairwise_append.mp (List.pairwise_append.mp hs).1).2.2 q h4 a (by simp)
        exact lt_of_le_of_lt this h3
      · simp only [List.mem_singleton] at h4
        rw [h4]; exact h3
  have h0 := li_after_delete hc hL hv hst hem hxs hA
  rcases List.eq_nil_or_concat A with hAn | ⟨A0, a, hAc⟩
  · -- only one node is left
    subst hAn
    have hc1 : ¬ ([] : List Nat).length + 1 > 1 := by simp
    rw [if_neg hc1]
    set s0 := s.setArea p1 0 1 with hs0
    have hxs0 : s0.xs = s.xs := xs_setArea _ _ _ _
    have hv0 : s0.view = { s.view with
        ar := Function.update s.view.ar p1 (Function.update (s.view.ar p1) 0 1) } :=
      view_setArea s p1 0 1
    obtain ⟨s3, e3, hv3, hxs3, havl3⟩ := hv_area_init_spec sc.ref p1 (sc.X p1) m 1 s0 (le_refl _)
      (fun j => by rw [X_of_xs hxs0]; exact hst.node_x p1 hp10 j)
      (by
        rw [hv0]
        show Function.update s.view.ar p1 _ p1 0 = _
        rw [Function.update_same, Function.update_same]
        simp [box_volume])
    rw [e3]
    refine ⟨s3, 0, rfl, ?_, rfl⟩
    have hv4 : (s3.setVol p1 m 0).view = { s3.view with
        vl := Function.update s3.view.vl p1 (Function.update (s3.view.vl p1) m 0) } :=
      view_setVol s3 p1 m 0
    have har3 : ∀ q j, s3.view.ar q j = if q = p1 ∧ 1 ≤ j ∧ j < 1 + m
        then box_volume j sc.ref (sc.X p1) else s0.view.ar q j := by
      intro q j; rw [hv3]
    refine li_first hc (by simpa using hL) h0 (by rw [hv4, hv3, hv0]) (by rw [hv4, hv3, hv0])
      (by rw [hv4, hv3, hv0]) (by rw [hv4, hv3, hv0]) (by rw [hv4, hv3, hv0]) ?_ ?_ ?_ ?_
      (by rw [xs_setVol, hxs3, hxs0]) (by show s3.avl = _; rw [havl3]; rfl)
    · intro q j hqj
      rw [hv4]
      show s3.view.ar q j = _
      rw [har3, if_neg (fun hh => hqj ⟨hh.1, by omega⟩), hv0]
      show Function.update s.view.ar p1 _ q j = _
      by_cases hq : q = p1
      · subst hq
        rw [Function.update_same, Function.update_noteq (fun hh => hqj ⟨rfl, by omega⟩)]
      · rw [Function.update_noteq hq]
    · intro j h1 h2
      rw [hv4]
      show s3.view.ar p1 j = _
      rw [har3, if_pos ⟨rfl, h1, by omega⟩]
    · intro q j hqj
      rw [hv4]
      show Function.update s3.view.vl p1 _ q j = _
      have e5 : s3.view.vl = s.view.vl := by rw [hv3, hv0]
      by_cases hq : q = p1
      · subst hq
        rw [Function.update_same, Function.update_noteq (fun hh => hqj ⟨rfl, hh⟩), e5]
      · rw [Function.update_noteq hq, e5]
    · rw [hv4]
      show Function.update s3.view.vl p1 _ p1 m = _
      rw [Function.update_same, Function.update_same]
  · -- the node below the top node is valid
    rw [List.concat_eq_append] at hAc
    subst hAc
    have hc1 : (A0 ++ [a]).length + 1 > 1 := by
      rw [List.length_append, List.length_singleton]; omega
    rw [if_pos hc1]
    have haL : a ∈ L := by rw [hL]; simp
    have hlt := hc.top
    rw [hL] at hlt
    have hprev : (s.node p1).prev m = a := by
      show s.view.pv m p1 = a
      rw [hv, (dels_top sc m E Bd).2.1, (Linked.inner hlt).1, List.getLast_cons (by simp),
        List.getLast_append_singleton]
    have hX1 : s.X p1 m = some (sc.X p1 m) := hst.node_x p1 hp10 m
    have hXa : s.X a m = some (sc.X a m) := hst.node_x a (hc.sub a haL) m
    rw [hprev, hX1, hXa]
    have hL' : L = (A0 ++ [a]) ++ (p1 :: Bd) := hL
    have hvol : (s.node a).vol m
        = sc.vol (m + 1) (Function.update sc.ref m (sc.X a m)) A0 := (h0.all A0 a [] rfl).2
    have hyp := li_hyperv hc hL' h0 hvol (sc.X p1 m)
    have hign1 : (s.node p1).ignore = E.ign p1 := by
      show s.view.ign p1 = _
      rw [hv, (dels_fields sc m E Bd).1]
    by_cases hflag : (s.node p1).ignore ≥ (m : Int)
    · have hflag' : (m : Int) ≤ E.ign p1 := by rw [← hign1]; exact hflag
      simp only [if_pos hflag]
      exact ⟨_, _, rfl, li_eval_dom hc hL h0 hflag' rfl hyp, hyp⟩
    · have hflag' : ¬ (m : Int) ≤ E.ign p1 := by rw [← hign1]; exact hflag
      simp only [if_neg hflag]
      obtain ⟨s2, e2, hli2⟩ := li_eval_rec hc hL (by simp) hrec h0 hflag' hyp
      simp only [e2]
      exact ⟨_, _, rfl, hli2, hyp⟩

/-- The end of the general case: the invariant and the frame of the call. -/
theorem hv_general_final {sc : scene α} (hok : sc.ok) {m : Nat} (h2m : 2 < m) (hmd : m < sc.d)
    {s s5 : hv_mem α} {S L1 : List Nat} {pl : Nat} (hinv : inv sc m s S)
    (hL : sc.chain m S = L1 ++ [pl])
    (h : li sc m (s.view.reset m (sc.chain m S)) s.xs s5 (sc.chain m S) (sc.chain m S) [])
    {hv' : α} (hyp : hv' = sc.vol (m + 1) (Function.update sc.ref m (sc.X pl m)) L1) :
    hv' + ((s5.setBound m (sc.X pl m)).node pl).area m * (sc.ref m - sc.X pl m)
        = sc.vol (m + 1) sc.ref S ∧
      inv sc m (s5.setBound m (sc.X pl m)) S ∧
      frame m S s.view (s5.setBound m (sc.X pl m)).view ∧
      (s5.setBound m (sc.X pl m)).xs = s.xs := by
  have hc := gctx_of_vinv hok h2m hmd hinv.vi
  have hmem : ∀ p, p ∈ sc.chain m S ↔ p ∈ S := fun p =>
    ⟨fun hp => (mem_chain.mp hp).2,
      fun hp => mem_chain.mpr ⟨(hok.mem m hmd p).mpr (hinv.vi.sub p hp), hp⟩⟩
  have hperm : (sc.chain m S).Perm S := chain_perm hok hmd hinv.vi.nodup hinv.vi.sub
  set s6 := s5.setBound m (sc.X pl m) with hs6
  have hv6 : s6.view = { s5.view with bd := Function.update s5.view.bd m (sc.X pl m) } :=
    view_setBound s5 m _
  have hbd : ∀ i, i ≠ m → s6.view.bd i = s5.view.bd i := by
    intro i hi
    rw [hv6]
    exact Function.update_noteq hi _ _
  have hE : ∀ p, (s.view.reset m (sc.chain m S)).ign p
      = if p ∈ sc.chain m S ∧ s.view.ign p < (m : Int) then 0 else s.view.ign p := fun p => rfl
  have hch : ∀ i, sc.chain i (sc.chain m S) = sc.chain i S := fun i =>
    chain_congr (fun p _ => hmem p)
  refine ⟨?_, ⟨?_, stat.of_xs h.low.st rfl (fun q => rfl), h.low.empty⟩, ?_,
    by rw [hs6, xs_setBound]; exact h.xs⟩
  · have e1 : (s6.node pl).area m = (s5.node pl).area m := rfl
    rw [e1]
    have := li_hyperv hc (show sc.chain m S = (L1 ++ [pl]) ++ [] by rw [List.append_nil]; exact hL)
      (by rw [← hL]; exact h)
      hyp (sc.ref m)
    rw [this, Function.update_eq_self, ← hL]
    exact vol_perm sc _ _ hperm
  · have hvL : vinv sc m s6.view (sc.chain m S) := by
      refine ⟨h.low.vi.sub, h.low.vi.nodup, ?_, ?_, dom_congr h.dom (fun q _ => by rw [hv6]),
        own_congr h.low.vi.own (fun q _ => by rw [hv6]) (fun q _ => by rw [hv6]),
        stair_congr h.low.vi.stair (fun q _ => by rw [hv6]) (le_of_eq (hbd 2 (by omega)))⟩
      · intro i h1 h2
        rcases Nat.lt_or_ge i m with h3 | h3
        · have := h.low.vi.linked i h1 (by omega)
          rw [hv6]
          exact this
        · have : i = m := by omega
          subst this
          rw [hv6]
          show Linked (s5.view.nx i) (s5.view.pv i) 0 _ 0
          rw [h.nx, h.pv, hch]
          exact hc.top
      · intro i h1 h2
        rcases Nat.lt_or_ge i m with h3 | h3
        · exact val_congr (h.low.vi.val i h1 (by omega)) (fun q _ => by rw [hv6])
            (fun q _ => by rw [hv6]) (le_of_eq (hbd i (by omega)))
        · have : i = m := by omega
          subst this
          rw [hch]
          intro A1 q A2 e _
          have := h.all A1 q A2 e
          unfold val_at at this ⊢
          rw [hv6]
          exact this
    exact vinv_of_mem_iff hvL (fun p => (hmem p).symm) hinv.vi.nodup
  · refine ⟨by rw [hv6]; exact h.nx, by rw [hv6]; exact h.pv, ?_, ?_, ?_, ?_, ?_, ?_⟩
    · intro p i hi
      rw [hv6]
      exact h.ar p i hi
    · intro p i hi
      rw [hv6]
      exact h.vl p i hi
    · intro i hi
      rw [hbd i (by omega)]
      exact h.bd i (by omega)
    · intro p hp
      have hpL : p ∉ sc.chain m S := fun hh => hp ((hmem p).mp hh)
      rw [hv6]
      show s5.view.ign p = _
      rw [(h.out p hpL).1, hE, if_neg (fun hh => hpL hh.1)]
    · intro p hp
      have hpL : p ∉ sc.chain m S := fun hh => hp ((hmem p).mp hh)
      rw [hv6]
      exact (h.out p hpL).2
    · intro p hp
      rw [hv6] at hp ⊢
      show s5.view.ign p = s.view.ign p
      have hp' : (m : Int) < s.view.ign p ∨ (m : Int) < s5.view.ign p := hp
      have key : (m : Int) < (s.view.reset m (sc.chain m S)).ign p →
          (s.view.reset m (sc.chain m S)).ign p = s.view.ign p := by
        intro hlt
        rw [hE] at hlt ⊢
        by_cases hcnd : p ∈ sc.chain m S ∧ s.view.ign p < (m : Int)
        · rw [if_pos hcnd] at hlt; omega
        · rw [if_neg hcnd]
      rcases hp' with h1 | h1
      · have h2 : (m : Int) < (s.view.reset m (sc.chain m S)).ign p := by
          rw [hE, if_neg (fun hh => by omega)]
          exact h1
        rw [h.hi p (Or.inl h2)]
        exact key h2
      · have h2 := h.hi p (Or.inr h1)
        rw [h2]
        exact key (by rw [← h2]; exact h1)

/-- The general case `dim > stop_dimension` of `hv_recursive` meets the
contract of dimension `m` when the recursive call meets that of `m - 1`. -/
theorem hv_general_spec {sc : scene α} (hok : sc.ok) {m : Nat} (h2m : 2 < m) (hmd : m < sc.d)
    {recur : hv_mem α → Nat → Option (α × hv_mem α)} (hrec : level_spec sc (m - 1) recur)
    {fuel : Nat} (hfuel : sc.n + 2 ≤ fuel) :
    level_spec sc m (fun s c => hv_general fuel sc.ref m recur s 0 c) := by
  intro s S hinv hS
  have hc := gctx_of_vinv hok h2m hmd hinv.vi
  have hperm : (sc.chain m S).Perm S := chain_perm hok hmd hinv.vi.nodup hinv.vi.sub
  have hlen : (sc.chain m S).length = S.length := hperm.length_eq
  have hLn : (sc.chain m S).length ≤ sc.n := by
    have h1 : (sc.chain m S).length ≤ (sc.ord m).length := List.length_filter_le _ _
    have h2 : (sc.ord m).Perm (sc.ord 0) :=
      (List.perm_ext_iff_of_nodup (List.nodup_cons.mp (hok.nodup m hmd)).2
        (List.nodup_cons.mp (hok.nodup 0 (by omega))).2).mpr (hok.mem m hmd)
    have h3 := hok.len
    rw [← h2.length_eq] at h3
    omega
  have hLne : sc.chain m S ≠ [] := by
    intro hh
    rw [hh] at hperm
    rw [List.nil_perm.mp hperm] at hS
    simp at hS
  obtain ⟨A0, pl, hA0⟩ : ∃ A0 pl, sc.chain m S = A0 ++ [pl] :=
    ⟨_, _, (List.dropLast_append_getLast hLne).symm⟩
  have hlt : Linked (s.view.nx m) (s.view.pv m) 0 (sc.chain m S) 0 :=
    hinv.vi.linked m (by omega) (le_refl _)
  -- the reset loop
  obtain ⟨s1, e1, hv1, hxs1, havl1⟩ := hv_reset_spec m (sc.chain m S) hc.sub
    (chain_nodup hok hmd S) fuel s (sc.chain m S) [] hinv.st hlt (by simp) (by omega)
  have hp1 : (s.node 0).prev m = pl := by
    show s.view.pv m 0 = pl
    rw [Linked.pv_last hlt]
    simp only [hA0]
    rw [List.getLast_cons (by simp), List.getLast_append_singleton]
  have hp1' : (0 :: sc.chain m S).getLast (List.cons_ne_nil 0 _) = pl := by
    simp only [hA0]
    rw [List.getLast_cons (by simp), List.getLast_append_singleton]
  rw [hp1'] at e1
  have hst1 : stat sc s1 := stat.of_xs hinv.st hxs1 (fun q => by rw [havl1])
  -- the first loop
  have hA0' : sc.chain m S = A0 ++ pl :: [] := hA0
  obtain ⟨s2, A, p1, Bd, e2, hL, hv2, hxs2, havl2, hstop⟩ :=
    hv_delete_loop_spec hc fuel s1 A0 [] pl hst1 hA0' hv1
      (by rw [hA0, List.length_append, List.length_singleton] at hLn; omega)
  have hc0 : S.length = A0.length + 1 := by
    rw [← hlen, hA0, List.length_append, List.length_singleton]
  have hst2 : stat sc s2 := stat.of_xs hst1 hxs2 (fun q => by rw [havl2])
  -- between the loops
  obtain ⟨s3, hyperv, e3, hli3, hyp3⟩ := hv_mid_spec hc hrec hL hv2 hst2
    (by rw [havl2, havl1]; exact hinv.empty) (by rw [hxs2, hxs1]) hstop
  -- the second loop
  have hL' : sc.chain m S = (A ++ [p1]) ++ Bd := by rw [hL]; simp
  obtain ⟨s5, L1, pl', hv', e5, hL5, hli5, hyp5⟩ := hv_reinsert_loop_spec hc hrec fuel
    (s3.setVol p1 m hyperv) A p1 Bd hyperv hL' hli3 hyp3
    (by
      have : (sc.chain m S).length = A.length + 1 + Bd.length := by
        rw [hL]; simp only [List.length_append, List.length_cons]; omega
      omega)
  have hX5 : s5.X pl' m = some (sc.X pl' m) :=
    hli5.low.st.node_x pl' (hc.sub pl' (by rw [hL5]; simp)) m
  obtain ⟨r1, r2, r3, r4⟩ := hv_general_final hok h2m hmd hinv hL5 hli5 hyp5
  refine ⟨s5.setBound m (sc.X pl' m), ?_, r2, r3, r4⟩
  rw [← r1]
  show hv_general fuel sc.ref m recur s 0 S.length = _
  have e2' : hv_delete_loop m fuel s1 0 pl (A0.length + 1)
      = some (s2, (Bd ++ [0]).head (by simp), p1, A.length + 1) := e2
  unfold hv_general
  simp only [hp1, e1, hc0, e2']
  split
  · rename_i heq
    exact absurd (e3.symm.trans heq) (by simp)
  · rename_i s3' hyperv' heq
    have e6 := Option.some.inj (heq.symm.trans e3)
    have e7 : s3' = s3 := congrArg Prod.fst e6
    have e8 : hyperv' = hyperv := congrArg Prod.snd e6
    subst e7 e8
    simp only [e5, hX5]

end

/-! ## The AVL tree operations -/

section
set_option linter.unusedSectionVars false
variable {α : Type}

/-! ### Reading a field after an assignment -/

@[simp] theorem avl_next_setNext (m : avl_mem α) (i k : Nat) (v : Option Nat) :
    ((m.setNext i v).node k).next = if k = i then v else (m.node k).next := by
  unfold avl_mem.setNext avl_mem.setNode
  by_cases h : k = i
  · subst h; simp
  · simp [Function.update_noteq h, h]

@[simp] theorem avl_prev_setNext (m : avl_mem α) (i k : Nat) (v : Option Nat) :
    ((m.setNext i v).node k).prev = (m.node k).prev := by
  unfold avl_mem.setNext avl_mem.setNode
  by_cases h : k = i
  · subst h; simp
  · simp [Function.update_noteq h]

@[simp] theorem avl_parent_setNext (m : avl_mem α) (i k : Nat) (v : Option Nat) :
    ((m.setNext i v).node k).parent = (m.node k).parent := by
  unfold avl_mem.setNext avl_mem.setNode
  by_cases h : k = i
  · subst h; simp
  · simp [Function.update_noteq h]

@[simp] theorem avl_left_setNext (m : avl_mem α) (i k : Nat) (v : Option Nat) :
    ((m.setNext i v).node k).left = (m.node k).left := by
  unfold avl_mem.setNext avl_mem.setNode
  by_cases h : k = i
  · subst h; simp
  · simp [Function.update_noteq h]

@[simp] theorem avl_right_setNext (m : avl_mem α) (i k : Nat) (v : Option Nat) :
    ((m.setNext i v).node k).right = (m.node k).right := by
  unfold avl_mem.setNext avl_mem.setNode
  by_cases h : k = i
  · subst h; simp
  · simp [Function.update_noteq h]

@[simp] theorem avl_item_setNext (m : avl_mem α) (i k : Nat) (v : Option Nat) :
    ((m.setNext i v).node k).item = (m.node k).item := by
  unfold avl_mem.setNext avl_mem.setNode
  by_cases h : k = i
  · subst h; simp
  · simp [Function.update_noteq h]

@[simp] theorem avl_domr_setNext (m : avl_mem α) (i k : Nat) (v : Option Nat) :
    ((m.setNext i v).node k).domr = (m.node k).domr := by
  unfold avl_mem.setNext avl_mem.setNode
  by_cases h : k = i
  · subst h; simp
  · simp [Function.update_noteq h]

@[simp] theorem avl_depth_setNext (m : avl_mem α) (i k : Nat) (v : Option Nat) :
    ((m.setNext i v).node k).depth = (m.node k).depth := by
  unfold avl_mem.setNext avl_mem.setNode
  by_cases h : k = i
  · subst h; simp
  · simp [Function.update_noteq h]

@[simp] theorem avl_tree_setNext (m : avl_mem α) (i : Nat) (v : Option Nat) :
    (m.setNext i v).tree = m.tree := rfl

@[simp] theorem avl_next_setPrev (m : avl_mem α) (i k : Nat) (v : Option Nat) :
    ((m.setPrev i v).node k).next = (m.node k).next := by
  unfold avl_mem.setPrev avl_mem.setNode
  by_cases h : k = i
  · subst h; simp
  · simp [Function.update_noteq h]

@[simp] theorem avl_prev_setPrev (m : avl_mem α) (i k : Nat) (v : Option Nat) :
    ((m.setPrev i v).node k).prev = if k = i then v else (m.node k).prev := by
  unfold avl_mem.setPrev avl_mem.setNode
  by_cases h : k = i
  · subst h; simp
  · simp [Function.update_noteq h, h]

@[simp] theorem avl_parent_setPrev (m : avl_mem α) (i k : Nat) (v : Option Nat) :
    ((m.setPrev i v).node k).parent = (m.node k).parent := by
  unfold avl_mem.setPrev avl_mem.setNode
  by_cases h : k = i
  · subst h; simp
  · simp [Function.update_noteq h]

@[simp] theorem avl_left_setPrev (m : avl_mem α) (i k : Nat) (v : Option Nat) :
    ((m.setPrev i v).node k).left = (m.node k).left := by
  unfold avl_mem.setPrev avl_mem.setNode
  by_cases h : k = i
  · subst h; simp
  · simp [Function.update_noteq h]

@[simp] theorem avl_right_setPrev (m : avl_mem α) (i k : Nat) (v : Option Nat) :
    ((m.setPrev i v).node k).right = (m.node k).right := by
  unfold avl_mem.setPrev avl_mem.setNode
  by_cases h : k = i
  · subst h; simp
  · simp [Function.update_noteq h]

@[simp] theorem avl_item_setPrev (m : avl_mem α) (i k : Nat) (v : Option Nat) :
    ((m.setPrev i v).node k).item = (m.node k).item := by
  unfold avl_mem.setPrev avl_mem.setNode
  by_cases h : k = i
  · subst h; simp
  · simp [Function.update_noteq h]

@[simp] theorem avl_domr_setPrev (m : avl_mem α) (i k : Nat) (v : Option Nat) :
    ((m.setPrev i v).node k).domr = (m.node k).domr := by
  unfold avl_mem.setPrev avl_mem.setNode
  by_cases h : k = i
  · subst h; simp
  · simp [Function.update_noteq h]

@[simp] theorem avl_depth_setPrev (m : avl_mem α) (i k : Nat) (v : Option Nat) :
    ((m.setPrev i v).node k).depth = (m.node k).depth := by
  unfold avl_mem.setPrev avl_mem.setNode
  by_cases h : k = i
  · subst h; simp
  · simp [Function.update_noteq h]

@[simp] theorem avl_tree_setPrev (m : avl_mem α) (i : Nat) (v : Option Nat) :
    (m.setPrev i v).tree = m.tree := rfl

@[simp] theorem avl_next_setParent (m : avl_mem α) (i k : Nat) (v : Option Nat) :
    ((m.setParent i v).node k).next = (m.node k).next := by
  unfold avl_mem.setParent avl_mem.setNode
  by_cases h : k = i
  · subst h; simp
  · simp [Function.update_noteq h]

@[simp] theorem avl_prev_setParent (m : avl_mem α) (i k : Nat) (v : Option Nat) :
    ((m.setParent i v).node k).prev = (m.node k).prev := by
  unfold avl_mem.setParent avl_mem.setNode
  by_cases h : k = i
  · subst h; simp
  · simp [Function.update_noteq h]

@[simp] theorem avl_parent_setParent (m : avl_mem α) (i k : Nat) (v : Option Nat) :
    ((m.setParent i v).node k).parent = if k = i then v else (m.node k).parent := by
  unfold avl_mem.setParent avl_mem.setNode
  by_cases h : k = i
  · subst h; simp
  · simp [Function.update_noteq h, h]

@[simp] theorem avl_left_setParent (m : avl_mem α) (i k : Nat) (v : Option Nat) :
    ((m.setParent i v).node k).left = (m.node k).left := by
  unfold avl_mem.setParent avl_mem.setNode
  by_cases h : k = i
  · subst h; simp
  · simp [Function.update_noteq h]

@[simp] theorem avl_right_setParent (m : avl_mem α) (i k : Nat) (v : Option Nat) :
    ((m.setParent i v).node k).right = (m.node k).right := by
  unfold avl_mem.setParent avl_mem.setNode
  by_cases h : k = i
  · subst h; simp
  · simp [Function.update_noteq h]

@[simp] theorem avl_item_setParent (m : avl_mem α) (i k : Nat) (v : Option Nat) :
    ((m.setParent i v).node k).item = (m.node k).item := by
  unfold avl_mem.setParent avl_mem.setNode
  by_cases h : k = i
  · subst h; simp
  · simp [Function.update_noteq h]

@[simp] theorem avl_domr_setParent (m : avl_mem α) (i k : Nat) (v : Option Nat) :
    ((m.setParent i v).node k).domr = (m.node k).domr := by
  unfold avl_mem.setParent avl_mem.setNode
  by_cases h : k = i
  · subst h; simp
  · simp [Function.update_noteq h]

@[simp] theorem avl_depth_setParent (m : avl_mem α) (i k : Nat) (v : Option Nat) :
    ((m.setParent i v).node k).depth = (m.node k).depth := by
  unfold avl_mem.setParent avl_mem.setNode
  by_cases h : k = i
  · subst h; simp
  · simp [Function.update_noteq h]

@[simp] theorem avl_tree_setParent (m : avl_mem α) (i : Nat) (v : Option Nat) :
    (m.setParent i v).tree = m.tree := rfl

@[simp] theorem avl_next_setLeft (m : avl_mem α) (i k : Nat) (v : Option Nat) :
    ((m.setLeft i v).node k).next = (m.node k).next := by
  unfold avl_mem.setLeft avl_mem.setNode
  by_cases h : k = i
  · subst h; simp
  · simp [Function.update_noteq h]

@[simp] theorem avl_prev_setLeft (m : avl_mem α) (i k : Nat) (v : Option Nat) :
    ((m.setLeft i v).node k).prev = (m.node k).prev := by
  unfold avl_mem.setLeft avl_mem.setNode
  by_cases h : k = i
  · subst h; simp
  · simp [Function.update_noteq h]

@[simp] theorem avl_parent_setLeft (m : avl_mem α) (i k : Nat) (v : Option Nat) :
    ((m.setLeft i v).node k).parent = (m.node k).parent := by
  unfold avl_mem.setLeft avl_mem.setNode
  by_cases h : k = i
  · subst h; simp
  · simp [Function.update_noteq h]

@[simp] theorem avl_left_setLeft (m : avl_mem α) (i k : Nat) (v : Option Nat) :
    ((m.setLeft i v).node k).left = if k = i then v else (m.node k).left := by
  unfold avl_mem.setLeft avl_mem.setNode
  by_cases h : k = i
  · subst h; simp
  · simp [Function.update_noteq h, h]

@[simp] theorem avl_right_setLeft (m : avl_mem α) (i k : Nat) (v : Option Nat) :
    ((m.setLeft i v).node k).right = (m.node k).right := by
  unfold avl_mem.setLeft avl_mem.setNode
  by_cases h : k = i
  · subst h; simp
  · simp [Function.update_noteq h]

@[simp] theorem avl_item_setLeft (m : avl_mem α) (i k : Nat) (v : Option Nat) :
    ((m.setLeft i v).node k).item = (m.node k).item := by
  unfold avl_mem.setLeft avl_mem.setNode
  by_cases h : k = i
  · subst h; simp
  · simp [Function.update_noteq h]

@[simp] theorem avl_domr_setLeft (m : avl_mem α) (i k : Nat) (v : Option Nat) :
    ((m.setLeft i v).node k).domr = (m.node k).domr := by
  unfold avl_mem.setLeft avl_mem.setNode
  by_cases h : k = i
  · subst h; simp
  · simp [Function.update_noteq h]

@[simp] theorem avl_depth_setLeft (m : avl_mem α) (i k : Nat) (v : Option Nat) :
    ((m.setLeft i v).node k).depth = (m.node k).depth := by
  unfold avl_mem.setLeft avl_mem.setNode
  by_cases h : k = i
  · subst h; simp
  · simp [Function.update_noteq h]

@[simp] theorem avl_tree_setLeft (m : avl_mem α) (i : Nat) (v : Option Nat) :
    (m.setLeft i v).tree = m.tree := rfl

@[simp] theorem avl_next_setRight (m : avl_mem α) (i k : Nat) (v : Option Nat) :
    ((m.setRight i v).node k).next = (m.node k).next := by
  unfold avl_mem.setRight avl_mem.setNode
  by_cases h : k = i
  · subst h; simp
  · simp [Function.update_noteq h]

@[simp] theorem avl_prev_setRight (m : avl_mem α) (i k : Nat) (v : Option Nat) :
    ((m.setRight i v).node k).prev = (m.node k).prev := by
  unfold avl_mem.setRight avl_mem.setNode
  by_cases h : k = i
  · subst h; simp
  · simp [Function.update_noteq h]

@[simp] theorem avl_parent_setRight (m : avl_mem α) (i k : Nat) (v : Option Nat) :
    ((m.setRight i v).node k).parent = (m.node k).parent := by
  unfold avl_mem.setRight avl_mem.setNode
  by_cases h : k = i
  · subst h; simp
  · simp [Function.update_noteq h]

@[simp] theorem avl_left_setRight (m : avl_mem α) (i k : Nat) (v : Option Nat) :
    ((m.setRight i v).node k).left = (m.node k).left := by
  unfold avl_mem.setRight avl_mem.setNode
  by_cases h : k = i
  · subst h; simp
  · simp [Function.update_noteq h]

@[simp] theorem avl_right_setRight (m : avl_mem α) (i k : Nat) (v : Option Nat) :
    ((m.setRight i v).node k).right = if k = i then v else (m.node k).right := by
  unfold avl_mem.setRight avl_mem.setNode
  by_cases h : k = i
  · subst h; simp
  · simp [Function.update_noteq h, h]

@[simp] theorem avl_item_setRight (m : avl_mem α) (i k : Nat) (v : Option Nat) :
    ((m.setRight i v).node k).item = (m.node k).item := by
  unfold avl_mem.setRight avl_mem.setNode
  by_cases h : k = i
  · subst h; simp
  · simp [Function.update_noteq h]

@[simp] theorem avl_domr_setRight (m : avl_mem α) (i k : Nat) (v : Option Nat) :
    ((m.setRight i v).node k).domr = (m.node k).domr := by
  unfold avl_mem.setRight avl_mem.setNode
  by_cases h : k = i
  · subst h; simp
  · simp [Function.update_noteq h]

@[simp] theorem avl_depth_setRight (m : avl_mem α) (i k : Nat) (v : Option Nat) :
    ((m.setRight i v).node k).depth = (m.node k).depth := by
  unfold avl_mem.setRight avl_mem.setNode
  by_cases h : k = i
  · subst h; simp
  · simp [Function.update_noteq h]

@[simp] theorem avl_tree_setRight (m : avl_mem α) (i : Nat) (v : Option Nat) :
    (m.setRight i v).tree = m.tree := rfl

@[simp] theorem avl_next_setDepth (m : avl_mem α) (i k : Nat) (v : Nat) :
    ((m.setDepth i v).node k).next = (m.node k).next := by
  unfold avl_mem.setDepth avl_mem.setNode
  by_cases h : k = i
  · subst h; simp
  · simp [Function.update_noteq h]

@[simp] theorem avl_prev_setDepth (m : avl_mem α) (i k : Nat) (v : Nat) :
    ((m.setDepth i v).node k).prev = (m.node k).prev := by
  unfold avl_mem.setDepth avl_mem.setNode
  by_cases h : k = i
  · subst h; simp
  · simp [Function.update_noteq h]

@[simp] theorem avl_parent_setDepth (m : avl_mem α) (i k : Nat) (v : Nat) :
    ((m.setDepth i v).node k).parent = (m.node k).parent := by
  unfold avl_mem.setDepth avl_mem.setNode
  by_cases h : k = i
  · subst h; simp
  · simp [Function.update_noteq h]

@[simp] theorem avl_left_setDepth (m : avl_mem α) (i k : Nat) (v : Nat) :
    ((m.setDepth i v).node k).left = (m.node k).left := by
  unfold avl_mem.setDepth avl_mem.setNode
  by_cases h : k = i
  · subst h; simp
  · simp [Function.update_noteq h]

@[simp] theorem avl_right_setDepth (m : avl_mem α) (i k : Nat) (v : Nat) :
    ((m.setDepth i v).node k).right = (m.node k).right := by
  unfold avl_mem.setDepth avl_mem.setNode
  by_cases h : k = i
  · subst h; simp
  · simp [Function.update_noteq h]

@[simp] theorem avl_item_setDepth (m : avl_mem α) (i k : Nat) (v : Nat) :
    ((m.setDepth i v).node k).item = (m.node k).item := by
  unfold avl_mem.setDepth avl_mem.setNode
  by_cases h : k = i
  · subst h; simp
  · simp [Function.update_noteq h]

@[simp] theorem avl_domr_setDepth (m : avl_mem α) (i k : Nat) (v : Nat) :
    ((m.setDepth i v).node k).domr = (m.node k).domr := by
  unfold avl_mem.setDepth avl_mem.setNode
  by_cases h : k = i
  · subst h; simp
  · simp [Function.update_noteq h]

@[simp] theorem avl_depth_setDepth (m : avl_mem α) (i k : Nat) (v : Nat) :
    ((m.setDepth i v).node k).depth = if k = i then v else (m.node k).depth := by
  unfold avl_mem.setDepth avl_mem.setNode
  by_cases h : k = i
  · subst h; simp
  · simp [Function.update_noteq h, h]

@[simp] theorem avl_tree_setDepth (m : avl_mem α) (i : Nat) (v : Nat) :
    (m.setDepth i v).tree = m.tree := rfl

@[simp] theorem avl_next_setDomr (m : avl_mem α) (i k : Nat) (v : α) :
    ((m.setDomr i v).node k).next = (m.node k).next := by
  unfold avl_mem.setDomr avl_mem.setNode
  by_cases h : k = i
  · subst h; simp
  · simp [Function.update_noteq h]

@[simp] theorem avl_prev_setDomr (m : avl_mem α) (i k : Nat) (v : α) :
    ((m.setDomr i v).node k).prev = (m.node k).prev := by
  unfold avl_mem.setDomr avl_mem.setNode
  by_cases h : k = i
  · subst h; simp
  · simp [Function.update_noteq h]

@[simp] theorem avl_parent_setDomr (m : avl_mem α) (i k : Nat) (v : α) :
    ((m.setDomr i v).node k).parent = (m.node k).parent := by
  unfold avl_mem.setDomr avl_mem.setNode
  by_cases h : k = i
  · subst h; simp
  · simp [Function.update_noteq h]

@[simp] theorem avl_left_setDomr (m : avl_mem α) (i k : Nat) (v : α) :
    ((m.setDomr i v).node k).left = (m.node k).left := by
  unfold avl_mem.setDomr avl_mem.setNode
  by_cases h : k = i
  · subst h; simp
  · simp [Function.update_noteq h]

@[simp] theorem avl_right_setDomr (m : avl_mem α) (i k : Nat) (v : α) :
    ((m.setDomr i v).node k).right = (m.node k).right := by
  unfold avl_mem.setDomr avl_mem.setNode
  by_cases h : k = i
  · subst h; simp
  · simp [Function.update_noteq h]

@[simp] theorem avl_item_setDomr (m : avl_mem α) (i k : Nat) (v : α) :
    ((m.setDomr i v).node k).item = (m.node k).item := by
  unfold avl_mem.setDomr avl_mem.setNode
  by_cases h : k = i
  · subst h; simp
  · simp [Function.update_noteq h]

@[simp] theorem avl_domr_setDomr (m : avl_mem α) (i k : Nat) (v : α) :
    ((m.setDomr i v).node k).domr = if k = i then v else (m.node k).domr := by
  unfold avl_mem.setDomr avl_mem.setNode
  by_cases h : k = i
  · subst h; simp
  · simp [Function.update_noteq h, h]

@[simp] theorem avl_depth_setDomr (m : avl_mem α) (i k : Nat) (v : α) :
    ((m.setDomr i v).node k).depth = (m.node k).depth := by
  unfold avl_mem.setDomr avl_mem.setNode
  by_cases h : k = i
  · subst h; simp
  · simp [Function.update_noteq h]

@[simp] theorem avl_tree_setDomr (m : avl_mem α) (i : Nat) (v : α) :
    (m.setDomr i v).tree = m.tree := rfl

@[simp] theorem avl_next_setItem (m : avl_mem α) (i k : Nat) (v : Nat → α) :
    ((m.setItem i v).node k).next = (m.node k).next := by
  unfold avl_mem.setItem avl_mem.setNode
  by_cases h : k = i
  · subst h; simp
  · simp [Function.update_noteq h]

@[simp] theorem avl_prev_setItem (m : avl_mem α) (i k : Nat) (v : Nat → α) :
    ((m.setItem i v).node k).prev = (m.node k).prev := by
  unfold avl_mem.setItem avl_mem.setNode
  by_cases h : k = i
  · subst h; simp
  · simp [Function.update_noteq h]

@[simp] theorem avl_parent_setItem (m : avl_mem α) (i k : Nat) (v : Nat → α) :
    ((m.setItem i v).node k).parent = (m.node k).parent := by
  unfold avl_mem.setItem avl_mem.setNode
  by_cases h : k = i
  · subst h; simp
  · simp [Function.update_noteq h]

@[simp] theorem avl_left_setItem (m : avl_mem α) (i k : Nat) (v : Nat → α) :
    ((m.setItem i v).node k).left = (m.node k).left := by
  unfold avl_mem.setItem avl_mem.setNode
  by_cases h : k = i
  · subst h; simp
  · simp [Function.update_noteq h]

@[simp] theorem avl_right_setItem (m : avl_mem α) (i k : Nat) (v : Nat → α) :
    ((m.setItem i v).node k).right = (m.node k).right := by
  unfold avl_mem.setItem avl_mem.setNode
  by_cases h : k = i
  · subst h; simp
  · simp [Function.update_noteq h]

@[simp] theorem avl_item_setItem (m : avl_mem α) (i k : Nat) (v : Nat → α) :
    ((m.setItem i v).node k).item = if k = i then v else (m.node k).item := by
  unfold avl_mem.setItem avl_mem.setNode
  by_cases h : k = i
  · subst h; simp
  · simp [Function.update_noteq h, h]

@[simp] theorem avl_domr_setItem (m : avl_mem α) (i k : Nat) (v : Nat → α) :
    ((m.setItem i v).node k).domr = (m.node k).domr := by
  unfold avl_mem.setItem avl_mem.setNode
  by_cases h : k = i
  · subst h; simp
  · simp [Function.update_noteq h]

@[simp] theorem avl_depth_setItem (m : avl_mem α) (i k : Nat) (v : Nat → α) :
    ((m.setItem i v).node k).depth = (m.node k).depth := by
  unfold avl_mem.setItem avl_mem.setNode
  by_cases h : k = i
  · subst h; simp
  · simp [Function.update_noteq h]

@[simp] theorem avl_tree_setItem (m : avl_mem α) (i : Nat) (v : Nat → α) :
    (m.setItem i v).tree = m.tree := rfl

/-! ### Basic facts -/

theorem root_mem {t : tr} {k : Nat} (h : t.root = some k) : k ∈ t.inorder := by
  cases t with
  | nil => simp [tr.root] at h
  | node l x r =>
    simp only [tr.root, Option.some.injEq] at h
    subst h
    simp [tr.inorder]

theorem root_ne_of_not_mem {t : tr} {k : Nat} (h : k ∉ t.inorder) : t.root ≠ some k :=
  fun hh => h (root_mem hh)

theorem keeps_refl (m : avl_mem α) : keeps m m :=
  ⟨fun _ => ⟨rfl, rfl, rfl, rfl⟩, rfl, rfl⟩

theorem keeps_trans {m1 m2 m3 : avl_mem α} (h1 : keeps m1 m2) (h2 : keeps m2 m3) :
    keeps m1 m3 := by
  refine ⟨fun k => ?_, h2.2.1.trans h1.2.1, h2.2.2.trans h1.2.2⟩
  obtain ⟨a1, a2, a3, a4⟩ := h1.1 k
  obtain ⟨b1, b2, b3, b4⟩ := h2.1 k
  exact ⟨b1.trans a1, b2.trans a2, b3.trans a3, b4.trans a4⟩

/-- Transfer of `rep` to a memory that agrees on the pointers of the tree,
the parent of the root being replaced. -/
theorem rep_of_agree {m m' : avl_mem α} :
    ∀ {t : tr} {par par' : Option Nat}, rep m t par → t.inorder.Nodup →
      (∀ k, k ∈ t.inorder → (m'.node k).left = (m.node k).left ∧
        (m'.node k).right = (m.node k).right) →
      (∀ k, k ∈ t.inorder → t.root ≠ some k → (m'.node k).parent = (m.node k).parent) →
      (∀ k, t.root = some k → (m'.node k).parent = par') → rep m' t par'
  | .nil, _, _, _, _, _, _, _ => trivial
  | .node l x r, par, par', h, hnd, hlr, hp, hroot => by
    obtain ⟨h1, h2, h3, h4, h5⟩ := h
    simp only [tr.inorder] at hnd hlr hp
    have hxl : x ∉ l.inorder := fun hh => (List.nodup_append.mp hnd).2.2 hh (by simp)
    have hxr : x ∉ r.inorder := (List.nodup_cons.mp (List.nodup_append.mp hnd).2.1).1
    have hndl : l.inorder.Nodup := (List.nodup_append.mp hnd).1
    have hndr : r.inorder.Nodup := (List.nodup_cons.mp (List.nodup_append.mp hnd).2.1).2
    have hne : ∀ k, k ∈ l.inorder ∨ k ∈ r.inorder → (tr.node l x r).root ≠ some k := by
      intro k hk hh
      simp only [tr.root, Option.some.injEq] at hh
      subst hh
      rcases hk with hk | hk
      · exact hxl hk
      · exact hxr hk
    refine ⟨hroot x rfl, ?_, ?_, ?_, ?_⟩
    · rw [(hlr x (by simp)).1]; exact h2
    · rw [(hlr x (by simp)).2]; exact h3
    · refine rep_of_agree h4 hndl (fun k hk => hlr k (by simp [hk]))
        (fun k hk _ => hp k (by simp [hk]) (hne k (Or.inl hk))) (fun k hk => ?_)
      have hkl := root_mem hk
      rw [hp k (by simp [hkl]) (hne k (Or.inl hkl))]
      cases l with
      | nil => simp [tr.root] at hk
      | node ll y lr =>
        simp only [tr.root, Option.some.injEq] at hk
        subst hk
        exact h4.1
    · refine rep_of_agree h5 hndr (fun k hk => hlr k (by simp [hk]))
        (fun k hk _ => hp k (by simp [hk]) (hne k (Or.inr hk))) (fun k hk => ?_)
      have hkl := root_mem hk
      rw [hp k (by simp [hkl]) (hne k (Or.inr hkl))]
      cases r with
      | nil => simp [tr.root] at hk
      | node ll y lr =>
        simp only [tr.root, Option.some.injEq] at hk
        subst hk
        exact h5.1

/-- Transfer of `rep` to a memory that agrees on all pointers of the tree. -/
theorem rep_congr {m m' : avl_mem α} {t : tr} {par : Option Nat} (h : rep m t par)
    (hnd : t.inorder.Nodup)
    (hag : ∀ k, k ∈ t.inorder → (m'.node k).left = (m.node k).left ∧
      (m'.node k).right = (m.node k).right ∧ (m'.node k).parent = (m.node k).parent) :
    rep m' t par := by
  refine rep_of_agree h hnd (fun k hk => ⟨(hag k hk).1, (hag k hk).2.1⟩)
    (fun k hk _ => (hag k hk).2.2) (fun k hk => ?_)
  rw [(hag k (root_mem hk)).2.2]
  cases t with
  | nil => simp [tr.root] at hk
  | node l x r =>
    simp only [tr.root, Option.some.injEq] at hk
    subst hk
    exact h.1

/-- Transfer of `crep` to a memory that agrees on all pointers of the path. -/
theorem crep_congr {m m' : avl_mem α} :
    ∀ {c : List frm} {h : Option Nat}, crep m c h → (ckeys c).Nodup →
      (∀ k, k ∈ ckeys c → (m'.node k).left = (m.node k).left ∧
        (m'.node k).right = (m.node k).right ∧ (m'.node k).parent = (m.node k).parent) →
      m'.tree.top = m.tree.top → crep m' c h
  | [], _, hc, _, _, ht => by
    show m'.tree.top = _
    rw [ht]; exact hc
  | frm.L x r :: c, h, hc, hnd, hag, ht => by
    obtain ⟨h1, h2, h3, h4, h5⟩ := hc
    simp only [ckeys] at hnd hag
    have hnd1 : (r.inorder ++ ckeys c).Nodup := (List.nodup_cons.mp hnd).2
    obtain ⟨a1, a2, a3⟩ := hag x (by simp)
    exact ⟨by rw [a1]; exact h1, by rw [a2]; exact h2, by rw [a3]; exact h3,
      rep_congr h4 (List.nodup_append.mp hnd1).1 (fun k hk => hag k (by simp [hk])),
      crep_congr h5 (List.nodup_append.mp hnd1).2.1 (fun k hk => hag k (by simp [hk])) ht⟩
  | frm.R l x :: c, h, hc, hnd, hag, ht => by
    obtain ⟨h1, h2, h3, h4, h5⟩ := hc
    simp only [ckeys] at hnd hag
    have hnd1 : (l.inorder ++ ckeys c).Nodup := (List.nodup_cons.mp hnd).2
    obtain ⟨a1, a2, a3⟩ := hag x (by simp)
    exact ⟨by rw [a2]; exact h1, by rw [a1]; exact h2, by rw [a3]; exact h3,
      rep_congr h4 (List.nodup_append.mp hnd1).1 (fun k hk => hag k (by simp [hk])),
      crep_congr h5 (List.nodup_append.mp hnd1).2.1 (fun k hk => hag k (by simp [hk])) ht⟩

/-- Transfer of `crep` to a memory that agrees on the pointers of the path,
except for the pointer to the hole. -/
theorem crep_hole {m m' : avl_mem α} {c : List frm} {h h' : Option Nat} (hc : crep m c h)
    (hnd : (ckeys c).Nodup)
    (hp : ∀ k, k ∈ ckeys c → (m'.node k).parent = (m.node k).parent)
    (hlr : ∀ k, k ∈ ckeys c → cpar c ≠ some k → (m'.node k).left = (m.node k).left ∧
        (m'.node k).right = (m.node k).right)
    (htop : c ≠ [] → m'.tree.top = m.tree.top)
    (ht : match c with
        | [] => m'.tree.top = h'
        | frm.L k _ :: _ => (m'.node k).left = h' ∧ (m'.node k).right = (m.node k).right
        | frm.R _ k :: _ => (m'.node k).right = h' ∧ (m'.node k).left = (m.node k).left) :
    crep m' c h' := by
  cases c with
  | nil => exact ht
  | cons f c =>
    cases f with
    | L x r =>
      obtain ⟨h1, h2, h3, h4, h5⟩ := hc
      simp only [ckeys] at hnd hp hlr
      have hnd1 : (r.inorder ++ ckeys c).Nodup := (List.nodup_cons.mp hnd).2
      have hx : x ∉ r.inorder ++ ckeys c := (List.nodup_cons.mp hnd).1
      have hne : ∀ k, k ∈ r.inorder ++ ckeys c → cpar (frm.L x r :: c) ≠ some k := by
        intro k hk hh
        simp only [cpar, Option.some.injEq] at hh
        subst hh
        exact hx hk
      have hag : ∀ k, k ∈ r.inorder ++ ckeys c → (m'.node k).left = (m.node k).left ∧
          (m'.node k).right = (m.node k).right ∧ (m'.node k).parent = (m.node k).parent :=
        fun k hk => ⟨(hlr k (by simp at hk; simp [hk]) (hne k hk)).1,
          (hlr k (by simp at hk; simp [hk]) (hne k hk)).2, hp k (by simp at hk; simp [hk])⟩
      exact ⟨ht.1, by rw [ht.2]; exact h2, by rw [hp x (by simp)]; exact h3,
        rep_congr h4 (List.nodup_append.mp hnd1).1 (fun k hk => hag k (by simp [hk])),
        crep_congr h5 (List.nodup_append.mp hnd1).2.1 (fun k hk => hag k (by simp [hk]))
          (htop (by simp))⟩
    | R l x =>
      obtain ⟨h1, h2, h3, h4, h5⟩ := hc
      simp only [ckeys] at hnd hp hlr
      have hnd1 : (l.inorder ++ ckeys c).Nodup := (List.nodup_cons.mp hnd).2
      have hx : x ∉ l.inorder ++ ckeys c := (List.nodup_cons.mp hnd).1
      have hne : ∀ k, k ∈ l.inorder ++ ckeys c → cpar (frm.R l x :: c) ≠ some k := by
        intro k hk hh
        simp only [cpar, Option.some.injEq] at hh
        subst hh
        exact hx hk
      have hag : ∀ k, k ∈ l.inorder ++ ckeys c → (m'.node k).left = (m.node k).left ∧
          (m'.node k).right = (m.node k).right ∧ (m'.node k).parent = (m.node k).parent :=
        fun k hk => ⟨(hlr k (by simp at hk; simp [hk]) (hne k hk)).1,
          (hlr k (by simp at hk; simp [hk]) (hne k hk)).2, hp k (by simp at hk; simp [hk])⟩
      exact ⟨ht.1, by rw [ht.2]; exact h2, by rw [hp x (by simp)]; exact h3,
        rep_congr h4 (List.nodup_append.mp hnd1).1 (fun k hk => hag k (by simp [hk])),
        crep_congr h5 (List.nodup_append.mp hnd1).2.1 (fun k hk => hag k (by simp [hk]))
          (htop (by simp))⟩

/-! ### Paths -/

theorem plug_append (c1 c2 : List frm) (t : tr) : plug (c1 ++ c2) t = plug c2 (plug c1 t) := by
  induction c1 generalizing t with
  | nil => rfl
  | cons f c ih => cases f <;> simp [plug, ih]

theorem plug_inorder (c : List frm) (t : tr) :
    (plug c t).inorder = cleft c ++ t.inorder ++ cright c := by
  induction c generalizing t with
  | nil => simp [plug, cleft, cright]
  | cons f c ih => cases f <;> simp [plug, cleft, cright, ih, tr.inorder]

theorem plug_inorder_congr (c : List frm) {t1 t2 : tr} (h : t1.inorder = t2.inorder) :
    (plug c t1).inorder = (plug c t2).inorder := by
  rw [plug_inorder, plug_inorder, h]

theorem ckeys_count (c : List frm) (x : Nat) :
    (ckeys c).count x = (cleft c).count x + (cright c).count x := by
  induction c with
  | nil => simp [ckeys, cleft, cright]
  | cons f c ih =>
    cases f <;> simp [ckeys, cleft, cright, ih, List.count_append, List.count_cons] <;> omega

theorem plug_perm (c : List frm) (t : tr) : (plug c t).inorder.Perm (t.inorder ++ ckeys c) := by
  rw [List.perm_iff_count]
  intro x
  rw [plug_inorder]
  simp only [List.count_append, ckeys_count]
  omega

theorem mem_ckeys {c : List frm} {x : Nat} : x ∈ ckeys c ↔ x ∈ cleft c ∨ x ∈ cright c := by
  have h := ckeys_count c x
  rw [← List.count_pos_iff, ← List.count_pos_iff, ← List.count_pos_iff]
  omega

theorem cpar_mem {c : List frm} {x : Nat} (h : cpar c = some x) : x ∈ ckeys c := by
  cases c with
  | nil => simp [cpar] at h
  | cons f c =>
    cases f <;> simp only [cpar, Option.some.injEq] at h <;> subst h <;> simp [ckeys]

theorem rspine_append {c1 c2 : List frm} (h1 : rspine c1) (h2 : rspine c2) :
    rspine (c1 ++ c2) := by
  induction c1 with
  | nil => exact h2
  | cons f c ih =>
    cases f with
    | L k r => exact h1.elim
    | R l k => exact ih h1

theorem cright_of_rspine {c : List frm} (h : rspine c) : cright c = [] := by
  induction c with
  | nil => rfl
  | cons f c ih =>
    cases f with
    | L k r => exact h.elim
    | R l k => exact ih h

theorem rep_plug {m : avl_mem α} : ∀ (c : List frm) (t : tr),
    (rep m (plug c t) none ∧ m.tree.top = (plug c t).root) ↔
      (rep m t (cpar c) ∧ crep m c t.root)
  | [], t => Iff.rfl
  | frm.L k r :: c, t => by
    show (rep m (plug c (tr.node t k r)) none ∧ m.tree.top = (plug c (tr.node t k r)).root) ↔ _
    rw [rep_plug c]
    simp only [rep, crep, cpar, tr.root]
    tauto
  | frm.R l k :: c, t => by
    show (rep m (plug c (tr.node l k t)) none ∧ m.tree.top = (plug c (tr.node l k t)).root) ↔ _
    rw [rep_plug c]
    simp only [rep, crep, cpar, tr.root]
    tauto

theorem exists_plug : ∀ {t : tr} {k : Nat}, k ∈ t.inorder →
    ∃ c l r, t = plug c (tr.node l k r)
  | .nil, k, h => by simp [tr.inorder] at h
  | .node l x r, k, h => by
    simp only [tr.inorder, List.mem_append, List.mem_cons] at h
    rcases h with h | h | h
    · obtain ⟨c, a, b, e⟩ := exists_plug h
      exact ⟨c ++ [frm.L x r], a, b, by rw [plug_append, ← e]; rfl⟩
    · subst h
      exact ⟨[], l, r, rfl⟩
    · obtain ⟨c, a, b, e⟩ := exists_plug h
      exact ⟨c ++ [frm.R l x], a, b, by rw [plug_append, ← e]; rfl⟩

theorem exists_rightmost : ∀ (l : tr), l ≠ tr.nil →
    ∃ c a s, l = plug c (tr.node a s tr.nil) ∧ rspine c
  | .nil, h => absurd rfl h
  | .node a x .nil, _ => ⟨[], a, x, rfl, trivial⟩
  | .node a x (.node b y d), _ => by
    obtain ⟨c, a', s, e, hs⟩ := exists_rightmost (tr.node b y d) (by simp)
    exact ⟨c ++ [frm.R a x], a', s, by rw [plug_append, ← e]; rfl,
      rspine_append hs trivial⟩

theorem root_eq_none {t : tr} (h : t.root = none) : t = tr.nil := by
  cases t with
  | nil => rfl
  | node l k r => simp [tr.root] at h

theorem root_eq_some {t : tr} {k : Nat} (h : t.root = some k) : ∃ l r, t = tr.node l k r := by
  cases t with
  | nil => simp [tr.root] at h
  | node l x r =>
    simp only [tr.root, Option.some.injEq] at h
    subst h
    exact ⟨l, r, rfl⟩

/-! ### Threads -/

theorem headOr_append (A B : List Nat) (q : Option Nat) :
    headOr (A ++ B) q = headOr A (headOr B q) := by
  cases A <;> rfl

theorem lastOr_append (A B : List Nat) (p : Option Nat) :
    lastOr (A ++ B) p = lastOr B (lastOr A p) := by
  induction A generalizing p with
  | nil => rfl
  | cons x A ih => exact ih (some x)

theorem lastOr_mem : ∀ {A : List Nat} {p : Option Nat} {x : Nat}, lastOr A p = some x →
    x ∈ A ∨ (A = [] ∧ p = some x)
  | [], _, _, h => Or.inr ⟨rfl, h⟩
  | a :: A, _, x, h => by
    rcases @lastOr_mem A (some a) x h with h1 | ⟨_, h2⟩
    · exact Or.inl (List.mem_cons_of_mem _ h1)
    · simp only [Option.some.injEq] at h2
      subst h2
      exact Or.inl (List.mem_cons_self _ _)

theorem lastOr_cons_ne (a : Nat) (A : List Nat) (p : Option Nat) : lastOr (a :: A) p ≠ none := by
  induction A generalizing a p with
  | nil => simp [lastOr]
  | cons b A ih => exact ih b (some a)

theorem lastOr_irrel {A : List Nat} (h : A ≠ []) (p q : Option Nat) : lastOr A p = lastOr A q := by
  cases A with
  | nil => exact absurd rfl h
  | cons a A => rfl

theorem thr_append {m : avl_mem α} : ∀ (A B : List Nat) (p q : Option Nat),
    thr m p (A ++ B) q ↔ thr m p A (headOr B q) ∧ thr m (lastOr A p) B q
  | [], B, p, q => by simp [thr, lastOr]
  | x :: A, B, p, q => by
    show (_ ∧ (m.node x).next = headOr (A ++ B) q ∧ thr m (some x) (A ++ B) q) ↔
      (_ ∧ _ ∧ thr m (some x) A (headOr B q)) ∧ _
    rw [thr_append A B, headOr_append]
    simp only [lastOr]
    tauto

theorem thr_congr {m m' : avl_mem α} : ∀ {T : List Nat} {p q : Option Nat}, thr m p T q →
    (∀ x, x ∈ T → (m'.node x).prev = (m.node x).prev ∧ (m'.node x).next = (m.node x).next) →
    thr m' p T q
  | [], _, _, _, _ => trivial
  | x :: T, p, q, h, hag => by
    obtain ⟨h1, h2, h3⟩ := h
    exact ⟨by rw [(hag x (by simp)).1]; exact h1, by rw [(hag x (by simp)).2]; exact h2,
      thr_congr h3 (fun y hy => hag y (by simp [hy]))⟩

/-- Redirecting the `next` pointer of the last node of a thread. -/
theorem thr_end {m m' : avl_mem α} : ∀ {T : List Nat} {p q : Option Nat} (q' : Option Nat),
    thr m p T q → T.Nodup →
    (∀ x, x ∈ T → (m'.node x).prev = (m.node x).prev) →
    (∀ x, x ∈ T → lastOr T none ≠ some x → (m'.node x).next = (m.node x).next) →
    (∀ x, lastOr T none = some x → (m'.node x).next = q') → thr m' p T q'
  | [], _, _, _, _, _, _, _, _ => trivial
  | [x], p, q, q', h, _, hp, _, hl => by
    obtain ⟨h1, _, _⟩ := h
    exact ⟨by rw [hp x (by simp)]; exact h1, hl x rfl, trivial⟩
  | x :: y :: T, p, q, q', h, hnd, hp, hn, hl => by
    obtain ⟨h1, h2, h3⟩ := h
    have hx : lastOr (x :: y :: T) none ≠ some x := by
      intro hh
      have h4 : lastOr (y :: T) (some x) = some x := hh
      rcases lastOr_mem h4 with h5 | ⟨h5, _⟩
      · exact (List.nodup_cons.mp hnd).1 h5
      · simp at h5
    refine ⟨by rw [hp x (by simp)]; exact h1, by rw [hn x (by simp) hx]; exact h2, ?_⟩
    exact thr_end q' h3 (List.nodup_cons.mp hnd).2 (fun z hz => hp z (by simp [hz]))
      (fun z hz hne => hn z (by simp [hz]) hne) (fun z hz => hl z hz)

/-- Redirecting the `prev` pointer of the first node of a thread. -/
theorem thr_start {m m' : avl_mem α} {T : List Nat} {p q : Option Nat} (p' : Option Nat)
    (h : thr m p T q) (hnd : T.Nodup)
    (hn : ∀ x, x ∈ T → (m'.node x).next = (m.node x).next)
    (hp : ∀ x, x ∈ T → headOr T none ≠ some x → (m'.node x).prev = (m.node x).prev)
    (hf : ∀ x, headOr T none = some x → (m'.node x).prev = p') : thr m' p' T q := by
  cases T with
  | nil => trivial
  | cons x T =>
    obtain ⟨h1, h2, h3⟩ := h
    refine ⟨hf x rfl, by rw [hn x (by simp)]; exact h2, ?_⟩
    refine thr_congr h3 (fun y hy => ⟨hp y (by simp [hy]) ?_, hn y (by simp [hy])⟩)
    intro hh
    simp only [headOr, Option.some.injEq] at hh
    subst hh
    exact (List.nodup_cons.mp hnd).1 hy

/-! ### Unchanged pointers -/

theorem rep_same {m m' : avl_mem α}
    (h : ∀ k, (m'.node k).left = (m.node k).left ∧ (m'.node k).right = (m.node k).right ∧
      (m'.node k).parent = (m.node k).parent) :
    ∀ {t : tr} {par : Option Nat}, rep m t par → rep m' t par
  | .nil, _, _ => trivial
  | .node l x r, par, hr => by
    obtain ⟨h1, h2, h3, h4, h5⟩ := hr
    obtain ⟨a1, a2, a3⟩ := h x
    exact ⟨by rw [a3]; exact h1, by rw [a1]; exact h2, by rw [a2]; exact h3,
      rep_same h h4, rep_same h h5⟩

theorem crep_same {m m' : avl_mem α}
    (h : ∀ k, (m'.node k).left = (m.node k).left ∧ (m'.node k).right = (m.node k).right ∧
      (m'.node k).parent = (m.node k).parent) (ht : m'.tree.top = m.tree.top) :
    ∀ {c : List frm} {p : Option Nat}, crep m c p → crep m' c p
  | [], _, hc => by
    show m'.tree.top = _
    rw [ht]; exact hc
  | frm.L x r :: c, _, hc => by
    obtain ⟨h1, h2, h3, h4, h5⟩ := hc
    obtain ⟨a1, a2, a3⟩ := h x
    exact ⟨by rw [a1]; exact h1, by rw [a2]; exact h2, by rw [a3]; exact h3,
      rep_same h h4, crep_same h ht h5⟩
  | frm.R l x :: c, _, hc => by
    obtain ⟨h1, h2, h3, h4, h5⟩ := hc
    obtain ⟨a1, a2, a3⟩ := h x
    exact ⟨by rw [a2]; exact h1, by rw [a1]; exact h2, by rw [a3]; exact h3,
      rep_same h h4, crep_same h ht h5⟩

/-! ### Reading a field after a conditional assignment -/

@[simp] theorem avl_next_setParentOpt (m : avl_mem α) (o v : Option Nat) (k : Nat) :
    ((m.setParentOpt o v).node k).next = (m.node k).next := by
  cases o <;> simp [avl_mem.setParentOpt]

@[simp] theorem avl_prev_setParentOpt (m : avl_mem α) (o v : Option Nat) (k : Nat) :
    ((m.setParentOpt o v).node k).prev = (m.node k).prev := by
  cases o <;> simp [avl_mem.setParentOpt]

@[simp] theorem avl_parent_setParentOpt (m : avl_mem α) (o v : Option Nat) (k : Nat) :
    ((m.setParentOpt o v).node k).parent = if o = some k then v else (m.node k).parent := by
  cases o with
  | none => simp [avl_mem.setParentOpt]
  | some i =>
    by_cases h : k = i
    · subst h; simp [avl_mem.setParentOpt]
    · have h2 : ¬ i = k := fun hh => h hh.symm
      simp [avl_mem.setParentOpt, h, h2]

@[simp] theorem avl_left_setParentOpt (m : avl_mem α) (o v : Option Nat) (k : Nat) :
    ((m.setParentOpt o v).node k).left = (m.node k).left := by
  cases o <;> simp [avl_mem.setParentOpt]

@[simp] theorem avl_right_setParentOpt (m : avl_mem α) (o v : Option Nat) (k : Nat) :
    ((m.setParentOpt o v).node k).right = (m.node k).right := by
  cases o <;> simp [avl_mem.setParentOpt]

@[simp] theorem avl_item_setParentOpt (m : avl_mem α) (o v : Option Nat) (k : Nat) :
    ((m.setParentOpt o v).node k).item = (m.node k).item := by
  cases o <;> simp [avl_mem.setParentOpt]

@[simp] theorem avl_domr_setParentOpt (m : avl_mem α) (o v : Option Nat) (k : Nat) :
    ((m.setParentOpt o v).node k).domr = (m.node k).domr := by
  cases o <;> simp [avl_mem.setParentOpt]

@[simp] theorem avl_depth_setParentOpt (m : avl_mem α) (o v : Option Nat) (k : Nat) :
    ((m.setParentOpt o v).node k).depth = (m.node k).depth := by
  cases o <;> simp [avl_mem.setParentOpt]

@[simp] theorem avl_tree_setParentOpt (m : avl_mem α) (o v : Option Nat) :
    (m.setParentOpt o v).tree = m.tree := by
  cases o <;> simp [avl_mem.setParentOpt]

@[simp] theorem avl_next_setSuper (m : avl_mem α) (par v : Option Nat) (b : Bool) (k : Nat) :
    ((m.setSuper par b v).node k).next = (m.node k).next := by
  cases par with
  | none => simp [avl_mem.setSuper]
  | some i => cases b <;> simp [avl_mem.setSuper]

@[simp] theorem avl_prev_setSuper (m : avl_mem α) (par v : Option Nat) (b : Bool) (k : Nat) :
    ((m.setSuper par b v).node k).prev = (m.node k).prev := by
  cases par with
  | none => simp [avl_mem.setSuper]
  | some i => cases b <;> simp [avl_mem.setSuper]

@[simp] theorem avl_parent_setSuper (m : avl_mem α) (par v : Option Nat) (b : Bool) (k : Nat) :
    ((m.setSuper par b v).node k).parent = (m.node k).parent := by
  cases par with
  | none => simp [avl_mem.setSuper]
  | some i => cases b <;> simp [avl_mem.setSuper]

@[simp] theorem avl_left_setSuper (m : avl_mem α) (par v : Option Nat) (b : Bool) (k : Nat) :
    ((m.setSuper par b v).node k).left =
      if par = some k ∧ b = true then v else (m.node k).left := by
  cases par with
  | none => simp [avl_mem.setSuper]
  | some i =>
    by_cases h : k = i
    · subst h; cases b <;> simp [avl_mem.setSuper]
    · have h2 : ¬ i = k := fun hh => h hh.symm
      cases b <;> simp [avl_mem.setSuper, h, h2]

@[simp] theorem avl_right_setSuper (m : avl_mem α) (par v : Option Nat) (b : Bool) (k : Nat) :
    ((m.setSuper par b v).node k).right =
      if par = some k ∧ b = false then v else (m.node k).right := by
  cases par with
  | none => simp [avl_mem.setSuper]
  | some i =>
    by_cases h : k = i
    · subst h; cases b <;> simp [avl_mem.setSuper]
    · have h2 : ¬ i = k := fun hh => h hh.symm
      cases b <;> simp [avl_mem.setSuper, h, h2]

@[simp] theorem avl_item_setSuper (m : avl_mem α) (par v : Option Nat) (b : Bool) (k : Nat) :
    ((m.setSuper par b v).node k).item = (m.node k).item := by
  cases par with
  | none => simp [avl_mem.setSuper]
  | some i => cases b <;> simp [avl_mem.setSuper]

@[simp] theorem avl_domr_setSuper (m : avl_mem α) (par v : Option Nat) (b : Bool) (k : Nat) :
    ((m.setSuper par b v).node k).domr = (m.node k).domr := by
  cases par with
  | none => simp [avl_mem.setSuper]
  | some i => cases b <;> simp [avl_mem.setSuper]

@[simp] theorem avl_depth_setSuper (m : avl_mem α) (par v : Option Nat) (b : Bool) (k : Nat) :
    ((m.setSuper par b v).node k).depth = (m.node k).depth := by
  cases par with
  | none => simp [avl_mem.setSuper]
  | some i => cases b <;> simp [avl_mem.setSuper]

@[simp] theorem avl_top_setSuper (m : avl_mem α) (par v : Option Nat) (b : Bool) :
    (m.setSuper par b v).tree.top = if par = none then v else m.tree.top := by
  cases par with
  | none => simp [avl_mem.setSuper]
  | some i => cases b <;> simp [avl_mem.setSuper]

@[simp] theorem avl_head_setSuper (m : avl_mem α) (par v : Option Nat) (b : Bool) :
    (m.setSuper par b v).tree.head = m.tree.head := by
  cases par with
  | none => simp [avl_mem.setSuper]
  | some i => cases b <;> simp [avl_mem.setSuper]

@[simp] theorem avl_tail_setSuper (m : avl_mem α) (par v : Option Nat) (b : Bool) :
    (m.setSuper par b v).tree.tail = m.tree.tail := by
  cases par with
  | none => simp [avl_mem.setSuper]
  | some i => cases b <;> simp [avl_mem.setSuper]

/-! ### The rotations, pointer by pointer -/

theorem step_ll {m : avl_mem α} {k ch : Nat} (hbal : avl_check_balance m k = -1)
    (hleft : (m.node k).left = some ch) (hd : L_DEPTH m ch ≥ R_DEPTH m ch) :
    ∃ m1 isL, avl_rebalance_step m k = some (m1, (m.node k).parent) ∧
      side m (m.node k).parent k isL ∧ keeps m m1 ∧
      (∀ j, (m1.node j).left =
        if (m.node k).parent = some j ∧ isL = true then some ch
        else if j = k then (m.node ch).right else (m.node j).left) ∧
      (∀ j, (m1.node j).right =
        if (m.node k).parent = some j ∧ isL = false then some ch
        else if j = ch then some k else (m.node j).right) ∧
      (∀ j, (m1.node j).parent =
        if j = ch then (m.node k).parent else if j = k then some ch
        else if (m.node ch).right = some j then some k else (m.node j).parent) ∧
      m1.tree.top = (if (m.node k).parent = none then some ch else m.tree.top) := by
  rcases hpar : (m.node k).parent with _ | p
  · unfold avl_rebalance_step
    simp only [hbal, hleft, hpar, if_true, hd]
    exact ⟨_, false, rfl, by intro p hp; simp at hp,
      ⟨fun j => by simp, by simp, by simp⟩, fun j => by simp, fun j => by simp,
      fun j => by simp, by simp⟩
  · unfold avl_rebalance_step
    simp only [hbal, hleft, hpar, if_true, hd]
    exact ⟨_, decide ((m.node p).left = some k), rfl,
      by intro q hq; simp only [Option.some.injEq] at hq; subst hq; simp,
      ⟨fun j => by simp, by simp, by simp⟩, fun j => by simp, fun j => by simp,
      fun j => by simp, by simp⟩

theorem step_lr {m : avl_mem α} {k ch gch : Nat} (hbal : avl_check_balance m k = -1)
    (hleft : (m.node k).left = some ch) (hd : ¬ L_DEPTH m ch ≥ R_DEPTH m ch)
    (hright : (m.node ch).right = some gch) (h1 : k ≠ ch) (h2 : k ≠ gch) (h3 : ch ≠ gch) :
    ∃ m1 isL, avl_rebalance_step m k = some (m1, (m.node k).parent) ∧
      side m (m.node k).parent k isL ∧ keeps m m1 ∧
      (∀ j, (m1.node j).left =
        if (m.node k).parent = some j ∧ isL = true then some gch
        else if j = gch then some ch
        else if j = k then (m.node gch).right else (m.node j).left) ∧
      (∀ j, (m1.node j).right =
        if (m.node k).parent = some j ∧ isL = false then some gch
        else if j = gch then some k
        else if j = ch then (m.node gch).left else (m.node j).right) ∧
      (∀ j, (m1.node j).parent =
        if j = gch then (m.node k).parent else if j = ch then some gch
        else if j = k then some gch
        else if (m.node gch).left = some j then some ch
        else if (m.node gch).right = some j then some k else (m.node j).parent) ∧
      m1.tree.top = (if (m.node k).parent = none then some gch else m.tree.top) := by
  have h1' : ¬ ch = k := fun h => h1 h.symm
  have h2' : ¬ gch = k := fun h => h2 h.symm
  have h3' : ¬ gch = ch := fun h => h3 h.symm
  rcases hpar : (m.node k).parent with _ | p
  · unfold avl_rebalance_step
    simp only [hbal, hleft, hpar, if_true, hd, hright, if_false]
    exact ⟨_, false, rfl, by intro p hp; simp at hp,
      ⟨fun j => by simp, by simp, by simp⟩, fun j => by simp [h1, h2, h3, h1', h2', h3'],
      fun j => by simp [h1, h2, h3, h1', h2', h3'],
      fun j => by simp [h1, h2, h3, h1', h2', h3', @eq_comm _ ch j, @eq_comm _ k j], by simp⟩
  · unfold avl_rebalance_step
    simp only [hbal, hleft, hpar, if_true, hd, hright, if_false]
    exact ⟨_, decide ((m.node p).left = some k), rfl,
      by intro q hq; simp only [Option.some.injEq] at hq; subst hq; simp,
      ⟨fun j => by simp, by simp, by simp⟩, fun j => by simp [h1, h2, h3, h1', h2', h3'],
      fun j => by simp [h1, h2, h3, h1', h2', h3'],
      fun j => by simp [h1, h2, h3, h1', h2', h3', @eq_comm _ ch j, @eq_comm _ k j], by simp⟩

theorem step_rr {m : avl_mem α} {k ch : Nat} (hbal : avl_check_balance m k = 1)
    (hright : (m.node k).right = some ch) (hd : R_DEPTH m ch ≥ L_DEPTH m ch) :
    ∃ m1 isL, avl_rebalance_step m k = some (m1, (m.node k).parent) ∧
      side m (m.node k).parent k isL ∧ keeps m m1 ∧
      (∀ j, (m1.node j).left =
        if (m.node k).parent = some j ∧ isL = true then some ch
        else if j = ch then some k else (m.node j).left) ∧
      (∀ j, (m1.node j).right =
        if (m.node k).parent = some j ∧ isL = false then some ch
        else if j = k then (m.node ch).left else (m.node j).right) ∧
      (∀ j, (m1.node j).parent =
        if j = ch then (m.node k).parent else if j = k then some ch
        else if (m.node ch).left = some j then some k else (m.node j).parent) ∧
      m1.tree.top = (if (m.node k).parent = none then some ch else m.tree.top) := by
  have hne : ¬ ((1 : Int) = -1) := by decide
  rcases hpar : (m.node k).parent with _ | p
  · unfold avl_rebalance_step
    simp only [hbal, hright, hpar, if_true, hd, hne, if_false]
    exact ⟨_, false, rfl, by intro p hp; simp at hp,
      ⟨fun j => by simp, by simp, by simp⟩, fun j => by simp, fun j => by simp,
      fun j => by simp, by simp⟩
  · unfold avl_rebalance_step
    simp only [hbal, hright, hpar, if_true, hd, hne, if_false]
    exact ⟨_, decide ((m.node p).left = some k), rfl,
      by intro q hq; simp only [Option.some.injEq] at hq; subst hq; simp,
      ⟨fun j => by simp, by simp, by simp⟩, fun j => by simp, fun j => by simp,
      fun j => by simp, by simp⟩

theorem step_rl {m : avl_mem α} {k ch gch : Nat} (hbal : avl_check_balance m k = 1)
    (hright : (m.node k).right = some ch) (hd : ¬ R_DEPTH m ch ≥ L_DEPTH m ch)
    (hleft : (m.node ch).left = some gch) (h1 : k ≠ ch) (h2 : k ≠ gch) (h3 : ch ≠ gch) :
    ∃ m1 isL, avl_rebalance_step m k = some (m1, (m.node k).parent) ∧
      side m (m.node k).parent k isL ∧ keeps m m1 ∧
      (∀ j, (m1.node j).left =
        if (m.node k).parent = some j ∧ isL = true then some gch
        else if j = gch then some k
        else if j = ch then (m.node gch).right else (m.node j).left) ∧
      (∀ j, (m1.node j).right =
        if (m.node k).parent = some j ∧ isL = false then some gch
        else if j = gch then some ch
        else if j = k then (m.node gch).left else (m.node j).right) ∧
      (∀ j, (m1.node j).parent =
        if j = gch then (m.node k).parent else if j = ch then some gch
        else if j = k then some gch
        else if (m.node gch).right = some j then some ch
        else if (m.node gch).left = some j then some k else (m.node j).parent) ∧
      m1.tree.top = (if (m.node k).parent = none then some gch else m.tree.top) := by
  have hne : ¬ ((1 : Int) = -1) := by decide
  have h1' : ¬ ch = k := fun h => h1 h.symm
  have h2' : ¬ gch = k := fun h => h2 h.symm
  have h3' : ¬ gch = ch := fun h => h3 h.symm
  rcases hpar : (m.node k).parent with _ | p
  · unfold avl_rebalance_step
    simp only [hbal, hleft, hpar, if_true, hd, hright, hne, if_false]
    exact ⟨_, false, rfl, by intro p hp; simp at hp,
      ⟨fun j => by simp, by simp, by simp⟩, fun j => by simp [h1, h2, h3, h1', h2', h3'],
      fun j => by simp [h1, h2, h3, h1', h2', h3'],
      fun j => by simp [h1, h2, h3, h1', h2', h3', @eq_comm _ ch j, @eq_comm _ k j], by simp⟩
  · unfold avl_rebalance_step
    simp only [hbal, hleft, hpar, if_true, hd, hright, hne, if_false]
    exact ⟨_, decide ((m.node p).left = some k), rfl,
      by intro q hq; simp only [Option.some.injEq] at hq; subst hq; simp,
      ⟨fun j => by simp, by simp, by simp⟩, fun j => by simp [h1, h2, h3, h1', h2', h3'],
      fun j => by simp [h1, h2, h3, h1', h2', h3'],
      fun j => by simp [h1, h2, h3, h1', h2', h3', @eq_comm _ ch j, @eq_comm _ k j], by simp⟩

theorem step_none {m : avl_mem α} {k : Nat} (h1 : avl_check_balance m k ≠ -1)
    (h2 : avl_check_balance m k ≠ 1) :
    avl_rebalance_step m k = some (m.setDepth k (CALC_DEPTH m k), (m.node k).parent) := by
  unfold avl_rebalance_step
  simp only [h1, h2, if_false]

theorem bal_left {m : avl_mem α} {k : Nat} (h : avl_check_balance m k = -1) :
    ∃ ch, (m.node k).left = some ch := by
  unfold avl_check_balance at h
  rcases hl : (m.node k).left with _ | ch
  · exfalso
    have h0 : L_DEPTH m k = 0 := by simp [L_DEPTH, NODE_DEPTH, hl]
    simp only [h0] at h
    split_ifs at h
    omega
  · exact ⟨ch, rfl⟩

theorem bal_right {m : avl_mem α} {k : Nat} (h : avl_check_balance m k = 1) :
    ∃ ch, (m.node k).right = some ch := by
  unfold avl_check_balance at h
  rcases hl : (m.node k).right with _ | ch
  · exfalso
    have h0 : R_DEPTH m k = 0 := by simp [R_DEPTH, NODE_DEPTH, hl]
    simp only [h0] at h
    split_ifs at h <;> omega
  · exact ⟨ch, rfl⟩

theorem depth_right {m : avl_mem α} {k : Nat} (h : ¬ L_DEPTH m k ≥ R_DEPTH m k) :
    ∃ ch, (m.node k).right = some ch := by
  rcases hl : (m.node k).right with _ | ch
  · exfalso
    have h0 : R_DEPTH m k = 0 := by simp [R_DEPTH, NODE_DEPTH, hl]
    omega
  · exact ⟨ch, rfl⟩

theorem depth_left {m : avl_mem α} {k : Nat} (h : ¬ R_DEPTH m k ≥ L_DEPTH m k) :
    ∃ ch, (m.node k).left = some ch := by
  rcases hl : (m.node k).left with _ | ch
  · exfalso
    have h0 : L_DEPTH m k = 0 := by simp [L_DEPTH, NODE_DEPTH, hl]
    omega
  · exact ⟨ch, rfl⟩

/-! ### Counting occurrences -/

theorem count_cons_single (x j : Nat) (l : List Nat) :
    (x :: l).count j = [x].count j + l.count j := by
  simp only [List.count_cons, List.count_nil]
  omega

theorem cnt_mem {X : List Nat} {j : Nat} (h : j ∈ X) : 0 < X.count j :=
  List.count_pos_iff.mpr h

theorem cnt_self (j : Nat) : [j].count j = 1 := by simp

theorem not_mem_of_cnt {X : List Nat} {j : Nat} (h : X.count j = 0) : j ∉ X :=
  fun hh => by have := cnt_mem hh; omega

theorem ne_of_cnt {x j : Nat} (h : [x].count j = 0) : j ≠ x := by
  intro e
  subst e
  simp at h

theorem ne_of_cnt' {x j : Nat} (h : [x].count j = 0) : x ≠ j :=
  fun e => ne_of_cnt h e.symm

/-! ### The pointer to the hole -/

theorem crep_super {m m' : avl_mem α} {c : List frm} {k : Nat} {h' : Option Nat} {isL : Bool}
    (hc : crep m c (some k)) (hk : k ∉ ckeys c) (hnd : (ckeys c).Nodup)
    (hs : side m (cpar c) k isL)
    (hl : ∀ j, j ∈ ckeys c → (m'.node j).left =
      if cpar c = some j ∧ isL = true then h' else (m.node j).left)
    (hr : ∀ j, j ∈ ckeys c → (m'.node j).right =
      if cpar c = some j ∧ isL = false then h' else (m.node j).right)
    (hp : ∀ j, j ∈ ckeys c → (m'.node j).parent = (m.node j).parent)
    (ht : m'.tree.top = if cpar c = none then h' else m.tree.top) : crep m' c h' := by
  refine crep_hole hc hnd hp ?_ ?_ ?_
  · intro j hj hne
    rw [hl j hj, hr j hj, if_neg (fun h => hne h.1), if_neg (fun h => hne h.1)]
    exact ⟨rfl, rfl⟩
  · intro hne
    rw [ht]
    cases c with
    | nil => exact absurd rfl hne
    | cons f c => cases f <;> simp [cpar]
  · cases c with
    | nil =>
      show m'.tree.top = h'
      rw [ht]; simp [cpar]
    | cons f c =>
      cases f with
      | L x r =>
        obtain ⟨h1, h2, h3, h4, h5⟩ := hc
        have hL : isL = true := (hs x rfl).mpr h1
        have e1 := hl x (by simp [ckeys])
        have e2 := hr x (by simp [ckeys])
        simp only [cpar, hL, and_self, if_true, true_and] at e1 e2
        show (m'.node x).left = h' ∧ (m'.node x).right = (m.node x).right
        exact ⟨e1, by simpa using e2⟩
      | R l x =>
        obtain ⟨h1, h2, h3, h4, h5⟩ := hc
        have hL : isL = false := by
          cases hb : isL with
          | false => rfl
          | true =>
            exfalso
            have h6 := (hs x rfl).mp hb
            rw [h2] at h6
            exact hk (by simp [ckeys, root_mem h6])
        have e1 := hl x (by simp [ckeys])
        have e2 := hr x (by simp [ckeys])
        simp only [cpar, hL, and_self, if_true, true_and] at e1 e2
        show (m'.node x).right = h' ∧ (m'.node x).left = (m.node x).left
        exact ⟨e2, by simpa using e1⟩

theorem nodup_of_cnt {X : List Nat} (h : ∀ j, X.count j ≤ 1) : X.Nodup :=
  List.nodup_iff_count_le_one.mpr h

/-! ### The rotations on trees -/

theorem rot_ll_spec {m m1 : avl_mem α} {c : List frm} {a b r : tr} {k ch : Nat} {isL : Bool}
    (ha : rep m a (some ch)) (hb : rep m b (some ch)) (hr : rep m r (some k))
    (hchl : (m.node ch).left = a.root) (hchr : (m.node ch).right = b.root)
    (hkr : (m.node k).right = r.root) (hc : crep m c (some k))
    (hnd : ((tr.node (tr.node a ch b) k r).inorder ++ ckeys c).Nodup)
    (hs : side m (cpar c) k isL)
    (fl : ∀ j, (m1.node j).left = if cpar c = some j ∧ isL = true then some ch
        else if j = k then (m.node ch).right else (m.node j).left)
    (fr : ∀ j, (m1.node j).right = if cpar c = some j ∧ isL = false then some ch
        else if j = ch then some k else (m.node j).right)
    (fp : ∀ j, (m1.node j).parent = if j = ch then cpar c else if j = k then some ch
        else if (m.node ch).right = some j then some k else (m.node j).parent)
    (ft : m1.tree.top = if cpar c = none then some ch else m.tree.top) :
    rep m1 (tr.node a ch (tr.node b k r)) (cpar c) ∧ crep m1 c (some ch) := by
  have hcnt : ∀ j, a.inorder.count j + [ch].count j + b.inorder.count j + [k].count j +
      r.inorder.count j + (ckeys c).count j ≤ 1 := by
    intro j
    have := List.nodup_iff_count_le_one.mp hnd j
    simp only [tr.inorder, List.count_append, List.count_cons, List.count_nil] at this ⊢
    omega
  have hch := hcnt ch
  have hch1 := cnt_self ch
  have hk := hcnt k
  have hk1 := cnt_self k
  have hchk : ch ≠ k := ne_of_cnt (by omega)
  have hkch : k ≠ ch := hchk.symm
  have hchc : ¬ (cpar c = some ch ∧ isL = true) :=
    fun e => not_mem_of_cnt (by omega) (cpar_mem e.1)
  have hchc' : ¬ (cpar c = some ch ∧ isL = false) :=
    fun e => not_mem_of_cnt (by omega) (cpar_mem e.1)
  have hkc : ¬ (cpar c = some k ∧ isL = true) :=
    fun e => not_mem_of_cnt (by omega) (cpar_mem e.1)
  have hkc' : ¬ (cpar c = some k ∧ isL = false) :=
    fun e => not_mem_of_cnt (by omega) (cpar_mem e.1)
  -- the nodes of the subtrees and of the path keep their pointers
  have keep : ∀ j, 0 < a.inorder.count j + b.inorder.count j + r.inorder.count j +
      (ckeys c).count j →
      (m1.node j).left = (if cpar c = some j ∧ isL = true then some ch else (m.node j).left) ∧
      (m1.node j).right = (if cpar c = some j ∧ isL = false then some ch
        else (m.node j).right) ∧
      ((m.node ch).right ≠ some j → (m1.node j).parent = (m.node j).parent) := by
    intro j hj
    have hj1 := hcnt j
    have e1 : j ≠ k := ne_of_cnt (by omega)
    have e2 : j ≠ ch := ne_of_cnt (by omega)
    refine ⟨?_, ?_, fun e3 => ?_⟩
    · rw [fl j, if_neg e1]
    · rw [fr j, if_neg e2]
    · rw [fp j, if_neg e2, if_neg e1, if_neg e3]
  have sub : ∀ j, 0 < a.inorder.count j + b.inorder.count j + r.inorder.count j →
      (m1.node j).left = (m.node j).left ∧ (m1.node j).right = (m.node j).right := by
    intro j hj
    have hj1 := hcnt j
    have e3 : ¬ (cpar c = some j ∧ isL = true) :=
      fun e => not_mem_of_cnt (by omega) (cpar_mem e.1)
    have e4 : ¬ (cpar c = some j ∧ isL = false) :=
      fun e => not_mem_of_cnt (by omega) (cpar_mem e.1)
    obtain ⟨k1, k2, _⟩ := keep j (by omega)
    rw [k1, k2, if_neg e3, if_neg e4]
    exact ⟨rfl, rfl⟩
  refine ⟨⟨?_, ?_, ?_, ?_, ?_, ?_, ?_, ?_, ?_⟩, ?_⟩
  · rw [fp ch, if_pos rfl]
  · rw [fl ch, if_neg hchc, if_neg hchk, hchl]
  · rw [fr ch, if_neg hchc', if_pos rfl]; rfl
  · refine rep_congr ha (nodup_of_cnt fun j => by have := hcnt j; omega) (fun j hj => ?_)
    have h0 := cnt_mem hj
    have hj1 := hcnt j
    obtain ⟨k1, k2⟩ := sub j (by omega)
    refine ⟨k1, k2, (keep j (by omega)).2.2 ?_⟩
    rw [hchr]
    exact root_ne_of_not_mem (not_mem_of_cnt (by omega))
  · rw [fp k, if_neg hkch, if_pos rfl]
  · rw [fl k, if_neg hkc, if_pos rfl, hchr]
  · rw [fr k, if_neg hkc', if_neg hkch, hkr]
  · refine rep_of_agree hb (nodup_of_cnt fun j => by have := hcnt j; omega)
      (fun j hj => sub j (by have := cnt_mem hj; omega)) (fun j hj hne => ?_) (fun j hj => ?_)
    · have h0 := cnt_mem hj
      exact (keep j (by omega)).2.2 (by rw [hchr]; exact hne)
    · have h0 := cnt_mem (root_mem hj)
      have hj1 := hcnt j
      have e1 : j ≠ k := ne_of_cnt (by omega)
      have e2 : j ≠ ch := ne_of_cnt (by omega)
      rw [fp j, if_neg e2, if_neg e1, if_pos (by rw [hchr]; exact hj)]
  · refine rep_congr hr (nodup_of_cnt fun j => by have := hcnt j; omega) (fun j hj => ?_)
    have h0 := cnt_mem hj
    have hj1 := hcnt j
    obtain ⟨k1, k2⟩ := sub j (by omega)
    refine ⟨k1, k2, (keep j (by omega)).2.2 ?_⟩
    rw [hchr]
    exact root_ne_of_not_mem (not_mem_of_cnt (by omega))
  · refine crep_super hc (not_mem_of_cnt (by omega))
      (nodup_of_cnt fun j => by have := hcnt j; omega) hs
      (fun j hj => (keep j (by have := cnt_mem hj; omega)).1)
      (fun j hj => (keep j (by have := cnt_mem hj; omega)).2.1) (fun j hj => ?_) ft
    have h0 := cnt_mem hj
    have hj1 := hcnt j
    refine (keep j (by omega)).2.2 ?_
    rw [hchr]
    exact root_ne_of_not_mem (not_mem_of_cnt (by omega))

theorem rot_lr_spec {m m1 : avl_mem α} {c : List frm} {a b d r : tr} {k ch g : Nat}
    {isL : Bool}
    (ha : rep m a (some ch)) (hb : rep m b (some g)) (hd : rep m d (some g))
    (hr : rep m r (some k))
    (hchl : (m.node ch).left = a.root) (hgl : (m.node g).left = b.root)
    (hgr : (m.node g).right = d.root)
    (hkr : (m.node k).right = r.root) (hc : crep m c (some k))
    (hnd : ((tr.node (tr.node a ch (tr.node b g d)) k r).inorder ++ ckeys c).Nodup)
    (hs : side m (cpar c) k isL)
    (fl : ∀ j, (m1.node j).left = if cpar c = some j ∧ isL = true then some g
        else if j = g then some ch
        else if j = k then (m.node g).right else (m.node j).left)
    (fr : ∀ j, (m1.node j).right = if cpar c = some j ∧ isL = false then some g
        else if j = g then some k
        else if j = ch then (m.node g).left else (m.node j).right)
    (fp : ∀ j, (m1.node j).parent = if j = g then cpar c else if j = ch then some g
        else if j = k then some g
        else if (m.node g).left = some j then some ch
        else if (m.node g).right = some j then some k else (m.node j).parent)
    (ft : m1.tree.top = if cpar c = none then some g else m.tree.top) :
    rep m1 (tr.node (tr.node a ch b) g (tr.node d k r)) (cpar c) ∧ crep m1 c (some g) := by
  have hcnt : ∀ j, a.inorder.count j + [ch].count j + b.inorder.count j + [g].count j +
      d.inorder.count j + [k].count j + r.inorder.count j + (ckeys c).count j ≤ 1 := by
    intro j
    have := List.nodup_iff_count_le_one.mp hnd j
    simp only [tr.inorder, List.count_append, List.count_cons, List.count_nil] at this ⊢
    omega
  have hch := hcnt ch
  have hch1 := cnt_self ch
  have hk := hcnt k
  have hk1 := cnt_self k
  have hg := hcnt g
  have hg1 := cnt_self g
  have hchk : ch ≠ k := ne_of_cnt (by omega)
  have hkch : k ≠ ch := hchk.symm
  have hchg : ch ≠ g := ne_of_cnt (by omega)
  have hgch : g ≠ ch := hchg.symm
  have hkg : k ≠ g := ne_of_cnt (by omega)
  have hgk : g ≠ k := hkg.symm
  have hchc : ¬ (cpar c = some ch ∧ isL = true) :=
    fun e => not_mem_of_cnt (by omega) (cpar_mem e.1)
  have hchc' : ¬ (cpar c = some ch ∧ isL = false) :=
    fun e => not_mem_of_cnt (by omega) (cpar_mem e.1)
  have hkc : ¬ (cpar c = some k ∧ isL = true) :=
    fun e => not_mem_of_cnt (by omega) (cpar_mem e.1)
  have hkc' : ¬ (cpar c = some k ∧ isL = false) :=
    fun e => not_mem_of_cnt (by omega) (cpar_mem e.1)
  have hgc : ¬ (cpar c = some g ∧ isL = true) :=
    fun e => not_mem_of_cnt (by omega) (cpar_mem e.1)
  have hgc' : ¬ (cpar c = some g ∧ isL = false) :=
    fun e => not_mem_of_cnt (by omega) (cpar_mem e.1)
  have keep : ∀ j, 0 < a.inorder.count j + b.inorder.count j + d.inorder.count j +
      r.inorder.count j + (ckeys c).count j →
      (m1.node j).left = (if cpar c = some j ∧ isL = true then some g else (m.node j).left) ∧
      (m1.node j).right = (if cpar c = some j ∧ isL = false then some g
        else (m.node j).right) ∧
      (b.root ≠ some j → d.root ≠ some j → (m1.node j).parent = (m.node j).parent) := by
    intro j hj
    have hj1 := hcnt j
    have e1 : j ≠ k := ne_of_cnt (by omega)
    have e2 : j ≠ ch := ne_of_cnt (by omega)
    have e3 : j ≠ g := ne_of_cnt (by omega)
    refine ⟨?_, ?_, fun e4 e5 => ?_⟩
    · rw [fl j, if_neg e3, if_neg e1]
    · rw [fr j, if_neg e3, if_neg e2]
    · rw [fp j, if_neg e3, if_neg e2, if_neg e1, if_neg (by rw [hgl]; exact e4),
        if_neg (by rw [hgr]; exact e5)]
  have sub : ∀ j, 0 < a.inorder.count j + b.inorder.count j + d.inorder.count j +
      r.inorder.count j →
      (m1.node j).left = (m.node j).left ∧ (m1.node j).right = (m.node j).right := by
    intro j hj
    have hj1 := hcnt j
    have e3 : ¬ (cpar c = some j ∧ isL = true) :=
      fun e => not_mem_of_cnt (by omega) (cpar_mem e.1)
    have e4 : ¬ (cpar c = some j ∧ isL = false) :=
      fun e => not_mem_of_cnt (by omega) (cpar_mem e.1)
    obtain ⟨k1, k2, _⟩ := keep j (by omega)
    rw [k1, k2, if_neg e3, if_neg e4]
    exact ⟨rfl, rfl⟩
  refine ⟨⟨?_, ?_, ?_, ⟨?_, ?_, ?_, ?_, ?_⟩, ?_, ?_, ?_, ?_, ?_⟩, ?_⟩
  · rw [fp g, if_pos rfl]
  · rw [fl g, if_neg hgc, if_pos rfl]; rfl
  · rw [fr g, if_neg hgc', if_pos rfl]; rfl
  · rw [fp ch, if_neg hchg, if_pos rfl]
  · rw [fl ch, if_neg hchc, if_neg hchg, if_neg hchk, hchl]
  · rw [fr ch, if_neg hchc', if_neg hchg, if_pos rfl, hgl]
  · refine rep_congr ha (nodup_of_cnt fun j => by have := hcnt j; omega) (fun j hj => ?_)
    have h0 := cnt_mem hj
    have hj1 := hcnt j
    obtain ⟨k1, k2⟩ := sub j (by omega)
    exact ⟨k1, k2, (keep j (by omega)).2.2 (root_ne_of_not_mem (not_mem_of_cnt (by omega)))
      (root_ne_of_not_mem (not_mem_of_cnt (by omega)))⟩
  · refine rep_of_agree hb (nodup_of_cnt fun j => by have := hcnt j; omega)
      (fun j hj => sub j (by have := cnt_mem hj; omega)) (fun j hj hne => ?_) (fun j hj => ?_)
    · have h0 := cnt_mem hj
      have hj1 := hcnt j
      exact (keep j (by omega)).2.2 hne (root_ne_of_not_mem (not_mem_of_cnt (by omega)))
    · have h0 := cnt_mem (root_mem hj)
      have hj1 := hcnt j
      have e1 : j ≠ k := ne_of_cnt (by omega)
      have e2 : j ≠ ch := ne_of_cnt (by omega)
      have e3 : j ≠ g := ne_of_cnt (by omega)
      rw [fp j, if_neg e3, if_neg e2, if_neg e1, if_pos (by rw [hgl]; exact hj)]
  · rw [fp k, if_neg hkg, if_neg hkch, if_pos rfl]
  · rw [fl k, if_neg hkc, if_neg hkg, if_pos rfl, hgr]
  · rw [fr k, if_neg hkc', if_neg hkg, if_neg hkch, hkr]
  · refine rep_of_agree hd (nodup_of_cnt fun j => by have := hcnt j; omega)
      (fun j hj => sub j (by have := cnt_mem hj; omega)) (fun j hj hne => ?_) (fun j hj => ?_)
    · have h0 := cnt_mem hj
      have hj1 := hcnt j
      exact (keep j (by omega)).2.2 (root_ne_of_not_mem (not_mem_of_cnt (by omega))) hne
    · have h0 := cnt_mem (root_mem hj)
      have hj1 := hcnt j
      have e1 : j ≠ k := ne_of_cnt (by omega)
      have e2 : j ≠ ch := ne_of_cnt (by omega)
      have e3 : j ≠ g := ne_of_cnt (by omega)
      have e4 : b.root ≠ some j := root_ne_of_not_mem (not_mem_of_cnt (by omega))
      rw [fp j, if_neg e3, if_neg e2, if_neg e1, if_neg (by rw [hgl]; exact e4),
        if_pos (by rw [hgr]; exact hj)]
  · refine rep_congr hr (nodup_of_cnt fun j => by have := hcnt j; omega) (fun j hj => ?_)
    have h0 := cnt_mem hj
    have hj1 := hcnt j
    obtain ⟨k1, k2⟩ := sub j (by omega)
    exact ⟨k1, k2, (keep j (by omega)).2.2 (root_ne_of_not_mem (not_mem_of_cnt (by omega)))
      (root_ne_of_not_mem (not_mem_of_cnt (by omega)))⟩
  · refine crep_super hc (not_mem_of_cnt (by omega))
      (nodup_of_cnt fun j => by have := hcnt j; omega) hs
      (fun j hj => (keep j (by have := cnt_mem hj; omega)).1)
      (fun j hj => (keep j (by have := cnt_mem hj; omega)).2.1) (fun j hj => ?_) ft
    have h0 := cnt_mem hj
    have hj1 := hcnt j
    exact (keep j (by omega)).2.2 (root_ne_of_not_mem (not_mem_of_cnt (by omega)))
      (root_ne_of_not_mem (not_mem_of_cnt (by omega)))

theorem rot_rr_spec {m m1 : avl_mem α} {c : List frm} {l b a : tr} {k ch : Nat} {isL : Bool}
    (hl : rep m l (some k)) (hb : rep m b (some ch)) (ha : rep m a (some ch))
    (hkl : (m.node k).left = l.root) (hchl : (m.node ch).left = b.root)
    (hchr : (m.node ch).right = a.root) (hc : crep m c (some k))
    (hnd : ((tr.node l k (tr.node b ch a)).inorder ++ ckeys c).Nodup)
    (hs : side m (cpar c) k isL)
    (fl : ∀ j, (m1.node j).left = if cpar c = some j ∧ isL = true then some ch
        else if j = ch then some k else (m.node j).left)
    (fr : ∀ j, (m1.node j).right = if cpar c = some j ∧ isL = false then some ch
        else if j = k then (m.node ch).left else (m.node j).right)
    (fp : ∀ j, (m1.node j).parent = if j = ch then cpar c else if j = k then some ch
        else if (m.node ch).left = some j then some k else (m.node j).parent)
    (ft : m1.tree.top = if cpar c = none then some ch else m.tree.top) :
    rep m1 (tr.node (tr.node l k b) ch a) (cpar c) ∧ crep m1 c (some ch) := by
  have hcnt : ∀ j, l.inorder.count j + [k].count j + b.inorder.count j + [ch].count j +
      a.inorder.count j + (ckeys c).count j ≤ 1 := by
    intro j
    have := List.nodup_iff_count_le_one.mp hnd j
    simp only [tr.inorder, List.count_append, List.count_cons, List.count_nil] at this ⊢
    omega
  have hch := hcnt ch
  have hch1 := cnt_self ch
  have hk := hcnt k
  have hk1 := cnt_self k
  have hchk : ch ≠ k := ne_of_cnt (by omega)
  have hkch : k ≠ ch := hchk.symm
  have hchc : ¬ (cpar c = some ch ∧ isL = true) :=
    fun e => not_mem_of_cnt (by omega) (cpar_mem e.1)
  have hchc' : ¬ (cpar c = some ch ∧ isL = false) :=
    fun e => not_mem_of_cnt (by omega) (cpar_mem e.1)
  have hkc : ¬ (cpar c = some k ∧ isL = true) :=
    fun e => not_mem_of_cnt (by omega) (cpar_mem e.1)
  have hkc' : ¬ (cpar c = some k ∧ isL = false) :=
    fun e => not_mem_of_cnt (by omega) (cpar_mem e.1)
  have keep : ∀ j, 0 < l.inorder.count j + b.inorder.count j + a.inorder.count j +
      (ckeys c).count j →
      (m1.node j).left = (if cpar c = some j ∧ isL = true then some ch else (m.node j).left) ∧
      (m1.node j).right = (if cpar c = some j ∧ isL = false then some ch
        else (m.node j).right) ∧
      (b.root ≠ some j → (m1.node j).parent = (m.node j).parent) := by
    intro j hj
    have hj1 := hcnt j
    have e1 : j ≠ k := ne_of_cnt (by omega)
    have e2 : j ≠ ch := ne_of_cnt (by omega)
    refine ⟨?_, ?_, fun e3 => ?_⟩
    · rw [fl j, if_neg e2]
    · rw [fr j, if_neg e1]
    · rw [fp j, if_neg e2, if_neg e1, if_neg (by rw [hchl]; exact e3)]
  have sub : ∀ j, 0 < l.inorder.count j + b.inorder.count j + a.inorder.count j →
      (m1.node j).left = (m.node j).left ∧ (m1.node j).right = (m.node j).right := by
    intro j hj
    have hj1 := hcnt j
    have e3 : ¬ (cpar c = some j ∧ isL = true) :=
      fun e => not_mem_of_cnt (by omega) (cpar_mem e.1)
    have e4 : ¬ (cpar c = some j ∧ isL = false) :=
      fun e => not_mem_of_cnt (by omega) (cpar_mem e.1)
    obtain ⟨k1, k2, _⟩ := keep j (by omega)
    rw [k1, k2, if_neg e3, if_neg e4]
    exact ⟨rfl, rfl⟩
  refine ⟨⟨?_, ?_, ?_, ⟨?_, ?_, ?_, ?_, ?_⟩, ?_⟩, ?_⟩
  · rw [fp ch, if_pos rfl]
  · rw [fl ch, if_neg hchc, if_pos rfl]; rfl
  · rw [fr ch, if_neg hchc', if_neg hchk, hchr]
  · rw [fp k, if_neg hkch, if_pos rfl]
  · rw [fl k, if_neg hkc, if_neg hkch, hkl]
  · rw [fr k, if_neg hkc', if_pos rfl, hchl]
  · refine rep_congr hl (nodup_of_cnt fun j => by have := hcnt j; omega) (fun j hj => ?_)
    have h0 := cnt_mem hj
    have hj1 := hcnt j
    obtain ⟨k1, k2⟩ := sub j (by omega)
    exact ⟨k1, k2, (keep j (by omega)).2.2 (root_ne_of_not_mem (not_mem_of_cnt (by omega)))⟩
  · refine rep_of_agree hb (nodup_of_cnt fun j => by have := hcnt j; omega)
      (fun j hj => sub j (by have := cnt_mem hj; omega)) (fun j hj hne => ?_) (fun j hj => ?_)
    · have h0 := cnt_mem hj
      exact (keep j (by omega)).2.2 hne
    · have h0 := cnt_mem (root_mem hj)
      have hj1 := hcnt j
      have e1 : j ≠ k := ne_of_cnt (by omega)
      have e2 : j ≠ ch := ne_of_cnt (by omega)
      rw [fp j, if_neg e2, if_neg e1, if_pos (by rw [hchl]; exact hj)]
  · refine rep_congr ha (nodup_of_cnt fun j => by have := hcnt j; omega) (fun j hj => ?_)
    have h0 := cnt_mem hj
    have hj1 := hcnt j
    obtain ⟨k1, k2⟩ := sub j (by omega)
    exact ⟨k1, k2, (keep j (by omega)).2.2 (root_ne_of_not_mem (not_mem_of_cnt (by omega)))⟩
  · refine crep_super hc (not_mem_of_cnt (by omega))
      (nodup_of_cnt fun j => by have := hcnt j; omega) hs
      (fun j hj => (keep j (by have := cnt_mem hj; omega)).1)
      (fun j hj => (keep j (by have := cnt_mem hj; omega)).2.1) (fun j hj => ?_) ft
    have h0 := cnt_mem hj
    have hj1 := hcnt j
    exact (keep j (by omega)).2.2 (root_ne_of_not_mem (not_mem_of_cnt (by omega)))

theorem rot_rl_spec {m m1 : avl_mem α} {c : List frm} {l b d a : tr} {k ch g : Nat}
    {isL : Bool}
    (hl : rep m l (some k)) (hb : rep m b (some g)) (hd : rep m d (some g))
    (ha : rep m a (some ch))
    (hkl : (m.node k).left = l.root) (hgl : (m.node g).left = b.root)
    (hgr : (m.node g).right = d.root)
    (hchr : (m.node ch).right = a.root) (hc : crep m c (some k))
    (hnd : ((tr.node l k (tr.node (tr.node b g d) ch a)).inorder ++ ckeys c).Nodup)
    (hs : side m (cpar c) k isL)
    (fl : ∀ j, (m1.node j).left = if cpar c = some j ∧ isL = true then some g
        else if j = g then some k
        else if j = ch then (m.node g).right else (m.node j).left)
    (fr : ∀ j, (m1.node j).right = if cpar c = some j ∧ isL = false then some g
        else if j = g then some ch
        else if j = k then (m.node g).left else (m.node j).right)
    (fp : ∀ j, (m1.node j).parent = if j = g then cpar c else if j = ch then some g
        else if j = k then some g
        else if (m.node g).right = some j then some ch
        else if (m.node g).left = some j then some k else (m.node j).parent)
    (ft : m1.tree.top = if cpar c = none then some g else m.tree.top) :
    rep m1 (tr.node (tr.node l k b) g (tr.node d ch a)) (cpar c) ∧ crep m1 c (some g) := by
  have hcnt : ∀ j, l.inorder.count j + [k].count j + b.inorder.count j + [g].count j +
      d.inorder.count j + [ch].count j + a.inorder.count j + (ckeys c).count j ≤ 1 := by
    intro j
    have := List.nodup_iff_count_le_one.mp hnd j
    simp only [tr.inorder, List.count_append, List.count_cons, List.count_nil] at this ⊢
    omega
  have hch := hcnt ch
  have hch1 := cnt_self ch
  have hk := hcnt k
  have hk1 := cnt_self k
  have hg := hcnt g
  have hg1 := cnt_self g
  have hchk : ch ≠ k := ne_of_cnt (by omega)
  have hkch : k ≠ ch := hchk.symm
  have hchg : ch ≠ g := ne_of_cnt (by omega)
  have hgch : g ≠ ch := hchg.symm
  have hkg : k ≠ g := ne_of_cnt (by omega)
  have hgk : g ≠ k := hkg.symm
  have hchc : ¬ (cpar c = some ch ∧ isL = true) :=
    fun e => not_mem_of_cnt (by omega) (cpar_mem e.1)
  have hchc' : ¬ (cpar c = some ch ∧ isL = false) :=
    fun e => not_mem_of_cnt (by omega) (cpar_mem e.1)
  have hkc : ¬ (cpar c = some k ∧ isL = true) :=
    fun e => not_mem_of_cnt (by omega) (cpar_mem e.1)
  have hkc' : ¬ (cpar c = some k ∧ isL = false) :=
    fun e => not_mem_of_cnt (by omega) (cpar_mem e.1)
  have hgc : ¬ (cpar c = some g ∧ isL = true) :=
    fun e => not_mem_of_cnt (by omega) (cpar_mem e.1)
  have hgc' : ¬ (cpar c = some g ∧ isL = false) :=
    fun e => not_mem_of_cnt (by omega) (cpar_mem e.1)
  have keep : ∀ j, 0 < l.inorder.count j + b.inorder.count j + d.inorder.count j +
      a.inorder.count j + (ckeys c).count j →
      (m1.node j).left = (if cpar c = some j ∧ isL = true then some g else (m.node j).left) ∧
      (m1.node j).right = (if cpar c = some j ∧ isL = false then some g
        else (m.node j).right) ∧
      (b.root ≠ some j → d.root ≠ some j → (m1.node j).parent = (m.node j).parent) := by
    intro j hj
    have hj1 := hcnt j
    have e1 : j ≠ k := ne_of_cnt (by omega)
    have e2 : j ≠ ch := ne_of_cnt (by omega)
    have e3 : j ≠ g := ne_of_cnt (by omega)
    refine ⟨?_, ?_, fun e4 e5 => ?_⟩
    · rw [fl j, if_neg e3, if_neg e2]
    · rw [fr j, if_neg e3, if_neg e1]
    · rw [fp j, if_neg e3, if_neg e2, if_neg e1, if_neg (by rw [hgr]; exact e5),
        if_neg (by rw [hgl]; exact e4)]
  have sub : ∀ j, 0 < l.inorder.count j + b.inorder.count j + d.inorder.count j +
      a.inorder.count j →
      (m1.node j).left = (m.node j).left ∧ (m1.node j).right = (m.node j).right := by
    intro j hj
    have hj1 := hcnt j
    have e3 : ¬ (cpar c = some j ∧ isL = true) :=
      fun e => not_mem_of_cnt (by omega) (cpar_mem e.1)
    have e4 : ¬ (cpar c = some j ∧ isL = false) :=
      fun e => not_mem_of_cnt (by omega) (cpar_mem e.1)
    obtain ⟨k1, k2, _⟩ := keep j (by omega)
    rw [k1, k2, if_neg e3, if_neg e4]
    exact ⟨rfl, rfl⟩
  refine ⟨⟨?_, ?_, ?_, ⟨?_, ?_, ?_, ?_, ?_⟩, ?_, ?_, ?_, ?_, ?_⟩, ?_⟩
  · rw [fp g, if_pos rfl]
  · rw [fl g, if_neg hgc, if_pos rfl]; rfl
  · rw [fr g, if_neg hgc', if_pos rfl]; rfl
  · rw [fp k, if_neg hkg, if_neg hkch, if_pos rfl]
  · rw [fl k, if_neg hkc, if_neg hkg, if_neg hkch, hkl]
  · rw [fr k, if_neg hkc', if_neg hkg, if_pos rfl, hgl]
  · refine rep_congr hl (nodup_of_cnt fun j => by have := hcnt j; omega) (fun j hj => ?_)
    have h0 := cnt_mem hj
    have hj1 := hcnt j
    obtain ⟨k1, k2⟩ := sub j (by omega)
    exact ⟨k1, k2, (keep j (by omega)).2.2 (root_ne_of_not_mem (not_mem_of_cnt (by omega)))
      (root_ne_of_not_mem (not_mem_of_cnt (by omega)))⟩
  · refine rep_of_agree hb (nodup_of_cnt fun j => by have := hcnt j; omega)
      (fun j hj => sub j (by have := cnt_mem hj; omega)) (fun j hj hne => ?_) (fun j hj => ?_)
    · have h0 := cnt_mem hj
      have hj1 := hcnt j
      exact (keep j (by omega)).2.2 hne (root_ne_of_not_mem (not_mem_of_cnt (by omega)))
    · have h0 := cnt_mem (root_mem hj)
      have hj1 := hcnt j
      have e1 : j ≠ k := ne_of_cnt (by omega)
      have e2 : j ≠ ch := ne_of_cnt (by omega)
      have e3 : j ≠ g := ne_of_cnt (by omega)
      have e4 : d.root ≠ some j := root_ne_of_not_mem (not_mem_of_cnt (by omega))
      rw [fp j, if_neg e3, if_neg e2, if_neg e1, if_neg (by rw [hgr]; exact e4),
        if_pos (by rw [hgl]; exact hj)]
  · rw [fp ch, if_neg hchg, if_pos rfl]
  · rw [fl ch, if_neg hchc, if_neg hchg, if_pos rfl, hgr]
  · rw [fr ch, if_neg hchc', if_neg hchg, if_neg hchk, hchr]
  · refine rep_of_agree hd (nodup_of_cnt fun j => by have := hcnt j; omega)
      (fun j hj => sub j (by have := cnt_mem hj; omega)) (fun j hj hne => ?_) (fun j hj => ?_)
    · have h0 := cnt_mem hj
      have hj1 := hcnt j
      exact (keep j (by omega)).2.2 (root_ne_of_not_mem (not_mem_of_cnt (by omega))) hne
    · have h0 := cnt_mem (root_mem hj)
      have hj1 := hcnt j
      have e1 : j ≠ k := ne_of_cnt (by omega)
      have e2 : j ≠ ch := ne_of_cnt (by omega)
      have e3 : j ≠ g := ne_of_cnt (by omega)
      rw [fp j, if_neg e3, if_neg e2, if_neg e1, if_pos (by rw [hgr]; exact hj)]
  · refine rep_congr ha (nodup_of_cnt fun j => by have := hcnt j; omega) (fun j hj => ?_)
    have h0 := cnt_mem hj
    have hj1 := hcnt j
    obtain ⟨k1, k2⟩ := sub j (by omega)
    exact ⟨k1, k2, (keep j (by omega)).2.2 (root_ne_of_not_mem (not_mem_of_cnt (by omega)))
      (root_ne_of_not_mem (not_mem_of_cnt (by omega)))⟩
  · refine crep_super hc (not_mem_of_cnt (by omega))
      (nodup_of_cnt fun j => by have := hcnt j; omega) hs
      (fun j hj => (keep j (by have := cnt_mem hj; omega)).1)
      (fun j hj => (keep j (by have := cnt_mem hj; omega)).2.1) (fun j hj => ?_) ft
    have h0 := cnt_mem hj
    have hj1 := hcnt j
    exact (keep j (by omega)).2.2 (root_ne_of_not_mem (not_mem_of_cnt (by omega)))
      (root_ne_of_not_mem (not_mem_of_cnt (by omega)))

/-! ### `avl_rebalance` -/

theorem avl_rebalance_step_spec {m : avl_mem α} {c : List frm} {l r : tr} {k : Nat}
    (hl : rep m l (some k)) (hr : rep m r (some k))
    (hkl : (m.node k).left = l.root) (hkr : (m.node k).right = r.root)
    (hkp : (m.node k).parent = cpar c) (hc : crep m c (some k))
    (hnd : ((tr.node l k r).inorder ++ ckeys c).Nodup) :
    ∃ m1 t1, avl_rebalance_step m k = some (m1, cpar c) ∧ rep m1 t1 (cpar c) ∧
      crep m1 c t1.root ∧ t1.inorder = (tr.node l k r).inorder ∧ keeps m m1 := by
  by_cases hb1 : avl_check_balance m k = -1
  · obtain ⟨ch, hch⟩ := bal_left hb1
    obtain ⟨a, b, rfl⟩ := root_eq_some (hkl.symm.trans hch)
    obtain ⟨h1, h2, h3, h4, h5⟩ := hl
    by_cases hd : L_DEPTH m ch ≥ R_DEPTH m ch
    · obtain ⟨m1, isL, e, hside, hkeep, fl, fr, fp, ft⟩ := step_ll hb1 hch hd
      simp only [hkp] at e hside fl fr fp ft
      obtain ⟨r1, r2⟩ := rot_ll_spec h4 h5 hr h2 h3 hkr hc hnd hside fl fr fp ft
      exact ⟨m1, _, e, r1, r2, by simp [tr.inorder], hkeep⟩
    · obtain ⟨g, hg⟩ := depth_right hd
      obtain ⟨b1, d1, rfl⟩ := root_eq_some (h3.symm.trans hg)
      obtain ⟨g1, g2, g3, g4, g5⟩ := h5
      have hcnt : ∀ j, [ch].count j + [g].count j + [k].count j ≤ 1 := by
        intro j
        have := List.nodup_iff_count_le_one.mp hnd j
        simp only [tr.inorder, List.count_append, List.count_cons, List.count_nil] at this ⊢
        omega
      have e1 : k ≠ ch := by
        have := hcnt k; have := cnt_self k; exact ne_of_cnt (by omega)
      have e2 : k ≠ g := by
        have := hcnt k; have := cnt_self k; exact ne_of_cnt (by omega)
      have e3 : ch ≠ g := by
        have := hcnt ch; have := cnt_self ch; exact ne_of_cnt (by omega)
      obtain ⟨m1, isL, e, hside, hkeep, fl, fr, fp, ft⟩ := step_lr hb1 hch hd hg e1 e2 e3
      simp only [hkp] at e hside fl fr fp ft
      obtain ⟨r1, r2⟩ := rot_lr_spec h4 g4 g5 hr h2 g2 g3 hkr hc hnd hside fl fr fp ft
      exact ⟨m1, _, e, r1, r2, by simp [tr.inorder], hkeep⟩
  · by_cases hb2 : avl_check_balance m k = 1
    · obtain ⟨ch, hch⟩ := bal_right hb2
      obtain ⟨b, a, rfl⟩ := root_eq_some (hkr.symm.trans hch)
      obtain ⟨h1, h2, h3, h4, h5⟩ := hr
      by_cases hd : R_DEPTH m ch ≥ L_DEPTH m ch
      · obtain ⟨m1, isL, e, hside, hkeep, fl, fr, fp, ft⟩ := step_rr hb2 hch hd
        simp only [hkp] at e hside fl fr fp ft
        obtain ⟨r1, r2⟩ := rot_rr_spec hl h4 h5 hkl h2 h3 hc hnd hside fl fr fp ft
        exact ⟨m1, _, e, r1, r2, by simp [tr.inorder], hkeep⟩
      · obtain ⟨g, hg⟩ := depth_left hd
        obtain ⟨b1, d1, rfl⟩ := root_eq_some (h2.symm.trans hg)
        obtain ⟨g1, g2, g3, g4, g5⟩ := h4
        have hcnt : ∀ j, [ch].count j + [g].count j + [k].count j ≤ 1 := by
          intro j
          have := List.nodup_iff_count_le_one.mp hnd j
          simp only [tr.inorder, List.count_append, List.count_cons, List.count_nil] at this ⊢
          omega
        have e1 : k ≠ ch := by
          have := hcnt k; have := cnt_self k; exact ne_of_cnt (by omega)
        have e2 : k ≠ g := by
          have := hcnt k; have := cnt_self k; exact ne_of_cnt (by omega)
        have e3 : ch ≠ g := by
          have := hcnt ch; have := cnt_self ch; exact ne_of_cnt (by omega)
        obtain ⟨m1, isL, e, hside, hkeep, fl, fr, fp, ft⟩ := step_rl hb2 hch hd hg e1 e2 e3
        simp only [hkp] at e hside fl fr fp ft
        obtain ⟨r1, r2⟩ := rot_rl_spec hl g4 g5 h5 hkl g2 g3 h3 hc hnd hside fl fr fp ft
        exact ⟨m1, _, e, r1, r2, by simp [tr.inorder], hkeep⟩
    · refine ⟨_, tr.node l k r, by rw [step_none hb1 hb2, hkp], ?_, ?_, rfl, ?_⟩
      · exact rep_same (fun j => by simp) ⟨hkp, hkl, hkr, hl, hr⟩
      · exact crep_same (fun j => by simp) (by simp) hc
      · exact ⟨fun j => by simp, by simp, by simp⟩

theorem avl_rebalance_spec : ∀ (c : List frm) {m : avl_mem α} {l r : tr} {k : Nat} (fuel : Nat),
    rep m l (some k) → rep m r (some k) →
    (m.node k).left = l.root → (m.node k).right = r.root →
    (m.node k).parent = cpar c → crep m c (some k) →
    ((tr.node l k r).inorder ++ ckeys c).Nodup → c.length < fuel →
    ∃ m1 t1, avl_rebalance fuel m (some k) = some m1 ∧ m1.tree.top = t1.root ∧
      rep m1 t1 none ∧ t1.inorder = (plug c (tr.node l k r)).inorder ∧ keeps m m1
  | c, m, l, r, k, 0, _, _, _, _, _, _, _, hf => absurd hf (Nat.not_lt_zero _)
  | [], m, l, r, k, fuel + 1, hl, hr, hkl, hkr, hkp, hc, hnd, _ => by
    obtain ⟨m1, t1, e, r1, r2, r3, r4⟩ := avl_rebalance_step_spec hl hr hkl hkr hkp hc hnd
    refine ⟨m1, t1, ?_, r2, r1, r3, r4⟩
    show (match avl_rebalance_step m k with
      | none => none
      | some (m, parent) => avl_rebalance fuel m parent) = _
    rw [e]
    show avl_rebalance fuel m1 none = some m1
    cases fuel <;> rfl
  | frm.L x rr :: c, m, l, r, k, fuel + 1, hl, hr, hkl, hkr, hkp, hc, hnd, hf => by
    obtain ⟨m1, t1, e, r1, r2, r3, r4⟩ := avl_rebalance_step_spec hl hr hkl hkr hkp hc hnd
    obtain ⟨c1, c2, c3, c4, c5⟩ := r2
    have hnd' : ((tr.node t1 x rr).inorder ++ ckeys c).Nodup := by
      simp only [tr.inorder, r3, ckeys] at hnd ⊢
      simpa [List.append_assoc] using hnd
    obtain ⟨m2, t2, e2, q1, q2, q3, q4⟩ := avl_rebalance_spec c fuel r1 c4 c1 c2 c3 c5 hnd'
      (by simp at hf; omega)
    refine ⟨m2, t2, ?_, q1, q2, ?_, keeps_trans r4 q4⟩
    · show (match avl_rebalance_step m k with
        | none => none
        | some (m, parent) => avl_rebalance fuel m parent) = _
      rw [e]
      exact e2
    · rw [q3]
      show _ = (plug c (tr.node (tr.node l k r) x rr)).inorder
      exact plug_inorder_congr c (by simp only [tr.inorder, r3])
  | frm.R ll x :: c, m, l, r, k, fuel + 1, hl, hr, hkl, hkr, hkp, hc, hnd, hf => by
    obtain ⟨m1, t1, e, r1, r2, r3, r4⟩ := avl_rebalance_step_spec hl hr hkl hkr hkp hc hnd
    obtain ⟨c1, c2, c3, c4, c5⟩ := r2
    have hnd' : ((tr.node ll x t1).inorder ++ ckeys c).Nodup := by
      simp only [tr.inorder, r3, ckeys] at hnd ⊢
      have hp : (ll.inorder ++ x :: (l.inorder ++ k :: r.inorder) ++ ckeys c).Perm
          (l.inorder ++ k :: r.inorder ++ (x :: ll.inorder ++ ckeys c)) := by
        rw [List.perm_iff_count]
        intro j
        simp only [List.count_append, List.count_cons]
        omega
      exact hp.nodup_iff.mpr hnd
    obtain ⟨m2, t2, e2, q1, q2, q3, q4⟩ := avl_rebalance_spec c fuel c4 r1 c2 c1 c3 c5 hnd'
      (by simp at hf; omega)
    refine ⟨m2, t2, ?_, q1, q2, ?_, keeps_trans r4 q4⟩
    · show (match avl_rebalance_step m k with
        | none => none
        | some (m, parent) => avl_rebalance fuel m parent) = _
      rw [e]
      exact e2
    · rw [q3]
      show _ = (plug c (tr.node ll x (tr.node l k r))).inorder
      exact plug_inorder_congr c (by simp only [tr.inorder, r3])

/-! ### Reading a field after `avl_clear_node` -/

@[simp] theorem avl_next_clear_node (m : avl_mem α) (i k : Nat) :
    ((avl_clear_node m i).node k).next = (m.node k).next := by
  unfold avl_clear_node avl_mem.setNode
  by_cases h : k = i
  · subst h; simp
  · simp [Function.update_noteq h, h]

@[simp] theorem avl_prev_clear_node (m : avl_mem α) (i k : Nat) :
    ((avl_clear_node m i).node k).prev = (m.node k).prev := by
  unfold avl_clear_node avl_mem.setNode
  by_cases h : k = i
  · subst h; simp
  · simp [Function.update_noteq h, h]

@[simp] theorem avl_parent_clear_node (m : avl_mem α) (i k : Nat) :
    ((avl_clear_node m i).node k).parent = (m.node k).parent := by
  unfold avl_clear_node avl_mem.setNode
  by_cases h : k = i
  · subst h; simp
  · simp [Function.update_noteq h, h]

@[simp] theorem avl_left_clear_node (m : avl_mem α) (i k : Nat) :
    ((avl_clear_node m i).node k).left = if k = i then none else (m.node k).left := by
  unfold avl_clear_node avl_mem.setNode
  by_cases h : k = i
  · subst h; simp
  · simp [Function.update_noteq h, h]

@[simp] theorem avl_right_clear_node (m : avl_mem α) (i k : Nat) :
    ((avl_clear_node m i).node k).right = if k = i then none else (m.node k).right := by
  unfold avl_clear_node avl_mem.setNode
  by_cases h : k = i
  · subst h; simp
  · simp [Function.update_noteq h, h]

@[simp] theorem avl_item_clear_node (m : avl_mem α) (i k : Nat) :
    ((avl_clear_node m i).node k).item = (m.node k).item := by
  unfold avl_clear_node avl_mem.setNode
  by_cases h : k = i
  · subst h; simp
  · simp [Function.update_noteq h, h]

@[simp] theorem avl_domr_clear_node (m : avl_mem α) (i k : Nat) :
    ((avl_clear_node m i).node k).domr = (m.node k).domr := by
  unfold avl_clear_node avl_mem.setNode
  by_cases h : k = i
  · subst h; simp
  · simp [Function.update_noteq h, h]

@[simp] theorem avl_depth_clear_node (m : avl_mem α) (i k : Nat) :
    ((avl_clear_node m i).node k).depth = if k = i then 1 else (m.node k).depth := by
  unfold avl_clear_node avl_mem.setNode
  by_cases h : k = i
  · subst h; simp
  · simp [Function.update_noteq h, h]

@[simp] theorem avl_tree_clear_node (m : avl_mem α) (i : Nat) :
    (avl_clear_node m i).tree = m.tree := rfl

/-! ### The insertions, pointer by pointer -/

theorem insert_before_fields {m : avl_mem α} {node p : Nat} (fuel : Nat) (hne : node ≠ p)
    (hleft : (m.node node).left = none) :
    ∃ m0, avl_insert_before fuel m (some node) p = avl_rebalance fuel m0 (some node) ∧
      (∀ j, (m0.node j).left =
        if j = node then some p else if j = p then none else (m.node j).left) ∧
      (∀ j, (m0.node j).right = if j = p then none else (m.node j).right) ∧
      (∀ j, (m0.node j).parent = if j = p then some node else (m.node j).parent) ∧
      (∀ j, (m0.node j).prev = if j = node then some p
        else if j = p then (m.node node).prev else (m.node j).prev) ∧
      (∀ j, (m0.node j).next = if (m.node node).prev = some j then some p
        else if j = p then some node else (m.node j).next) ∧
      (∀ j, (m0.node j).item = (m.node j).item ∧ (m0.node j).domr = (m.node j).domr) ∧
      m0.tree.top = m.tree.top ∧
      m0.tree.head = (if (m.node node).prev = none then some p else m.tree.head) ∧
      m0.tree.tail = m.tree.tail := by
  rcases hprev : (m.node node).prev with _ | q
  · unfold avl_insert_before
    simp only [hleft, ne_eq, not_true_eq_false, if_false]
    refine ⟨_, rfl, fun j => ?_, fun j => ?_, fun j => ?_, fun j => ?_, fun j => ?_, fun j => ?_,
      ?_, ?_, ?_⟩ <;> simp [hne, hprev]
  · unfold avl_insert_before
    simp only [hleft, ne_eq, not_true_eq_false, if_false]
    refine ⟨_, rfl, fun j => ?_, fun j => ?_, fun j => ?_, fun j => ?_, fun j => ?_, fun j => ?_,
      ?_, ?_, ?_⟩ <;> simp [hne, hprev, @eq_comm _ q]

theorem insert_after_fields {m : avl_mem α} {node p : Nat} (fuel : Nat) (hne : node ≠ p)
    (hright : (m.node node).right = none) :
    ∃ m0, avl_insert_after fuel m (some node) p = avl_rebalance fuel m0 (some node) ∧
      (∀ j, (m0.node j).right =
        if j = node then some p else if j = p then none else (m.node j).right) ∧
      (∀ j, (m0.node j).left = if j = p then none else (m.node j).left) ∧
      (∀ j, (m0.node j).parent = if j = p then some node else (m.node j).parent) ∧
      (∀ j, (m0.node j).next = if j = node then some p
        else if j = p then (m.node node).next else (m.node j).next) ∧
      (∀ j, (m0.node j).prev = if (m.node node).next = some j then some p
        else if j = p then some node else (m.node j).prev) ∧
      (∀ j, (m0.node j).item = (m.node j).item ∧ (m0.node j).domr = (m.node j).domr) ∧
      m0.tree.top = m.tree.top ∧
      m0.tree.tail = (if (m.node node).next = none then some p else m.tree.tail) ∧
      m0.tree.head = m.tree.head := by
  rcases hnext : (m.node node).next with _ | q
  · unfold avl_insert_after
    simp only [hright, ne_eq, not_true_eq_false, if_false]
    refine ⟨_, rfl, fun j => ?_, fun j => ?_, fun j => ?_, fun j => ?_, fun j => ?_, fun j => ?_,
      ?_, ?_, ?_⟩ <;> simp [hne, hnext]
  · unfold avl_insert_after
    simp only [hright, ne_eq, not_true_eq_false, if_false]
    refine ⟨_, rfl, fun j => ?_, fun j => ?_, fun j => ?_, fun j => ?_, fun j => ?_, fun j => ?_,
      ?_, ?_, ?_⟩ <;> simp [hne, hnext, @eq_comm _ q]

/-! ### More on paths -/

theorem ckeys_length (c : List frm) : c.length ≤ (ckeys c).length := by
  induction c with
  | nil => simp
  | cons f c ih => cases f <;> simp [ckeys] <;> omega

theorem plug_length (c : List frm) (t : tr) :
    (plug c t).inorder.length = t.inorder.length + (ckeys c).length := by
  rw [(plug_perm c t).length_eq, List.length_append]

theorem cleft_append (c1 c2 : List frm) : cleft (c1 ++ c2) = cleft c2 ++ cleft c1 := by
  induction c1 with
  | nil => simp [cleft]
  | cons f c ih => cases f <;> simp [cleft, ih]

theorem cright_append (c1 c2 : List frm) : cright (c1 ++ c2) = cright c1 ++ cright c2 := by
  induction c1 with
  | nil => simp [cright]
  | cons f c ih => cases f <;> simp [cright, ih]

theorem ckeys_append (c1 c2 : List frm) : ckeys (c1 ++ c2) = ckeys c1 ++ ckeys c2 := by
  induction c1 with
  | nil => simp [ckeys]
  | cons f c ih => cases f <;> simp [ckeys, ih]

theorem plug_root (c : List frm) (t : tr) : (plug c t).root = ctop c t.root := by
  induction c generalizing t with
  | nil => rfl
  | cons f c ih =>
    cases f with
    | L k r => exact ih (tr.node t k r)
    | R l k => exact ih (tr.node l k t)

theorem lastOr_none_mem {A : List Nat} {x : Nat} (h : lastOr A none = some x) : x ∈ A := by
  rcases lastOr_mem h with h1 | ⟨_, h2⟩
  · exact h1
  · simp at h2

theorem lastOr_concat (A : List Nat) (x : Nat) (p : Option Nat) :
    lastOr (A ++ [x]) p = some x := by
  rw [lastOr_append]
  rfl

theorem headOr_none_mem {A : List Nat} {x : Nat} (h : headOr A none = some x) : x ∈ A := by
  cases A with
  | nil => simp [headOr] at h
  | cons a A =>
    simp only [headOr, Option.some.injEq] at h
    subst h
    simp

/-- Rebalancing from the parent of the hole of a path. -/
theorem avl_rebalance_plug {m : avl_mem α} {c : List frm} {t : tr} (fuel : Nat)
    (ht : rep m t (cpar c)) (hc : crep m c t.root) (hnd : (t.inorder ++ ckeys c).Nodup)
    (hf : c.length ≤ fuel) :
    ∃ m1 t1, avl_rebalance fuel m (cpar c) = some m1 ∧ m1.tree.top = t1.root ∧
      rep m1 t1 none ∧ t1.inorder = (plug c t).inorder ∧ keeps m m1 := by
  cases c with
  | nil =>
    refine ⟨m, t, ?_, hc, ht, rfl, keeps_refl m⟩
    show avl_rebalance fuel m none = some m
    cases fuel <;> rfl
  | cons f c =>
    cases f with
    | L x r =>
      obtain ⟨h1, h2, h3, h4, h5⟩ := hc
      have hnd' : ((tr.node t x r).inorder ++ ckeys c).Nodup := by
        simp only [tr.inorder, ckeys] at hnd ⊢
        simpa [List.append_assoc] using hnd
      exact avl_rebalance_spec c fuel ht h4 h1 h2 h3 h5 hnd' (by simp at hf; omega)
    | R l x =>
      obtain ⟨h1, h2, h3, h4, h5⟩ := hc
      have hnd' : ((tr.node l x t).inorder ++ ckeys c).Nodup := by
        simp only [tr.inorder, ckeys] at hnd ⊢
        have hp : (l.inorder ++ x :: t.inorder ++ ckeys c).Perm
            (t.inorder ++ (x :: l.inorder ++ ckeys c)) := by
          rw [List.perm_iff_count]
          intro j
          simp only [List.count_append, List.count_cons]
          omega
        exact hp.nodup_iff.mpr hnd
      exact avl_rebalance_spec c fuel h4 ht h2 h1 h3 h5 hnd' (by simp at hf; omega)

/-! ### `avl_insert_top` -/

theorem avl_insert_top_spec (m : avl_mem α) (p : Nat) :
    tree_list (avl_insert_top m p) [p] ∧
      ∀ k, ((avl_insert_top m p).node k).item = (m.node k).item ∧
        ((avl_insert_top m p).node k).domr = (m.node k).domr := by
  refine ⟨⟨tr.node tr.nil p tr.nil, rfl, ?_, rfl, by simp, ?_, rfl, rfl⟩, fun k => ?_⟩
  · simp [rep, avl_insert_top, avl_mem.setNode, tr.root]
  · simp [thr, avl_insert_top, avl_mem.setNode, headOr]
  · unfold avl_insert_top avl_mem.setNode
    by_cases h : k = p
    · subst h; simp [avl_clear_node, avl_mem.setNode]
    · simp [Function.update_noteq h, avl_clear_node, avl_mem.setNode]

/-! ### `avl_insert_before` and `avl_insert_after` -/

theorem avl_insert_before_spec {m : avl_mem α} {A B : List Nat} {node p : Nat} {fuel : Nat}
    (h : tree_list m (A ++ node :: B)) (hleft : (m.node node).left = none)
    (hp : p ∉ A ++ node :: B) (hf : (A ++ node :: B).length ≤ fuel) :
    ∃ m', avl_insert_before fuel m (some node) p = some m' ∧
      tree_list m' (A ++ p :: node :: B) ∧
      ∀ k, (m'.node k).item = (m.node k).item ∧ (m'.node k).domr = (m.node k).domr := by
  obtain ⟨t, htop, hrep, hin, hnd, hthr, hhead, htail⟩ := h
  obtain ⟨c, l, r, rfl⟩ := exists_plug (show node ∈ t.inorder by rw [hin]; simp)
  obtain ⟨⟨h1, h2, h3, h4, h5⟩, hc⟩ := (rep_plug c _).mp ⟨hrep, htop⟩
  have hl : l = tr.nil := root_eq_none (h2.symm.trans hleft)
  subst hl
  have hT : A ++ node :: B = cleft c ++ node :: (r.inorder ++ cright c) := by
    rw [← hin, plug_inorder]; simp [tr.inorder]
  obtain ⟨hA, hB⟩ := split_unique hnd hT
  subst hA hB
  have hlen := plug_length c (tr.node tr.nil node r)
  rw [hin] at hlen
  -- counting
  have hcT : ∀ j, (cleft c).count j + [p].count j + [node].count j +
      (r.inorder ++ cright c).count j ≤ 1 := by
    intro j
    have h1 := List.nodup_iff_count_le_one.mp
      (List.nodup_middle.mpr (List.nodup_cons.mpr ⟨hp, hnd⟩)) j
    simp only [List.count_append, List.count_cons, List.count_nil] at h1 ⊢
    omega
  have hcnt : ∀ j, [p].count j + [node].count j + r.inorder.count j + (ckeys c).count j ≤ 1 := by
    intro j
    have := hcT j
    have := ckeys_count c j
    simp only [List.count_append] at *
    omega
  have hne : node ≠ p := by
    have := hcT node; have := cnt_self node; exact ne_of_cnt (by omega)
  obtain ⟨m0, e, fl, fr, fp, fpv, fnx, fattr, ftop, fhead, ftail⟩ :=
    insert_before_fields fuel hne hleft
  -- the thread before the insertion
  obtain ⟨t1, t2⟩ := (thr_append _ _ _ _).mp hthr
  obtain ⟨t3, t4, t5⟩ := t2
  have hnp : (m.node node).prev ≠ some p := by
    rw [t3]
    intro hh
    have := cnt_mem (lastOr_none_mem hh); have := hcT p; have := cnt_self p
    omega
  have hnn : (m.node node).prev ≠ some node := by
    rw [t3]
    intro hh
    have := cnt_mem (lastOr_none_mem hh); have := hcT node; have := cnt_self node
    omega
  have hpn : p ≠ node := hne.symm
  -- the tree before rebalancing
  have a1 : rep m0 (tr.node tr.nil p tr.nil) (some node) := by
    refine ⟨?_, ?_, ?_, trivial, trivial⟩
    · rw [fp p, if_pos rfl]
    · rw [fl p, if_neg hpn, if_pos rfl]; rfl
    · rw [fr p, if_pos rfl]; rfl
  have other : ∀ j, j ≠ p → j ≠ node → (m0.node j).left = (m.node j).left ∧
      (m0.node j).right = (m.node j).right ∧ (m0.node j).parent = (m.node j).parent := by
    intro j e1 e2
    rw [fl j, fr j, fp j, if_neg e2, if_neg e1, if_neg e1, if_neg e1]
    exact ⟨rfl, rfl, rfl⟩
  have a2 : rep m0 r (some node) := by
    refine rep_congr h5 (nodup_of_cnt fun j => by have := hcnt j; omega) (fun j hj => ?_)
    have := cnt_mem hj; have := hcnt j
    exact other j (ne_of_cnt (by omega)) (ne_of_cnt (by omega))
  have a3 : (m0.node node).left = (tr.node tr.nil p tr.nil).root := by
    rw [fl node, if_pos rfl]; rfl
  have a4 : (m0.node node).right = r.root := by
    rw [fr node, if_neg hne, h3]
  have a5 : (m0.node node).parent = cpar c := by
    rw [fp node, if_neg hne, h1]
  have a6 : crep m0 c (some node) := by
    refine crep_congr hc (nodup_of_cnt fun j => by have := hcnt j; omega) (fun j hj => ?_) ftop
    have := cnt_mem hj; have := hcnt j
    exact other j (ne_of_cnt (by omega)) (ne_of_cnt (by omega))
  have a7 : ((tr.node (tr.node tr.nil p tr.nil) node r).inorder ++ ckeys c).Nodup := by
    refine nodup_of_cnt fun j => ?_
    have := hcnt j
    simp only [tr.inorder, List.count_append, List.count_cons, List.count_nil] at this ⊢
    omega
  have a8 : c.length < fuel := by
    have := ckeys_length c
    simp only [tr.inorder, List.length_append, List.length_cons, List.length_nil] at hlen hf
    omega
  obtain ⟨m1, t1', e1, r1, r2, r3, r4⟩ := avl_rebalance_spec c fuel a1 a2 a3 a4 a5 a6 a7 a8
  refine ⟨m1, e.trans e1, ⟨t1', r1, r2, ?_, ?_, ?_, ?_, ?_⟩, fun k => ?_⟩
  · rw [r3, plug_inorder]; simp [tr.inorder]
  · refine nodup_of_cnt fun j => ?_
    have := hcT j
    simp only [List.count_append, List.count_cons, List.count_nil] at this ⊢
    omega
  · -- the thread
    refine thr_congr (m := m0) ?_ (fun x _ => ⟨(r4.1 x).2.1, (r4.1 x).1⟩)
    refine (thr_append _ _ _ _).mpr ⟨?_, ?_, ?_, ?_, ?_, ?_⟩
    · refine thr_end (some p) t1 (nodup_of_cnt fun j => by have := hcT j; omega)
        (fun x hx => ?_) (fun x hx hlast => ?_) (fun x hx => ?_)
      · have := cnt_mem hx; have := hcT x
        rw [fpv x, if_neg (ne_of_cnt (by omega)), if_neg (ne_of_cnt (by omega))]
      · have := cnt_mem hx; have := hcT x
        rw [fnx x, if_neg (by rw [t3]; exact hlast), if_neg (ne_of_cnt (by omega))]
      · rw [fnx x, if_pos (by rw [t3]; exact hx)]
    · rw [fpv p, if_neg hpn, if_pos rfl, t3]
    · rw [fnx p, if_neg hnp, if_pos rfl]; rfl
    · rw [fpv node, if_pos rfl]
    · rw [fnx node, if_neg hnn, if_neg hne, t4]
    · refine thr_congr t5 (fun x hx => ?_)
      have := cnt_mem hx; have := hcT x
      have e3 : (m.node node).prev ≠ some x := by
        rw [t3]
        intro hh
        have := cnt_mem (lastOr_none_mem hh)
        omega
      rw [fpv x, fnx x, if_neg (ne_of_cnt (by omega)), if_neg (ne_of_cnt (by omega)),
        if_neg e3, if_neg (ne_of_cnt (by omega))]
      exact ⟨rfl, rfl⟩
  · rw [r4.2.1, fhead, t3, hhead]
    cases hA : cleft c with
    | nil => simp [lastOr, headOr]
    | cons a A' => simp [headOr, lastOr_cons_ne]
  · rw [r4.2.2, ftail, htail, lastOr_append, lastOr_append]
    rfl
  · exact ⟨(r4.1 k).2.2.1.trans (fattr k).1, (r4.1 k).2.2.2.trans (fattr k).2⟩

theorem avl_insert_after_spec {m : avl_mem α} {A B : List Nat} {node p : Nat} {fuel : Nat}
    (h : tree_list m (A ++ node :: B)) (hright : (m.node node).right = none)
    (hp : p ∉ A ++ node :: B) (hf : (A ++ node :: B).length ≤ fuel) :
    ∃ m', avl_insert_after fuel m (some node) p = some m' ∧
      tree_list m' (A ++ node :: p :: B) ∧
      ∀ k, (m'.node k).item = (m.node k).item ∧ (m'.node k).domr = (m.node k).domr := by
  obtain ⟨t, htop, hrep, hin, hnd, hthr, hhead, htail⟩ := h
  obtain ⟨c, l, r, rfl⟩ := exists_plug (show node ∈ t.inorder by rw [hin]; simp)
  obtain ⟨⟨h1, h2, h3, h4, h5⟩, hc⟩ := (rep_plug c _).mp ⟨hrep, htop⟩
  have hr : r = tr.nil := root_eq_none (h3.symm.trans hright)
  subst hr
  have hT : A ++ node :: B = (cleft c ++ l.inorder) ++ node :: cright c := by
    rw [← hin, plug_inorder]; simp [tr.inorder]
  obtain ⟨hA, hB⟩ := split_unique hnd hT
  subst hA hB
  have hlen := plug_length c (tr.node l node tr.nil)
  rw [hin] at hlen
  have hnd' : ((cleft c ++ l.inorder) ++ node :: p :: cright c).Nodup := by
    have h1 : (p :: ((cleft c ++ l.inorder) ++ node :: cright c)).Nodup :=
      List.nodup_cons.mpr ⟨hp, hnd⟩
    have h2 : ((cleft c ++ l.inorder ++ [node]) ++ p :: cright c).Nodup := by
      refine List.nodup_middle.mpr ?_
      simpa [List.append_assoc] using h1
    simpa [List.append_assoc] using h2
  have hcT : ∀ j, (cleft c ++ l.inorder).count j + [node].count j + [p].count j +
      (cright c).count j ≤ 1 := by
    intro j
    have h1 := List.nodup_iff_count_le_one.mp hnd' j
    simp only [List.count_append, List.count_cons, List.count_nil] at h1 ⊢
    omega
  have hcnt : ∀ j, [p].count j + [node].count j + l.inorder.count j + (ckeys c).count j ≤ 1 := by
    intro j
    have := hcT j
    have := ckeys_count c j
    simp only [List.count_append] at *
    omega
  have hne : node ≠ p := by
    have := hcT node; have := cnt_self node; exact ne_of_cnt (by omega)
  obtain ⟨m0, e, fr, fl, fp, fnx, fpv, fattr, ftop, ftail, fhead⟩ :=
    insert_after_fields fuel hne hright
  obtain ⟨t1, t2⟩ := (thr_append _ _ _ _).mp hthr
  obtain ⟨t3, t4, t5⟩ := t2
  have hnp : (m.node node).next ≠ some p := by
    rw [t4]
    intro hh
    have := cnt_mem (headOr_none_mem hh); have := hcT p; have := cnt_self p
    omega
  have hnn : (m.node node).next ≠ some node := by
    rw [t4]
    intro hh
    have := cnt_mem (headOr_none_mem hh); have := hcT node; have := cnt_self node
    omega
  have hpn : p ≠ node := hne.symm
  have a1 : rep m0 (tr.node tr.nil p tr.nil) (some node) := by
    refine ⟨?_, ?_, ?_, trivial, trivial⟩
    · rw [fp p, if_pos rfl]
    · rw [fl p, if_pos rfl]; rfl
    · rw [fr p, if_neg hpn, if_pos rfl]; rfl
  have other : ∀ j, j ≠ p → j ≠ node → (m0.node j).left = (m.node j).left ∧
      (m0.node j).right = (m.node j).right ∧ (m0.node j).parent = (m.node j).parent := by
    intro j e1 e2
    rw [fl j, fr j, fp j, if_neg e2, if_neg e1, if_neg e1, if_neg e1]
    exact ⟨rfl, rfl, rfl⟩
  have a2 : rep m0 l (some node) := by
    refine rep_congr h4 (nodup_of_cnt fun j => by have := hcnt j; omega) (fun j hj => ?_)
    have := cnt_mem hj; have := hcnt j
    exact other j (ne_of_cnt (by omega)) (ne_of_cnt (by omega))
  have a3 : (m0.node node).right = (tr.node tr.nil p tr.nil).root := by
    rw [fr node, if_pos rfl]; rfl
  have a4 : (m0.node node).left = l.root := by
    rw [fl node, if_neg hne, h2]
  have a5 : (m0.node node).parent = cpar c := by
    rw [fp node, if_neg hne, h1]
  have a6 : crep m0 c (some node) := by
    refine crep_congr hc (nodup_of_cnt fun j => by have := hcnt j; omega) (fun j hj => ?_) ftop
    have := cnt_mem hj; have := hcnt j
    exact other j (ne_of_cnt (by omega)) (ne_of_cnt (by omega))
  have a7 : ((tr.node l node (tr.node tr.nil p tr.nil)).inorder ++ ckeys c).Nodup := by
    refine nodup_of_cnt fun j => ?_
    have := hcnt j
    simp only [tr.inorder, List.count_append, List.count_cons, List.count_nil] at this ⊢
    omega
  have a8 : c.length < fuel := by
    have := ckeys_length c
    simp only [tr.inorder, List.length_append, List.length_cons, List.length_nil] at hlen hf
    omega
  obtain ⟨m1, t1', e1, r1, r2, r3, r4⟩ := avl_rebalance_spec c fuel a2 a1 a4 a3 a5 a6 a7 a8
  refine ⟨m1, e.trans e1, ⟨t1', r1, r2, ?_, hnd', ?_, ?_, ?_⟩, fun k => ?_⟩
  · rw [r3, plug_inorder]; simp [tr.inorder]
  · refine thr_congr (m := m0) ?_ (fun x _ => ⟨(r4.1 x).2.1, (r4.1 x).1⟩)
    refine (thr_append _ _ _ _).mpr ⟨?_, ?_, ?_, ?_, ?_, ?_⟩
    · refine thr_congr t1 (fun x hx => ?_)
      have := cnt_mem hx; have := hcT x
      have e3 : (m.node node).next ≠ some x := by
        rw [t4]
        intro hh
        have := cnt_mem (headOr_none_mem hh)
        omega
      rw [fpv x, fnx x, if_neg e3, if_neg (ne_of_cnt (by omega)),
        if_neg (ne_of_cnt (by omega)), if_neg (ne_of_cnt (by omega))]
      exact ⟨rfl, rfl⟩
    · rw [fpv node, if_neg hnn, if_neg hne, t3]
    · rw [fnx node, if_pos rfl]; rfl
    · rw [fpv p, if_neg hnp, if_pos rfl]
    · rw [fnx p, if_neg hpn, if_pos rfl, t4]
    · refine thr_start (some p) t5 (nodup_of_cnt fun j => by have := hcT j; omega)
        (fun x hx => ?_) (fun x hx hfirst => ?_) (fun x hx => ?_)
      · have := cnt_mem hx; have := hcT x
        rw [fnx x, if_neg (ne_of_cnt (by omega)), if_neg (ne_of_cnt (by omega))]
      · have := cnt_mem hx; have := hcT x
        rw [fpv x, if_neg (by rw [t4]; exact hfirst), if_neg (ne_of_cnt (by omega))]
      · rw [fpv x, if_pos (by rw [t4]; exact hx)]
  · rw [r4.2.1, fhead, hhead, headOr_append _ (node :: cright c),
      headOr_append _ (node :: p :: cright c)]
    rfl
  · rw [r4.2.2, ftail, t4, htail]
    simp only [lastOr_append]
    cases hB : cright c with
    | nil => simp [lastOr, headOr]
    | cons b B' => simp [headOr, lastOr]
  · exact ⟨(r4.1 k).2.2.1.trans (fattr k).1, (r4.1 k).2.2.2.trans (fattr k).2⟩

end

section
set_option linter.unusedSectionVars false
variable {α : Type} [LinearOrderedCommRing α]

/-! ### `avl_search_closest` -/

theorem compare_tree_asc_cases (x1 x2 : Nat → α) :
    compare_tree_asc x1 x2 = -1 ∨ compare_tree_asc x1 x2 = 1 := by
  unfold compare_tree_asc
  split_ifs <;> simp

theorem avl_search_closest_go_spec {m : avl_mem α} (item : Nat → α) :
    ∀ (t : tr) (par : Option Nat) (A B : List Nat) (fuel : Nat) (k : Nat), t.root = some k →
    rep m t par → t.inorder = A ++ B →
    (∀ a, a ∈ A → ¬ compare_tree_asc item (m.node a).item < 0) →
    (∀ b, b ∈ B → compare_tree_asc item (m.node b).item < 0) →
    t.inorder.length ≤ fuel →
    ∃ node, (avl_search_closest.go m item fuel k = some (some node, -1) ∧
        (∃ B', B = node :: B') ∧ (m.node node).left = none) ∨
      (avl_search_closest.go m item fuel k = some (some node, 1) ∧
        (∃ A', A = A' ++ [node]) ∧ (m.node node).right = none)
  | .nil, _, _, _, _, _, h, _, _, _, _, _ => by simp [tr.root] at h
  | .node l x r, par, A, B, 0, k, _, _, _, _, _, hf => by simp [tr.inorder] at hf
  | .node l x r, par, A, B, fuel + 1, k, hk, hrep, hin, hA, hB, hf => by
    simp only [tr.root, Option.some.injEq] at hk
    subst hk
    obtain ⟨h1, h2, h3, h4, h5⟩ := hrep
    simp only [tr.inorder, List.length_append, List.length_cons] at hf
    simp only [tr.inorder] at hin
    by_cases hc : compare_tree_asc item (m.node x).item < 0
    · -- go left
      have hsplit : ∃ B1, l.inorder = A ++ B1 ∧ B = B1 ++ x :: r.inorder := by
        rcases List.append_eq_append_iff.mp hin.symm with ⟨a', e1, e2⟩ | ⟨c', e1, e2⟩
        · exact ⟨a', e1, e2⟩
        · cases c' with
          | nil =>
            simp only [List.append_nil] at e1
            simp only [List.nil_append] at e2
            exact ⟨[], by simp [e1], by simp [e2]⟩
          | cons y c'' =>
            simp only [List.cons_append, List.cons.injEq] at e2
            exfalso
            exact hA x (by rw [e1, ← e2.1]; simp) hc
      obtain ⟨B1, e1, e2⟩ := hsplit
      cases l with
      | nil =>
        refine ⟨x, Or.inl ⟨?_, ?_, h2⟩⟩
        · simp only [avl_search_closest.go, hc, if_true, h2, tr.root]
        · simp only [tr.inorder] at e1
          have hB1 : B1 = [] := by
            have := congrArg List.length e1
            simp only [List.length_nil, List.length_append] at this
            exact List.length_eq_zero.mp (by omega)
          subst hB1
          exact ⟨r.inorder, by simpa using e2⟩
      | node la lk lb =>
        obtain ⟨node, hres⟩ := avl_search_closest_go_spec item (tr.node la lk lb) (some x) A B1
          fuel lk rfl h4 e1 hA (fun b hb => hB b (by rw [e2]; simp [hb])) (by omega)
        have hgo : avl_search_closest.go m item (fuel + 1) x =
            avl_search_closest.go m item fuel lk := by
          simp only [avl_search_closest.go, hc, if_true, h2, tr.root]
        rw [hgo]
        rcases hres with ⟨g1, ⟨B', g2⟩, g3⟩ | ⟨g1, g2, g3⟩
        · exact ⟨node, Or.inl ⟨g1, ⟨B' ++ x :: r.inorder, by rw [e2, g2]; simp⟩, g3⟩⟩
        · exact ⟨node, Or.inr ⟨g1, g2, g3⟩⟩
    · -- go right
      have hc' : compare_tree_asc item (m.node x).item > 0 := by
        rcases compare_tree_asc_cases item (m.node x).item with h | h
        · rw [h] at hc; simp at hc
        · rw [h]; simp
      have hsplit : ∃ A2, A = l.inorder ++ x :: A2 ∧ r.inorder = A2 ++ B := by
        rcases List.append_eq_append_iff.mp hin.symm with ⟨a', e1, e2⟩ | ⟨c', e1, e2⟩
        · exfalso
          exact hc (hB x (by rw [e2]; simp))
        · cases c' with
          | nil =>
            exfalso
            simp only [List.nil_append] at e2
            exact hc (hB x (by rw [← e2]; simp))
          | cons y c'' =>
            simp only [List.cons_append, List.cons.injEq] at e2
            exact ⟨c'', by rw [e1, e2.1], e2.2⟩
      obtain ⟨A2, e1, e2⟩ := hsplit
      cases r with
      | nil =>
        refine ⟨x, Or.inr ⟨?_, ?_, h3⟩⟩
        · simp only [avl_search_closest.go, hc, hc', if_true, if_false, h3, tr.root]
        · simp only [tr.inorder] at e2
          have hA2 : A2 = [] := by
            have := congrArg List.length e2
            simp only [List.length_nil, List.length_append] at this
            exact List.length_eq_zero.mp (by omega)
          subst hA2
          exact ⟨l.inorder, e1⟩
      | node ra rk rb =>
        obtain ⟨node, hres⟩ := avl_search_closest_go_spec item (tr.node ra rk rb) (some x) A2 B
          fuel rk rfl h5 e2 (fun a ha => hA a (by rw [e1]; simp [ha])) hB
          (by simp only [tr.inorder, List.length_append, List.length_cons] at hf ⊢; omega)
        have hgo : avl_search_closest.go m item (fuel + 1) x =
            avl_search_closest.go m item fuel rk := by
          simp only [avl_search_closest.go, hc, hc', if_true, if_false, h3, tr.root]
        rw [hgo]
        rcases hres with ⟨g1, g2, g3⟩ | ⟨g1, ⟨A', g2⟩, g3⟩
        · exact ⟨node, Or.inl ⟨g1, g2, g3⟩⟩
        · exact ⟨node, Or.inr ⟨g1, ⟨l.inorder ++ x :: A', by rw [e1, g2]; simp⟩, g3⟩⟩

theorem avl_search_closest_spec {m : avl_mem α} (item : Nat → α) {A B : List Nat} {fuel : Nat}
    (h : tree_list m (A ++ B)) (hne : A ++ B ≠ [])
    (hA : ∀ a, a ∈ A → ¬ compare_tree_asc item (m.node a).item < 0)
    (hB : ∀ b, b ∈ B → compare_tree_asc item (m.node b).item < 0)
    (hf : (A ++ B).length ≤ fuel) :
    ∃ node, (avl_search_closest fuel m item = some (some node, -1) ∧
        (∃ B', B = node :: B') ∧ (m.node node).left = none) ∨
      (avl_search_closest fuel m item = some (some node, 1) ∧
        (∃ A', A = A' ++ [node]) ∧ (m.node node).right = none) := by
  obtain ⟨t, htop, hrep, hin, hnd, hthr, hhead, htail⟩ := h
  cases t with
  | nil => exact absurd hin.symm hne
  | node l k r =>
    have e : avl_search_closest fuel m item = avl_search_closest.go m item fuel k := by
      unfold avl_search_closest
      rw [htop]
      rfl
    rw [e]
    exact avl_search_closest_go_spec item (tr.node l k r) none A B fuel k rfl hrep hin hA hB
      (by rw [hin]; exact hf)

end

section
set_option linter.unusedSectionVars false
variable {α : Type}

/-! ### `avl_unlink_node`, pointer by pointer -/

theorem unlink_fields_a {m : avl_mem α} {k : Nat} (fuel : Nat)
    (hleft : (m.node k).left = none) :
    ∃ m0 isL, avl_unlink_node fuel m k = avl_rebalance fuel m0 (m.node k).parent ∧
      side m (m.node k).parent k isL ∧ unthreaded m m0 k ∧
      (∀ j, (m0.node j).left =
        if (m.node k).parent = some j ∧ isL = true then (m.node k).right
        else (m.node j).left) ∧
      (∀ j, (m0.node j).right =
        if (m.node k).parent = some j ∧ isL = false then (m.node k).right
        else (m.node j).right) ∧
      (∀ j, (m0.node j).parent =
        if (m.node k).right = some j then (m.node k).parent else (m.node j).parent) ∧
      m0.tree.top = (if (m.node k).parent = none then (m.node k).right else m.tree.top) := by
  rcases hpar : (m.node k).parent with _ | par
  · rcases hprev : (m.node k).prev with _ | pv <;> rcases hnext : (m.node k).next with _ | nx <;>
    · simp only [avl_unlink_node, hprev, hnext, hpar, hleft, avl_next_setNext, avl_prev_setNext,
        avl_parent_setNext, avl_left_setNext, avl_right_setNext, avl_next_setPrev,
        avl_prev_setPrev, avl_parent_setPrev, avl_left_setPrev, avl_right_setPrev, ite_self]
      exact ⟨_, false, rfl, by intro p hp; simp at hp,
        ⟨fun j => by simp [hprev, hnext, eq_comm], fun j => by simp [hprev, hnext, eq_comm],
          fun j => by simp, by simp [hprev, hnext], by simp [hprev, hnext]⟩,
        fun j => by simp, fun j => by simp, fun j => by simp, by simp⟩
  · rcases hprev : (m.node k).prev with _ | pv <;> rcases hnext : (m.node k).next with _ | nx <;>
    · simp only [avl_unlink_node, hprev, hnext, hpar, hleft, avl_next_setNext, avl_prev_setNext,
        avl_parent_setNext, avl_left_setNext, avl_right_setNext, avl_next_setPrev,
        avl_prev_setPrev, avl_parent_setPrev, avl_left_setPrev, avl_right_setPrev, ite_self]
      exact ⟨_, decide ((m.node par).left = some k), rfl,
        by intro q hq; simp only [Option.some.injEq] at hq; subst hq; simp,
        ⟨fun j => by simp [hprev, hnext, eq_comm], fun j => by simp [hprev, hnext, eq_comm],
          fun j => by simp, by simp [hprev, hnext], by simp [hprev, hnext]⟩,
        fun j => by simp, fun j => by simp, fun j => by simp, by simp⟩

theorem unlink_fields_b {m : avl_mem α} {k l : Nat} (fuel : Nat)
    (hleft : (m.node k).left = some l) (hright : (m.node k).right = none) :
    ∃ m0 isL, avl_unlink_node fuel m k = avl_rebalance fuel m0 (m.node k).parent ∧
      side m (m.node k).parent k isL ∧ unthreaded m m0 k ∧
      (∀ j, (m0.node j).left =
        if (m.node k).parent = some j ∧ isL = true then some l else (m.node j).left) ∧
      (∀ j, (m0.node j).right =
        if (m.node k).parent = some j ∧ isL = false then some l else (m.node j).right) ∧
      (∀ j, (m0.node j).parent = if j = l then (m.node k).parent else (m.node j).parent) ∧
      m0.tree.top = (if (m.node k).parent = none then some l else m.tree.top) := by
  rcases hpar : (m.node k).parent with _ | par
  · rcases hprev : (m.node k).prev with _ | pv <;> rcases hnext : (m.node k).next with _ | nx <;>
    · simp only [avl_unlink_node, hprev, hnext, hpar, hleft, hright, avl_next_setNext, avl_prev_setNext,
        avl_parent_setNext, avl_left_setNext, avl_right_setNext, avl_next_setPrev,
        avl_prev_setPrev, avl_parent_setPrev, avl_left_setPrev, avl_right_setPrev, ite_self]
      exact ⟨_, false, rfl,
        by intro p hp; simp at hp,
        ⟨fun j => by simp [hprev, hnext, eq_comm], fun j => by simp [hprev, hnext, eq_comm],
          fun j => by simp, by simp [hprev, hnext], by simp [hprev, hnext]⟩,
        fun j => by simp, fun j => by simp, fun j => by simp, by simp⟩
  · rcases hprev : (m.node k).prev with _ | pv <;> rcases hnext : (m.node k).next with _ | nx <;>
    · simp only [avl_unlink_node, hprev, hnext, hpar, hleft, hright, avl_next_setNext, avl_prev_setNext,
        avl_parent_setNext, avl_left_setNext, avl_right_setNext, avl_next_setPrev,
        avl_prev_setPrev, avl_parent_setPrev, avl_left_setPrev, avl_right_setPrev, ite_self]
      exact ⟨_, decide ((m.node par).left = some k), rfl,
        by intro q hq; simp only [Option.some.injEq] at hq; subst hq; simp,
        ⟨fun j => by simp [hprev, hnext, eq_comm], fun j => by simp [hprev, hnext, eq_comm],
          fun j => by simp, by simp [hprev, hnext], by simp [hprev, hnext]⟩,
        fun j => by simp, fun j => by simp, fun j => by simp, by simp⟩

theorem unlink_fields_c {m : avl_mem α} {k l r : Nat} (fuel : Nat)
    (hleft : (m.node k).left = some l) (hright : (m.node k).right = some r)
    (hprev : (m.node k).prev = some l) :
    ∃ m0 isL, avl_unlink_node fuel m k = avl_rebalance fuel m0 (some l) ∧
      side m (m.node k).parent k isL ∧ unthreaded m m0 k ∧
      (∀ j, (m0.node j).left =
        if (m.node k).parent = some j ∧ isL = true then some l else (m.node j).left) ∧
      (∀ j, (m0.node j).right =
        if (m.node k).parent = some j ∧ isL = false then some l
        else if j = l then some r else (m.node j).right) ∧
      (∀ j, (m0.node j).parent = if j = r then some l
        else if j = l then (m.node k).parent else (m.node j).parent) ∧
      m0.tree.top = (if (m.node k).parent = none then some l else m.tree.top) := by
  rcases hpar : (m.node k).parent with _ | par
  · rcases hnext : (m.node k).next with _ | nx <;>
    · simp only [avl_unlink_node, hprev, hnext, hpar, hleft, hright, if_true, avl_next_setNext, avl_prev_setNext,
        avl_parent_setNext, avl_left_setNext, avl_right_setNext, avl_next_setPrev,
        avl_prev_setPrev, avl_parent_setPrev, avl_left_setPrev, avl_right_setPrev, ite_self]
      exact ⟨_, false, rfl,
        by intro p hp; simp at hp,
        ⟨fun j => by simp [hprev, hnext, eq_comm], fun j => by simp [hprev, hnext, eq_comm],
          fun j => by simp, by simp [hprev, hnext], by simp [hprev, hnext]⟩,
        fun j => by simp, fun j => by simp, fun j => by simp, by simp⟩
  · rcases hnext : (m.node k).next with _ | nx <;>
    · simp only [avl_unlink_node, hprev, hnext, hpar, hleft, hright, if_true, avl_next_setNext, avl_prev_setNext,
        avl_parent_setNext, avl_left_setNext, avl_right_setNext, avl_next_setPrev,
        avl_prev_setPrev, avl_parent_setPrev, avl_left_setPrev, avl_right_setPrev, ite_self]
      exact ⟨_, decide ((m.node par).left = some k), rfl,
        by intro q hq; simp only [Option.some.injEq] at hq; subst hq; simp,
        ⟨fun j => by simp [hprev, hnext, eq_comm], fun j => by simp [hprev, hnext, eq_comm],
          fun j => by simp, by simp [hprev, hnext], by simp [hprev, hnext]⟩,
        fun j => by simp, fun j => by simp, fun j => by simp, by simp⟩

theorem unlink_fields_d {m : avl_mem α} {k l r s bal : Nat} (fuel : Nat)
    (hleft : (m.node k).left = some l) (hright : (m.node k).right = some r)
    (hprev : (m.node k).prev = some s) (hsl : s ≠ l) (hsp : (m.node s).parent = some bal) :
    ∃ m0 isL, avl_unlink_node fuel m k = avl_rebalance fuel m0 (some bal) ∧
      side m (m.node k).parent k isL ∧ unthreaded m m0 k ∧
      (∀ j, (m0.node j).left =
        if (m.node k).parent = some j ∧ isL = true then some s
        else if j = s then some l else (m.node j).left) ∧
      (∀ j, (m0.node j).right =
        if (m.node k).parent = some j ∧ isL = false then some s
        else if j = s then some r
        else if j = bal then (m.node s).left else (m.node j).right) ∧
      (∀ j, (m0.node j).parent = if j = r then some s
        else if j = s then (m.node k).parent else if j = l then some s
        else if (m.node s).left = some j then some bal else (m.node j).parent) ∧
      m0.tree.top = (if (m.node k).parent = none then some s else m.tree.top) := by
  rcases hpar : (m.node k).parent with _ | par
  · rcases hnext : (m.node k).next with _ | nx <;>
    · simp only [avl_unlink_node, hprev, hnext, hpar, hleft, hright, hsl, if_false, hsp, avl_next_setNext, avl_prev_setNext,
        avl_parent_setNext, avl_left_setNext, avl_right_setNext, avl_next_setPrev,
        avl_prev_setPrev, avl_parent_setPrev, avl_left_setPrev, avl_right_setPrev, ite_self]
      exact ⟨_, false, rfl,
        by intro p hp; simp at hp,
        ⟨fun j => by simp [hprev, hnext, eq_comm], fun j => by simp [hprev, hnext, eq_comm],
          fun j => by simp, by simp [hprev, hnext], by simp [hprev, hnext]⟩,
        fun j => by simp, fun j => by simp, fun j => by simp, by simp⟩
  · rcases hnext : (m.node k).next with _ | nx <;>
    · simp only [avl_unlink_node, hprev, hnext, hpar, hleft, hright, hsl, if_false, hsp, avl_next_setNext, avl_prev_setNext,
        avl_parent_setNext, avl_left_setNext, avl_right_setNext, avl_next_setPrev,
        avl_prev_setPrev, avl_parent_setPrev, avl_left_setPrev, avl_right_setPrev, ite_self]
      exact ⟨_, decide ((m.node par).left = some k), rfl,
        by intro q hq; simp only [Option.some.injEq] at hq; subst hq; simp,
        ⟨fun j => by simp [hprev, hnext, eq_comm], fun j => by simp [hprev, hnext, eq_comm],
          fun j => by simp, by simp [hprev, hnext], by simp [hprev, hnext]⟩,
        fun j => by simp, fun j => by simp, fun j => by simp, by simp⟩

/-! ### `avl_unlink_node` on trees -/

theorem unthread_spec {m m0 : avl_mem α} {A B : List Nat} {k : Nat}
    (hthr : thr m none (A ++ k :: B) none) (hnd : (A ++ k :: B).Nodup)
    (hhead : m.tree.head = headOr (A ++ k :: B) none)
    (htail : m.tree.tail = lastOr (A ++ k :: B) none) (hu : unthreaded m m0 k) :
    thr m0 none (A ++ B) none ∧ m0.tree.head = headOr (A ++ B) none ∧
      m0.tree.tail = lastOr (A ++ B) none ∧ (m0.node k).prev = (m.node k).prev ∧
      (m0.node k).next = (m.node k).next := by
  obtain ⟨fnx, fpv, _, fhead, ftail⟩ := hu
  obtain ⟨t1, t3, t4, t5⟩ := (thr_append _ _ _ _).mp hthr
  have hcT : ∀ j, A.count j + [k].count j + B.count j ≤ 1 := by
    intro j
    have h1 := List.nodup_iff_count_le_one.mp hnd j
    simp only [List.count_append, List.count_cons, List.count_nil] at h1 ⊢
    omega
  have hpA : ∀ x, (m.node k).prev = some x → x ∈ A := fun x hx =>
    lastOr_none_mem (t3.symm.trans hx)
  have hnB : ∀ x, (m.node k).next = some x → x ∈ B := fun x hx =>
    headOr_none_mem (t4.symm.trans hx)
  refine ⟨(thr_append _ _ _ _).mpr ⟨?_, ?_⟩, ?_, ?_, ?_, ?_⟩
  · refine thr_end (headOr B none) t1 (nodup_of_cnt fun j => by have := hcT j; omega)
      (fun x hx => ?_) (fun x hx hlast => ?_) (fun x hx => ?_)
    · rw [fpv x, if_neg]
      intro hh
      have := cnt_mem hx; have := cnt_mem (hnB x hh); have := hcT x
      omega
    · rw [fnx x, if_neg (by rw [t3]; exact hlast)]
    · rw [fnx x, if_pos (by rw [t3]; exact hx), t4]
  · refine thr_start (lastOr A none) t5 (nodup_of_cnt fun j => by have := hcT j; omega)
      (fun x hx => ?_) (fun x hx hfirst => ?_) (fun x hx => ?_)
    · rw [fnx x, if_neg]
      intro hh
      have := cnt_mem hx; have := cnt_mem (hpA x hh); have := hcT x
      omega
    · rw [fpv x, if_neg (by rw [t4]; exact hfirst)]
    · rw [fpv x, if_pos (by rw [t4]; exact hx), t3]
  · rw [fhead, t3, t4, hhead]
    cases A with
    | nil => simp [lastOr]
    | cons a A' => simp [headOr, lastOr_cons_ne]
  · rw [ftail, t3, t4, htail]
    simp only [lastOr_append]
    cases B with
    | nil => simp [headOr, lastOr]
    | cons b B' => simp [headOr, lastOr]
  · rw [fpv k, if_neg]
    intro hh
    have := cnt_mem (hnB k hh); have := hcT k; have := cnt_self k
    omega
  · rw [fnx k, if_neg]
    intro hh
    have := cnt_mem (hpA k hh); have := hcT k; have := cnt_self k
    omega

/-- Replacing a node by its only subtree. -/
theorem unlink_child {m m0 : avl_mem α} {c : List frm} {u : tr} {k : Nat} {isL : Bool}
    (hu : rep m u (some k)) (hc : crep m c (some k))
    (hnd : (u.inorder ++ k :: ckeys c).Nodup) (hs : side m (cpar c) k isL)
    (fl : ∀ j, (m0.node j).left =
      if cpar c = some j ∧ isL = true then u.root else (m.node j).left)
    (fr : ∀ j, (m0.node j).right =
      if cpar c = some j ∧ isL = false then u.root else (m.node j).right)
    (fp : ∀ j, (m0.node j).parent = if u.root = some j then cpar c else (m.node j).parent)
    (ft : m0.tree.top = if cpar c = none then u.root else m.tree.top) :
    rep m0 u (cpar c) ∧ crep m0 c u.root := by
  have hcnt : ∀ j, u.inorder.count j + [k].count j + (ckeys c).count j ≤ 1 := by
    intro j
    have h1 := List.nodup_iff_count_le_one.mp hnd j
    simp only [List.count_append, List.count_cons, List.count_nil] at h1 ⊢
    omega
  refine ⟨?_, ?_⟩
  · refine rep_of_agree hu (nodup_of_cnt fun j => by have := hcnt j; omega) (fun j hj => ?_)
      (fun j hj hne => ?_) (fun j hj => ?_)
    · have := cnt_mem hj; have := hcnt j
      have e3 : ¬ (cpar c = some j ∧ isL = true) :=
        fun e => not_mem_of_cnt (by omega) (cpar_mem e.1)
      have e4 : ¬ (cpar c = some j ∧ isL = false) :=
        fun e => not_mem_of_cnt (by omega) (cpar_mem e.1)
      rw [fl j, fr j, if_neg e3, if_neg e4]
      exact ⟨rfl, rfl⟩
    · rw [fp j, if_neg hne]
    · rw [fp j, if_pos hj]
  · have hk := hcnt k
    have hk1 := cnt_self k
    refine crep_super hc (not_mem_of_cnt (by omega))
      (nodup_of_cnt fun j => by have := hcnt j; omega) hs (fun j _ => fl j) (fun j _ => fr j)
      (fun j hj => ?_) ft
    have := cnt_mem hj; have := hcnt j
    rw [fp j, if_neg (root_ne_of_not_mem (not_mem_of_cnt (by omega)))]

theorem ctop_irrel : ∀ {c : List frm}, c ≠ [] → ∀ (h h' : Option Nat), ctop c h = ctop c h'
  | [], hne, _, _ => absurd rfl hne
  | frm.L _ _ :: _, _, _, _ => rfl
  | frm.R _ _ :: _, _, _, _ => rfl

theorem ctop_mem : ∀ {c : List frm}, c ≠ [] → ∀ (h : Option Nat),
    ∃ y, ctop c h = some y ∧ y ∈ ckeys c
  | [], hne, _ => absurd rfl hne
  | frm.L k r :: [], _, _ => ⟨k, rfl, by simp [ckeys]⟩
  | frm.R l k :: [], _, _ => ⟨k, rfl, by simp [ckeys]⟩
  | frm.L k r :: f :: c, _, _ => by
    obtain ⟨y, h1, h2⟩ := @ctop_mem (f :: c) (by simp) (some k)
    exact ⟨y, h1, by simp only [ckeys, List.mem_cons, List.mem_append]; tauto⟩
  | frm.R l k :: f :: c, _, _ => by
    obtain ⟨y, h1, h2⟩ := @ctop_mem (f :: c) (by simp) (some k)
    exact ⟨y, h1, by simp only [ckeys, List.mem_cons, List.mem_append]; tauto⟩

theorem cpar_append {c1 : List frm} (h : c1 ≠ []) (c2 : List frm) :
    cpar (c1 ++ c2) = cpar c1 := by
  cases c1 with
  | nil => exact absurd rfl h
  | cons f c => cases f <;> rfl

/-- Replacing the frame at the end of a right spine. -/
theorem crep_splice {m m0 : avl_mem α} {k s : Nat} {r : tr} {c : List frm} :
    ∀ (c2 : List frm) (h : Option Nat), rspine c2 → crep m (c2 ++ frm.L k r :: c) h →
    (ckeys c2).Nodup →
    (∀ x, x ∈ ckeys c2 → (m0.node x).left = (m.node x).left ∧
      (m0.node x).right = (m.node x).right) →
    (∀ x, x ∈ ckeys c2 → ctop c2 none ≠ some x → (m0.node x).parent = (m.node x).parent) →
    (∀ x, c2 ≠ [] → ctop c2 none = some x → (m0.node x).parent = some s) →
    crep m0 (frm.L s r :: c) (ctop c2 h) → crep m0 (c2 ++ frm.L s r :: c) h
  | [], _, _, _, _, _, _, _, hnew => hnew
  | frm.L _ _ :: _, _, hrs, _, _, _, _, _, _ => hrs.elim
  | frm.R lb x :: c2, h, hrs, hc, hnd, hlr, hp, hps, hnew => by
    obtain ⟨h1, h2, h3, h4, h5⟩ := hc
    have hcnt : ∀ j, [x].count j + lb.inorder.count j + (ckeys c2).count j ≤ 1 := by
      intro j
      have h1 := List.nodup_iff_count_le_one.mp hnd j
      simp only [ckeys, List.count_append, List.count_cons, List.count_nil] at h1 ⊢
      omega
    have htopne : ∀ j, 0 < lb.inorder.count j + (if c2.length = 0 then 0 else [x].count j) →
        ctop (frm.R lb x :: c2) none ≠ some j := by
      intro j hj hh
      have := hcnt j
      cases c2 with
      | nil =>
        simp only [List.length_nil, if_true] at hj
        simp only [ctop, Option.some.injEq] at hh
        subst hh
        have := cnt_self x
        omega
      | cons f c3 =>
        obtain ⟨y, y1, y2⟩ := @ctop_mem (f :: c3) (by simp) (some x)
        have e : some y = some j := y1.symm.trans hh
        simp only [Option.some.injEq] at e
        subst e
        have := cnt_mem y2
        simp only [List.length_cons, Nat.add_one_ne_zero, if_false] at hj
        omega
    refine ⟨?_, ?_, ?_, ?_, ?_⟩
    · rw [(hlr x (by simp [ckeys])).2]; exact h1
    · rw [(hlr x (by simp [ckeys])).1]; exact h2
    · cases c2 with
      | nil => exact hps x (by simp) rfl
      | cons f c3 =>
        rw [hp x (by simp [ckeys]) (htopne x (by
          have := cnt_self x
          simp only [List.length_cons, Nat.add_one_ne_zero, if_false]
          omega)), h3]
        cases f <;> rfl
    · refine rep_congr h4 (nodup_of_cnt fun j => by have := hcnt j; omega) (fun j hj => ?_)
      have := cnt_mem hj
      exact ⟨(hlr j (by simp [ckeys, hj])).1, (hlr j (by simp [ckeys, hj])).2,
        hp j (by simp [ckeys, hj]) (htopne j (by omega))⟩
    · refine crep_splice c2 (some x) hrs h5 (nodup_of_cnt fun j => by have := hcnt j; omega)
        (fun j hj => hlr j (by simp [ckeys, hj])) (fun j hj hne => ?_) (fun j hne hj => ?_) hnew
      · refine hp j (by simp [ckeys, hj]) ?_
        have : c2 ≠ [] := by
          intro e; subst e; simp [ckeys] at hj
        show ctop c2 (some x) ≠ some j
        rw [ctop_irrel this (some x) none]
        exact hne
      · refine hps j (by simp) ?_
        show ctop c2 (some x) = some j
        rw [ctop_irrel hne (some x) none]
        exact hj

/-- Unlinking a node with two subtrees whose predecessor is its left child. -/
theorem unlink_c1 {m m0 : avl_mem α} {c : List frm} {a r : tr} {k s rk : Nat} {isL : Bool}
    (ha : rep m a (some s)) (hr : rep m r (some k)) (hsl : (m.node s).left = a.root)
    (hc : crep m c (some k)) (hrk : r.root = some rk)
    (hcnt : ∀ j, a.inorder.count j + [s].count j + [k].count j + r.inorder.count j +
      (ckeys c).count j ≤ 1)
    (hs : side m (cpar c) k isL)
    (fl : ∀ j, (m0.node j).left =
      if cpar c = some j ∧ isL = true then some s else (m.node j).left)
    (fr : ∀ j, (m0.node j).right =
      if cpar c = some j ∧ isL = false then some s
      else if j = s then some rk else (m.node j).right)
    (fp : ∀ j, (m0.node j).parent = if j = rk then some s
      else if j = s then cpar c else (m.node j).parent)
    (ft : m0.tree.top = if cpar c = none then some s else m.tree.top) :
    rep m0 a (some s) ∧ rep m0 r (some s) ∧ (m0.node s).left = a.root ∧
      (m0.node s).right = r.root ∧ (m0.node s).parent = cpar c ∧ crep m0 c (some s) := by
  have hrkc := cnt_mem (root_mem hrk)
  have hs0 := hcnt s
  have hs1 := cnt_self s
  have hk0 := hcnt k
  have hk1 := cnt_self k
  have hrk0 := hcnt rk
  have hrk1 := cnt_self rk
  have nerk : ∀ j, 0 < a.inorder.count j + [s].count j + [k].count j + (ckeys c).count j →
      j ≠ rk := by
    intro j hj e
    subst e
    have := hcnt j
    omega
  have nopar : ∀ j (b : Bool), (ckeys c).count j = 0 → ¬ (cpar c = some j ∧ isL = b) :=
    fun j b hj e => not_mem_of_cnt hj (cpar_mem e.1)
  refine ⟨?_, ?_, ?_, ?_, ?_, ?_⟩
  · refine rep_congr ha (nodup_of_cnt fun j => by have := hcnt j; omega) (fun j hj => ?_)
    have := cnt_mem hj; have := hcnt j
    rw [fl j, fr j, fp j, if_neg (nopar j _ (by omega)), if_neg (nopar j _ (by omega)),
      if_neg (ne_of_cnt (by omega)), if_neg (nerk j (by omega)), if_neg (ne_of_cnt (by omega))]
    exact ⟨rfl, rfl, rfl⟩
  · refine rep_of_agree hr (nodup_of_cnt fun j => by have := hcnt j; omega) (fun j hj => ?_)
      (fun j hj hne => ?_) (fun j hj => ?_)
    · have := cnt_mem hj; have := hcnt j
      rw [fl j, fr j, if_neg (nopar j _ (by omega)), if_neg (nopar j _ (by omega)),
        if_neg (ne_of_cnt (by omega))]
      exact ⟨rfl, rfl⟩
    · have := cnt_mem hj; have := hcnt j
      have e1 : j ≠ rk := fun e => hne (by rw [hrk, e])
      rw [fp j, if_neg e1, if_neg (ne_of_cnt (by omega))]
    · have e1 : j = rk := by
        rw [hrk] at hj
        exact (Option.some.inj hj).symm
      rw [fp j, if_pos e1]
  · rw [fl s, if_neg (nopar s _ (by omega)), hsl]
  · rw [fr s, if_neg (nopar s _ (by omega)), if_pos rfl, hrk]
  · rw [fp s, if_neg (nerk s (by omega)), if_pos rfl]
  · refine crep_super hc (not_mem_of_cnt (by omega))
      (nodup_of_cnt fun j => by have := hcnt j; omega) hs (fun j _ => fl j) (fun j hj => ?_)
      (fun j hj => ?_) ft
    · have := cnt_mem hj; have := hcnt j
      rw [fr j, if_neg (ne_of_cnt (by omega) : j ≠ s)]
    · have := cnt_mem hj; have := hcnt j
      rw [fp j, if_neg (nerk j (by omega)), if_neg (ne_of_cnt (by omega))]

/-- Unlinking a node with two subtrees whose predecessor `s` is further down
the right spine of its left subtree. -/
theorem unlink_c2 {m m0 : avl_mem α} {c c2 : List frm} {a lb r : tr}
    {k s bal lk rk : Nat} {isL : Bool} (hrs : rspine c2)
    (ha : rep m a (some s)) (hlb : rep m lb (some bal)) (hr : rep m r (some k))
    (hsl : (m.node s).left = a.root) (hball : (m.node bal).left = lb.root)
    (hbalp : (m.node bal).parent = cpar (c2 ++ frm.L k r :: c))
    (hc2 : crep m (c2 ++ frm.L k r :: c) (some bal)) (hc : crep m c (some k))
    (hlk : ctop c2 (some bal) = some lk) (hrk : r.root = some rk)
    (hcnt : ∀ j, (ckeys c2).count j + lb.inorder.count j + [bal].count j + a.inorder.count j +
      [s].count j + [k].count j + r.inorder.count j + (ckeys c).count j ≤ 1)
    (hs : side m (cpar c) k isL)
    (fl : ∀ j, (m0.node j).left =
      if cpar c = some j ∧ isL = true then some s
      else if j = s then some lk else (m.node j).left)
    (fr : ∀ j, (m0.node j).right =
      if cpar c = some j ∧ isL = false then some s
      else if j = s then some rk
      else if j = bal then (m.node s).left else (m.node j).right)
    (fp : ∀ j, (m0.node j).parent = if j = rk then some s
      else if j = s then cpar c else if j = lk then some s
      else if (m.node s).left = some j then some bal else (m.node j).parent)
    (ft : m0.tree.top = if cpar c = none then some s else m.tree.top) :
    rep m0 lb (some bal) ∧ rep m0 a (some bal) ∧ (m0.node bal).left = lb.root ∧
      (m0.node bal).right = a.root ∧ (m0.node bal).parent = cpar (c2 ++ frm.L s r :: c) ∧
      crep m0 (c2 ++ frm.L s r :: c) (some bal) := by
  have hrkc := cnt_mem (root_mem hrk)
  have hs0 := hcnt s
  have hs1 := cnt_self s
  have hk0 := hcnt k
  have hk1 := cnt_self k
  have hb0 := hcnt bal
  have hb1 := cnt_self bal
  have hlkc : 0 < [bal].count lk + (ckeys c2).count lk := by
    cases c2 with
    | nil =>
      simp only [ctop, Option.some.injEq] at hlk
      subst hlk
      omega
    | cons f c3 =>
      obtain ⟨y, y1, y2⟩ := @ctop_mem (f :: c3) (by simp) (some bal)
      have e : some y = some lk := y1.symm.trans hlk
      simp only [Option.some.injEq] at e
      subst e
      have := cnt_mem y2
      omega
  have nerk : ∀ j, 0 < (ckeys c2).count j + lb.inorder.count j + [bal].count j +
      a.inorder.count j + [s].count j + [k].count j + (ckeys c).count j → j ≠ rk := by
    intro j hj e
    subst e
    have := hcnt j
    omega
  have nelk : ∀ j, 0 < lb.inorder.count j + a.inorder.count j +
      [s].count j + [k].count j + r.inorder.count j + (ckeys c).count j → j ≠ lk := by
    intro j hj e
    subst e
    have := hcnt j
    omega
  have nopar : ∀ j (b : Bool), (ckeys c).count j = 0 → ¬ (cpar c = some j ∧ isL = b) :=
    fun j b hj e => not_mem_of_cnt hj (cpar_mem e.1)
  have noroot : ∀ j, a.inorder.count j = 0 → ¬ (m.node s).left = some j := by
    intro j hj e
    rw [hsl] at e
    exact not_mem_of_cnt hj (root_mem e)
  -- the pointers of a node that is none of the distinguished ones
  have keepl : ∀ j, [s].count j = 0 → (ckeys c).count j = 0 →
      (m0.node j).left = (m.node j).left := by
    intro j e1 e2
    rw [fl j, if_neg (nopar j _ e2), if_neg (ne_of_cnt e1)]
  have keepr : ∀ j, [s].count j = 0 → [bal].count j = 0 → (ckeys c).count j = 0 →
      (m0.node j).right = (m.node j).right := by
    intro j e1 e2 e3
    rw [fr j, if_neg (nopar j _ e3), if_neg (ne_of_cnt e1), if_neg (ne_of_cnt e2)]
  have keepp : ∀ j, j ≠ rk → [s].count j = 0 → j ≠ lk → ¬ (m.node s).left = some j →
      (m0.node j).parent = (m.node j).parent := by
    intro j e1 e2 e3 e4
    rw [fp j, if_neg e1, if_neg (ne_of_cnt e2), if_neg e3, if_neg e4]
  have hrep_r : rep m0 r (some s) := by
    refine rep_of_agree hr (nodup_of_cnt fun j => by have := hcnt j; omega) (fun j hj => ?_)
      (fun j hj hne => ?_) (fun j hj => ?_)
    · have := cnt_mem hj; have := hcnt j
      exact ⟨keepl j (by omega) (by omega), keepr j (by omega) (by omega) (by omega)⟩
    · have := cnt_mem hj; have := hcnt j
      exact keepp j (fun e => hne (by rw [hrk, e])) (by omega) (nelk j (by omega))
        (noroot j (by omega))
    · have e1 : j = rk := by
        rw [hrk] at hj
        exact (Option.some.inj hj).symm
      rw [fp j, if_pos e1]
  have hcrep_c : crep m0 c (some s) := by
    refine crep_super hc (not_mem_of_cnt (by omega))
      (nodup_of_cnt fun j => by have := hcnt j; omega) hs (fun j hj => ?_) (fun j hj => ?_)
      (fun j hj => ?_) ft
    · have := cnt_mem hj; have := hcnt j
      rw [fl j, if_neg (ne_of_cnt (by omega) : j ≠ s)]
    · have := cnt_mem hj; have := hcnt j
      rw [fr j, if_neg (ne_of_cnt (by omega) : j ≠ s), if_neg (ne_of_cnt (by omega) : j ≠ bal)]
    · have := cnt_mem hj; have := hcnt j
      exact keepp j (nerk j (by omega)) (by omega) (nelk j (by omega)) (noroot j (by omega))
  refine ⟨?_, ?_, ?_, ?_, ?_, ?_⟩
  · refine rep_congr hlb (nodup_of_cnt fun j => by have := hcnt j; omega) (fun j hj => ?_)
    have := cnt_mem hj; have := hcnt j
    exact ⟨keepl j (by omega) (by omega), keepr j (by omega) (by omega) (by omega),
      keepp j (nerk j (by omega)) (by omega) (nelk j (by omega)) (noroot j (by omega))⟩
  · refine rep_of_agree ha (nodup_of_cnt fun j => by have := hcnt j; omega) (fun j hj => ?_)
      (fun j hj hne => ?_) (fun j hj => ?_)
    · have := cnt_mem hj; have := hcnt j
      exact ⟨keepl j (by omega) (by omega), keepr j (by omega) (by omega) (by omega)⟩
    · have := cnt_mem hj; have := hcnt j
      exact keepp j (nerk j (by omega)) (by omega) (nelk j (by omega))
        (by rw [hsl]; exact hne)
    · have := cnt_mem (root_mem hj); have := hcnt j
      rw [fp j, if_neg (nerk j (by omega)), if_neg (ne_of_cnt (by omega)),
        if_neg (nelk j (by omega)), if_pos (by rw [hsl]; exact hj)]
  · rw [keepl bal (by omega) (by omega), hball]
  · rw [fr bal, if_neg (nopar bal _ (by omega)), if_neg (ne_of_cnt (by omega)), if_pos rfl, hsl]
  · cases c2 with
    | nil =>
      simp only [ctop, Option.some.injEq] at hlk
      rw [fp bal, if_neg (nerk bal (by omega)), if_neg (ne_of_cnt (by omega)), if_pos hlk]
      rfl
    | cons f c3 =>
      have e3 : bal ≠ lk := by
        intro e
        obtain ⟨y, y1, y2⟩ := @ctop_mem (f :: c3) (by simp) (some bal)
        have e' : some y = some bal := y1.symm.trans (hlk.trans (by rw [e]))
        simp only [Option.some.injEq] at e'
        subst e'
        have := cnt_mem y2
        omega
      rw [keepp bal (nerk bal (by omega)) (by omega) e3 (noroot bal (by omega)), hbalp]
      cases f <;> rfl
  · refine crep_splice c2 (some bal) hrs hc2 (nodup_of_cnt fun j => by have := hcnt j; omega)
      (fun j hj => ?_) (fun j hj hne => ?_) (fun j hne hj => ?_) ⟨?_, ?_, ?_, hrep_r, hcrep_c⟩
    · have := cnt_mem hj; have := hcnt j
      exact ⟨keepl j (by omega) (by omega), keepr j (by omega) (by omega) (by omega)⟩
    · have := cnt_mem hj; have := hcnt j
      have hc2ne : c2 ≠ [] := by
        intro e; subst e; simp [ckeys] at hj
      refine keepp j (nerk j (by omega)) (by omega) ?_ (noroot j (by omega))
      intro e
      apply hne
      rw [ctop_irrel hc2ne none (some bal), hlk, e]
    · obtain ⟨y, y1, y2⟩ := ctop_mem hne none
      have e : some y = some j := y1.symm.trans hj
      simp only [Option.some.injEq] at e
      subst e
      have := cnt_mem y2; have := hcnt y
      have e2 : y = lk := by
        have := (ctop_irrel hne none (some bal)).trans hlk
        rw [y1] at this
        exact Option.some.inj this
      rw [fp y, if_neg (nerk y (by omega)), if_neg (ne_of_cnt (by omega)), if_pos e2]
    · rw [fl s, if_neg (nopar s _ (by omega)), if_pos rfl, hlk]
    · rw [fr s, if_neg (nopar s _ (by omega)), if_pos rfl, hrk]
    · rw [fp s, if_neg (nerk s (by omega)), if_pos rfl]

theorem ctop_some : ∀ (c : List frm) (x : Nat), ∃ y, ctop c (some x) = some y
  | [], x => ⟨x, rfl⟩
  | frm.L k _ :: c, _ => ctop_some c k
  | frm.R _ k :: c, _ => ctop_some c k

theorem ckeys_length_eq (c : List frm) :
    (ckeys c).length = (cleft c).length + (cright c).length := by
  have h : (ckeys c).Perm (cleft c ++ cright c) := by
    rw [List.perm_iff_count]
    intro j
    rw [ckeys_count, List.count_append]
  rw [h.length_eq, List.length_append]

theorem root_of_ne_nil {t : tr} (h : t ≠ tr.nil) : ∃ k, t.root = some k := by
  cases t with
  | nil => exact absurd rfl h
  | node l k r => exact ⟨k, rfl⟩

theorem unlink_finish {m m0 m1 : avl_mem α} {A B : List Nat} {k : Nat} {t1 : tr}
    (hthr : thr m none (A ++ k :: B) none) (hnd : (A ++ k :: B).Nodup)
    (hhead : m.tree.head = headOr (A ++ k :: B) none)
    (htail : m.tree.tail = lastOr (A ++ k :: B) none) (hu : unthreaded m m0 k)
    (hk : keeps m0 m1) (htop : m1.tree.top = t1.root) (hrep : rep m1 t1 none)
    (hin : t1.inorder = A ++ B) :
    tree_list m1 (A ++ B) ∧
      (∀ j, (m1.node j).item = (m.node j).item ∧ (m1.node j).domr = (m.node j).domr) ∧
      (m1.node k).prev = (m.node k).prev ∧ (m1.node k).next = (m.node k).next := by
  obtain ⟨u1, u2, u3, u4, u5⟩ := unthread_spec hthr hnd hhead htail hu
  have hnd' : (A ++ B).Nodup := by
    have := List.nodup_middle.mp hnd
    exact (List.nodup_cons.mp this).2
  refine ⟨⟨t1, htop, hrep, hin, hnd', ?_, ?_, ?_⟩, fun j => ?_, ?_, ?_⟩
  · exact thr_congr u1 (fun x _ => ⟨(hk.1 x).2.1, (hk.1 x).1⟩)
  · rw [hk.2.1, u2]
  · rw [hk.2.2, u3]
  · exact ⟨(hk.1 j).2.2.1.trans (hu.2.2.1 j).1, (hk.1 j).2.2.2.trans (hu.2.2.1 j).2⟩
  · rw [(hk.1 k).2.1, u4]
  · rw [(hk.1 k).1, u5]

theorem avl_unlink_node_spec {m : avl_mem α} {A B : List Nat} {k : Nat} {fuel : Nat}
    (h : tree_list m (A ++ k :: B)) (hf : (A ++ k :: B).length ≤ fuel) :
    ∃ m', avl_unlink_node fuel m k = some m' ∧ tree_list m' (A ++ B) ∧
      (∀ j, (m'.node j).item = (m.node j).item ∧ (m'.node j).domr = (m.node j).domr) ∧
      (m'.node k).prev = (m.node k).prev ∧ (m'.node k).next = (m.node k).next := by
  obtain ⟨t, htop, hrep, hin, hnd, hthr, hhead, htail⟩ := h
  obtain ⟨c, l, r, rfl⟩ := exists_plug (show k ∈ t.inorder by rw [hin]; simp)
  obtain ⟨⟨h1, h2, h3, h4, h5⟩, hc⟩ := (rep_plug c _).mp ⟨hrep, htop⟩
  have hT : A ++ k :: B = (cleft c ++ l.inorder) ++ k :: (r.inorder ++ cright c) := by
    rw [← hin, plug_inorder]; simp [tr.inorder]
  obtain ⟨hA, hB⟩ := split_unique hnd hT
  subst hA hB
  have hlen := plug_length c (tr.node l k r)
  rw [hin] at hlen
  simp only [tr.inorder, List.length_append, List.length_cons] at hlen hf
  have hclen := ckeys_length c
  have hcnt : ∀ j, l.inorder.count j + [k].count j + r.inorder.count j +
      (ckeys c).count j ≤ 1 := by
    intro j
    have h1 := List.nodup_iff_count_le_one.mp hnd j
    have := ckeys_count c j
    simp only [List.count_append, List.count_cons, List.count_nil] at h1 ⊢
    omega
  have hprev : (m.node k).prev = lastOr (cleft c ++ l.inorder) none :=
    ((thr_append _ _ _ _).mp hthr).2.1
  by_cases hl : l = tr.nil
  · -- no left subtree
    subst hl
    obtain ⟨m0, isL, e, hs, hu, fl, fr, fp, ft⟩ := unlink_fields_a fuel (h2.trans rfl)
    simp only [h1, h3] at e hs fl fr fp ft
    obtain ⟨q1, q2⟩ := unlink_child h5 hc
      (nodup_of_cnt fun j => by
        have := hcnt j
        simp only [tr.inorder, List.count_append, List.count_cons, List.count_nil] at this ⊢
        omega) hs fl fr fp ft
    obtain ⟨m1, t1, e1, r1, r2, r3, r4⟩ := avl_rebalance_plug fuel q1 q2
      (nodup_of_cnt fun j => by
        have := hcnt j
        simp only [List.count_append] at this ⊢
        omega) (by omega)
    exact ⟨m1, e.trans e1, unlink_finish hthr hnd hhead htail hu r4 r1 r2
      (by rw [r3, plug_inorder]; simp [tr.inorder])⟩
  · by_cases hr : r = tr.nil
    · -- no right subtree
      subst hr
      obtain ⟨lk, hlk⟩ := root_of_ne_nil hl
      obtain ⟨m0, isL, e, hs, hu, fl, fr, fp, ft⟩ :=
        unlink_fields_b fuel (h2.trans hlk) (h3.trans rfl)
      simp only [h1] at e hs fl fr fp ft
      obtain ⟨q1, q2⟩ := unlink_child (u := l) h4 hc
        (nodup_of_cnt fun j => by
          have := hcnt j
          simp only [tr.inorder, List.count_append, List.count_cons, List.count_nil] at this ⊢
          omega) hs (by rw [hlk]; exact fl) (by rw [hlk]; exact fr)
        (fun j => by
          rw [fp j, hlk]
          simp only [Option.some.injEq]
          exact if_congr eq_comm rfl rfl) (by rw [hlk]; exact ft)
      obtain ⟨m1, t1, e1, r1, r2, r3, r4⟩ := avl_rebalance_plug fuel q1 q2
        (nodup_of_cnt fun j => by
          have := hcnt j
          simp only [List.count_append] at this ⊢
          omega) (by omega)
      exact ⟨m1, e.trans e1, unlink_finish hthr hnd hhead htail hu r4 r1 r2
        (by rw [r3, plug_inorder]; simp [tr.inorder])⟩
    · -- two subtrees
      obtain ⟨rk, hrk⟩ := root_of_ne_nil hr
      obtain ⟨c2, a, s, rfl, hrs⟩ := exists_rightmost l hl
      have hcr := cright_of_rspine hrs
      have hps : (m.node k).prev = some s := by
        rw [hprev, plug_inorder, hcr]
        simp only [tr.inorder, List.append_nil]
        rw [← List.append_assoc, ← List.append_assoc, lastOr_concat]
      -- the path from the predecessor to the root
      have hplug : plug c (tr.node (plug c2 (tr.node a s tr.nil)) k r) =
          plug (c2 ++ frm.L k r :: c) (tr.node a s tr.nil) := by
        rw [plug_append]; rfl
      rw [hplug] at hrep htop
      obtain ⟨⟨s1, s2, s3, s4, _⟩, hcc⟩ := (rep_plug _ _).mp ⟨hrep, htop⟩
      have hcnt2 : ∀ j, a.inorder.count j + [s].count j + (ckeys c2).count j + [k].count j +
          r.inorder.count j + (ckeys c).count j ≤ 1 := by
        intro j
        have h1 := hcnt j
        have h2 := (plug_perm c2 (tr.node a s tr.nil)).count_eq j
        simp only [tr.inorder, List.count_append, List.count_cons, List.count_nil] at h1 h2 ⊢
        omega
      have hlen2 := plug_length c2 (tr.node a s tr.nil)
      simp only [tr.inorder, List.length_append, List.length_cons, List.length_nil] at hlen2
      cases c2 with
      | nil =>
        obtain ⟨m0, isL, e, hs, hu, fl, fr, fp, ft⟩ :=
          unlink_fields_c fuel (h2.trans rfl) (h3.trans hrk) hps
        simp only [h1] at e hs fl fr fp ft
        obtain ⟨q1, q2, q3, q4, q5, q6⟩ := unlink_c1 s4 h5 s2 hc hrk
          (fun j => by
            have := hcnt2 j
            simp only [ckeys, List.count_nil] at this
            omega) hs fl fr fp ft
        obtain ⟨m1, t1, e1, r1, r2, r3, r4⟩ := avl_rebalance_spec c fuel q1 q2 q3 q4 q5 q6
          (nodup_of_cnt fun j => by
            have := hcnt2 j
            simp only [tr.inorder, ckeys, List.count_append, List.count_cons,
              List.count_nil] at this ⊢
            omega) (by simp only [plug, tr.inorder] at hlen; omega)
        exact ⟨m1, e.trans e1, unlink_finish hthr hnd hhead htail hu r4 r1 r2
          (by rw [r3, plug_inorder]; simp [tr.inorder, plug])⟩
      | cons f c2 =>
        cases f with
        | L x xr => exact hrs.elim
        | R lb bal =>
          obtain ⟨b1, b2, b3, b4, b5⟩ := hcc
          obtain ⟨lk, hlk⟩ := ctop_some c2 bal
          have hleft : (m.node k).left = some lk := by
            rw [h2, plug_root]
            exact hlk
          have hcnt3 : ∀ j, (ckeys c2).count j + lb.inorder.count j + [bal].count j +
              a.inorder.count j + [s].count j + [k].count j + r.inorder.count j +
              (ckeys c).count j ≤ 1 := by
            intro j
            have := hcnt2 j
            simp only [ckeys, List.count_append, List.count_cons, List.count_nil] at this ⊢
            omega
          have hsl : s ≠ lk := by
            intro e
            have := hcnt3 s
            have := cnt_self s
            cases c2 with
            | nil =>
              simp only [ctop, Option.some.injEq] at hlk
              rw [← e] at hlk
              subst hlk
              omega
            | cons f c3 =>
              obtain ⟨y, y1, y2⟩ := @ctop_mem (f :: c3) (by simp) (some bal)
              have e' : some y = some s := y1.symm.trans (hlk.trans (by rw [e]))
              simp only [Option.some.injEq] at e'
              subst e'
              have := cnt_mem y2
              omega
          obtain ⟨m0, isL, e, hs, hu, fl, fr, fp, ft⟩ :=
            unlink_fields_d fuel hleft (h3.trans hrk) hps hsl s1
          simp only [h1] at e hs fl fr fp ft
          obtain ⟨q1, q2, q3, q4, q5, q6⟩ := unlink_c2 (by exact hrs) s4 b4 h5 s2 b2 b3 b5 hc hlk
            hrk hcnt3 hs fl fr fp ft
          have hlenc := ckeys_length (c2 ++ frm.L s r :: c)
          obtain ⟨m1, t1, e1, r1, r2, r3, r4⟩ := avl_rebalance_spec (c2 ++ frm.L s r :: c) fuel
            q1 q2 q3 q4 q5 q6
            (nodup_of_cnt fun j => by
              have := hcnt3 j
              simp only [tr.inorder, ckeys, ckeys_append, List.count_append, List.count_cons,
                List.count_nil] at this ⊢
              omega)
            (by
              have g1 := ckeys_length c2
              have g2 := ckeys_length_eq c
              simp only [ckeys, List.length_append, List.length_cons] at hlen2
              simp only [List.length_append, List.length_cons]
              omega)
          refine ⟨m1, e.trans e1, unlink_finish hthr hnd hhead htail hu r4 r1 r2 ?_⟩
          have hcr2 : cright c2 = [] := cright_of_rspine hrs
          rw [r3, plug_inorder, plug_inorder, cleft_append, cright_append, hcr2]
          simp [tr.inorder, cleft, cright, hcr2]

end

/-! ## The sweep of `dim == 2` -/

section
set_option linter.unusedSectionVars false
variable {α : Type} [LinearOrderedCommRing α]

/-! ### The staircase of the `dim == 2` sweep -/

theorem stair_area_top (sc : scene α) (top top' : α) (T : List Nat) :
    stair_area sc top T = stair_area sc top' T + (sc.ref 0 - nxt0 sc T) * (top - top') := by
  cases T with
  | nil => simp [stair_area, nxt0]
  | cons t T => simp only [stair_area, nxt0]; ring

theorem stair_area_remove (sc : scene α) (cur : Nat) (T2 : List Nat) :
    ∀ (T1 : List Nat) (top : α),
      stair_area sc top (T1 ++ cur :: T2) = stair_area sc top (T1 ++ T2)
        + (nxt0 sc T2 - sc.X cur 0) * (prv1 sc top T1 - sc.X cur 1)
  | [], top => by
    simp only [List.nil_append, stair_area, prv1]
    rw [stair_area_top sc top (sc.X cur 1) T2]
    ring
  | t :: T1, top => by
    have ih := stair_area_remove sc cur T2 T1 (sc.X t 1)
    show (sc.ref 0 - sc.X t 0) * (top - sc.X t 1) + stair_area sc (sc.X t 1) (T1 ++ cur :: T2)
      = (sc.ref 0 - sc.X t 0) * (top - sc.X t 1) + stair_area sc (sc.X t 1) (T1 ++ T2)
        + (nxt0 sc T2 - sc.X cur 0) * (prv1 sc (sc.X t 1) T1 - sc.X cur 1)
    rw [ih]
    ring

theorem prv1_append_singleton (sc : scene α) (top : α) (T : List Nat) (u : Nat) :
    prv1 sc top (T ++ [u]) = sc.X u 1 := by
  induction T generalizing top with
  | nil => rfl
  | cons t T ih => exact ih _

/-- A list of points dominated by one of them has the volume of its box. -/
theorem union_volume_of_least (d : Nat) (ref : Nat → α) (P : List (Nat → α)) (r : Nat → α)
    (hr : r ∈ P) (h : ∀ q, q ∈ P → ∀ i, i < d → r i ≤ q i) :
    union_volume d ref P = box_volume d ref r :=
  (union_volume_dominated_aux d ref P.length).2 P r (le_refl _) hr h

theorem stair_area_eq_vol (sc : scene α) :
    ∀ (T : List Nat), T.Pairwise (fun a b => sc.X a 0 ≤ sc.X b 0 ∧ sc.X b 1 ≤ sc.X a 1) →
      stair_area sc (sc.ref 1) T = sc.vol 2 sc.ref T
  | [], _ => rfl
  | t :: T, h => by
    obtain ⟨h1, h2⟩ := List.pairwise_cons.mp h
    have ih := stair_area_eq_vol sc T h2
    show _ = union_volume 2 sc.ref ((t :: T).map sc.X)
    rw [List.map_cons, union_volume_cons, box_volume_two]
    show (sc.ref 0 - sc.X t 0) * (sc.ref 1 - sc.X t 1) + stair_area sc (sc.X t 1) T = _
    rw [stair_area_top sc (sc.X t 1) (sc.ref 1) T, ih]
    cases T with
    | nil =>
      simp [nxt0, scene.vol, union_volume_nil]
    | cons u T' =>
      have hq : union_volume 2 sc.ref (((u :: T').map sc.X).map (pmax (sc.X t)))
          = box_volume 2 sc.ref (pmax (sc.X t) (sc.X u)) := by
        refine union_volume_of_least 2 sc.ref _ _ (by simp) ?_
        intro q hq i hi
        simp only [List.map_map, List.mem_map, Function.comp] at hq
        obtain ⟨w, hw, rfl⟩ := hq
        simp only [pmax]
        have hu := h1 u (by simp)
        have hw' := h1 w hw
        rcases List.mem_cons.mp hw with e | hw2
        · rw [e]
        · have huw := (List.pairwise_cons.mp h2).1 w hw2
          interval_cases i
          · exact max_le_max (le_refl _) huw.1
          · rw [max_eq_left hu.2, max_eq_left hw'.2]
      rw [hq, box_volume_two]
      have hu := h1 u (by simp)
      simp only [pmax, nxt0, scene.vol]
      rw [max_eq_right hu.1, max_eq_left hu.2]
      ring

theorem stairs_weak {sc : scene α} {T : List Nat} (h : stairs sc T) :
    T.Pairwise (fun a b => sc.X a 0 ≤ sc.X b 0 ∧ sc.X b 1 ≤ sc.X a 1) :=
  h.imp (fun hab => ⟨le_of_lt hab.1, le_of_lt hab.2⟩)

/-! ### Covers -/

theorem vol_cover (sc : scene α) (k : Nat) (ref : Nat → α) (B : List Nat) :
    ∀ (Q : List Nat), (∀ q, q ∈ Q → ∃ r, r ∈ B ∧ ∀ j, j < k → sc.X r j ≤ sc.X q j) →
      sc.vol k ref (Q ++ B) = sc.vol k ref B
  | [], _ => rfl
  | q :: Q, h => by
    obtain ⟨r, hr, hdom⟩ := h q (by simp)
    have e := vol_absorb sc k ref (C := []) (D := Q ++ B) (r := r) (p := q)
      (by simp [hr]) hdom
    simp only [List.nil_append] at e
    rw [List.cons_append, e]
    exact vol_cover sc k ref B Q (fun q' hq' => h q' (List.mem_cons_of_mem _ hq'))

theorem vol_eq_of_cover (sc : scene α) (k : Nat) (ref : Nat → α) {A T : List Nat}
    (hsub : ∀ t, t ∈ T → t ∈ A)
    (hcov : ∀ q, q ∈ A → ∃ t, t ∈ T ∧ ∀ j, j < k → sc.X t j ≤ sc.X q j) :
    sc.vol k ref A = sc.vol k ref T := by
  rw [← vol_cover sc k ref A T (fun t ht => ⟨t, hsub t ht, fun _ _ => le_refl _⟩),
    vol_perm sc k ref (List.perm_append_comm : (T ++ A).Perm (A ++ T))]
  exact vol_cover sc k ref T A hcov

/-! ### The invariant of the main loop of `dim == 2` -/

theorem d2ctx.mem_chain2 {sc : scene α} {S : List Nat} {E : view α} (hc : d2ctx sc S E)
    {p : Nat} : p ∈ sc.chain 2 S ↔ p ∈ S := by
  rw [Hv.mem_chain]
  exact ⟨fun h => h.2, fun h => ⟨(hc.ok.mem 2 hc.d3 p).mpr (hc.sub p h), h⟩⟩

theorem d2ctx.nodup_chain2 {sc : scene α} {S : List Nat} {E : view α} (hc : d2ctx sc S E) :
    (0 :: sc.chain 2 S).Nodup := Hv.chain_nodup hc.ok hc.d3 S

theorem d2ctx.sorted_chain2 {sc : scene α} {S : List Nat} {E : view α} (hc : d2ctx sc S E) :
    (sc.chain 2 S).Pairwise (fun a b => sc.X a 2 ≤ sc.X b 2) := Hv.chain_sorted hc.ok hc.d3 S

theorem d2ctx.lt_ref {sc : scene α} {S : List Nat} {E : view α} (hc : d2ctx sc S E)
    {p : Nat} (hp : p ∈ S) (k : Nat) (hk : k < 3) : sc.X p k < sc.ref k :=
  hc.ok.lt_ref p (hc.sub p hp) k (by have := hc.d3; omega)

theorem stairs_nodup {sc : scene α} {T : List Nat} (h : stairs sc T) : T.Nodup :=
  h.imp (fun hab e => by rw [e] at hab; exact lt_irrefl _ hab.1)

theorem stairs_antichain {sc : scene α} {T : List Nat} (h : stairs sc T) {t t' : Nat}
    (ht : t ∈ T) (ht' : t' ∈ T) (h0 : sc.X t 0 ≤ sc.X t' 0) (h1 : sc.X t 1 ≤ sc.X t' 1) :
    t = t' := by
  by_contra hne
  obtain ⟨A, B, rfl⟩ := List.append_of_mem ht
  rcases List.mem_append.mp ht' with hA | hB
  · have := (List.pairwise_append.mp h).2.2 t' hA t (by simp)
    exact absurd h0 (not_le.mpr this.1)
  · rcases List.mem_cons.mp hB with e | hB
    · exact hne e.symm
    · have := (List.pairwise_cons.mp (List.pairwise_append.mp h).2.1).1 t' hB
      exact absurd h1 (not_le.mpr this.2)

/-- The area of the swept nodes is that below the staircase. -/
theorem d2.area {sc : scene α} {S : List Nat} {E : view α}
    {xs0 : List α × (Nat → Option Nat)} {s : hv_mem α} {A Rest T : List Nat}
    (h : d2 sc S E xs0 s A Rest T) : sc.vol 2 sc.ref A = stair_area sc (sc.ref 1) T := by
  rw [stair_area_eq_vol sc T (stairs_weak h.tst)]
  refine vol_eq_of_cover sc 2 sc.ref h.tsub (fun q hq => ?_)
  obtain ⟨t, ht, h0, h1⟩ := h.cover q hq
  refine ⟨t, ht, fun j hj => ?_⟩
  interval_cases j
  · exact h0
  · exact h1

/-- A list whose relation is monotone for `P` splits into a part without and
a part with `P`. -/
theorem split_mono {P : Nat → Prop} {R : Nat → Nat → Prop} :
    ∀ (T : List Nat), T.Pairwise R → (∀ a b, R a b → P a → P b) →
      ∃ TA TB, T = TA ++ TB ∧ (∀ a, a ∈ TA → ¬ P a) ∧ (∀ b, b ∈ TB → P b)
  | [], _, _ => ⟨[], [], rfl, by simp, by simp⟩
  | t :: T, h, hm => by
    obtain ⟨h1, h2⟩ := List.pairwise_cons.mp h
    by_cases ht : P t
    · refine ⟨[], t :: T, rfl, by simp, ?_⟩
      intro b hb
      rcases List.mem_cons.mp hb with e | hb
      · rw [e]; exact ht
      · exact hm t b (h1 b hb) ht
    · obtain ⟨TA, TB, e, hA, hB⟩ := split_mono T h2 hm
      refine ⟨t :: TA, TB, by rw [e]; rfl, ?_, hB⟩
      intro a ha
      rcases List.mem_cons.mp ha with e | ha
      · rw [e]; exact ht
      · exact hA a ha

theorem compare_tree_asc_lt (x1 x2 : Nat → α) :
    compare_tree_asc x1 x2 < 0 ↔ x2 1 < x1 1 ∨ (x1 1 = x2 1 ∧ x2 0 ≤ x1 0) := by
  unfold compare_tree_asc
  constructor
  · intro h
    split_ifs at h with h1 h2 h3
    · exact Or.inl h1
    · simp at h
    · exact Or.inr ⟨le_antisymm (not_lt.mp h1) (not_lt.mp h2), h3⟩
    · simp at h
  · intro h
    rcases h with h | ⟨h1, h2⟩
    · rw [if_pos h]; simp
    · rw [if_neg (by rw [h1]; exact lt_irrefl _), if_neg (by rw [h1]; exact lt_irrefl _),
        if_pos h2]
      simp

theorem tree_list_setDomr {m : avl_mem α} {T : List Nat} (h : tree_list m T) (p : Nat) (w : α) :
    tree_list (m.setDomr p w) T := by
  obtain ⟨t, h1, h2, h3, h4, h5, h6, h7⟩ := h
  refine ⟨t, by simpa using h1, rep_same (fun k => by simp) h2, h3, h4,
    thr_congr h5 (fun x _ => by simp), by simpa using h6, by simpa using h7⟩

theorem tree_list_length {sc : scene α} {S : List Nat} {E : view α} (hc : d2ctx sc S E)
    {m : avl_mem α} {T A Rest : List Nat} (h : tree_list m T) (hsplit : sc.chain 2 S = A ++ Rest)
    (hsub : ∀ t, t ∈ T → t ∈ A) : T.length + Rest.length ≤ sc.n := by
  obtain ⟨t, h1, h2, h3, h4, h5, h6, h7⟩ := h
  have hnd := (List.nodup_cons.mp hc.nodup_chain2).2
  rw [hsplit] at hnd
  have h8 : T.length ≤ A.length :=
    (List.subperm_of_subset h4 (fun x hx => hsub x hx)).length_le
  have h9 : (sc.chain 2 S).length ≤ sc.n := by
    have a1 : (sc.chain 2 S).length ≤ (sc.ord 2).length := List.length_filter_le _ _
    have a2 : (sc.ord 2).Perm (sc.ord 0) :=
      (List.perm_ext_iff_of_nodup (List.nodup_cons.mp (hc.ok.nodup 2 hc.d3)).2
        (List.nodup_cons.mp (hc.ok.nodup 0 (by have := hc.d3; omega))).2).mpr
        (hc.ok.mem 2 hc.d3)
    have a3 := hc.ok.len
    rw [← a2.length_eq] at a3
    omega
  rw [hsplit, List.length_append] at h9
  omega

theorem stair_at_iff {sc : scene α} {v v' : view α} {S : List Nat} {b : α}
    (h : stair_at sc v S b)
    (hdr : ∀ t, t ∈ S → sc.X t 2 < b → (b ≤ v'.dr t ↔ b ≤ v.dr t)) : stair_at sc v' S b := by
  obtain ⟨h1, h2⟩ := h
  constructor
  · intro t t' ht ht' a1 a2 a3 a4 a5 a6
    exact h1 t t' ht ht' a1 a2 ((hdr t ht a1).mp a3) ((hdr t' ht' a2).mp a4) a5 a6
  · intro p hp a1
    obtain ⟨t, ht, b1, b2, b3, b4⟩ := h2 p hp a1
    exact ⟨t, ht, b1, (hdr t ht b1).mpr b2, b3, b4⟩

/-- One step of the main loop of `dim == 2`, from the effect on the memory. -/
theorem d2_step {sc : scene α} {S : List Nat} {E : view α}
    {xs0 : List α × (Nat → Option Nat)} (hc : d2ctx sc S E) {s s' : hv_mem α}
    {A Rest T T' : List Nat} {pp : Nat}
    (h : d2 sc S E xs0 s A (pp :: Rest) T)
    (hst : stat sc s') (hxs : s'.xs = xs0) (htree : tree_list s'.avl T')
    (hnx : s'.view.nx = s.view.nx) (hpv : s'.view.pv = s.view.pv)
    (hbd : s'.view.bd = s.view.bd)
    (har : ∀ q i, ¬ (q = pp ∧ i = 2) → s'.view.ar q i = s.view.ar q i)
    (hvl : ∀ q i, ¬ (q = pp ∧ i = 2) → s'.view.vl q i = s.view.vl q i)
    (harp : s'.view.ar pp 2 = sc.vol 2 sc.ref (A ++ [pp]))
    (hvlp : s'.view.vl pp 2 = sc.vol 3 (Function.update sc.ref 2 (sc.X pp 2)) A)
    (hign : ∀ q, q ≠ pp → s'.view.ign q = s.view.ign q)
    (hignp : s'.view.ign pp = s.view.ign pp ∨ (s.view.ign pp < 2 ∧ s'.view.ign pp = 2))
    (hsubT : ∀ t, t ∈ T' → t ∈ T ∨ t = pp)
    (hstT : stairs sc T')
    (hcovT : ∀ t, t ∈ T → ∃ t', t' ∈ T' ∧ sc.X t' 0 ≤ sc.X t 0 ∧ sc.X t' 1 ≤ sc.X t 1)
    (hcovp : ∃ t', t' ∈ T' ∧ sc.X t' 0 ≤ sc.X pp 0 ∧ sc.X t' 1 ≤ sc.X pp 1)
    (hdrT : ∀ t, t ∈ T' → s'.view.dr t = sc.ref 2)
    (hdrR : ∀ q, q ∈ T → q ∉ T' → s'.view.dr q = sc.X pp 2)
    (hdrp : pp ∉ T' → s'.view.dr pp = sc.X pp 2)
    (hdrO : ∀ q, q ≠ pp → q ∉ T → s'.view.dr q = s.view.dr q)
    (hflag : pp ∈ T' → s'.view.ign pp < 2)
    (hdomp : 2 ≤ s'.view.ign pp →
      ∃ r, r ∈ A ∧ sc.X r 0 ≤ sc.X pp 0 ∧ sc.X r 1 ≤ sc.X pp 1) :
    d2 sc S E xs0 s' (A ++ [pp]) Rest T' := by
  have hsplit : sc.chain 2 S = A ++ pp :: Rest := h.split
  have hnd : (A ++ pp :: Rest).Nodup := by
    rw [← hsplit]; exact (List.nodup_cons.mp hc.nodup_chain2).2
  have hsorted : (A ++ pp :: Rest).Pairwise (fun a b => sc.X a 2 ≤ sc.X b 2) := by
    rw [← hsplit]; exact hc.sorted_chain2
  have hzA : ∀ a, a ∈ A → sc.X a 2 ≤ sc.X pp 2 := fun a ha =>
    (List.pairwise_append.mp hsorted).2.2 a ha pp (by simp)
  have hzR : ∀ p, p ∈ Rest → sc.X pp 2 ≤ sc.X p 2 := fun p hp =>
    (List.pairwise_cons.mp (List.pairwise_append.mp hsorted).2.1).1 p hp
  have hppA : pp ∉ A := fun hh => (List.nodup_append.mp hnd).2.2 hh (by simp)
  have hppR : pp ∉ Rest := (List.nodup_cons.mp (List.nodup_append.mp hnd).2.1).1
  have hAR : ∀ a, a ∈ A → a ∉ Rest := fun a ha hr =>
    (List.nodup_append.mp hnd).2.2 ha (List.mem_cons_of_mem _ hr)
  have hppS : pp ∈ S := hc.mem_chain2.mp (by rw [hsplit]; simp)
  have hAS : ∀ a, a ∈ A → a ∈ S := fun a ha => hc.mem_chain2.mp (by rw [hsplit]; simp [ha])
  have hppT : pp ∉ T := fun hh => hppA (h.tsub pp hh)
  have hmemS : ∀ t, t ∈ S → t ∈ A ∨ t = pp ∨ t ∈ Rest := by
    intro t ht
    have := hc.mem_chain2.mpr ht
    rw [hsplit] at this
    simpa using this
  have hsubA : ∀ t, t ∈ T' → t ∈ A ++ [pp] := by
    intro t ht
    rcases hsubT t ht with h1 | h1
    · simp [h.tsub t h1]
    · simp [h1]
  refine
    { split := by rw [hsplit]; simp
      st := hst
      xs := hxs
      tree := htree
      tsub := hsubA
      tdr := hdrT
      tign := ?_
      tst := hstT
      cover := ?_
      low := ?_
      val := ?_
      dom := ?_
      own := ?_
      bdlt := by rw [hbd]; exact h.bdlt
      stair := ?_
      nx := hnx.trans h.nx
      pv := hpv.trans h.pv
      ar := fun p i hi => (har p i (fun hh => hi hh.2)).trans (h.ar p i hi)
      vl := fun p i hi => (hvl p i (fun hh => hi hh.2)).trans (h.vl p i hi)
      bd := fun i hi => by rw [hbd]; exact h.bd i hi
      out := ?_
      hi := ?_ }
  · -- tign
    intro t ht
    by_cases e : t = pp
    · rw [e]; exact hflag (e ▸ ht)
    · rcases hsubT t ht with h1 | h1
      · rw [hign t e]; exact h.tign t h1
      · exact absurd h1 e
  · -- cover
    intro q hq
    rcases List.mem_append.mp hq with hq | hq
    · obtain ⟨t, ht, a0, a1⟩ := h.cover q hq
      obtain ⟨t', ht', b0, b1⟩ := hcovT t ht
      exact ⟨t', ht', le_trans b0 a0, le_trans b1 a1⟩
    · rw [List.mem_singleton] at hq
      rw [hq]; exact hcovp
  · -- low
    intro q hq hqT p hp
    rcases List.mem_append.mp hq with hq | hq
    · have hqpp : q ≠ pp := fun e => hppA (e ▸ hq)
      by_cases hqT0 : q ∈ T
      · rw [hdrR q hqT0 hqT]; exact hzR p hp
      · rw [hdrO q hqpp hqT0]; exact h.low q hq hqT0 p (List.mem_cons_of_mem _ hp)
    · rw [List.mem_singleton] at hq
      subst hq
      rw [hdrp hqT]; exact hzR p hp
  · -- val
    intro A1 q A2 e
    rcases List.eq_nil_or_concat A2 with e2 | ⟨A2', x, e2⟩
    · subst e2
      obtain ⟨e3, e4⟩ := List.append_inj' e rfl
      simp only [List.cons.injEq, and_true] at e4
      subst e3 e4
      exact ⟨harp, hvlp⟩
    · rw [List.concat_eq_append] at e2
      subst e2
      have e' : A ++ [pp] = (A1 ++ q :: A2') ++ [x] := by rw [e]; simp
      obtain ⟨e3, e4⟩ := List.append_inj' e' rfl
      simp only [List.cons.injEq, and_true] at e4
      have hqA : q ∈ A := by rw [e3]; simp
      have hqpp : q ≠ pp := fun hh => hppA (hh ▸ hqA)
      have := h.val A1 q A2' e3
      unfold val_at at this ⊢
      rw [har q 2 (fun hh => hqpp hh.1), hvl q 2 (fun hh => hqpp hh.1)]
      exact this
  · -- dom
    intro p hp h2
    by_cases e : p = pp
    · subst e
      obtain ⟨r, hr, a0, a1⟩ := hdomp h2
      refine ⟨r, hAS r hr, a0, a1, fun i b1 b2 _ => ?_⟩
      have ei : i = 2 := by omega
      subst ei
      have hb : Before (sc.chain 2 S) r p := by
        rw [hsplit]; exact Before.of_split hr
      exact Before.of_filter_list hb
    · rw [hign p e] at h2
      obtain ⟨r, hr, a0, a1, a2⟩ := h.dom p hp h2
      exact ⟨r, hr, a0, a1, fun i b1 b2 b3 => a2 i b1 b2 (by rw [hign p e] at b3; exact b3)⟩
  · -- own
    intro p hp h2
    by_cases e : p = pp
    · subst e
      exact hdrp (fun hh => absurd (hflag hh) (not_lt.mpr h2))
    · rw [hign p e] at h2
      have hpT : p ∉ T := fun hh => absurd (h.tign p hh) (not_lt.mpr h2)
      rw [hdrO p e hpT]
      exact h.own p hp h2
  · -- stair
    intro b hb hbR
    rw [hbd] at hb
    by_cases hbp : b ≤ sc.X pp 2
    · have hold := h.stair b hb (fun p hp => by
        rcases List.mem_cons.mp hp with e | hp
        · rw [e]; exact hbp
        · exact hbR p hp)
      refine stair_at_iff hold (fun t ht hz => ?_)
      have htpp : t ≠ pp := fun e => absurd hz (not_lt.mpr (e ▸ hbp))
      have hb2 : b ≤ sc.ref 2 := le_of_lt (lt_of_le_of_lt hb h.bdlt)
      by_cases htT : t ∈ T
      · rw [h.tdr t htT]
        by_cases htT' : t ∈ T'
        · rw [hdrT t htT']
        · rw [hdrR t htT htT']
          exact ⟨fun _ => hb2, fun _ => hbp⟩
      · rw [hdrO t htpp htT]
    · have hbp' : sc.X pp 2 < b := not_le.mp hbp
      have hb2 : b ≤ sc.ref 2 := le_of_lt (lt_of_le_of_lt hb h.bdlt)
      have hzlt : ∀ t, t ∈ A ++ [pp] → sc.X t 2 < b := by
        intro t ht
        rcases List.mem_append.mp ht with ht | ht
        · exact lt_of_le_of_lt (hzA t ht) hbp'
        · rw [List.mem_singleton] at ht
          rw [ht]; exact hbp'
      have hclaim : ∀ t, t ∈ S → sc.X t 2 < b → b ≤ s'.view.dr t → t ∈ T' := by
        intro t ht hz hdr
        by_contra htT'
        rcases hmemS t ht with h1 | h1 | h1
        · have htpp : t ≠ pp := fun e => hppA (e ▸ h1)
          by_cases htT : t ∈ T
          · rw [hdrR t htT htT'] at hdr
            exact absurd hdr (not_le.mpr hbp')
          · rw [hdrO t htpp htT] at hdr
            have := h.low t h1 htT pp (by simp)
            exact absurd (le_trans hdr this) (not_le.mpr hbp')
        · subst h1
          rw [hdrp htT'] at hdr
          exact absurd hdr (not_le.mpr hbp')
        · exact absurd (hbR t h1) (not_le.mpr hz)
      constructor
      · intro t t' ht ht' a1 a2 a3 a4 a5 a6
        exact stairs_antichain hstT (hclaim t ht a1 a3) (hclaim t' ht' a2 a4) a5 a6
      · intro p hp a1
        have hpA : p ∈ A ++ [pp] := by
          rcases hmemS p hp with h1 | h1 | h1
          · simp [h1]
          · simp [h1]
          · exact absurd (hbR p h1) (not_le.mpr a1)
        have hcov : ∃ t, t ∈ T' ∧ sc.X t 0 ≤ sc.X p 0 ∧ sc.X t 1 ≤ sc.X p 1 := by
          rcases List.mem_append.mp hpA with hq | hq
          · obtain ⟨t, ht, a0, a1⟩ := h.cover p hq
            obtain ⟨t', ht', b0, b1⟩ := hcovT t ht
            exact ⟨t', ht', le_trans b0 a0, le_trans b1 a1⟩
          · rw [List.mem_singleton] at hq
            rw [hq]; exact hcovp
        obtain ⟨t, ht, b0, b1⟩ := hcov
        have htS : t ∈ S := by
          rcases List.mem_append.mp (hsubA t ht) with h1 | h1
          · exact hAS t h1
          · rw [List.mem_singleton] at h1
            rw [h1]; exact hppS
        exact ⟨t, htS, hzlt t (hsubA t ht), by rw [hdrT t ht]; exact hb2, b0, b1⟩
  · -- out
    intro p hp
    have e : p ≠ pp := fun hh => hp (hh ▸ hppS)
    have hpT : p ∉ T := fun hh => hp (hAS p (h.tsub p hh))
    rw [hign p e, hdrO p e hpT]
    exact h.out p hp
  · -- hi
    intro p hp
    by_cases e : p = pp
    · subst e
      rcases hignp with h1 | ⟨h1, h2⟩
      · rw [h1] at hp ⊢
        exact h.hi p hp
      · rw [h2] at hp
        rcases hp with hp | hp
        · have := h.hi p (Or.inl hp)
          rw [this] at h1
          exact absurd hp (not_lt.mpr (le_of_lt h1))
        · exact absurd hp (lt_irrefl _)
    · rw [hign p e] at hp ⊢
      exact h.hi p hp

/-! ### Removing the dominated nodes from the tree -/

theorem prvp_nil (sc : scene α) : prvp sc [] = sc.ref := rfl

theorem prvp_concat (sc : scene α) (T : List Nat) (u : Nat) : prvp sc (T ++ [u]) = sc.X u := by
  unfold prvp
  rw [lastOr_concat]

theorem prvp_one (sc : scene α) (T : List Nat) : prvp sc T 1 = prv1 sc (sc.ref 1) T := by
  rcases List.eq_nil_or_concat T with e | ⟨T', u, e⟩
  · subst e; rfl
  · rw [List.concat_eq_append] at e
    subst e
    rw [prvp_concat, prv1_append_singleton]

theorem nxtp_zero (sc : scene α) (T : List Nat) : nxtp sc T 0 = nxt0 sc T := by
  cases T <;> rfl

/-- The loop `while (tnode->prev)` of `dim == 2` together with the unlinking
of the last dominated node: the nodes `R' ++ [tn]` leave the tree. -/
theorem hv_dim2_remove_spec (sc : scene α) (afuel : Nat) (ppx nxt_ip : Nat → α)
    (TA1 TB TB' : List Nat) (hA1 : ∀ t, t ∈ TA1 → sc.X t 0 < ppx 0)
    (hn : nxt_ip 0 = nxt0 sc TB) :
    ∀ (lfuel : Nat) (R' : List Nat) (tn : Nat) (m : avl_mem α) (prv0 : Nat → α) (hypera : α),
      tree_list m ((TA1 ++ R') ++ tn :: TB') →
      (∀ t, t ∈ (TA1 ++ R') ++ tn :: TB' → (m.node t).item = sc.X t) →
      (∀ t, t ∈ R' → ppx 0 ≤ sc.X t 0) → R'.length < lfuel →
      ((TA1 ++ R') ++ tn :: TB').length ≤ afuel →
      ∃ m2,
        (match hv_dim2_remove afuel ppx nxt_ip lfuel m tn (sc.X tn) prv0 hypera with
          | none => none
          | some (m, tnode, cur_ip, prv_ip, hypera) =>
            match avl_unlink_node afuel m tnode with
            | none => none
            | some m =>
              if ((m.setDomr tnode (ppx 2)).node tnode).prev = none then
                some (m.setDomr tnode (ppx 2), sc.ref,
                  hypera - (sc.ref 1 - cur_ip 1) * (nxt_ip 0 - cur_ip 0))
              else some (m.setDomr tnode (ppx 2), prv_ip, hypera))
          = some (m2, prvp sc TA1,
              hypera - (stair_area sc (sc.ref 1) ((TA1 ++ R') ++ tn :: TB)
                - stair_area sc (sc.ref 1) (TA1 ++ TB))) ∧
        tree_list m2 (TA1 ++ TB') ∧
        (∀ t, (m2.node t).item = (m.node t).item) ∧
        (∀ t, t ∈ R' ++ [tn] → (m2.node t).domr = (ppx 2)) ∧
        (∀ t, t ∉ R' ++ [tn] → (m2.node t).domr = (m.node t).domr)
  | 0, _, _, _, _, _, _, _, _, hf, _ => absurd hf (Nat.not_lt_zero _)
  | lfuel + 1, R', tn, m, prv0, hypera, htree, hitem, hR, hf, haf => by
    have hthr := htree.choose_spec.2.2.2.2.1
    obtain ⟨_, hprev, _, _⟩ := (thr_append _ _ _ _).mp hthr
    have hnd : ((TA1 ++ R') ++ tn :: TB').Nodup := htree.choose_spec.2.2.2.1
    obtain ⟨m1, e1, htree1, hattr1, hpv1, _⟩ := avl_unlink_node_spec htree haf
    rcases List.eq_nil_or_concat R' with eR | ⟨R'', tp, eR⟩
    · subst eR
      rw [List.append_nil] at hprev htree hnd hitem htree1 ⊢
      rcases List.eq_nil_or_concat TA1 with eA | ⟨TA1', tp, eA⟩
      · subst eA
        have hp0 : (m.node tn).prev = none := hprev
        refine ⟨m1.setDomr tn (ppx 2), ?_, tree_list_setDomr htree1 tn (ppx 2), ?_, ?_, ?_⟩
        · unfold hv_dim2_remove
          simp only [hp0, e1]
          have hp1 : ((m1.setDomr tn (ppx 2)).node tn).prev = none := by simp [hpv1, hp0]
          rw [if_pos hp1]
          have := stair_area_remove sc tn TB [] (sc.ref 1)
          simp only [List.nil_append, prv1] at this
          simp only [List.nil_append]
          rw [this, hn, prvp_nil]
          congr 3
          ring
        · intro t; simp [(hattr1 t).1]
        · intro t ht
          simp only [List.nil_append, List.mem_singleton] at ht
          subst ht
          simp
        · intro t ht
          simp only [List.nil_append, List.mem_singleton] at ht
          simp [ht, (hattr1 t).2]
      · rw [List.concat_eq_append] at eA
        subst eA
        have hp0 : (m.node tn).prev = some tp := by rw [hprev, lastOr_concat]
        have hitp : (m.node tp).item = sc.X tp := hitem tp (by simp)
        have hlt : sc.X tp 0 < ppx 0 := hA1 tp (by simp)
        refine ⟨m1.setDomr tn (ppx 2), ?_, tree_list_setDomr htree1 tn (ppx 2), ?_, ?_, ?_⟩
        · unfold hv_dim2_remove
          simp only [hp0, hitp, if_pos hlt, e1]
          have hp1 : ¬ ((m1.setDomr tn (ppx 2)).node tn).prev = none := by simp [hpv1, hp0]
          rw [if_neg hp1]
          have := stair_area_remove sc tn TB (TA1' ++ [tp]) (sc.ref 1)
          rw [prv1_append_singleton] at this
          rw [this, hn, prvp_concat]
          congr 3
          ring
        · intro t; simp [(hattr1 t).1]
        · intro t ht
          simp only [List.nil_append, List.mem_singleton] at ht
          subst ht
          simp
        · intro t ht
          simp only [List.nil_append, List.mem_singleton] at ht
          simp [ht, (hattr1 t).2]
    · rw [List.concat_eq_append] at eR
      subst eR
      have hp0 : (m.node tn).prev = some tp := by
        rw [hprev, ← List.append_assoc, lastOr_concat]
      have hitp : (m.node tp).item = sc.X tp := hitem tp (by simp)
      have hge : ¬ sc.X tp 0 < ppx 0 := not_lt.mpr (hR tp (by simp))
      have hlist : (TA1 ++ (R'' ++ [tp])) ++ TB' = (TA1 ++ R'') ++ tp :: TB' := by simp
      have htree1' : tree_list (m1.setDomr tn (ppx 2)) ((TA1 ++ R'') ++ tp :: TB') := by
        rw [← hlist]; exact tree_list_setDomr htree1 tn (ppx 2)
      have hp1 : ((m1.setDomr tn (ppx 2)).node tn).prev = some tp := by simp [hpv1, hp0]
      have hsub : ∀ t, t ∈ (TA1 ++ R'') ++ tp :: TB' → t ∈ (TA1 ++ (R'' ++ [tp])) ++ tn :: TB' := by
        intro t ht
        simp only [List.mem_append, List.mem_cons, List.mem_singleton] at ht ⊢
        tauto
      obtain ⟨m2, e2, htree2, hitem2, hdr2, hdr2'⟩ := hv_dim2_remove_spec sc afuel ppx nxt_ip
        TA1 TB TB' hA1 hn lfuel R'' tp (m1.setDomr tn (ppx 2)) (sc.X tp)
        (hypera - (sc.X tp 1 - sc.X tn 1) * (nxt_ip 0 - sc.X tn 0)) htree1'
        (fun t ht => by simp [(hattr1 t).1, hitem t (hsub t ht)])
        (fun t ht => hR t (by simp [ht]))
        (by simp at hf; omega)
        (by simp only [List.length_append, List.length_cons, List.length_singleton] at haf ⊢
            omega)
      have htn : tn ∉ R'' ++ [tp] := by
        intro hh
        have h1 := (List.nodup_append.mp hnd).2.2 (List.mem_append_right TA1 hh)
        exact h1 (by simp)
      refine ⟨m2, ?_, htree2, ?_, ?_, ?_⟩
      · unfold hv_dim2_remove
        simp only [hp0, hitp, if_neg hge, e1, hp1]
        rw [e2]
        have := stair_area_remove sc tn TB (TA1 ++ (R'' ++ [tp])) (sc.ref 1)
        rw [← List.append_assoc, prv1_append_singleton] at this
        have h3 : (TA1 ++ R'' ++ [tp]) ++ tn :: TB = (TA1 ++ (R'' ++ [tp])) ++ tn :: TB := by
          simp
        have h4 : (TA1 ++ R'' ++ [tp]) ++ TB = (TA1 ++ R'') ++ tp :: TB := by simp
        rw [h3] at this
        rw [this, hn, ← h4]
        congr 3
        rw [List.append_assoc TA1 R'' [tp]]
        ring
      · intro t
        rw [hitem2 t]
        simp [(hattr1 t).1]
      · intro t ht
        rcases List.mem_append.mp ht with h1 | h1
        · exact hdr2 t h1
        · rw [List.mem_singleton] at h1
          subst h1
          rw [hdr2' t htn]
          simp
      · intro t ht
        have h1 : t ∉ R'' ++ [tp] := fun hh => ht (List.mem_append_left _ hh)
        have h2 : t ≠ tn := fun hh => ht (by simp [hh])
        rw [hdr2' t h1]
        simp [h2, (hattr1 t).2]

/-! ### Sweeping one node -/

theorem area_of_cover {sc : scene α} {A T : List Nat} (hsub : ∀ t, t ∈ T → t ∈ A)
    (hst : stairs sc T)
    (hcov : ∀ q, q ∈ A → ∃ t, t ∈ T ∧ sc.X t 0 ≤ sc.X q 0 ∧ sc.X t 1 ≤ sc.X q 1) :
    sc.vol 2 sc.ref A = stair_area sc (sc.ref 1) T := by
  rw [stair_area_eq_vol sc T (stairs_weak hst)]
  refine vol_eq_of_cover sc 2 sc.ref hsub (fun q hq => ?_)
  obtain ⟨t, ht, h0, h1⟩ := hcov q hq
  refine ⟨t, ht, fun j hj => ?_⟩
  interval_cases j
  · exact h0
  · exact h1

/-- The position of the swept node `pp` in the staircase. -/
theorem d2_search {sc : scene α} {S : List Nat} {E : view α}
    {xs0 : List α × (Nat → Option Nat)} (hc : d2ctx sc S E) {s : hv_mem α}
    {A Rest T : List Nat} {pp : Nat} (h : d2 sc S E xs0 s A (pp :: Rest) T) (hA : A ≠ [])
    {fuel : Nat} (hfuel : sc.n ≤ fuel) :
    ∃ TA TB node cmp, T = TA ++ TB ∧
      (∀ a, a ∈ TA → sc.X pp 1 ≤ sc.X a 1 ∧ (sc.X pp 1 = sc.X a 1 → sc.X pp 0 < sc.X a 0)) ∧
      (∀ b, b ∈ TB → sc.X b 1 < sc.X pp 1 ∨ (sc.X pp 1 = sc.X b 1 ∧ sc.X b 0 ≤ sc.X pp 0)) ∧
      avl_search_closest fuel s.avl (sc.X pp) = some (some node, cmp) ∧
      ((cmp = -1 ∧ (∃ TB', TB = node :: TB') ∧ (s.avl.node node).left = none) ∨
       (cmp = 1 ∧ (∃ TA', TA = TA' ++ [node]) ∧ (s.avl.node node).right = none)) := by
  have hitem : ∀ t, t ∈ T → (s.avl.node t).item = sc.X t := fun t ht =>
    h.st.item t (hc.sub t (hc.mem_chain2.mp (by rw [h.split]; simp [h.tsub t ht])))
  obtain ⟨TA, TB, hT, hTA, hTB⟩ := split_mono (P := fun t => compare_tree_asc (sc.X pp) (sc.X t) < 0)
    T h.tst (fun a b hab ha => by
      simp only [] at ha ⊢
      rw [compare_tree_asc_lt] at ha ⊢
      rcases ha with ha | ⟨ha1, _⟩
      · exact Or.inl (lt_trans hab.2 ha)
      · exact Or.inl (by rw [ha1]; exact hab.2))
  obtain ⟨q, hq⟩ := List.exists_mem_of_ne_nil A hA
  obtain ⟨t0, ht0, _⟩ := h.cover q hq
  have hTne : TA ++ TB ≠ [] := by rw [← hT]; exact List.ne_nil_of_mem ht0
  have hlen := tree_list_length hc h.tree h.split h.tsub
  have htree : tree_list s.avl (TA ++ TB) := by rw [← hT]; exact h.tree
  obtain ⟨node, hres⟩ := @avl_search_closest_spec α _ s.avl (sc.X pp) TA TB fuel htree hTne
    (fun a ha => by rw [hitem a (by rw [hT]; simp [ha])]; exact hTA a ha)
    (fun b hb => by rw [hitem b (by rw [hT]; simp [hb])]; exact hTB b hb)
    (by rw [← hT]; omega)
  have hTA' : ∀ a, a ∈ TA →
      sc.X pp 1 ≤ sc.X a 1 ∧ (sc.X pp 1 = sc.X a 1 → sc.X pp 0 < sc.X a 0) := by
    intro a ha
    have := hTA a ha
    simp only [] at this
    rw [compare_tree_asc_lt, not_or, not_and] at this
    exact ⟨not_lt.mp this.1, fun e => not_le.mp (this.2 e)⟩
  have hTB' : ∀ b, b ∈ TB →
      sc.X b 1 < sc.X pp 1 ∨ (sc.X pp 1 = sc.X b 1 ∧ sc.X b 0 ≤ sc.X pp 0) := by
    intro b hb
    have := hTB b hb
    simp only [] at this
    rw [compare_tree_asc_lt] at this
    exact this
  rcases hres with ⟨g1, g2, g3⟩ | ⟨g1, g2, g3⟩
  · exact ⟨TA, TB, node, -1, hT, hTA', hTB', g1, Or.inl ⟨rfl, g2, g3⟩⟩
  · exact ⟨TA, TB, node, 1, hT, hTA', hTB', g1, Or.inr ⟨rfl, g2, g3⟩⟩

theorem thr_prev_mid {m : avl_mem α} {A B : List Nat} {x : Nat}
    (h : tree_list m (A ++ x :: B)) :
    (m.node x).prev = lastOr A none ∧ (m.node x).next = headOr B none := by
  obtain ⟨_, h1, h2, _⟩ := (thr_append _ _ _ _).mp h.choose_spec.2.2.2.2.1
  exact ⟨h1, h2⟩

/-- The tree after the node `pp` was inserted between `TA` and `TB`: the
nodes at the end of `TA` that `pp` dominates are removed. -/
theorem d2_after {sc : scene α} {S : List Nat} {E : view α}
    {xs0 : List α × (Nat → Option Nat)} (hc : d2ctx sc S E) {s : hv_mem α}
    {A Rest TA TB : List Nat} {pp : Nat} (h : d2 sc S E xs0 s A (pp :: Rest) (TA ++ TB))
    {m : avl_mem α} (htree : tree_list m (TA ++ pp :: TB))
    (hattr : ∀ k, (m.node k).item = (s.avl.node k).item ∧
      (m.node k).domr = (s.avl.node k).domr)
    {nxt_ip : Nat → α} (hn : nxt_ip = nxtp sc TB) {tnode' : Option Nat}
    (htn : tnode' = lastOr TA none) {fuel : Nat} (hfuel : sc.n + 1 ≤ fuel) (hypera : α) :
    ∃ TA1 R m2, TA = TA1 ++ R ∧ (∀ t, t ∈ TA1 → sc.X t 0 < sc.X pp 0) ∧
      (∀ t, t ∈ R → sc.X pp 0 ≤ sc.X t 0) ∧
      (match tnode' with
        | none => some (m.setDomr pp (sc.ref 2), sc.ref, hypera)
        | some tnode =>
          if ((m.setDomr pp (sc.ref 2)).node tnode).item 0 ≥ sc.X pp 0 then
            match ((m.setDomr pp (sc.ref 2)).node pp).prev with
            | none => none
            | some tnode2 =>
              match hv_dim2_remove fuel (sc.X pp) nxt_ip fuel (m.setDomr pp (sc.ref 2)) tnode2
                ((m.setDomr pp (sc.ref 2)).node tnode2).item
                ((m.setDomr pp (sc.ref 2)).node tnode).item hypera with
              | none => none
              | some (m, tnode, cur_ip, prv_ip, hypera) =>
                match avl_unlink_node fuel m tnode with
                | none => none
                | some m =>
                  if ((m.setDomr tnode (sc.X pp 2)).node tnode).prev = none then
                    some (m.setDomr tnode (sc.X pp 2), sc.ref,
                      hypera - (sc.ref 1 - cur_ip 1) * (nxt_ip 0 - cur_ip 0))
                  else some (m.setDomr tnode (sc.X pp 2), prv_ip, hypera)
          else some (m.setDomr pp (sc.ref 2), ((m.setDomr pp (sc.ref 2)).node tnode).item,
            hypera))
        = some (m2, prvp sc TA1,
            hypera - (stair_area sc (sc.ref 1) (TA ++ TB)
              - stair_area sc (sc.ref 1) (TA1 ++ TB))) ∧
      tree_list m2 (TA1 ++ pp :: TB) ∧
      (∀ k, (m2.node k).item = (s.avl.node k).item) ∧
      (m2.node pp).domr = sc.ref 2 ∧
      (∀ t, t ∈ R → (m2.node t).domr = sc.X pp 2) ∧
      (∀ t, t ≠ pp → t ∉ R → (m2.node t).domr = (s.avl.node t).domr) := by
  have hTsub : ∀ t, t ∈ TA ++ TB → t ∈ sc.ord 0 := fun t ht =>
    hc.sub t (hc.mem_chain2.mp (by rw [h.split]; simp [h.tsub t ht]))
  have hitem : ∀ t, t ∈ TA ++ TB → (s.avl.node t).item = sc.X t := fun t ht =>
    h.st.item t (hTsub t ht)
  have hppS : pp ∈ sc.ord 0 := hc.sub pp (hc.mem_chain2.mp (by rw [h.split]; simp))
  have hnd : (TA ++ pp :: TB).Nodup := htree.choose_spec.2.2.2.1
  have hppTA : pp ∉ TA := fun hh => (List.nodup_append.mp hnd).2.2 hh (by simp)
  have hstTA : stairs sc TA := (List.pairwise_append.mp h.tst).1
  have hlen := tree_list_length hc h.tree h.split h.tsub
  simp only [List.length_append, List.length_cons] at hlen
  obtain ⟨TA1, R, hsplit, hTA1, hR⟩ := split_mono (P := fun t => sc.X pp 0 ≤ sc.X t 0)
    TA hstTA (fun a b hab ha => le_trans ha (le_of_lt hab.1))
  simp only [not_le] at hTA1
  have htree' : tree_list (m.setDomr pp (sc.ref 2)) (TA ++ pp :: TB) :=
    tree_list_setDomr htree pp _
  rcases List.eq_nil_or_concat TA with eTA | ⟨TA', tn, eTA⟩
  · -- nothing before `pp`
    have e1 : TA1 = [] := by
      rw [eTA] at hsplit
      exact (List.append_eq_nil.mp hsplit.symm).1
    have e2 : R = [] := by
      rw [eTA] at hsplit
      exact (List.append_eq_nil.mp hsplit.symm).2
    subst eTA
    subst e1 e2
    subst htn
    refine ⟨[], [], m.setDomr pp (sc.ref 2), rfl, by simp, by simp, ?_, htree', ?_, by simp,
      by simp, ?_⟩
    · show some _ = some _
      rw [prvp_nil, sub_self, sub_zero]
    · intro k; simp [(hattr k).1]
    · intro t ht _
      simp [ht, (hattr t).2]
  · rw [List.concat_eq_append] at eTA
    have htn' : tnode' = some tn := by rw [htn, eTA, lastOr_concat]
    subst htn'
    have hitn : ((m.setDomr pp (sc.ref 2)).node tn).item = sc.X tn := by
      simp [(hattr tn).1, hitem tn (by rw [eTA]; simp)]
    by_cases hge : sc.X tn 0 ≥ sc.X pp 0
    · -- `tn` is dominated
      have htnR : tn ∈ R := by
        have : tn ∈ TA1 ++ R := by rw [← hsplit, eTA]; simp
        rcases List.mem_append.mp this with h1 | h1
        · exact absurd (hTA1 tn h1) (not_lt.mpr hge)
        · exact h1
      obtain ⟨R', tn2, eR⟩ : ∃ R' tn2, R = R' ++ [tn2] := by
        rcases List.eq_nil_or_concat R with e | ⟨R', x, e⟩
        · rw [e] at htnR; simp at htnR
        · exact ⟨R', x, by rw [e, List.concat_eq_append]⟩
      have e3 : TA' ++ [tn] = (TA1 ++ R') ++ [tn2] := by
        rw [← eTA, hsplit, eR, List.append_assoc]
      obtain ⟨e4, e5⟩ := List.append_inj' e3 rfl
      simp only [List.cons.injEq, and_true] at e5
      subst e5
      have hlist : TA ++ pp :: TB = (TA1 ++ R') ++ tn :: (pp :: TB) := by
        rw [hsplit, eR]; simp
      have hprev : ((m.setDomr pp (sc.ref 2)).node pp).prev = some tn := by
        rw [(thr_prev_mid htree').1, eTA, lastOr_concat]
      rw [hlist] at htree'
      obtain ⟨m2, e, htree2, hitem2, hdr2, hdr2'⟩ := hv_dim2_remove_spec sc fuel (sc.X pp) nxt_ip
        TA1 TB (pp :: TB) hTA1 (by rw [hn, nxtp_zero]) fuel R' tn (m.setDomr pp (sc.ref 2))
        (sc.X tn) hypera htree'
        (fun t ht => by
          have : t ∈ sc.ord 0 := by
            rw [← hlist] at ht
            rcases List.mem_append.mp ht with h1 | h1
            · exact hTsub t (List.mem_append_left _ h1)
            · rcases List.mem_cons.mp h1 with h1 | h1
              · rw [h1]; exact hppS
              · exact hTsub t (List.mem_append_right _ h1)
          simp [(hattr t).1, h.st.item t this])
        (fun t ht => hR t (by rw [eR]; simp [ht]))
        (by
          have : R'.length ≤ TA.length := by
            rw [hsplit, eR]; simp only [List.length_append]; omega
          omega)
        (by
          rw [← hlist]
          simp only [List.length_append, List.length_cons]
          omega)
      refine ⟨TA1, R' ++ [tn], m2, by rw [hsplit, eR], hTA1, by rw [← eR]; exact hR, ?_, htree2,
        ?_, ?_, ?_, ?_⟩
      · simp only [hitn, if_pos hge, hprev]
        have hTAB : TA ++ TB = (TA1 ++ R') ++ tn :: TB := by rw [hsplit, eR]; simp
        rw [hTAB]
        split
        · next heq =>
          simp only [heq] at e
          exact absurd e (by simp)
        · next m3 tnode3 cur3 prv3 hyp3 heq =>
          simp only [heq] at e
          split
          · next heq2 =>
            simp only [heq2] at e
            exact absurd e (by simp)
          · next m4 heq2 =>
            simp only [heq2] at e
            exact e
      · intro k
        rw [hitem2 k]
        simp [(hattr k).1]
      · have : pp ∉ R' ++ [tn] := by
          rw [← eR]
          exact fun hh => hppTA (by rw [hsplit]; simp [hh])
        rw [hdr2' pp this]
        simp
      · exact hdr2
      · intro t ht1 ht2
        rw [hdr2' t ht2]
        simp [ht1, (hattr t).2]
    · -- `tn` is not dominated
      have eR : R = [] := by
        rcases List.eq_nil_or_concat R with e | ⟨R', x, e⟩
        · exact e
        · exfalso
          rw [List.concat_eq_append] at e
          have e3 : TA' ++ [tn] = (TA1 ++ R') ++ [x] := by
            rw [← eTA, hsplit, e, List.append_assoc]
          obtain ⟨_, e5⟩ := List.append_inj' e3 rfl
          simp only [List.cons.injEq, and_true] at e5
          exact hge (by rw [e5]; exact hR x (by rw [e]; simp))
      subst eR
      rw [List.append_nil] at hsplit
      subst hsplit
      refine ⟨TA, [], m.setDomr pp (sc.ref 2), by simp, hTA1, by simp, ?_, htree', ?_, by simp,
        by simp, ?_⟩
      · simp only [hitn, if_neg hge]
        rw [sub_self, sub_zero, eTA, prvp_concat]
      · intro k; simp [(hattr k).1]
      · intro t ht _
        simp [ht, (hattr t).2]

theorem height_add {height hyperv a : α} (hh : 0 ≤ height) :
    (if height > 0 then hyperv + a * height else hyperv) = hyperv + a * height := by
  by_cases h : height > 0
  · rw [if_pos h]
  · rw [if_neg h]
    have : height = 0 := le_antisymm (not_lt.mp h) hh
    rw [this, mul_zero, add_zero]

/-- The body of the main loop of `dim == 2` from the test for dominance on. -/
theorem d2_point_rest {sc : scene α} {S : List Nat} {E : view α}
    {xs0 : List α × (Nat → Option Nat)} (hc : d2ctx sc S E) {s : hv_mem α}
    {A Rest TA TB : List Nat} {pp : Nat} (h : d2 sc S E xs0 s A (pp :: Rest) (TA ++ TB))
    (hTA : ∀ a, a ∈ TA →
      sc.X pp 1 ≤ sc.X a 1 ∧ (sc.X pp 1 = sc.X a 1 → sc.X pp 0 < sc.X a 0))
    (hTB : ∀ b, b ∈ TB →
      sc.X b 1 < sc.X pp 1 ∨ (sc.X pp 1 = sc.X b 1 ∧ sc.X b 0 ≤ sc.X pp 0))
    (hflag : (s.node pp).ignore < 2)
    (hvl : s.view.vl pp 2 = sc.vol 3 (Function.update sc.ref 2 (sc.X pp 2)) A)
    {fuel : Nat} (hfuel : sc.n + 1 ≤ fuel) {height hyperv : α} (hh : 0 ≤ height)
    {nxt_ip : Nat → α} (hn : nxt_ip = nxtp sc TB) {ins : Option (avl_mem α × Option Nat)}
    (hins : ¬ nxtp sc TB 0 ≤ sc.X pp 0 → ∃ m, ins = some (m, lastOr TA none) ∧
      tree_list m (TA ++ pp :: TB) ∧
      ∀ k, (m.node k).item = (s.avl.node k).item ∧ (m.node k).domr = (s.avl.node k).domr) :
    ∃ s' T',
      (if nxt_ip 0 ≤ sc.X pp 0 then
        some ((({ s.setIgnore pp 2 with
            avl := (s.setIgnore pp 2).avl.setDomr pp (sc.X pp 2) } : hv_mem α).setArea pp 2
              (sc.vol 2 sc.ref A)),
          if height > 0 then hyperv + sc.vol 2 sc.ref A * height else hyperv,
          sc.vol 2 sc.ref A)
      else
        match ins with
        | none => none
        | some (m, tnode) =>
          match
            (match tnode with
            | none => some (m.setDomr pp (sc.ref 2), sc.ref, sc.vol 2 sc.ref A)
            | some tnode =>
              if ((m.setDomr pp (sc.ref 2)).node tnode).item 0 ≥ sc.X pp 0 then
                match ((m.setDomr pp (sc.ref 2)).node pp).prev with
                | none => none
                | some tnode2 =>
                  match hv_dim2_remove fuel (sc.X pp) nxt_ip fuel (m.setDomr pp (sc.ref 2)) tnode2
                    ((m.setDomr pp (sc.ref 2)).node tnode2).item
                    ((m.setDomr pp (sc.ref 2)).node tnode).item (sc.vol 2 sc.ref A) with
                  | none => none
                  | some (m, tnode, cur_ip, prv_ip, hypera) =>
                    match avl_unlink_node fuel m tnode with
                    | none => none
                    | some m =>
                      if ((m.setDomr tnode (sc.X pp 2)).node tnode).prev = none then
                        some (m.setDomr tnode (sc.X pp 2), sc.ref,
                          hypera - (sc.ref 1 - cur_ip 1) * (nxt_ip 0 - cur_ip 0))
                      else some (m.setDomr tnode (sc.X pp 2), prv_ip, hypera)
              else some (m.setDomr pp (sc.ref 2), ((m.setDomr pp (sc.ref 2)).node tnode).item,
                sc.vol 2 sc.ref A)) with
          | none => none
          | some (m, prv_ip, hypera) =>
            some ((({ s with avl := m } : hv_mem α).setArea pp 2
                (hypera + (prv_ip 1 - sc.X pp 1) * (nxt_ip 0 - sc.X pp 0))),
              if height > 0 then
                hyperv + (hypera + (prv_ip 1 - sc.X pp 1) * (nxt_ip 0 - sc.X pp 0)) * height
              else hyperv,
              hypera + (prv_ip 1 - sc.X pp 1) * (nxt_ip 0 - sc.X pp 0)))
        = some (s', hyperv + sc.vol 2 sc.ref (A ++ [pp]) * height,
            sc.vol 2 sc.ref (A ++ [pp])) ∧
      d2 sc S E xs0 s' (A ++ [pp]) Rest T' := by
  have hsplit : sc.chain 2 S = A ++ pp :: Rest := h.split
  have hnd : (A ++ pp :: Rest).Nodup := by
    rw [← hsplit]; exact (List.nodup_cons.mp hc.nodup_chain2).2
  have hppA : pp ∉ A := fun hh => (List.nodup_append.mp hnd).2.2 hh (by simp)
  have hppS : pp ∈ S := hc.mem_chain2.mp (by rw [hsplit]; simp)
  have hppT : pp ∉ TA ++ TB := fun hh => hppA (h.tsub pp hh)
  have hign0 : s.view.ign pp < 2 := hflag
  by_cases hdom : nxt_ip 0 ≤ sc.X pp 0
  · -- `pp` is dominated by the first node of `TB`
    rw [if_pos hdom, height_add hh]
    obtain ⟨v, TB', eTB⟩ : ∃ v TB', TB = v :: TB' := by
      cases TB with
      | nil =>
        exfalso
        rw [hn] at hdom
        exact absurd hdom (not_le.mpr (hc.lt_ref hppS 0 (by omega)))
      | cons v TB' => exact ⟨v, TB', rfl⟩
    have hv0 : sc.X v 0 ≤ sc.X pp 0 := by
      rw [hn, eTB] at hdom; exact hdom
    have hv1 : sc.X v 1 ≤ sc.X pp 1 := by
      rcases hTB v (by rw [eTB]; simp) with h1 | ⟨h1, _⟩
      · exact le_of_lt h1
      · exact le_of_eq h1.symm
    have hvT : v ∈ TA ++ TB := by rw [eTB]; simp
    have hvA : v ∈ A := h.tsub v hvT
    have harea : sc.vol 2 sc.ref (A ++ [pp]) = sc.vol 2 sc.ref A :=
      vol_absorb_last sc 2 sc.ref hvA (fun j hj => by
        interval_cases j
        · exact hv0
        · exact hv1)
    rw [harea]
    refine ⟨_, TA ++ TB, rfl, ?_⟩
    set s1 := ({ s.setIgnore pp 2 with
      avl := (s.setIgnore pp 2).avl.setDomr pp (sc.X pp 2) } : hv_mem α) with hs1
    have hview : (s1.setArea pp 2 (sc.vol 2 sc.ref A)).view =
        { s.view with
          ign := Function.update s.view.ign pp 2
          dr := fun p => ((s.avl.setDomr pp (sc.X pp 2)).node p).domr
          ar := Function.update s.view.ar pp
            (Function.update (s.view.ar pp) 2 (sc.vol 2 sc.ref A)) } := by
      rw [view_setArea, hs1, view_setAvl, view_setIgnore]
      rfl
    have hxs : (s1.setArea pp 2 (sc.vol 2 sc.ref A)).xs = s.xs := by
      rw [xs_setArea]
      show (s.setIgnore pp 2).xs = s.xs
      rw [xs_setIgnore]
    refine d2_step hc h (h.st.of_xs hxs (fun p => by
        show ((s.avl.setDomr pp (sc.X pp 2)).node p).item = _
        simp)) (hxs.trans h.xs)
      (tree_list_setDomr h.tree pp _) (by rw [hview]) (by rw [hview]) (by rw [hview])
      ?_ ?_ ?_ ?_ ?_ ?_ (fun t ht => Or.inl ht) h.tst (fun t ht => ⟨t, ht, le_refl _, le_refl _⟩)
      ⟨v, hvT, hv0, hv1⟩ ?_ (fun q h1 h2 => absurd h1 h2) ?_ ?_ (fun hh => absurd hh hppT)
      (fun _ => ⟨v, hvA, hv0, hv1⟩)
    · intro q i hqi
      rw [hview]
      show Function.update s.view.ar pp _ q i = _
      by_cases hq : q = pp
      · subst hq
        rw [Function.update_same, Function.update_noteq (fun e => hqi ⟨rfl, e⟩)]
      · rw [Function.update_noteq hq]
    · intro q i _
      rw [hview]
    · rw [hview, harea]
      show Function.update s.view.ar pp _ pp 2 = _
      rw [Function.update_same, Function.update_same]
    · rw [hview]; exact hvl
    · intro q hq
      rw [hview]
      show Function.update s.view.ign pp 2 q = _
      rw [Function.update_noteq hq]
    · right
      refine ⟨hign0, ?_⟩
      rw [hview]
      show Function.update s.view.ign pp 2 pp = _
      rw [Function.update_same]
    · intro t ht
      rw [hview]
      show ((s.avl.setDomr pp (sc.X pp 2)).node t).domr = _
      have : t ≠ pp := fun e => hppT (e ▸ ht)
      simp only [avl_domr_setDomr, if_neg this]
      exact h.tdr t ht
    · intro _
      rw [hview]
      show ((s.avl.setDomr pp (sc.X pp 2)).node pp).domr = _
      simp
    · intro q hq _
      rw [hview]
      show ((s.avl.setDomr pp (sc.X pp 2)).node q).domr = _
      simp only [avl_domr_setDomr, if_neg hq]
      rfl
  · -- `pp` enters the tree
    rw [if_neg hdom]
    obtain ⟨m, hi, htree, hattr⟩ := hins (by rw [← hn]; exact hdom)
    obtain ⟨TA1, R, m2, eTA, hTA1, hR, e, htree2, hitem2, hdrpp, hdrR, hdrO⟩ :=
      d2_after hc h htree hattr hn rfl hfuel (sc.vol 2 sc.ref A)
    have hT : TA ++ TB = TA1 ++ (R ++ TB) := by rw [eTA, List.append_assoc]
    have hndT : (TA1 ++ (R ++ TB)).Nodup := hT ▸ stairs_nodup h.tst
    have hstT0 : stairs sc (TA1 ++ (R ++ TB)) := hT ▸ h.tst
    have hltpp : sc.X pp 0 < nxt_ip 0 := not_le.mp hdom
    have hTB0 : ∀ b, b ∈ TB → sc.X pp 0 < sc.X b 0 := by
      intro b hb
      cases TB with
      | nil => simp at hb
      | cons v TB' =>
        rw [hn] at hltpp
        have hv : sc.X pp 0 < sc.X v 0 := hltpp
        rcases List.mem_cons.mp hb with hb | hb
        · rw [hb]; exact hv
        · have h1 := (List.pairwise_append.mp (List.pairwise_append.mp hstT0).2.1).2.1
          exact lt_trans hv ((List.pairwise_cons.mp h1).1 b hb).1
    have hTB1 : ∀ b, b ∈ TB → sc.X b 1 < sc.X pp 1 := by
      intro b hb
      rcases hTB b hb with h1 | ⟨_, h1⟩
      · exact h1
      · exact absurd h1 (not_le.mpr (hTB0 b hb))
    have hTA11 : ∀ a, a ∈ TA1 → sc.X pp 1 < sc.X a 1 := by
      intro a ha
      have h1 := hTA a (by rw [eTA]; simp [ha])
      rcases lt_or_eq_of_le h1.1 with h2 | h2
      · exact h2
      · exact absurd (h1.2 h2) (not_lt.mpr (le_of_lt (hTA1 a ha)))
    have hstT : stairs sc (TA1 ++ pp :: TB) := by
      have h1 := List.pairwise_append.mp hstT0
      have h2 := List.pairwise_append.mp h1.2.1
      refine List.pairwise_append.mpr ⟨h1.1, List.pairwise_cons.mpr ⟨fun b hb =>
        ⟨hTB0 b hb, hTB1 b hb⟩, h2.2.1⟩, fun a ha b hb => ?_⟩
      rcases List.mem_cons.mp hb with hb | hb
      · rw [hb]; exact ⟨hTA1 a ha, hTA11 a ha⟩
      · exact h1.2.2 a ha b (by simp [hb])
    have hsubT : ∀ t, t ∈ TA1 ++ pp :: TB → t ∈ TA ++ TB ∨ t = pp := by
      intro t ht
      rw [eTA]
      simp only [List.mem_append, List.mem_cons] at ht ⊢
      tauto
    have hcovT : ∀ t, t ∈ TA ++ TB →
        ∃ t', t' ∈ TA1 ++ pp :: TB ∧ sc.X t' 0 ≤ sc.X t 0 ∧ sc.X t' 1 ≤ sc.X t 1 := by
      intro t ht
      rw [hT] at ht
      simp only [List.mem_append] at ht
      rcases ht with ht | ht | ht
      · exact ⟨t, by simp [ht], le_refl _, le_refl _⟩
      · exact ⟨pp, by simp, hR t ht, (hTA t (by rw [eTA]; simp [ht])).1⟩
      · exact ⟨t, by simp [ht], le_refl _, le_refl _⟩
    have hcovp : ∃ t', t' ∈ TA1 ++ pp :: TB ∧ sc.X t' 0 ≤ sc.X pp 0 ∧ sc.X t' 1 ≤ sc.X pp 1 :=
      ⟨pp, by simp, le_refl _, le_refl _⟩
    have harea : sc.vol 2 sc.ref (A ++ [pp]) =
        sc.vol 2 sc.ref A - (stair_area sc (sc.ref 1) (TA ++ TB)
          - stair_area sc (sc.ref 1) (TA1 ++ TB))
          + (prvp sc TA1 1 - sc.X pp 1) * (nxt_ip 0 - sc.X pp 0) := by
      have h1 : sc.vol 2 sc.ref (A ++ [pp]) = stair_area sc (sc.ref 1) (TA1 ++ pp :: TB) := by
        refine area_of_cover (fun t ht => ?_) hstT (fun q hq => ?_)
        · rcases hsubT t ht with h2 | h2
          · simp [h.tsub t h2]
          · simp [h2]
        · rcases List.mem_append.mp hq with h2 | h2
          · obtain ⟨t, ht, h3, h4⟩ := h.cover q h2
            obtain ⟨t', ht', h5, h6⟩ := hcovT t ht
            exact ⟨t', ht', le_trans h5 h3, le_trans h6 h4⟩
          · rw [List.mem_singleton.mp h2]; exact hcovp
      rw [h1, stair_area_remove, h.area, prvp_one, hn, nxtp_zero]
      ring
    have hnotR : ∀ t, t ∈ TA1 ++ pp :: TB → t ≠ pp → t ∉ R := by
      intro t ht hne htR
      simp only [List.mem_append, List.mem_cons] at ht
      rcases ht with ht | ht | ht
      · exact (List.nodup_append.mp hndT).2.2 ht (by simp [htR])
      · exact hne ht
      · exact (List.nodup_append.mp (List.nodup_append.mp hndT).2.1).2.2 htR ht
    subst hi
    simp only []
    refine ⟨({ s with avl := m2 } : hv_mem α).setArea pp 2 (sc.vol 2 sc.ref (A ++ [pp])),
      TA1 ++ pp :: TB, ?_, ?_⟩
    · split
      · next heq => exact absurd (heq.symm.trans e) (by simp)
      · next m3 prv3 hyp3 heq =>
        have e3 := heq.symm.trans e
        simp only [Option.some.injEq, Prod.mk.injEq] at e3
        obtain ⟨e1, e2, e3⟩ := e3
        subst e1
        rw [height_add hh, e2, e3, ← harea]
    · have hview : (({ s with avl := m2 } : hv_mem α).setArea pp 2
            (sc.vol 2 sc.ref (A ++ [pp]))).view =
          { s.view with
            dr := fun p => (m2.node p).domr
            ar := Function.update s.view.ar pp
              (Function.update (s.view.ar pp) 2 (sc.vol 2 sc.ref (A ++ [pp]))) } := by
        rw [view_setArea, view_setAvl]
      have hxs : (({ s with avl := m2 } : hv_mem α).setArea pp 2
            (sc.vol 2 sc.ref (A ++ [pp]))).xs = s.xs := by
        rw [xs_setArea]
        rfl
      refine d2_step hc h (h.st.of_xs hxs (fun p => hitem2 p)) (hxs.trans h.xs)
        htree2 (by rw [hview]) (by rw [hview]) (by rw [hview])
        ?_ ?_ ?_ ?_ ?_ ?_ hsubT hstT hcovT hcovp ?_ ?_ ?_ ?_ ?_ ?_
      · intro q i hqi
        rw [hview]
        show Function.update s.view.ar pp _ q i = _
        by_cases hq : q = pp
        · subst hq
          rw [Function.update_same, Function.update_noteq (fun e => hqi ⟨rfl, e⟩)]
        · rw [Function.update_noteq hq]
      · intro q i _
        rw [hview]
      · rw [hview]
        show Function.update s.view.ar pp _ pp 2 = _
        rw [Function.update_same, Function.update_same]
      · rw [hview]; exact hvl
      · intro q hq
        rw [hview]
      · left
        rw [hview]
      · intro t ht
        rw [hview]
        show (m2.node t).domr = _
        by_cases hpp : t = pp
        · rw [hpp]; exact hdrpp
        · rw [hdrO t hpp (hnotR t ht hpp)]
          refine h.tdr t ?_
          rcases hsubT t ht with h1 | h1
          · exact h1
          · exact absurd h1 hpp
      · intro q hq hq'
        rw [hview]
        show (m2.node q).domr = _
        refine hdrR q ?_
        rw [hT] at hq
        simp only [List.mem_append, List.mem_cons] at hq hq'
        tauto
      · intro hpp
        exact absurd (by simp) hpp
      · intro q hq hqT
        rw [hview]
        show (m2.node q).domr = _
        rw [hdrO q hq (fun hqR => hqT (by rw [eTA]; simp [hqR]))]
        rfl
      · intro _
        rw [hview]
        exact hign0
      · intro h2
        rw [hview] at h2
        exact absurd hign0 (not_lt.mpr h2)

/-- The body of the main loop of `dim == 2` for a node `pp` that is not
flagged: the area of `A ++ [pp]` is computed and the invariant holds for the
next node. -/
theorem hv_dim2_point_spec {sc : scene α} {S : List Nat} {E : view α}
    {xs0 : List α × (Nat → Option Nat)} (hc : d2ctx sc S E) {s : hv_mem α}
    {A Rest T : List Nat} {pp : Nat} (h : d2 sc S E xs0 s A (pp :: Rest) T) (hA : A ≠ [])
    (hflag : (s.node pp).ignore < 2)
    (hvl : s.view.vl pp 2 = sc.vol 3 (Function.update sc.ref 2 (sc.X pp 2)) A)
    {fuel : Nat} (hfuel : sc.n + 1 ≤ fuel) {height : α} (hyperv : α) (hh : 0 ≤ height) :
    ∃ s' T', hv_dim2_point fuel sc.ref s pp (sc.X pp) height hyperv (sc.vol 2 sc.ref A)
        = some (s', hyperv + sc.vol 2 sc.ref (A ++ [pp]) * height,
            sc.vol 2 sc.ref (A ++ [pp])) ∧
      d2 sc S E xs0 s' (A ++ [pp]) Rest T' := by
  obtain ⟨TA, TB, node, cmp, hT, hTA, hTB, hsearch, hcase⟩ :=
    @d2_search α _ sc S E xs0 hc s A Rest T pp h hA fuel (by omega)
  subst hT
  have hitem : ∀ t, t ∈ TA ++ TB → (s.avl.node t).item = sc.X t := fun t ht =>
    h.st.item t (hc.sub t (hc.mem_chain2.mp (by rw [h.split]; simp [h.tsub t ht])))
  have hlen := tree_list_length hc h.tree h.split h.tsub
  have hppT : pp ∉ TA ++ TB := by
    intro hh
    have hnd : (A ++ pp :: Rest).Nodup := by
      rw [← h.split]; exact (List.nodup_cons.mp hc.nodup_chain2).2
    exact (List.nodup_append.mp hnd).2.2 (h.tsub pp hh) (by simp)
  unfold hv_dim2_point
  simp only [hsearch]
  rcases hcase with ⟨hcmp, ⟨TB', hTB'⟩, hleft⟩ | ⟨hcmp, ⟨TA', hTA'⟩, hright⟩
  · subst hcmp hTB'
    have hnx : (s.avl.node node).item = nxtp sc (node :: TB') := hitem node (by simp)
    have hins : ¬ nxtp sc (node :: TB') 0 ≤ sc.X pp 0 →
        ∃ m, (match avl_insert_before fuel s.avl (some node) pp with
          | none => none
          | some m => some (m, (m.node pp).prev)) = some (m, lastOr TA none) ∧
          tree_list m (TA ++ pp :: node :: TB') ∧
          ∀ k, (m.node k).item = (s.avl.node k).item ∧
            (m.node k).domr = (s.avl.node k).domr := by
      intro _
      obtain ⟨m', e, ht, ha⟩ := @avl_insert_before_spec α s.avl TA TB' node pp fuel h.tree hleft hppT
        (by simp only [List.length_append, List.length_cons] at hlen ⊢; omega)
      refine ⟨m', ?_, ht, ha⟩
      simp only [e]
      rw [(thr_prev_mid ht).1]
    simp only [if_pos (show (-1 : ℤ) ≤ 0 by decide)]
    exact d2_point_rest hc h hTA hTB hflag hvl hfuel hh hnx hins
  · subst hcmp hTA'
    have htree : tree_list s.avl (TA' ++ node :: TB) := by
      have := h.tree
      rw [List.append_assoc] at this
      exact this
    have hnext : (s.avl.node node).next = headOr TB none := (thr_prev_mid htree).2
    have hnx : (match (s.avl.node node).next with
        | some t => (s.avl.node t).item
        | none => sc.ref) = nxtp sc TB := by
      rw [hnext]
      cases TB with
      | nil => rfl
      | cons v TB' => exact hitem v (by simp)
    have hins : ¬ nxtp sc TB 0 ≤ sc.X pp 0 →
        ∃ m, (match avl_insert_after fuel s.avl (some node) pp with
          | none => none
          | some m => some (m, some node)) = some (m, lastOr (TA' ++ [node]) none) ∧
          tree_list m ((TA' ++ [node]) ++ pp :: TB) ∧
          ∀ k, (m.node k).item = (s.avl.node k).item ∧
            (m.node k).domr = (s.avl.node k).domr := by
      intro _
      obtain ⟨m', e, ht, ha⟩ := @avl_insert_after_spec α s.avl TA' TB node pp fuel htree hright
        (by
          intro hmem
          apply hppT
          simp only [List.mem_append, List.mem_cons, List.mem_singleton, List.not_mem_nil,
            or_false] at hmem ⊢
          tauto)
        (by simp only [List.length_append, List.length_cons, List.length_nil] at hlen ⊢; omega)
      refine ⟨m', ?_, by rw [List.append_assoc]; exact ht, ha⟩
      simp only [e]
      rw [lastOr_concat]
    simp only [if_neg (show ¬ (1 : ℤ) ≤ 0 by decide)]
    refine d2_point_rest hc h hTA hTB hflag hvl hfuel hh ?_ hins
    exact hnx

/-- Writing `vol[2]` of the node that is swept next keeps the invariant. -/
theorem d2_setVol {sc : scene α} {S : List Nat} {E : view α}
    {xs0 : List α × (Nat → Option Nat)} (hc : d2ctx sc S E) {s : hv_mem α}
    {A Rest T : List Nat} {pp : Nat} (h : d2 sc S E xs0 s A (pp :: Rest) T) (w : α) :
    d2 sc S E xs0 (s.setVol pp 2 w) A (pp :: Rest) T := by
  have hnd : (A ++ pp :: Rest).Nodup := by
    rw [← h.split]; exact (List.nodup_cons.mp hc.nodup_chain2).2
  have hppA : pp ∉ A := fun hh => (List.nodup_append.mp hnd).2.2 hh (by simp)
  have hv := view_setVol s pp 2 w
  have hxs := xs_setVol s pp 2 w
  have havl : (s.setVol pp 2 w).avl = s.avl := rfl
  refine
    { split := h.split
      st := h.st.of_xs hxs (fun p => by rw [havl])
      xs := hxs.trans h.xs
      tree := by rw [havl]; exact h.tree
      tsub := h.tsub
      tdr := fun t ht => by rw [hv]; exact h.tdr t ht
      tign := fun t ht => by rw [hv]; exact h.tign t ht
      tst := h.tst
      cover := h.cover
      low := fun q hq hqT p hp => by rw [hv]; exact h.low q hq hqT p hp
      val := ?_
      dom := by rw [hv]; exact h.dom
      own := by rw [hv]; exact h.own
      bdlt := by rw [hv]; exact h.bdlt
      stair := fun b hb hR => by
        have := h.stair b (by rw [hv] at hb; exact hb) hR
        exact ⟨this.1, this.2⟩
      nx := by rw [hv]; exact h.nx
      pv := by rw [hv]; exact h.pv
      ar := fun p i hi => by rw [hv]; exact h.ar p i hi
      vl := ?_
      bd := fun i hi => by rw [hv]; exact h.bd i hi
      out := fun p hp => by rw [hv]; exact h.out p hp
      hi := fun p hp => by rw [hv] at hp ⊢; exact h.hi p hp }
  · intro A1 q A2 e
    have hqA : q ∈ A := by rw [e]; simp
    have hq : q ≠ pp := fun hh => hppA (hh ▸ hqA)
    have := h.val A1 q A2 e
    unfold val_at at this ⊢
    rw [hv]
    simp only [Function.update_noteq hq]
    exact this
  · intro p i hi
    rw [hv]
    show Function.update s.view.vl pp (Function.update (s.view.vl pp) 2 w) p i = _
    by_cases hp : p = pp
    · subst hp
      rw [Function.update_same, Function.update_noteq hi]
      exact h.vl p i hi
    · rw [Function.update_noteq hp]
      exact h.vl p i hi

theorem head_append_headD (L : List Nat) (b : Nat) (h : L ++ [b] ≠ []) :
    (L ++ [b]).head h = L.headD b := by
  cases L <;> rfl

/-- The node after `pp` in chain 2. -/
theorem d2_next {sc : scene α} {S : List Nat} {E : view α}
    {xs0 : List α × (Nat → Option Nat)} (hc : d2ctx sc S E) {s : hv_mem α}
    {A Rest T : List Nat} {pp : Nat} (h : d2 sc S E xs0 s A (pp :: Rest) T)
    {s' : hv_mem α} (hnx : s'.view.nx = E.nx) :
    (s'.node pp).next 2 = Rest.headD 0 := by
  have hl := hc.linked
  rw [h.split] at hl
  have := (Linked.inner hl).2.1
  rw [head_append_headD] at this
  show s'.view.nx 2 pp = _
  rw [hnx]
  exact this

/-- The last node of chain 2, as `list->prev[2]`. -/
theorem d2_last {sc : scene α} {S : List Nat} {E : view α}
    {xs0 : List α × (Nat → Option Nat)} (hc : d2ctx sc S E) {s : hv_mem α}
    {A Rest T : List Nat} {pp : Nat} (h : d2 sc S E xs0 s A (pp :: Rest) T)
    {s' : hv_mem α} (hpv : s'.view.pv = E.pv) :
    (pp = (s'.node 0).prev 2) ↔ Rest = [] := by
  have hl := hc.linked
  rw [h.split] at hl
  have e := Linked.pv_last hl
  have e2 : (s'.node 0).prev 2 = E.pv 2 0 := by
    show s'.view.pv 2 0 = _
    rw [hpv]
  rw [e2, e]
  have hnd : (A ++ pp :: Rest).Nodup := by
    rw [← h.split]; exact (List.nodup_cons.mp hc.nodup_chain2).2
  have hppR : pp ∉ Rest := (List.nodup_cons.mp (List.nodup_append.mp hnd).2.1).1
  constructor
  · intro hh
    by_contra hne
    have h1 : (0 :: (A ++ pp :: Rest)).getLast (List.cons_ne_nil _ _) = Rest.getLast hne := by
      rw [List.getLast_congr _ (by simp) (show (0 :: (A ++ pp :: Rest)) = (0 :: (A ++ [pp])) ++ Rest by simp)]
      exact List.getLast_append_of_ne_nil hne
    rw [h1] at hh
    exact hppR (hh ▸ List.getLast_mem hne)
  · intro hh
    subst hh
    rw [List.getLast_congr _ (by simp) (show (0 :: (A ++ [pp])) = (0 :: A) ++ [pp] by simp)]
    simp

/-- The main loop of `dim == 2`: from the invariant for the swept nodes `A`
the loop returns the volume of all nodes. -/
theorem hv_dim2_loop_spec {sc : scene α} {S : List Nat} {E : view α}
    {xs0 : List α × (Nat → Option Nat)} (hc : d2ctx sc S E) {afuel : Nat}
    (hafuel : sc.n + 1 ≤ afuel) :
    ∀ (Rest : List Nat) (fuel : Nat) (s : hv_mem α) (A T : List Nat),
      d2 sc S E xs0 s A Rest T → A ≠ [] → Rest.length < fuel →
      ∃ s' T', hv_dim2_loop afuel sc.ref 0 fuel s (Rest.headD 0)
          (sc.vol 3 (Function.update sc.ref 2 (zn sc Rest)) A) (sc.vol 2 sc.ref A)
          = some (s', sc.vol 3 sc.ref S) ∧ d2 sc S E xs0 s' (sc.chain 2 S) [] T'
  | [], 0, _, _, _, _, _, hf => absurd hf (Nat.not_lt_zero _)
  | [], fuel + 1, s, A, T, h, _, _ => by
    have hx : s.xptr 0 = none := by
      simp [hv_mem.xptr, h.st.head_x]
    have hA : sc.chain 2 S = A := by rw [h.split]; simp
    refine ⟨s, T, ?_, by rw [hA]; exact h⟩
    unfold hv_dim2_loop
    simp only [List.headD_nil, hx, zn, Function.update_eq_self]
    rw [← hA, vol_perm sc 3 sc.ref (chain_perm hc.ok hc.d3 hc.nodup hc.sub)]
  | pp :: Rest, 0, _, _, _, _, _, hf => absurd hf (Nat.not_lt_zero _)
  | pp :: Rest, fuel + 1, s, A, T, h, hA, hf => by
    have hsplit : sc.chain 2 S = A ++ pp :: Rest := h.split
    have hnd : (A ++ pp :: Rest).Nodup := by
      rw [← hsplit]; exact (List.nodup_cons.mp hc.nodup_chain2).2
    have hsorted : (A ++ pp :: Rest).Pairwise (fun a b => sc.X a 2 ≤ sc.X b 2) := by
      rw [← hsplit]; exact hc.sorted_chain2
    have hzA : ∀ a, a ∈ A → sc.X a 2 ≤ sc.X pp 2 := fun a ha =>
      (List.pairwise_append.mp hsorted).2.2 a ha pp (by simp)
    have hzR : ∀ p, p ∈ Rest → sc.X pp 2 ≤ sc.X p 2 := fun p hp =>
      (List.pairwise_cons.mp (List.pairwise_append.mp hsorted).2.1).1 p hp
    have hppA : pp ∉ A := fun hh => (List.nodup_append.mp hnd).2.2 hh (by simp)
    have hppS : pp ∈ S := hc.mem_chain2.mp (by rw [hsplit]; simp)
    have hRS : ∀ p, p ∈ Rest → p ∈ S := fun p hp =>
      hc.mem_chain2.mp (by rw [hsplit]; simp [hp])
    have hppT : pp ∉ T := fun hh => hppA (h.tsub pp hh)
    have hx : s.xptr pp = some (sc.X pp) := h.st.node_xptr pp (hc.sub pp hppS)
    obtain ⟨hyperv, hhv⟩ : ∃ w, w = sc.vol 3 (Function.update sc.ref 2 (sc.X pp 2)) A :=
      ⟨_, rfl⟩
    have h1 := d2_setVol hc h hyperv
    have hlast := d2_last hc h h1.pv
    have hnext := d2_next hc h h1.nx
    have hzn : 0 ≤ zn sc Rest - sc.X pp 2 := by
      cases Rest with
      | nil => exact sub_nonneg.mpr (le_of_lt (hc.lt_ref hppS 2 (by omega)))
      | cons p' R => exact sub_nonneg.mpr (hzR p' (by simp))
    have hbody : hv_dim2_loop afuel sc.ref 0 (fuel + 1) s pp hyperv (sc.vol 2 sc.ref A)
        = if ((s.setVol pp 2 hyperv).node pp).ignore ≥ 2 then
            hv_dim2_loop afuel sc.ref 0 fuel
              ((s.setVol pp 2 hyperv).setArea pp 2 (sc.vol 2 sc.ref A))
              ((((s.setVol pp 2 hyperv).setArea pp 2 (sc.vol 2 sc.ref A)).node pp).next 2)
              (hyperv + sc.vol 2 sc.ref A * (zn sc Rest - sc.X pp 2)) (sc.vol 2 sc.ref A)
          else
            match hv_dim2_point afuel sc.ref (s.setVol pp 2 hyperv) pp (sc.X pp)
                (zn sc Rest - sc.X pp 2) hyperv (sc.vol 2 sc.ref A) with
            | none => none
            | some (s, hyperv, hypera) =>
              hv_dim2_loop afuel sc.ref 0 fuel s ((s.node pp).next 2) hyperv hypera := by
      conv_lhs => unfold hv_dim2_loop
      simp only [hx]
      cases Rest with
      | nil => rw [if_pos (hlast.mpr rfl)]; rfl
      | cons p' R =>
        have hX : (s.setVol pp 2 hyperv).X p' 2 = some (sc.X p' 2) :=
          h1.st.node_x p' (hc.sub p' (hRS p' (by simp))) 2
        rw [if_neg (fun hh => by simpa using hlast.mp hh), hnext, List.headD_cons, hX]
        rfl
    have hslab : sc.vol 3 (Function.update sc.ref 2 (zn sc Rest)) (A ++ [pp])
        = hyperv + sc.vol 2 sc.ref (A ++ [pp]) * (zn sc Rest - sc.X pp 2) := by
      rw [vol_slab sc 2 sc.ref hzA (zn sc Rest), hhv]
      ring
    show ∃ s' T', hv_dim2_loop afuel sc.ref 0 (fuel + 1) s pp
        (sc.vol 3 (Function.update sc.ref 2 (sc.X pp 2)) A) (sc.vol 2 sc.ref A)
        = some (s', sc.vol 3 sc.ref S) ∧ d2 sc S E xs0 s' (sc.chain 2 S) [] T'
    rw [← hhv, hbody]
    by_cases hflag : (s.node pp).ignore ≥ 2
    · -- a flagged node adds no area
      have hflag1 : ((s.setVol pp 2 hyperv).node pp).ignore ≥ 2 := by
        show (s.setVol pp 2 hyperv).view.ign pp ≥ 2
        rw [view_setVol]; exact hflag
      rw [if_pos hflag1]
      obtain ⟨r, hrS, a0, a1, a2⟩ := h.dom pp hppS hflag
      have hrA : r ∈ A := by
        have hb := a2 2 (le_refl _) (le_refl _) hflag
        have hb2 : Before (sc.chain 2 S) r pp :=
          Before.filter_of_mem hb (by simpa using hrS) (by simpa using hppS)
        exact hb2.mem_of_split (List.nodup_cons.mp hc.nodup_chain2).2 hsplit
      have harea : sc.vol 2 sc.ref (A ++ [pp]) = sc.vol 2 sc.ref A :=
        vol_absorb_last sc 2 sc.ref hrA (fun j hj => by
          interval_cases j
          · exact a0
          · exact a1)
      obtain ⟨s2, hs2⟩ : ∃ w, w = (s.setVol pp 2 hyperv).setArea pp 2 (sc.vol 2 sc.ref A) :=
        ⟨_, rfl⟩
      have hv2 : s2.view = { s.view with
          ar := Function.update s.view.ar pp (Function.update (s.view.ar pp) 2
            (sc.vol 2 sc.ref A))
          vl := Function.update s.view.vl pp (Function.update (s.view.vl pp) 2 hyperv) } := by
        rw [hs2, view_setArea, view_setVol]
      have hxs2 : s2.xs = s.xs := by rw [hs2, xs_setArea, xs_setVol]
      have havl2 : s2.avl = s.avl := by rw [hs2]; rfl
      have hd2 : d2 sc S E xs0 s2 (A ++ [pp]) Rest T := by
        refine d2_step hc h (h.st.of_xs hxs2 (fun p => by rw [havl2])) (hxs2.trans h.xs)
          (by rw [havl2]; exact h.tree) (by rw [hv2]) (by rw [hv2]) (by rw [hv2])
          ?_ ?_ ?_ ?_ (fun q _ => by rw [hv2]) (Or.inl (by rw [hv2]))
          (fun t ht => Or.inl ht) h.tst (fun t ht => ⟨t, ht, le_refl _, le_refl _⟩) ?_
          (fun t ht => by rw [hv2]; exact h.tdr t ht) (fun q hq hq' => absurd hq hq')
          (fun _ => by rw [hv2]; exact h.own pp hppS hflag) (fun q _ _ => by rw [hv2])
          (fun hh => absurd hh hppT) (fun _ => ⟨r, hrA, a0, a1⟩)
        · intro q i hqi
          rw [hv2]
          show Function.update s.view.ar pp _ q i = _
          by_cases hq : q = pp
          · subst hq
            rw [Function.update_same, Function.update_noteq (fun hi => hqi ⟨rfl, hi⟩)]
          · rw [Function.update_noteq hq]
        · intro q i hqi
          rw [hv2]
          show Function.update s.view.vl pp _ q i = _
          by_cases hq : q = pp
          · subst hq
            rw [Function.update_same, Function.update_noteq (fun hi => hqi ⟨rfl, hi⟩)]
          · rw [Function.update_noteq hq]
        · rw [hv2]
          show Function.update s.view.ar pp _ pp 2 = _
          rw [Function.update_same, Function.update_same, harea]
        · rw [hv2]
          show Function.update s.view.vl pp _ pp 2 = _
          rw [Function.update_same, Function.update_same, hhv]
        · obtain ⟨t, ht, b0, b1⟩ := h.cover r hrA
          exact ⟨t, ht, le_trans b0 a0, le_trans b1 a1⟩
      obtain ⟨s', T', e, hd⟩ := hv_dim2_loop_spec hc hafuel Rest fuel s2 (A ++ [pp]) T hd2
        (by simp) (by simpa using hf)
      refine ⟨s', T', ?_, hd⟩
      rw [hslab, harea] at e
      rw [← hs2, d2_next hc h hd2.nx]
      exact e
    · -- a node that is not flagged is searched in the tree
      have hflag0 : (s.node pp).ignore < 2 := not_le.mp hflag
      have hflag1 : ¬ ((s.setVol pp 2 hyperv).node pp).ignore ≥ 2 := by
        show ¬ (s.setVol pp 2 hyperv).view.ign pp ≥ 2
        rw [view_setVol]; exact hflag
      rw [if_neg hflag1]
      have hvl1 : (s.setVol pp 2 hyperv).view.vl pp 2
          = sc.vol 3 (Function.update sc.ref 2 (sc.X pp 2)) A := by
        rw [view_setVol]
        show Function.update s.view.vl pp _ pp 2 = _
        rw [Function.update_same, Function.update_same, hhv]
      obtain ⟨s2, T2, e2, hd2⟩ := hv_dim2_point_spec hc h1 hA (not_le.mp hflag1) hvl1 hafuel
        hyperv hzn
      obtain ⟨s', T', e, hd⟩ := hv_dim2_loop_spec hc hafuel Rest fuel s2 (A ++ [pp]) T2 hd2
        (by simp) (by simpa using hf)
      refine ⟨s', T', ?_, hd⟩
      rw [hslab] at e
      rw [e2]
      show hv_dim2_loop afuel sc.ref 0 fuel s2 ((s2.node pp).next 2) _ _ = _
      rw [d2_next hc h hd2.nx]
      exact e

/-! ### The loop that rebuilds the tree of `dim == 2` -/

/-- A node that is incomparable with the nodes of a staircase extends the
staircase at the position the comparison of the tree gives. -/
theorem stairs_insert {sc : scene α} {TA TB : List Nat} {pp : Nat} (h : stairs sc (TA ++ TB))
    (hTA : ∀ a, a ∈ TA →
      sc.X pp 1 ≤ sc.X a 1 ∧ (sc.X pp 1 = sc.X a 1 → sc.X pp 0 < sc.X a 0))
    (hTB : ∀ b, b ∈ TB →
      sc.X b 1 < sc.X pp 1 ∨ (sc.X pp 1 = sc.X b 1 ∧ sc.X b 0 ≤ sc.X pp 0))
    (hinc : ∀ t, t ∈ TA ++ TB →
      ¬ (sc.X t 0 ≤ sc.X pp 0 ∧ sc.X t 1 ≤ sc.X pp 1) ∧
      ¬ (sc.X pp 0 ≤ sc.X t 0 ∧ sc.X pp 1 ≤ sc.X t 1)) :
    stairs sc (TA ++ pp :: TB) := by
  obtain ⟨h1, h2, h3⟩ := List.pairwise_append.mp h
  have hb : ∀ b, b ∈ TB → sc.X pp 0 < sc.X b 0 ∧ sc.X b 1 < sc.X pp 1 := by
    intro b hb
    have hi := hinc b (List.mem_append_right _ hb)
    rcases hTB b hb with g | ⟨g1, g2⟩
    · refine ⟨?_, g⟩
      by_contra hcon
      exact hi.1 ⟨not_lt.mp hcon, le_of_lt g⟩
    · exact absurd ⟨g2, le_of_eq g1.symm⟩ hi.1
  have ha : ∀ a, a ∈ TA → sc.X a 0 < sc.X pp 0 ∧ sc.X pp 1 < sc.X a 1 := by
    intro a ha
    have hi := hinc a (List.mem_append_left _ ha)
    obtain ⟨g1, _⟩ := hTA a ha
    have g3 : sc.X a 0 < sc.X pp 0 := by
      by_contra hcon
      exact hi.2 ⟨not_lt.mp hcon, g1⟩
    refine ⟨g3, ?_⟩
    by_contra hcon
    exact hi.1 ⟨le_of_lt g3, not_lt.mp hcon⟩
  refine List.pairwise_append.mpr ⟨h1, List.pairwise_cons.mpr ⟨hb, h2⟩, ?_⟩
  intro a haA b hbB
  rcases List.mem_cons.mp hbB with e | hbB
  · rw [e]; exact ha a haA
  · exact h3 a haA b hbB

/-- The loop that rebuilds the tree stops at the first node at or above
`bound[2]`, with the staircase of the nodes below it in the tree. -/
theorem hv_dim2_connect_spec {sc : scene α} {S : List Nat} {E : view α}
    (hc : d2ctx sc S E) {V : view α} {dr0 : Nat → α} {xs0 : List α × (Nat → Option Nat)}
    {afuel : Nat} (hafuel : sc.n + 1 ≤ afuel) (hnxE : V.nx = E.nx)
    (hanti : ∀ t t', t ∈ S → t' ∈ S → sc.X t 2 < V.bd 2 → sc.X t' 2 < V.bd 2 →
      V.bd 2 ≤ dr0 t → V.bd 2 ≤ dr0 t' → sc.X t 0 ≤ sc.X t' 0 → sc.X t 1 ≤ sc.X t' 1 →
      t = t') :
    ∀ (Rest : List Nat) (fuel : Nat) (s : hv_mem α) (A T : List Nat),
      c2 sc S V dr0 xs0 s A Rest T → T ≠ [] → (∀ a, a ∈ A → sc.X a 2 < V.bd 2) →
      (∃ p, p ∈ Rest ∧ V.bd 2 ≤ sc.X p 2) → Rest.length < fuel →
      ∃ s' A' p R' T', hv_dim2_connect afuel sc.ref fuel s (Rest.headD 0) = some (s', p) ∧
        c2 sc S V dr0 xs0 s' A' (p :: R') T' ∧ V.bd 2 ≤ sc.X p 2 ∧
        (∀ a, a ∈ A' → sc.X a 2 < V.bd 2)
  | [], _, _, _, _, _, _, _, hex, _ => by
    obtain ⟨p, hp, _⟩ := hex
    simp at hp
  | pp :: R, 0, _, _, _, _, _, _, _, hf => absurd hf (Nat.not_lt_zero _)
  | pp :: R, fuel + 1, s, A, T, h, hT, hA, hex, hf => by
    have hsplit : sc.chain 2 S = A ++ pp :: R := h.split
    have hnd : (A ++ pp :: R).Nodup := by
      rw [← hsplit]; exact (List.nodup_cons.mp hc.nodup_chain2).2
    have hppA : pp ∉ A := fun hh => (List.nodup_append.mp hnd).2.2 hh (by simp)
    have hppS : pp ∈ S := hc.mem_chain2.mp (by rw [hsplit]; simp)
    have hAS : ∀ a, a ∈ A → a ∈ S := fun a ha => hc.mem_chain2.mp (by rw [hsplit]; simp [ha])
    have hppT : pp ∉ T := fun hh => hppA ((h.tmem pp).mp hh).1
    have hX : s.X pp 2 = some (sc.X pp 2) := h.st.node_x pp (hc.sub pp hppS) 2
    have hxp : s.xptr pp = some (sc.X pp) := h.st.node_xptr pp (hc.sub pp hppS)
    have hbd2 : s.bound 2 = V.bd 2 := by
      show s.view.bd 2 = _
      rw [h.bd]
    have hdr : (s.avl.node pp).domr = dr0 pp := h.odr pp hppT
    have hnext : (s.node pp).next 2 = R.headD 0 := by
      have hl := hc.linked
      rw [hsplit] at hl
      have := (Linked.inner hl).2.1
      rw [head_append_headD] at this
      show s.view.nx 2 pp = _
      rw [h.nx, hnxE]
      exact this
    have hbody : hv_dim2_connect afuel sc.ref (fuel + 1) s pp
        = if sc.X pp 2 < V.bd 2 then
            if dr0 pp ≥ V.bd 2 then
              match avl_search_closest afuel (s.avl.setDomr pp (sc.ref 2)) (sc.X pp) with
              | none => none
              | some (tnode, c) =>
                match (if c ≤ 0 then
                    avl_insert_before afuel (s.avl.setDomr pp (sc.ref 2)) tnode pp
                  else avl_insert_after afuel (s.avl.setDomr pp (sc.ref 2)) tnode pp) with
                | none => none
                | some m => hv_dim2_connect afuel sc.ref fuel { s with avl := m } (R.headD 0)
            else hv_dim2_connect afuel sc.ref fuel s (R.headD 0)
          else some (s, pp) := by
      conv_lhs => unfold hv_dim2_connect
      simp only [hX, hxp]
      rw [hbd2, hdr, hnext]
    show ∃ s' A' p R' T', hv_dim2_connect afuel sc.ref (fuel + 1) s pp = some (s', p) ∧ _
    rw [hbody]
    by_cases hlt : sc.X pp 2 < V.bd 2
    · rw [if_pos hlt]
      have hex' : ∃ p, p ∈ R ∧ V.bd 2 ≤ sc.X p 2 := by
        obtain ⟨p, hp, hpb⟩ := hex
        rcases List.mem_cons.mp hp with e | hp
        · rw [e] at hpb
          exact absurd hlt (not_lt.mpr hpb)
        · exact ⟨p, hp, hpb⟩
      have hA' : ∀ a, a ∈ A ++ [pp] → sc.X a 2 < V.bd 2 := by
        intro a ha
        rcases List.mem_append.mp ha with ha | ha
        · exact hA a ha
        · rw [List.mem_singleton] at ha
          rw [ha]; exact hlt
      by_cases hge : dr0 pp ≥ V.bd 2
      · rw [if_pos hge]
        -- the position of `pp` in the tree
        have htree1 : tree_list (s.avl.setDomr pp (sc.ref 2)) T :=
          tree_list_setDomr h.tree pp _
        have hTA_ : ∀ t, t ∈ T → t ∈ A := fun t ht => ((h.tmem t).mp ht).1
        have hitem : ∀ t, t ∈ T → ((s.avl.setDomr pp (sc.ref 2)).node t).item = sc.X t := by
          intro t ht
          rw [avl_item_setDomr]
          exact h.st.item t (hc.sub t (hAS t (hTA_ t ht)))
        obtain ⟨TA, TB, hTs, hTA, hTB⟩ :=
          split_mono (P := fun t => compare_tree_asc (sc.X pp) (sc.X t) < 0)
            T h.tst (fun a b hab ha => by
              simp only [] at ha ⊢
              rw [compare_tree_asc_lt] at ha ⊢
              rcases ha with ha | ⟨ha1, _⟩
              · exact Or.inl (lt_trans hab.2 ha)
              · exact Or.inl (by rw [ha1]; exact hab.2))
        have hlen := tree_list_length hc h.tree hsplit hTA_
        have hTne : TA ++ TB ≠ [] := by rw [← hTs]; exact hT
        have htree2 : tree_list (s.avl.setDomr pp (sc.ref 2)) (TA ++ TB) := by
          rw [← hTs]; exact htree1
        obtain ⟨node, hres⟩ := @avl_search_closest_spec α _ (s.avl.setDomr pp (sc.ref 2))
          (sc.X pp) TA TB afuel htree2 hTne
          (fun a ha => by rw [hitem a (by rw [hTs]; simp [ha])]; exact hTA a ha)
          (fun b hb => by rw [hitem b (by rw [hTs]; simp [hb])]; exact hTB b hb)
          (by rw [← hTs]; omega)
        have hTA' : ∀ a, a ∈ TA →
            sc.X pp 1 ≤ sc.X a 1 ∧ (sc.X pp 1 = sc.X a 1 → sc.X pp 0 < sc.X a 0) := by
          intro a ha
          have := hTA a ha
          simp only [] at this
          rw [compare_tree_asc_lt, not_or, not_and] at this
          exact ⟨not_lt.mp this.1, fun e => not_le.mp (this.2 e)⟩
        have hTB' : ∀ b, b ∈ TB →
            sc.X b 1 < sc.X pp 1 ∨ (sc.X pp 1 = sc.X b 1 ∧ sc.X b 0 ≤ sc.X pp 0) := by
          intro b hb
          have := hTB b hb
          simp only [] at this
          rw [compare_tree_asc_lt] at this
          exact this
        have hinc : ∀ t, t ∈ TA ++ TB →
            ¬ (sc.X t 0 ≤ sc.X pp 0 ∧ sc.X t 1 ≤ sc.X pp 1) ∧
            ¬ (sc.X pp 0 ≤ sc.X t 0 ∧ sc.X pp 1 ≤ sc.X t 1) := by
          intro t ht
          rw [← hTs] at ht
          obtain ⟨htA, htd⟩ := (h.tmem t).mp ht
          have hne : t ≠ pp := fun e => hppA (e ▸ htA)
          constructor
          · intro hh
            exact hne (hanti t pp (hAS t htA) hppS (hA t htA) hlt htd hge hh.1 hh.2)
          · intro hh
            exact hne (hanti pp t hppS (hAS t htA) hlt (hA t htA) hge htd hh.1 hh.2).symm
        have hst' : stairs sc (TA ++ pp :: TB) :=
          stairs_insert (by rw [← hTs]; exact h.tst) hTA' hTB' hinc
        have hppT' : pp ∉ TA ++ TB := by rw [← hTs]; exact hppT
        -- the insertion
        have hins : ∃ m', (match avl_search_closest afuel (s.avl.setDomr pp (sc.ref 2))
              (sc.X pp) with
            | none => none
            | some (tnode, c) =>
              match (if c ≤ 0 then
                  avl_insert_before afuel (s.avl.setDomr pp (sc.ref 2)) tnode pp
                else avl_insert_after afuel (s.avl.setDomr pp (sc.ref 2)) tnode pp) with
              | none => none
              | some m => hv_dim2_connect afuel sc.ref fuel { s with avl := m } (R.headD 0))
            = hv_dim2_connect afuel sc.ref fuel { s with avl := m' } (R.headD 0) ∧
            tree_list m' (TA ++ pp :: TB) ∧
            ∀ k, (m'.node k).item = ((s.avl.setDomr pp (sc.ref 2)).node k).item ∧
              (m'.node k).domr = ((s.avl.setDomr pp (sc.ref 2)).node k).domr := by
          rcases hres with ⟨g1, ⟨TB', g2⟩, g3⟩ | ⟨g1, ⟨TA', g2⟩, g3⟩
          · subst g2
            obtain ⟨m', e, ht, hat⟩ := @avl_insert_before_spec α (s.avl.setDomr pp (sc.ref 2))
              TA TB' node pp afuel htree2 g3 hppT' (by rw [← hTs]; omega)
            refine ⟨m', ?_, ht, hat⟩
            rw [g1]
            simp only []
            rw [if_pos (by norm_num), e]
          · subst g2
            have htree3 : tree_list (s.avl.setDomr pp (sc.ref 2)) (TA' ++ node :: TB) := by
              simpa using htree2
            obtain ⟨m', e, ht, hat⟩ := @avl_insert_after_spec α (s.avl.setDomr pp (sc.ref 2))
              TA' TB node pp afuel htree3 g3 (by simpa using hppT')
              (by rw [hTs] at hlen; simp at hlen ⊢; omega)
            refine ⟨m', ?_, by simpa using ht, hat⟩
            rw [g1]
            simp only []
            rw [if_neg (by norm_num), e]
        obtain ⟨m', e, htree', hattr⟩ := hins
        rw [e]
        have hc2 : c2 sc S V dr0 xs0 ({ s with avl := m' } : hv_mem α) (A ++ [pp]) R
            (TA ++ pp :: TB) := by
          have hdr' : ∀ k, (m'.node k).domr = if k = pp then sc.ref 2 else (s.avl.node k).domr :=
            fun k => by rw [(hattr k).2, avl_domr_setDomr]
          refine
            { split := by rw [hsplit]; simp
              st := h.st.of_xs rfl (fun p => by
                show (m'.node p).item = _
                rw [(hattr p).1, avl_item_setDomr])
              xs := h.xs
              tree := htree'
              tst := hst'
              tmem := ?_
              tdr := ?_
              odr := ?_
              nx := h.nx
              pv := h.pv
              ign := h.ign
              ar := h.ar
              vl := h.vl
              bd := h.bd }
          · intro t
            constructor
            · intro ht
              have : t ∈ T ∨ t = pp := by
                rw [hTs]
                simp only [List.mem_append, List.mem_cons] at ht ⊢
                tauto
              rcases this with ht | ht
              · obtain ⟨g1, g2⟩ := (h.tmem t).mp ht
                exact ⟨List.mem_append_left _ g1, g2⟩
              · rw [ht]; exact ⟨by simp, hge⟩
            · rintro ⟨ht, htd⟩
              rcases List.mem_append.mp ht with ht | ht
              · have := (h.tmem t).mpr ⟨ht, htd⟩
                rw [hTs] at this
                simp only [List.mem_append, List.mem_cons] at this ⊢
                tauto
              · rw [List.mem_singleton] at ht
                rw [ht]; simp
          · intro t ht
            show (m'.node t).domr = _
            rw [hdr']
            by_cases e : t = pp
            · rw [if_pos e]
            · rw [if_neg e]
              have : t ∈ T := by
                rw [hTs]
                simp only [List.mem_append, List.mem_cons] at ht ⊢
                tauto
              exact h.tdr t this
          · intro t ht
            show (m'.node t).domr = _
            rw [hdr']
            have e : t ≠ pp := fun e => ht (by rw [e]; simp)
            rw [if_neg e]
            have : t ∉ T := by
              rw [hTs]
              simp only [List.mem_append, List.mem_cons] at ht ⊢
              tauto
            exact h.odr t this
        exact hv_dim2_connect_spec hc hafuel hnxE hanti R fuel _ (A ++ [pp]) (TA ++ pp :: TB)
          hc2 (by simp) hA' hex' (by simpa using hf)
      · rw [if_neg hge]
        have hc2 : c2 sc S V dr0 xs0 s (A ++ [pp]) R T :=
          { h with
            split := by rw [hsplit]; simp
            tmem := fun t => by
              rw [h.tmem t]
              constructor
              · rintro ⟨g1, g2⟩
                exact ⟨List.mem_append_left _ g1, g2⟩
              · rintro ⟨g1, g2⟩
                rcases List.mem_append.mp g1 with g1 | g1
                · exact ⟨g1, g2⟩
                · rw [List.mem_singleton] at g1
                  rw [g1] at g2
                  exact absurd g2 hge }
        exact hv_dim2_connect_spec hc hafuel hnxE hanti R fuel s (A ++ [pp]) T hc2 hT hA' hex'
          (by simpa using hf)
    · rw [if_neg hlt]
      exact ⟨s, A, pp, R, T, rfl, h, not_lt.mp hlt, hA⟩

/-- The invariant of the main loop of `dim == 2` holds when the loop is
entered: the tree was rebuilt from the nodes `A` below the old `bound[2]`,
which is `b0`, or holds the first node alone. -/
theorem d2_init {sc : scene α} {S : List Nat} {E : view α}
    {xs0 : List α × (Nat → Option Nat)} (hc : d2ctx sc S E) {b0 : α}
    (hdomE : dom sc E 2 S) (hownE : own sc E S)
    (hstairE : ∀ b, b ≤ b0 → stair_at sc E S b)
    {s : hv_mem α} {A R T : List Nat} {p first : Nat}
    (hsplit : sc.chain 2 S = A ++ p :: R) (hst : stat sc s) (hxs : s.xs = xs0)
    (htree : tree_list s.avl T) (htst : stairs sc T) (htsub : ∀ t, t ∈ T → t ∈ A)
    (htdr : ∀ t, t ∈ T → s.view.dr t = sc.ref 2)
    (hodr : ∀ t, t ∉ T → s.view.dr t = E.dr t)
    (hnx : s.view.nx = E.nx) (hpv : s.view.pv = E.pv)
    (har : ∀ q i, i ≠ 2 → s.view.ar q i = E.ar q i)
    (hvl : ∀ q i, i ≠ 2 → s.view.vl q i = E.vl q i)
    (hbd : ∀ i, i ≠ 2 → s.view.bd i = E.bd i)
    (hbd2 : s.view.bd 2 < sc.ref 2)
    (hval : ∀ A1 q A2, A = A1 ++ q :: A2 → val_at sc s.view 2 A1 q)
    (hign : ∀ q, q ≠ first → s.view.ign q = E.ign q)
    (hign1 : s.view.ign first = 0) (hfirst : first ∈ T)
    (htign : ∀ t, t ∈ T → E.ign t < 2)
    (hiff : ∀ t, t ∈ T → sc.X t 2 < b0 → b0 ≤ E.dr t)
    (hlow : ∀ q, q ∈ A → q ∉ T → E.dr q < b0)
    (hb0 : ∀ r, r ∈ p :: R → b0 ≤ sc.X r 2)
    (hcov : ∀ q, q ∈ A → ∃ t, t ∈ T ∧ sc.X t 0 ≤ sc.X q 0 ∧ sc.X t 1 ≤ sc.X q 1 ∧
      (sc.X t 2 < b0 ∨ t = q)) :
    d2 sc S E xs0 s A (p :: R) T := by
  have hAS : ∀ a, a ∈ A → a ∈ S := fun a ha => hc.mem_chain2.mp (by rw [hsplit]; simp [ha])
  have hpS : p ∈ S := hc.mem_chain2.mp (by rw [hsplit]; simp)
  have hmemS : ∀ t, t ∈ S → t ∈ A ∨ t ∈ p :: R := by
    intro t ht
    have := hc.mem_chain2.mpr ht
    rw [hsplit] at this
    exact List.mem_append.mp this
  have hfirstE : E.ign first < 2 := htign first hfirst
  have hignT : ∀ t, t ∈ T → s.view.ign t < 2 := by
    intro t ht
    by_cases e : t = first
    · rw [e, hign1]; norm_num
    · rw [hign t e]; exact htign t ht
  have hflagE : ∀ q, 2 ≤ s.view.ign q → q ≠ first ∧ 2 ≤ E.ign q := by
    intro q hq
    have e : q ≠ first := by
      intro e
      rw [e, hign1] at hq
      norm_num at hq
    exact ⟨e, by rw [← hign q e]; exact hq⟩
  have hpref : sc.X p 2 < sc.ref 2 := hc.lt_ref hpS 2 (by omega)
  refine
    { split := hsplit
      st := hst
      xs := hxs
      tree := htree
      tsub := htsub
      tdr := htdr
      tign := hignT
      tst := htst
      cover := fun q hq => by
        obtain ⟨t, ht, a0, a1, _⟩ := hcov q hq
        exact ⟨t, ht, a0, a1⟩
      low := fun q hq hqT r hr => by
        rw [hodr q hqT]
        exact le_trans (le_of_lt (hlow q hq hqT)) (hb0 r hr)
      val := hval
      dom := ?_
      own := ?_
      bdlt := hbd2
      stair := ?_
      nx := hnx
      pv := hpv
      ar := har
      vl := hvl
      bd := hbd
      out := ?_
      hi := ?_ }
  · -- dom
    intro q hq h2
    obtain ⟨e, h2E⟩ := hflagE q h2
    obtain ⟨r, hr, a0, a1, a2⟩ := hdomE q hq h2E
    exact ⟨r, hr, a0, a1, fun i b1 b2 b3 => a2 i b1 b2 (by rw [← hign q e]; exact b3)⟩
  · -- own
    intro q hq h2
    obtain ⟨e, h2E⟩ := hflagE q h2
    have hqT : q ∉ T := fun hh => absurd (htign q hh) (not_lt.mpr h2E)
    rw [hodr q hqT]
    exact hownE q hq h2E
  · -- stair
    intro b hb hbR
    have hbp : b ≤ sc.X p 2 := hbR p (by simp)
    have hbref : b ≤ sc.ref 2 := le_trans hbp (le_of_lt hpref)
    by_cases hbb : b ≤ b0
    · refine stair_at_iff (hstairE b hbb) (fun t ht hz => ?_)
      by_cases htT : t ∈ T
      · rw [htdr t htT]
        have := hiff t htT (lt_of_lt_of_le hz hbb)
        exact ⟨fun _ => le_trans hbb this, fun _ => hbref⟩
      · rw [hodr t htT]
    · have hbb' : b0 < b := not_le.mp hbb
      have hA : ∀ t, t ∈ S → sc.X t 2 < b → t ∈ A := by
        intro t ht hz
        rcases hmemS t ht with h1 | h1
        · exact h1
        · exact absurd (hbR t h1) (not_le.mpr hz)
      have hclaim : ∀ t, t ∈ S → sc.X t 2 < b → b ≤ s.view.dr t → t ∈ T := by
        intro t ht hz hdr
        by_contra htT
        rw [hodr t htT] at hdr
        exact absurd (lt_of_lt_of_le hbb' hdr) (not_lt.mpr (le_of_lt (hlow t (hA t ht hz) htT)))
      constructor
      · intro t t' ht ht' hz hz' hd hd' h0 h1
        exact stairs_antichain htst (hclaim t ht hz hd) (hclaim t' ht' hz' hd') h0 h1
      · intro q hq hz
        obtain ⟨t, ht, a0, a1, a2⟩ := hcov q (hA q hq hz)
        refine ⟨t, hAS t (htsub t ht), ?_, by rw [htdr t ht]; exact hbref, a0, a1⟩
        rcases a2 with a2 | a2
        · exact lt_trans a2 hbb'
        · rw [a2]; exact hz
  · -- out
    intro q hq
    have e : q ≠ first := fun e => hq (e ▸ hAS first (htsub first hfirst))
    have hqT : q ∉ T := fun hh => hq (hAS q (htsub q hh))
    exact ⟨hign q e, hodr q hqT⟩
  · -- hi
    intro q hq
    by_cases e : q = first
    · exfalso
      rw [e, hign1] at hq
      rcases hq with hq | hq
      · exact absurd hfirstE (not_lt.mpr (le_of_lt hq))
      · norm_num at hq
    · exact hign q e

theorem hv_dim2_tree_eq (fuel : Nat) (ref : Nat → α) (s : hv_mem α) (list pp : Nat) :
    hv_dim2_tree fuel ref s list pp =
      match hv_dim2_connect fuel ref fuel (hv_dim2_top ref s pp)
          (((hv_dim2_top ref s pp).node pp).next 2) with
      | none => none
      | some (s, p) => hv_dim2_sweep fuel ref s list p := rfl

/-- Branch `dim == 2` after the early return, in terms of its parts. -/
theorem hv_dim2_eq (fuel : Nat) (ref : Nat → α) (s : hv_mem α) (list : Nat)
    {last first : Nat} {lastx2 x2 x0 x1 : α}
    (hlast : (s.node list).prev 2 = last) (hfirst : (s.node list).next 2 = first)
    (hl : s.X last 2 = some lastx2) (hb : ¬ lastx2 < s.bound 2)
    (h2 : s.X first 2 = some x2) (h0 : s.X first 0 = some x0)
    (h1 : s.X first 1 = some x1) :
    hv_dim2 fuel ref s list =
      if x2 ≥ s.bound 2 then
        hv_dim2_tree fuel ref (hv_dim2_all ref s first x0 x1) list first
      else
        match hv_dim2_skip fuel s first with
        | none => none
        | some pp => hv_dim2_tree fuel ref s list pp := by
  subst hlast hfirst
  unfold hv_dim2
  simp only [hl, if_neg hb, h2, h0, h1]
  by_cases hx : x2 ≥ s.bound 2
  · rw [if_pos hx, if_pos hx]
    rfl
  · rw [if_neg hx, if_neg hx]
    cases hv_dim2_skip fuel s ((s.node list).next 2) with
    | none => rfl
    | some pp => rfl

/-- At the end of the main loop of `dim == 2` the memory meets the invariant
between two calls again, once the tree is cleared. -/
theorem d2_final {sc : scene α} {S : List Nat} {E : view α}
    {xs0 : List α × (Nat → Option Nat)} (hc : d2ctx sc S E) {s : hv_mem α} {T : List Nat}
    (h : d2 sc S E xs0 s (sc.chain 2 S) [] T) :
    inv sc 2 ({ s with avl := avl_clear_tree s.avl } : hv_mem α) S ∧
      frame 2 S E ({ s with avl := avl_clear_tree s.avl } : hv_mem α).view ∧
      ({ s with avl := avl_clear_tree s.avl } : hv_mem α).xs = xs0 := by
  have hv : ({ s with avl := avl_clear_tree s.avl } : hv_mem α).view = s.view := rfl
  have hx : ({ s with avl := avl_clear_tree s.avl } : hv_mem α).xs = s.xs := rfl
  refine ⟨⟨?_, h.st.of_xs hx (fun p => rfl), rfl⟩, ?_, hx.trans h.xs⟩
  · rw [hv]
    refine
      { sub := hc.sub
        nodup := hc.nodup
        linked := fun i h1 h2 => by
          have e : i = 2 := by omega
          subst e
          rw [h.nx, h.pv]
          exact hc.linked
        val := fun i h1 h2 => by
          have e : i = 2 := by omega
          subst e
          intro A q B e _
          exact h.val A q B e
        dom := h.dom
        own := h.own
        stair := fun b hb => h.stair b hb (fun p hp => by simp at hp) }
  · rw [hv]
    refine
      { nx := h.nx
        pv := h.pv
        ar := fun p i hi => h.ar p i (by omega)
        vl := fun p i hi => h.vl p i (by omega)
        bd := fun i hi => h.bd i (by omega)
        ign_out := fun p hp => (h.out p hp).1
        dr_out := fun p hp => (h.out p hp).2
        ign_hi := fun p hp => h.hi p (by simpa using hp) }

/-- The sweep of `dim == 2` from the rebuilt tree returns the volume. -/
theorem hv_dim2_sweep_spec {sc : scene α} {S : List Nat} {E : view α}
    {xs0 : List α × (Nat → Option Nat)} (hc : d2ctx sc S E) {b0 : α}
    (hdomE : dom sc E 2 S) (hownE : own sc E S)
    (hstairE : ∀ b, b ≤ b0 → stair_at sc E S b)
    {s : hv_mem α} {A R T : List Nat} {p first : Nat}
    (hsplit : sc.chain 2 S = A ++ p :: R) (hst : stat sc s) (hxs : s.xs = xs0)
    (htree : tree_list s.avl T) (htst : stairs sc T) (htsub : ∀ t, t ∈ T → t ∈ A)
    (htdr : ∀ t, t ∈ T → s.view.dr t = sc.ref 2)
    (hodr : ∀ t, t ∉ T → s.view.dr t = E.dr t)
    (hnx : s.view.nx = E.nx) (hpv : s.view.pv = E.pv)
    (har : ∀ q i, i ≠ 2 → s.view.ar q i = E.ar q i)
    (hvl : ∀ q i, i ≠ 2 → s.view.vl q i = E.vl q i)
    (hbd : ∀ i, i ≠ 2 → s.view.bd i = E.bd i)
    (hval : ∀ A1 q A2, A = A1 ++ q :: A2 → val_at sc s.view 2 A1 q)
    (hign : ∀ q, q ≠ first → s.view.ign q = E.ign q)
    (hign1 : s.view.ign first = 0) (hfirst : first ∈ T)
    (htign : ∀ t, t ∈ T → E.ign t < 2)
    (hiff : ∀ t, t ∈ T → sc.X t 2 < b0 → b0 ≤ E.dr t)
    (hlow : ∀ q, q ∈ A → q ∉ T → E.dr q < b0)
    (hb0 : ∀ r, r ∈ p :: R → b0 ≤ sc.X r 2)
    (hcov : ∀ q, q ∈ A → ∃ t, t ∈ T ∧ sc.X t 0 ≤ sc.X q 0 ∧ sc.X t 1 ≤ sc.X q 1 ∧
      (sc.X t 2 < b0 ∨ t = q))
    {fuel : Nat} (hfuel : sc.n + 1 ≤ fuel) :
    ∃ s', hv_dim2_sweep fuel sc.ref s 0 p = some (sc.vol 3 sc.ref S, s') ∧
      inv sc 2 s' S ∧ frame 2 S E s'.view ∧ s'.xs = xs0 := by
  have hA : A ≠ [] := List.ne_nil_of_mem (htsub first hfirst)
  obtain ⟨A1, pp, hA1⟩ : ∃ A1 pp, A = A1 ++ [pp] := by
    rcases List.eq_nil_or_concat A with e | ⟨A1, pp, e⟩
    · exact absurd e hA
    · exact ⟨A1, pp, by rw [e, List.concat_eq_append]⟩
  subst hA1
  have hsplit' : sc.chain 2 S = A1 ++ pp :: (p :: R) := by rw [hsplit]; simp
  have hl := hc.linked
  have hmemS : ∀ t, t ∈ sc.chain 2 S → t ∈ S := fun t ht => hc.mem_chain2.mp ht
  have hppS : pp ∈ S := hmemS pp (by rw [hsplit']; simp)
  have hpS : p ∈ S := hmemS p (by rw [hsplit]; simp)
  -- the last node of the chain
  obtain ⟨C0, last, hC⟩ : ∃ C0 last, sc.chain 2 S = C0 ++ [last] := by
    rcases List.eq_nil_or_concat (sc.chain 2 S) with e | ⟨C0, last, e⟩
    · rw [hsplit] at e; simp at e
    · exact ⟨C0, last, by rw [e, List.concat_eq_append]⟩
  have hlastS : last ∈ S := hmemS last (by rw [hC]; simp)
  have hprev0 : (s.node 0).prev 2 = last := by
    show s.view.pv 2 0 = _
    rw [hpv]
    have e := Linked.pv_last hl
    rw [e, List.getLast_congr _ (by simp) (show (0 :: sc.chain 2 S) = (0 :: C0) ++ [last] by
      rw [hC]; simp)]
    simp
  have hprevp : (s.node p).prev 2 = pp := by
    show s.view.pv 2 p = _
    rw [hpv]
    have hl2 := hl
    rw [hsplit] at hl2
    have e := (Linked.inner hl2).1
    rw [e, List.getLast_congr _ (by simp) (show (0 :: (A1 ++ [pp])) = (0 :: A1) ++ [pp] by simp)]
    simp
  have hnextpp : ∀ s' : hv_mem α, s'.view.nx = E.nx → (s'.node pp).next 2 = p := by
    intro s' hs'
    show s'.view.nx 2 pp = _
    rw [hs']
    have hl2 := hl
    rw [hsplit'] at hl2
    have e := (Linked.inner hl2).2.1
    rw [e]
    rfl
  have hXpp : s.X pp 2 = some (sc.X pp 2) := hst.node_x pp (hc.sub pp hppS) 2
  have hXp : s.X p 2 = some (sc.X p 2) := hst.node_x p (hc.sub p hpS) 2
  have hXl : s.X last 2 = some (sc.X last 2) := hst.node_x last (hc.sub last hlastS) 2
  -- the state after the assignment to `bound[2]`
  obtain ⟨s5, hs5⟩ : ∃ w, w = s.setBound 2 (sc.X last 2) := ⟨_, rfl⟩
  have hv5 : s5.view = { s.view with bd := Function.update s.view.bd 2 (sc.X last 2) } := by
    rw [hs5, view_setBound]
  have hxs5 : s5.xs = s.xs := by rw [hs5, xs_setBound]
  have havl5 : s5.avl = s.avl := by rw [hs5]; rfl
  have hd2 : d2 sc S E xs0 s5 (A1 ++ [pp]) (p :: R) T := by
    refine d2_init hc hdomE hownE hstairE hsplit (hst.of_xs hxs5 (fun q => by rw [havl5]))
      (hxs5.trans hxs) (by rw [havl5]; exact htree) htst htsub
      (fun t ht => by rw [hv5]; exact htdr t ht) (fun t ht => by rw [hv5]; exact hodr t ht)
      (by rw [hv5]; exact hnx) (by rw [hv5]; exact hpv)
      (fun q i hi => by rw [hv5]; exact har q i hi) (fun q i hi => by rw [hv5]; exact hvl q i hi)
      (fun i hi => by
        rw [hv5]
        show Function.update s.view.bd 2 _ i = _
        rw [Function.update_noteq hi]
        exact hbd i hi)
      (by
        rw [hv5]
        show Function.update s.view.bd 2 _ 2 < _
        rw [Function.update_same]
        exact hc.lt_ref hlastS 2 (by omega))
      (fun B1 q B2 e => by
        have := hval B1 q B2 e
        unfold val_at at this ⊢
        rw [hv5]
        exact this)
      (fun q hq => by rw [hv5]; exact hign q hq) (by rw [hv5]; exact hign1) hfirst htign hiff
      hlow hb0 hcov
  obtain ⟨s6, T6, e6, hd6⟩ := hv_dim2_loop_spec hc hfuel (p :: R) fuel s5 (A1 ++ [pp]) T hd2 hA
    (by
      have := tree_list_length hc htree hsplit htsub
      omega)
  -- the volume up to the node `p`
  have hsorted := hc.sorted_chain2
  rw [hsplit'] at hsorted
  have hzA : ∀ a, a ∈ A1 → sc.X a 2 ≤ sc.X pp 2 := fun a ha =>
    (List.pairwise_append.mp hsorted).2.2 a ha pp (by simp)
  obtain ⟨hvalar, hvalvl⟩ := hval A1 pp [] rfl
  have hslab : sc.vol 3 (Function.update sc.ref 2 (sc.X p 2)) (A1 ++ [pp])
      = (s.node pp).vol 2 + (s.node pp).area 2 * (sc.X p 2 - sc.X pp 2) := by
    rw [vol_slab sc 2 sc.ref hzA (sc.X p 2)]
    show _ = s.view.vl pp 2 + s.view.ar pp 2 * _
    rw [hvalar, hvalvl]
    ring
  have harea : sc.vol 2 sc.ref (A1 ++ [pp]) = (s.node pp).area 2 := hvalar.symm
  simp only [zn, List.headD_cons] at e6
  rw [hslab, harea] at e6
  obtain ⟨hinv, hframe, hxs6⟩ := d2_final hc hd6
  refine ⟨_, ?_, hinv, hframe, hxs6⟩
  unfold hv_dim2_sweep
  simp only [hprevp, hprev0, hXpp, hnextpp s hnx, hXp, hXl]
  rw [← hs5, hnextpp s5 hd2.nx, e6]

/-- The loop that skips the nodes whose `domr` is below `bound[2]` stops at
the first node of the chain whose `domr` is not. -/
theorem hv_dim2_skip_spec {sc : scene α} {S : List Nat} {E : view α} (hc : d2ctx sc S E)
    {s : hv_mem α} (hnx : s.view.nx = E.nx) :
    ∀ (Rest : List Nat) (fuel : Nat) (A : List Nat), sc.chain 2 S = A ++ Rest →
      (∀ a, a ∈ A → s.view.dr a < s.view.bd 2) →
      (∃ t, t ∈ Rest ∧ s.view.bd 2 ≤ s.view.dr t) → Rest.length < fuel →
      ∃ A' p R', sc.chain 2 S = A' ++ p :: R' ∧
        hv_dim2_skip fuel s (Rest.headD 0) = some p ∧
        (∀ a, a ∈ A' → s.view.dr a < s.view.bd 2) ∧ s.view.bd 2 ≤ s.view.dr p
  | [], _, _, _, _, hex, _ => by
    obtain ⟨t, ht, _⟩ := hex
    simp at ht
  | pp :: R, 0, _, _, _, _, hf => absurd hf (Nat.not_lt_zero _)
  | pp :: R, fuel + 1, A, hsplit, hA, hex, hf => by
    have hnext : (s.node pp).next 2 = R.headD 0 := by
      have hl := hc.linked
      rw [hsplit] at hl
      have := (Linked.inner hl).2.1
      rw [head_append_headD] at this
      show s.view.nx 2 pp = _
      rw [hnx]
      exact this
    show ∃ A' p R', _ ∧ hv_dim2_skip (fuel + 1) s pp = some p ∧ _
    unfold hv_dim2_skip
    by_cases hlt : (s.avl.node pp).domr < s.bound 2
    · rw [if_pos hlt, hnext]
      refine hv_dim2_skip_spec hc hnx R fuel (A ++ [pp]) (by rw [hsplit]; simp) ?_ ?_
        (by simpa using hf)
      · intro a ha
        rcases List.mem_append.mp ha with ha | ha
        · exact hA a ha
        · rw [List.mem_singleton] at ha
          rw [ha]; exact hlt
      · obtain ⟨t, ht, htb⟩ := hex
        rcases List.mem_cons.mp ht with e | ht
        · rw [e] at htb
          exact absurd hlt (not_lt.mpr htb)
        · exact ⟨t, ht, htb⟩
    · rw [if_neg hlt]
      exact ⟨A, pp, R, hsplit, rfl, hA, not_lt.mp hlt⟩

/-- The area of a single node. -/
theorem vol_two_single (sc : scene α) (p : Nat) :
    sc.vol 2 sc.ref [p] = (sc.ref 0 - sc.X p 0) * (sc.ref 1 - sc.X p 1) := by
  unfold scene.vol
  rw [List.map_cons, List.map_nil, union_volume_cons, List.map_nil, union_volume_nil,
    box_volume_two]
  ring

/-- The first node of chain 2 is not flagged. -/
theorem first_not_flagged {sc : scene α} {S : List Nat} {E : view α} (hc : d2ctx sc S E)
    (hdomE : dom sc E 2 S) {first : Nat} {C1 : List Nat} (hC : sc.chain 2 S = first :: C1) :
    E.ign first < 2 := by
  by_contra hcon
  have h2 : 2 ≤ E.ign first := not_lt.mp hcon
  have hfS : first ∈ S := hc.mem_chain2.mp (by rw [hC]; simp)
  obtain ⟨r, hr, _, _, a2⟩ := hdomE first hfS h2
  have hb := a2 2 (le_refl _) (le_refl _) h2
  have hb2 : Before (sc.chain 2 S) r first :=
    Before.filter_of_mem hb (by simpa using hr) (by simpa using hfS)
  have := hb2.mem_of_split (List.nodup_cons.mp hc.nodup_chain2).2
    (show sc.chain 2 S = [] ++ first :: C1 by rw [hC]; rfl)
  simp at this

/-- The memory after the first node was put into the tree. -/
theorem hv_dim2_top_spec (ref : Nat → α) (s : hv_mem α) (pp : Nat) :
    (hv_dim2_top ref s pp).view = { s.view with
        ign := Function.update s.view.ign pp 0
        dr := fun p => if p = pp then ref 2 else s.view.dr p } ∧
      (hv_dim2_top ref s pp).xs = s.xs ∧ tree_list (hv_dim2_top ref s pp).avl [pp] ∧
      ∀ k, ((hv_dim2_top ref s pp).avl.node k).item = (s.avl.node k).item := by
  have h1 := avl_insert_top_spec (s.setIgnore pp 0).avl pp
  have havl : (s.setIgnore pp 0).avl = s.avl := rfl
  rw [havl] at h1
  refine ⟨?_, ?_, ?_, ?_⟩
  · have e : (hv_dim2_top ref s pp).view = { (s.setIgnore pp 0).view with
        dr := fun p => (((avl_insert_top s.avl pp).setDomr pp (ref 2)).node p).domr } := rfl
    rw [e, view_setIgnore]
    simp only [view.mk.injEq, true_and, and_true]
    funext p
    rw [avl_domr_setDomr, (h1.2 p).2]
    rfl
  · have e : (hv_dim2_top ref s pp).xs = (s.setIgnore pp 0).xs := rfl
    rw [e, xs_setIgnore]
  · exact tree_list_setDomr h1.1 pp _
  · intro k
    show (((avl_insert_top s.avl pp).setDomr pp (ref 2)).node k).item = _
    rw [avl_item_setDomr, (h1.2 k).1]

/-- The memory after the assignments to the first node when every node has to
be processed. -/
theorem hv_dim2_all_spec (ref : Nat → α) (s : hv_mem α) (pp : Nat) (x0 x1 : α) :
    (hv_dim2_all ref s pp x0 x1).view = { s.view with
        ign := Function.update s.view.ign pp 0
        ar := Function.update s.view.ar pp
          (Function.update (s.view.ar pp) 2 ((ref 0 - x0) * (ref 1 - x1)))
        vl := Function.update s.view.vl pp (Function.update (s.view.vl pp) 2 0)
        dr := fun p => if p = pp then ref 2 else s.view.dr p } ∧
      (hv_dim2_all ref s pp x0 x1).xs = s.xs ∧
      ∀ k, ((hv_dim2_all ref s pp x0 x1).avl.node k).item = (s.avl.node k).item := by
  refine ⟨?_, ?_, ?_⟩
  · unfold hv_dim2_all
    simp only []
    rw [view_setIgnore, view_setVol, view_setArea, view_setAvl]
    simp only [view.mk.injEq, true_and, and_true]
    funext p
    rw [avl_domr_setDomr]
    rfl
  · unfold hv_dim2_all
    simp only []
    rw [xs_setIgnore, xs_setVol, xs_setArea]
    rfl
  · intro k
    show ((s.avl.setDomr pp (ref 2)).node k).item = _
    rw [avl_item_setDomr]

theorem chain_length_le {sc : scene α} (hok : sc.ok) {i : Nat} (hi : i < sc.d) (S : List Nat) :
    (sc.chain i S).length ≤ sc.n := by
  have a1 : (sc.chain i S).length ≤ (sc.ord i).length := List.length_filter_le _ _
  have a2 : (sc.ord i).Perm (sc.ord 0) :=
    (List.perm_ext_iff_of_nodup (List.nodup_cons.mp (hok.nodup i hi)).2
      (List.nodup_cons.mp (hok.nodup 0 (by omega))).2).mpr (hok.mem i hi)
  have a3 := hok.len
  rw [← a2.length_eq] at a3
  omega

/-- Branch `dim == 2` of `hv_recursive` meets the contract of dimension 2. -/
theorem hv_dim2_spec {sc : scene α} (hok : sc.ok) (hd : 2 < sc.d) {fuel : Nat}
    (hfuel : sc.n + 1 ≤ fuel) : level_spec sc 2 (fun s _ => hv_dim2 fuel sc.ref s 0) := by
  intro s S hinv hS
  have hc : d2ctx sc S s.view :=
    ⟨hok, hd, hinv.vi.sub, hinv.vi.nodup, hinv.vi.linked 2 (le_refl _) (le_refl _)⟩
  have hlenC : (sc.chain 2 S).length = S.length :=
    chain_length hok hd hinv.vi.nodup hinv.vi.sub
  have hperm := chain_perm hok hd hinv.vi.nodup hinv.vi.sub
  have hlenN := chain_length_le hok hd S
  obtain ⟨first, C1, hC⟩ : ∃ first C1, sc.chain 2 S = first :: C1 := by
    cases hch : sc.chain 2 S with
    | nil => rw [hch] at hlenC; simp at hlenC; omega
    | cons a l => exact ⟨a, l, rfl⟩
  obtain ⟨p2, C2, hC1⟩ : ∃ p2 C2, C1 = p2 :: C2 := by
    cases C1 with
    | nil => rw [hC] at hlenC; simp at hlenC; omega
    | cons a l => exact ⟨a, l, rfl⟩
  subst hC1
  obtain ⟨C0, last, hC'⟩ : ∃ C0 last, sc.chain 2 S = C0 ++ [last] := by
    rcases List.eq_nil_or_concat (sc.chain 2 S) with e | ⟨C0, last, e⟩
    · rw [hC] at e; simp at e
    · exact ⟨C0, last, by rw [e, List.concat_eq_append]⟩
  have hl := hc.linked
  have hmemS : ∀ t, t ∈ sc.chain 2 S → t ∈ S := fun t ht => hc.mem_chain2.mp ht
  have hfirstS : first ∈ S := hmemS first (by rw [hC]; simp)
  have hp2S : p2 ∈ S := hmemS p2 (by rw [hC]; simp)
  have hlastS : last ∈ S := hmemS last (by rw [hC']; simp)
  have hsorted := hc.sorted_chain2
  have hnd : (sc.chain 2 S).Nodup := (List.nodup_cons.mp hc.nodup_chain2).2
  have hprev0 : (s.node 0).prev 2 = last := by
    show s.view.pv 2 0 = _
    have e := Linked.pv_last hl
    rw [e, List.getLast_congr _ (by simp)
      (show (0 :: sc.chain 2 S) = (0 :: C0) ++ [last] by rw [hC']; simp)]
    simp
  have hnext0 : (s.node 0).next 2 = first := by
    show s.view.nx 2 0 = _
    have hl2 := hl
    rw [hC] at hl2
    exact hl2.1
  have hXl := hinv.st.node_x last (hc.sub last hlastS) 2
  have hX2 := hinv.st.node_x first (hc.sub first hfirstS) 2
  have hX0 := hinv.st.node_x first (hc.sub first hfirstS) 0
  have hX1 := hinv.st.node_x first (hc.sub first hfirstS) 1
  have hfirst_min : ∀ t, t ∈ p2 :: C2 → sc.X first 2 ≤ sc.X t 2 := by
    intro t ht
    have hs := hsorted
    rw [hC] at hs
    exact (List.pairwise_cons.mp hs).1 t ht
  show ∃ s', hv_dim2 fuel sc.ref s 0 = some (sc.vol 3 sc.ref S, s') ∧ inv sc 2 s' S ∧
    frame 2 S s.view s'.view ∧ s'.xs = s.xs
  by_cases hearly : sc.X last 2 < s.bound 2
  · -- every node was processed before
    refine ⟨s, ?_, hinv, ⟨rfl, rfl, fun _ _ _ => rfl, fun _ _ _ => rfl, fun _ _ => rfl,
      fun _ _ => rfl, fun _ _ => rfl, fun _ _ => rfl⟩, rfl⟩
    unfold hv_dim2
    simp only [hprev0, hXl, if_pos hearly]
    obtain ⟨har, hvl⟩ := hinv.vi.val 2 (le_refl _) (le_refl _) C0 last [] hC' hearly
    have hs := hsorted
    rw [hC'] at hs
    have hz : ∀ a, a ∈ C0 → sc.X a 2 ≤ sc.X last 2 := fun a ha =>
      (List.pairwise_append.mp hs).2.2 a ha last (by simp)
    have e := vol_slab_ref sc 2 sc.ref hz
    rw [← hC', vol_perm sc 3 sc.ref hperm, vol_perm sc 2 sc.ref hperm] at e
    rw [← hC', vol_perm sc 2 sc.ref hperm] at har
    rw [e]
    show some (s.view.vl last 2 + s.view.ar last 2 * _, s) = _
    rw [har, hvl]
    congr 2
    ring
  · rw [hv_dim2_eq fuel sc.ref s 0 hprev0 hnext0 hXl hearly hX2 hX0 hX1]
    obtain ⟨f, hf⟩ : ∃ f, fuel = f + 1 := ⟨fuel - 1, by omega⟩
    by_cases hx : sc.X first 2 ≥ s.bound 2
    · -- every node has to be processed
      rw [if_pos hx, hv_dim2_tree_eq]
      obtain ⟨hv1, hxs1, hit1⟩ := hv_dim2_all_spec sc.ref s first (sc.X first 0) (sc.X first 1)
      obtain ⟨s1, hs1⟩ : ∃ w, w = hv_dim2_all sc.ref s first (sc.X first 0) (sc.X first 1) :=
        ⟨_, rfl⟩
      rw [← hs1] at hv1 hxs1 hit1 ⊢
      obtain ⟨hv4, hxs4, htree4, hit4⟩ := hv_dim2_top_spec sc.ref s1 first
      obtain ⟨s4, hs4⟩ : ∃ w, w = hv_dim2_top sc.ref s1 first := ⟨_, rfl⟩
      rw [← hs4] at hv4 hxs4 htree4 hit4 ⊢
      have hst4 : stat sc s4 :=
        hinv.st.of_xs (hxs4.trans hxs1) (fun k => (hit4 k).trans (hit1 k))
      have hnx4 : s4.view.nx = s.view.nx := by rw [hv4, hv1]
      have hbd4 : s4.view.bd = s.view.bd := by rw [hv4, hv1]
      have hnext : (s4.node first).next 2 = p2 := by
        show s4.view.nx 2 first = _
        rw [hnx4]
        have hl2 := hl
        rw [hC] at hl2
        exact hl2.2.2.1
      have econ : hv_dim2_connect fuel sc.ref fuel s4 p2 = some (s4, p2) := by
        have e2 : s4.X p2 2 = some (sc.X p2 2) := hst4.node_x p2 (hc.sub p2 hp2S) 2
        have e3 : s4.xptr p2 = some (sc.X p2) := hst4.node_xptr p2 (hc.sub p2 hp2S)
        have e4 : ¬ sc.X p2 2 < s4.bound 2 := by
          show ¬ sc.X p2 2 < s4.view.bd 2
          rw [hbd4]
          exact not_lt.mpr (le_trans hx (hfirst_min p2 (by simp)))
        conv_lhs => rw [hf]
        unfold hv_dim2_connect
        simp only [e2, e3, if_neg e4]
      rw [hnext, econ]
      show ∃ s', hv_dim2_sweep fuel sc.ref s4 0 p2 = _ ∧ _
      have hxs : s4.xs = s.xs := hxs4.trans hxs1
      have hres := hv_dim2_sweep_spec hc hinv.vi.dom hinv.vi.own
        (show ∀ b, b ≤ s.view.bd 2 → stair_at sc s.view S b from fun b hb =>
          hinv.vi.stair b hb)
        (show sc.chain 2 S = [first] ++ p2 :: C2 by rw [hC]; rfl) hst4 hxs htree4
        (List.pairwise_singleton _ _) (fun t ht => ht)
        (fun t ht => by
          rw [List.mem_singleton] at ht
          rw [hv4, ht]
          simp)
        (fun t ht => by
          have e : t ≠ first := fun e => ht (by rw [e]; simp)
          rw [hv4, hv1]
          simp [e])
        hnx4 (by rw [hv4, hv1])
        (fun q i hi => by
          rw [hv4, hv1]
          show Function.update s.view.ar first _ q i = _
          by_cases hq : q = first
          · subst hq
            rw [Function.update_same, Function.update_noteq hi]
          · rw [Function.update_noteq hq])
        (fun q i hi => by
          rw [hv4, hv1]
          show Function.update s.view.vl first _ q i = _
          by_cases hq : q = first
          · subst hq
            rw [Function.update_same, Function.update_noteq hi]
          · rw [Function.update_noteq hq])
        (fun i _ => by rw [hbd4])
        (fun A1 q A2 e => by
          have e1 : A1 = [] ∧ q = first ∧ A2 = [] := by
            cases A1 with
            | nil => simpa [eq_comm] using e
            | cons a l => simp at e
          obtain ⟨e1, e2, e3⟩ := e1
          subst e1 e2 e3
          unfold val_at
          rw [hv4, hv1]
          constructor
          · show Function.update s.view.ar q _ q 2 = _
            rw [Function.update_same, Function.update_same, List.nil_append, vol_two_single]
          · show Function.update s.view.vl q _ q 2 = _
            rw [Function.update_same, Function.update_same]
            rfl)
        (show ∀ q, q ≠ first → s4.view.ign q = s.view.ign q from fun q hq => by
          rw [hv4, hv1]
          show Function.update (Function.update s.view.ign first 0) first 0 q = _
          rw [Function.update_noteq hq, Function.update_noteq hq])
        (by
          rw [hv4]
          show Function.update _ first 0 first = _
          rw [Function.update_same])
        (by simp)
        (fun t ht => by
          rw [List.mem_singleton] at ht
          rw [ht]
          exact first_not_flagged hc hinv.vi.dom hC)
        (fun t ht hlt => by
          rw [List.mem_singleton] at ht
          rw [ht] at hlt
          exact absurd hlt (not_lt.mpr hx))
        (fun q hq hqT => absurd hq hqT)
        (fun r hr => le_trans hx (hfirst_min r hr))
        (fun q hq => ⟨q, hq, le_refl _, le_refl _, Or.inr rfl⟩)
        hfuel
      exact hres
    · -- the nodes below `bound[2]` were processed before
      have hxlt : sc.X first 2 < s.view.bd 2 := not_le.mp hx
      rw [if_neg hx]
      obtain ⟨t0, ht0S, ht0z, ht0d, _, _⟩ :=
        (hinv.vi.stair (s.view.bd 2) (le_refl _)).2 first hfirstS hxlt
      obtain ⟨A0, pf, R0, hsp, eskip, hA0, hpf⟩ := hv_dim2_skip_spec hc rfl (sc.chain 2 S) fuel []
        (by simp) (by simp) ⟨t0, hc.mem_chain2.mpr ht0S, ht0d⟩ (by omega)
      have eskip' : hv_dim2_skip fuel s first = some pf := by
        have := eskip
        rw [hC, List.headD_cons] at this
        exact this
      rw [eskip']
      show ∃ s', hv_dim2_tree fuel sc.ref s 0 pf = _ ∧ _
      rw [hv_dim2_tree_eq]
      have hs := hsorted
      rw [hsp] at hs
      have hnd' := hnd
      rw [hsp] at hnd'
      have hpfS : pf ∈ S := hmemS pf (by rw [hsp]; simp)
      have hpfz : sc.X pf 2 < s.view.bd 2 := by
        have h1 : t0 ∈ A0 ++ pf :: R0 := by rw [← hsp]; exact hc.mem_chain2.mpr ht0S
        rcases List.mem_append.mp h1 with h1 | h1
        · exact absurd (hA0 t0 h1) (not_lt.mpr ht0d)
        · rcases List.mem_cons.mp h1 with h1 | h1
          · rw [← h1]; exact ht0z
          · exact lt_of_le_of_lt
              ((List.pairwise_cons.mp (List.pairwise_append.mp hs).2.1).1 t0 h1) ht0z
      obtain ⟨hv4, hxs4, htree4, hit4⟩ := hv_dim2_top_spec sc.ref s pf
      obtain ⟨s4, hs4⟩ : ∃ w, w = hv_dim2_top sc.ref s pf := ⟨_, rfl⟩
      rw [← hs4] at hv4 hxs4 htree4 hit4 ⊢
      have hst4 : stat sc s4 := hinv.st.of_xs hxs4 hit4
      have hnext : (s4.node pf).next 2 = R0.headD 0 := by
        show s4.view.nx 2 pf = _
        rw [hv4]
        have hl2 := hl
        rw [hsp] at hl2
        have := (Linked.inner hl2).2.1
        rw [head_append_headD] at this
        exact this
      have hc2 : c2 sc S { s.view with ign := Function.update s.view.ign pf 0 } s.view.dr s.xs
          s4 (A0 ++ [pf]) R0 [pf] := by
        refine
          { split := by rw [hsp]; simp
            st := hst4
            xs := hxs4
            tree := htree4
            tst := List.pairwise_singleton _ _
            tmem := ?_
            tdr := ?_
            odr := ?_
            nx := by rw [hv4]
            pv := by rw [hv4]
            ign := by rw [hv4]
            ar := by rw [hv4]
            vl := by rw [hv4]
            bd := by rw [hv4] }
        · intro t
          rw [List.mem_singleton]
          constructor
          · intro e
            rw [e]
            exact ⟨by simp, hpf⟩
          · rintro ⟨h1, h2⟩
            rcases List.mem_append.mp h1 with h1 | h1
            · exact absurd (hA0 t h1) (not_lt.mpr h2)
            · exact List.mem_singleton.mp h1
        · intro t ht
          rw [List.mem_singleton] at ht
          rw [hv4, ht]
          simp
        · intro t ht
          have e : t ≠ pf := fun e => ht (by rw [e]; simp)
          rw [hv4]
          simp [e]
      have hAlt : ∀ a, a ∈ A0 ++ [pf] → sc.X a 2 < s.view.bd 2 := by
        intro a ha
        rcases List.mem_append.mp ha with ha | ha
        · exact lt_of_le_of_lt ((List.pairwise_append.mp hs).2.2 a ha pf (by simp)) hpfz
        · rw [List.mem_singleton] at ha
          rw [ha]; exact hpfz
      have hexR : ∃ p, p ∈ R0 ∧ s.view.bd 2 ≤ sc.X p 2 := by
        refine ⟨last, ?_, not_lt.mp hearly⟩
        have h1 : last ∈ (A0 ++ [pf]) ++ R0 := by
          have := hc.mem_chain2.mpr hlastS
          rw [hsp] at this
          simpa using this
        rcases List.mem_append.mp h1 with h1 | h1
        · exact absurd (hAlt last h1) hearly
        · exact h1
      have hlenR : R0.length < fuel := by
        have := hlenN
        rw [hsp] at this
        simp at this
        omega
      obtain ⟨s5, A', p, R', T', e5, hc5, hpb, hA'⟩ := hv_dim2_connect_spec hc hfuel
        (show ({ s.view with ign := Function.update s.view.ign pf 0 } : view α).nx = s.view.nx
          from rfl)
        (hinv.vi.stair (s.view.bd 2) (le_refl _)).1 R0 fuel s4 (A0 ++ [pf]) [pf] hc2 (by simp)
        hAlt hexR hlenR
      rw [hnext, e5]
      show ∃ s', hv_dim2_sweep fuel sc.ref s5 0 p = _ ∧ _
      have hs5 := hsorted
      rw [hc5.split] at hs5
      have hb0 : ∀ r, r ∈ p :: R' → s.view.bd 2 ≤ sc.X r 2 := by
        intro r hr
        rcases List.mem_cons.mp hr with e | hr
        · rw [e]; exact hpb
        · exact le_trans hpb
            ((List.pairwise_cons.mp (List.pairwise_append.mp hs5).2.1).1 r hr)
      have hinA : ∀ t, t ∈ S → sc.X t 2 < s.view.bd 2 → t ∈ A' := by
        intro t ht hz
        have := hc.mem_chain2.mpr ht
        rw [hc5.split] at this
        rcases List.mem_append.mp this with h1 | h1
        · exact h1
        · exact absurd (hb0 t h1) (not_le.mpr hz)
      have hAS : ∀ a, a ∈ A' → a ∈ S := fun a ha =>
        hmemS a (by rw [hc5.split]; simp [ha])
      exact hv_dim2_sweep_spec hc hinv.vi.dom hinv.vi.own
        (show ∀ b, b ≤ s.view.bd 2 → stair_at sc s.view S b from fun b hb =>
          hinv.vi.stair b hb)
        hc5.split hc5.st hc5.xs hc5.tree hc5.tst (fun t ht => ((hc5.tmem t).mp ht).1)
        hc5.tdr hc5.odr hc5.nx hc5.pv (fun q i _ => by rw [hc5.ar])
        (fun q i _ => by rw [hc5.vl]) (fun i _ => by rw [hc5.bd])
        (fun A1 q A2 e => by
          have hq : q ∈ A' := by rw [e]; simp
          have := hinv.vi.val 2 (le_refl _) (le_refl _) A1 q (A2 ++ p :: R')
            (by rw [hc5.split, e]; simp) (hA' q hq)
          unfold val_at at this ⊢
          rw [hc5.ar, hc5.vl]
          exact this)
        (show ∀ q, q ≠ pf → s5.view.ign q = s.view.ign q from fun q hq => by
          rw [hc5.ign]
          show Function.update s.view.ign pf 0 q = _
          rw [Function.update_noteq hq])
        (by
          rw [hc5.ign]
          show Function.update s.view.ign pf 0 pf = _
          rw [Function.update_same])
        ((hc5.tmem pf).mpr ⟨hinA pf hpfS hpfz, hpf⟩)
        (fun t ht => by
          obtain ⟨h1, h2⟩ := (hc5.tmem t).mp ht
          by_contra hcon
          have := hinv.vi.own t (hAS t h1) (not_lt.mp hcon)
          rw [this] at h2
          exact absurd (hA' t h1) (not_lt.mpr h2))
        (fun t ht _ => ((hc5.tmem t).mp ht).2)
        (fun q hq hqT => not_le.mp (fun hh => hqT ((hc5.tmem q).mpr ⟨hq, hh⟩)))
        hb0
        (fun q hq => by
          obtain ⟨t, htS, htz, htd, a0, a1⟩ :=
            (hinv.vi.stair (s.view.bd 2) (le_refl _)).2 q (hAS q hq) (hA' q hq)
          exact ⟨t, (hc5.tmem t).mpr ⟨hinA t htS htz, htd⟩, a0, a1, Or.inl htz⟩)
        hfuel

end

/-! ## Functional correctness of `fpli_hv` -/

section
set_option linter.unusedSectionVars false
variable {α : Type} [LinearOrderedCommRing α]

/-! ### What `setup_cdllist` and `filter` leave alone -/

theorem same_aux_refl (s : hv_mem α) : same_aux s s := ⟨rfl, rfl, fun _ => rfl⟩

theorem same_aux_trans {s s' s'' : hv_mem α} (h1 : same_aux s s') (h2 : same_aux s' s'') :
    same_aux s s'' :=
  ⟨h2.1.trans h1.1, h2.2.1.trans h1.2.1, fun p => (h2.2.2 p).trans (h1.2.2 p)⟩

theorem same_aux_setNext (s : hv_mem α) (p i w : Nat) : same_aux s (s.setNext p i w) := by
  refine ⟨rfl, rfl, fun r => ?_⟩
  unfold hv_mem.setNext hv_mem.setNode
  by_cases hr : r = p
  · subst hr; simp
  · simp [Function.update_noteq hr]

theorem same_aux_setPrev (s : hv_mem α) (p i w : Nat) : same_aux s (s.setPrev p i w) := by
  refine ⟨rfl, rfl, fun r => ?_⟩
  unfold hv_mem.setPrev hv_mem.setNode
  by_cases hr : r = p
  · subst hr; simp
  · simp [Function.update_noteq hr]

theorem same_aux_setX (s : hv_mem α) (p : Nat) (w : Option Nat) : same_aux s (s.setX p w) := by
  refine ⟨rfl, rfl, fun r => ?_⟩
  unfold hv_mem.setX hv_mem.setNode
  by_cases hr : r = p
  · subst hr; simp
  · simp [Function.update_noteq hr]

theorem same_aux_setup_decr : ∀ (l : List Nat) (s : hv_mem α), same_aux s (setup_decr s l)
  | [], s => same_aux_refl s
  | p :: rest, s => by
    unfold setup_decr
    exact same_aux_trans (same_aux_setX s p _) (same_aux_setup_decr rest _)

theorem same_aux_setup_link (j : Nat) :
    ∀ (l : List Nat) (s : hv_mem α), same_aux s (setup_link s j l)
  | [], s => by unfold setup_link; exact same_aux_refl s
  | [_], s => by unfold setup_link; exact same_aux_refl s
  | a :: b :: rest, s => by
    unfold setup_link
    exact same_aux_trans
      (same_aux_trans (same_aux_setNext s a j b) (same_aux_setPrev _ b j a))
      (same_aux_setup_link j (b :: rest) _)

theorem same_aux_setup_dim (q : qsort_t α) (j : Nat) (st st' : hv_mem α × List Nat)
    (h : setup_dim q j st = some st') : same_aux st.1 st'.1 := by
  unfold setup_dim at h
  simp only [] at h
  split at h
  · next first last _ _ =>
    simp only [Option.some.injEq] at h
    rw [← h]
    exact same_aux_trans (same_aux_setup_decr st.2 st.1)
      (same_aux_trans (same_aux_setNext _ 0 j first)
        (same_aux_trans (same_aux_setPrev _ first j 0)
          (same_aux_trans (same_aux_setup_link j _ _)
            (same_aux_trans (same_aux_setNext _ last j 0) (same_aux_setPrev _ 0 j last)))))
  · exact absurd h (by simp)

theorem same_aux_setup_dims (q : qsort_t α) :
    ∀ (k : Nat) (st st' : hv_mem α × List Nat), setup_dims q k st = some st' →
      same_aux st.1 st'.1
  | 0, st, st', h => by
    unfold setup_dims at h
    simp only [Option.some.injEq] at h
    rw [← h]
    exact same_aux_refl _
  | k + 1, st, st', h => by
    unfold setup_dims at h
    split at h
    · exact absurd h (by simp)
    · next st1 e =>
      exact same_aux_trans (same_aux_setup_dim q k st st1 e) (same_aux_setup_dims q k st1 st' h)

/-- The loop that sets the items of the tree nodes. -/
theorem setup_items_spec :
    ∀ (l : List Nat) (s : hv_mem α), l.Nodup →
      (setup_items s l).avl.tree = s.avl.tree ∧
      (∀ p, p ∈ l → ((setup_items s l).avl.node p).item = (s.xptr p).getD (fun _ => 0)) ∧
      (∀ p, p ∉ l → ((setup_items s l).avl.node p).item = (s.avl.node p).item)
  | [], s, _ => ⟨rfl, fun p hp => by simp at hp, fun _ _ => rfl⟩
  | a :: rest, s, hnd => by
    obtain ⟨ha, hrest⟩ := List.nodup_cons.mp hnd
    obtain ⟨i1, i2, i3⟩ := setup_items_spec rest
      { s with avl := s.avl.setItem a ((s.xptr a).getD (fun _ => 0)) } hrest
    have e : setup_items s (a :: rest)
        = setup_items { s with avl := s.avl.setItem a ((s.xptr a).getD (fun _ => 0)) } rest :=
      rfl
    rw [e]
    refine ⟨i1, ?_, ?_⟩
    · intro p hp
      rcases List.mem_cons.mp hp with hp | hp
      · subst hp
        rw [i3 p ha]
        simp [avl_mem.setItem, avl_mem.setNode]
      · rw [i2 p hp]
        rfl
    · intro p hp
      have h1 : p ≠ a := fun e => hp (by rw [e]; simp)
      have h2 : p ∉ rest := fun e => hp (List.mem_cons_of_mem _ e)
      rw [i3 p h2]
      simp [avl_mem.setItem, avl_mem.setNode, Function.update_noteq h1]

theorem same_aux_filter_delete_node (node : Nat) :
    ∀ (k i : Nat) (s : hv_mem α), same_aux s (filter_delete_node.go node k i s)
  | 0, _, s => same_aux_refl s
  | k + 1, i, s => by
    unfold filter_delete_node.go
    exact same_aux_trans
      (same_aux_trans (same_aux_setPrev s _ i _) (same_aux_setNext _ _ i _))
      (same_aux_filter_delete_node node k (i + 1) _)

theorem same_aux_filter_inner (d : Nat) (ref : Nat → α) (i : Nat) :
    ∀ (k : Nat) (s : hv_mem α) (aux n : Nat) (s' : hv_mem α) (n' : Nat),
      filter_inner d ref i k s aux n = some (s', n') → same_aux s s'
  | 0, s, aux, n, s', n', h => by
    unfold filter_inner at h
    simp only [Option.some.injEq, Prod.mk.injEq] at h
    rw [← h.1]
    exact same_aux_refl s
  | k + 1, s, aux, n, s', n', h => by
    unfold filter_inner at h
    split at h
    · exact absurd h (by simp)
    · next xi _ =>
      split at h
      · simp only [Option.some.injEq, Prod.mk.injEq] at h
        rw [← h.1]
        exact same_aux_refl s
      · exact same_aux_trans (same_aux_filter_delete_node aux d 0 s)
          (same_aux_filter_inner d ref i k _ _ _ s' n' h)

theorem same_aux_filter_go (d : Nat) (ref : Nat → α) :
    ∀ (k i : Nat) (s : hv_mem α) (n : Nat) (s' : hv_mem α) (n' : Nat),
      filter.go d ref k i s n = some (s', n') → same_aux s s'
  | 0, i, s, n, s', n', h => by
    unfold filter.go at h
    simp only [Option.some.injEq, Prod.mk.injEq] at h
    rw [← h.1]
    exact same_aux_refl s
  | k + 1, i, s, n, s', n', h => by
    unfold filter.go at h
    split at h
    · exact absurd h (by simp)
    · next s1 n1 e =>
      exact same_aux_trans (same_aux_filter_inner d ref i n s _ n s1 n1 e)
        (same_aux_filter_go d ref k (i + 1) s1 n1 s' n' h)

/-- After `setup_cdllist` and `filter` the tree is empty, no node is flagged,
`bound` is as set before `filter`, and the item of the tree node of every
point is the point. -/
theorem setup_filter_aux (q : qsort_t α) (data : List α) (d n : Nat) (ref : Nat → α)
    (b : Nat → α) {s0 s1 : hv_mem α} {n1 : Nat} (h0 : setup_cdllist q data d n = some s0)
    (h1 : filter { s0 with bound := b } d n ref = some (s1, n1)) :
    s1.bound = b ∧ (∀ p, (s1.node p).ignore = 0) ∧ s1.avl.tree.top = none ∧
      ∀ p, p ∈ nodes n → (s1.avl.node p).item = (s0.xptr p).getD (fun _ => 0) := by
  unfold setup_cdllist at h0
  simp only [] at h0
  split at h0
  · exact absurd h0 (by simp)
  · next s' sc' e =>
    simp only [Option.some.injEq] at h0
    have ha := same_aux_setup_dims q d _ _ e
    obtain ⟨g1, g2, g3⟩ := setup_items_frame (nodes n) s'
    obtain ⟨i1, i2, _⟩ := setup_items_spec (nodes n) s' (nodup_nodes n)
    have hf := same_aux_filter_go d ref d 0 _ n s1 n1 h1
    have hx : s0.xptr = s'.xptr := by
      funext p
      rw [← h0]
      show (setup_items s' (nodes n)).xptr p = _
      simp only [hv_mem.xptr, g1, g2]
    refine ⟨hf.1, fun p => ?_, ?_, fun p hp => ?_⟩
    · rw [hf.2.2 p]
      show (s0.node p).ignore = 0
      rw [← h0]
      show ((setup_items s' (nodes n)).node p).ignore = 0
      rw [g1, ha.2.2 p]
      rfl
    · rw [hf.2.1]
      show s0.avl.tree.top = none
      rw [← h0]
      show (setup_items s' (nodes n)).avl.tree.top = none
      rw [i1, ha.2.1]
      rfl
    · rw [hf.2.1, hx]
      show (s0.avl.node p).item = _
      rw [← h0]
      exact i2 p hp

/-! ### The recursion over the dimensions -/

/-- The function `hv_recursive` meets the contract of every dimension from 2 on. -/
theorem hv_recursive_spec {sc : scene α} (hok : sc.ok) {fuel : Nat} (hfuel : sc.n + 2 ≤ fuel) :
    ∀ m, 2 ≤ m → m < sc.d → level_spec sc m (fun s c => hv_recursive fuel sc.ref 0 m s c)
  | 0, h, _ => absurd h (by omega)
  | 1, h, _ => absurd h (by omega)
  | 2, _, hd => by
    have h := hv_dim2_spec hok hd (show sc.n + 1 ≤ fuel by omega)
    intro s S hinv hS
    obtain ⟨s', e, r⟩ := h s S hinv hS
    refine ⟨s', ?_, r⟩
    show hv_recursive fuel sc.ref 0 2 s S.length = _
    unfold hv_recursive
    exact e
  | m + 3, _, hd => by
    have ih := hv_recursive_spec hok hfuel (m + 2) (by omega) (by omega)
    have h := hv_general_spec hok (show 2 < m + 3 by omega) hd ih hfuel
    intro s S hinv hS
    obtain ⟨s', e, r⟩ := h s S hinv hS
    refine ⟨s', ?_, r⟩
    show hv_recursive fuel sc.ref 0 (m + 3) s S.length = _
    unfold hv_recursive
    exact e

/-- Every coordinate read from the buffer is at least `-DBL_MAX` when the
values of the buffer are. -/
theorem point_of_ge {data : List α} (hlow : ∀ x, x ∈ data → -DBL_MAX ≤ x) (d i k : Nat) :
    -DBL_MAX ≤ point_of data d i k := by
  unfold point_of
  rw [List.getD_eq_getElem?_getD]
  cases h : data[i * d + k]? with
  | none =>
    simp only [Option.getD_none]
    have : (0 : α) ≤ DBL_MAX := by
      unfold DBL_MAX
      exact Nat.cast_nonneg _
    exact neg_nonpos.mpr this
  | some x =>
    simp only [Option.getD_some]
    exact hlow x (List.getElem?_mem h)

/-- For `d ≥ 3` and at least two points strictly below the reference,
`fpli_hv` returns the volume of the union of their boxes. -/
theorem fpli_hv_deep (q : qsort_t α) (data : List α) (d n : Nat) (ref : Nat → α)
    (hd : 3 ≤ d) (h2 : 2 ≤ (dominating_points data d n ref).length)
    (hlow : ∀ x, x ∈ data → -DBL_MAX ≤ x) :
    fpli_hv q data d n ref = some (union_volume d ref (dominating_points data d n ref)) := by
  have hNn := dominating_points_length_le data d n ref
  have hn : 1 ≤ n := by omega
  obtain ⟨s0', C0, hs0', _, _, hx0, hdata0⟩ := setup_cdllist_spec q data d n hn
  obtain ⟨s0, h1, hb⟩ := setup_filter_spec q data d n ref hn
  obtain ⟨s1, C, hf, h3, h4, h5, h6, h7, h8⟩ := hb (fun _ => -DBL_MAX)
  have es0 : s0' = s0 := Option.some.inj (hs0'.symm.trans h1)
  subst es0
  obtain ⟨a1, a2, a3, a4⟩ := setup_filter_aux q data d n ref (fun _ => -DBL_MAX) h1 hf
  have hd0 : 0 < d := by omega
  -- the scene
  obtain ⟨sc, hsc⟩ : ∃ sc : scene α, sc =
      { X := fun p => point_of data d (p - 1), ref := ref, ord := C, d := d, n := n } :=
    ⟨_, rfl⟩
  have hX : sc.X = fun p => point_of data d (p - 1) := by rw [hsc]
  have hord : sc.ord = C := by rw [hsc]
  have hsd : sc.d = d := by rw [hsc]
  have hsn : sc.n = n := by rw [hsc]
  have href : sc.ref = ref := by rw [hsc]
  have hlen0 : (C 0).length = (dominating_points data d n ref).length := by
    rw [← (h5 0 hd0).length_eq, List.length_map]
  have hok : sc.ok := by
    refine ⟨fun i hi => ?_, fun i hi p => ?_, fun i hi => ?_, fun p hp k hk => ?_, ?_⟩
    · rw [hord]; exact h3.nodup i (by rw [← hsd]; exact hi)
    · rw [hord]; exact (h3.perm i 0 (by rw [← hsd]; exact hi) hd0).mem_iff
    · rw [hord, hX]
      have hi' : i < d := by rw [← hsd]; exact hi
      refine (h3.sorted i hi').imp_of_mem (fun {a b} ha hb hab => ?_)
      show point_of data d (a - 1) i ≤ point_of data d (b - 1) i
      rw [← (h6 i hi' a ha).2.2, ← (h6 i hi' b hb).2.2]
      exact hab
    · rw [hord] at hp
      rw [hX, href]
      exact (h6 0 hd0 p hp).2.1 k (by rw [← hsd]; exact hk)
    · rw [hord, hsn, hlen0]; exact hNn
  have hchain : ∀ i, i < d → sc.chain i (C 0) = C i := by
    intro i hi
    unfold scene.chain
    rw [hord]
    exact List.filter_eq_self.mpr (fun p hp => by
      simpa using (h3.perm i 0 hi hd0).mem_iff.mp hp)
  have hge : ∀ p k, -DBL_MAX ≤ sc.X p k := fun p k => by
    rw [hX]; exact point_of_ge hlow d (p - 1) k
  have hbd : ∀ i, s1.view.bd i = -DBL_MAX := fun i => by
    show s1.bound i = _
    rw [a1]
  have hinv : inv sc (d - 1) s1 (C 0) := by
    refine ⟨⟨fun p hp => by rw [hord]; exact hp, (List.nodup_cons.mp (h3.nodup 0 hd0)).2,
      fun i _ hi => ?_, fun i _ hi => ?_, fun p _ h2p => ?_, fun p _ h2p => ?_, fun b hb => ?_⟩,
      ⟨h3.head_x, fun p hp k => ?_, fun p hp => ?_, fun p hp => ?_⟩, a3⟩
    · rw [hchain i (by omega)]
      exact h3.linked i (by omega)
    · intro A q B _ hq
      rw [hbd i] at hq
      exact absurd (hge q i) (not_le.mpr hq)
    · exfalso
      have : s1.view.ign p = 0 := a2 p
      rw [this] at h2p
      norm_num at h2p
    · exfalso
      have : s1.view.ign p = 0 := a2 p
      rw [this] at h2p
      norm_num at h2p
    · rw [hbd 2] at hb
      constructor
      · intro t _ _ _ ht _ _ _ _ _
        exact absurd (hge t 2) (not_le.mpr (lt_of_lt_of_le ht hb))
      · intro p _ hp
        exact absurd (hge p 2) (not_le.mpr (lt_of_lt_of_le hp hb))
    · rw [hord] at hp
      have hxp := h8 p (h6 0 hd0 p hp).1
      rw [(coord_of_x hxp k).1, (h6 0 hd0 p hp).2.2, hX]
    · rw [hord] at hp
      have hxp := h8 p (h6 0 hd0 p hp).1
      simp only [hv_mem.xptr, hxp, h4, hX]
      congr 1
    · rw [hord] at hp
      have hpn := (h6 0 hd0 p hp).1
      rw [a4 p hpn]
      simp only [hv_mem.xptr, hx0 p hpn, hdata0, hX, Option.getD_some]
      funext k
      simp [deref, point_of]
  have hspec := hv_recursive_spec hok (show sc.n + 2 ≤ n + 2 by rw [hsn]) (d - 1) (by omega)
    (by rw [hsd]; omega)
  obtain ⟨s', e, _⟩ := hspec s1 (C 0) hinv (by rw [hlen0]; exact h2)
  rw [href, hlen0] at e
  have hvol : sc.vol (d - 1 + 1) ref (C 0)
      = union_volume d ref (dominating_points data d n ref) := by
    have e1 : d - 1 + 1 = d := by omega
    rw [e1]
    unfold scene.vol
    rw [hX]
    exact union_volume_perm d ref (h5 0 hd0)
  rw [hvol] at e
  have e' : hv_recursive (n + 2) ref 0 (d - 1) s1 (dominating_points data d n ref).length
      = some (union_volume d ref (dominating_points data d n ref), s') := e
  unfold fpli_hv
  rw [h1]
  simp only []
  rw [hf]
  simp only []
  rw [if_neg (by omega), if_neg (by omega), if_neg (by omega), e']

/-! ### Functional correctness of `fpli_hv` -/

/-- No point is strictly below the reference: `fpli_hv` returns 0. -/
theorem fpli_hv_none_below (q : qsort_t α) (data : List α) (d n : Nat) (ref : Nat → α)
    (hn : 1 ≤ n) (h0 : (dominating_points data d n ref).length = 0) :
    fpli_hv q data d n ref = some 0 := by
  obtain ⟨s0, h1, hb⟩ := setup_filter_spec q data d n ref hn
  obtain ⟨s1, C, hf, _⟩ := hb (fun _ => -DBL_MAX)
  unfold fpli_hv
  rw [h1]
  simp only []
  rw [hf, h0]
  simp

/-- One point is strictly below the reference: `fpli_hv` returns the volume
of its box. -/
theorem fpli_hv_one_below (q : qsort_t α) (data : List α) (d n : Nat) (ref : Nat → α)
    (hd : 1 ≤ d) (hN : (dominating_points data d n ref).length = 1) :
    fpli_hv q data d n ref = some (union_volume d ref (dominating_points data d n ref)) := by
  have hNn := dominating_points_length_le data d n ref
  have hn : 1 ≤ n := by omega
  obtain ⟨s0, h1, hb⟩ := setup_filter_spec q data d n ref hn
  obtain ⟨s1, C, hf, h3, h4, h5, h6, h7, _⟩ := hb (fun _ => -DBL_MAX)
  have hlen : (C 0).length = 1 := by
    have := (h5 0 hd).length_eq
    rw [List.length_map, hN] at this
    exact this
  obtain ⟨a, ha⟩ := List.length_eq_one.mp hlen
  have hlink := h3.linked 0 hd
  rw [ha] at hlink
  simp only [Linked] at hlink
  have hn0 : (s1.node 0).next 0 = a := hlink.1
  have hperm := h5 0 hd
  rw [ha, List.map_cons, List.map_nil] at hperm
  have hdp : dominating_points data d n ref = [point_of data d (a - 1)] :=
    (List.perm_singleton.mp hperm.symm)
  unfold fpli_hv
  rw [h1]
  simp only []
  rw [hf, hN]
  simp only [one_ne_zero, if_false, if_true]
  rw [hn0, fpli_prod_spec ref s1 a (h3.node_x 0 hd a (by rw [ha]; simp)) d 0 1]
  have hco := (h6 0 hd a (by rw [ha]; simp)).2.2
  rw [hdp, union_volume_singleton, hco, one_mul, box_volume, List.range_eq_range']

/-- One dimension and at least two points strictly below the reference:
`fpli_hv` returns the distance from the least point to the reference. -/
theorem fpli_hv_one_dim (q : qsort_t α) (data : List α) (n : Nat) (ref : Nat → α)
    (h2 : 2 ≤ (dominating_points data 1 n ref).length) :
    fpli_hv q data 1 n ref = some (union_volume 1 ref (dominating_points data 1 n ref)) := by
  have hNn := dominating_points_length_le data 1 n ref
  have hn : 1 ≤ n := by omega
  have hd : 0 < 1 := Nat.one_pos
  obtain ⟨s0, h1, hb⟩ := setup_filter_spec q data 1 n ref hn
  obtain ⟨s1, C, hf, h3, h4, h5, h6, h7, h8⟩ := hb (fun _ => -DBL_MAX)
  have hlen : (C 0).length = (dominating_points data 1 n ref).length := by
    rw [← (h5 0 hd).length_eq, List.length_map]
  obtain ⟨a, rest, ha⟩ : ∃ a rest, C 0 = a :: rest := by
    cases hc : C 0 with
    | nil => rw [hc] at hlen; simp at hlen; omega
    | cons a rest => exact ⟨a, rest, rfl⟩
  have hlink := h3.linked 0 hd
  rw [ha] at hlink
  simp only [Linked] at hlink
  have hn0 : (s1.node 0).next 0 = a := hlink.1
  have haC : a ∈ C 0 := by rw [ha]; simp
  obtain ⟨off, hoff⟩ := Option.ne_none_iff_exists'.mp (h3.node_x 0 hd a haC)
  have hco := (h6 0 hd a haC).2.2
  have hXa : (s1.setIgnore a (-1)).X a 0 = some (point_of data 1 (a - 1) 0) := by
    have e1 : ((s1.setIgnore a (-1)).node a).x = some off := by
      rw [(setIgnore_frame s1 a (-1)).2.2.1 a]; exact hoff
    rw [(coord_of_x e1 0).1]
    have e2 : (s1.setIgnore a (-1)).coord a = s1.coord a :=
      congrFun (coord_eq_of _ _ (setIgnore_frame s1 a (-1)).2.2.1 (setIgnore_frame s1 a (-1)).2.2.2) a
    rw [e2, hco]
  have hsorted := h3.sorted 0 hd
  rw [ha] at hsorted
  have hleast : ∀ p, p ∈ dominating_points data 1 n ref → ∀ i, i < 1 →
      point_of data 1 (a - 1) i ≤ p i := by
    intro p hp i hi
    have hi0 : i = 0 := by omega
    subst hi0
    have hp' := (h5 0 hd).mem_iff.mpr hp
    rw [List.mem_map] at hp'
    obtain ⟨b, hbC, rfl⟩ := hp'
    rw [ha] at hbC
    rcases List.mem_cons.mp hbC with e | hb'
    · rw [e]
    · have := (List.pairwise_cons.mp hsorted).1 b hb'
      rw [hco, (h6 0 hd b (by rw [ha]; exact hbC)).2.2] at this
      exact this
  have hmem : point_of data 1 (a - 1) ∈ dominating_points data 1 n ref :=
    (h5 0 hd).mem_iff.mp (List.mem_map_of_mem _ haC)
  rw [union_volume_of_least 1 ref _ _ hmem hleast]
  unfold fpli_hv
  rw [h1]
  simp only []
  rw [hf]
  simp only []
  rw [if_neg (by omega), if_neg (by omega), if_neg (by omega)]
  show (match hv_recursive (n + 2) ref 0 0 s1 (dominating_points data 1 n ref).length with
    | none => none
    | some (hyperv, _) => some hyperv) = _
  have hn1 : ((s1.setIgnore a (-1)).node 0).next 0 = a := by
    have := congrFun ((setIgnore_frame s1 a (-1)).1 0) 0
    exact this.trans hn0
  unfold hv_recursive hv_dim0
  simp only [hn0, hn1, hXa]
  simp [box_volume, List.range_succ]

/-- Functional correctness of `fpli_hv` for at least one point and one
dimension, in exact arithmetic with coordinates that are at least
`-DBL_MAX`: the value is the volume of the union of the boxes `[p, ref]` of
the points `p` strictly below `ref`. -/
theorem fpli_hv_correct (q : qsort_t α) (data : List α) (d n : Nat) (ref : Nat → α)
    (hd : 1 ≤ d) (hn : 1 ≤ n) (hlow : ∀ x, x ∈ data → -DBL_MAX ≤ x) :
    fpli_hv q data d n ref = some (union_volume d ref (dominating_points data d n ref)) := by
  rcases Nat.lt_or_ge (dominating_points data d n ref).length 2 with hN | hN
  · rcases Nat.eq_zero_or_pos (dominating_points data d n ref).length with h0 | h0
    · rw [fpli_hv_none_below q data d n ref hn h0, List.length_eq_zero.mp h0, union_volume_nil]
    · exact fpli_hv_one_below q data d n ref hd (by omega)
  · rcases Nat.lt_or_ge d 3 with hd3 | hd3
    · rcases Nat.lt_or_ge d 2 with hd2 | hd2
      · have e : d = 1 := by omega
        subst e
        exact fpli_hv_one_dim q data n ref hN
      · have e : d = 2 := by omega
        subst e
        obtain ⟨L, _, _, e1, e2⟩ := fpli_hv_two_aux q data n ref hN
        rw [e1, e2]
    · exact fpli_hv_deep q data d n ref hd3 hN hlow

/-! ### Relational properties of `fpli_hv` -/

theorem of_coords_point (data : List α) (d k i : Nat) (hi : i < d) :
    of_coords ((List.range d).map (point_of data d k)) i = point_of data d k i := by
  unfold of_coords
  rw [List.getD_eq_getElem?_getD, List.getElem?_map, List.getElem?_range hi]
  rfl

theorem below_congr {d : Nat} {ref ref' p p' : Nat → α} (hr : ∀ i, i < d → ref i = ref' i)
    (hp : ∀ i, i < d → p i = p' i) : below d ref p ↔ below d ref' p' := by
  constructor
  · intro h i hi
    rw [← hr i hi, ← hp i hi]; exact h i hi
  · intro h i hi
    rw [hr i hi, hp i hi]; exact h i hi

/-- Filtering two families of points that are related index by index. -/
theorem forall2_filter_map {β : Type} {R : (Nat → α) → β → Prop} (f : Nat → (Nat → α))
    (g : Nat → β) (pf : (Nat → α) → Bool) (pg : β → Bool) :
    ∀ (I : List Nat), (∀ k, k ∈ I → R (f k) (g k)) → (∀ k, k ∈ I → pf (f k) = pg (g k)) →
      List.Forall₂ R ((I.map f).filter pf) ((I.map g).filter pg)
  | [], _, _ => List.Forall₂.nil
  | k :: I, hR, hp => by
    have ih := forall2_filter_map f g pf pg I (fun j hj => hR j (List.mem_cons_of_mem _ hj))
      (fun j hj => hp j (List.mem_cons_of_mem _ hj))
    have e := hp k (by simp)
    simp only [List.map_cons, List.filter_cons]
    cases hb : pg (g k) with
    | true =>
      rw [hb] at e
      simp only [e, if_true]
      exact List.Forall₂.cons (hR k (by simp)) ih
    | false =>
      rw [hb] at e
      simp only [e]
      exact ih

/-- The volume of the points below the reference depends on the first `d`
coordinates of the first `n` points only. -/
theorem union_volume_points (data : List α) (d n : Nat) (ref : Nat → α) :
    union_volume d ref (dominating_points data d n ref)
      = union_volume d ref
          (((points data d n).map of_coords).filter (fun p => decide (below d ref p))) := by
  refine union_volume_congr d (fun _ _ => rfl) _ _ _ (le_refl _) ?_
  unfold dominating_points points
  rw [List.map_map]
  refine forall2_filter_map _ _ _ _ _ (fun k _ i hi => ?_) (fun k _ => ?_)
  · exact (of_coords_point data d k i hi).symm
  · simp only [Function.comp, decide_eq_decide]
    exact below_congr (fun _ _ => rfl) (fun i hi => (of_coords_point data d k i hi).symm)

theorem perm_index_lt {d : Nat} (σ : Equiv.Perm (Fin d)) {i : Nat} (hi : i < d) :
    perm_index σ i < d := by
  unfold perm_index
  rw [dif_pos hi]
  exact (σ ⟨i, hi⟩).isLt

theorem perm_index_range {d : Nat} (σ : Equiv.Perm (Fin d)) :
    ((List.range d).map (perm_index σ)).Perm (List.range d) := by
  have hnd : ((List.range d).map (perm_index σ)).Nodup := by
    refine List.Nodup.map_on ?_ (List.nodup_range d)
    intro a ha b hb hab
    have ha' : a < d := List.mem_range.mp ha
    have hb' : b < d := List.mem_range.mp hb
    unfold perm_index at hab
    rw [dif_pos ha', dif_pos hb'] at hab
    have := σ.injective (Fin.ext hab)
    exact congrArg Fin.val this
  rw [List.perm_ext_iff_of_nodup hnd (List.nodup_range d)]
  intro j
  rw [List.mem_map, List.mem_range]
  constructor
  · rintro ⟨i, hi, rfl⟩
    exact perm_index_lt σ (List.mem_range.mp hi)
  · intro hj
    refine ⟨(σ.symm ⟨j, hj⟩).val, List.mem_range.mpr (σ.symm ⟨j, hj⟩).isLt, ?_⟩
    unfold perm_index
    rw [dif_pos (σ.symm ⟨j, hj⟩).isLt]
    simp

theorem box_volume_perm_index {d : Nat} (σ : Equiv.Perm (Fin d)) (ref p : Nat → α) :
    box_volume d (fun i => ref (perm_index σ i)) (fun i => p (perm_index σ i))
      = box_volume d ref p := by
  unfold box_volume
  have e : (List.range d).map (fun i => ref (perm_index σ i) - p (perm_index σ i))
      = ((List.range d).map (perm_index σ)).map (fun j => ref j - p j) := by
    rw [List.map_map]
    rfl
  rw [e]
  exact ((perm_index_range σ).map _).prod_eq

/-- The union volume is invariant under a permutation of the coordinates. -/
theorem union_volume_perm_index {d : Nat} (σ : Equiv.Perm (Fin d)) (ref : Nat → α) :
    ∀ (n : Nat) (P : List (Nat → α)), P.length ≤ n →
      union_volume d (fun i => ref (perm_index σ i))
          (P.map (fun p => fun i => p (perm_index σ i)))
        = union_volume d ref P
  | 0, P, hlen => by
    have : P = [] := List.length_eq_zero.mp (Nat.le_zero.mp hlen)
    subst this
    rfl
  | n + 1, [], _ => rfl
  | n + 1, p :: P, hlen => by
    have hl : P.length ≤ n := by simpa using hlen
    rw [List.map_cons, union_volume_cons, union_volume_cons, union_volume_perm_index σ ref n P hl,
      box_volume_perm_index]
    have e : (P.map (fun p => fun i => p (perm_index σ i))).map
          (pmax (fun i => p (perm_index σ i)))
        = (P.map (pmax p)).map (fun p => fun i => p (perm_index σ i)) := by
      rw [List.map_map, List.map_map]
      rfl
    rw [e, union_volume_perm_index σ ref n (P.map (pmax p)) (by simpa using hl)]

/-- The points read from a buffer and from its extension agree. -/
theorem point_of_append (data qs : List α) (d k i : Nat) (h : k * d + i < data.length) :
    point_of (data ++ qs) d k i = point_of data d k i := by
  unfold point_of
  rw [List.getD_eq_getElem?_getD, List.getD_eq_getElem?_getD, List.getElem?_append_left h]

theorem point_of_append_last (data qs : List α) (d n i : Nat) (h : data.length = n * d) :
    point_of (data ++ qs) d n i = qs.getD i 0 := by
  unfold point_of
  rw [List.getD_eq_getElem?_getD, List.getD_eq_getElem?_getD,
    List.getElem?_append_right (by omega)]
  congr 2
  omega

/-- Adding a point that is covered by a point of the list does not change the
value of `fpli_hv`. -/
theorem fpli_hv_add_covered (q q' : qsort_t α) (data qs : List α) (d n : Nat) (ref : Nat → α)
    (hd : 1 ≤ d) (hlen : data.length = n * d) (hlow : ∀ x, x ∈ data → -DBL_MAX ≤ x)
    (hlowq : ∀ x, x ∈ qs → -DBL_MAX ≤ x) (k : Nat) (hk : k < n)
    (hdom : ∀ i, i < d → point_of data d k i ≤ qs.getD i 0) :
    ∃ v, fpli_hv q' (data ++ qs) d (n + 1) ref = some v ∧ fpli_hv q data d n ref = some v := by
  have hlow' : ∀ x, x ∈ data ++ qs → -DBL_MAX ≤ x := by
    intro x hx
    rcases List.mem_append.mp hx with hx | hx
    · exact hlow x hx
    · exact hlowq x hx
  refine ⟨_, fpli_hv_correct q' (data ++ qs) d (n + 1) ref hd (by omega) hlow', ?_⟩
  rw [fpli_hv_correct q data d n ref hd (by omega) hlow]
  congr 1
  symm
  have hagree : ∀ j, j < n → ∀ i, i < d → point_of (data ++ qs) d j i = point_of data d j i := by
    intro j hj i hi
    refine point_of_append data qs d j i ?_
    rw [hlen]
    calc j * d + i < j * d + d := by omega
      _ = (j + 1) * d := by ring
      _ ≤ n * d := Nat.mul_le_mul_right d hj
  have hF : List.Forall₂ (fun p p' => ∀ i, i < d → p i = p' i)
      (((List.range n).map (point_of (data ++ qs) d)).filter (fun p => decide (below d ref p)))
      (dominating_points data d n ref) := by
    unfold dominating_points
    refine forall2_filter_map _ _ _ _ _ (fun j hj i hi => hagree j (List.mem_range.mp hj) i hi)
      (fun j hj => ?_)
    simp only [decide_eq_decide]
    exact below_congr (fun _ _ => rfl) (fun i hi => hagree j (List.mem_range.mp hj) i hi)
  have hsplit : dominating_points (data ++ qs) d (n + 1) ref
      = ((List.range n).map (point_of (data ++ qs) d)).filter (fun p => decide (below d ref p))
        ++ [point_of (data ++ qs) d n].filter (fun p => decide (below d ref p)) := by
    unfold dominating_points
    rw [List.range_succ, List.map_append, List.filter_append]
    rfl
  rw [hsplit]
  by_cases hb : below d ref (point_of (data ++ qs) d n)
  · have e1 : [point_of (data ++ qs) d n].filter (fun p => decide (below d ref p))
        = [point_of (data ++ qs) d n] := by
      simp [List.filter_cons, hb]
    rw [e1, union_volume_perm d ref (List.perm_append_comm), List.singleton_append]
    have hkb : below d ref (point_of (data ++ qs) d k) := by
      intro i hi
      rw [hagree k hk i hi]
      refine lt_of_le_of_lt (hdom i hi) ?_
      rw [← point_of_append_last data qs d n i hlen]
      exact hb i hi
    have hmem : point_of (data ++ qs) d k ∈
        ((List.range n).map (point_of (data ++ qs) d)).filter
          (fun p => decide (below d ref p)) := by
      rw [List.mem_filter]
      exact ⟨List.mem_map_of_mem _ (List.mem_range.mpr hk), by simpa using hkb⟩
    rw [union_volume_dominated d ref _ _ _ hmem (fun i hi => by
      rw [hagree k hk i hi, point_of_append_last data qs d n i hlen]
      exact hdom i hi)]
    exact union_volume_congr d (fun _ _ => rfl) _ _ _ (le_refl _) hF
  · have e1 : [point_of (data ++ qs) d n].filter (fun p => decide (below d ref p)) = [] := by
      simp [List.filter_cons, hb]
    rw [e1, List.append_nil]
    exact union_volume_congr d (fun _ _ => rfl) _ _ _ (le_refl _) hF

/-- C5: `fpli_hv` has the same outcome on a point list and on every
permutation of it, whatever the two sorts do with ties; for at least one
point the outcome is a value. -/
theorem fpli_hv_permutation_invariant (q q' : qsort_t α) (data data' : List α) (d n : Nat)
    (ref : Nat → α) (hd : 1 ≤ d) (hlow : ∀ x, x ∈ data → -DBL_MAX ≤ x)
    (hlow' : ∀ x, x ∈ data' → -DBL_MAX ≤ x)
    (hperm : (points data' d n).Perm (points data d n)) :
    fpli_hv q' data' d n ref = fpli_hv q data d n ref ∧
      (1 ≤ n → ∃ v, fpli_hv q data d n ref = some v) := by
  rcases Nat.eq_zero_or_pos n with hn | hn
  · subst hn
    obtain ⟨d', rfl⟩ : ∃ d', d = d' + 1 := ⟨d - 1, by omega⟩
    refine ⟨by rw [fpli_hv_zero, fpli_hv_zero], fun h => absurd h (by omega)⟩
  · refine ⟨?_, fun _ => ⟨_, fpli_hv_correct q data d n ref hd hn hlow⟩⟩
    rw [fpli_hv_correct q data d n ref hd hn hlow, fpli_hv_correct q' data' d n ref hd hn hlow',
      union_volume_points data, union_volume_points data']
    congr 1
    exact union_volume_perm d ref ((hperm.map of_coords).filter _)

/-- C6: `fpli_hv` has the same outcome when the coordinates of the points and
of the reference are permuted by `σ`; for at least one point the outcome is a
value. -/
theorem fpli_hv_coordinate_permutation (q q' : qsort_t α) (data data' : List α) (d n : Nat)
    (ref ref' : Nat → α) (σ : Equiv.Perm (Fin d)) (hd : 1 ≤ d)
    (hlow : ∀ x, x ∈ data → -DBL_MAX ≤ x) (hlow' : ∀ x, x ∈ data' → -DBL_MAX ≤ x)
    (href : ∀ i : Fin d, ref' i = ref (σ i))
    (hpts : ∀ k, k < n → ∀ i : Fin d, point_of data' d k i = point_of data d k (σ i)) :
    fpli_hv q' data' d n ref' = fpli_hv q data d n ref ∧
      (1 ≤ n → ∃ v, fpli_hv q data d n ref = some v) := by
  rcases Nat.eq_zero_or_pos n with hn | hn
  · subst hn
    obtain ⟨d', rfl⟩ : ∃ d', d = d' + 1 := ⟨d - 1, by omega⟩
    refine ⟨by rw [fpli_hv_zero, fpli_hv_zero], fun h => absurd h (by omega)⟩
  · refine ⟨?_, fun _ => ⟨_, fpli_hv_correct q data d n ref hd hn hlow⟩⟩
    rw [fpli_hv_correct q data d n ref hd hn hlow, fpli_hv_correct q' data' d n ref' hd hn hlow']
    congr 1
    have href' : ∀ i, i < d → ref' i = ref (perm_index σ i) := by
      intro i hi
      unfold perm_index
      rw [dif_pos hi]
      exact href ⟨i, hi⟩
    have hpts' : ∀ k, k < n → ∀ i, i < d →
        point_of data' d k i = point_of data d k (perm_index σ i) := by
      intro k hk i hi
      unfold perm_index
      rw [dif_pos hi]
      exact hpts k hk ⟨i, hi⟩
    have hbelow : ∀ k, k < n →
        (below d ref' (point_of data' d k) ↔ below d ref (point_of data d k)) := by
      intro k hk
      constructor
      · intro h j hj
        have hj' : (σ.symm ⟨j, hj⟩).val < d := (σ.symm ⟨j, hj⟩).isLt
        have e : perm_index σ (σ.symm ⟨j, hj⟩).val = j := by
          unfold perm_index
          rw [dif_pos hj']
          simp
        have := h _ hj'
        rw [hpts' k hk _ hj', href' _ hj', e] at this
        exact this
      · intro h i hi
        rw [hpts' k hk i hi, href' i hi]
        exact h _ (perm_index_lt σ hi)
    rw [← union_volume_perm_index σ ref _ (dominating_points data d n ref) (le_refl _)]
    refine union_volume_congr d href' _ _ _ (le_refl _) ?_
    rw [List.forall₂_map_right_iff]
    unfold dominating_points
    refine forall2_filter_map _ _ _ _ _
      (fun k hk i hi => hpts' k (List.mem_range.mp hk) i hi) (fun k hk => ?_)
    simp only [decide_eq_decide]
    exact hbelow k (List.mem_range.mp hk)

/-- C7, amended: in exact arithmetic, adding to the points a point `q` that a
point `p` of the list dominates (`p[i] ≤ q[i]` for all `i`, `p[i] < q[i]` for
some `i`) does not change the value that `fpli_hv` returns. -/
theorem fpli_hv_dominated_point (q q' : qsort_t α) (data qs : List α) (d n : Nat)
    (ref : Nat → α) (hd : 1 ≤ d) (hlen : data.length = n * d)
    (hlow : ∀ x, x ∈ data → -DBL_MAX ≤ x) (hlowq : ∀ x, x ∈ qs → -DBL_MAX ≤ x)
    (k : Nat) (hk : k < n) (hle : ∀ i, i < d → point_of data d k i ≤ qs.getD i 0)
    (_hlt : ∃ i, i < d ∧ point_of data d k i < qs.getD i 0) :
    ∃ v, fpli_hv q' (data ++ qs) d (n + 1) ref = some v ∧ fpli_hv q data d n ref = some v :=
  fpli_hv_add_covered q q' data qs d n ref hd hlen hlow hlowq k hk hle

/-- C8, amended: in exact arithmetic, adding a second copy of a point of the
list does not change the value that `fpli_hv` returns. -/
theorem fpli_hv_duplicate_point (q q' : qsort_t α) (data : List α) (d n : Nat)
    (ref : Nat → α) (hd : 1 ≤ d) (hlen : data.length = n * d)
    (hlow : ∀ x, x ∈ data → -DBL_MAX ≤ x) (k : Nat) (hk : k < n) :
    ∃ v, fpli_hv q' (data ++ (List.range d).map (point_of data d k)) d (n + 1) ref = some v ∧
      fpli_hv q data d n ref = some v := by
  refine fpli_hv_add_covered q q' data _ d n ref hd hlen hlow ?_ k hk ?_
  · intro x hx
    rw [List.mem_map] at hx
    obtain ⟨i, _, rfl⟩ := hx
    exact point_of_ge hlow d k i
  · intro i hi
    exact le_of_eq (of_coords_point data d k i hi).symm

/-- Values that are not negative are at least `-DBL_MAX`. -/
theorem low_of_nonneg {data : List α} (h : ∀ x, x ∈ data → 0 ≤ x) :
    ∀ x, x ∈ data → -DBL_MAX ≤ x := by
  intro x hx
  have h0 : (0 : α) ≤ DBL_MAX := by
    unfold DBL_MAX
    exact Nat.cast_nonneg _
  exact le_trans (neg_nonpos.mpr h0) (h x hx)

/-- Witness for `fpli_hv_permutation_invariant`: the points `(1,2,3)`,
`(2,1,3)` in both orders, reference `(4,4,4)`. -/
theorem fpli_hv_permutation_invariant_witness :
    (1 ≤ 3 ∧ (∀ x, x ∈ ([1, 2, 3, 2, 1, 3] : List Int) → -DBL_MAX ≤ x) ∧
      (∀ x, x ∈ ([2, 1, 3, 1, 2, 3] : List Int) → -DBL_MAX ≤ x) ∧
      (points ([2, 1, 3, 1, 2, 3] : List Int) 3 2).Perm
        (points ([1, 2, 3, 2, 1, 3] : List Int) 3 2)) ∧
    (fpli_hv qsort_insertion ([2, 1, 3, 1, 2, 3] : List Int) 3 2 (fun _ => 4)
        = fpli_hv qsort_insertion ([1, 2, 3, 2, 1, 3] : List Int) 3 2 (fun _ => 4) ∧
      (1 ≤ 2 → ∃ v, fpli_hv qsort_insertion ([1, 2, 3, 2, 1, 3] : List Int) 3 2 (fun _ => 4)
        = some v)) :=
  ⟨⟨by decide, low_of_nonneg (by decide), low_of_nonneg (by decide), by decide⟩,
    fpli_hv_permutation_invariant qsort_insertion qsort_insertion [1, 2, 3, 2, 1, 3]
      [2, 1, 3, 1, 2, 3] 3 2 (fun _ => 4) (by decide) (low_of_nonneg (by decide))
      (low_of_nonneg (by decide)) (by decide)⟩

/-- Witness for `fpli_hv_coordinate_permutation`: the points `(1,2,3)`,
`(2,1,3)` with reference `(4,5,6)`, coordinates 0 and 1 swapped. -/
theorem fpli_hv_coordinate_permutation_witness :
    (1 ≤ 3 ∧ (∀ x, x ∈ ([1, 2, 3, 2, 1, 3] : List Int) → -DBL_MAX ≤ x) ∧
      (∀ x, x ∈ ([2, 1, 3, 1, 2, 3] : List Int) → -DBL_MAX ≤ x) ∧
      (∀ i : Fin 3, (fun j => ([5, 4, 6] : List Int).getD j 0) (i : Nat)
        = (fun j => ([4, 5, 6] : List Int).getD j 0) ((Equiv.swap (0 : Fin 3) 1 i : Fin 3) : Nat)) ∧
      (∀ k, k < 2 → ∀ i : Fin 3, point_of ([2, 1, 3, 1, 2, 3] : List Int) 3 k i
        = point_of ([1, 2, 3, 2, 1, 3] : List Int) 3 k (Equiv.swap (0 : Fin 3) 1 i))) ∧
    (fpli_hv qsort_insertion ([2, 1, 3, 1, 2, 3] : List Int) 3 2
          (fun j => ([5, 4, 6] : List Int).getD j 0)
        = fpli_hv qsort_insertion ([1, 2, 3, 2, 1, 3] : List Int) 3 2
          (fun j => ([4, 5, 6] : List Int).getD j 0) ∧
      (1 ≤ 2 → ∃ v, fpli_hv qsort_insertion ([1, 2, 3, 2, 1, 3] : List Int) 3 2
          (fun j => ([4, 5, 6] : List Int).getD j 0) = some v)) :=
  ⟨⟨by decide, low_of_nonneg (by decide), low_of_nonneg (by decide), by decide, by decide⟩,
    fpli_hv_coordinate_permutation qsort_insertion qsort_insertion [1, 2, 3, 2, 1, 3]
      [2, 1, 3, 1, 2, 3] 3 2 (fun j => ([4, 5, 6] : List Int).getD j 0)
      (fun j => ([5, 4, 6] : List Int).getD j 0) (Equiv.swap (0 : Fin 3) 1) (by decide)
      (low_of_nonneg (by decide)) (low_of_nonneg (by decide)) (by decide) (by decide)⟩

/-- Witness for `fpli_hv_dominated_point`: the points `(1,2,3)`, `(2,1,3)`
and the added point `(2,2,3)`, which `(1,2,3)` dominates. -/
theorem fpli_hv_dominated_point_witness :
    (1 ≤ 3 ∧ ([1, 2, 3, 2, 1, 3] : List Int).length = 2 * 3 ∧
      (∀ x, x ∈ ([1, 2, 3, 2, 1, 3] : List Int) → -DBL_MAX ≤ x) ∧
      (∀ x, x ∈ ([2, 2, 3] : List Int) → -DBL_MAX ≤ x) ∧ 0 < 2 ∧
      (∀ i, i < 3 → point_of ([1, 2, 3, 2, 1, 3] : List Int) 3 0 i
        ≤ ([2, 2, 3] : List Int).getD i 0) ∧
      (∃ i, i < 3 ∧ point_of ([1, 2, 3, 2, 1, 3] : List Int) 3 0 i
        < ([2, 2, 3] : List Int).getD i 0)) ∧
    ∃ v, fpli_hv qsort_insertion (([1, 2, 3, 2, 1, 3] : List Int) ++ [2, 2, 3]) 3 (2 + 1)
          (fun _ => 4) = some v ∧
      fpli_hv qsort_insertion ([1, 2, 3, 2, 1, 3] : List Int) 3 2 (fun _ => 4) = some v :=
  ⟨⟨by decide, by decide, low_of_nonneg (by decide), low_of_nonneg (by decide), by decide,
      by decide, by decide⟩,
    fpli_hv_dominated_point qsort_insertion qsort_insertion [1, 2, 3, 2, 1, 3] [2, 2, 3] 3 2
      (fun _ => 4) (by decide) (by decide) (low_of_nonneg (by decide))
      (low_of_nonneg (by decide)) 0 (by decide) (by decide) (by decide)⟩

/-- Witness for `fpli_hv_duplicate_point`: the points `(1,2,3)`, `(2,1,3)`
and a second copy of `(1,2,3)`. -/
theorem fpli_hv_duplicate_point_witness :
    (1 ≤ 3 ∧ ([1, 2, 3, 2, 1, 3] : List Int).length = 2 * 3 ∧
      (∀ x, x ∈ ([1, 2, 3, 2, 1, 3] : List Int) → -DBL_MAX ≤ x) ∧ 0 < 2) ∧
    ∃ v, fpli_hv qsort_insertion
          (([1, 2, 3, 2, 1, 3] : List Int)
            ++ (List.range 3).map (point_of ([1, 2, 3, 2, 1, 3] : List Int) 3 0)) 3 (2 + 1)
          (fun _ => 4) = some v ∧
      fpli_hv qsort_insertion ([1, 2, 3, 2, 1, 3] : List Int) 3 2 (fun _ => 4) = some v :=
  ⟨⟨by decide, by decide, low_of_nonneg (by decide), by decide⟩,
    fpli_hv_duplicate_point qsort_insertion qsort_insertion [1, 2, 3, 2, 1, 3] 3 2
      (fun _ => 4) (by decide) (by decide) (low_of_nonneg (by decide)) 0 (by decide)⟩

end

/-! ## Balance of the AVL tree -/

section
set_option linter.unusedSectionVars false
variable {α : Type}

theorem cdepth_eq {a b : Nat} (h : max a b + 1 < 256) : cdepth a b = max a b + 1 := by
  unfold cdepth
  split_ifs <;> omega

theorem node_depth_congr {m m' : avl_mem α} (x : Option Nat)
    (h : ∀ i, x = some i → (m'.node i).depth = (m.node i).depth) :
    NODE_DEPTH m' x = NODE_DEPTH m x := by
  cases x with
  | none => rfl
  | some i => exact h i rfl

theorem CALC_DEPTH_eq (m : avl_mem α) (k : Nat) :
    CALC_DEPTH m k = cdepth (NODE_DEPTH m (m.node k).left) (NODE_DEPTH m (m.node k).right) := rfl

theorem nd_eq {m m1 m' : avl_mem α} {S : List Nat} (x : Option Nat)
    (h : ∀ i, (m'.node i).depth = if i ∈ S then (m1.node i).depth else (m.node i).depth) :
    NODE_DEPTH m' x = nd m m1 S x := by
  cases x with
  | none => rfl
  | some i => exact h i

/-- The depths after `k->depth = CALC_DEPTH(k)`. -/
theorem depth_assign1 {m : avl_mem α} (mp : avl_mem α) (k : Nat)
    (hmp : ∀ i, (mp.node i).depth = (m.node i).depth) {m1 : avl_mem α}
    (e : m1 = mp.setDepth k (CALC_DEPTH mp k)) :
    (m1.node k).depth = cdepth (nd m m1 [] (m1.node k).left) (nd m m1 [] (m1.node k).right) ∧
      ∀ j, j ≠ k → (m1.node j).depth = (m.node j).depth := by
  subst e
  refine ⟨?_, fun j h1 => by simp [h1, hmp]⟩
  simp only [avl_depth_setDepth, if_true, CALC_DEPTH_eq, avl_left_setDepth, avl_right_setDepth]
  congr 1 <;> exact nd_eq _ (fun i => by simp [hmp])

/-- The depths after `k->depth = CALC_DEPTH(k); ch->depth = CALC_DEPTH(ch)`. -/
theorem depth_assign2 {m : avl_mem α} (mp : avl_mem α) {k ch : Nat} (hne : k ≠ ch)
    (hmp : ∀ i, (mp.node i).depth = (m.node i).depth) {m1 : avl_mem α}
    (e : m1 = (mp.setDepth k (CALC_DEPTH mp k)).setDepth ch
      (CALC_DEPTH (mp.setDepth k (CALC_DEPTH mp k)) ch)) :
    (m1.node k).depth = cdepth (nd m m1 [] (m1.node k).left) (nd m m1 [] (m1.node k).right) ∧
      (m1.node ch).depth =
        cdepth (nd m m1 [k] (m1.node ch).left) (nd m m1 [k] (m1.node ch).right) ∧
      ∀ j, j ≠ k → j ≠ ch → (m1.node j).depth = (m.node j).depth := by
  subst e
  have hne' : ¬ ch = k := fun h => hne h.symm
  refine ⟨?_, ?_, fun j h1 h2 => by simp [h1, h2, hmp]⟩
  · simp only [avl_depth_setDepth, hne, if_false, if_true, CALC_DEPTH_eq, avl_left_setDepth,
      avl_right_setDepth]
    congr 1 <;> exact nd_eq _ (fun i => by simp [hmp])
  · simp only [avl_depth_setDepth, if_true, CALC_DEPTH_eq, avl_left_setDepth,
      avl_right_setDepth]
    congr 1 <;> exact nd_eq _ (fun i => by
      by_cases h : i = k
      · subst h; simp [hne]
      · simp [h, hmp])

/-- The depths after the three assignments of a double rotation. -/
theorem depth_assign3 {m : avl_mem α} (mp : avl_mem α) {k ch g : Nat} (h1 : k ≠ ch)
    (h2 : k ≠ g) (h3 : ch ≠ g)
    (hmp : ∀ i, (mp.node i).depth = (m.node i).depth) {m1 : avl_mem α}
    (e : m1 = ((mp.setDepth k (CALC_DEPTH mp k)).setDepth ch
      (CALC_DEPTH (mp.setDepth k (CALC_DEPTH mp k)) ch)).setDepth g
      (CALC_DEPTH ((mp.setDepth k (CALC_DEPTH mp k)).setDepth ch
        (CALC_DEPTH (mp.setDepth k (CALC_DEPTH mp k)) ch)) g)) :
    (m1.node k).depth = cdepth (nd m m1 [] (m1.node k).left) (nd m m1 [] (m1.node k).right) ∧
      (m1.node ch).depth =
        cdepth (nd m m1 [k] (m1.node ch).left) (nd m m1 [k] (m1.node ch).right) ∧
      (m1.node g).depth =
        cdepth (nd m m1 [k, ch] (m1.node g).left) (nd m m1 [k, ch] (m1.node g).right) ∧
      ∀ j, j ≠ k → j ≠ ch → j ≠ g → (m1.node j).depth = (m.node j).depth := by
  subst e
  have h1' : ¬ ch = k := fun h => h1 h.symm
  have h2' : ¬ g = k := fun h => h2 h.symm
  have h3' : ¬ g = ch := fun h => h3 h.symm
  refine ⟨?_, ?_, ?_, fun j e1 e2 e3 => by simp [e1, e2, e3, hmp]⟩
  · simp only [avl_depth_setDepth, h1, h2, if_false, if_true, CALC_DEPTH_eq, avl_left_setDepth,
      avl_right_setDepth]
    congr 1 <;> exact nd_eq _ (fun i => by simp [hmp])
  · simp only [avl_depth_setDepth, h3, if_false, if_true, CALC_DEPTH_eq, avl_left_setDepth,
      avl_right_setDepth]
    congr 1 <;> exact nd_eq _ (fun i => by
      by_cases h : i = k
      · subst h; simp [h1, h2]
      · simp [h, hmp])
  · simp only [avl_depth_setDepth, if_true, CALC_DEPTH_eq, avl_left_setDepth,
      avl_right_setDepth]
    congr 1 <;> exact nd_eq _ (fun i => by
      by_cases h : i = k
      · subst h; simp [h1, h2]
      · by_cases h' : i = ch
        · subst h'; simp [h3, h1']
        · simp [h, h', hmp])

/-- The depths after a single rotation of `k` with its left child `ch`. -/
theorem step_ll_depth {m m1 : avl_mem α} {k ch : Nat} {q : Option Nat}
    (hbal : avl_check_balance m k = -1)
    (hleft : (m.node k).left = some ch) (hd : L_DEPTH m ch ≥ R_DEPTH m ch) (hne : k ≠ ch)
    (e : avl_rebalance_step m k = some (m1, q)) :
    (m1.node k).depth = cdepth (nd m m1 [] (m1.node k).left) (nd m m1 [] (m1.node k).right) ∧
      (m1.node ch).depth =
        cdepth (nd m m1 [k] (m1.node ch).left) (nd m m1 [k] (m1.node ch).right) ∧
      ∀ j, j ≠ k → j ≠ ch → (m1.node j).depth = (m.node j).depth := by
  unfold avl_rebalance_step at e
  simp only [hbal, hleft, if_true, hd] at e
  exact depth_assign2 _ hne (fun i => by simp) (Prod.mk.inj (Option.some.inj e)).1.symm

/-- The depths after a double rotation of `k` with its left child `ch`. -/
theorem step_lr_depth {m m1 : avl_mem α} {k ch g : Nat} {q : Option Nat}
    (hbal : avl_check_balance m k = -1)
    (hleft : (m.node k).left = some ch) (hd : ¬ L_DEPTH m ch ≥ R_DEPTH m ch)
    (hright : (m.node ch).right = some g) (h1 : k ≠ ch) (h2 : k ≠ g) (h3 : ch ≠ g)
    (e : avl_rebalance_step m k = some (m1, q)) :
    (m1.node k).depth = cdepth (nd m m1 [] (m1.node k).left) (nd m m1 [] (m1.node k).right) ∧
      (m1.node ch).depth =
        cdepth (nd m m1 [k] (m1.node ch).left) (nd m m1 [k] (m1.node ch).right) ∧
      (m1.node g).depth =
        cdepth (nd m m1 [k, ch] (m1.node g).left) (nd m m1 [k, ch] (m1.node g).right) ∧
      ∀ j, j ≠ k → j ≠ ch → j ≠ g → (m1.node j).depth = (m.node j).depth := by
  unfold avl_rebalance_step at e
  simp only [hbal, hleft, if_true, hd, hright, if_false] at e
  exact depth_assign3 _ h1 h2 h3 (fun i => by simp) (Prod.mk.inj (Option.some.inj e)).1.symm

/-- The depths after a single rotation of `k` with its right child `ch`. -/
theorem step_rr_depth {m m1 : avl_mem α} {k ch : Nat} {q : Option Nat}
    (hbal : avl_check_balance m k = 1)
    (hright : (m.node k).right = some ch) (hd : R_DEPTH m ch ≥ L_DEPTH m ch) (hne : k ≠ ch)
    (e : avl_rebalance_step m k = some (m1, q)) :
    (m1.node k).depth = cdepth (nd m m1 [] (m1.node k).left) (nd m m1 [] (m1.node k).right) ∧
      (m1.node ch).depth =
        cdepth (nd m m1 [k] (m1.node ch).left) (nd m m1 [k] (m1.node ch).right) ∧
      ∀ j, j ≠ k → j ≠ ch → (m1.node j).depth = (m.node j).depth := by
  have hn : ¬ ((1 : Int) = -1) := by decide
  unfold avl_rebalance_step at e
  simp only [hbal, hright, if_true, hd, hn, if_false] at e
  exact depth_assign2 _ hne (fun i => by simp) (Prod.mk.inj (Option.some.inj e)).1.symm

/-- The depths after a double rotation of `k` with its right child `ch`. -/
theorem step_rl_depth {m m1 : avl_mem α} {k ch g : Nat} {q : Option Nat}
    (hbal : avl_check_balance m k = 1)
    (hright : (m.node k).right = some ch) (hd : ¬ R_DEPTH m ch ≥ L_DEPTH m ch)
    (hleft : (m.node ch).left = some g) (h1 : k ≠ ch) (h2 : k ≠ g) (h3 : ch ≠ g)
    (e : avl_rebalance_step m k = some (m1, q)) :
    (m1.node k).depth = cdepth (nd m m1 [] (m1.node k).left) (nd m m1 [] (m1.node k).right) ∧
      (m1.node ch).depth =
        cdepth (nd m m1 [k] (m1.node ch).left) (nd m m1 [k] (m1.node ch).right) ∧
      (m1.node g).depth =
        cdepth (nd m m1 [k, ch] (m1.node g).left) (nd m m1 [k, ch] (m1.node g).right) ∧
      ∀ j, j ≠ k → j ≠ ch → j ≠ g → (m1.node j).depth = (m.node j).depth := by
  have hn : ¬ ((1 : Int) = -1) := by decide
  unfold avl_rebalance_step at e
  simp only [hbal, hleft, if_true, hd, hright, hn, if_false] at e
  exact depth_assign3 _ h1 h2 h3 (fun i => by simp) (Prod.mk.inj (Option.some.inj e)).1.symm

/-- The depths after a step without rotation. -/
theorem step_none_depth {m m1 : avl_mem α} {k : Nat} {q : Option Nat}
    (h1 : avl_check_balance m k ≠ -1) (h2 : avl_check_balance m k ≠ 1)
    (e : avl_rebalance_step m k = some (m1, q)) :
    (m1.node k).depth = cdepth (nd m m1 [] (m1.node k).left) (nd m m1 [] (m1.node k).right) ∧
      ∀ j, j ≠ k → (m1.node j).depth = (m.node j).depth := by
  rw [step_none h1 h2] at e
  exact depth_assign1 _ k (fun i => rfl) (Prod.mk.inj (Option.some.inj e)).1.symm

theorem node_depth_root {m : avl_mem α} {t : tr} (h : dep m t) :
    NODE_DEPTH m t.root = t.height := by
  cases t with
  | nil => rfl
  | node l k r => exact h.1

theorem nd_root {m m1 : avl_mem α} {t : tr} {S : List Nat} (h : dep m t)
    (hS : ∀ i, i ∈ S → i ∉ t.inorder) : nd m m1 S t.root = t.height := by
  cases t with
  | nil => rfl
  | node l k r =>
    have hk : k ∉ S := fun hk => hS k hk (by simp [tr.inorder])
    show (if k ∈ S then _ else _) = _
    rw [if_neg hk]
    exact h.1

theorem nd_some {m m1 : avl_mem α} {S : List Nat} {i : Nat} (h : i ∈ S) :
    nd m m1 S (some i) = (m1.node i).depth := by
  show (if i ∈ S then _ else _) = _
  rw [if_pos h]

theorem dep_congr {m m' : avl_mem α} : ∀ {t : tr}, dep m t →
    (∀ j, j ∈ t.inorder → (m'.node j).depth = (m.node j).depth) → dep m' t
  | .nil, _, _ => trivial
  | .node l k r, h, hj =>
    ⟨by rw [hj k (by simp [tr.inorder])]; exact h.1,
      dep_congr h.2.1 (fun j hm => hj j (by simp [tr.inorder, hm])),
      dep_congr h.2.2 (fun j hm => hj j (by simp [tr.inorder, hm]))⟩

theorem cgood_congr {m m' : avl_mem α} : ∀ {c : List frm} {h : Nat}, cgood m c h →
    (∀ j, j ∈ ckeys c → (m'.node j).depth = (m.node j).depth) → cgood m' c h
  | [], _, _, _ => trivial
  | frm.L k r :: c, h, hg, hj =>
    ⟨dep_congr hg.1 (fun j hm => hj j (by simp [ckeys, hm])), hg.2.1, hg.2.2.1, hg.2.2.2.1,
      cgood_congr hg.2.2.2.2 (fun j hm => hj j (by simp [ckeys, hm]))⟩
  | frm.R l k :: c, h, hg, hj =>
    ⟨dep_congr hg.1 (fun j hm => hj j (by simp [ckeys, hm])), hg.2.1, hg.2.2.1, hg.2.2.2.1,
      cgood_congr hg.2.2.2.2 (fun j hm => hj j (by simp [ckeys, hm]))⟩

theorem height_plug : ∀ (c : List frm) (t : tr), (plug c t).height = cheight c t.height
  | [], _ => rfl
  | frm.L k r :: c, t => by
    show (plug c (tr.node t k r)).height = _
    rw [height_plug c]; rfl
  | frm.R l k :: c, t => by
    show (plug c (tr.node l k t)).height = _
    rw [height_plug c]; rfl

theorem le_cheight : ∀ (c : List frm) (h : Nat), h ≤ cheight c h
  | [], _ => le_refl _
  | frm.L k r :: c, h => by
    have := le_cheight c (max h r.height + 1)
    show h ≤ cheight c (max h r.height + 1)
    omega
  | frm.R l k :: c, h => by
    have := le_cheight c (max l.height h + 1)
    show h ≤ cheight c (max l.height h + 1)
    omega

theorem cheight_mono : ∀ (c : List frm) {h h' : Nat}, h ≤ h' → cheight c h ≤ cheight c h'
  | [], _, _, hh => hh
  | frm.L k r :: c, h, h', hh => by
    show cheight c (max h r.height + 1) ≤ cheight c (max h' r.height + 1)
    exact cheight_mono c (by omega)
  | frm.R l k :: c, h, h', hh => by
    show cheight c (max l.height h + 1) ≤ cheight c (max l.height h' + 1)
    exact cheight_mono c (by omega)

theorem cheight_succ : ∀ (c : List frm) (h : Nat), cheight c (h + 1) ≤ cheight c h + 1
  | [], _ => le_refl _
  | frm.L k r :: c, h => by
    show cheight c (max (h + 1) r.height + 1) ≤ cheight c (max h r.height + 1) + 1
    exact le_trans (cheight_mono c (by omega)) (cheight_succ c _)
  | frm.R l k :: c, h => by
    show cheight c (max l.height (h + 1) + 1) ≤ cheight c (max l.height h + 1) + 1
    exact le_trans (cheight_mono c (by omega)) (cheight_succ c _)

/-- A balanced tree with correct depths is one around every hole. -/
theorem good_plug {m : avl_mem α} : ∀ (c : List frm) (t : tr),
    dep m (plug c t) → (plug c t).bal → dep m t ∧ t.bal ∧ cgood m c t.height
  | [], _, h1, h2 => ⟨h1, h2, trivial⟩
  | frm.L k r :: c, t, h1, h2 => by
    obtain ⟨a1, a2, a3⟩ := good_plug c (tr.node t k r) h1 h2
    exact ⟨a1.2.1, a2.2.2.1, a1.2.2, a2.2.2.2, a2.1, a2.2.1, a3⟩
  | frm.R l k :: c, t, h1, h2 => by
    obtain ⟨a1, a2, a3⟩ := good_plug c (tr.node l k t) h1 h2
    exact ⟨a1.2.2, a2.2.2.2, a1.2.1, a2.2.2.1, a2.2.1, a2.1, a3⟩

/-- The balance test in terms of the heights of the subtrees. -/
theorem check_balance_left {m : avl_mem α} {l r : tr} {k : Nat}
    (hkl : (m.node k).left = l.root) (hkr : (m.node k).right = r.root)
    (dl : dep m l) (dr : dep m r) :
    avl_check_balance m k = -1 ↔ r.height + 1 < l.height := by
  unfold avl_check_balance L_DEPTH R_DEPTH
  rw [hkl, hkr, node_depth_root dl, node_depth_root dr]
  simp only []
  split_ifs <;> constructor <;> intro h <;> first | omega | exact absurd h (by decide)

theorem check_balance_right {m : avl_mem α} {l r : tr} {k : Nat}
    (hkl : (m.node k).left = l.root) (hkr : (m.node k).right = r.root)
    (dl : dep m l) (dr : dep m r) :
    avl_check_balance m k = 1 ↔ l.height + 1 < r.height := by
  unfold avl_check_balance L_DEPTH R_DEPTH
  rw [hkl, hkr, node_depth_root dl, node_depth_root dr]
  simp only []
  split_ifs <;> constructor <;> intro h <;> first | omega | exact absurd h (by decide)

theorem depth_cmp {m : avl_mem α} {l r : tr} {k : Nat}
    (hkl : (m.node k).left = l.root) (hkr : (m.node k).right = r.root)
    (dl : dep m l) (dr : dep m r) :
    L_DEPTH m k = l.height ∧ R_DEPTH m k = r.height := by
  unfold L_DEPTH R_DEPTH
  rw [hkl, hkr, node_depth_root dl, node_depth_root dr]
  exact ⟨rfl, rfl⟩

theorem rd_old {m m1 : avl_mem α} {t : tr} {S : List Nat} (h : dep m t)
    (hS : ∀ i, i ∈ S → i ∉ t.inorder) : rd m m1 S t :=
  nd_root h hS

theorem rd_new {m m1 : avl_mem α} {l r : tr} {i : Nat} {S : List Nat} (hi : i ∈ S)
    (h : (m1.node i).depth = max l.height r.height + 1) : rd m m1 S (tr.node l i r) := by
  show nd m m1 S (some i) = _
  rw [nd_some hi, h]
  rfl

/-- The new depth of a node above two subtrees. -/
theorem depth_node {m m1 : avl_mem α} {l r : tr} {k : Nat} {S : List Nat}
    (hd : (m1.node k).depth = cdepth (nd m m1 S (m1.node k).left) (nd m m1 S (m1.node k).right))
    (hl : (m1.node k).left = l.root) (hr : (m1.node k).right = r.root)
    (nl : rd m m1 S l) (nr : rd m m1 S r) (hb : max l.height r.height + 1 < 256) :
    (m1.node k).depth = max l.height r.height + 1 := by
  rw [hd, hl, hr, nl, nr]
  exact cdepth_eq hb

theorem arith_ll {a b r : Nat} (hgt : r + 1 < max a b + 1) (h2 : max a b + 1 ≤ r + 2)
    (hd : a ≥ b) (bl : a ≤ b + 1) (hb : max (max a b + 1) r + 1 < 256) :
    max b r + 1 < 256 ∧ max a (max b r + 1) + 1 < 256 ∧
      (a ≤ max b r + 1 + 1 ∧ max b r + 1 ≤ a + 1 ∧ b ≤ r + 1 ∧ r ≤ b + 1) ∧
      max (max a b + 1) r ≤ max a (max b r + 1) + 1 ∧
      max a (max b r + 1) + 1 ≤ max (max a b + 1) r + 1 ∧
      (max a b + 1 ≤ r + 1 → r ≤ max a b + 1 + 1 →
        max a (max b r + 1) + 1 = max (max a b + 1) r + 1) := by
  omega

theorem arith_lr {a b d r : Nat} (hgt : r + 1 < max a (max b d + 1) + 1)
    (h2 : max a (max b d + 1) + 1 ≤ r + 2) (hd : ¬ a ≥ max b d + 1)
    (bl : max b d + 1 ≤ a + 1) (bg1 : b ≤ d + 1) (bg2 : d ≤ b + 1)
    (hb : max (max a (max b d + 1) + 1) r + 1 < 256) :
    max d r + 1 < 256 ∧ max a b + 1 < 256 ∧ max (max a b + 1) (max d r + 1) + 1 < 256 ∧
      (max a b + 1 ≤ max d r + 1 + 1 ∧ max d r + 1 ≤ max a b + 1 + 1 ∧
        a ≤ b + 1 ∧ b ≤ a + 1 ∧ d ≤ r + 1 ∧ r ≤ d + 1) ∧
      max (max a (max b d + 1) + 1) r ≤ max (max a b + 1) (max d r + 1) + 1 ∧
      max (max a b + 1) (max d r + 1) + 1 ≤ max (max a (max b d + 1) + 1) r + 1 ∧
      (max a (max b d + 1) + 1 ≤ r + 1 → r ≤ max a (max b d + 1) + 1 + 1 →
        max (max a b + 1) (max d r + 1) + 1 = max (max a (max b d + 1) + 1) r + 1) := by
  omega

theorem arith_rr {l b a : Nat} (hgt : l + 1 < max b a + 1) (h2 : max b a + 1 ≤ l + 2)
    (hd : a ≥ b) (br : a ≤ b + 1) (hb : max l (max b a + 1) + 1 < 256) :
    max l b + 1 < 256 ∧ max (max l b + 1) a + 1 < 256 ∧
      (max l b + 1 ≤ a + 1 ∧ a ≤ max l b + 1 + 1 ∧ l ≤ b + 1 ∧ b ≤ l + 1) ∧
      max l (max b a + 1) ≤ max (max l b + 1) a + 1 ∧
      max (max l b + 1) a + 1 ≤ max l (max b a + 1) + 1 ∧
      (l ≤ max b a + 1 + 1 → max b a + 1 ≤ l + 1 →
        max (max l b + 1) a + 1 = max l (max b a + 1) + 1) := by
  omega

theorem arith_rl {l b d a : Nat} (hgt : l + 1 < max (max b d + 1) a + 1)
    (h2 : max (max b d + 1) a + 1 ≤ l + 2) (hd : ¬ a ≥ max b d + 1)
    (br : max b d + 1 ≤ a + 1) (bg1 : b ≤ d + 1) (bg2 : d ≤ b + 1)
    (hb : max l (max (max b d + 1) a + 1) + 1 < 256) :
    max l b + 1 < 256 ∧ max d a + 1 < 256 ∧ max (max l b + 1) (max d a + 1) + 1 < 256 ∧
      (max l b + 1 ≤ max d a + 1 + 1 ∧ max d a + 1 ≤ max l b + 1 + 1 ∧
        l ≤ b + 1 ∧ b ≤ l + 1 ∧ d ≤ a + 1 ∧ a ≤ d + 1) ∧
      max l (max (max b d + 1) a + 1) ≤ max (max l b + 1) (max d a + 1) + 1 ∧
      max (max l b + 1) (max d a + 1) + 1 ≤ max l (max (max b d + 1) a + 1) + 1 ∧
      (l ≤ max (max b d + 1) a + 1 + 1 → max (max b d + 1) a + 1 ≤ l + 1 →
        max (max l b + 1) (max d a + 1) + 1 = max l (max (max b d + 1) a + 1) + 1) := by
  omega

theorem step_bal_ll {m : avl_mem α} {c : List frm} {a b r : tr} {k ch : Nat}
    (hl : rep m (tr.node a ch b) (some k)) (hr : rep m r (some k))
    (hkl : (m.node k).left = some ch) (hkr : (m.node k).right = r.root)
    (hkp : (m.node k).parent = cpar c) (hc : crep m c (some k))
    (hnd : ((tr.node (tr.node a ch b) k r).inorder ++ ckeys c).Nodup)
    (dl : dep m (tr.node a ch b)) (dr : dep m r) (bl : (tr.node a ch b).bal) (br : r.bal)
    (h2 : (tr.node a ch b).height ≤ r.height + 2)
    (hb : max (tr.node a ch b).height r.height + 1 < 256)
    (hb1 : avl_check_balance m k = -1) (hd : L_DEPTH m ch ≥ R_DEPTH m ch) :
    ∃ m1 t1, step_post m c (tr.node a ch b) r k m1 t1 := by
  have hgt := (check_balance_left (l := tr.node a ch b) hkl hkr dl dr).mp hb1
  obtain ⟨h1, h2', h3, h4, h5⟩ := hl
  obtain ⟨m1, isL, e, hside, hkeep, fl, fr, fp, ft⟩ := step_ll hb1 hkl hd
  simp only [hkp] at e hside fl fr fp ft
  obtain ⟨r1, r2⟩ := rot_ll_spec h4 h5 hr h2' h3 hkr hc hnd hside fl fr fp ft
  have hcnt : ∀ j, a.inorder.count j + [ch].count j + b.inorder.count j + [k].count j +
      r.inorder.count j ≤ 1 := by
    intro j
    have := List.nodup_iff_count_le_one.mp hnd j
    simp only [tr.inorder, List.count_append, List.count_cons, List.count_nil] at this ⊢
    omega
  have hk := hcnt k
  have hk1 := cnt_self k
  have hc0 := hcnt ch
  have hc1 := cnt_self ch
  have hne : k ≠ ch := ne_of_cnt (by omega)
  have hka : k ∉ a.inorder := not_mem_of_cnt (by omega)
  clear hk hk1 hc0 hc1
  obtain ⟨d1, d2, d3⟩ := step_ll_depth hb1 hkl hd hne e
  obtain ⟨da0, da, db⟩ := dl
  have hcmp := depth_cmp h2' h3 da db
  rw [hcmp.1, hcmp.2] at hd
  simp only [tr.height, tr.bal] at hgt h2 hb bl
  obtain ⟨A1, A2, ⟨A3, A4, A5, A6⟩, A7, A8, A9⟩ := arith_ll hgt h2 hd bl.1 hb
  obtain ⟨p1, p2, p3, p4, p5⟩ := r1
  obtain ⟨q1, q2, q3, q4, q5⟩ := p5
  have ea : dep m1 a := dep_congr da (fun j hj => d3 j
      (by have := hcnt j; have := cnt_mem hj; exact ne_of_cnt (by omega))
      (by have := hcnt j; have := cnt_mem hj; exact ne_of_cnt (by omega)))
  have eb : dep m1 b := dep_congr db (fun j hj => d3 j
      (by have := hcnt j; have := cnt_mem hj; exact ne_of_cnt (by omega))
      (by have := hcnt j; have := cnt_mem hj; exact ne_of_cnt (by omega)))
  have er : dep m1 r := dep_congr dr (fun j hj => d3 j
      (by have := hcnt j; have := cnt_mem hj; exact ne_of_cnt (by omega))
      (by have := hcnt j; have := cnt_mem hj; exact ne_of_cnt (by omega)))
  have ek : (m1.node k).depth = max b.height r.height + 1 :=
    depth_node d1 q2 q3 (rd_old db (by simp)) (rd_old dr (by simp)) A1
  have ech : (m1.node ch).depth = max a.height (max b.height r.height + 1) + 1 :=
    depth_node (l := a) (r := tr.node b k r) d2 p2 p3
      (rd_old da (fun i hi => by
        simp only [List.mem_singleton] at hi
        subst hi
        exact hka))
      (rd_new (by simp) ek) A2
  refine ⟨m1, tr.node a ch (tr.node b k r), e, ⟨p1, p2, p3, p4, q1, q2, q3, q4, q5⟩, r2,
    by simp [tr.inorder], hkeep, ⟨ech, ea, ek, eb, er⟩,
    ⟨A3, A4, bl.2.2.1, A5, A6, bl.2.2.2, br⟩, A7, A8, A9, ?_⟩
  intro j hj
  simp only [tr.inorder, List.mem_append, List.mem_cons, not_or] at hj
  exact d3 j hj.2.1 hj.1.2.1

theorem step_bal_lr {m : avl_mem α} {c : List frm} {a b1 d1 r : tr} {k ch g : Nat}
    (hl : rep m (tr.node a ch (tr.node b1 g d1)) (some k)) (hr : rep m r (some k))
    (hkl : (m.node k).left = some ch) (hkr : (m.node k).right = r.root)
    (hkp : (m.node k).parent = cpar c) (hc : crep m c (some k))
    (hnd : ((tr.node (tr.node a ch (tr.node b1 g d1)) k r).inorder ++ ckeys c).Nodup)
    (dl : dep m (tr.node a ch (tr.node b1 g d1))) (dr : dep m r)
    (bl : (tr.node a ch (tr.node b1 g d1)).bal) (br : r.bal)
    (h2 : (tr.node a ch (tr.node b1 g d1)).height ≤ r.height + 2)
    (hb : max (tr.node a ch (tr.node b1 g d1)).height r.height + 1 < 256)
    (hb1 : avl_check_balance m k = -1) (hd : ¬ L_DEPTH m ch ≥ R_DEPTH m ch) :
    ∃ m1 t1, step_post m c (tr.node a ch (tr.node b1 g d1)) r k m1 t1 := by
  have hgt := (check_balance_left (l := tr.node a ch (tr.node b1 g d1)) hkl hkr dl dr).mp hb1
  obtain ⟨h1, h2', h3, h4, h5⟩ := hl
  obtain ⟨g1, g2, g3, g4, g5⟩ := h5
  have hcnt : ∀ j, a.inorder.count j + [ch].count j + b1.inorder.count j + [g].count j +
      d1.inorder.count j + [k].count j + r.inorder.count j ≤ 1 := by
    intro j
    have := List.nodup_iff_count_le_one.mp hnd j
    simp only [tr.inorder, List.count_append, List.count_cons, List.count_nil] at this ⊢
    omega
  have hk := hcnt k
  have hk1 := cnt_self k
  have hc0 := hcnt ch
  have hc1 := cnt_self ch
  have hg0 := hcnt g
  have hg1 := cnt_self g
  have e1 : k ≠ ch := ne_of_cnt (by omega)
  have e2 : k ≠ g := ne_of_cnt (by omega)
  have e3 : ch ≠ g := ne_of_cnt (by omega)
  have hka : k ∉ a.inorder := not_mem_of_cnt (by omega)
  have hkb : k ∉ b1.inorder := not_mem_of_cnt (by omega)
  clear hk hk1 hc0 hc1 hg0 hg1
  obtain ⟨m1, isL, e, hside, hkeep, fl, fr, fp, ft⟩ := step_lr hb1 hkl hd h3 e1 e2 e3
  simp only [hkp] at e hside fl fr fp ft
  obtain ⟨r1, r2⟩ := rot_lr_spec h4 g4 g5 hr h2' g2 g3 hkr hc hnd hside fl fr fp ft
  obtain ⟨x1, x2, x3, x4⟩ := step_lr_depth hb1 hkl hd h3 e1 e2 e3 e
  obtain ⟨da0, da, dg0, db, dd⟩ := dl
  have hcmp := depth_cmp (l := a) (r := tr.node b1 g d1) h2' h3 da ⟨dg0, db, dd⟩
  rw [hcmp.1, hcmp.2] at hd
  simp only [tr.height, tr.bal] at hgt h2 hb bl hd
  obtain ⟨A1, A2, A3, ⟨A4, A5, A6, A7, A8, A9⟩, A10, A11, A12⟩ :=
    arith_lr hgt h2 hd bl.2.1 bl.2.2.2.1 bl.2.2.2.2.1 hb
  obtain ⟨p1, p2, p3, p4, p5⟩ := r1
  obtain ⟨q1, q2, q3, q4, q5⟩ := p4
  obtain ⟨s1, s2, s3, s4, s5⟩ := p5
  have ea : dep m1 a := dep_congr da (fun j hj => x4 j
      (by have := hcnt j; have := cnt_mem hj; exact ne_of_cnt (by omega))
      (by have := hcnt j; have := cnt_mem hj; exact ne_of_cnt (by omega))
      (by have := hcnt j; have := cnt_mem hj; exact ne_of_cnt (by omega)))
  have eb : dep m1 b1 := dep_congr db (fun j hj => x4 j
      (by have := hcnt j; have := cnt_mem hj; exact ne_of_cnt (by omega))
      (by have := hcnt j; have := cnt_mem hj; exact ne_of_cnt (by omega))
      (by have := hcnt j; have := cnt_mem hj; exact ne_of_cnt (by omega)))
  have ed : dep m1 d1 := dep_congr dd (fun j hj => x4 j
      (by have := hcnt j; have := cnt_mem hj; exact ne_of_cnt (by omega))
      (by have := hcnt j; have := cnt_mem hj; exact ne_of_cnt (by omega))
      (by have := hcnt j; have := cnt_mem hj; exact ne_of_cnt (by omega)))
  have er : dep m1 r := dep_congr dr (fun j hj => x4 j
      (by have := hcnt j; have := cnt_mem hj; exact ne_of_cnt (by omega))
      (by have := hcnt j; have := cnt_mem hj; exact ne_of_cnt (by omega))
      (by have := hcnt j; have := cnt_mem hj; exact ne_of_cnt (by omega)))
  have ek : (m1.node k).depth = max d1.height r.height + 1 :=
    depth_node x1 s2 s3 (rd_old dd (by simp)) (rd_old dr (by simp)) A1
  have ech : (m1.node ch).depth = max a.height b1.height + 1 :=
    depth_node x2 q2 q3
      (rd_old da (fun i hi => by
        simp only [List.mem_singleton] at hi
        subst hi
        exact hka))
      (rd_old db (fun i hi => by
        simp only [List.mem_singleton] at hi
        subst hi
        exact hkb)) A2
  have eg : (m1.node g).depth =
      max (max a.height b1.height + 1) (max d1.height r.height + 1) + 1 :=
    depth_node (l := tr.node a ch b1) (r := tr.node d1 k r) x3 p2 p3
      (rd_new (by simp) ech) (rd_new (by simp) ek) A3
  refine ⟨m1, tr.node (tr.node a ch b1) g (tr.node d1 k r), e,
    ⟨p1, p2, p3, ⟨q1, q2, q3, q4, q5⟩, s1, s2, s3, s4, s5⟩, r2,
    by simp [tr.inorder], hkeep, ⟨eg, ⟨ech, ea, eb⟩, ek, ed, er⟩,
    ⟨A4, A5, ⟨A6, A7, bl.2.2.1, bl.2.2.2.2.2.1⟩, A8, A9, bl.2.2.2.2.2.2, br⟩,
    A10, A11, A12, ?_⟩
  intro j hj
  simp only [tr.inorder, List.mem_append, List.mem_cons, not_or] at hj
  exact x4 j hj.2.1 hj.1.2.1 hj.1.2.2.2.1

theorem step_bal_rr {m : avl_mem α} {c : List frm} {l b a : tr} {k ch : Nat}
    (hl : rep m l (some k)) (hr : rep m (tr.node b ch a) (some k))
    (hkl : (m.node k).left = l.root) (hkr : (m.node k).right = some ch)
    (hkp : (m.node k).parent = cpar c) (hc : crep m c (some k))
    (hnd : ((tr.node l k (tr.node b ch a)).inorder ++ ckeys c).Nodup)
    (dl : dep m l) (dr : dep m (tr.node b ch a)) (bl : l.bal) (br : (tr.node b ch a).bal)
    (h2 : (tr.node b ch a).height ≤ l.height + 2)
    (hb : max l.height (tr.node b ch a).height + 1 < 256)
    (hb2 : avl_check_balance m k = 1) (hd : R_DEPTH m ch ≥ L_DEPTH m ch) :
    ∃ m1 t1, step_post m c l (tr.node b ch a) k m1 t1 := by
  have hgt := (check_balance_right (r := tr.node b ch a) hkl hkr dl dr).mp hb2
  obtain ⟨h1, h2', h3, h4, h5⟩ := hr
  obtain ⟨m1, isL, e, hside, hkeep, fl, fr, fp, ft⟩ := step_rr hb2 hkr hd
  simp only [hkp] at e hside fl fr fp ft
  obtain ⟨r1, r2⟩ := rot_rr_spec hl h4 h5 hkl h2' h3 hc hnd hside fl fr fp ft
  have hcnt : ∀ j, l.inorder.count j + [k].count j + b.inorder.count j + [ch].count j +
      a.inorder.count j ≤ 1 := by
    intro j
    have := List.nodup_iff_count_le_one.mp hnd j
    simp only [tr.inorder, List.count_append, List.count_cons, List.count_nil] at this ⊢
    omega
  have hk := hcnt k
  have hk1 := cnt_self k
  have hc0 := hcnt ch
  have hc1 := cnt_self ch
  have hne : k ≠ ch := ne_of_cnt (by omega)
  have hka : k ∉ a.inorder := not_mem_of_cnt (by omega)
  clear hk hk1 hc0 hc1
  obtain ⟨d1, d2, d3⟩ := step_rr_depth hb2 hkr hd hne e
  obtain ⟨da0, db, da⟩ := dr
  have hcmp := depth_cmp h2' h3 db da
  rw [hcmp.1, hcmp.2] at hd
  simp only [tr.height, tr.bal] at hgt h2 hb br
  obtain ⟨A1, A2, ⟨A3, A4, A5, A6⟩, A7, A8, A9⟩ := arith_rr hgt h2 hd br.2.1 hb
  obtain ⟨p1, p2, p3, p4, p5⟩ := r1
  obtain ⟨q1, q2, q3, q4, q5⟩ := p4
  have ea : dep m1 a := dep_congr da (fun j hj => d3 j
      (by have := hcnt j; have := cnt_mem hj; exact ne_of_cnt (by omega))
      (by have := hcnt j; have := cnt_mem hj; exact ne_of_cnt (by omega)))
  have eb : dep m1 b := dep_congr db (fun j hj => d3 j
      (by have := hcnt j; have := cnt_mem hj; exact ne_of_cnt (by omega))
      (by have := hcnt j; have := cnt_mem hj; exact ne_of_cnt (by omega)))
  have el : dep m1 l := dep_congr dl (fun j hj => d3 j
      (by have := hcnt j; have := cnt_mem hj; exact ne_of_cnt (by omega))
      (by have := hcnt j; have := cnt_mem hj; exact ne_of_cnt (by omega)))
  have ek : (m1.node k).depth = max l.height b.height + 1 :=
    depth_node d1 q2 q3 (rd_old dl (by simp)) (rd_old db (by simp)) A1
  have ech : (m1.node ch).depth = max (max l.height b.height + 1) a.height + 1 :=
    depth_node (l := tr.node l k b) (r := a) d2 p2 p3
      (rd_new (by simp) ek)
      (rd_old da (fun i hi => by
        simp only [List.mem_singleton] at hi
        subst hi
        exact hka)) A2
  refine ⟨m1, tr.node (tr.node l k b) ch a, e, ⟨p1, p2, p3, ⟨q1, q2, q3, q4, q5⟩, p5⟩,
    r2, by simp [tr.inorder], hkeep, ⟨ech, ⟨ek, el, eb⟩, ea⟩,
    ⟨A3, A4, ⟨A5, A6, bl, br.2.2.1⟩, br.2.2.2⟩, A7, A8, A9, ?_⟩
  intro j hj
  simp only [tr.inorder, List.mem_append, List.mem_cons, not_or] at hj
  exact d3 j hj.2.1 hj.2.2.2.1

theorem step_bal_rl {m : avl_mem α} {c : List frm} {l b1 d1 a : tr} {k ch g : Nat}
    (hl : rep m l (some k)) (hr : rep m (tr.node (tr.node b1 g d1) ch a) (some k))
    (hkl : (m.node k).left = l.root) (hkr : (m.node k).right = some ch)
    (hkp : (m.node k).parent = cpar c) (hc : crep m c (some k))
    (hnd : ((tr.node l k (tr.node (tr.node b1 g d1) ch a)).inorder ++ ckeys c).Nodup)
    (dl : dep m l) (dr : dep m (tr.node (tr.node b1 g d1) ch a)) (bl : l.bal)
    (br : (tr.node (tr.node b1 g d1) ch a).bal)
    (h2 : (tr.node (tr.node b1 g d1) ch a).height ≤ l.height + 2)
    (hb : max l.height (tr.node (tr.node b1 g d1) ch a).height + 1 < 256)
    (hb2 : avl_check_balance m k = 1) (hd : ¬ R_DEPTH m ch ≥ L_DEPTH m ch) :
    ∃ m1 t1, step_post m c l (tr.node (tr.node b1 g d1) ch a) k m1 t1 := by
  have hgt :=
    (check_balance_right (r := tr.node (tr.node b1 g d1) ch a) hkl hkr dl dr).mp hb2
  obtain ⟨h1, h2', h3, h4, h5⟩ := hr
  obtain ⟨g1, g2, g3, g4, g5⟩ := h4
  have hcnt : ∀ j, l.inorder.count j + [k].count j + b1.inorder.count j + [g].count j +
      d1.inorder.count j + [ch].count j + a.inorder.count j ≤ 1 := by
    intro j
    have := List.nodup_iff_count_le_one.mp hnd j
    simp only [tr.inorder, List.count_append, List.count_cons, List.count_nil] at this ⊢
    omega
  have hk := hcnt k
  have hk1 := cnt_self k
  have hc0 := hcnt ch
  have hc1 := cnt_self ch
  have hg0 := hcnt g
  have hg1 := cnt_self g
  have e1 : k ≠ ch := ne_of_cnt (by omega)
  have e2 : k ≠ g := ne_of_cnt (by omega)
  have e3 : ch ≠ g := ne_of_cnt (by omega)
  have hka : k ∉ a.inorder := not_mem_of_cnt (by omega)
  have hkd : k ∉ d1.inorder := not_mem_of_cnt (by omega)
  clear hk hk1 hc0 hc1 hg0 hg1
  obtain ⟨m1, isL, e, hside, hkeep, fl, fr, fp, ft⟩ := step_rl hb2 hkr hd h2' e1 e2 e3
  simp only [hkp] at e hside fl fr fp ft
  obtain ⟨r1, r2⟩ := rot_rl_spec hl g4 g5 h5 hkl g2 g3 h3 hc hnd hside fl fr fp ft
  obtain ⟨x1, x2, x3, x4⟩ := step_rl_depth hb2 hkr hd h2' e1 e2 e3 e
  obtain ⟨da0, ⟨dg0, db, dd⟩, da⟩ := dr
  have hcmp := depth_cmp (l := tr.node b1 g d1) (r := a) h2' h3 ⟨dg0, db, dd⟩ da
  rw [hcmp.1, hcmp.2] at hd
  simp only [tr.height, tr.bal] at hgt h2 hb br hd
  obtain ⟨A1, A2, A3, ⟨A4, A5, A6, A7, A8, A9⟩, A10, A11, A12⟩ :=
    arith_rl hgt h2 hd br.1 br.2.2.1.1 br.2.2.1.2.1 hb
  obtain ⟨p1, p2, p3, p4, p5⟩ := r1
  obtain ⟨q1, q2, q3, q4, q5⟩ := p4
  obtain ⟨s1, s2, s3, s4, s5⟩ := p5
  have ea : dep m1 a := dep_congr da (fun j hj => x4 j
      (by have := hcnt j; have := cnt_mem hj; exact ne_of_cnt (by omega))
      (by have := hcnt j; have := cnt_mem hj; exact ne_of_cnt (by omega))
      (by have := hcnt j; have := cnt_mem hj; exact ne_of_cnt (by omega)))
  have eb : dep m1 b1 := dep_congr db (fun j hj => x4 j
      (by have := hcnt j; have := cnt_mem hj; exact ne_of_cnt (by omega))
      (by have := hcnt j; have := cnt_mem hj; exact ne_of_cnt (by omega))
      (by have := hcnt j; have := cnt_mem hj; exact ne_of_cnt (by omega)))
  have ed : dep m1 d1 := dep_congr dd (fun j hj => x4 j
      (by have := hcnt j; have := cnt_mem hj; exact ne_of_cnt (by omega))
      (by have := hcnt j; have := cnt_mem hj; exact ne_of_cnt (by omega))
      (by have := hcnt j; have := cnt_mem hj; exact ne_of_cnt (by omega)))
  have el : dep m1 l := dep_congr dl (fun j hj => x4 j
      (by have := hcnt j; have := cnt_mem hj; exact ne_of_cnt (by omega))
      (by have := hcnt j; have := cnt_mem hj; exact ne_of_cnt (by omega))
      (by have := hcnt j; have := cnt_mem hj; exact ne_of_cnt (by omega)))
  have ek : (m1.node k).depth = max l.height b1.height + 1 :=
    depth_node x1 q2 q3 (rd_old dl (by simp)) (rd_old db (by simp)) A1
  have ech : (m1.node ch).depth = max d1.height a.height + 1 :=
    depth_node x2 s2 s3
      (rd_old dd (fun i hi => by
        simp only [List.mem_singleton] at hi
        subst hi
        exact hkd))
      (rd_old da (fun i hi => by
        simp only [List.mem_singleton] at hi
        subst hi
        exact hka)) A2
  have eg : (m1.node g).depth =
      max (max l.height b1.height + 1) (max d1.height a.height + 1) + 1 :=
    depth_node (l := tr.node l k b1) (r := tr.node d1 ch a) x3 p2 p3
      (rd_new (by simp) ek) (rd_new (by simp) ech) A3
  refine ⟨m1, tr.node (tr.node l k b1) g (tr.node d1 ch a), e,
    ⟨p1, p2, p3, ⟨q1, q2, q3, q4, q5⟩, s1, s2, s3, s4, s5⟩, r2,
    by simp [tr.inorder], hkeep, ⟨eg, ⟨ek, el, eb⟩, ech, ed, ea⟩,
    ⟨A4, A5, ⟨A6, A7, bl, br.2.2.1.2.2.1⟩, A8, A9, br.2.2.1.2.2.2, br.2.2.2⟩,
    A10, A11, A12, ?_⟩
  intro j hj
  simp only [tr.inorder, List.mem_append, List.mem_cons, not_or] at hj
  exact x4 j hj.2.1 hj.2.2.2.1 hj.2.2.1.2.1

theorem step_bal_none {m : avl_mem α} {c : List frm} {l r : tr} {k : Nat}
    (hl : rep m l (some k)) (hr : rep m r (some k))
    (hkl : (m.node k).left = l.root) (hkr : (m.node k).right = r.root)
    (hkp : (m.node k).parent = cpar c) (hc : crep m c (some k))
    (hnd : ((tr.node l k r).inorder ++ ckeys c).Nodup)
    (dl : dep m l) (dr : dep m r) (bl : l.bal) (br : r.bal)
    (hb : max l.height r.height + 1 < 256)
    (hb1 : avl_check_balance m k ≠ -1) (hb2 : avl_check_balance m k ≠ 1) :
    ∃ m1 t1, step_post m c l r k m1 t1 := by
  have hn1 : ¬ r.height + 1 < l.height := mt (check_balance_left hkl hkr dl dr).mpr hb1
  have hn2 : ¬ l.height + 1 < r.height := mt (check_balance_right hkl hkr dl dr).mpr hb2
  have e := step_none hb1 hb2
  obtain ⟨d1, d2⟩ := step_none_depth hb1 hb2 e
  have ek : ((m.setDepth k (CALC_DEPTH m k)).node k).depth = max l.height r.height + 1 :=
    depth_node d1 (by simpa using hkl) (by simpa using hkr) (rd_old dl (by simp))
      (rd_old dr (by simp)) hb
  have hcnt : ∀ j, l.inorder.count j + [k].count j + r.inorder.count j ≤ 1 := by
    intro j
    have := List.nodup_iff_count_le_one.mp hnd j
    simp only [tr.inorder, List.count_append, List.count_cons, List.count_nil] at this ⊢
    omega
  refine ⟨_, tr.node l k r, by rw [e, hkp], ?_, ?_, rfl, ?_, ⟨ek, ?_, ?_⟩, ?_, ?_, ?_, ?_,
    ?_⟩
  · exact rep_same (fun j => by simp) ⟨hkp, hkl, hkr, hl, hr⟩
  · exact crep_same (fun j => by simp) (by simp) hc
  · exact ⟨fun j => by simp, by simp, by simp⟩
  · exact dep_congr dl (fun j hj => d2 j
      (by have := hcnt j; have := cnt_mem hj; exact ne_of_cnt (by omega)))
  · exact dep_congr dr (fun j hj => d2 j
      (by have := hcnt j; have := cnt_mem hj; exact ne_of_cnt (by omega)))
  · exact ⟨by omega, by omega, bl, br⟩
  · simp only [tr.height]; omega
  · simp only [tr.height]; omega
  · exact fun _ _ => rfl
  · intro j hj
    simp only [tr.inorder, List.mem_append, List.mem_cons, not_or] at hj
    exact d2 j hj.2.1

/-- One iteration of `avl_rebalance` at a node whose subtrees are balanced with
correct depths and differ in height by at most two. -/
theorem avl_rebalance_step_bal {m : avl_mem α} {c : List frm} {l r : tr} {k : Nat}
    (hl : rep m l (some k)) (hr : rep m r (some k))
    (hkl : (m.node k).left = l.root) (hkr : (m.node k).right = r.root)
    (hkp : (m.node k).parent = cpar c) (hc : crep m c (some k))
    (hnd : ((tr.node l k r).inorder ++ ckeys c).Nodup)
    (dl : dep m l) (dr : dep m r) (bl : l.bal) (br : r.bal)
    (h2 : l.height ≤ r.height + 2 ∧ r.height ≤ l.height + 2)
    (hb : max l.height r.height + 1 < 256) :
    ∃ m1 t1, step_post m c l r k m1 t1 := by
  by_cases hb1 : avl_check_balance m k = -1
  · obtain ⟨ch, hch⟩ := bal_left hb1
    obtain ⟨a, b, rfl⟩ := root_eq_some (hkl.symm.trans hch)
    by_cases hd : L_DEPTH m ch ≥ R_DEPTH m ch
    · exact step_bal_ll hl hr hch hkr hkp hc hnd dl dr bl br h2.1 hb hb1 hd
    · obtain ⟨g, hg⟩ := depth_right hd
      obtain ⟨b1, d1, rfl⟩ := root_eq_some (hl.2.2.1.symm.trans hg)
      exact step_bal_lr hl hr hch hkr hkp hc hnd dl dr bl br h2.1 hb hb1 hd
  · by_cases hb2 : avl_check_balance m k = 1
    · obtain ⟨ch, hch⟩ := bal_right hb2
      obtain ⟨b, a, rfl⟩ := root_eq_some (hkr.symm.trans hch)
      by_cases hd : R_DEPTH m ch ≥ L_DEPTH m ch
      · exact step_bal_rr hl hr hkl hch hkp hc hnd dl dr bl br h2.2 hb hb2 hd
      · obtain ⟨g, hg⟩ := depth_left hd
        obtain ⟨b1, d1, rfl⟩ := root_eq_some (hr.2.1.symm.trans hg)
        exact step_bal_rl hl hr hkl hch hkp hc hnd dl dr bl br h2.2 hb hb2 hd
    · exact step_bal_none hl hr hkl hkr hkp hc hnd dl dr bl br hb hb1 hb2

theorem arith_up {th h0 hs h1 : Nat} (a1 : th ≤ h0 + 1) (a2 : h0 ≤ th + 1)
    (a3 : h0 ≤ hs + 1) (a4 : hs ≤ h0 + 1) (b1 : max th hs ≤ h1) (b2 : h1 ≤ max th hs + 1)
    (b3 : th ≤ hs + 1 → hs ≤ th + 1 → h1 = max th hs + 1) :
    h1 ≤ max h0 hs + 1 + 1 ∧ max h0 hs + 1 ≤ h1 + 1 := by
  omega

theorem arith_up' {th h0 hs h1 : Nat} (a1 : th ≤ h0 + 1) (a2 : h0 ≤ th + 1)
    (a3 : h0 ≤ hs + 1) (a4 : hs ≤ h0 + 1) (b1 : max hs th ≤ h1) (b2 : h1 ≤ max hs th + 1)
    (b3 : hs ≤ th + 1 → th ≤ hs + 1 → h1 = max hs th + 1) :
    h1 ≤ max hs h0 + 1 + 1 ∧ max hs h0 + 1 ≤ h1 + 1 := by
  omega

/-- The loop of `avl_rebalance`, started at the parent of a hole in which a
balanced subtree with correct depths hangs whose height differs by at most one
from the height `h0` for which the path is balanced: the whole tree is
balanced with correct depths afterwards. -/
theorem avl_rebalance_bal : ∀ (c : List frm) {m : avl_mem α} {t : tr} (fuel : Nat) (h0 : Nat),
    rep m t (cpar c) → crep m c t.root → (t.inorder ++ ckeys c).Nodup → c.length ≤ fuel →
    dep m t → t.bal → cgood m c h0 → t.height ≤ h0 + 1 → h0 ≤ t.height + 1 →
    cheight c h0 + 1 < 256 →
    ∃ m1 t1, avl_rebalance fuel m (cpar c) = some m1 ∧ m1.tree.top = t1.root ∧
      rep m1 t1 none ∧ t1.inorder = (plug c t).inorder ∧ keeps m m1 ∧ dep m1 t1 ∧ t1.bal
  | [], m, t, fuel, _, ht, hc, _, _, dt, bt, _, _, _, _ => by
    refine ⟨m, t, ?_, hc, ht, rfl, keeps_refl m, dt, bt⟩
    show avl_rebalance fuel m none = some m
    cases fuel <;> rfl
  | frm.L x rr :: c, m, t, 0, _, _, _, _, hf, _, _, _, _, _, _ => by simp at hf
  | frm.R ll x :: c, m, t, 0, _, _, _, _, hf, _, _, _, _, _, _ => by simp at hf
  | frm.L x rr :: c, m, t, fuel + 1, h0, ht, hc, hnd, hf, dt, bt, hg, a1, a2, hb => by
    obtain ⟨h1, h2, h3, h4, h5⟩ := hc
    obtain ⟨g1, g2, g3, g4, g5⟩ := hg
    have hnd' : ((tr.node t x rr).inorder ++ ckeys c).Nodup := by
      simp only [tr.inorder, ckeys] at hnd ⊢
      simpa [List.append_assoc] using hnd
    have hle := le_cheight c (max h0 rr.height + 1)
    have hb' : cheight c (max h0 rr.height + 1) + 1 < 256 := hb
    obtain ⟨m1, t1, e, r1, r2, r3, r4, r5, r6, r7, r8, r9, r10⟩ :=
      avl_rebalance_step_bal (c := c) ht h4 h1 h2 h3 h5 hnd' dt g1 bt g2
        ⟨by omega, by omega⟩ (by omega)
    have hnd1 : (t1.inorder ++ ckeys c).Nodup := by rw [r3]; exact hnd'
    have hg1 : cgood m1 c (max h0 rr.height + 1) :=
      cgood_congr g5 (fun j hj => r10 j (fun hj' =>
        (List.nodup_append.mp hnd').2.2 hj' hj))
    obtain ⟨u1, u2⟩ := arith_up a1 a2 g3 g4 r7 r8 r9
    obtain ⟨m2, t2, e2, q1, q2, q3, q4, q5, q6⟩ :=
      avl_rebalance_bal c fuel (max h0 rr.height + 1) r1 r2 hnd1 (by simp at hf; omega)
        r5 r6 hg1 u1 u2 hb'
    refine ⟨m2, t2, ?_, q1, q2, ?_, keeps_trans r4 q4, q5, q6⟩
    · show (match avl_rebalance_step m x with
        | none => none
        | some (m, parent) => avl_rebalance fuel m parent) = _
      rw [e]
      exact e2
    · rw [q3]
      show _ = (plug c (tr.node t x rr)).inorder
      exact plug_inorder_congr c r3
  | frm.R ll x :: c, m, t, fuel + 1, h0, ht, hc, hnd, hf, dt, bt, hg, a1, a2, hb => by
    obtain ⟨h1, h2, h3, h4, h5⟩ := hc
    obtain ⟨g1, g2, g3, g4, g5⟩ := hg
    have hnd' : ((tr.node ll x t).inorder ++ ckeys c).Nodup := by
      simp only [tr.inorder, ckeys] at hnd ⊢
      have hp : (ll.inorder ++ x :: t.inorder ++ ckeys c).Perm
          (t.inorder ++ (x :: ll.inorder ++ ckeys c)) := by
        rw [List.perm_iff_count]
        intro j
        simp only [List.count_append, List.count_cons]
        omega
      exact hp.nodup_iff.mpr hnd
    have hle := le_cheight c (max ll.height h0 + 1)
    have hb' : cheight c (max ll.height h0 + 1) + 1 < 256 := hb
    obtain ⟨m1, t1, e, r1, r2, r3, r4, r5, r6, r7, r8, r9, r10⟩ :=
      avl_rebalance_step_bal (c := c) h4 ht h2 h1 h3 h5 hnd' g1 dt g2 bt
        ⟨by omega, by omega⟩ (by omega)
    have hnd1 : (t1.inorder ++ ckeys c).Nodup := by rw [r3]; exact hnd'
    have hg1 : cgood m1 c (max ll.height h0 + 1) :=
      cgood_congr g5 (fun j hj => r10 j (fun hj' =>
        (List.nodup_append.mp hnd').2.2 hj' hj))
    obtain ⟨u1, u2⟩ := arith_up' a1 a2 g3 g4 r7 r8 r9
    obtain ⟨m2, t2, e2, q1, q2, q3, q4, q5, q6⟩ :=
      avl_rebalance_bal c fuel (max ll.height h0 + 1) r1 r2 hnd1 (by simp at hf; omega)
        r5 r6 hg1 u1 u2 hb'
    refine ⟨m2, t2, ?_, q1, q2, ?_, keeps_trans r4 q4, q5, q6⟩
    · show (match avl_rebalance_step m x with
        | none => none
        | some (m, parent) => avl_rebalance fuel m parent) = _
      rw [e]
      exact e2
    · rw [q3]
      show _ = (plug c (tr.node ll x t)).inorder
      exact plug_inorder_congr c r3

theorem size_eq_length : ∀ (t : tr), t.size = t.inorder.length
  | .nil => rfl
  | .node l k r => by
    simp only [tr.size, tr.inorder, List.length_append, List.length_cons, size_eq_length l,
      size_eq_length r]
    omega

theorem pow_half_succ (h : Nat) : 2 ^ ((h + 1) / 2) ≤ 2 * 2 ^ (h / 2) := by
  rw [← pow_succ']
  exact Nat.pow_le_pow_right (by norm_num) (by omega)

theorem pow_half_succ_succ (h : Nat) : 2 ^ ((h + 2) / 2) = 2 * 2 ^ (h / 2) := by
  rw [← pow_succ']
  congr 1
  omega

/-- A balanced tree of height `h` has at least `2 ^ (h / 2) - 1` nodes. -/
theorem bal_size : ∀ (t : tr), t.bal → 2 ^ (t.height / 2) ≤ t.size + 1
  | .nil, _ => by simp [tr.height, tr.size]
  | .node l k r, hb => by
    obtain ⟨b1, b2, b3, b4⟩ := hb
    have i1 := bal_size l b3
    have i2 := bal_size r b4
    simp only [tr.height, tr.size]
    rcases Nat.lt_or_ge l.height r.height with hlt | hge
    · -- r.height = l.height + 1
      have e : r.height = l.height + 1 := by omega
      have e2 : max l.height r.height + 1 = l.height + 2 := by omega
      rw [e2, pow_half_succ_succ]
      have := Nat.pow_le_pow_right (show 0 < 2 by norm_num)
        (show l.height / 2 ≤ r.height / 2 by omega)
      omega
    · rcases Nat.eq_or_lt_of_le hge with heq | hlt
      · have e2 : max l.height r.height + 1 = r.height + 1 := by omega
        rw [e2]
        have := pow_half_succ r.height
        have := Nat.pow_le_pow_right (show 0 < 2 by norm_num)
          (show r.height / 2 ≤ l.height / 2 by omega)
        omega
      · have e : l.height = r.height + 1 := by omega
        have e2 : max l.height r.height + 1 = r.height + 2 := by omega
        rw [e2, pow_half_succ_succ]
        have := Nat.pow_le_pow_right (show 0 < 2 by norm_num)
          (show r.height / 2 ≤ l.height / 2 by omega)
        omega

/-- A balanced tree with fewer than `2 ^ 64` nodes is lower than 130. -/
theorem bal_height_lt {t : tr} (hb : t.bal) (hs : t.inorder.length < 2 ^ 64) :
    t.height < 130 := by
  have h1 := bal_size t hb
  rw [size_eq_length] at h1
  by_contra hcon
  have h2 : 2 ^ 65 ≤ 2 ^ (t.height / 2) :=
    Nat.pow_le_pow_right (by norm_num) (by omega)
  have h3 : (2 : Nat) ^ 65 = 2 * 2 ^ 64 := by norm_num
  omega

/-- The tree that the pointers of a memory represent is unique. -/
theorem rep_unique {m : avl_mem α} : ∀ {t t' : tr} {p p' : Option Nat},
    rep m t p → rep m t' p' → t.root = t'.root → t = t'
  | .nil, .nil, _, _, _, _, _ => rfl
  | .nil, .node _ _ _, _, _, _, _, h => by simp [tr.root] at h
  | .node _ _ _, .nil, _, _, _, _, h => by simp [tr.root] at h
  | .node l k r, .node l' k' r', _, _, h, h', e => by
    simp only [tr.root, Option.some.injEq] at e
    subst e
    obtain ⟨_, a2, a3, a4, a5⟩ := h
    obtain ⟨_, b2, b3, b4, b5⟩ := h'
    rw [rep_unique a4 b4 (a2.symm.trans b2), rep_unique a5 b5 (a3.symm.trans b3)]

theorem cgood_key {m : avl_mem α} (k s : Nat) (r : tr) (c : List frm) :
    ∀ (c1 : List frm) (h : Nat), cgood m (c1 ++ frm.L k r :: c) h →
      cgood m (c1 ++ frm.L s r :: c) h
  | [], _, hg => hg
  | frm.L _ _ :: c1, _, hg =>
    ⟨hg.1, hg.2.1, hg.2.2.1, hg.2.2.2.1, cgood_key k s r c c1 _ hg.2.2.2.2⟩
  | frm.R _ _ :: c1, _, hg =>
    ⟨hg.1, hg.2.1, hg.2.2.1, hg.2.2.2.1, cgood_key k s r c c1 _ hg.2.2.2.2⟩

theorem cheight_key (k s : Nat) (r : tr) (c : List frm) :
    ∀ (c1 : List frm) (h : Nat),
      cheight (c1 ++ frm.L k r :: c) h = cheight (c1 ++ frm.L s r :: c) h
  | [], _ => rfl
  | frm.L _ _ :: c1, _ => cheight_key k s r c c1 _
  | frm.R _ _ :: c1, _ => cheight_key k s r c c1 _

/-- In a balanced tree with correct depths, the depth of every node is one
more than the larger of the depths of its children, and the depths of the
children differ by at most one. -/
theorem dep_local {m : avl_mem α} : ∀ {t : tr} {par : Option Nat}, rep m t par → dep m t →
    t.bal → ∀ k, k ∈ t.inorder →
    (m.node k).depth = max (L_DEPTH m k) (R_DEPTH m k) + 1 ∧
      L_DEPTH m k ≤ R_DEPTH m k + 1 ∧ R_DEPTH m k ≤ L_DEPTH m k + 1
  | .nil, _, _, _, _, k, hk => by simp [tr.inorder] at hk
  | .node l x r, _, hr, hd, hb, k, hk => by
    simp only [tr.inorder, List.mem_append, List.mem_cons] at hk
    rcases hk with hk | hk | hk
    · exact dep_local hr.2.2.2.1 hd.2.1 hb.2.2.1 k hk
    · subst hk
      obtain ⟨e1, e2⟩ := depth_cmp hr.2.1 hr.2.2.1 hd.2.1 hd.2.2
      rw [e1, e2]
      exact ⟨hd.1, hb.1, hb.2.1⟩
    · exact dep_local hr.2.2.2.2 hd.2.2 hb.2.2.2 k hk

theorem insert_before_fields_depth {m : avl_mem α} {node p : Nat} (fuel : Nat) (hne : node ≠ p)
    (hleft : (m.node node).left = none) :
    ∃ m0, avl_insert_before fuel m (some node) p = avl_rebalance fuel m0 (some node) ∧
      (∀ j, (m0.node j).left =
        if j = node then some p else if j = p then none else (m.node j).left) ∧
      (∀ j, (m0.node j).right = if j = p then none else (m.node j).right) ∧
      (∀ j, (m0.node j).parent = if j = p then some node else (m.node j).parent) ∧
      m0.tree.top = m.tree.top ∧
      (∀ j, (m0.node j).depth = if j = p then 1 else (m.node j).depth) := by
  rcases hprev : (m.node node).prev with _ | q
  · unfold avl_insert_before
    simp only [hleft, ne_eq, not_true_eq_false, if_false]
    refine ⟨_, rfl, fun j => ?_, fun j => ?_, fun j => ?_, ?_, fun j => ?_⟩ <;>
      simp [hne, hprev]
  · unfold avl_insert_before
    simp only [hleft, ne_eq, not_true_eq_false, if_false]
    refine ⟨_, rfl, fun j => ?_, fun j => ?_, fun j => ?_, ?_, fun j => ?_⟩ <;>
      simp [hne, hprev, @eq_comm _ q]

theorem insert_after_fields_depth {m : avl_mem α} {node p : Nat} (fuel : Nat) (hne : node ≠ p)
    (hright : (m.node node).right = none) :
    ∃ m0, avl_insert_after fuel m (some node) p = avl_rebalance fuel m0 (some node) ∧
      (∀ j, (m0.node j).right =
        if j = node then some p else if j = p then none else (m.node j).right) ∧
      (∀ j, (m0.node j).left = if j = p then none else (m.node j).left) ∧
      (∀ j, (m0.node j).parent = if j = p then some node else (m.node j).parent) ∧
      m0.tree.top = m.tree.top ∧
      (∀ j, (m0.node j).depth = if j = p then 1 else (m.node j).depth) := by
  rcases hnext : (m.node node).next with _ | q
  · unfold avl_insert_after
    simp only [hright, ne_eq, not_true_eq_false, if_false]
    refine ⟨_, rfl, fun j => ?_, fun j => ?_, fun j => ?_, ?_, fun j => ?_⟩ <;>
      simp [hne, hnext]
  · unfold avl_insert_after
    simp only [hright, ne_eq, not_true_eq_false, if_false]
    refine ⟨_, rfl, fun j => ?_, fun j => ?_, fun j => ?_, ?_, fun j => ?_⟩ <;>
      simp [hne, hnext, @eq_comm _ q]

/-- The tree stays balanced with correct depths under `avl_insert_before`. -/
theorem avl_insert_before_bal {m : avl_mem α} {A B : List Nat} {node p : Nat} {fuel : Nat}
    (h : tree_list m (A ++ node :: B)) (hok : avl_ok m (A ++ node :: B))
    (hleft : (m.node node).left = none)
    (hp : p ∉ A ++ node :: B) (hf : (A ++ node :: B).length ≤ fuel)
    (hsz : (A ++ node :: B).length < 2 ^ 64) :
    ∃ m', avl_insert_before fuel m (some node) p = some m' ∧
      avl_ok m' (A ++ p :: node :: B) := by
  obtain ⟨t, htop, hrep, hin, hnd, hthr, hhead, htail⟩ := h
  obtain ⟨t', htop', hrep', hin', hbal, hdep⟩ := hok
  have et : t' = t := rep_unique hrep' hrep (htop'.symm.trans htop)
  subst et
  have hht := bal_height_lt hbal (by rw [hin]; exact hsz)
  obtain ⟨c, l, r, rfl⟩ := exists_plug (show node ∈ t'.inorder by rw [hin]; simp)
  obtain ⟨⟨h1, h2, h3, h4, h5⟩, hc⟩ := (rep_plug c _).mp ⟨hrep, htop⟩
  have hl : l = tr.nil := root_eq_none (h2.symm.trans hleft)
  subst hl
  obtain ⟨⟨_, _, gdr⟩, ⟨gb1, gb2, _, gbr⟩, gc⟩ := good_plug c _ hdep hbal
  have hT : A ++ node :: B = cleft c ++ node :: (r.inorder ++ cright c) := by
    rw [← hin, plug_inorder]; simp [tr.inorder]
  obtain ⟨hA, hB⟩ := split_unique hnd hT
  subst hA hB
  have hlen := plug_length c (tr.node tr.nil node r)
  rw [hin] at hlen
  have hcT : ∀ j, (cleft c).count j + [p].count j + [node].count j +
      (r.inorder ++ cright c).count j ≤ 1 := by
    intro j
    have h1 := List.nodup_iff_count_le_one.mp
      (List.nodup_middle.mpr (List.nodup_cons.mpr ⟨hp, hnd⟩)) j
    simp only [List.count_append, List.count_cons, List.count_nil] at h1 ⊢
    omega
  have hcnt : ∀ j,
      [p].count j + [node].count j + r.inorder.count j + (ckeys c).count j ≤ 1 := by
    intro j
    have := hcT j
    have := ckeys_count c j
    simp only [List.count_append] at *
    omega
  have hne : node ≠ p := by
    have := hcT node; have := cnt_self node; exact ne_of_cnt (by omega)
  obtain ⟨m0, e, fl, fr, fp, ftop, fd⟩ := insert_before_fields_depth fuel hne hleft
  have hpn : p ≠ node := hne.symm
  have a1 : rep m0 (tr.node tr.nil p tr.nil) (some node) := by
    refine ⟨?_, ?_, ?_, trivial, trivial⟩
    · rw [fp p, if_pos rfl]
    · rw [fl p, if_neg hpn, if_pos rfl]; rfl
    · rw [fr p, if_pos rfl]; rfl
  have other : ∀ j, j ≠ p → j ≠ node → (m0.node j).left = (m.node j).left ∧
      (m0.node j).right = (m.node j).right ∧ (m0.node j).parent = (m.node j).parent := by
    intro j e1 e2
    rw [fl j, fr j, fp j, if_neg e2, if_neg e1, if_neg e1, if_neg e1]
    exact ⟨rfl, rfl, rfl⟩
  have a2 : rep m0 r (some node) := by
    refine rep_congr h5 (nodup_of_cnt fun j => by have := hcnt j; omega) (fun j hj => ?_)
    have := cnt_mem hj; have := hcnt j
    exact other j (ne_of_cnt (by omega)) (ne_of_cnt (by omega))
  have a3 : (m0.node node).left = (tr.node tr.nil p tr.nil).root := by
    rw [fl node, if_pos rfl]; rfl
  have a4 : (m0.node node).right = r.root := by
    rw [fr node, if_neg hne, h3]
  have a5 : (m0.node node).parent = cpar c := by
    rw [fp node, if_neg hne, h1]
  have a6 : crep m0 c (some node) := by
    refine crep_congr hc (nodup_of_cnt fun j => by have := hcnt j; omega) (fun j hj => ?_) ftop
    have := cnt_mem hj; have := hcnt j
    exact other j (ne_of_cnt (by omega)) (ne_of_cnt (by omega))
  have a7 : ((tr.node tr.nil p tr.nil).inorder ++ ckeys (frm.L node r :: c)).Nodup := by
    refine nodup_of_cnt fun j => ?_
    have := hcnt j
    simp only [tr.inorder, ckeys, List.count_append, List.count_cons, List.count_nil] at this ⊢
    omega
  have a8 : (frm.L node r :: c).length ≤ fuel := by
    have := ckeys_length c
    simp only [tr.inorder, List.length_append, List.length_cons, List.length_nil] at hlen hf ⊢
    omega
  have dsame : ∀ j, j ≠ p → (m0.node j).depth = (m.node j).depth := fun j hj => by
    rw [fd j, if_neg hj]
  have d1 : dep m0 (tr.node tr.nil p tr.nil) := by
    refine ⟨?_, trivial, trivial⟩
    rw [fd p, if_pos rfl]
    rfl
  have d2 : dep m0 r := dep_congr gdr (fun j hj => dsame j (by
    have := cnt_mem hj; have := hcnt j; exact ne_of_cnt (by omega)))
  have d3 : cgood m0 c (max 0 r.height + 1) := cgood_congr gc (fun j hj => dsame j (by
    have := cnt_mem hj; have := hcnt j; exact ne_of_cnt (by omega)))
  have hhp := height_plug c (tr.node tr.nil node r)
  have hb : cheight (frm.L node r :: c) 0 + 1 < 256 := by
    show cheight c (max 0 r.height + 1) + 1 < 256
    have e0 : (tr.node tr.nil node r).height = max 0 r.height + 1 := rfl
    rw [e0] at hhp
    omega
  have gb2' : r.height ≤ 0 + 1 := gb2
  obtain ⟨m1, t1, e1, r1, r2, r3, r4, r5, r6⟩ :=
    avl_rebalance_bal (frm.L node r :: c) (t := tr.node tr.nil p tr.nil) fuel 0 a1
      ⟨a3, a4, a5, a2, a6⟩ a7 a8 d1
      ⟨by simp [tr.height], by simp [tr.height], trivial, trivial⟩
      ⟨d2, gbr, by omega, gb2', d3⟩ (by simp [tr.height]) (by omega) hb
  refine ⟨m1, e.trans e1, t1, r1, r2, ?_, r6, r5⟩
  rw [r3]
  show (plug c (tr.node (tr.node tr.nil p tr.nil) node r)).inorder = _
  rw [plug_inorder]; simp [tr.inorder]

/-- The tree stays balanced with correct depths under `avl_insert_after`. -/
theorem avl_insert_after_bal {m : avl_mem α} {A B : List Nat} {node p : Nat} {fuel : Nat}
    (h : tree_list m (A ++ node :: B)) (hok : avl_ok m (A ++ node :: B))
    (hright : (m.node node).right = none)
    (hp : p ∉ A ++ node :: B) (hf : (A ++ node :: B).length ≤ fuel)
    (hsz : (A ++ node :: B).length < 2 ^ 64) :
    ∃ m', avl_insert_after fuel m (some node) p = some m' ∧
      avl_ok m' (A ++ node :: p :: B) := by
  obtain ⟨t, htop, hrep, hin, hnd, hthr, hhead, htail⟩ := h
  obtain ⟨t', htop', hrep', hin', hbal, hdep⟩ := hok
  have et : t' = t := rep_unique hrep' hrep (htop'.symm.trans htop)
  subst et
  have hht := bal_height_lt hbal (by rw [hin]; exact hsz)
  obtain ⟨c, l, r, rfl⟩ := exists_plug (show node ∈ t'.inorder by rw [hin]; simp)
  obtain ⟨⟨h1, h2, h3, h4, h5⟩, hc⟩ := (rep_plug c _).mp ⟨hrep, htop⟩
  have hr : r = tr.nil := root_eq_none (h3.symm.trans hright)
  subst hr
  obtain ⟨⟨_, gdl, _⟩, ⟨gb1, gb2, gbl, _⟩, gc⟩ := good_plug c _ hdep hbal
  have hT : A ++ node :: B = (cleft c ++ l.inorder) ++ node :: cright c := by
    rw [← hin, plug_inorder]; simp [tr.inorder]
  obtain ⟨hA, hB⟩ := split_unique hnd hT
  subst hA hB
  have hlen := plug_length c (tr.node l node tr.nil)
  rw [hin] at hlen
  have hcT : ∀ j, (cleft c ++ l.inorder).count j + [node].count j + [p].count j +
      (cright c).count j ≤ 1 := by
    intro j
    have h1 := List.nodup_iff_count_le_one.mp
      (List.nodup_middle.mpr (List.nodup_cons.mpr ⟨hp, hnd⟩)) j
    simp only [List.count_append, List.count_cons, List.count_nil] at h1 ⊢
    omega
  have hcnt : ∀ j,
      [p].count j + [node].count j + l.inorder.count j + (ckeys c).count j ≤ 1 := by
    intro j
    have := hcT j
    have := ckeys_count c j
    simp only [List.count_append] at *
    omega
  have hne : node ≠ p := by
    have := hcT node; have := cnt_self node; exact ne_of_cnt (by omega)
  obtain ⟨m0, e, fr, fl, fp, ftop, fd⟩ := insert_after_fields_depth fuel hne hright
  have hpn : p ≠ node := hne.symm
  have a1 : rep m0 (tr.node tr.nil p tr.nil) (some node) := by
    refine ⟨?_, ?_, ?_, trivial, trivial⟩
    · rw [fp p, if_pos rfl]
    · rw [fl p, if_pos rfl]; rfl
    · rw [fr p, if_neg hpn, if_pos rfl]; rfl
  have other : ∀ j, j ≠ p → j ≠ node → (m0.node j).left = (m.node j).left ∧
      (m0.node j).right = (m.node j).right ∧ (m0.node j).parent = (m.node j).parent := by
    intro j e1 e2
    rw [fl j, fr j, fp j, if_neg e2, if_neg e1, if_neg e1, if_neg e1]
    exact ⟨rfl, rfl, rfl⟩
  have a2 : rep m0 l (some node) := by
    refine rep_congr h4 (nodup_of_cnt fun j => by have := hcnt j; omega) (fun j hj => ?_)
    have := cnt_mem hj; have := hcnt j
    exact other j (ne_of_cnt (by omega)) (ne_of_cnt (by omega))
  have a3 : (m0.node node).right = (tr.node tr.nil p tr.nil).root := by
    rw [fr node, if_pos rfl]; rfl
  have a4 : (m0.node node).left = l.root := by
    rw [fl node, if_neg hne, h2]
  have a5 : (m0.node node).parent = cpar c := by
    rw [fp node, if_neg hne, h1]
  have a6 : crep m0 c (some node) := by
    refine crep_congr hc (nodup_of_cnt fun j => by have := hcnt j; omega) (fun j hj => ?_) ftop
    have := cnt_mem hj; have := hcnt j
    exact other j (ne_of_cnt (by omega)) (ne_of_cnt (by omega))
  have a7 : ((tr.node tr.nil p tr.nil).inorder ++ ckeys (frm.R l node :: c)).Nodup := by
    refine nodup_of_cnt fun j => ?_
    have := hcnt j
    simp only [tr.inorder, ckeys, List.count_append, List.count_cons, List.count_nil] at this ⊢
    omega
  have a8 : (frm.R l node :: c).length ≤ fuel := by
    have := ckeys_length c
    simp only [tr.inorder, List.length_append, List.length_cons, List.length_nil] at hlen hf ⊢
    omega
  have dsame : ∀ j, j ≠ p → (m0.node j).depth = (m.node j).depth := fun j hj => by
    rw [fd j, if_neg hj]
  have d1 : dep m0 (tr.node tr.nil p tr.nil) := by
    refine ⟨?_, trivial, trivial⟩
    rw [fd p, if_pos rfl]
    rfl
  have d2 : dep m0 l := dep_congr gdl (fun j hj => dsame j (by
    have := cnt_mem hj; have := hcnt j; exact ne_of_cnt (by omega)))
  have d3 : cgood m0 c (max l.height 0 + 1) := cgood_congr gc (fun j hj => dsame j (by
    have := cnt_mem hj; have := hcnt j; exact ne_of_cnt (by omega)))
  have hhp := height_plug c (tr.node l node tr.nil)
  have hb : cheight (frm.R l node :: c) 0 + 1 < 256 := by
    show cheight c (max l.height 0 + 1) + 1 < 256
    have e0 : (tr.node l node tr.nil).height = max l.height 0 + 1 := rfl
    rw [e0] at hhp
    omega
  have gb1' : l.height ≤ 0 + 1 := gb1
  obtain ⟨m1, t1, e1, r1, r2, r3, r4, r5, r6⟩ :=
    avl_rebalance_bal (frm.R l node :: c) (t := tr.node tr.nil p tr.nil) fuel 0 a1
      ⟨a3, a4, a5, a2, a6⟩ a7 a8 d1
      ⟨by simp [tr.height], by simp [tr.height], trivial, trivial⟩
      ⟨d2, gbl, by omega, gb1', d3⟩ (by simp [tr.height]) (by omega) hb
  refine ⟨m1, e.trans e1, t1, r1, r2, ?_, r6, r5⟩
  rw [r3]
  show (plug c (tr.node l node (tr.node tr.nil p tr.nil))).inorder = _
  rw [plug_inorder]; simp [tr.inorder]

theorem unlink_fields_a_depth {m : avl_mem α} {k : Nat} (fuel : Nat)
    (hleft : (m.node k).left = none) :
    ∃ m0 isL, avl_unlink_node fuel m k = avl_rebalance fuel m0 (m.node k).parent ∧
      side m (m.node k).parent k isL ∧
      (∀ j, (m0.node j).left =
        if (m.node k).parent = some j ∧ isL = true then (m.node k).right
        else (m.node j).left) ∧
      (∀ j, (m0.node j).right =
        if (m.node k).parent = some j ∧ isL = false then (m.node k).right
        else (m.node j).right) ∧
      (∀ j, (m0.node j).parent =
        if (m.node k).right = some j then (m.node k).parent else (m.node j).parent) ∧
      m0.tree.top = (if (m.node k).parent = none then (m.node k).right else m.tree.top) ∧
      ∀ j, (m0.node j).depth = (m.node j).depth := by
  rcases hpar : (m.node k).parent with _ | par
  · rcases hprev : (m.node k).prev with _ | pv <;> rcases hnext : (m.node k).next with _ | nx <;>
    · simp only [avl_unlink_node, hprev, hnext, hpar, hleft, avl_next_setNext, avl_prev_setNext,
        avl_parent_setNext, avl_left_setNext, avl_right_setNext, avl_next_setPrev,
        avl_prev_setPrev, avl_parent_setPrev, avl_left_setPrev, avl_right_setPrev, ite_self]
      exact ⟨_, false, rfl, by intro p hp; simp at hp,
        fun j => by simp, fun j => by simp, fun j => by simp, by simp, fun j => by simp⟩
  · rcases hprev : (m.node k).prev with _ | pv <;> rcases hnext : (m.node k).next with _ | nx <;>
    · simp only [avl_unlink_node, hprev, hnext, hpar, hleft, avl_next_setNext, avl_prev_setNext,
        avl_parent_setNext, avl_left_setNext, avl_right_setNext, avl_next_setPrev,
        avl_prev_setPrev, avl_parent_setPrev, avl_left_setPrev, avl_right_setPrev, ite_self]
      exact ⟨_, decide ((m.node par).left = some k), rfl,
        by intro q hq; simp only [Option.some.injEq] at hq; subst hq; simp,
        fun j => by simp, fun j => by simp, fun j => by simp, by simp, fun j => by simp⟩

theorem unlink_fields_b_depth {m : avl_mem α} {k l : Nat} (fuel : Nat)
    (hleft : (m.node k).left = some l) (hright : (m.node k).right = none) :
    ∃ m0 isL, avl_unlink_node fuel m k = avl_rebalance fuel m0 (m.node k).parent ∧
      side m (m.node k).parent k isL ∧
      (∀ j, (m0.node j).left =
        if (m.node k).parent = some j ∧ isL = true then some l else (m.node j).left) ∧
      (∀ j, (m0.node j).right =
        if (m.node k).parent = some j ∧ isL = false then some l else (m.node j).right) ∧
      (∀ j, (m0.node j).parent = if j = l then (m.node k).parent else (m.node j).parent) ∧
      m0.tree.top = (if (m.node k).parent = none then some l else m.tree.top) ∧
      ∀ j, (m0.node j).depth = (m.node j).depth := by
  rcases hpar : (m.node k).parent with _ | par
  · rcases hprev : (m.node k).prev with _ | pv <;> rcases hnext : (m.node k).next with _ | nx <;>
    · simp only [avl_unlink_node, hprev, hnext, hpar, hleft, hright, avl_next_setNext,
        avl_prev_setNext,
        avl_parent_setNext, avl_left_setNext, avl_right_setNext, avl_next_setPrev,
        avl_prev_setPrev, avl_parent_setPrev, avl_left_setPrev, avl_right_setPrev, ite_self]
      exact ⟨_, false, rfl,
        by intro p hp; simp at hp,
        fun j => by simp, fun j => by simp, fun j => by simp, by simp, fun j => by simp⟩
  · rcases hprev : (m.node k).prev with _ | pv <;> rcases hnext : (m.node k).next with _ | nx <;>
    · simp only [avl_unlink_node, hprev, hnext, hpar, hleft, hright, avl_next_setNext,
        avl_prev_setNext,
        avl_parent_setNext, avl_left_setNext, avl_right_setNext, avl_next_setPrev,
        avl_prev_setPrev, avl_parent_setPrev, avl_left_setPrev, avl_right_setPrev, ite_self]
      exact ⟨_, decide ((m.node par).left = some k), rfl,
        by intro q hq; simp only [Option.some.injEq] at hq; subst hq; simp,
        fun j => by simp, fun j => by simp, fun j => by simp, by simp, fun j => by simp⟩

theorem unlink_fields_c_depth {m : avl_mem α} {k l r : Nat} (fuel : Nat)
    (hleft : (m.node k).left = some l) (hright : (m.node k).right = some r)
    (hprev : (m.node k).prev = some l) :
    ∃ m0 isL, avl_unlink_node fuel m k = avl_rebalance fuel m0 (some l) ∧
      side m (m.node k).parent k isL ∧
      (∀ j, (m0.node j).left =
        if (m.node k).parent = some j ∧ isL = true then some l else (m.node j).left) ∧
      (∀ j, (m0.node j).right =
        if (m.node k).parent = some j ∧ isL = false then some l
        else if j = l then some r else (m.node j).right) ∧
      (∀ j, (m0.node j).parent = if j = r then some l
        else if j = l then (m.node k).parent else (m.node j).parent) ∧
      m0.tree.top = (if (m.node k).parent = none then some l else m.tree.top) ∧
      ∀ j, (m0.node j).depth = (m.node j).depth := by
  rcases hpar : (m.node k).parent with _ | par
  · rcases hnext : (m.node k).next with _ | nx <;>
    · simp only [avl_unlink_node, hprev, hnext, hpar, hleft, hright, if_true, avl_next_setNext,
        avl_prev_setNext,
        avl_parent_setNext, avl_left_setNext, avl_right_setNext, avl_next_setPrev,
        avl_prev_setPrev, avl_parent_setPrev, avl_left_setPrev, avl_right_setPrev, ite_self]
      exact ⟨_, false, rfl,
        by intro p hp; simp at hp,
        fun j => by simp, fun j => by simp, fun j => by simp, by simp, fun j => by simp⟩
  · rcases hnext : (m.node k).next with _ | nx <;>
    · simp only [avl_unlink_node, hprev, hnext, hpar, hleft, hright, if_true, avl_next_setNext,
        avl_prev_setNext,
        avl_parent_setNext, avl_left_setNext, avl_right_setNext, avl_next_setPrev,
        avl_prev_setPrev, avl_parent_setPrev, avl_left_setPrev, avl_right_setPrev, ite_self]
      exact ⟨_, decide ((m.node par).left = some k), rfl,
        by intro q hq; simp only [Option.some.injEq] at hq; subst hq; simp,
        fun j => by simp, fun j => by simp, fun j => by simp, by simp, fun j => by simp⟩

theorem unlink_fields_d_depth {m : avl_mem α} {k l r s bal : Nat} (fuel : Nat)
    (hleft : (m.node k).left = some l) (hright : (m.node k).right = some r)
    (hprev : (m.node k).prev = some s) (hsl : s ≠ l) (hsp : (m.node s).parent = some bal) :
    ∃ m0 isL, avl_unlink_node fuel m k = avl_rebalance fuel m0 (some bal) ∧
      side m (m.node k).parent k isL ∧
      (∀ j, (m0.node j).left =
        if (m.node k).parent = some j ∧ isL = true then some s
        else if j = s then some l else (m.node j).left) ∧
      (∀ j, (m0.node j).right =
        if (m.node k).parent = some j ∧ isL = false then some s
        else if j = s then some r
        else if j = bal then (m.node s).left else (m.node j).right) ∧
      (∀ j, (m0.node j).parent = if j = r then some s
        else if j = s then (m.node k).parent else if j = l then some s
        else if (m.node s).left = some j then some bal else (m.node j).parent) ∧
      m0.tree.top = (if (m.node k).parent = none then some s else m.tree.top) ∧
      ∀ j, (m0.node j).depth = (m.node j).depth := by
  rcases hpar : (m.node k).parent with _ | par
  · rcases hnext : (m.node k).next with _ | nx <;>
    · simp only [avl_unlink_node, hprev, hnext, hpar, hleft, hright, hsl, if_false, hsp,
        avl_next_setNext,
        avl_prev_setNext, avl_parent_setNext, avl_left_setNext, avl_right_setNext,
        avl_next_setPrev,
        avl_prev_setPrev, avl_parent_setPrev, avl_left_setPrev, avl_right_setPrev, ite_self]
      exact ⟨_, false, rfl,
        by intro p hp; simp at hp,
        fun j => by simp, fun j => by simp, fun j => by simp, by simp, fun j => by simp⟩
  · rcases hnext : (m.node k).next with _ | nx <;>
    · simp only [avl_unlink_node, hprev, hnext, hpar, hleft, hright, hsl, if_false, hsp,
        avl_next_setNext,
        avl_prev_setNext, avl_parent_setNext, avl_left_setNext, avl_right_setNext,
        avl_next_setPrev,
        avl_prev_setPrev, avl_parent_setPrev, avl_left_setPrev, avl_right_setPrev, ite_self]
      exact ⟨_, decide ((m.node par).left = some k), rfl,
        by intro q hq; simp only [Option.some.injEq] at hq; subst hq; simp,
        fun j => by simp, fun j => by simp, fun j => by simp, by simp, fun j => by simp⟩

/-- The tree stays balanced with correct depths under `avl_unlink_node`. -/
theorem avl_unlink_node_bal {m : avl_mem α} {A B : List Nat} {k : Nat} {fuel : Nat}
    (h : tree_list m (A ++ k :: B)) (hok : avl_ok m (A ++ k :: B))
    (hf : (A ++ k :: B).length ≤ fuel) (hsz : (A ++ k :: B).length < 2 ^ 64) :
    ∃ m', avl_unlink_node fuel m k = some m' ∧ avl_ok m' (A ++ B) := by
  obtain ⟨t, htop, hrep, hin, hnd, hthr, hhead, htail⟩ := h
  obtain ⟨t', htop', hrep', hin', hbal, hdep⟩ := hok
  have et : t' = t := rep_unique hrep' hrep (htop'.symm.trans htop)
  subst et
  have hht := bal_height_lt hbal (by rw [hin]; exact hsz)
  obtain ⟨c, l, r, rfl⟩ := exists_plug (show k ∈ t'.inorder by rw [hin]; simp)
  obtain ⟨⟨h1, h2, h3, h4, h5⟩, hc⟩ := (rep_plug c _).mp ⟨hrep, htop⟩
  have hT : A ++ k :: B = (cleft c ++ l.inorder) ++ k :: (r.inorder ++ cright c) := by
    rw [← hin, plug_inorder]; simp [tr.inorder]
  obtain ⟨hA, hB⟩ := split_unique hnd hT
  subst hA hB
  have hlen := plug_length c (tr.node l k r)
  rw [hin] at hlen
  simp only [tr.inorder, List.length_append, List.length_cons] at hlen hf
  have hclen := ckeys_length c
  have hcnt : ∀ j, l.inorder.count j + [k].count j + r.inorder.count j +
      (ckeys c).count j ≤ 1 := by
    intro j
    have h1 := List.nodup_iff_count_le_one.mp hnd j
    have := ckeys_count c j
    simp only [List.count_append, List.count_cons, List.count_nil] at h1 ⊢
    omega
  have hprev : (m.node k).prev = lastOr (cleft c ++ l.inorder) none :=
    ((thr_append _ _ _ _).mp hthr).2.1
  by_cases hl : l = tr.nil
  · -- no left subtree
    subst hl
    obtain ⟨⟨_, _, gdr⟩, ⟨gb1, gb2, _, gbr⟩, gc⟩ := good_plug c _ hdep hbal
    have hhp := height_plug c (tr.node tr.nil k r)
    have e0 : (tr.node tr.nil k r).height = max 0 r.height + 1 := rfl
    rw [e0] at hhp gc
    have gb2' : r.height ≤ 0 + 1 := gb2
    obtain ⟨m0, isL, e, hs, fl, fr, fp, ft, fd⟩ := unlink_fields_a_depth fuel (h2.trans rfl)
    simp only [h1, h3] at e hs fl fr fp ft
    obtain ⟨q1, q2⟩ := unlink_child h5 hc
      (nodup_of_cnt fun j => by
        have := hcnt j
        simp only [tr.inorder, List.count_append, List.count_cons, List.count_nil] at this ⊢
        omega) hs fl fr fp ft
    obtain ⟨m1, t1, e1, r1, r2, r3, r4, r5, r6⟩ :=
      avl_rebalance_bal c fuel (max 0 r.height + 1) q1 q2
        (nodup_of_cnt fun j => by
          have := hcnt j
          simp only [List.count_append] at this ⊢
          omega) (by omega) (dep_congr gdr (fun j _ => fd j)) gbr
        (cgood_congr gc (fun j _ => fd j)) (by omega) (by omega) (by omega)
    exact ⟨m1, e.trans e1, t1, r1, r2, by rw [r3, plug_inorder]; simp [tr.inorder], r6, r5⟩
  · by_cases hr : r = tr.nil
    · -- no right subtree
      subst hr
      obtain ⟨⟨_, gdl, _⟩, ⟨gb1, gb2, gbl, _⟩, gc⟩ := good_plug c _ hdep hbal
      have hhp := height_plug c (tr.node l k tr.nil)
      have e0 : (tr.node l k tr.nil).height = max l.height 0 + 1 := rfl
      rw [e0] at hhp gc
      have gb1' : l.height ≤ 0 + 1 := gb1
      obtain ⟨lk, hlk⟩ := root_of_ne_nil hl
      obtain ⟨m0, isL, e, hs, fl, fr, fp, ft, fd⟩ :=
        unlink_fields_b_depth fuel (h2.trans hlk) (h3.trans rfl)
      simp only [h1] at e hs fl fr fp ft
      obtain ⟨q1, q2⟩ := unlink_child (u := l) h4 hc
        (nodup_of_cnt fun j => by
          have := hcnt j
          simp only [tr.inorder, List.count_append, List.count_cons, List.count_nil] at this ⊢
          omega) hs (by rw [hlk]; exact fl) (by rw [hlk]; exact fr)
        (fun j => by
          rw [fp j, hlk]
          simp only [Option.some.injEq]
          exact if_congr eq_comm rfl rfl) (by rw [hlk]; exact ft)
      obtain ⟨m1, t1, e1, r1, r2, r3, r4, r5, r6⟩ :=
        avl_rebalance_bal c fuel (max l.height 0 + 1) q1 q2
          (nodup_of_cnt fun j => by
            have := hcnt j
            simp only [List.count_append] at this ⊢
            omega) (by omega) (dep_congr gdl (fun j _ => fd j)) gbl
          (cgood_congr gc (fun j _ => fd j)) (by omega) (by omega) (by omega)
      exact ⟨m1, e.trans e1, t1, r1, r2, by rw [r3, plug_inorder]; simp [tr.inorder], r6, r5⟩
    · -- two subtrees
      obtain ⟨rk, hrk⟩ := root_of_ne_nil hr
      obtain ⟨c2, a, s, rfl, hrs⟩ := exists_rightmost l hl
      have hcr := cright_of_rspine hrs
      have hps : (m.node k).prev = some s := by
        rw [hprev, plug_inorder, hcr]
        simp only [tr.inorder, List.append_nil]
        rw [← List.append_assoc, ← List.append_assoc, lastOr_concat]
      have hplug : plug c (tr.node (plug c2 (tr.node a s tr.nil)) k r) =
          plug (c2 ++ frm.L k r :: c) (tr.node a s tr.nil) := by
        rw [plug_append]; rfl
      rw [hplug] at hrep htop hdep hbal hht
      obtain ⟨⟨s1, s2, s3, s4, _⟩, hcc⟩ := (rep_plug _ _).mp ⟨hrep, htop⟩
      obtain ⟨⟨_, gda, _⟩, ⟨gb1, gb2, gba, _⟩, gc⟩ := good_plug _ _ hdep hbal
      have hhp := height_plug (c2 ++ frm.L k r :: c) (tr.node a s tr.nil)
      have e0 : (tr.node a s tr.nil).height = max a.height 0 + 1 := rfl
      rw [e0] at hhp gc
      have gb1' : a.height ≤ 0 + 1 := gb1
      have hcnt2 : ∀ j, a.inorder.count j + [s].count j + (ckeys c2).count j + [k].count j +
          r.inorder.count j + (ckeys c).count j ≤ 1 := by
        intro j
        have h1 := hcnt j
        have h2 := (plug_perm c2 (tr.node a s tr.nil)).count_eq j
        simp only [tr.inorder, List.count_append, List.count_cons, List.count_nil] at h1 h2 ⊢
        omega
      have hlen2 := plug_length c2 (tr.node a s tr.nil)
      simp only [tr.inorder, List.length_append, List.length_cons, List.length_nil] at hlen2
      cases c2 with
      | nil =>
        obtain ⟨m0, isL, e, hs, fl, fr, fp, ft, fd⟩ :=
          unlink_fields_c_depth fuel (h2.trans rfl) (h3.trans hrk) hps
        simp only [h1] at e hs fl fr fp ft
        obtain ⟨q1, q2, q3, q4, q5, q6⟩ := unlink_c1 s4 h5 s2 hc hrk
          (fun j => by
            have := hcnt2 j
            simp only [ckeys, List.count_nil] at this
            omega) hs fl fr fp ft
        have gc' : cgood m (frm.L s r :: c) (max a.height 0 + 1) := gc
        obtain ⟨m1, t1, e1, r1, r2, r3, r4, r5, r6⟩ :=
          avl_rebalance_bal (frm.L s r :: c) (t := a) fuel (max a.height 0 + 1) q1
            ⟨q3, q4, q5, q2, q6⟩
            (nodup_of_cnt fun j => by
              have := hcnt2 j
              simp only [tr.inorder, ckeys, List.count_append, List.count_cons,
                List.count_nil] at this ⊢
              omega)
            (by
              simp only [plug, tr.inorder, List.length_cons] at hlen ⊢
              omega)
            (dep_congr gda (fun j _ => fd j)) gba
            (cgood_congr gc' (fun j _ => fd j)) (by omega) (by omega)
            (by
              have g1 := height_plug (frm.L k r :: c) (tr.node a s tr.nil)
              have g2 : (plug (frm.L k r :: c) (tr.node a s tr.nil)).height < 130 := hht
              show cheight (frm.L k r :: c) ((tr.node a s tr.nil).height) + 1 < 256
              omega)
        refine ⟨m1, e.trans e1, t1, r1, r2, ?_, r6, r5⟩
        rw [r3]
        show (plug c (tr.node a s r)).inorder = _
        rw [plug_inorder]; simp [tr.inorder, plug]
      | cons f c2 =>
        cases f with
        | L x xr => exact hrs.elim
        | R lb bal =>
          obtain ⟨b1, b2, b3, b4, b5⟩ := hcc
          obtain ⟨lk, hlk⟩ := ctop_some c2 bal
          have hleft : (m.node k).left = some lk := by
            rw [h2, plug_root]
            exact hlk
          have hcnt3 : ∀ j, (ckeys c2).count j + lb.inorder.count j + [bal].count j +
              a.inorder.count j + [s].count j + [k].count j + r.inorder.count j +
              (ckeys c).count j ≤ 1 := by
            intro j
            have := hcnt2 j
            simp only [ckeys, List.count_append, List.count_cons, List.count_nil] at this ⊢
            omega
          have hsl : s ≠ lk := by
            intro e
            have := hcnt3 s
            have := cnt_self s
            cases c2 with
            | nil =>
              simp only [ctop, Option.some.injEq] at hlk
              rw [← e] at hlk
              subst hlk
              omega
            | cons f c3 =>
              obtain ⟨y, y1, y2⟩ := @ctop_mem (f :: c3) (by simp) (some bal)
              have e' : some y = some s := y1.symm.trans (hlk.trans (by rw [e]))
              simp only [Option.some.injEq] at e'
              subst e'
              have := cnt_mem y2
              omega
          obtain ⟨m0, isL, e, hs, fl, fr, fp, ft, fd⟩ :=
            unlink_fields_d_depth fuel hleft (h3.trans hrk) hps hsl s1
          simp only [h1] at e hs fl fr fp ft
          obtain ⟨q1, q2, q3, q4, q5, q6⟩ :=
            unlink_c2 (by exact hrs) s4 b4 h5 s2 b2 b3 b5 hc hlk
            hrk hcnt3 hs fl fr fp ft
          have hlenc := ckeys_length (c2 ++ frm.L s r :: c)
          have gc' : cgood m (frm.R lb bal :: (c2 ++ frm.L s r :: c)) (max a.height 0 + 1) :=
            cgood_key k s r c (frm.R lb bal :: c2) _ gc
          have hhp' : cheight (frm.R lb bal :: (c2 ++ frm.L s r :: c)) (max a.height 0 + 1) =
              cheight (frm.R lb bal :: c2 ++ frm.L k r :: c) (max a.height 0 + 1) :=
            (cheight_key k s r c (frm.R lb bal :: c2) _).symm
          have hndd : (a.inorder ++ ckeys (frm.R lb bal :: (c2 ++ frm.L s r :: c))).Nodup := by
            refine nodup_of_cnt fun j => ?_
            have := hcnt3 j
            simp only [tr.inorder, ckeys, ckeys_append, List.count_append,
              List.count_cons, List.count_nil] at this ⊢
            omega
          have hfl : (frm.R lb bal :: (c2 ++ frm.L s r :: c)).length ≤ fuel := by
            have g1 := ckeys_length c2
            have g2 := ckeys_length_eq c
            simp only [ckeys, List.length_append, List.length_cons] at hlen2
            simp only [List.length_append, List.length_cons]
            omega
          have hbb : cheight (frm.R lb bal :: (c2 ++ frm.L s r :: c)) (max a.height 0 + 1) + 1
              < 256 := by
            rw [hhp']; omega
          obtain ⟨m1, t1, e1, r1, r2, r3, r4, r5, r6⟩ :=
            avl_rebalance_bal (frm.R lb bal :: (c2 ++ frm.L s r :: c)) (t := a) fuel
              (max a.height 0 + 1) q2 ⟨q4, q3, q5, q1, q6⟩ hndd hfl
              (dep_congr gda (fun j _ => fd j)) gba
              (cgood_congr gc' (fun j _ => fd j)) (by omega) (by omega) hbb
          refine ⟨m1, e.trans e1, t1, r1, r2, ?_, r6, r5⟩
          have hcr2 : cright c2 = [] := cright_of_rspine hrs
          rw [r3]
          show (plug (c2 ++ frm.L s r :: c) (tr.node lb bal a)).inorder = _
          rw [plug_inorder, plug_inorder, cleft_append, cright_append, hcr2]
          simp [tr.inorder, cleft, cright, hcr2]

theorem avl_ok_local {m : avl_mem α} {T : List Nat} (h : avl_ok m T) : depth_local m T := by
  obtain ⟨t, _, hrep, hin, hbal, hdep⟩ := h
  intro k hk
  exact dep_local hrep hdep hbal k (by rw [hin]; exact hk)

theorem avl_one_ok : avl_ok avl_one [1] :=
  ⟨tr.node tr.nil 1 tr.nil, rfl,
    by simp [rep, avl_one, avl_insert_top, avl_mem.setNode, tr.root], rfl,
    ⟨by decide, by decide, trivial, trivial⟩,
    ⟨by simp [avl_one, avl_insert_top, avl_mem.setNode, avl_clear_node, tr.height],
      trivial, trivial⟩⟩

/-- C21: if the tree is height-balanced and every stored `depth` is the true
height of the node, then after `avl_insert_before` or `avl_insert_after` at an
anchor with no child on that side, and after `avl_unlink_node`, the same holds
again: at every node the heights of the two subtrees differ by at most one and
`depth` is one more than the larger depth of the children. -/
theorem avl_balance_preserved {m : avl_mem α} {A B : List Nat} {node : Nat} {fuel : Nat}
    (h : tree_list m (A ++ node :: B)) (hok : avl_ok m (A ++ node :: B))
    (hf : (A ++ node :: B).length ≤ fuel) (hsz : (A ++ node :: B).length < 2 ^ 64) :
    (∀ p, p ∉ A ++ node :: B → (m.node node).left = none →
      ∃ m', avl_insert_before fuel m (some node) p = some m' ∧
        avl_ok m' (A ++ p :: node :: B) ∧ depth_local m' (A ++ p :: node :: B)) ∧
    (∀ p, p ∉ A ++ node :: B → (m.node node).right = none →
      ∃ m', avl_insert_after fuel m (some node) p = some m' ∧
        avl_ok m' (A ++ node :: p :: B) ∧ depth_local m' (A ++ node :: p :: B)) ∧
    ∃ m', avl_unlink_node fuel m node = some m' ∧ avl_ok m' (A ++ B) ∧
      depth_local m' (A ++ B) := by
  refine ⟨fun p hp hl => ?_, fun p hp hr => ?_, ?_⟩
  · obtain ⟨m', e, ok⟩ := avl_insert_before_bal h hok hl hp hf hsz
    exact ⟨m', e, ok, avl_ok_local ok⟩
  · obtain ⟨m', e, ok⟩ := avl_insert_after_bal h hok hr hp hf hsz
    exact ⟨m', e, ok, avl_ok_local ok⟩
  · obtain ⟨m', e, ok⟩ := avl_unlink_node_bal h hok hf hsz
    exact ⟨m', e, ok, avl_ok_local ok⟩

theorem avl_balance_preserved_witness :
    (tree_list avl_one ([] ++ 1 :: []) ∧ avl_ok avl_one ([] ++ 1 :: []) ∧
      ([] ++ 1 :: [] : List Nat).length ≤ 4 ∧ ([] ++ 1 :: [] : List Nat).length < 2 ^ 64) ∧
    (∃ m', avl_insert_before 4 avl_one (some 1) 2 = some m' ∧
      avl_ok m' ([] ++ 2 :: 1 :: []) ∧ depth_local m' ([] ++ 2 :: 1 :: [])) ∧
    (∃ m', avl_insert_after 4 avl_one (some 1) 2 = some m' ∧
      avl_ok m' ([] ++ 1 :: 2 :: []) ∧ depth_local m' ([] ++ 1 :: 2 :: [])) ∧
    ∃ m', avl_unlink_node 4 avl_one 1 = some m' ∧ avl_ok m' ([] ++ []) ∧
      depth_local m' ([] ++ []) :=
  ⟨⟨(avl_insert_top_spec _ 1).1, avl_one_ok, by decide, by norm_num⟩,
    (@avl_balance_preserved Int avl_one [] [] 1 4 (avl_insert_top_spec _ 1).1 avl_one_ok
      (by decide) (by norm_num)).1 2 (by decide) rfl,
    (@avl_balance_preserved Int avl_one [] [] 1 4 (avl_insert_top_spec _ 1).1 avl_one_ok
      (by decide) (by norm_num)).2.1 2 (by decide) rfl,
    (@avl_balance_preserved Int avl_one [] [] 1 4 (avl_insert_top_spec _ 1).1 avl_one_ok
      (by decide) (by norm_num)).2.2⟩

end

/-! ## Contracts of the tree and list operations -/

section
set_option linter.unusedSectionVars false
variable {α : Type} [LinearOrderedCommRing α]

/-- The order of `compare_tree_asc` is transitive. -/
theorem compare_tree_asc_trans {x y z : Nat → α} (h1 : compare_tree_asc x y < 0)
    (h2 : compare_tree_asc y z < 0) : compare_tree_asc x z < 0 := by
  rw [compare_tree_asc_lt] at h1 h2 ⊢
  rcases h1 with h1 | ⟨a1, a2⟩
  · rcases h2 with h2 | ⟨b1, b2⟩
    · exact Or.inl (lt_trans h2 h1)
    · exact Or.inl (by rw [← b1]; exact h1)
  · rcases h2 with h2 | ⟨b1, b2⟩
    · exact Or.inl (by rw [a1]; exact h2)
    · exact Or.inr ⟨a1.trans b1, le_trans b2 a2⟩

theorem compare_tree_asc_pos {x y : Nat → α} (h : ¬ compare_tree_asc x y < 0) :
    0 < compare_tree_asc x y := by
  rcases compare_tree_asc_cases x y with e | e
  · rw [e] at h; exact absurd (by decide) h
  · rw [e]; decide

/-- C22: for a tree and an anchor node of it without left (right) child,
`avl_insert_before` (`avl_insert_after`) yields a tree whose in-order sequence
is the old one with the new node right before (after) the anchor. -/
theorem avl_insert_inorder {m : avl_mem α} {A B : List Nat} {node p : Nat} {fuel : Nat}
    (h : tree_list m (A ++ node :: B)) (hp : p ∉ A ++ node :: B)
    (hf : (A ++ node :: B).length ≤ fuel) :
    ((m.node node).left = none →
      ∃ m', avl_insert_before fuel m (some node) p = some m' ∧
        tree_list m' (A ++ p :: node :: B)) ∧
    ((m.node node).right = none →
      ∃ m', avl_insert_after fuel m (some node) p = some m' ∧
        tree_list m' (A ++ node :: p :: B)) := by
  refine ⟨fun hl => ?_, fun hr => ?_⟩
  · obtain ⟨m', e, ht, _⟩ := avl_insert_before_spec h hl hp hf
    exact ⟨m', e, ht⟩
  · obtain ⟨m', e, ht, _⟩ := avl_insert_after_spec h hr hp hf
    exact ⟨m', e, ht⟩

theorem avl_insert_inorder_witness :
    (tree_list avl_one ([] ++ 1 :: []) ∧ 2 ∉ ([] ++ 1 :: [] : List Nat) ∧
      ([] ++ 1 :: [] : List Nat).length ≤ 4) ∧
    (∃ m', avl_insert_before 4 avl_one (some 1) 2 = some m' ∧
      tree_list m' ([] ++ 2 :: 1 :: [])) ∧
    ∃ m', avl_insert_after 4 avl_one (some 1) 2 = some m' ∧
      tree_list m' ([] ++ 1 :: 2 :: []) :=
  ⟨⟨(avl_insert_top_spec _ 1).1, by decide, by decide⟩,
    (@avl_insert_inorder Int _ avl_one [] [] 1 2 4 (avl_insert_top_spec _ 1).1 (by decide)
      (by decide)).1 rfl,
    (@avl_insert_inorder Int _ avl_one [] [] 1 2 4 (avl_insert_top_spec _ 1).1 (by decide)
      (by decide)).2 rfl⟩

/-- C23: for a tree and a node of it, `avl_unlink_node` yields a tree whose
in-order sequence is the old one with exactly that node removed. -/
theorem avl_unlink_inorder {m : avl_mem α} {A B : List Nat} {k : Nat} {fuel : Nat}
    (h : tree_list m (A ++ k :: B)) (hf : (A ++ k :: B).length ≤ fuel) :
    ∃ m', avl_unlink_node fuel m k = some m' ∧ tree_list m' (A ++ B) ∧ k ∉ A ++ B := by
  obtain ⟨m', e, ht, _⟩ := avl_unlink_node_spec h hf
  obtain ⟨t, _, _, _, hnd, _⟩ := h
  refine ⟨m', e, ht, ?_⟩
  have := List.nodup_middle.mp hnd
  exact (List.nodup_cons.mp this).1

theorem avl_unlink_inorder_witness :
    (tree_list avl_one ([] ++ 1 :: []) ∧ ([] ++ 1 :: [] : List Nat).length ≤ 4) ∧
    ∃ m', avl_unlink_node 4 avl_one 1 = some m' ∧ tree_list m' ([] ++ []) ∧
      1 ∉ ([] ++ [] : List Nat) :=
  ⟨⟨(avl_insert_top_spec _ 1).1, by decide⟩,
    @avl_unlink_inorder Int _ avl_one [] [] 1 4 (avl_insert_top_spec _ 1).1 (by decide)⟩

/-- C24: `avl_search_closest` on an empty tree returns no node and `0`; on a
non-empty tree whose in-order sequence is sorted under `compare_tree_asc` it
returns a node `N` of the tree and a sign `s`: for `s < 0` the key sorts
before `N` and after the in-order predecessor of `N`, if any, and `N` has no
left child; for `s > 0` the key sorts after `N` and before the in-order
successor of `N`, if any, and `N` has no right child. -/
theorem avl_search_closest_sign {m : avl_mem α} (item : Nat → α) {T : List Nat} {fuel : Nat}
    (h : tree_list m T) (hf : T.length ≤ fuel)
    (hs : T.Pairwise (fun a b => compare_tree_asc (m.node a).item (m.node b).item < 0)) :
    (T = [] → avl_search_closest fuel m item = some (none, 0)) ∧
    (T ≠ [] → ∃ N s A B, avl_search_closest fuel m item = some (some N, s) ∧
      T = A ++ N :: B ∧ (s < 0 ∨ 0 < s) ∧
      (s < 0 → compare_tree_asc item (m.node N).item < 0 ∧ (m.node N).left = none ∧
        ∀ q, A.getLast? = some q → 0 < compare_tree_asc item (m.node q).item) ∧
      (0 < s → 0 < compare_tree_asc item (m.node N).item ∧ (m.node N).right = none ∧
        ∀ q, B.head? = some q → compare_tree_asc item (m.node q).item < 0)) := by
  refine ⟨fun hT => ?_, fun hT => ?_⟩
  · obtain ⟨t, htop, _, hin, _⟩ := h
    subst hT
    have ht : t = tr.nil := by
      cases t with
      | nil => rfl
      | node l k r => simp [tr.inorder] at hin
    subst ht
    unfold avl_search_closest
    rw [htop]
    rfl
  · obtain ⟨TA, TB, hsplit, hA, hB⟩ :=
      split_mono (P := fun t => compare_tree_asc item (m.node t).item < 0) T hs
        (fun a b hab ha => compare_tree_asc_trans ha hab)
    subst hsplit
    obtain ⟨node, hres | hres⟩ := avl_search_closest_spec item h hT hA hB hf
    · obtain ⟨e, ⟨B', hB'⟩, hl⟩ := hres
      subst hB'
      refine ⟨node, -1, TA, B', e, rfl, Or.inl (by decide),
        fun _ => ⟨hB node (by simp), hl, ?_⟩,
        fun hpos => absurd hpos (by decide)⟩
      intro q hq
      exact compare_tree_asc_pos (hA q (List.mem_of_getLast?_eq_some hq))
    · obtain ⟨e, ⟨A', hA'⟩, hr⟩ := hres
      subst hA'
      refine ⟨node, 1, A', TB, e, by simp, Or.inr (by decide),
        fun hneg => absurd hneg (by decide),
        fun _ => ⟨compare_tree_asc_pos (hA node (by simp)), hr, ?_⟩⟩
      intro q hq
      exact hB q (List.mem_of_mem_head? hq)

theorem avl_search_closest_sign_witness :
    (tree_list avl_one [1] ∧ ([1] : List Nat).length ≤ 4 ∧
      ([1] : List Nat).Pairwise
        (fun a b => compare_tree_asc (avl_one.node a).item (avl_one.node b).item < 0)) ∧
    (([1] : List Nat) = [] → avl_search_closest 4 avl_one (fun _ => 1) = some (none, 0)) ∧
    (([1] : List Nat) ≠ [] → ∃ N s A B,
      avl_search_closest 4 avl_one (fun _ => 1) = some (some N, s) ∧
      [1] = A ++ N :: B ∧ (s < 0 ∨ 0 < s) ∧
      (s < 0 → compare_tree_asc (fun _ => 1) (avl_one.node N).item < 0 ∧
        (avl_one.node N).left = none ∧
        ∀ q, A.getLast? = some q → 0 < compare_tree_asc (fun _ => 1) (avl_one.node q).item) ∧
      (0 < s → 0 < compare_tree_asc (fun _ => 1) (avl_one.node N).item ∧
        (avl_one.node N).right = none ∧
        ∀ q, B.head? = some q → compare_tree_asc (fun _ => 1) (avl_one.node q).item < 0)) :=
  ⟨⟨(avl_insert_top_spec _ 1).1, by decide, List.pairwise_singleton _ _⟩,
    @avl_search_closest_sign Int _ avl_one (fun _ => 1) [1] 4 (avl_insert_top_spec _ 1).1
      (by decide) (List.pairwise_singleton _ _)⟩

/-- C25, counterexample: the points `(1, 5)` and `(2, 5)` have equal second
coordinates and `1 < 2`, so the first sorts before the second in the order of
the specification, but `compare_tree_asc` returns `1` for them: the first
sorts after the second. -/
theorem compare_tree_asc_tie_descending :
    tree_order_spec (fun i => ([1, 5] : List Int).getD i 0)
        (fun i => ([2, 5] : List Int).getD i 0) ∧
      compare_tree_asc (fun i => ([1, 5] : List Int).getD i 0)
        (fun i => ([2, 5] : List Int).getD i 0) = 1 ∧
      compare_tree_asc (fun i => ([2, 5] : List Int).getD i 0)
        (fun i => ([1, 5] : List Int).getD i 0) = -1 :=
  ⟨Or.inr ⟨by decide, by decide⟩, by decide, by decide⟩

/-- C25, amended: `compare_tree_asc` orders two points by descending second
coordinate and, when the second coordinates are equal, by descending first
coordinate: `a` sorts before `b` exactly when `a[1] > b[1]`, or
`a[1] = b[1]` and `a[0] ≥ b[0]`; otherwise `a` sorts after `b`, and the result
is never `0`. -/
theorem compare_tree_asc_order (a b : Nat → α) :
    (compare_tree_asc a b = -1 ↔ (a 1 > b 1 ∨ (a 1 = b 1 ∧ a 0 ≥ b 0))) ∧
      (compare_tree_asc a b = 1 ↔ (a 1 < b 1 ∨ (a 1 = b 1 ∧ a 0 < b 0))) ∧
      compare_tree_asc a b ≠ 0 := by
  have hlt := compare_tree_asc_lt a b
  have hc := compare_tree_asc_cases a b
  have h1 : compare_tree_asc a b = -1 ↔ (a 1 > b 1 ∨ (a 1 = b 1 ∧ a 0 ≥ b 0)) := by
    rw [← hlt]
    rcases hc with e | e <;> rw [e] <;> decide
  refine ⟨h1, ?_, ?_⟩
  · constructor
    · intro e
      have hn : ¬ (a 1 > b 1 ∨ (a 1 = b 1 ∧ a 0 ≥ b 0)) := by
        rw [← h1, e]; decide
      rcases lt_trichotomy (a 1) (b 1) with g | g | g
      · exact Or.inl g
      · refine Or.inr ⟨g, ?_⟩
        by_contra hcon
        exact hn (Or.inr ⟨g, not_lt.mp hcon⟩)
      · exact absurd (Or.inl g) hn
    · intro h
      rcases hc with e | e
      · exfalso
        rcases h1.mp e with g | ⟨g1, g2⟩
        · rcases h with h | ⟨h, _⟩
          · exact lt_asymm g h
          · rw [h] at g; exact lt_irrefl _ g
        · rcases h with h | ⟨_, h⟩
          · rw [g1] at h; exact lt_irrefl _ h
          · exact absurd g2 (not_le.mpr h)
      · exact e
  · rcases hc with e | e <;> rw [e] <;> decide

/-- The links of a view are not touched by lowering the bounds. -/
theorem lower_links (v : view α) (lo hi : Nat) (x : Nat → α) :
    (v.lower lo hi x).nx = v.nx ∧ (v.lower lo hi x).pv = v.pv := ⟨rfl, rfl⟩

/-- The links after unlinking `p`: outside the chains `lo ≤ j < hi` nothing
changes, and `p` keeps its own links when it is not its own neighbour. -/
theorem unlink_links (v : view α) (lo hi p : Nat) :
    (∀ j q, ¬ (lo ≤ j ∧ j < hi) →
      (v.unlink lo hi p).nx j q = v.nx j q ∧ (v.unlink lo hi p).pv j q = v.pv j q) ∧
    ∀ j, (lo ≤ j → j < hi → v.pv j p ≠ p ∧ v.nx j p ≠ p) →
      (v.unlink lo hi p).nx j p = v.nx j p ∧ (v.unlink lo hi p).pv j p = v.pv j p := by
  constructor
  · intro j q hj
    simp only [view.unlink, if_neg hj, and_self]
  · intro j hne
    by_cases hj : lo ≤ j ∧ j < hi
    · obtain ⟨n1, n2⟩ := hne hj.1 hj.2
      simp only [view.unlink, if_pos hj]
      exact ⟨Function.update_noteq n1.symm _ _, Function.update_noteq n2.symm _ _⟩
    · simp only [view.unlink, if_neg hj, and_self]

/-- C27: for a node `nodep` with coordinates that is linked in the chains
`stop_dimension ≤ j < dim` (each a circular chain through the sentinel `list`
without repetition), `delete(nodep, dim)` followed by `reinsert(nodep, dim)`
returns and leaves every `next`/`prev` link of every node in every dimension
as it was; `delete` changes no link outside the chains
`stop_dimension ≤ j < dim` and none of the links of `nodep` itself. -/
theorem delete_reinsert_links (s : hv_mem α) (list nodep dim off : Nat) (A B : Nat → List Nat)
    (hx : (s.node nodep).x = some off)
    (hch : ∀ j, stop_dimension ≤ j → j < dim →
      Linked (s.nx j) (s.pv j) list (A j ++ nodep :: B j) list)
    (hnd : ∀ j, stop_dimension ≤ j → j < dim → (list :: (A j ++ nodep :: B j)).Nodup) :
    ∃ s1 s2, delete s nodep dim = some s1 ∧ reinsert s1 nodep dim = some s2 ∧
      (∀ j p, (s2.node p).next j = (s.node p).next j ∧
        (s2.node p).prev j = (s.node p).prev j) ∧
      (∀ j p, ¬ (stop_dimension ≤ j ∧ j < dim) →
        (s1.node p).next j = (s.node p).next j ∧ (s1.node p).prev j = (s.node p).prev j) ∧
      ∀ j, (s1.node nodep).next j = (s.node nodep).next j ∧
        (s1.node nodep).prev j = (s.node nodep).prev j := by
  have hX : ∀ j, 2 ≤ j → j < 2 + (dim - 2) → s.X nodep j = some (deref s.data off j) := by
    intro j _ _
    simp only [hv_mem.X, hx]
  have hrange : ∀ j, (2 ≤ j ∧ j < 2 + (dim - 2)) ↔ (stop_dimension ≤ j ∧ j < dim) := by
    intro j
    simp only [stop_dimension]
    omega
  have hin : ∀ j, 2 ≤ j → j < 2 + (dim - 2) →
      s.view.pv j nodep ≠ nodep ∧ s.view.nx j nodep ≠ nodep ∧
      s.view.nx j (s.view.pv j nodep) = nodep ∧ s.view.pv j (s.view.nx j nodep) = nodep := by
    intro j h1 h2
    obtain ⟨a1, a2⟩ := (hrange j).mp ⟨h1, h2⟩
    have hl := hch j a1 a2
    have hn := hnd j a1 a2
    obtain ⟨n1, n2⟩ := Linked.inner_ne hl hn (List.nodup_cons.mp hn).1
    obtain ⟨_, _, i1, i2⟩ := Linked.inner hl
    exact ⟨n1, n2, i1, i2⟩
  obtain ⟨s1, e1, v1, x1, _⟩ := delete_go_spec nodep (deref s.data off) (dim - 2) 2 s hX
  have hnx1 : s1.view.nx = (s.view.unlink 2 (2 + (dim - 2)) nodep).nx := by
    rw [v1]; exact (lower_links _ _ _ _).1
  have hpv1 : s1.view.pv = (s.view.unlink 2 (2 + (dim - 2)) nodep).pv := by
    rw [v1]; exact (lower_links _ _ _ _).2
  obtain ⟨u1, u2⟩ := unlink_links s.view 2 (2 + (dim - 2)) nodep
  have hown : ∀ j, s1.view.nx j nodep = s.view.nx j nodep ∧
      s1.view.pv j nodep = s.view.pv j nodep := by
    intro j
    rw [hnx1, hpv1]
    exact u2 j (fun h1 h2 => ⟨(hin j h1 h2).1, (hin j h1 h2).2.1⟩)
  have hX1 : ∀ j, 2 ≤ j → j < 2 + (dim - 2) → s1.X nodep j = some (deref s.data off j) := by
    intro j h1 h2
    rw [X_of_xs x1]
    exact hX j h1 h2
  have hne1 : ∀ j, 2 ≤ j → j < 2 + (dim - 2) → s1.view.pv j nodep ≠ nodep := by
    intro j h1 h2
    rw [(hown j).2]
    exact (hin j h1 h2).1
  obtain ⟨s2, e2, v2, _, _⟩ :=
    reinsert_go_spec nodep (deref s.data off) (dim - 2) 2 s1 hX1 hne1
  obtain ⟨r1, r2⟩ := relink_unlink s.view 2 (2 + (dim - 2)) nodep
    (fun j h1 h2 => (hin j h1 h2).2.2.1) (fun j h1 h2 => (hin j h1 h2).2.2.2)
    (fun j h1 h2 => (hin j h1 h2).1) (fun j h1 h2 => (hin j h1 h2).2.1)
  obtain ⟨c1, c2⟩ := relink_congr hnx1 hpv1 2 (2 + (dim - 2)) nodep
  have hnx2 : s2.view.nx = s.view.nx := by
    rw [v2, (lower_links _ _ _ _).1, c1, r1]
  have hpv2 : s2.view.pv = s.view.pv := by
    rw [v2, (lower_links _ _ _ _).2, c2, r2]
  refine ⟨s1, s2, e1, e2, fun j p => ⟨?_, ?_⟩, fun j p hj => ?_, fun j => hown j⟩
  · exact congrFun (congrFun hnx2 j) p
  · exact congrFun (congrFun hpv2 j) p
  · have hj2 : ¬ (2 ≤ j ∧ j < 2 + (dim - 2)) := fun h => hj ((hrange j).mp h)
    obtain ⟨w1, w2⟩ := u1 j p hj2
    constructor
    · show s1.view.nx j p = s.view.nx j p
      rw [hnx1]; exact w1
    · show s1.view.pv j p = s.view.pv j p
      rw [hpv1]; exact w2

theorem delete_reinsert_links_witness :
    ∃ s1 s2, delete chain_example 1 3 = some s1 ∧ reinsert s1 1 3 = some s2 ∧
      (∀ j p, (s2.node p).next j = (chain_example.node p).next j ∧
        (s2.node p).prev j = (chain_example.node p).prev j) ∧
      (∀ j p, ¬ (stop_dimension ≤ j ∧ j < 3) →
        (s1.node p).next j = (chain_example.node p).next j ∧
          (s1.node p).prev j = (chain_example.node p).prev j) ∧
      ∀ j, (s1.node 1).next j = (chain_example.node 1).next j ∧
        (s1.node 1).prev j = (chain_example.node 1).prev j :=
  delete_reinsert_links chain_example 0 1 3 3 (fun _ => []) (fun _ => [2]) (by decide)
    (fun j h1 h2 => by
      have e : j = 2 := by simp only [stop_dimension] at h1; omega
      subst e
      simp only [List.nil_append, Linked]
      decide)
    (fun _ _ _ => by simp)

/-- Once `lDim` is set, the loop over points of that length keeps it. -/
theorem read_points_uniform (d : Nat) :
    ∀ (pts : List (List α)) (acc : List α), (∀ p, p ∈ pts → p.length = d) →
      ∃ buf, read_points pts (d : Int) acc = some ((d : Int), buf)
  | [], acc, _ => ⟨acc, rfl⟩
  | p :: rest, acc, h => by
    have hp : p.length = d := h p (List.mem_cons_self _ _)
    have h0 : ¬ ((d : Int) < 0) := by omega
    have h1 : ¬ (p.length < (d : Int).toNat) := by
      rw [Int.toNat_ofNat]; omega
    obtain ⟨buf, e⟩ := read_points_uniform d rest (acc ++ p.take (d : Int).toNat)
      (fun r hr => h r (List.mem_cons_of_mem _ hr))
    refine ⟨buf, ?_⟩
    rw [read_points]
    simp only [if_neg h0, if_neg h1]
    exact e

/-- The value of `lDim` after the loop over points that all have length `d`:
`d`, or the initial `-1` when there is no point. -/
theorem read_points_dim (d : Nat) (pts : List (List α)) (h : ∀ p, p ∈ pts → p.length = d) :
    ∃ lDim buf, read_points pts (-1) [] = some (lDim, buf) ∧
      (lDim = (d : Int) ∨ lDim = -1) := by
  cases pts with
  | nil => exact ⟨-1, [], rfl, Or.inr rfl⟩
  | cons p rest =>
    have hp : p.length = d := h p (List.mem_cons_self _ _)
    have h1 : ¬ (p.length < ((p.length : Nat) : Int).toNat) := by
      rw [Int.toNat_ofNat]; omega
    obtain ⟨buf, e⟩ := read_points_uniform d rest ([] ++ p.take ((p.length : Nat) : Int).toNat)
      (fun r hr => h r (List.mem_cons_of_mem _ hr))
    refine ⟨(d : Int), buf, ?_, Or.inl rfl⟩
    rw [read_points]
    simp only [show ((-1 : Int) < 0) from by decide, if_true, if_neg h1]
    rw [hp] at e ⊢
    exact e

/-- C28: the binding `hypervolume`, called with points that all have `d`
coordinates and a reference point whose length is not `d`, raises `TypeError`
(message "Reference point is not of same dimensionality as point set") and
returns no volume. -/
theorem hypervolume_dimension_mismatch (q : qsort_t α) (lPyPointSet : List (List α))
    (lPyReference : List α) (d : Nat) (hpts : ∀ p, p ∈ lPyPointSet → p.length = d)
    (href : lPyReference.length ≠ d) :
    hypervolume q lPyPointSet lPyReference
        = py_result.type_error "Reference point is not of same dimensionality as point set" ∧
      ∀ v, hypervolume q lPyPointSet lPyReference ≠ py_result.value v := by
  have key : hypervolume q lPyPointSet lPyReference
      = py_result.type_error "Reference point is not of same dimensionality as point set" := by
    obtain ⟨lDim, buf, e, hd⟩ := read_points_dim d lPyPointSet hpts
    have hne : ¬ ((lPyReference.length : Int) = lDim) := by
      rcases hd with hd | hd
      · rw [hd]; omega
      · rw [hd]; omega
    unfold hypervolume
    rw [e]
    simp only [if_neg hne]
  refine ⟨key, fun v hv => ?_⟩
  rw [key] at hv
  exact py_result.noConfusion hv

theorem hypervolume_dimension_mismatch_witness :
    hypervolume qsort_insertion ([[1, 2, 3], [3, 2, 1]] : List (List Int)) [4, 4]
        = py_result.type_error "Reference point is not of same dimensionality as point set" ∧
      ∀ v, hypervolume qsort_insertion ([[1, 2, 3], [3, 2, 1]] : List (List Int)) [4, 4]
        ≠ py_result.value v :=
  hypervolume_dimension_mismatch qsort_insertion ([[1, 2, 3], [3, 2, 1]] : List (List Int))
    [4, 4] 3 (by decide) (by decide)

/-- C30: for points of dimension `d ≥ 3` with coordinates that are at least
`-DBL_MAX`, no `assert` of `avl_insert_before` or `avl_insert_after` fails
during `hv_recursive`: for `n ≥ 1` points the call of `fpli_hv` runs to its
end and returns a value (a failed `assert`, like a search in an empty tree or
a null anchor, leaves the model without result), for `n = 0` the call stops
in `setup_cdllist`, before `hv_recursive`; and `compare_tree_asc` never
returns `0`, so `avl_search_closest` never stops at an exact match. -/
theorem hv_recursive_asserts_hold (q : qsort_t α) (data : List α) (d n : Nat) (ref : Nat → α)
    (hd : 3 ≤ d) (hlow : ∀ x, x ∈ data → -DBL_MAX ≤ x) :
    (1 ≤ n → ∃ v, fpli_hv q data d n ref = some v) ∧
      (n = 0 → setup_cdllist q data d n = none) ∧
      ∀ x1 x2 : Nat → α, compare_tree_asc x1 x2 ≠ 0 := by
  refine ⟨fun hn => ⟨_, fpli_hv_correct q data d n ref (by omega) hn hlow⟩, fun hn => ?_,
    fun x1 x2 h => ?_⟩
  · obtain ⟨d1, rfl⟩ : ∃ d1, d = d1 + 1 := ⟨d - 1, by omega⟩
    rw [hn]
    exact setup_cdllist_zero q data d1
  · rcases compare_tree_asc_cases x1 x2 with e | e
    · rw [e] at h; exact absurd h (by decide)
    · rw [e] at h; exact absurd h (by decide)

theorem hv_recursive_asserts_hold_witness :
    3 ≤ 3 ∧ (∀ x, x ∈ ([1, 2, 3, 3, 2, 1, 2, 3, 1] : List Int) → -DBL_MAX ≤ x) ∧
      ∃ v, fpli_hv qsort_insertion ([1, 2, 3, 3, 2, 1, 2, 3, 1] : List Int) 3 3 (fun _ => 4)
        = some v :=
  ⟨by decide, low_of_nonneg (by decide),
    (hv_recursive_asserts_hold qsort_insertion ([1, 2, 3, 3, 2, 1, 2, 3, 1] : List Int) 3 3
      (fun _ => 4) (by decide) (low_of_nonneg (by decide))).1 (by decide)⟩

end

/-! ## Links of the reachable trees -/

section
set_option linter.unusedSectionVars false
variable {α : Type}

theorem headOr_none (T : List Nat) : headOr T none = T.head? := by
  cases T <;> rfl

theorem lastOr_getLast? : ∀ (T : List Nat) (p : Option Nat),
    lastOr T p = (match T.getLast? with | some x => some x | none => p)
  | [], _ => rfl
  | [x], _ => rfl
  | x :: y :: T, p => by
    rw [lastOr, lastOr_getLast? (y :: T) (some x), List.getLast?_cons_cons]
    cases h : (y :: T).getLast? with
    | none => simp at h
    | some z => rfl

theorem lastOr_none (T : List Nat) : lastOr T none = T.getLast? := by
  rw [lastOr_getLast?]
  cases T.getLast? <;> rfl

/-- The threading of a list, node by node. -/
theorem thr_index {m : avl_mem α} : ∀ (T : List Nat) (p q : Option Nat), thr m p T q →
    ∀ i x, T[i]? = some x →
      (m.node x).prev = (if i = 0 then p else T[i - 1]?) ∧
      (m.node x).next = (match T[i + 1]? with | some y => some y | none => q)
  | [], _, _, _, i, x, h => by simp at h
  | a :: T, p, q, ht, i, x, h => by
    obtain ⟨h1, h2, h3⟩ := ht
    cases i with
    | zero =>
      simp only [List.getElem?_cons_zero, Option.some.injEq] at h
      subst h
      refine ⟨by simpa using h1, ?_⟩
      rw [h2]
      cases T with
      | nil => rfl
      | cons b T => simp [headOr]
    | succ j =>
      rw [List.getElem?_cons_succ] at h
      obtain ⟨g1, g2⟩ := thr_index T (some a) q h3 j x h
      refine ⟨?_, ?_⟩
      · rw [g1]
        cases j with
        | zero => simp
        | succ k => simp
      · rw [g2]
        simp

/-- The parent pointers of the children in a represented tree. -/
theorem rep_children {m : avl_mem α} : ∀ (t : tr) (par : Option Nat), rep m t par →
    ∀ k, k ∈ t.inorder → ∀ c, (m.node k).left = some c ∨ (m.node k).right = some c →
      c ∈ t.inorder ∧ (m.node c).parent = some k
  | .nil, _, _, k, hk, _, _ => by simp [tr.inorder] at hk
  | .node l a r, par, h, k, hk, c, hc => by
    obtain ⟨h1, h2, h3, h4, h5⟩ := h
    simp only [tr.inorder, List.mem_append, List.mem_cons] at hk ⊢
    rcases hk with hk | rfl | hk
    · obtain ⟨g1, g2⟩ := rep_children l (some a) h4 k hk c hc
      exact ⟨Or.inl g1, g2⟩
    · rcases hc with hc | hc
      · rw [h2] at hc
        cases l with
        | nil => simp [tr.root] at hc
        | node ll x lr =>
          simp only [tr.root, Option.some.injEq] at hc
          subst hc
          exact ⟨Or.inl (by simp [tr.inorder]), h4.1⟩
      · rw [h3] at hc
        cases r with
        | nil => simp [tr.root] at hc
        | node rl x rr =>
          simp only [tr.root, Option.some.injEq] at hc
          subst hc
          exact ⟨Or.inr (Or.inr (by simp [tr.inorder])), h5.1⟩
    · obtain ⟨g1, g2⟩ := rep_children r (some a) h5 k hk c hc
      exact ⟨Or.inr (Or.inr g1), g2⟩

/-- The pointer facts that `tree_list` stands for. -/
theorem tree_list_links {m : avl_mem α} {T : List Nat} (h : tree_list m T) :
    links_inorder m T := by
  obtain ⟨t, htop, hrep, hin, _, hthr, hhead, htail⟩ := h
  refine ⟨fun i x hx => ?_, by rw [hhead, headOr_none], by rw [htail, lastOr_none],
    fun k hk c hc => ?_, fun r hr => ?_, fun hT => ?_⟩
  · obtain ⟨g1, g2⟩ := thr_index T none none hthr i x hx
    refine ⟨g1, ?_⟩
    rw [g2]
    cases T[i + 1]? <;> rfl
  · rw [← hin] at hk ⊢
    exact rep_children t none hrep k hk c hc
  · rw [htop] at hr
    cases t with
    | nil => simp [tr.root] at hr
    | node l a r' =>
      simp only [tr.root, Option.some.injEq] at hr
      subst hr
      exact ⟨by rw [← hin]; simp [tr.inorder], hrep.1⟩
  · subst hT
    cases t with
    | nil => exact htop
    | node l a r' => simp [tr.inorder] at hin

theorem avl_reach_tree_list {m : avl_mem α} {T : List Nat} (h : avl_reach m T) :
    tree_list m T := by
  induction h with
  | top m p => exact (avl_insert_top_spec m p).1
  | before fuel _ hp hl hf e ih =>
    obtain ⟨m1, e1, ht, _⟩ := avl_insert_before_spec ih hl hp hf
    rw [e] at e1
    rw [Option.some.inj e1]
    exact ht
  | after fuel _ hp hr hf e ih =>
    obtain ⟨m1, e1, ht, _⟩ := avl_insert_after_spec ih hr hp hf
    rw [e] at e1
    rw [Option.some.inj e1]
    exact ht
  | unlink fuel _ hf e ih =>
    obtain ⟨m1, e1, ht, _⟩ := avl_unlink_node_spec ih hf
    rw [e] at e1
    rw [Option.some.inj e1]
    exact ht

/-- C38: in every tree reachable from `avl_insert_top` by `avl_insert_before`,
`avl_insert_after` (preconditions met) and `avl_unlink_node`, the memory holds
a tree whose in-order sequence is the list `T` of its nodes, the `prev`/`next`
links enumerate the nodes in exactly that order, `head` and `tail` are the
first and the last node of it, and every child's `parent` names its parent
(the root has none); and on such a tree each of the three operations, its
preconditions met, returns, and the tree it returns is reachable and has
these properties for the in-order sequence with the node inserted before or
after the anchor, or removed. -/
theorem avl_reach_links_inorder {m : avl_mem α} {T : List Nat} (h : avl_reach m T) :
    tree_list m T ∧ links_inorder m T ∧
    (∀ (A B : List Nat) (node p fuel : Nat), T = A ++ node :: B → p ∉ T → T.length ≤ fuel →
      ((m.node node).left = none →
        ∃ m', avl_insert_before fuel m (some node) p = some m' ∧
          avl_reach m' (A ++ p :: node :: B) ∧ links_inorder m' (A ++ p :: node :: B)) ∧
      ((m.node node).right = none →
        ∃ m', avl_insert_after fuel m (some node) p = some m' ∧
          avl_reach m' (A ++ node :: p :: B) ∧ links_inorder m' (A ++ node :: p :: B))) ∧
    (∀ (A B : List Nat) (node fuel : Nat), T = A ++ node :: B → T.length ≤ fuel →
      ∃ m', avl_unlink_node fuel m node = some m' ∧ avl_reach m' (A ++ B) ∧
        links_inorder m' (A ++ B)) := by
  refine ⟨avl_reach_tree_list h, tree_list_links (avl_reach_tree_list h), ?_, ?_⟩
  · intro A B node p fuel hT hp hf
    subst hT
    have ht := avl_reach_tree_list h
    refine ⟨fun hl => ?_, fun hr => ?_⟩
    · obtain ⟨m', e, _, _⟩ := avl_insert_before_spec ht hl hp hf
      have hr' := avl_reach.before fuel h hp hl hf e
      exact ⟨m', e, hr', tree_list_links (avl_reach_tree_list hr')⟩
    · obtain ⟨m', e, _, _⟩ := avl_insert_after_spec ht hr hp hf
      have hr' := avl_reach.after fuel h hp hr hf e
      exact ⟨m', e, hr', tree_list_links (avl_reach_tree_list hr')⟩
  · intro A B node fuel hT hf
    subst hT
    obtain ⟨m', e, _, _⟩ := avl_unlink_node_spec (avl_reach_tree_list h) hf
    have hr' := avl_reach.unlink fuel h hf e
    exact ⟨m', e, hr', tree_list_links (avl_reach_tree_list hr')⟩

set_option maxRecDepth 10000 in
theorem avl_reach_links_inorder_witness :
    avl_reach avl_one [1] ∧
    ∃ m1 m2 m3 : avl_mem Int, avl_insert_after 4 avl_one (some 1) 2 = some m1 ∧
      avl_insert_before 4 m1 (some 1) 3 = some m2 ∧ avl_unlink_node 4 m2 1 = some m3 ∧
      avl_reach m3 [3, 2] ∧ tree_list m3 [3, 2] ∧ links_inorder m3 [3, 2] := by
  have h0 : avl_reach avl_one [1] := avl_reach.top _ 1
  have c0 : (avl_one.node 1).right = none := by decide
  obtain ⟨m1, e1, r1, _⟩ :=
    ((avl_reach_links_inorder h0).2.2.1 [] [] 1 2 4 rfl (by decide) (by decide)).2 c0
  have c1 : (avl_insert_after 4 avl_one (some 1) 2).map (fun m => (m.node 1).left)
      = some none := by decide
  rw [e1] at c1
  have c1' : (m1.node 1).left = none := Option.some.inj c1
  obtain ⟨m2, e2, r2, _⟩ :=
    ((avl_reach_links_inorder r1).2.2.1 [] [2] 1 3 4 rfl (by decide) (by decide)).1 c1'
  obtain ⟨m3, e3, r3, l3⟩ :=
    (avl_reach_links_inorder r2).2.2.2 [3] [2] 1 4 rfl (by decide)
  exact ⟨h0, m1, m2, m3, e1, e2, e3, r3, (avl_reach_links_inorder r3).1, l3⟩

end

/-! ## The base cases and the recursion of VARIANT 1 -/

section
set_option linter.unusedSectionVars false
variable {α : Type} [LinearOrderedCommRing α]

/-- The sum of the slabs from `p` on completes the volume below `p[2]` of the
points swept before to the volume of all points. -/
theorem sweep3_slabs (ref : Nat → α) : ∀ (rest swept : List (Nat → α)) (p : Nat → α),
    (∀ a, a ∈ swept → a 2 ≤ p 2) → (p :: rest).Pairwise (fun a b => a 2 ≤ b 2) →
    sweep3 ref swept (p :: rest) + union_volume 3 (Function.update ref 2 (p 2)) swept
      = union_volume 3 ref (swept ++ p :: rest)
  | [], swept, p, hsw, _ => by
    have hslab := union_volume_slab 2 ref p swept hsw (ref 2)
    rw [Function.update_eq_self] at hslab
    have hperm : (swept ++ [p]).Perm (p :: swept) := List.perm_append_singleton p swept
    rw [union_volume_perm 3 ref hperm, hslab]
    simp only [sweep3]
    rw [union_volume_perm 2 ref hperm]
    ring
  | q :: rest, swept, p, hsw, hs => by
    obtain ⟨h1, h2⟩ := List.pairwise_cons.mp hs
    have hsw' : ∀ a, a ∈ swept ++ [p] → a 2 ≤ q 2 := by
      intro a ha
      rcases List.mem_append.mp ha with h | h
      · exact le_trans (hsw a h) (h1 q (List.mem_cons_self _ _))
      · simp only [List.mem_singleton] at h
        rw [h]; exact h1 q (List.mem_cons_self _ _)
    have ih := sweep3_slabs ref rest (swept ++ [p]) q hsw' h2
    have hslab := union_volume_slab 2 ref p swept hsw (q 2)
    have hperm : (swept ++ [p]).Perm (p :: swept) := List.perm_append_singleton p swept
    have e : swept ++ p :: q :: rest = (swept ++ [p]) ++ q :: rest := by simp
    rw [e, ← ih, union_volume_perm 3 _ hperm, hslab]
    simp only [sweep3]
    rw [union_volume_perm 2 ref hperm]
    ring

/-- The sum of the slabs over points in ascending order of coordinate 2 is the
volume of the union of their boxes. -/
theorem sweep3_eq_union_volume (ref : Nat → α) (L : List (Nat → α))
    (hs : L.Pairwise (fun a b => a 2 ≤ b 2)) : sweep3 ref [] L = union_volume 3 ref L := by
  cases L with
  | nil => rfl
  | cons p rest =>
    have := sweep3_slabs ref rest [] p (fun a ha => absurd ha (List.not_mem_nil _)) hs
    rw [union_volume_nil, add_zero, List.nil_append] at this
    exact this

/-- C31: for `d = 3` and at least two points strictly below the reference (in
exact arithmetic, coordinates at least `-DBL_MAX`), the tree-based
`dim == 2` sweep goes through these points in an order `L` that is ascending
in coordinate 2 and returns `sweep3 ref [] L`, the sum over the points of
(area of the union of the rectangles of the points swept so far) times
(distance to the next point's coordinate 2, or to `ref[2]` for the last
point); this sum is the volume of the union of the boxes `[p, ref]`. -/
theorem fpli_hv_three_dimensions (q : qsort_t α) (data : List α) (n : Nat) (ref : Nat → α)
    (h2 : 2 ≤ (dominating_points data 3 n ref).length)
    (hlow : ∀ x, x ∈ data → -DBL_MAX ≤ x) :
    ∃ L : List (Nat → α), L.Perm (dominating_points data 3 n ref) ∧
      L.Pairwise (fun a b => a 2 ≤ b 2) ∧
      fpli_hv q data 3 n ref = some (sweep3 ref [] L) ∧
      sweep3 ref [] L = union_volume 3 ref (dominating_points data 3 n ref) := by
  have hNn := dominating_points_length_le data 3 n ref
  have hn : 1 ≤ n := by omega
  obtain ⟨s0, _, hb⟩ := setup_filter_spec q data 3 n ref hn
  obtain ⟨s1, C, _, h3, _, h5, h6, _, _⟩ := hb (fun _ => -DBL_MAX)
  have hperm := h5 2 (by decide)
  have hsorted : ((C 2).map (fun p => point_of data 3 (p - 1))).Pairwise
      (fun a b => a 2 ≤ b 2) := by
    rw [List.pairwise_map]
    refine (h3.sorted 2 (by decide)).imp_of_mem (fun {a b} ha hb hab => ?_)
    rw [← (h6 2 (by decide) a ha).2.2, ← (h6 2 (by decide) b hb).2.2]
    exact hab
  have hval : sweep3 ref [] ((C 2).map (fun p => point_of data 3 (p - 1)))
      = union_volume 3 ref (dominating_points data 3 n ref) := by
    rw [sweep3_eq_union_volume ref _ hsorted]
    exact union_volume_perm 3 ref hperm
  refine ⟨_, hperm, hsorted, ?_, hval⟩
  rw [hval]
  exact fpli_hv_deep q data 3 n ref (le_refl _) h2 hlow

theorem fpli_hv_three_dimensions_witness :
    (2 ≤ (dominating_points ([1, 2, 3, 3, 2, 1, 2, 3, 1] : List Int) 3 3 (fun _ => 4)).length ∧
      ∀ x, x ∈ ([1, 2, 3, 3, 2, 1, 2, 3, 1] : List Int) → -DBL_MAX ≤ x) ∧
    (∃ L : List (Nat → Int),
      L.Perm (dominating_points ([1, 2, 3, 3, 2, 1, 2, 3, 1] : List Int) 3 3 (fun _ => 4)) ∧
      L.Pairwise (fun a b => a 2 ≤ b 2) ∧
      fpli_hv qsort_insertion ([1, 2, 3, 3, 2, 1, 2, 3, 1] : List Int) 3 3 (fun _ => 4)
        = some (sweep3 (fun _ => 4) [] L) ∧
      sweep3 (fun _ => 4) [] L = union_volume 3 (fun _ => 4)
        (dominating_points ([1, 2, 3, 3, 2, 1, 2, 3, 1] : List Int) 3 3 (fun _ => 4))) :=
  ⟨⟨by decide, low_of_nonneg (by decide)⟩,
    fpli_hv_three_dimensions qsort_insertion ([1, 2, 3, 3, 2, 1, 2, 3, 1] : List Int) 3
      (fun _ => 4) (by decide) (low_of_nonneg (by decide))⟩

theorem delete_v1_go_eq (p : Nat) : ∀ (k i : Nat) (s : hv_mem α),
    delete_v1.go p k i s = delete_dom.go p k i s
  | 0, _, _ => rfl
  | k + 1, i, s => by
    unfold delete_v1.go delete_dom.go
    exact delete_v1_go_eq p k (i + 1) _

/-- Effect of `delete` (VARIANT 1). -/
theorem delete_v1_spec (s : hv_mem α) (p m : Nat) (hm : 1 ≤ m) :
    (delete_v1 s p m).view = s.view.unlink 1 m p ∧ (delete_v1 s p m).xs = s.xs ∧
      (delete_v1 s p m).avl = s.avl := by
  unfold delete_v1 stop_dimension_v1
  rw [delete_v1_go_eq]
  obtain ⟨h1, h2, h3, _⟩ := delete_dom_go_spec p (m - 1) 1 s
  have e : 1 + (m - 1) = m := by omega
  rw [e] at h1
  exact ⟨h1, h2, h3⟩

/-- Effect of the loop of `reinsert` (VARIANT 1). -/
theorem reinsert_v1_go_spec (p : Nat) :
    ∀ (k i : Nat) (s : hv_mem α), (∀ j, i ≤ j → j < i + k → s.view.pv j p ≠ p) →
      (reinsert_v1.go p k i s).view = s.view.relink i (i + k) p ∧
        (reinsert_v1.go p k i s).xs = s.xs ∧ (reinsert_v1.go p k i s).avl = s.avl
  | 0, i, s, _ => ⟨by rw [Nat.add_zero, relink_empty]; rfl, rfl, rfl⟩
  | k + 1, i, s, hne => by
    let s1 := s.setNext ((s.node p).prev i) i p
    let s2 := s1.setPrev ((s1.node p).next i) i p
    have hxs2 : s2.xs = s.xs := by
      show (s1.setPrev _ _ _).xs = s.xs
      rw [xs_setPrev]
      exact xs_setNext _ _ _ _
    have hstep : reinsert_v1.go p (k + 1) i s = reinsert_v1.go p k (i + 1) s2 := rfl
    have hv1 : s1.view = { s.view with
        nx := Function.update s.view.nx i (Function.update (s.view.nx i) (s.view.pv i p) p) } :=
      view_setNext s _ i _
    have hv2 : s2.view = s.view.relink i (i + 1) p := by
      rw [relink_one]
      show (s1.setPrev _ _ _).view = _
      rw [view_setPrev]
      have e1 : (s1.node p).next i = s.view.nx i p := by
        show s1.view.nx i p = _
        rw [hv1]
        show Function.update s.view.nx i _ i p = _
        rw [Function.update_same]
        exact Function.update_noteq (hne i (le_refl _) (by omega)).symm _ _
      rw [e1, hv1]
    have hne2 : ∀ j, i + 1 ≤ j → j < i + 1 + k → s2.view.pv j p ≠ p := by
      intro j h1 h2
      rw [hv2]
      show (s.view.relink i (i + 1) p).pv j p ≠ p
      simp only [view.relink]
      have h3 : ¬ (i ≤ j ∧ j < i + 1) := by omega
      rw [if_neg h3]
      exact hne j (by omega) (by omega)
    obtain ⟨hv, hxs, havl⟩ := reinsert_v1_go_spec p k (i + 1) s2 hne2
    rw [hstep]
    refine ⟨?_, by rw [hxs]; exact hxs2, by rw [havl]; rfl⟩
    rw [hv, hv2]
    have : i + 1 + k = i + (k + 1) := by omega
    rw [this, relink_relink _ _ _ _ (by omega)]

/-- Effect of `reinsert` (VARIANT 1). -/
theorem reinsert_v1_spec (s : hv_mem α) (p m : Nat) (hm : 1 ≤ m)
    (hne : ∀ j, 1 ≤ j → j < m → s.view.pv j p ≠ p) :
    (reinsert_v1 s p m).view = s.view.relink 1 m p ∧ (reinsert_v1 s p m).xs = s.xs ∧
      (reinsert_v1 s p m).avl = s.avl := by
  unfold reinsert_v1 stop_dimension_v1
  have e : 1 + (m - 1) = m := by omega
  obtain ⟨h1, h2, h3⟩ := reinsert_v1_go_spec p (m - 1) 1 s
    (fun j g1 g2 => hne j g1 (by omega))
  rw [e] at h1
  exact ⟨h1, h2, h3⟩

theorem unlink_fields (v : view α) (lo hi p : Nat) :
    (∀ j, ¬ (lo ≤ j ∧ j < hi) → (v.unlink lo hi p).nx j = v.nx j ∧
      (v.unlink lo hi p).pv j = v.pv j) ∧
    (∀ j, lo ≤ j → j < hi →
      (v.unlink lo hi p).nx j = Function.update (v.nx j) (v.pv j p) (v.nx j p) ∧
      (v.unlink lo hi p).pv j = Function.update (v.pv j) (v.nx j p) (v.pv j p)) := by
  constructor
  · intro j hj
    exact ⟨if_neg hj, if_neg hj⟩
  · intro j h1 h2
    exact ⟨if_pos ⟨h1, h2⟩, if_pos ⟨h1, h2⟩⟩

theorem dels1_out (m : Nat) (v : view α) : ∀ (Bd : List Nat) (j : Nat), ¬ (1 ≤ j ∧ j < m) →
    (v.dels1 m Bd).nx j = v.nx j ∧ (v.dels1 m Bd).pv j = v.pv j
  | [], _, _ => ⟨rfl, rfl⟩
  | p :: Bd, j, hj => by
    obtain ⟨h1, h2⟩ := dels1_out m v Bd j hj
    obtain ⟨g1, g2⟩ := (unlink_fields (v.dels1 m Bd) 1 m p).1 j hj
    have e : v.dels1 m (p :: Bd) = (v.dels1 m Bd).unlink 1 m p := rfl
    rw [e]
    exact ⟨g1.trans h1, g2.trans h2⟩

/-- After the deletion of the nodes `Bd` the chains `1, ..., m - 1` hold the
remaining nodes. -/
theorem linked_dels1 {sc : scene α} (hok : sc.ok) (m : Nat) (v : view α) {i : Nat}
    (h1 : 1 ≤ i) (him : i < m) (hid : i < sc.d) :
    ∀ (Bd A : List Nat), (A ++ Bd).Nodup → (∀ p, p ∈ A ++ Bd → p ∈ sc.ord 0) →
      Linked (v.nx i) (v.pv i) 0 (sc.chain i (A ++ Bd)) 0 →
      Linked ((v.dels1 m Bd).nx i) ((v.dels1 m Bd).pv i) 0 (sc.chain i A) 0
  | [], A, _, _, h => by
    rw [List.append_nil] at h
    exact h
  | p :: Bd, A, hnd, hsub, h => by
    have e0 : A ++ p :: Bd = (A ++ [p]) ++ Bd := by simp
    have ih := linked_dels1 hok m v h1 him hid Bd (A ++ [p]) (by rw [← e0]; exact hnd)
      (by rw [← e0]; exact hsub) (by rw [← e0]; exact h)
    have hpA : p ∉ A := fun hh => by
      have := (List.nodup_append.mp hnd).2.2 hh
      exact this (by simp)
    obtain ⟨C1, C2, e1, e2⟩ := chain_split hok hid (hsub p (by simp)) hpA
    rw [e1] at ih
    have hnd1 : (0 :: (C1 ++ p :: C2)).Nodup := by rw [← e1]; exact chain_nodup hok hid _
    have h0 : (0 : Nat) ∉ C1 ++ p :: C2 := (List.nodup_cons.mp hnd1).1
    have her := Linked.erase p ih hnd1 h0 (by simp)
    have hpC1 : p ∉ C1 := fun hh =>
      (List.nodup_append.mp (List.nodup_cons.mp hnd1).2).2.2 hh (by simp)
    have e3 : (C1 ++ p :: C2).erase p = C1 ++ C2 := by
      rw [List.erase_append_right _ hpC1, List.erase_cons_head]
    rw [e3, ← e2] at her
    have e : v.dels1 m (p :: Bd) = (v.dels1 m Bd).unlink 1 m p := rfl
    obtain ⟨g1, g2⟩ := (unlink_fields (v.dels1 m Bd) 1 m p).2 i h1 him
    rw [e, g1, g2]
    exact her

/-- The links of a deleted node and the effect of its reinsertion
(VARIANT 1). -/
theorem links_reinsert1 {sc : scene α} (hok : sc.ok) {m : Nat} (hmd : m ≤ sc.d) {E v : view α}
    {A Bd : List Nat} {p : Nat} (hnd : (A ++ p :: Bd).Nodup)
    (hsub : ∀ q, q ∈ A ++ p :: Bd → q ∈ sc.ord 0)
    (hE : ∀ i, 1 ≤ i → i < m → Linked (E.nx i) (E.pv i) 0 (sc.chain i (A ++ p :: Bd)) 0)
    (hnx : v.nx = (E.dels1 m (p :: Bd)).nx) (hpv : v.pv = (E.dels1 m (p :: Bd)).pv) :
    (v.relink 1 m p).nx = (E.dels1 m Bd).nx ∧ (v.relink 1 m p).pv = (E.dels1 m Bd).pv ∧
    ∀ j, 1 ≤ j → j < m → v.pv j p ≠ p := by
  have e0 : A ++ p :: Bd = (A ++ [p]) ++ Bd := by simp
  have hlk : ∀ j, 1 ≤ j → j < m →
      Linked ((E.dels1 m Bd).nx j) ((E.dels1 m Bd).pv j) 0 (sc.chain j (A ++ [p])) 0 :=
    fun j h1 h2 => linked_dels1 hok m E h1 h2 (by omega) Bd (A ++ [p]) (by rw [← e0]; exact hnd)
      (by rw [← e0]; exact hsub) (by rw [← e0]; exact hE j h1 h2)
  have hpA : p ∉ A := fun hh => (List.nodup_append.mp hnd).2.2 hh (by simp)
  have hp0 : p ∈ sc.ord 0 := hsub p (by simp)
  have hfacts : ∀ j, 1 ≤ j → j < m →
      (E.dels1 m Bd).nx j ((E.dels1 m Bd).pv j p) = p ∧
      (E.dels1 m Bd).pv j ((E.dels1 m Bd).nx j p) = p ∧
      (E.dels1 m Bd).pv j p ≠ p ∧ (E.dels1 m Bd).nx j p ≠ p := by
    intro j h1 h2
    obtain ⟨C1, C2, e, _⟩ := chain_split hok (show j < sc.d by omega) hp0 hpA
    have hl := hlk j h1 h2
    rw [e] at hl
    have hnd1 : (0 :: (C1 ++ p :: C2)).Nodup := by
      rw [← e]; exact chain_nodup hok (by omega) _
    obtain ⟨_, _, a3, a4⟩ := Linked.inner hl
    obtain ⟨b1, b2⟩ := Linked.inner_ne hl hnd1 (List.nodup_cons.mp hnd1).1
    exact ⟨a3, a4, b1, b2⟩
  have e : E.dels1 m (p :: Bd) = (E.dels1 m Bd).unlink 1 m p := rfl
  rw [e] at hnx hpv
  obtain ⟨r1, r2⟩ := relink_congr hnx hpv 1 m p
  obtain ⟨u1, u2⟩ := relink_unlink (E.dels1 m Bd) 1 m p
    (fun j h1 h2 => (hfacts j h1 h2).1) (fun j h1 h2 => (hfacts j h1 h2).2.1)
    (fun j h1 h2 => (hfacts j h1 h2).2.2.1) (fun j h1 h2 => (hfacts j h1 h2).2.2.2)
  refine ⟨r1.trans u1, r2.trans u2, ?_⟩
  intro j h1 h2
  obtain ⟨_, _, a4, a5⟩ := hfacts j h1 h2
  have hj : 1 ≤ j ∧ j < m := ⟨h1, h2⟩
  have e5 : v.pv j p = (E.dels1 m Bd).pv j p := by
    rw [hpv]
    show (if 1 ≤ j ∧ j < m then Function.update ((E.dels1 m Bd).pv j)
      ((E.dels1 m Bd).nx j p) ((E.dels1 m Bd).pv j p) else (E.dels1 m Bd).pv j) p = _
    rw [if_pos hj, Function.update_noteq a5.symm]
  rw [e5]
  exact a4

/-- The `dim == 1` loop changes neither the links, nor the points, nor the
tree. -/
theorem hv_dim1_loop_frame (ref : Nat → α) :
    ∀ (fuel : Nat) (s : hv_mem α) (p1 : Nat) (a v : α) (r : α × α × Nat × hv_mem α),
      hv_dim1_loop ref fuel s p1 a v = some r →
      r.2.2.2.view.nx = s.view.nx ∧ r.2.2.2.view.pv = s.view.pv ∧ r.2.2.2.xs = s.xs ∧
        r.2.2.2.avl = s.avl
  | 0, _, _, _, _, _, h => by simp [hv_dim1_loop] at h
  | fuel + 1, s, p1, a, v, r, h => by
    rw [hv_dim1_loop] at h
    simp only [] at h
    split at h
    · cases h
      exact ⟨rfl, rfl, rfl, rfl⟩
    · split at h
      · split at h
        · exact hv_dim1_loop_frame ref fuel s _ _ _ r h
        · split at h
          · obtain ⟨h1, h2, h3, h4⟩ := hv_dim1_loop_frame ref fuel _ _ _ _ r h
            rw [view_setIgnore] at h1 h2
            rw [xs_setIgnore] at h3
            exact ⟨h1, h2, h3, h4⟩
          · exact hv_dim1_loop_frame ref fuel s _ _ _ r h
      · cases h

theorem stat.coord_eq {sc : scene α} {s : hv_mem α} (h : stat sc s) {p : Nat}
    (hp : p ∈ sc.ord 0) : s.coord p = sc.X p := by
  funext k
  simp [hv_mem.coord, h.node_x p hp k]

/-- Branch `dim == 1` meets the contract of dimension 1 (VARIANT 1). -/
theorem hv_dim1_level {sc : scene α} (hok : sc.ok) (hd : 1 < sc.d) {fuel : Nat}
    (hfuel : sc.n + 1 ≤ fuel) : level_spec1 sc 1 (fun s _ => hv_dim1 fuel sc.ref s 0) := by
  intro s S hinv hS
  have hlen := chain_length hok hd hinv.nodup hinv.sub
  have hle := chain_length_le hok hd S
  have hperm := chain_perm hok hd hinv.nodup hinv.sub
  have hsub : ∀ p, p ∈ sc.chain 1 S → p ∈ sc.ord 0 :=
    fun p hp => hinv.sub p (mem_chain.mp hp).2
  have hsorted := chain_sorted hok hd S
  have hlink := hinv.linked 1 (le_refl _) (le_refl _)
  obtain ⟨c0, rest, hC⟩ : ∃ c0 rest, sc.chain 1 S = c0 :: rest := by
    cases hc : sc.chain 1 S with
    | nil => rw [hc] at hlen; simp at hlen; omega
    | cons c0 rest => exact ⟨c0, rest, rfl⟩
  rw [hC] at hlink hsub hsorted hperm hle
  simp only [Linked] at hlink
  obtain ⟨hn0, _, hl⟩ := hlink
  have hn0' : (s.node 0).next 1 = c0 := hn0
  have hx : ∀ p, p ∈ c0 :: rest → (s.node p).x ≠ none := fun p hp => hinv.st.x_ne (hsub p hp)
  have hfuel' : rest.length < fuel := by
    simp only [List.length_cons] at hle
    omega
  obtain ⟨m, v, pl, s', e1, e2, e3, e4⟩ := hv_dim1_loop_spec sc.ref rest fuel s c0
    (s.coord c0 0) 0 hl hinv.st.head_x hx hfuel'
  obtain ⟨f1, f2, f3, f4⟩ := hv_dim1_loop_frame sc.ref fuel s c0 _ _ _ e1
  obtain ⟨off0, hoff0⟩ := Option.ne_none_iff_exists'.mp (hx c0 (by simp))
  obtain ⟨offl, hoffl⟩ := Option.ne_none_iff_exists'.mp e2
  refine ⟨s', ?_, f1, f2, f3, f4⟩
  show hv_dim1 fuel sc.ref s 0 = _
  rw [hv_dim1]
  simp only [hn0', (coord_of_x hoff0 0).1, e1, (coord_of_x hoffl 1).1]
  rw [e3, e4]
  have hmap : (c0 :: rest).map (fun p => s.coord p) = (c0 :: rest).map sc.X :=
    List.map_congr_left (fun p hp => hinv.st.coord_eq (hsub p hp))
  have hsw : 0 + sweep2_from sc.ref (s.coord c0 0) (s.coord c0 1)
      (rest.map (fun p => s.coord p)) = sweep2 sc.ref ((c0 :: rest).map (fun p => s.coord p)) := by
    simp [sweep2]
  rw [hsw, hmap, sweep2_eq_union_volume sc.ref _ (by rw [List.pairwise_map]; exact hsorted)]
  have : union_volume 2 sc.ref ((c0 :: rest).map sc.X) = sc.vol (1 + 1) sc.ref S :=
    vol_perm sc 2 sc.ref hperm
  rw [this]

/-- The first loop of the general case (VARIANT 1) deletes every node but
the first of chain `m`. -/
theorem hv_delete_loop_v1_spec {m : Nat} (h1m : 1 ≤ m) {E : view α} {L : List Nat}
    (hlt : Linked (E.nx m) (E.pv m) 0 L 0) :
    ∀ (fuel : Nat) (s : hv_mem α) (A Bd : List Nat) (p1 : Nat),
      L = A ++ p1 :: Bd → s.view = E.dels1 m Bd → A.length < fuel →
      ∃ s' a0 R, L = a0 :: R ∧
        hv_delete_loop_v1 m fuel s ((Bd ++ [0]).head (by simp)) p1 (A.length + 1)
          = some (s', (R ++ [0]).head (by simp), a0, 1) ∧
        s'.view = E.dels1 m R ∧ s'.xs = s.xs ∧ s'.avl = s.avl
  | 0, _, _, _, _, _, _, hf => absurd hf (Nat.not_lt_zero _)
  | fuel + 1, s, A, Bd, p1, hL, hv, hf => by
    rcases List.eq_nil_or_concat A with hA | ⟨A0, a, hA⟩
    · subst hA
      refine ⟨s, p1, Bd, hL, ?_, hv, rfl, rfl⟩
      unfold hv_delete_loop_v1
      simp
    · rw [List.concat_eq_append] at hA
      subst hA
      obtain ⟨d1, d2, d3⟩ := delete_v1_spec s p1 m h1m
      have hv1 : (delete_v1 s p1 m).view = E.dels1 m (p1 :: Bd) := by
        rw [d1, hv]; rfl
      have hlt' := hlt
      rw [hL] at hlt'
      have hprev1 : ((delete_v1 s p1 m).node p1).prev m = a := by
        show (delete_v1 s p1 m).view.pv m p1 = a
        rw [hv1, (dels1_out m E (p1 :: Bd) m (by omega)).2, (Linked.inner hlt').1,
          List.getLast_cons (by simp), List.getLast_append_singleton]
      have hL' : L = A0 ++ a :: (p1 :: Bd) := by rw [hL]; simp
      obtain ⟨s', a0, R, r1, r2, r3, r4, r5⟩ :=
        hv_delete_loop_v1_spec h1m hlt fuel (delete_v1 s p1 m) A0 (p1 :: Bd) a hL' hv1
          (by rw [List.length_append, List.length_singleton] at hf; omega)
      refine ⟨s', a0, R, r1, ?_, r3, r4.trans d2, r5.trans d3⟩
      rw [← r2]
      have hc1 : (A0 ++ [a]).length + 1 > 1 := by
        rw [List.length_append, List.length_singleton]; omega
      have hlen : (A0 ++ [a]).length + 1 - 1 = A0.length + 1 := by
        rw [List.length_append, List.length_singleton]; omega
      rw [hv_delete_loop_v1, if_pos hc1]
      simp only []
      rw [hprev1, hlen]
      rfl

/-- The second loop of the general case (VARIANT 1): every node is
reinserted and the recursive call is made after each reinsertion; `hyperv`
is the volume below the node reinserted last and `hypera` the volume of one
dimension less of the nodes in the chains. -/
theorem hv_reinsert_loop_v1_spec {sc : scene α} (hok : sc.ok) {m : Nat} (h1m : 1 ≤ m)
    (hmd : m + 1 < sc.d) {E : view α} {L : List Nat} (hnd : L.Nodup)
    (hsub : ∀ p, p ∈ L → p ∈ sc.ord 0)
    (hsorted : L.Pairwise (fun a b => sc.X a (m + 1) ≤ sc.X b (m + 1)))
    (hE : ∀ i, 1 ≤ i → i < m + 1 → Linked (E.nx i) (E.pv i) 0 (sc.chain i L) 0)
    (hlt : Linked (E.nx (m + 1)) (E.pv (m + 1)) 0 L 0)
    {recur : hv_mem α → Nat → Option (α × hv_mem α)} (hrec : level_spec1 sc m recur) :
    ∀ (fuel : Nat) (s : hv_mem α) (A1 : List Nat) (p1 : Nat) (Bd : List Nat) (hyperv hypera : α),
      L = (A1 ++ [p1]) ++ Bd → stat sc s → s.view.nx = (E.dels1 (m + 1) Bd).nx →
      s.view.pv = (E.dels1 (m + 1) Bd).pv →
      hyperv = sc.vol (m + 1 + 1) (Function.update sc.ref (m + 1) (sc.X p1 (m + 1))) A1 →
      hypera = sc.vol (m + 1) sc.ref (A1 ++ [p1]) → Bd.length < fuel →
      ∃ s' L1 pl hv' ha',
        hv_reinsert_loop_v1 (m + 1) recur fuel s ((Bd ++ [0]).head (by simp)) p1 (A1.length + 1)
          hyperv hypera = some (s', pl, hv', ha') ∧
        L = L1 ++ [pl] ∧ s'.view.nx = E.nx ∧ s'.view.pv = E.pv ∧ s'.xs = s.xs ∧
        s'.avl = s.avl ∧
        hv' = sc.vol (m + 1 + 1) (Function.update sc.ref (m + 1) (sc.X pl (m + 1))) L1 ∧
        ha' = sc.vol (m + 1) sc.ref L
  | 0, _, _, _, _, _, _, _, _, _, _, _, _, hf => absurd hf (Nat.not_lt_zero _)
  | fuel + 1, s, A1, p1, Bd, hyperv, hypera, hL, hst, hnx, hpv, hyp, hya, hf => by
    cases Bd with
    | nil =>
      rw [List.append_nil] at hL
      refine ⟨s, A1, p1, hyperv, hypera, ?_, hL, hnx, hpv, rfl, rfl, hyp, by rw [hL]; exact hya⟩
      show hv_reinsert_loop_v1 (m + 1) recur (fuel + 1) s 0 p1 (A1.length + 1) hyperv hypera = _
      unfold hv_reinsert_loop_v1
      rw [hst.head_x]
    | cons p0 Bd' =>
      have hL2 : L = (A1 ++ [p1]) ++ p0 :: Bd' := hL
      have hL3 : L = ((A1 ++ [p1]) ++ [p0]) ++ Bd' := by rw [hL]; simp
      have hp0L : p0 ∈ L := by rw [hL]; simp
      have hp1L : p1 ∈ L := by rw [hL]; simp
      have hnd2 : ((A1 ++ [p1]) ++ p0 :: Bd').Nodup := by rw [← hL2]; exact hnd
      have hnd3 : (((A1 ++ [p1]) ++ [p0]) ++ Bd').Nodup := by rw [← hL3]; exact hnd
      have hsub2 : ∀ q, q ∈ (A1 ++ [p1]) ++ p0 :: Bd' → q ∈ sc.ord 0 := by
        rw [← hL2]; exact hsub
      obtain ⟨off, hx⟩ := Option.ne_none_iff_exists'.mp (hst.x_ne (hsub p0 hp0L))
      have hX0 : s.X p0 (m + 1) = some (sc.X p0 (m + 1)) := hst.node_x p0 (hsub p0 hp0L) _
      have hX1 : s.X p1 (m + 1) = some (sc.X p1 (m + 1)) := hst.node_x p1 (hsub p1 hp1L) _
      -- the nodes before `p1` are not above it
      have hle1 : ∀ a, a ∈ A1 → sc.X a (m + 1) ≤ sc.X p1 (m + 1) := by
        intro a ha
        have hs := hsorted
        rw [hL2, List.append_assoc] at hs
        exact (List.pairwise_append.mp hs).2.2 a ha p1 (by simp)
      have hyp' : hyperv + hypera * (sc.X p0 (m + 1) - sc.X p1 (m + 1))
          = sc.vol (m + 1 + 1) (Function.update sc.ref (m + 1) (sc.X p0 (m + 1)))
              (A1 ++ [p1]) := by
        rw [vol_slab sc (m + 1) sc.ref hle1 (sc.X p0 (m + 1)), hyp, hya]
        ring
      -- the reinsertion
      have hE2 : ∀ i, 1 ≤ i → i < m + 1 →
          Linked (E.nx i) (E.pv i) 0 (sc.chain i ((A1 ++ [p1]) ++ p0 :: Bd')) 0 := by
        rw [← hL2]; exact hE
      obtain ⟨k1, k2, k3⟩ := links_reinsert1 hok (show m + 1 ≤ sc.d by omega) hnd2 hsub2 hE2
        hnx hpv
      obtain ⟨r1, r2, r3⟩ := reinsert_v1_spec s p0 (m + 1) (by omega) k3
      have hst1 : stat sc (reinsert_v1 s p0 (m + 1)) :=
        stat.of_xs hst r2 (fun q => by rw [r3])
      have hnx1 : (reinsert_v1 s p0 (m + 1)).view.nx = (E.dels1 (m + 1) Bd').nx := by
        rw [r1]; exact k1
      have hpv1 : (reinsert_v1 s p0 (m + 1)).view.pv = (E.dels1 (m + 1) Bd').pv := by
        rw [r1]; exact k2
      have hinv : inv1 sc m (reinsert_v1 s p0 (m + 1)) ((A1 ++ [p1]) ++ [p0]) := by
        refine ⟨fun p hp => hsub p (by rw [hL3]; exact List.mem_append_left _ hp),
          (List.nodup_append.mp hnd3).1, fun i h1 h2 => ?_, hst1⟩
        rw [hnx1, hpv1]
        exact linked_dels1 hok (m + 1) E h1 (by omega) (by omega) Bd' _ hnd3
          (by rw [← hL3]; exact hsub) (by rw [← hL3]; exact hE i h1 (by omega))
      obtain ⟨s2, e2, f1, f2, f3, f4⟩ := hrec _ _ hinv (by simp)
      have elen : ((A1 ++ [p1]) ++ [p0]).length = A1.length + 1 + 1 := by
        simp
      rw [elen] at e2
      have hst2 : stat sc s2 := stat.of_xs hst1 f3 (fun q => by rw [f4])
      have hnext : (s2.node p0).next (m + 1) = (Bd' ++ [0]).head (by simp) := by
        show s2.view.nx (m + 1) p0 = _
        have hlt' := hlt
        rw [hL2] at hlt'
        rw [f1, hnx1, (dels1_out (m + 1) E Bd' (m + 1) (by omega)).1, (Linked.inner hlt').2.1]
      obtain ⟨s', L1, pl, hv', ha', e, q1, q2, q3, q4, q5, q6, q7⟩ :=
        hv_reinsert_loop_v1_spec hok h1m hmd hnd hsub hsorted hE hlt hrec fuel s2 (A1 ++ [p1]) p0
          Bd' (hyperv + hypera * (sc.X p0 (m + 1) - sc.X p1 (m + 1)))
          (sc.vol (m + 1) sc.ref ((A1 ++ [p1]) ++ [p0])) hL3 hst2 (f1.trans hnx1)
          (f2.trans hpv1) hyp' rfl
          (by simp only [List.length_cons] at hf; omega)
      refine ⟨s', L1, pl, hv', ha', ?_, q1, q2, q3, (q4.trans f3).trans r2,
        (q5.trans f4).trans r3, q6, q7⟩
      rw [← e]
      show hv_reinsert_loop_v1 (m + 1) recur (fuel + 1) s p0 p1 (A1.length + 1) hyperv hypera = _
      rw [hv_reinsert_loop_v1]
      simp only [hx, hX0, hX1, e2, hnext]
      have : (A1 ++ [p1]).length + 1 = A1.length + 1 + 1 := by simp
      rw [this]

/-- The general case of `hv_recursive` (VARIANT 1) meets the contract of
dimension `m + 1` when the recursive call meets that of dimension `m`. -/
theorem hv_general_v1_spec {sc : scene α} (hok : sc.ok) {m : Nat} (h1m : 1 ≤ m)
    (hmd : m + 1 < sc.d) {recur : hv_mem α → Nat → Option (α × hv_mem α)}
    (hrec : level_spec1 sc m recur) {fuel : Nat} (hfuel : sc.n + 1 ≤ fuel) :
    level_spec1 sc (m + 1) (fun s c => hv_general_v1 fuel sc.ref (m + 1) recur s 0 c) := by
  intro s S hinv hS
  have hdm : m + 1 < sc.d := hmd
  have hperm := chain_perm hok hdm hinv.nodup hinv.sub
  have hlen := chain_length hok hdm hinv.nodup hinv.sub
  have hle := chain_length_le hok hdm S
  obtain ⟨L, hLdef⟩ : ∃ L, L = sc.chain (m + 1) S := ⟨_, rfl⟩
  rw [← hLdef] at hperm hlen hle
  have hnd : L.Nodup := by
    rw [hLdef]; exact (List.nodup_cons.mp (chain_nodup hok hdm S)).2
  have hsub : ∀ p, p ∈ L → p ∈ sc.ord 0 := fun p hp => hinv.sub p (hperm.mem_iff.mp hp)
  have hsorted : L.Pairwise (fun a b => sc.X a (m + 1) ≤ sc.X b (m + 1)) := by
    rw [hLdef]; exact chain_sorted hok hdm S
  have hchain : ∀ i, i < sc.d → sc.chain i L = sc.chain i S := by
    intro i hi
    rw [hLdef]
    exact chain_chain S (fun p hp => (hok.mem (m + 1) hdm p).mpr ((hok.mem i hi p).mp hp))
  have hE : ∀ i, 1 ≤ i → i < m + 1 →
      Linked (s.view.nx i) (s.view.pv i) 0 (sc.chain i L) 0 := by
    intro i h1 h2
    rw [hchain i (by omega)]
    exact hinv.linked i h1 (by omega)
  have hlt : Linked (s.view.nx (m + 1)) (s.view.pv (m + 1)) 0 L 0 := by
    rw [hLdef]
    exact hinv.linked (m + 1) (by omega) (le_refl _)
  have hLne : L ≠ [] := by
    intro h
    rw [h] at hlen
    simp at hlen
    omega
  obtain ⟨A, p1, hA⟩ : ∃ A p1, L = A ++ [p1] := by
    rcases List.eq_nil_or_concat L with h | ⟨A, p1, h⟩
    · exact absurd h hLne
    · exact ⟨A, p1, by rw [h, List.concat_eq_append]⟩
  have hprev : (s.node 0).prev (m + 1) = p1 := by
    show s.view.pv (m + 1) 0 = p1
    rw [Linked.pv_last hlt]
    simp [hA]
  have hAlen : A.length + 1 = S.length := by
    rw [← hlen, hA]; simp
  have hAfuel : A.length < fuel := by
    rw [hA] at hle
    simp only [List.length_append, List.length_singleton] at hle
    omega
  -- the deletions
  obtain ⟨s1, a0, R, d1, d2, d3, d4, d5⟩ := hv_delete_loop_v1_spec (show 1 ≤ m + 1 by omega) hlt
    fuel s A [] p1 hA rfl hAfuel
  have hst1 : stat sc s1 := stat.of_xs hinv.st d4 (fun q => by rw [d5])
  have hL1 : L = ([] ++ [a0]) ++ R := by rw [d1]; rfl
  have hL0 : L = [a0] ++ R := d1
  have hnd1 : ([a0] ++ R).Nodup := by rw [← hL0]; exact hnd
  have hinv1 : inv1 sc m s1 [a0] := by
    have ha0 : a0 ∈ L := by rw [d1]; simp
    refine ⟨fun p hp => by rw [List.mem_singleton.mp hp]; exact hsub a0 ha0,
      List.nodup_singleton _, fun i h1 h2 => ?_, hst1⟩
    rw [d3]
    exact linked_dels1 hok (m + 1) s.view h1 (by omega) (by omega) R [a0] hnd1
      (by rw [← hL0]; exact hsub) (by rw [← hL0]; exact hE i h1 (by omega))
  obtain ⟨s2, e2, f1, f2, f3, f4⟩ := hrec s1 [a0] hinv1 (by simp)
  have hst2 : stat sc s2 := stat.of_xs hst1 f3 (fun q => by rw [f4])
  -- the reinsertions
  have hRfuel : R.length < fuel := by
    rw [d1] at hle
    simp only [List.length_cons] at hle
    omega
  obtain ⟨s3, L1, pl, hv', ha', e3, q1, q2, q3, q4, q5, q6, q7⟩ :=
    hv_reinsert_loop_v1_spec hok h1m hmd hnd hsub hsorted hE hlt hrec fuel s2 [] a0 R 0
      (sc.vol (m + 1) sc.ref [a0]) hL1 hst2 (by rw [f1, d3]) (by rw [f2, d3])
      (by simp [scene.vol, union_volume_nil]) rfl hRfuel
  have hst3 : stat sc s3 := stat.of_xs hst2 q4 (fun q => by rw [q5])
  have hplL : pl ∈ L := by rw [q1]; simp
  have hXl : s3.X pl (m + 1) = some (sc.X pl (m + 1)) := hst3.node_x pl (hsub pl hplL) _
  have hlel : ∀ a, a ∈ L1 → sc.X a (m + 1) ≤ sc.X pl (m + 1) := by
    intro a ha
    have hs := hsorted
    rw [q1] at hs
    exact (List.pairwise_append.mp hs).2.2 a ha pl (by simp)
  refine ⟨s3, ?_, q2, q3, ((q4.trans f3).trans d4), ((q5.trans f4).trans d5)⟩
  show hv_general_v1 fuel sc.ref (m + 1) recur s 0 S.length = _
  unfold hv_general_v1
  simp only [hprev]
  rw [← hAlen]
  have d2' : hv_delete_loop_v1 (m + 1) fuel s 0 p1 (A.length + 1)
      = some (s1, (R ++ [0]).head (by simp), a0, 1) := d2
  rw [d2']
  simp only []
  have e2' : recur s1 1 = some (sc.vol (m + 1) sc.ref [a0], s2) := e2
  rw [e2']
  simp only []
  have e3' : hv_reinsert_loop_v1 (m + 1) recur fuel s2 ((R ++ [0]).head (by simp)) a0 1 0
      (sc.vol (m + 1) sc.ref [a0]) = some (s3, pl, hv', ha') := e3
  rw [e3']
  simp only [hXl]
  have hfin : hv' + ha' * (sc.ref (m + 1) - sc.X pl (m + 1)) = sc.vol (m + 1 + 1) sc.ref S := by
    rw [← vol_perm sc (m + 1 + 1) sc.ref hperm, q1, vol_slab_ref sc (m + 1) sc.ref hlel, ← q1,
      ← q6, ← q7]
    ring
  rw [hfin]

/-- The function `hv_recursive` (VARIANT 1) meets the contract of every
dimension from 1 on. -/
theorem hv_recursive_v1_spec {sc : scene α} (hok : sc.ok) {fuel : Nat}
    (hfuel : sc.n + 1 ≤ fuel) :
    ∀ m, 1 ≤ m → m < sc.d → level_spec1 sc m (fun s c => hv_recursive_v1 fuel sc.ref 0 m s c)
  | 0, h, _ => absurd h (by omega)
  | 1, _, hd => by
    have h := hv_dim1_level hok hd hfuel
    intro s S hinv hS
    obtain ⟨s', e, r⟩ := h s S hinv hS
    refine ⟨s', ?_, r⟩
    show hv_recursive_v1 fuel sc.ref 0 1 s S.length = _
    unfold hv_recursive_v1
    exact e
  | m + 2, _, hd => by
    have ih := hv_recursive_v1_spec hok hfuel (m + 1) (by omega) (by omega)
    have h := hv_general_v1_spec hok (show 1 ≤ m + 1 by omega) hd ih hfuel
    intro s S hinv hS
    obtain ⟨s', e, r⟩ := h s S hinv hS
    refine ⟨s', ?_, r⟩
    show hv_recursive_v1 fuel sc.ref 0 (m + 2) s S.length = _
    unfold hv_recursive_v1
    exact e

theorem fpli_hv_v1_zero (q : qsort_t α) (data : List α) (d : Nat) (ref : Nat → α) :
    fpli_hv_v1 q data (d + 1) 0 ref = none := by
  simp [fpli_hv_v1, setup_cdllist_zero]

/-- No point is strictly below the reference: `fpli_hv` (VARIANT 1) returns 0. -/
theorem fpli_hv_v1_none_below (q : qsort_t α) (data : List α) (d n : Nat) (ref : Nat → α)
    (hn : 1 ≤ n) (h0 : (dominating_points data d n ref).length = 0) :
    fpli_hv_v1 q data d n ref = some 0 := by
  obtain ⟨s0, h1, hb⟩ := setup_filter_spec q data d n ref hn
  obtain ⟨s1, C, hf, _⟩ := hb s0.bound
  have hf' : filter s0 d n ref = some (s1, (dominating_points data d n ref).length) := hf
  unfold fpli_hv_v1
  rw [h1]
  simp only []
  rw [hf', h0]
  simp

/-- One point is strictly below the reference: `fpli_hv` (VARIANT 1) returns
the volume of its box. -/
theorem fpli_hv_v1_one_below (q : qsort_t α) (data : List α) (d n : Nat) (ref : Nat → α)
    (hd : 1 ≤ d) (hN : (dominating_points data d n ref).length = 1) :
    fpli_hv_v1 q data d n ref
      = some (union_volume d ref (dominating_points data d n ref)) := by
  have hNn := dominating_points_length_le data d n ref
  have hn : 1 ≤ n := by omega
  obtain ⟨s0, h1, hb⟩ := setup_filter_spec q data d n ref hn
  obtain ⟨s1, C, hf, h3, h4, h5, h6, h7, _⟩ := hb s0.bound
  have hf' : filter s0 d n ref = some (s1, (dominating_points data d n ref).length) := hf
  have hlen : (C 0).length = 1 := by
    have := (h5 0 hd).length_eq
    rw [List.length_map, hN] at this
    exact this
  obtain ⟨a, ha⟩ := List.length_eq_one.mp hlen
  have hlink := h3.linked 0 hd
  rw [ha] at hlink
  simp only [Linked] at hlink
  have hn0 : (s1.node 0).next 0 = a := hlink.1
  have hperm := h5 0 hd
  rw [ha, List.map_cons, List.map_nil] at hperm
  have hdp : dominating_points data d n ref = [point_of data d (a - 1)] :=
    (List.perm_singleton.mp hperm.symm)
  unfold fpli_hv_v1
  rw [h1]
  simp only []
  rw [hf', hN]
  simp only [one_ne_zero, if_false, if_true]
  rw [hn0, fpli_prod_spec ref s1 a (h3.node_x 0 hd a (by rw [ha]; simp)) d 0 1]
  have hco := (h6 0 hd a (by rw [ha]; simp)).2.2
  rw [hdp, union_volume_singleton, hco, one_mul, box_volume, List.range_eq_range']

/-- For `d ≥ 2` and at least two points strictly below the reference,
`fpli_hv` (VARIANT 1) returns the volume of the union of their boxes. -/
theorem fpli_hv_v1_deep (q : qsort_t α) (data : List α) (d n : Nat) (ref : Nat → α)
    (hd : 2 ≤ d) (h2 : 2 ≤ (dominating_points data d n ref).length) :
    fpli_hv_v1 q data d n ref
      = some (union_volume d ref (dominating_points data d n ref)) := by
  have hNn := dominating_points_length_le data d n ref
  have hn : 1 ≤ n := by omega
  obtain ⟨s0', C0, hs0', _, _, hx0, hdata0⟩ := setup_cdllist_spec q data d n hn
  obtain ⟨s0, h1, hb⟩ := setup_filter_spec q data d n ref hn
  obtain ⟨s1, C, hf, h3, h4, h5, h6, h7, h8⟩ := hb s0.bound
  have es0 : s0' = s0 := Option.some.inj (hs0'.symm.trans h1)
  subst es0
  obtain ⟨_, _, _, a4⟩ := setup_filter_aux q data d n ref s0'.bound h1 hf
  have hf' : filter s0' d n ref = some (s1, (dominating_points data d n ref).length) := hf
  have hd0 : 0 < d := by omega
  -- the scene
  obtain ⟨sc, hsc⟩ : ∃ sc : scene α, sc =
      { X := fun p => point_of data d (p - 1), ref := ref, ord := C, d := d, n := n } :=
    ⟨_, rfl⟩
  have hX : sc.X = fun p => point_of data d (p - 1) := by rw [hsc]
  have hord : sc.ord = C := by rw [hsc]
  have hsd : sc.d = d := by rw [hsc]
  have hsn : sc.n = n := by rw [hsc]
  have href : sc.ref = ref := by rw [hsc]
  have hlen0 : (C 0).length = (dominating_points data d n ref).length := by
    rw [← (h5 0 hd0).length_eq, List.length_map]
  have hok : sc.ok := by
    refine ⟨fun i hi => ?_, fun i hi p => ?_, fun i hi => ?_, fun p hp k hk => ?_, ?_⟩
    · rw [hord]; exact h3.nodup i (by rw [← hsd]; exact hi)
    · rw [hord]; exact (h3.perm i 0 (by rw [← hsd]; exact hi) hd0).mem_iff
    · rw [hord, hX]
      have hi' : i < d := by rw [← hsd]; exact hi
      refine (h3.sorted i hi').imp_of_mem (fun {a b} ha hb hab => ?_)
      show point_of data d (a - 1) i ≤ point_of data d (b - 1) i
      rw [← (h6 i hi' a ha).2.2, ← (h6 i hi' b hb).2.2]
      exact hab
    · rw [hord] at hp
      rw [hX, href]
      exact (h6 0 hd0 p hp).2.1 k (by rw [← hsd]; exact hk)
    · rw [hord, hsn, hlen0]; exact hNn
  have hchain : ∀ i, i < d → sc.chain i (C 0) = C i := by
    intro i hi
    unfold scene.chain
    rw [hord]
    exact List.filter_eq_self.mpr (fun p hp => by
      simpa using (h3.perm i 0 hi hd0).mem_iff.mp hp)
  have hinv : inv1 sc (d - 1) s1 (C 0) := by
    refine ⟨fun p hp => by rw [hord]; exact hp, (List.nodup_cons.mp (h3.nodup 0 hd0)).2,
      fun i _ hi => ?_, ⟨h3.head_x, fun p hp k => ?_, fun p hp => ?_, fun p hp => ?_⟩⟩
    · rw [hchain i (by omega)]
      exact h3.linked i (by omega)
    · rw [hord] at hp
      have hxp := h8 p (h6 0 hd0 p hp).1
      rw [(coord_of_x hxp k).1, (h6 0 hd0 p hp).2.2, hX]
    · rw [hord] at hp
      have hxp := h8 p (h6 0 hd0 p hp).1
      simp only [hv_mem.xptr, hxp, h4, hX]
      congr 1
    · rw [hord] at hp
      have hpn := (h6 0 hd0 p hp).1
      rw [a4 p hpn]
      simp only [hv_mem.xptr, hx0 p hpn, hdata0, hX, Option.getD_some]
      funext k
      simp [deref, point_of]
  have hspec := hv_recursive_v1_spec hok (show sc.n + 1 ≤ n + 2 by rw [hsn]; omega) (d - 1)
    (by omega) (by rw [hsd]; omega)
  obtain ⟨s', e, _⟩ := hspec s1 (C 0) hinv (by rw [hlen0]; omega)
  rw [href, hlen0] at e
  have hvol : sc.vol (d - 1 + 1) ref (C 0)
      = union_volume d ref (dominating_points data d n ref) := by
    have e1 : d - 1 + 1 = d := by omega
    rw [e1]
    unfold scene.vol
    rw [hX]
    exact union_volume_perm d ref (h5 0 hd0)
  rw [hvol] at e
  have e' : hv_recursive_v1 (n + 2) ref 0 (d - 1) s1 (dominating_points data d n ref).length
      = some (union_volume d ref (dominating_points data d n ref), s') := e
  unfold fpli_hv_v1
  rw [h1]
  simp only []
  rw [hf']
  simp only []
  rw [if_neg (by omega), if_neg (by omega), if_neg (by omega), e']

/-- Functional correctness of `fpli_hv` as compiled with `VARIANT == 1`, for
at least one point and two dimensions. -/
theorem fpli_hv_v1_correct (q : qsort_t α) (data : List α) (d n : Nat) (ref : Nat → α)
    (hd : 2 ≤ d) (hn : 1 ≤ n) :
    fpli_hv_v1 q data d n ref
      = some (union_volume d ref (dominating_points data d n ref)) := by
  rcases Nat.lt_or_ge (dominating_points data d n ref).length 2 with hN | hN
  · rcases Nat.eq_zero_or_pos (dominating_points data d n ref).length with h0 | h0
    · rw [fpli_hv_v1_none_below q data d n ref hn h0, List.length_eq_zero.mp h0,
        union_volume_nil]
    · exact fpli_hv_v1_one_below q data d n ref (by omega) (by omega)
  · exact fpli_hv_v1_deep q data d n ref hd hN

/-- C32: for every input with `d ≥ 3` (exact arithmetic, coordinates at least
`-DBL_MAX`), the value computed by the VARIANT 4 code path, with the skipped
recursive calls, the cached `area`/`vol` values and the array `bound`, equals
the value computed by the VARIANT 1 recursion, which deletes, recurses on and
reinserts every point; for `n ≥ 1` both are the volume of the union of the
boxes of the points strictly below the reference, and for `n = 0` neither
yields a value. -/
theorem fpli_hv_variant4_eq_variant1 (q : qsort_t α) (data : List α) (d n : Nat)
    (ref : Nat → α) (hd : 3 ≤ d) (hlow : ∀ x, x ∈ data → -DBL_MAX ≤ x) :
    fpli_hv q data d n ref = fpli_hv_v1 q data d n ref ∧
      (1 ≤ n → fpli_hv_v1 q data d n ref
        = some (union_volume d ref (dominating_points data d n ref))) := by
  refine ⟨?_, fun hn => fpli_hv_v1_correct q data d n ref (by omega) hn⟩
  rcases Nat.eq_zero_or_pos n with h0 | hn
  · subst h0
    obtain ⟨d', rfl⟩ : ∃ d', d = d' + 1 := ⟨d - 1, by omega⟩
    rw [fpli_hv_zero, fpli_hv_v1_zero]
  · rw [fpli_hv_correct q data d n ref (by omega) hn hlow,
      fpli_hv_v1_correct q data d n ref (by omega) hn]

theorem fpli_hv_variant4_eq_variant1_witness :
    (3 ≤ 3 ∧ ∀ x, x ∈ ([1, 2, 3, 3, 2, 1, 2, 3, 1] : List Int) → -DBL_MAX ≤ x) ∧
    (fpli_hv qsort_insertion ([1, 2, 3, 3, 2, 1, 2, 3, 1] : List Int) 3 3 (fun _ => 4)
        = fpli_hv_v1 qsort_insertion ([1, 2, 3, 3, 2, 1, 2, 3, 1] : List Int) 3 3 (fun _ => 4) ∧
      (1 ≤ 3 → fpli_hv_v1 qsort_insertion ([1, 2, 3, 3, 2, 1, 2, 3, 1] : List Int) 3 3
          (fun _ => 4)
        = some (union_volume 3 (fun _ => 4)
          (dominating_points ([1, 2, 3, 3, 2, 1, 2, 3, 1] : List Int) 3 3 (fun _ => 4))))) :=
  ⟨⟨by decide, low_of_nonneg (by decide)⟩,
    fpli_hv_variant4_eq_variant1 qsort_insertion ([1, 2, 3, 3, 2, 1, 2, 3, 1] : List Int) 3 3
      (fun _ => 4) (by decide) (low_of_nonneg (by decide))⟩

end

/-! ## The value of `fpli_hv` -/

section
set_option linter.unusedSectionVars false
variable {α : Type} [LinearOrderedCommRing α]

/-- C1: for every dimension `d ≥ 1`, every list of `n ≥ 1` points of `d`
coordinates (each at least `-DBL_MAX`) and every reference point, in exact
arithmetic, `fpli_hv` returns the `d`-dimensional volume of the union of the
boxes `[p, ref]` of the points `p` that are strictly below `ref` in every
coordinate. The binding `hypervolume`, the only caller, never passes the empty
list: with no point it raises `TypeError` before the call. -/
theorem fpli_hv_union_volume (q : qsort_t α) (data : List α) (d n : Nat) (ref : Nat → α)
    (hd : 1 ≤ d) (hn : 1 ≤ n) (hlow : ∀ x, x ∈ data → -DBL_MAX ≤ x) :
    fpli_hv q data d n ref = some (union_volume d ref (dominating_points data d n ref)) ∧
      ∀ lPyReference : List α, hypervolume q [] lPyReference
        = py_result.type_error "Reference point is not of same dimensionality as point set" := by
  refine ⟨fpli_hv_correct q data d n ref hd hn hlow, fun lPyReference => ?_⟩
  have h : ¬ ((lPyReference.length : Int) = -1) := by omega
  simp [hypervolume, read_points, h]

theorem fpli_hv_union_volume_witness :
    (1 ≤ 2 ∧ 1 ≤ 3 ∧ ∀ x, x ∈ ([1, 3, 2, 2, 3, 1] : List Int) → -DBL_MAX ≤ x) ∧
    (fpli_hv qsort_insertion ([1, 3, 2, 2, 3, 1] : List Int) 2 3 (fun _ => 4)
        = some (union_volume 2 (fun _ => 4)
          (dominating_points ([1, 3, 2, 2, 3, 1] : List Int) 2 3 (fun _ => 4))) ∧
      ∀ lPyReference : List Int, hypervolume qsort_insertion [] lPyReference
        = py_result.type_error "Reference point is not of same dimensionality as point set") ∧
    fpli_hv qsort_insertion ([1, 3, 2, 2, 3, 1] : List Int) 2 3 (fun _ => 4) = some 6 :=
  ⟨⟨by decide, by decide, low_of_nonneg (by decide)⟩,
    fpli_hv_union_volume qsort_insertion ([1, 3, 2, 2, 3, 1] : List Int) 2 3 (fun _ => 4)
      (by decide) (by decide) (low_of_nonneg (by decide)),
    by decide⟩

/-- C2, amended: in exact arithmetic, for every `d ≥ 1`, every list of
`n ≥ 1` points (coordinates at least `-DBL_MAX`) and every reference point,
`fpli_hv` returns a value and the value is `≥ 0`. -/
theorem fpli_hv_value_nonneg (q : qsort_t α) (data : List α) (d n : Nat) (ref : Nat → α)
    (hd : 1 ≤ d) (hn : 1 ≤ n) (hlow : ∀ x, x ∈ data → -DBL_MAX ≤ x) :
    ∃ v, fpli_hv q data d n ref = some v ∧ 0 ≤ v := by
  refine ⟨_, fpli_hv_correct q data d n ref hd hn hlow, ?_⟩
  apply union_volume_nonneg d (dominating_points data d n ref).length ref _ (le_refl _)
  intro p hp i hi
  have hb : below d ref p := by
    have := (List.mem_filter.mp hp).2
    simpa using this
  exact le_of_lt (hb i hi)

theorem fpli_hv_value_nonneg_witness :
    (1 ≤ 2 ∧ 1 ≤ 3 ∧ ∀ x, x ∈ ([1, 3, 2, 2, 3, 1] : List Int) → -DBL_MAX ≤ x) ∧
    ∃ v, fpli_hv qsort_insertion ([1, 3, 2, 2, 3, 1] : List Int) 2 3 (fun _ => 4) = some v ∧
      0 ≤ v :=
  ⟨⟨by decide, by decide, low_of_nonneg (by decide)⟩,
    fpli_hv_value_nonneg qsort_insertion ([1, 3, 2, 2, 3, 1] : List Int) 2 3 (fun _ => 4)
      (by decide) (by decide) (low_of_nonneg (by decide))⟩

end

/-! ## Rounding and overflow in `double` arithmetic -/

set_option maxRecDepth 4000 in
/-- C2, counterexample: in `double` arithmetic, for the reference
`(1e308, 1)` and two nodes with the point `(-1e308, 0)` in chain 1, the sweep
of branch `dim == 1` computes `ref[0] - hypera = inf` and multiplies it by the
step `0 - 0` of coordinate 1: the value returned is NaN, and `0 <= NaN` is
false. -/
theorem fpli_hv_value_nan :
    chain_double [Ieee.double.fin 156575653125701 976, 1]
      [[Ieee.double.fin (-156575653125701) 976, 0],
        [Ieee.double.fin (-156575653125701) 976, 0]] ∧
    fpli_hv_double [Ieee.double.fin 156575653125701 976, 1]
      [[Ieee.double.fin (-156575653125701) 976, 0],
        [Ieee.double.fin (-156575653125701) 976, 0]] = some Ieee.double.nan ∧
    ¬ ((0 : Ieee.double) ≤ Ieee.double.nan) := by
  decide

set_option maxRecDepth 4000 in
/-- C7, counterexample: in `double` arithmetic, with the reference `(1, 1)`,
the points `(0.2, 0.1)` and `(0.1, 0.2)` (chain 1 in this order) give `0.8`;
with the point `(0.5, 0.9)`, which `(0.1, 0.2)` dominates, added (it comes
last in chain 1) the sweep returns `0.7999999999999999`. The values are
`0.1 = 3602879701896397 * 2^-55`, `0.2 = 3602879701896397 * 2^-54`,
`0.5 = 2^-1`, `0.9 = 8106479329266893 * 2^-53`,
`0.8 = 3602879701896397 * 2^-52` and
`0.7999999999999999 = 7205759403792793 * 2^-53`. -/
theorem fpli_hv_dominated_point_rounded :
    chain_double [1, 1]
      [[Ieee.double.fin 3602879701896397 (-54), Ieee.double.fin 3602879701896397 (-55)],
        [Ieee.double.fin 3602879701896397 (-55), Ieee.double.fin 3602879701896397 (-54)],
        [Ieee.double.fin 1 (-1), Ieee.double.fin 8106479329266893 (-53)]] ∧
    (Ieee.double.fin 3602879701896397 (-55) < Ieee.double.fin 1 (-1) ∧
      Ieee.double.fin 3602879701896397 (-54) < Ieee.double.fin 8106479329266893 (-53)) ∧
    fpli_hv_double [1, 1]
      [[Ieee.double.fin 3602879701896397 (-54), Ieee.double.fin 3602879701896397 (-55)],
        [Ieee.double.fin 3602879701896397 (-55), Ieee.double.fin 3602879701896397 (-54)]]
      = some (Ieee.double.fin 3602879701896397 (-52)) ∧
    fpli_hv_double [1, 1]
      [[Ieee.double.fin 3602879701896397 (-54), Ieee.double.fin 3602879701896397 (-55)],
        [Ieee.double.fin 3602879701896397 (-55), Ieee.double.fin 3602879701896397 (-54)],
        [Ieee.double.fin 1 (-1), Ieee.double.fin 8106479329266893 (-53)]]
      = some (Ieee.double.fin 7205759403792793 (-53)) := by
  decide

set_option maxRecDepth 4000 in
/-- C8, counterexample: in `double` arithmetic, with the reference
`(1e308, 2)` and the finite point `p = (-1e308, 1)`
(`1e308 = 156575653125701 * 2^976`): for `p` alone the product of lines
1478-1480 overflows to `inf`; for two copies of `p` the sweep of branch
`dim == 1` multiplies `ref[0] - hypera = inf` by the step `1 - 1 = 0` and
returns NaN. -/
theorem fpli_hv_duplicate_point_overflow :
    chain_double [Ieee.double.fin 156575653125701 976, 2]
      [[Ieee.double.fin (-156575653125701) 976, 1],
        [Ieee.double.fin (-156575653125701) 976, 1]] ∧
    fpli_hv_double [Ieee.double.fin 156575653125701 976, 2]
      [[Ieee.double.fin (-156575653125701) 976, 1]] = some (Ieee.double.inf false) ∧
    fpli_hv_double [Ieee.double.fin 156575653125701 976, 2]
      [[Ieee.double.fin (-156575653125701) 976, 1],
        [Ieee.double.fin (-156575653125701) 976, 1]] = some Ieee.double.nan := by
  decide

end Hv

/-! ## Properties of the NSGA-II selection -/

namespace CTools

section nsga2_properties
set_option linter.unusedSectionVars false
variable {α : Type} [LinearOrderedCommRing α]

theorem forall_get_cons {β : Type} (P : β → β → Prop) (a b : β) (as bs : List β) :
    (∀ (i : Nat) (x y : β), (a :: as)[i]? = some x → (b :: bs)[i]? = some y → P x y) ↔
      P a b ∧ ∀ (i : Nat) (x y : β), as[i]? = some x → bs[i]? = some y → P x y := by
  constructor
  · intro h
    exact ⟨h 0 a b (by simp) (by simp), fun i x y hx hy => h (i + 1) x y (by simpa using hx) (by simpa using hy)⟩
  · rintro ⟨h0, h1⟩ i x y hx hy
    cases i with
    | zero =>
      simp only [List.getElem?_cons_zero, Option.some.injEq] at hx hy
      rw [← hx, ← hy]; exact h0
    | succ i => exact h1 i x y (by simpa using hx) (by simpa using hy)

theorem exists_get_cons {β : Type} (P : β → β → Prop) (a b : β) (as bs : List β) :
    (∃ (i : Nat) (x y : β), (a :: as)[i]? = some x ∧ (b :: bs)[i]? = some y ∧ P x y) ↔
      P a b ∨ ∃ (i : Nat) (x y : β), as[i]? = some x ∧ bs[i]? = some y ∧ P x y := by
  constructor
  · rintro ⟨i, x, y, hx, hy, h⟩
    cases i with
    | zero =>
      simp only [List.getElem?_cons_zero, Option.some.injEq] at hx hy
      left; rw [hx, hy]; exact h
    | succ i => exact Or.inr ⟨i, x, y, by simpa using hx, by simpa using hy, h⟩
  · rintro (h | ⟨i, x, y, hx, hy, h⟩)
    · exact ⟨0, a, b, by simp, by simp, h⟩
    · exact ⟨i + 1, x, y, by simpa using hx, by simpa using hy, h⟩

theorem isDominated_loop_spec : ∀ (a b : List α) (notEqual : Bool), a.length = b.length →
    ∃ r, isDominated_loop a b notEqual = some r ∧
      (r = true ↔ (∀ (i : Nat) (x y : α), a[i]? = some x → b[i]? = some y → x ≤ y) ∧
        (notEqual = true ∨ ∃ (i : Nat) (x y : α), a[i]? = some x ∧ b[i]? = some y ∧ x < y))
  | [], b, notEqual, _ => by
    refine ⟨notEqual, by cases b <;> rfl, ?_⟩
    simp
  | a :: as, [], _, h => by simp at h
  | a :: as, b :: bs, notEqual, h => by
    have hl : as.length = bs.length := by simpa using h
    rw [forall_get_cons, exists_get_cons]
    by_cases h1 : a > b
    · refine ⟨false, by simp [isDominated_loop, h1], ?_⟩
      simp only [Bool.false_eq_true, false_iff, not_and]
      intro h2
      exact absurd h2.1 (not_le.mpr h1)
    · by_cases h2 : a < b
      · obtain ⟨r, hr, hiff⟩ := isDominated_loop_spec as bs true hl
        refine ⟨r, by simp [isDominated_loop, h1, h2, hr], ?_⟩
        rw [hiff]
        simp [h2, le_of_lt h2]
      · obtain ⟨r, hr, hiff⟩ := isDominated_loop_spec as bs notEqual hl
        refine ⟨r, by simp [isDominated_loop, h1, h2, hr], ?_⟩
        rw [hiff]
        have : a ≤ b := not_lt.mp h1
        simp [h2, this]

theorem isDominated_spec (a b : List α) (h : a.length = b.length) :
    ∃ r, isDominated a b = some r ∧ (r = true ↔ dominates b a) := by
  obtain ⟨r, hr, hiff⟩ := isDominated_loop_spec a b false h
  refine ⟨r, hr, ?_⟩
  rw [hiff, dominates]
  constructor
  · rintro ⟨h1, h2⟩
    refine ⟨fun i x y hx hy => h1 i y x hy hx, ?_⟩
    rcases h2 with h2 | ⟨i, x, y, hx, hy, hlt⟩
    · simp at h2
    · exact ⟨i, y, x, hy, hx, hlt⟩
  · rintro ⟨h1, i, x, y, hx, hy, hlt⟩
    exact ⟨fun i x y hx hy => h1 i y x hy hx, Or.inr ⟨i, y, x, hy, hx, hlt⟩⟩

theorem dominates_irrefl (a : List α) : ¬ dominates a a := by
  rintro ⟨_, i, x, y, hx, hy, hlt⟩
  rw [hx] at hy
  simp only [Option.some.injEq] at hy
  rw [hy] at hlt
  exact lt_irrefl _ hlt

theorem dominates_asymm {a b : List α} (h : dominates a b) : ¬ dominates b a := by
  rintro ⟨h2, _⟩
  obtain ⟨_, i, x, y, hx, hy, hlt⟩ := h
  exact absurd (h2 i y x hy hx) (not_le.mpr hlt)

theorem dominates_trans {a b w : List α} (hab : a.length = b.length) (hbc : b.length = w.length)
    (h1 : dominates a b) (h2 : dominates b w) : dominates a w := by
  have hget : ∀ (i : Nat) (x : α), a[i]? = some x → ∃ y, b[i]? = some y := by
    intro i x hx
    have hi : i < b.length := by
      rw [← hab]
      by_contra hcon
      rw [List.getElem?_eq_none (not_lt.mp hcon)] at hx
      simp at hx
    exact ⟨b[i], List.getElem?_eq_getElem hi⟩
  have hget2 : ∀ (i : Nat) (y : α), b[i]? = some y → ∃ z, w[i]? = some z := by
    intro i y hy
    have hi : i < w.length := by
      rw [← hbc]
      by_contra hcon
      rw [List.getElem?_eq_none (not_lt.mp hcon)] at hy
      simp at hy
    exact ⟨w[i], List.getElem?_eq_getElem hi⟩
  refine ⟨fun i x z hx hz => ?_, ?_⟩
  · obtain ⟨y, hy⟩ := hget i x hx
    exact le_trans (h2.1 i y z hy hz) (h1.1 i x y hx hy)
  · obtain ⟨i, x, y, hx, hy, hlt⟩ := h1.2
    obtain ⟨z, hz⟩ := hget2 i y hy
    exact ⟨i, x, z, hx, hz, lt_of_le_of_lt (h2.1 i y z hy hz) hlt⟩

/-- The test of `selNSGA2` on two individuals of a well-formed population is
Pareto dominance of their fitness vectors. -/
theorem dom_ind_iff {fit : List (List α)} {m : Nat} (hwf : wf_pop fit m) (x y : Nat) :
    dom_ind fit x y = true ↔
      ∃ fx fy, fit[x]? = some fx ∧ fit[y]? = some fy ∧ dominates fx fy := by
  unfold dom_ind
  rcases hx : fit[x]? with _ | fx
  · simp
  rcases hy : fit[y]? with _ | fy
  · simp
  have hlx : fx.length = m := hwf fx (List.getElem?_mem hx)
  have hly : fy.length = m := hwf fy (List.getElem?_mem hy)
  obtain ⟨r, hr, hiff⟩ := isDominated_spec fy fx (hly.trans hlx.symm)
  simp only [hr, beq_iff_eq, Option.some.injEq, hiff]
  constructor
  · intro h; exact ⟨fx, fy, rfl, rfl, h⟩
  · rintro ⟨fx', fy', h1, h2, h⟩
    subst h1 h2
    exact h

theorem dom_ind_lt {fit : List (List α)} {x y : Nat} (h : dom_ind fit x y = true) :
    x < fit.length ∧ y < fit.length := by
  unfold dom_ind at h
  rcases hx : fit[x]? with _ | fx
  · simp [hx] at h
  rcases hy : fit[y]? with _ | fy
  · simp [hx, hy] at h
  constructor
  · by_contra hcon
    rw [List.getElem?_eq_none (not_lt.mp hcon)] at hx
    simp at hx
  · by_contra hcon
    rw [List.getElem?_eq_none (not_lt.mp hcon)] at hy
    simp at hy

theorem dom_ind_asymm {fit : List (List α)} {m : Nat} (hwf : wf_pop fit m) {x y : Nat}
    (h : dom_ind fit x y = true) : dom_ind fit y x = false := by
  by_contra hcon
  rw [Bool.not_eq_false] at hcon
  obtain ⟨fx, fy, hx, hy, h1⟩ := (dom_ind_iff hwf x y).mp h
  obtain ⟨fy', fx', hy', hx', h2⟩ := (dom_ind_iff hwf y x).mp hcon
  rw [hx] at hx'; rw [hy] at hy'
  simp only [Option.some.injEq] at hx' hy'
  subst hx' hy'
  exact dominates_asymm h1 h2

theorem dom_ind_trans {fit : List (List α)} {m : Nat} (hwf : wf_pop fit m) {x y z : Nat}
    (h1 : dom_ind fit x y = true) (h2 : dom_ind fit y z = true) : dom_ind fit x z = true := by
  obtain ⟨fx, fy, hx, hy, h1⟩ := (dom_ind_iff hwf x y).mp h1
  obtain ⟨fy', fz, hy', hz, h2⟩ := (dom_ind_iff hwf y z).mp h2
  rw [hy] at hy'
  simp only [Option.some.injEq] at hy'
  subst hy'
  refine (dom_ind_iff hwf x z).mpr ⟨fx, fz, hx, hz, dominates_trans ?_ ?_ h1 h2⟩
  · rw [hwf fx (List.getElem?_mem hx), hwf fy (List.getElem?_mem hy)]
  · rw [hwf fy (List.getElem?_mem hy), hwf fz (List.getElem?_mem hz)]

theorem dom_ind_irrefl {fit : List (List α)} {m : Nat} (hwf : wf_pop fit m) (x : Nat) :
    dom_ind fit x x = false := by
  by_contra hcon
  rw [Bool.not_eq_false] at hcon
  have := dom_ind_asymm hwf hcon
  rw [hcon] at this
  exact absurd this (by simp)

/-- The body of the inner loop of the first ranking on a pair of individuals
of a well-formed population. -/
theorem rank_pair_eq {fit : List (List α)} {m : Nat} (hwf : wf_pop fit m) {i j : Nat}
    (hi : i < fit.length) (hj : j < fit.length) (st : rank_t) :
    rank_pair fit i st j = some (if dom_ind fit i j = true then rank_count st i j
      else if dom_ind fit j i = true then rank_count st j i else st) := by
  unfold rank_pair dom_ind
  rw [List.getElem?_eq_getElem hi, List.getElem?_eq_getElem hj]
  have hli : (fit[i]).length = m := hwf _ (List.getElem_mem hi)
  have hlj : (fit[j]).length = m := hwf _ (List.getElem_mem hj)
  obtain ⟨r1, hr1, -⟩ := isDominated_spec fit[j] fit[i] (hlj.trans hli.symm)
  obtain ⟨r2, hr2, -⟩ := isDominated_spec fit[i] fit[j] (hli.trans hlj.symm)
  simp only [hr1, hr2]
  cases r1 <;> cases r2 <;> simp

theorem countP_range_add (p q : Nat → Bool) (j : Nat) (hp : p j = false)
    (hq : ∀ y, q y = (p y || decide (y = j))) :
    ∀ n, j < n → (List.range n).countP q = (List.range n).countP p + 1 := by
  intro n
  induction n with
  | zero => intro h; omega
  | succ n ih =>
    intro hj
    rw [List.range_succ, List.countP_append, List.countP_append]
    by_cases hjn : j = n
    · subst hjn
      have h1 : (List.range j).countP q = (List.range j).countP p := by
        refine List.countP_congr (fun y hy => ?_)
        have : y ≠ j := by
          rw [List.mem_range] at hy; omega
        rw [hq y]; simp [this]
      have h2 : q j = true := by rw [hq j]; simp
      simp [h1, h2, hp]
    · have h1 := ih (by omega)
      have h2 : q n = p n := by
        rw [hq n]
        have : n ≠ j := fun e => hjn e.symm
        simp [this]
      rw [h1]
      simp only [List.countP_cons, List.countP_nil, h2]
      omega

theorem seen_step_other {n i j x y : Nat} (h : ¬ ((x = i ∧ y = j) ∨ (x = j ∧ y = i))) :
    seen n i (j + 1) x y = seen n i j x y := by
  unfold seen
  refine decide_eq_decide.mpr ?_
  constructor <;> intro h1 <;> refine ⟨h1.1, h1.2.1, h1.2.2.1, ?_⟩ <;> omega

theorem seen_step_pair {n i j : Nat} (hij : i < j) (hj : j < n) :
    seen n i (j + 1) i j = true ∧ seen n i (j + 1) j i = true ∧
      seen n i j i j = false ∧ seen n i j j i = false := by
  unfold seen
  refine ⟨?_, ?_, ?_, ?_⟩
  · exact decide_eq_true (by omega)
  · exact decide_eq_true (by omega)
  · exact decide_eq_false (by omega)
  · exact decide_eq_false (by omega)

theorem seen_next (n i x y : Nat) :
    seen n (i + 1) (i + 2) x y = seen n i n x y := by
  unfold seen
  refine decide_eq_decide.mpr ?_
  constructor <;> intro h1 <;> refine ⟨h1.1, h1.2.1, h1.2.2.1, ?_⟩ <;> omega

/-- The state after `lDominating[b]++; lDominatedInds[a].push_back(b)` for the
pair `i < j` in one of its two orders, when `a` dominates `b`. -/
theorem first_inv_count {fit : List (List α)} {m : Nat} (hwf : wf_pop fit m) {i j a b : Nat}
    {st : rank_t} (hij : i < j) (hj : j < fit.length)
    (hab : (a = i ∧ b = j) ∨ (a = j ∧ b = i)) (hd : dom_ind fit a b = true)
    (h : first_inv fit i j st) : first_inv fit i (j + 1) (rank_count st a b) := by
  have hba : dom_ind fit b a = false := dom_ind_asymm hwf hd
  have hne : a ≠ b := by rcases hab with ⟨h1, h2⟩ | ⟨h1, h2⟩ <;> omega
  have hsa : seen fit.length i (j + 1) a b = true ∧ seen fit.length i (j + 1) b a = true ∧
      seen fit.length i j a b = false ∧ seen fit.length i j b a = false := by
    have := @seen_step_pair fit.length i j hij hj
    rcases hab with ⟨h1, h2⟩ | ⟨h1, h2⟩ <;> subst h1 h2 <;> tauto
  refine ⟨fun x => ?_, fun x => ?_, fun x y => ?_, h.idx, h.front, h.sorted⟩
  · show Function.update st.lDominating b (st.lDominating b + 1) x = _
    by_cases hx : x = b
    · subst hx
      rw [Function.update_same, h.cnt]
      refine (countP_range_add _ _ a ?_ (fun y => ?_) _ ?_).symm
      · simp [hsa.2.2.2]
      · by_cases hy : y = a
        · subst hy
          simp [hd, hsa.2.1]
        · rw [seen_step_other (by rcases hab with ⟨h1, h2⟩ | ⟨h1, h2⟩ <;> omega)]
          simp [hy]
      · rcases hab with ⟨h1, h2⟩ | ⟨h1, h2⟩ <;> omega
    · rw [Function.update_noteq hx, h.cnt]
      refine List.countP_congr (fun y _ => ?_)
      by_cases hp : x = a ∧ y = b
      · rw [hp.1, hp.2]; simp [hba]
      · rw [seen_step_other (by rcases hab with ⟨h1, h2⟩ | ⟨h1, h2⟩ <;> omega)]
  · show (Function.update st.lDominatedInds a (st.lDominatedInds a ++ [b]) x).Nodup
    by_cases hx : x = a
    · subst hx
      rw [Function.update_same]
      refine List.Nodup.append (h.inds_nodup x) (List.nodup_singleton b) ?_
      intro y hy hy2
      rw [List.mem_singleton] at hy2
      subst hy2
      have := ((h.inds_mem x y).mp hy).2
      rw [hsa.2.2.1] at this
      exact absurd this (by simp)
    · rw [Function.update_noteq hx]
      exact h.inds_nodup x
  · show y ∈ Function.update st.lDominatedInds a (st.lDominatedInds a ++ [b]) x ↔ _
    by_cases hx : x = a
    · subst hx
      rw [Function.update_same, List.mem_append, List.mem_singleton, h.inds_mem]
      by_cases hy : y = b
      · subst hy
        simp [hd, hsa.1]
      · rw [seen_step_other (by rcases hab with ⟨h1, h2⟩ | ⟨h1, h2⟩ <;> omega)]
        simp [hy]
    · rw [Function.update_noteq hx, h.inds_mem]
      by_cases hp : x = b ∧ y = a
      · rw [hp.1, hp.2]; simp [hba]
      · rw [seen_step_other (by rcases hab with ⟨h1, h2⟩ | ⟨h1, h2⟩ <;> omega)]

theorem first_inv_pair {fit : List (List α)} {m : Nat} (hwf : wf_pop fit m) {i j : Nat}
    {st : rank_t} (hij : i < j) (hj : j < fit.length) (h : first_inv fit i j st) :
    ∃ st', rank_pair fit i st j = some st' ∧ first_inv fit i (j + 1) st' := by
  rw [rank_pair_eq hwf (by omega) hj]
  refine ⟨_, rfl, ?_⟩
  by_cases h1 : dom_ind fit i j = true
  · rw [if_pos h1]
    exact first_inv_count hwf hij hj (Or.inl ⟨rfl, rfl⟩) h1 h
  · rw [if_neg h1]
    by_cases h2 : dom_ind fit j i = true
    · rw [if_pos h2]
      exact first_inv_count hwf hij hj (Or.inr ⟨rfl, rfl⟩) h2 h
    · rw [if_neg h2]
      rw [Bool.not_eq_true] at h1 h2
      refine ⟨fun x => ?_, h.inds_nodup, fun x y => ?_, h.idx, h.front, h.sorted⟩
      · rw [h.cnt]
        refine List.countP_congr (fun y _ => ?_)
        by_cases hp : (x = i ∧ y = j) ∨ (x = j ∧ y = i)
        · rcases hp with ⟨hx, hy⟩ | ⟨hx, hy⟩ <;> subst hx hy <;> simp [h1, h2]
        · rw [seen_step_other hp]
      · rw [h.inds_mem]
        by_cases hp : (x = i ∧ y = j) ∨ (x = j ∧ y = i)
        · rcases hp with ⟨hx, hy⟩ | ⟨hx, hy⟩ <;> subst hx hy <;> simp [h1, h2]
        · rw [seen_step_other hp]

theorem first_inv_inner {fit : List (List α)} {m : Nat} (hwf : wf_pop fit m) {i : Nat} :
    ∀ (len j : Nat) (st : rank_t), i < j → j + len ≤ fit.length → first_inv fit i j st →
      ∃ st', (List.range' j len).foldlM (rank_pair fit i) st = some st' ∧
        first_inv fit i (j + len) st' := by
  intro len
  induction len with
  | zero => intro j st _ _ h; exact ⟨st, rfl, h⟩
  | succ len ih =>
    intro j st hij hlen h
    obtain ⟨st1, e1, h1⟩ := first_inv_pair hwf hij (by omega) h
    obtain ⟨st2, e2, h2⟩ := ih (j + 1) st1 (by omega) (by omega) h1
    refine ⟨st2, ?_, ?_⟩
    · rw [List.range'_succ, List.foldlM_cons, e1]
      exact e2
    · rw [show j + (len + 1) = j + 1 + len by omega]
      exact h2

theorem all_not_dom_iff {fit : List (List α)} (x : Nat) :
    (List.range fit.length).all (fun y => !dom_ind fit y x) = true ↔
      (List.range fit.length).countP (fun y => dom_ind fit y x) = 0 := by
  rw [List.all_eq_true, List.countP_eq_zero]
  constructor
  · intro h y hy; simpa using h y hy
  · intro h y hy; simpa using h y hy

theorem first_inv_outer {fit : List (List α)} {m : Nat} (hwf : wf_pop fit m) {i : Nat}
    {st : rank_t} (hi : i < fit.length) (h : first_inv fit i (i + 1) st) :
    ∃ st', rank_first_step fit fit.length st i = some st' ∧
      first_inv fit (i + 1) (i + 2) st' := by
  obtain ⟨st1, e1, h1⟩ := first_inv_inner hwf (fit.length - (i + 1)) (i + 1) st (by omega)
    (by omega) h
  rw [show i + 1 + (fit.length - (i + 1)) = fit.length by omega] at h1
  refine ⟨rank_first_check st1 i, by simp only [rank_first_step, e1], ?_⟩
  have hcnt : st1.lDominating i = (List.range fit.length).countP (fun y => dom_ind fit y i) := by
    rw [h1.cnt]
    refine List.countP_congr (fun y _ => ?_)
    by_cases hd : dom_ind fit y i = true
    · have hne : y ≠ i := by
        intro e; rw [e, dom_ind_irrefl hwf] at hd; exact absurd hd (by simp)
      have hy := (dom_ind_lt hd).1
      have : seen fit.length i fit.length i y = true := by
        unfold seen
        exact decide_eq_true (by omega)
      simp [hd, this]
    · simp [hd]
  have hseen : ∀ x y, seen fit.length (i + 1) (i + 2) x y = seen fit.length i fit.length x y :=
    fun x y => seen_next _ i x y
  unfold rank_first_check
  by_cases h0 : st1.lDominating i = 0
  · rw [if_pos h0]
    have hall : (List.range fit.length).all (fun y => !dom_ind fit y i) = true :=
      (all_not_dom_iff i).mpr (hcnt ▸ h0)
    refine ⟨fun x => ?_, h1.inds_nodup, fun x y => ?_, h1.idx, ?_, ?_⟩
    · show st1.lDominating x = _
      rw [h1.cnt]; simp only [hseen]
    · show y ∈ st1.lDominatedInds x ↔ _
      rw [h1.inds_mem, hseen]
    · show push_front st1.lParetoFront st1.lFrontIndex i = _
      rw [h1.front, h1.idx, List.range_succ, List.filter_append]
      simp [push_front, hall]
    · show st1.lParetoSorted + 1 = _
      rw [h1.sorted, List.range_succ, List.filter_append]
      simp [hall]
  · rw [if_neg h0]
    have hall : ¬ (List.range fit.length).all (fun y => !dom_ind fit y i) = true :=
      fun hh => h0 (hcnt ▸ (all_not_dom_iff i).mp hh)
    refine ⟨fun x => ?_, h1.inds_nodup, fun x y => ?_, h1.idx, ?_, ?_⟩
    · rw [h1.cnt]; simp only [hseen]
    · rw [h1.inds_mem, hseen]
    · rw [h1.front, List.range_succ, List.filter_append]
      simp [hall]
    · rw [h1.sorted, List.range_succ, List.filter_append]
      simp [hall]

theorem first_inv_init (fit : List (List α)) : first_inv fit 0 1 rank_init := by
  have hs : ∀ x y, seen fit.length 0 1 x y = false := by
    intro x y
    unfold seen
    exact decide_eq_false (by omega)
  refine ⟨fun x => ?_, fun x => List.nodup_nil, fun x y => ?_, rfl, rfl, rfl⟩
  · simp [rank_init, hs]
  · simp [rank_init, hs]

theorem first_inv_loop {fit : List (List α)} {m : Nat} (hwf : wf_pop fit m) :
    ∀ i, i ≤ fit.length → ∃ st, (List.range i).foldlM (rank_first_step fit fit.length) rank_init
      = some st ∧ first_inv fit i (i + 1) st := by
  intro i
  induction i with
  | zero => intro _; exact ⟨rank_init, rfl, first_inv_init fit⟩
  | succ i ih =>
    intro hi
    obtain ⟨st, e, h⟩ := ih (by omega)
    obtain ⟨st', e', h'⟩ := first_inv_outer hwf (by omega) h
    refine ⟨st', ?_, h'⟩
    rw [List.range_succ, List.foldlM_append, e]
    simp [e']

/-- The first ranking returns, and its state satisfies the invariant for all
pairs. -/
theorem rank_first_inv {fit : List (List α)} {m : Nat} (hwf : wf_pop fit m) :
    ∃ st, rank_first fit fit.length = some st ∧
      first_inv fit fit.length (fit.length + 1) st :=
  first_inv_loop hwf fit.length (le_refl _)

theorem push_front_last (pre : List (List Nat)) (cur : List Nat) (x : Nat) :
    push_front (pre ++ [cur]) pre.length x = pre ++ [cur ++ [x]] := by
  induction pre with
  | nil => rfl
  | cons f pre ih =>
    show f :: push_front (pre ++ [cur]) pre.length x = _
    rw [ih]; rfl

theorem peel_one_spec (st : rank_t) (D : Nat) (pre : List (List Nat)) (cur : List Nat)
    (hf : st.lParetoFront = pre ++ [cur]) (hi : st.lFrontIndex = pre.length)
    (hD : 1 ≤ st.lDominating D) :
    (peel_one st D).lParetoFront
        = pre ++ [cur ++ (if st.lDominating D = 1 then [D] else [])] ∧
      (peel_one st D).lFrontIndex = pre.length ∧
      (peel_one st D).lParetoSorted
        = st.lParetoSorted + (if st.lDominating D = 1 then [D] else []).length ∧
      (peel_one st D).lDominatedInds = st.lDominatedInds ∧
      (peel_one st D).lDominating
        = Function.update st.lDominating D (st.lDominating D - 1) := by
  have h0 : st.lDominating D ≠ 0 := by omega
  unfold peel_one
  simp only [if_neg h0]
  by_cases h1 : st.lDominating D = 1
  · have h2 : st.lDominating D - 1 = 0 := by omega
    simp only [h2, if_true, h1, hf, hi, push_front_last, List.length_singleton]
    exact ⟨trivial, trivial, trivial, trivial, trivial⟩
  · have h2 : ¬ st.lDominating D - 1 = 0 := by omega
    simp only [if_neg h2, if_neg h1, hf, hi, List.append_nil, List.length_nil, Nat.add_zero]
    exact ⟨trivial, trivial, trivial, trivial, trivial⟩

theorem peel_fold_spec : ∀ (Ds : List Nat) (st : rank_t) (pre : List (List Nat))
    (cur : List Nat), st.lParetoFront = pre ++ [cur] → st.lFrontIndex = pre.length →
    (∀ x, Ds.count x ≤ st.lDominating x) →
    ∃ pushed, (Ds.foldl peel_one st).lParetoFront = pre ++ [cur ++ pushed] ∧
      (Ds.foldl peel_one st).lFrontIndex = pre.length ∧
      (Ds.foldl peel_one st).lParetoSorted = st.lParetoSorted + pushed.length ∧
      (Ds.foldl peel_one st).lDominatedInds = st.lDominatedInds ∧
      (∀ x, (Ds.foldl peel_one st).lDominating x = st.lDominating x - Ds.count x) ∧
      pushed.Nodup ∧ ∀ x, x ∈ pushed ↔ (x ∈ Ds ∧ Ds.count x = st.lDominating x)
  | [], st, pre, cur, hf, hi, _ => by
    refine ⟨[], by simpa using hf, hi, rfl, rfl, fun x => by simp, List.nodup_nil, fun x => by simp⟩
  | D :: Ds, st, pre, cur, hf, hi, hc => by
    have hD : 1 ≤ st.lDominating D := by
      have := hc D
      rw [List.count_cons_self] at this
      omega
    obtain ⟨e1, e2, e3, e4, e5⟩ := peel_one_spec st D pre cur hf hi hD
    have hc1 : ∀ x, Ds.count x ≤ (peel_one st D).lDominating x := by
      intro x
      rw [e5]
      have := hc x
      by_cases hx : x = D
      · subst hx
        rw [List.count_cons_self] at this
        rw [Function.update_same]; omega
      · rw [List.count_cons_of_ne hx] at this
        rw [Function.update_noteq hx]; exact this
    obtain ⟨pushed, f1, f2, f3, f4, f5, f6, f7⟩ :=
      peel_fold_spec Ds (peel_one st D) pre _ e1 e2 hc1
    refine ⟨(if st.lDominating D = 1 then [D] else []) ++ pushed, ?_, f2, ?_, ?_, ?_, ?_, ?_⟩
    · rw [List.foldl_cons, f1, List.append_assoc]
    · rw [List.foldl_cons, f3, e3, List.length_append]; omega
    · rw [List.foldl_cons, f4, e4]
    · intro x
      rw [List.foldl_cons, f5, e5]
      by_cases hx : x = D
      · subst hx
        rw [Function.update_same, List.count_cons_self]; omega
      · rw [Function.update_noteq hx, List.count_cons_of_ne hx]
    · by_cases h1 : st.lDominating D = 1
      · rw [if_pos h1]
        refine List.nodup_cons.mpr ⟨fun hmem => ?_, f6⟩
        have := (f7 D).mp hmem
        rw [e5, Function.update_same, h1] at this
        have h2 := List.count_pos_iff.mpr this.1
        omega
      · rw [if_neg h1]; exact f6
    · intro x
      rw [List.mem_append, f7, e5]
      by_cases hx : x = D
      · subst hx
        rw [Function.update_same, List.count_cons_self]
        have hle := hc1 x
        rw [e5, Function.update_same] at hle
        constructor
        · rintro (h1 | ⟨_, h1⟩)
          · have : st.lDominating x = 1 := by
              by_contra hcon
              rw [if_neg hcon] at h1
              simp at h1
            exact ⟨List.mem_cons_self _ _, by omega⟩
          · exact ⟨List.mem_cons_self _ _, by omega⟩
        · rintro ⟨_, h1⟩
          by_cases h0 : Ds.count x = 0
          · left
            rw [if_pos (by omega)]
            exact List.mem_singleton_self x
          · right
            exact ⟨List.count_pos_iff.mp (by omega), by omega⟩
      · rw [Function.update_noteq hx, List.count_cons_of_ne hx]
        have hx2 : x ∉ (if st.lDominating D = 1 then [D] else []) := by
          split_ifs <;> simp [hx]
        simp [hx2, hx]

theorem peel_fold_inds (Ds : List Nat) : ∀ st : rank_t,
    (Ds.foldl peel_one st).lDominatedInds = st.lDominatedInds := by
  induction Ds with
  | nil => intro st; rfl
  | cons D Ds ih =>
    intro st
    rw [List.foldl_cons, ih]
    unfold peel_one
    simp only []
    split <;> split <;> rfl

theorem peel_front_flat : ∀ (F : List Nat) (st : rank_t),
    F.foldl (fun st lIndiceP => (st.lDominatedInds lIndiceP).foldl peel_one st) st
      = (F.flatMap st.lDominatedInds).foldl peel_one st
  | [], _ => rfl
  | P :: F, st => by
    rw [List.foldl_cons, peel_front_flat F, peel_fold_inds, List.flatMap_cons, List.foldl_append]

theorem count_flatMap_inds (d : Nat → Nat → Bool) (inds : Nat → List Nat)
    (hnd : ∀ x, (inds x).Nodup) (hmem : ∀ x y, y ∈ inds x ↔ d x y = true) (x : Nat) :
    ∀ cur : List Nat, (cur.flatMap inds).count x = cur.countP (fun P => d P x)
  | [] => rfl
  | P :: cur => by
    rw [List.flatMap_cons, List.count_append, count_flatMap_inds d inds hnd hmem x cur,
      List.countP_cons]
    by_cases h : d P x = true
    · rw [List.count_eq_one_of_mem (hnd P) ((hmem P x).mpr h)]
      simp [h]; omega
    · rw [List.count_eq_zero_of_not_mem (fun hh => h ((hmem P x).mp hh))]
      simp [h]

theorem countP_split (p r : Nat → Bool) (l : List Nat) :
    l.countP p = l.countP (fun y => p y && r y) + l.countP (fun y => p y && !r y) := by
  induction l with
  | nil => rfl
  | cons a l ih =>
    simp only [List.countP_cons, ih]
    cases p a <;> cases r a <;> simp <;> omega

theorem countP_sub_list (q : Nat → Bool) (cur : List Nat) (n : Nat) (hnd : cur.Nodup)
    (hlt : ∀ y, y ∈ cur → y < n) :
    cur.countP q = (List.range n).countP (fun y => q y && decide (y ∈ cur)) := by
  have hperm : ((List.range n).filter (fun y => decide (y ∈ cur))).Perm cur := by
    refine (List.perm_ext_iff_of_nodup ((List.nodup_range n).filter _) hnd).mpr (fun y => ?_)
    simp only [List.mem_filter, List.mem_range, decide_eq_true_eq]
    exact ⟨fun h => h.2, fun h => ⟨hlt y h, h⟩⟩
  rw [← hperm.countP_eq, List.countP_filter]

theorem exists_not_dominated (d : Nat → Nat → Bool)
    (htrans : ∀ x y z, d x y = true → d y z = true → d x z = true)
    (hirr : ∀ x, d x x = false) :
    ∀ l : List Nat, l ≠ [] → ∃ x, x ∈ l ∧ ∀ y, y ∈ l → d y x = false
  | [], h => absurd rfl h
  | [a], _ => ⟨a, List.mem_singleton_self a, fun y hy => by
      rw [List.mem_singleton.mp hy]; exact hirr a⟩
  | a :: b :: l, _ => by
    obtain ⟨x, hx, hmax⟩ := exists_not_dominated d htrans hirr (b :: l) (by simp)
    by_cases hax : d a x = true
    · refine ⟨a, List.mem_cons_self _ _, fun y hy => ?_⟩
      rcases List.mem_cons.mp hy with hy | hy
      · rw [hy]; exact hirr a
      · by_contra hcon
        rw [Bool.not_eq_false] at hcon
        have := htrans y a x hcon hax
        rw [hmax y hy] at this
        exact absurd this (by simp)
    · refine ⟨x, List.mem_cons_of_mem _ hx, fun y hy => ?_⟩
      rcases List.mem_cons.mp hy with hy | hy
      · rw [hy]; simpa using hax
      · exact hmax y hy

theorem seen_full {n x y : Nat} (hx : x < n) (hy : y < n) (hne : x ≠ y) :
    seen n n (n + 1) x y = true := by
  unfold seen
  exact decide_eq_true (by omega)

theorem getD_mid (pre : List (List Nat)) (cur : List Nat) (rest : List (List Nat)) :
    (pre ++ cur :: rest).getD pre.length [] = cur := by
  induction pre with
  | nil => rfl
  | cons f pre ih => simpa using ih

theorem mem_flatten_getD {fs : List (List Nat)} {y : Nat} :
    y ∈ fs.flatten ↔ ∃ s, s < fs.length ∧ y ∈ fs.getD s [] := by
  rw [List.mem_flatten]
  constructor
  · rintro ⟨l, hl, hy⟩
    obtain ⟨s, hs, e⟩ := List.getElem_of_mem hl
    refine ⟨s, hs, ?_⟩
    rw [List.getD_eq_getElem _ _ hs, e]
    exact hy
  · rintro ⟨s, hs, hy⟩
    rw [List.getD_eq_getElem _ _ hs] at hy
    exact ⟨_, List.getElem_mem hs, hy⟩

theorem getD_nil_of_le {fs : List (List Nat)} {s : Nat} (h : fs.length ≤ s) :
    fs.getD s [] = [] := by
  rw [List.getD_eq_default _ _ h]

/-- The first ranking establishes the invariant of the loop of line 135. -/
theorem rank_inv_first {fit : List (List α)} {m : Nat} (hwf : wf_pop fit m) :
    ∃ st, rank_first fit fit.length = some st ∧
      rank_inv fit [] ((List.range fit.length).filter
        (fun x => (List.range fit.length).all (fun y => !dom_ind fit y x))) st := by
  obtain ⟨st, e, h⟩ := rank_first_inv hwf
  refine ⟨st, e, ?_⟩
  have hseen : ∀ x y, dom_ind fit y x = true → seen fit.length fit.length (fit.length + 1) x y
      = true := by
    intro x y hd
    have hne : x ≠ y := by
      intro e; rw [e, dom_ind_irrefl hwf] at hd; exact absurd hd (by simp)
    exact seen_full (dom_ind_lt hd).2 (dom_ind_lt hd).1 hne
  have hseen2 : ∀ x y, dom_ind fit x y = true → seen fit.length fit.length (fit.length + 1) x y
      = true := by
    intro x y hd
    have hne : x ≠ y := by
      intro e; rw [e, dom_ind_irrefl hwf] at hd; exact absurd hd (by simp)
    exact seen_full (dom_ind_lt hd).1 (dom_ind_lt hd).2 hne
  have hcnt : ∀ x, st.lDominating x
      = (List.range fit.length).countP (fun y => dom_ind fit y x) := by
    intro x
    rw [h.cnt]
    refine List.countP_congr (fun y _ => ?_)
    by_cases hd : dom_ind fit y x = true
    · simp [hd, hseen x y hd]
    · simp [hd]
  refine ⟨by rw [h.front, List.range_eq_range']; simp [List.range_eq_range'],
    h.idx, by rw [h.sorted]; simp, ?_, ?_, ?_, ?_, h.inds_nodup, ?_, ?_⟩
  · simp only [List.nil_append, List.flatten_cons, List.flatten_nil, List.append_nil]
    exact (List.nodup_range _).filter _
  · intro x hx
    simp only [List.nil_append, List.flatten_cons, List.flatten_nil, List.append_nil] at hx
    exact List.mem_range.mp (List.mem_filter.mp hx).1
  · intro x
    rw [hcnt]
    refine List.countP_congr (fun y _ => ?_)
    simp
  · intro x hx
    simp only [List.nil_append, List.flatten_cons, List.flatten_nil, List.append_nil]
    rw [hcnt, List.mem_filter, List.mem_range, all_not_dom_iff]
    exact ⟨fun hh => hh.2, fun hh => ⟨hx, hh⟩⟩
  · intro x y
    rw [h.inds_mem]
    exact ⟨fun hh => hh.1, fun hh => ⟨hh, hseen2 x y hh⟩⟩
  · intro s x hx
    cases s with
    | zero =>
      simp only [List.nil_append, List.getD_cons_zero] at hx
      have hall := (List.mem_filter.mp hx).2
      rw [List.all_eq_true] at hall
      refine ⟨fun y hy => ?_, fun h0 => absurd h0 (lt_irrefl 0)⟩
      have := hall y (List.mem_range.mpr (dom_ind_lt hy).1)
      rw [hy] at this
      exact absurd this (by simp)
    | succ s =>
      simp at hx

theorem peel_front_eq {st : rank_t} {pre : List (List Nat)} {cur : List Nat}
    (hf : st.lParetoFront = pre ++ [cur]) (hi : st.lFrontIndex = pre.length) :
    peel_front st = (cur.flatMap st.lDominatedInds).foldl peel_one
      { st with lFrontIndex := st.lFrontIndex + 1, lParetoFront := st.lParetoFront ++ [[]] } := by
  unfold peel_front
  simp only []
  rw [peel_front_flat]
  have : (st.lParetoFront ++ [[]]).getD (st.lFrontIndex + 1 - 1) [] = cur := by
    rw [hf, hi, Nat.add_sub_cancel, List.append_assoc]
    exact getD_mid pre cur [[]]
  rw [this]

/-- One iteration of the loop of line 135 keeps the invariant, and the new
front is not empty while an individual is left. -/
theorem peel_front_inv {fit : List (List α)} {m : Nat} (hwf : wf_pop fit m)
    {pre : List (List Nat)} {cur : List Nat} {st : rank_t} (h : rank_inv fit pre cur st) :
    ∃ pushed, rank_inv fit (pre ++ [cur]) pushed (peel_front st) ∧
      (st.lParetoSorted < fit.length → pushed ≠ []) := by
  have hfl : (pre ++ [cur]).flatten = pre.flatten ++ cur := by simp
  have hnd := h.nodup
  rw [hfl] at hnd
  have hcur_nd : cur.Nodup := (List.nodup_append.mp hnd).2.1
  have hdisj : ∀ y, y ∈ cur → y ∉ pre.flatten := fun y hy hp =>
    (List.nodup_append.mp hnd).2.2 hp hy
  have hcur_lt : ∀ y, y ∈ cur → y < fit.length := fun y hy =>
    h.lt y (by rw [hfl]; exact List.mem_append_right _ hy)
  have hcount : ∀ x, (cur.flatMap st.lDominatedInds).count x
      = cur.countP (fun P => dom_ind fit P x) :=
    fun x => count_flatMap_inds (dom_ind fit) _ h.inds_nodup h.inds_mem x cur
  have hsplit : ∀ x, st.lDominating x = cur.countP (fun P => dom_ind fit P x)
      + (List.range fit.length).countP
        (fun y => dom_ind fit y x && !decide (y ∈ (pre ++ [cur]).flatten)) := by
    intro x
    rw [h.cnt, countP_split _ (fun y => decide (y ∈ cur)),
      countP_sub_list (fun P => dom_ind fit P x) cur fit.length hcur_nd hcur_lt]
    congr 1
    · refine List.countP_congr (fun y _ => ?_)
      by_cases hy : y ∈ cur
      · simp [hy, hdisj y hy]
      · simp [hy]
    · refine List.countP_congr (fun y _ => ?_)
      rw [hfl]
      simp [not_or, and_assoc]
  rw [peel_front_eq h.front h.idx]
  obtain ⟨pushed, f1, f2, f3, f4, f5, f6, f7⟩ := peel_fold_spec (cur.flatMap st.lDominatedInds)
    { st with lFrontIndex := st.lFrontIndex + 1, lParetoFront := st.lParetoFront ++ [[]] }
    (pre ++ [cur]) [] (by show st.lParetoFront ++ [[]] = _; rw [h.front])
    (by show st.lFrontIndex + 1 = _; rw [h.idx]; simp)
    (fun x => by
      show _ ≤ st.lDominating x
      rw [hcount, hsplit]; omega)
  have g5 : ∀ x, ((cur.flatMap st.lDominatedInds).foldl peel_one
      { st with lFrontIndex := st.lFrontIndex + 1,
                lParetoFront := st.lParetoFront ++ [[]] }).lDominating x
      = (List.range fit.length).countP
        (fun y => dom_ind fit y x && !decide (y ∈ (pre ++ [cur]).flatten)) := by
    intro x
    rw [f5]
    show st.lDominating x - _ = _
    rw [hcount, hsplit]; omega
  have g7 : ∀ x, x ∈ pushed ↔ ((∃ P, P ∈ cur ∧ dom_ind fit P x = true) ∧
      (List.range fit.length).countP
        (fun y => dom_ind fit y x && !decide (y ∈ (pre ++ [cur]).flatten)) = 0) := by
    intro x
    rw [f7]
    show _ ∧ _ = st.lDominating x ↔ _
    rw [hcount, hsplit, List.mem_flatMap]
    constructor
    · rintro ⟨⟨P, hP, hx⟩, hh⟩
      exact ⟨⟨P, hP, (h.inds_mem P x).mp hx⟩, by omega⟩
    · rintro ⟨⟨P, hP, hx⟩, hh⟩
      exact ⟨⟨P, hP, (h.inds_mem P x).mpr hx⟩, by omega⟩
  have hpushed_lt : ∀ x, x ∈ pushed → x < fit.length := by
    intro x hx
    obtain ⟨⟨P, _, hd⟩, _⟩ := (g7 x).mp hx
    exact (dom_ind_lt hd).2
  have hpushed_new : ∀ x, x ∈ pushed → x ∉ (pre ++ [cur]).flatten := by
    intro x hx hdone
    obtain ⟨⟨P, hP, hd⟩, _⟩ := (g7 x).mp hx
    have h0 := (h.done x (hpushed_lt x hx)).mp hdone
    rw [hsplit] at h0
    have : 0 < cur.countP (fun P => dom_ind fit P x) :=
      List.countP_pos_iff.mpr ⟨P, hP, hd⟩
    omega
  have hfl2 : ((pre ++ [cur]) ++ [pushed]).flatten = (pre ++ [cur]).flatten ++ pushed := by simp
  refine ⟨pushed, ⟨by simpa using f1, by rw [f2], ?_, ?_, ?_, g5, ?_, ?_, ?_, ?_⟩, ?_⟩
  · rw [f3, hfl2, List.length_append]
    show st.lParetoSorted + _ = _
    rw [h.sorted]
  · rw [hfl2]
    exact List.Nodup.append h.nodup f6 (fun x hx hp => hpushed_new x hp hx)
  · intro x hx
    rw [hfl2, List.mem_append] at hx
    rcases hx with hx | hx
    · exact h.lt x hx
    · exact hpushed_lt x hx
  · intro x hx
    rw [hfl2, List.mem_append, g5]
    constructor
    · rintro (hd | hp)
      · have h0 := (h.done x hx).mp hd
        rw [hsplit] at h0
        omega
      · exact ((g7 x).mp hp).2
    · intro h0
      by_cases hc : cur.countP (fun P => dom_ind fit P x) = 0
      · left
        exact (h.done x hx).mpr (by rw [hsplit]; omega)
      · right
        obtain ⟨P, hP, hd⟩ := List.countP_pos_iff.mp (Nat.pos_of_ne_zero hc)
        exact (g7 x).mpr ⟨⟨P, hP, hd⟩, h0⟩
  · intro x
    rw [f4]
    exact h.inds_nodup x
  · intro x y
    rw [f4]
    exact h.inds_mem x y
  · intro s x hx
    rcases Nat.lt_trichotomy s (pre ++ [cur]).length with hs | hs | hs
    · rw [List.getD_append _ _ _ _ hs] at hx
      obtain ⟨r1, r2⟩ := h.rank s x hx
      refine ⟨fun y hy => ?_, fun h0 => ?_⟩
      · obtain ⟨s', hs', hmem⟩ := r1 y hy
        exact ⟨s', hs', by rw [List.getD_append _ _ _ _ (by omega)]; exact hmem⟩
      · obtain ⟨y, hmem, hy⟩ := r2 h0
        exact ⟨y, by rw [List.getD_append _ _ _ _ (by omega)]; exact hmem, hy⟩
    · rw [hs, getD_mid (pre ++ [cur]) pushed []] at hx
      obtain ⟨⟨P, hP, hd⟩, h0⟩ := (g7 x).mp hx
      refine ⟨fun y hy => ?_, fun _ => ⟨P, ?_, hd⟩⟩
      · have hy2 : y ∈ (pre ++ [cur]).flatten := by
          by_contra hcon
          rw [List.countP_eq_zero] at h0
          have := h0 y (List.mem_range.mpr (dom_ind_lt hy).1)
          rw [hy, decide_eq_false hcon] at this
          simp at this
        obtain ⟨s', hs', hmem⟩ := mem_flatten_getD.mp hy2
        exact ⟨s', by omega, by rw [List.getD_append _ _ _ _ hs']; exact hmem⟩
      · rw [hs, List.getD_append _ _ _ _ (by simp)]
        have : (pre ++ [cur]).length - 1 = pre.length := by simp
        rw [this, getD_mid pre cur []]
        exact hP
    · rw [getD_nil_of_le (by simp at hs ⊢; omega)] at hx
      simp at hx
  · intro hlt hnil
    subst hnil
    -- an individual not yet ranked that no unranked individual dominates
    have hne : (List.range fit.length).filter (fun x => !decide (x ∈ (pre ++ [cur]).flatten))
        ≠ [] := by
      intro hemp
      have hsub : List.range fit.length ⊆ (pre ++ [cur]).flatten := by
        intro x hx
        by_contra hcon
        have : x ∈ (List.range fit.length).filter
            (fun x => !decide (x ∈ (pre ++ [cur]).flatten)) :=
          List.mem_filter.mpr ⟨hx, by rw [decide_eq_false hcon]; rfl⟩
        rw [hemp] at this
        simp at this
      have := ((List.nodup_range fit.length).subperm hsub).length_le
      rw [List.length_range, ← h.sorted] at this
      omega
    obtain ⟨x, hx, hmax⟩ := exists_not_dominated (dom_ind fit)
      (fun x y z h1 h2 => dom_ind_trans hwf h1 h2) (dom_ind_irrefl hwf) _ hne
    have hxlt : x < fit.length := List.mem_range.mp (List.mem_filter.mp hx).1
    have hxnew : x ∉ (pre ++ [cur]).flatten := by
      have := (List.mem_filter.mp hx).2
      simp only [Bool.not_eq_true', decide_eq_false_iff_not] at this
      exact this
    have h0 : (List.range fit.length).countP
        (fun y => dom_ind fit y x && !decide (y ∈ (pre ++ [cur]).flatten)) = 0 := by
      rw [List.countP_eq_zero]
      intro y hy
      by_cases hdone : y ∈ (pre ++ [cur]).flatten
      · rw [decide_eq_true hdone]; simp
      · have := hmax y (List.mem_filter.mpr ⟨hy, by rw [decide_eq_false hdone]; rfl⟩)
        rw [this]; simp
    have hc : cur.countP (fun P => dom_ind fit P x) ≠ 0 := by
      intro hc
      exact hxnew ((h.done x hxlt).mpr (by rw [hsplit]; omega))
    obtain ⟨P, hP, hd⟩ := List.countP_pos_iff.mp (Nat.pos_of_ne_zero hc)
    have := (g7 x).mpr ⟨⟨P, hP, hd⟩, h0⟩
    simp at this

theorem copy_row_wf : ∀ (ind : List α), copy_row ind.length ind = some ind
  | [] => rfl
  | w :: ws => by
    show (copy_row ws.length ws).map (fun r => w :: r) = _
    rw [copy_row_wf ws]; rfl

theorem copy_fit_wf {m : Nat} : ∀ (pop : List (List α)), wf_pop pop m →
    copy_fit m pop = some pop
  | [], _ => rfl
  | ind :: pop, h => by
    have h1 : ind.length = m := h ind (List.mem_cons_self _ _)
    have h2 : copy_fit m pop = some pop :=
      copy_fit_wf pop (fun i hi => h i (List.mem_cons_of_mem _ hi))
    unfold copy_fit
    rw [h2, ← h1, copy_row_wf]

theorem rank_inv_sorted_le {fit : List (List α)} {pre : List (List Nat)} {cur : List Nat}
    {st : rank_t} (h : rank_inv fit pre cur st) : st.lParetoSorted ≤ fit.length := by
  rw [h.sorted]
  have hsub : (pre ++ [cur]).flatten ⊆ List.range fit.length :=
    fun x hx => List.mem_range.mpr (h.lt x hx)
  have := (h.nodup.subperm hsub).length_le
  rwa [List.length_range] at this

/-- The loop of line 135 returns with the invariant; the fronts before the
last one hold fewer than `k` individuals. -/
theorem rank_others_spec {fit : List (List α)} {m : Nat} (hwf : wf_pop fit m) (k : Nat) :
    ∀ (fuel : Nat) (pre : List (List Nat)) (cur : List Nat) (st : rank_t),
      rank_inv fit pre cur st → (pre ≠ [] → pre.flatten.length < k) →
      (fit ≠ [] → ∀ f, f ∈ pre ++ [cur] → f ≠ []) →
      fit.length - st.lParetoSorted ≤ fuel →
      ∃ pre' cur' st', rank_others k fit.length fuel st = some st' ∧
        rank_inv fit pre' cur' st' ∧ (pre' ≠ [] → pre'.flatten.length < k) ∧
        (fit ≠ [] → ∀ f, f ∈ pre' ++ [cur'] → f ≠ []) ∧
        ¬ (st'.lParetoSorted < k ∧ st'.lParetoSorted < fit.length) ∧
        ∃ t, st' = peel_front^[t] st ∧
          ∀ t', t' < t → (peel_front^[t'] st).lParetoSorted < k := by
  intro fuel
  induction fuel with
  | zero =>
    intro pre cur st h hpre hfr hf
    refine ⟨pre, cur, st, ?_, h, hpre, hfr, ?_, 0, rfl,
      fun t' ht => absurd ht (Nat.not_lt_zero _)⟩
    · unfold rank_others
      rw [if_neg (by omega)]
    · omega
  | succ fuel ih =>
    intro pre cur st h hpre hfr hf
    by_cases hc : st.lParetoSorted < k ∧ st.lParetoSorted < fit.length
    · obtain ⟨pushed, hinv, hne⟩ := peel_front_inv hwf h
      have hgrow : (peel_front st).lParetoSorted = st.lParetoSorted + pushed.length := by
        rw [hinv.sorted, h.sorted]; simp [Nat.add_assoc]
      have hpos : 0 < pushed.length := List.length_pos.mpr (hne hc.2)
      obtain ⟨pre', cur', st', e, hinv', hpre', hfr', hstop, t, ht, hmin⟩ :=
        ih (pre ++ [cur]) pushed (peel_front st) hinv
          (fun _ => by rw [← h.sorted]; exact hc.1)
          (fun hfit f hf => by
            rcases List.mem_append.mp hf with hf | hf
            · exact hfr hfit f hf
            · rw [List.mem_singleton.mp hf]; exact hne hc.2) (by omega)
      refine ⟨pre', cur', st', ?_, hinv', hpre', hfr', hstop, t + 1, ?_, ?_⟩
      · unfold rank_others
        rw [if_pos hc]; exact e
      · rw [Function.iterate_succ_apply]; exact ht
      · intro t' ht'
        cases t' with
        | zero => exact hc.1
        | succ t' =>
          rw [Function.iterate_succ_apply]
          exact hmin t' (by omega)
    · refine ⟨pre, cur, st, ?_, h, hpre, hfr, hc, 0, rfl,
        fun t' ht => absurd ht (Nat.not_lt_zero _)⟩
      unfold rank_others
      rw [if_neg hc]

/-- The fronts only grow at the end along the iterations of the loop of line
135. -/
theorem peel_iterate_inv {fit : List (List α)} {m : Nat} (hwf : wf_pop fit m) :
    ∀ (t : Nat) (pre : List (List Nat)) (cur : List Nat) (st : rank_t),
      rank_inv fit pre cur st →
      ∃ pre' cur', rank_inv fit pre' cur' (peel_front^[t] st) ∧
        (pre ++ [cur]) <+: (pre' ++ [cur']) := by
  intro t
  induction t with
  | zero => intro pre cur st h; exact ⟨pre, cur, h, List.prefix_refl _⟩
  | succ t ih =>
    intro pre cur st h
    obtain ⟨pushed, hinv, -⟩ := peel_front_inv hwf h
    obtain ⟨pre', cur', h', hp⟩ := ih (pre ++ [cur]) pushed (peel_front st) hinv
    refine ⟨pre', cur', ?_, (List.prefix_append _ _).trans hp⟩
    rw [Function.iterate_succ_apply]; exact h'

theorem rank_inv_fronts_eq {fit : List (List α)} {pre pre' : List (List Nat)}
    {cur cur' : List Nat} {st : rank_t} (h : rank_inv fit pre cur st)
    (h' : rank_inv fit pre' cur' st) : pre ++ [cur] = pre' ++ [cur'] := by
  rw [← h.front, ← h'.front]

/-- The ranking of `selNSGA2` on a well-formed population returns; `lPopFit`
is the population, and the final state satisfies the invariant. -/
theorem selNSGA2_rank_spec {pop : List (List α)} {m : Nat} (hwf : wf_pop pop m) (k : Nat) :
    ∃ pre cur st, selNSGA2_rank pop pop.length m k = some (pop, st) ∧
      rank_inv pop pre cur st ∧ (pre ≠ [] → pre.flatten.length < k) ∧
      (pop ≠ [] → ∀ f, f ∈ pre ++ [cur] → f ≠ []) ∧
      ¬ (st.lParetoSorted < k ∧ st.lParetoSorted < pop.length) ∧
      ∃ st0 t, rank_first pop pop.length = some st0 ∧ st = peel_front^[t] st0 ∧
        ∀ t', t' < t → (peel_front^[t'] st0).lParetoSorted < k := by
  obtain ⟨st0, e0, h0⟩ := rank_inv_first hwf
  have hF0 : pop ≠ [] → ∀ f, f ∈ [] ++ [(List.range pop.length).filter
      (fun x => (List.range pop.length).all (fun y => !dom_ind pop y x))] → f ≠ [] := by
    intro hne f hf
    rw [List.nil_append, List.mem_singleton] at hf
    subst hf
    obtain ⟨x, hx, hmax⟩ := exists_not_dominated (dom_ind pop)
      (fun x y z h1 h2 => dom_ind_trans hwf h1 h2) (dom_ind_irrefl hwf) (List.range pop.length)
      (by
        intro hnil
        have := congrArg List.length hnil
        rw [List.length_range] at this
        exact hne (List.length_eq_zero.mp this))
    intro hemp
    have : x ∈ (List.range pop.length).filter
        (fun x => (List.range pop.length).all (fun y => !dom_ind pop y x)) := by
      refine List.mem_filter.mpr ⟨hx, List.all_eq_true.mpr (fun y hy => ?_)⟩
      rw [hmax y hy]; rfl
    rw [hemp] at this
    exact absurd this (List.not_mem_nil x)
  obtain ⟨pre, cur, st, e, h, hpre, hfr, hstop, t, ht, hmin⟩ :=
    rank_others_spec hwf k pop.length [] _ st0 h0 (fun hh => absurd rfl hh) hF0 (by omega)
  refine ⟨pre, cur, st, ?_, h, hpre, hfr, hstop, st0, t, e0, ht, hmin⟩
  unfold selNSGA2_rank
  rw [List.take_length, copy_fit_wf pop hwf]
  simp only [e0, e]

theorem append_fronts_whole (k : Nat) : ∀ (pre : List (List Nat)) (sel : List Nat)
    (rest : List (List Nat)), sel.length + pre.flatten.length ≤ k →
    append_fronts k (pre ++ rest) sel = append_fronts k rest (sel ++ pre.flatten)
  | [], sel, rest, _ => by simp
  | f :: pre, sel, rest, h => by
    have h1 : sel.length + f.length ≤ k := by
      simp only [List.flatten_cons, List.length_append] at h; omega
    have h2 : (sel ++ f).length + pre.flatten.length ≤ k := by
      simp only [List.flatten_cons, List.length_append] at h ⊢; omega
    show (if sel.length + f.length ≤ k then append_fronts k (pre ++ rest) (sel ++ f) else sel) = _
    rw [if_pos h1, append_fronts_whole k pre (sel ++ f) rest h2]
    simp

theorem append_fronts_last (k : Nat) (pre : List (List Nat)) (cur : List Nat)
    (h : pre.flatten.length ≤ k) :
    append_fronts k (pre ++ [cur]) [] =
      if pre.flatten.length + cur.length ≤ k then pre.flatten ++ cur else pre.flatten := by
  rw [append_fronts_whole k pre [] [cur] (by simpa using h)]
  simp only [List.nil_append]
  show (if pre.flatten.length + cur.length ≤ k then append_fronts k [] (pre.flatten ++ cur)
    else pre.flatten) = _
  rfl

theorem dist_lt_irrefl (a : dist_t α) : dist_lt a a = false := by
  cases a <;> simp [dist_lt]

theorem stable_sort_perm {β : Type} (comp : β → β → Bool) (l : List β) :
    (stable_sort comp l).Perm l :=
  List.perm_insertionSort _ l

theorem stable_sort_length {β : Type} (comp : β → β → Bool) (l : List β) :
    (stable_sort comp l).length = l.length :=
  List.length_insertionSort _ l

theorem stable_sort_sorted {β : Type} (comp : β → β → Bool)
    (htot : ∀ a b, comp b a = false ∨ comp a b = false)
    (htr : ∀ a b c, comp b a = false → comp c b = false → comp c a = false) (l : List β) :
    (stable_sort comp l).Pairwise (fun a b => comp b a = false) := by
  haveI : IsTotal β (fun a b => comp b a = false) := ⟨htot⟩
  haveI : IsTrans β (fun a b => comp b a = false) := ⟨htr⟩
  exact List.sorted_insertionSort _ l

theorem take_succ_reverse {β : Type} (ds : List β) (i : Nat) (h : i < ds.length) :
    (ds.take (i + 1)).reverse = ds[i] :: (ds.take i).reverse := by
  rw [List.take_succ, List.getElem?_eq_getElem h]
  simp

/-- The loop of lines 204-209 while enough positions are left: the next `r`
entries of the sorted `lDistances`, from position `i` downwards. -/
theorem pick_last_spec (k : Nat) (ds : List (dist_t α × Nat)) :
    ∀ (r fuel i : Nat) (sel : List Nat), r < fuel → sel.length + r = k →
      (r ≠ 0 → r ≤ i + 1 ∧ i < ds.length) →
      pick_last k ds fuel i sel
        = some (sel ++ (((ds.take (i + 1)).reverse).take r).map Prod.snd) := by
  intro r
  induction r with
  | zero =>
    intro fuel i sel hf hk _
    cases fuel with
    | zero => omega
    | succ fuel =>
      unfold pick_last
      rw [if_pos (by omega)]
      simp
  | succ r ih =>
    intro fuel i sel hf hk hi
    obtain ⟨hi1, hi2⟩ := hi (by omega)
    cases fuel with
    | zero => omega
    | succ fuel =>
      unfold pick_last
      rw [if_neg (by omega), List.getElem?_eq_getElem hi2]
      simp only []
      rw [take_succ_reverse ds i hi2, List.take_succ_cons, List.map_cons]
      by_cases hr : r = 0
      · subst hr
        rw [ih fuel _ (sel ++ [ds[i].2]) (by omega) (by simp; omega) (fun h => absurd rfl h)]
        simp
      · have hi0 : i ≠ 0 := by omega
        rw [if_neg hi0, ih fuel (i - 1) (sel ++ [ds[i].2]) (by omega) (by simp; omega)
          (fun _ => ⟨by omega, by omega⟩)]
        rw [show i - 1 + 1 = i by omega]
        simp

theorem dist_list_length (d : Nat → dist_t α) (L : List Nat) : (dist_list d L).length = L.length := by
  simp [dist_list]

theorem dist_list_snd (d : Nat → dist_t α) (L : List Nat) :
    (dist_list d L).map Prod.snd = L := by
  unfold dist_list
  rw [List.map_map]
  have : (Prod.snd ∘ fun p : Nat × Nat => (d p.1, p.2)) = Prod.snd := rfl
  rw [this, List.enum_map_snd]

theorem crowd_list_perm (fit : List (List α)) (L : List Nat) :
    ∀ i, ((crowd_list fit L i).map Prod.snd).Perm (List.range L.length)
  | 0 => by
    show (((L.enum.map (fun p => (fit.getD p.2 [], p.1)))).map Prod.snd).Perm _
    rw [List.map_map]
    have : (Prod.snd ∘ fun p : Nat × Nat => (fit.getD p.2 [], p.1)) = Prod.fst := rfl
    rw [this, List.enum_map_fst]
  | i + 1 => ((stable_sort_perm (FitComp i) (crowd_list fit L i)).map Prod.snd).trans
      (crowd_list_perm fit L i)

theorem crowd_list_length (fit : List (List α)) (L : List Nat) (i : Nat) :
    (crowd_list fit L i).length = L.length := by
  have := (crowd_list_perm fit L i).length_eq
  simpa using this

theorem crowd_list_nodup (fit : List (List α)) (L : List Nat) (i : Nat) :
    ((crowd_list fit L i).map Prod.snd).Nodup :=
  (crowd_list_perm fit L i).nodup_iff.mpr (List.nodup_range _)

theorem FitComp_sorted (i : Nat) (l : List (List α × Nat)) :
    (stable_sort (FitComp i) l).Pairwise (fun a b => a.1.getD i 0 ≤ b.1.getD i 0) := by
  have h := stable_sort_sorted (FitComp i)
    (fun a b => by
      simp only [FitComp, decide_eq_false_iff_not, not_lt]
      exact le_total _ _)
    (fun a b c h1 h2 => by
      simp only [FitComp, decide_eq_false_iff_not, not_lt] at h1 h2 ⊢
      exact le_trans h1 h2) l
  refine h.imp (fun {a b} hab => ?_)
  simpa [FitComp] using hab

/-- The loop of lines 194-197 over the distinct positions `js` of the sorted
list writes only the distances of the entries at these positions. -/
theorem crowd_gap_fold (i : Nat) (cl : List (List α × Nat)) :
    ∀ (js : List Nat) (d : Nat → dist_t α),
      (js.map (fun j => (cl.getD j ([], 0)).2)).Nodup →
      (∀ q, (∀ j, j ∈ js → (cl.getD j ([], 0)).2 ≠ q) →
        (js.foldl (crowd_gap i cl) d) q = d q) ∧
      (∀ j, j ∈ js → (js.foldl (crowd_gap i cl) d) (cl.getD j ([], 0)).2
        = (d (cl.getD j ([], 0)).2).map (fun v => v +
          ((cl.getD (j + 1) ([], 0)).1.getD i 0 - (cl.getD (j - 1) ([], 0)).1.getD i 0)))
  | [], d, _ => ⟨fun _ _ => rfl, fun j hj => absurd hj (List.not_mem_nil j)⟩
  | j0 :: js, d, hnd => by
    rw [List.map_cons, List.nodup_cons] at hnd
    obtain ⟨ih1, ih2⟩ := crowd_gap_fold i cl js (crowd_gap i cl d j0) hnd.2
    have hother : ∀ q, (cl.getD j0 ([], 0)).2 ≠ q → crowd_gap i cl d j0 q = d q := by
      intro q hq
      unfold crowd_gap
      rcases hv : d (cl.getD j0 ([], 0)).2 with _ | v
      · rfl
      · simp only []
        rw [Function.update_noteq (fun e => hq e.symm)]
    have hself : crowd_gap i cl d j0 (cl.getD j0 ([], 0)).2
        = (d (cl.getD j0 ([], 0)).2).map (fun v => v +
          ((cl.getD (j0 + 1) ([], 0)).1.getD i 0 - (cl.getD (j0 - 1) ([], 0)).1.getD i 0)) := by
      unfold crowd_gap
      rcases hv : d (cl.getD j0 ([], 0)).2 with _ | v
      · simp only [hv]; rfl
      · simp only []
        rw [Function.update_same]; rfl
    refine ⟨fun q hq => ?_, fun j hj => ?_⟩
    · rw [List.foldl_cons, ih1 q (fun j hj => hq j (List.mem_cons_of_mem _ hj)),
        hother q (hq j0 (List.mem_cons_self _ _))]
    · rcases List.mem_cons.mp hj with hj | hj
      · subst hj
        rw [List.foldl_cons, ih1 _ (fun j' hj' e => hnd.1 (List.mem_map.mpr ⟨j', hj', e⟩)), hself]
      · rw [List.foldl_cons, ih2 j hj, hother]
        intro e
        exact hnd.1 (List.mem_map.mpr ⟨j, hj, e.symm⟩)

/-- One pass of the loop over the objectives (lines 186-197) computes the
next list and the next distances of the specification. -/
theorem crowd_objective_spec (fit : List (List α)) (L : List Nat) (hL : L ≠ []) (i : Nat)
    (st : crowd_t α) (hcl : st.lCrowdingList = crowd_list fit L i)
    (hd : ∀ p, p < L.length → st.lDistances p = crowd_spec fit L i p) :
    ∃ st', crowd_objective st i = some st' ∧
      st'.lCrowdingList = crowd_list fit L (i + 1) ∧
      ∀ p, p < L.length → st'.lDistances p = crowd_spec fit L (i + 1) p := by
  have hlen : (crowd_list fit L (i + 1)).length = L.length := crowd_list_length fit L (i + 1)
  have hpos : 0 < L.length := List.length_pos.mpr hL
  have hnd := crowd_list_nodup fit L (i + 1)
  have hperm := crowd_list_perm fit L (i + 1)
  generalize hcl' : crowd_list fit L (i + 1) = cl at hlen hnd hperm
  have hgetD : ∀ j, j < L.length → ∃ h : j < cl.length, cl.getD j ([], 0) = cl[j] :=
    fun j hj => ⟨by omega, List.getD_eq_getElem _ _ (by omega)⟩
  have hinj : ∀ j j', j < L.length → j' < L.length →
      (cl.getD j ([], 0)).2 = (cl.getD j' ([], 0)).2 → j = j' := by
    intro j j' hj hj' e
    obtain ⟨h1, e1⟩ := hgetD j hj
    obtain ⟨h2, e2⟩ := hgetD j' hj'
    rw [e1, e2] at e
    have hj1 : j < (cl.map Prod.snd).length := by simpa using h1
    have hj2 : j' < (cl.map Prod.snd).length := by simpa using h2
    have e3 : (cl.map Prod.snd)[j] = (cl.map Prod.snd)[j'] := by simpa using e
    exact hnd.getElem_inj_iff.mp e3
  have hhead : cl.head? = some (cl.getD 0 ([], 0)) := by
    obtain ⟨h1, e1⟩ := hgetD 0 hpos
    rw [e1, List.head?_eq_getElem?, List.getElem?_eq_getElem h1]
  have hlast : cl.getLast? = some (cl.getD (L.length - 1) ([], 0)) := by
    obtain ⟨h1, e1⟩ := hgetD (L.length - 1) (by omega)
    rw [e1, List.getLast?_eq_getElem?, List.getElem?_eq_getElem (by omega)]
    simp only [hlen]
  have hext : ∀ j, j < L.length →
      (is_extreme cl (cl.getD j ([], 0)).2 = true ↔ (j = 0 ∨ j = L.length - 1)) := by
    intro j hj
    unfold is_extreme
    rw [hhead, hlast]
    simp only [Option.map_some', Bool.or_eq_true, beq_iff_eq, Option.some.injEq]
    constructor
    · rintro (e | e)
      · exact Or.inl (hinj 0 j hpos hj e).symm
      · exact Or.inr (hinj _ j (by omega) hj e).symm
    · rintro (e | e)
      · left; rw [e]
      · right; rw [e]
  have hjs : ((List.range' 1 (cl.length - 2)).map (fun j => (cl.getD j ([], 0)).2)).Nodup := by
    refine List.Nodup.map_on (fun x hx y hy e => ?_) (List.nodup_range' _ _)
    rw [List.mem_range'_1] at hx hy
    exact hinj x y (by omega) (by omega) e
  obtain ⟨g1, g2⟩ := crowd_gap_fold i cl (List.range' 1 (cl.length - 2))
    (Function.update (Function.update st.lDistances (cl.getD 0 ([], 0)).2 none)
      (cl.getD (L.length - 1) ([], 0)).2 none) hjs
  refine ⟨{ lCrowdingList := cl
            lDistances := (List.range' 1 (cl.length - 2)).foldl (crowd_gap i cl)
              (Function.update (Function.update st.lDistances (cl.getD 0 ([], 0)).2 none)
                (cl.getD (L.length - 1) ([], 0)).2 none) }, ?_, ?_, ?_⟩
  · have hcl2 : stable_sort (FitComp i) (crowd_list fit L i) = cl := hcl'
    unfold crowd_objective
    simp only [hcl, hcl2, hhead, hlast]
  · rfl
  · intro p hp
    show (List.foldl (crowd_gap i cl) _ _) p = _
    -- the position of `p` in the sorted list
    obtain ⟨j, hj, hjp⟩ : ∃ j, j < L.length ∧ (cl.getD j ([], 0)).2 = p := by
      have hmem : p ∈ cl.map Prod.snd := hperm.mem_iff.mpr (List.mem_range.mpr hp)
      obtain ⟨j, hj, e⟩ := List.getElem_of_mem hmem
      have hj2 : j < L.length := by simpa [hlen] using hj
      obtain ⟨h1, e1⟩ := hgetD j hj2
      exact ⟨j, hj2, by rw [e1]; simpa using e⟩
    have hidx : (cl.map Prod.snd).indexOf p = j := by
      obtain ⟨h1, e1⟩ := hgetD j hj
      have hj1 : j < (cl.map Prod.snd).length := by simpa using h1
      have : (cl.map Prod.snd)[j] = p := by
        rw [← hjp, e1]; simp
      rw [← this]
      exact List.indexOf_getElem hnd j hj1
    show _ = (if is_extreme (crowd_list fit L (i + 1)) p = true then none
      else (crowd_spec fit L i p).map
        (fun v => v + gap_of (crowd_list fit L (i + 1)) i p))
    rw [hcl']
    by_cases hx : j = 0 ∨ j = L.length - 1
    · have he : is_extreme cl p = true := by rw [← hjp]; exact (hext j hj).mpr hx
      rw [if_pos he, g1 p]
      · rcases hx with hx | hx
        · by_cases hq : p = (cl.getD (L.length - 1) ([], 0)).2
          · rw [hq, Function.update_same]
          · rw [Function.update_noteq hq, ← hjp, hx, Function.update_same]
        · rw [← hjp, hx, Function.update_same]
      · intro j' hj' e
        rw [List.mem_range'_1] at hj'
        have := hinj j' j (by omega) hj (e.trans hjp.symm)
        omega
    · have he : ¬ is_extreme cl p = true := by rw [← hjp]; exact fun h => hx ((hext j hj).mp h)
      rw [if_neg he]
      have hjmem : j ∈ List.range' 1 (cl.length - 2) := by
        rw [List.mem_range'_1]; omega
      have := g2 j hjmem
      rw [hjp] at this
      rw [this, Function.update_noteq, Function.update_noteq, hd p hp]
      · unfold gap_of
        rw [hidx]
      · intro e
        exact hx (Or.inl (hinj j 0 hj hpos (hjp.trans e)))
      · intro e
        exact hx (Or.inr (hinj j _ hj (by omega) (hjp.trans e)))

/-- The crowding distance pass returns the distances of the specification. -/
theorem crowd_distances_spec (fit : List (List α)) (L : List Nat) (hL : L ≠ []) (m : Nat) :
    ∃ c, crowd_distances fit m L = some c ∧
      c.lCrowdingList = crowd_list fit L m ∧
      ∀ p, p < L.length → c.lDistances p = crowd_spec fit L m p := by
  unfold crowd_distances
  induction m with
  | zero => exact ⟨crowd_init fit L, rfl, rfl, fun p _ => rfl⟩
  | succ m ih =>
    obtain ⟨c, e, h1, h2⟩ := ih
    obtain ⟨c', e', h1', h2'⟩ := crowd_objective_spec fit L hL m c h1 h2
    refine ⟨c', ?_, h1', h2'⟩
    rw [List.range_succ, List.foldlM_append, e]
    simp [e']

theorem selNSGA2_eq {pop : List (List α)} {m k : Nat} (hwf : wf_pop pop m) (hne : pop ≠ [])
    (hn : pop.length < 4294967296) (hm : m < 4294967296) (hk : k ≠ 0) {fit : List (List α)}
    {st : rank_t} (e : selNSGA2_rank pop pop.length m k = some (fit, st)) :
    selNSGA2 pop k = selNSGA2_select m fit st k := by
  cases pop with
  | nil => exact absurd rfl hne
  | cons ind0 rest =>
    have h0 : ind0.length = m := hwf ind0 (List.mem_cons_self _ _)
    unfold selNSGA2
    simp only [if_neg hk, h0, Nat.mod_eq_of_lt hn, Nat.mod_eq_of_lt hm, e]

theorem rank_inv_getLast {fit : List (List α)} {pre : List (List Nat)} {cur : List Nat}
    {st : rank_t} (h : rank_inv fit pre cur st) : st.lParetoFront.getLast? = some cur := by
  rw [h.front]; simp

/-- The selection of lines 150-211 from the ranked fronts when `k` is not
above the number of ranked individuals. -/
theorem selNSGA2_select_spec {fit : List (List α)} {pre : List (List Nat)} {cur : List Nat}
    {st : rank_t} (h : rank_inv fit pre cur st) (m k : Nat) (hpre : pre.flatten.length < k)
    (hk : k ≤ pre.flatten.length + cur.length) :
    (k = pre.flatten.length + cur.length ∧
      selNSGA2_select m fit st k = some (pre.flatten ++ cur)) ∨
    (k < pre.flatten.length + cur.length ∧ ∃ c, crowd_distances fit m cur = some c ∧
      (∀ p, p < cur.length → c.lDistances p = crowd_spec fit cur m p) ∧
      selNSGA2_select m fit st k = some (pre.flatten ++
        (((stable_sort crowdDistComp (dist_list c.lDistances cur)).reverse).take
          (k - pre.flatten.length)).map Prod.snd)) := by
  have happ := append_fronts_last k pre cur (le_of_lt hpre)
  rcases Nat.lt_or_ge k (pre.flatten.length + cur.length) with hlt | hge
  · right
    have hcur : cur ≠ [] := by
      intro e; rw [e, List.length_nil] at hlt; omega
    obtain ⟨c, hc, -, hcd⟩ := crowd_distances_spec fit cur hcur m
    refine ⟨hlt, c, hc, hcd, ?_⟩
    have happ2 : append_fronts k st.lParetoFront [] = pre.flatten := by
      rw [h.front, happ, if_neg (by omega)]
    unfold selNSGA2_select
    simp only [happ2, if_neg (ne_of_lt hpre), rank_inv_getLast h, hc]
    have hlen : (stable_sort crowdDistComp (dist_list c.lDistances cur)).length = cur.length := by
      rw [stable_sort_length, dist_list_length]
    have hpos : 0 < cur.length := List.length_pos.mpr hcur
    rw [hlen, if_neg (by omega), pick_last_spec k _ (k - pre.flatten.length) _ _ _
      (by omega) (by omega) (fun _ => ⟨by omega, by omega⟩)]
    rw [show cur.length - 1 + 1 = (stable_sort crowdDistComp
      (dist_list c.lDistances cur)).length by omega, List.take_length]
  · left
    have hkeq : k = pre.flatten.length + cur.length := by omega
    refine ⟨hkeq, ?_⟩
    have happ2 : append_fronts k st.lParetoFront [] = pre.flatten ++ cur := by
      rw [h.front, happ, if_pos (by omega)]
    unfold selNSGA2_select
    simp only [happ2, List.length_append]
    rw [if_pos hkeq.symm]

/-- The shape of the result of `selNSGA2` for `1 ≤ k ≤ n`. -/
theorem selNSGA2_main {pop : List (List α)} {m k : Nat} (hwf : wf_pop pop m) (hne : pop ≠ [])
    (hn : pop.length < 4294967296) (hm : m < 4294967296) (hk1 : 1 ≤ k)
    (hkn : k ≤ pop.length) :
    ∃ pre cur st, selNSGA2_rank pop pop.length m k = some (pop, st) ∧
      rank_inv pop pre cur st ∧ (∀ f, f ∈ pre ++ [cur] → f ≠ []) ∧
      pre.flatten.length < k ∧ k ≤ pre.flatten.length + cur.length ∧
      ((k = pre.flatten.length + cur.length ∧ selNSGA2 pop k = some (pre.flatten ++ cur)) ∨
       (k < pre.flatten.length + cur.length ∧ ∃ c, crowd_distances pop m cur = some c ∧
        (∀ p, p < cur.length → c.lDistances p = crowd_spec pop cur m p) ∧
        selNSGA2 pop k = some (pre.flatten ++
          (((stable_sort crowdDistComp (dist_list c.lDistances cur)).reverse).take
            (k - pre.flatten.length)).map Prod.snd))) := by
  obtain ⟨pre, cur, st, e, h, hpre, hfr, hstop, -⟩ := selNSGA2_rank_spec hwf k
  have hsorted : st.lParetoSorted = pre.flatten.length + cur.length := by
    rw [h.sorted]; simp
  have hpre' : pre.flatten.length < k := by
    by_cases hp : pre = []
    · rw [hp]; simpa using hk1
    · exact hpre hp
  have hk : k ≤ pre.flatten.length + cur.length := by
    rw [← hsorted]; omega
  refine ⟨pre, cur, st, e, h, hfr hne, hpre', hk, ?_⟩
  rw [selNSGA2_eq hwf hne hn hm (by omega) e]
  exact selNSGA2_select_spec h m k hpre' hk

theorem fronts_disjoint {fs : List (List Nat)} (hnd : fs.flatten.Nodup) {a b x : Nat}
    (ha : x ∈ fs.getD a []) (hb : x ∈ fs.getD b []) : a = b := by
  have halt : a < fs.length := by
    by_contra hcon
    rw [getD_nil_of_le (not_lt.mp hcon)] at ha
    exact absurd ha (List.not_mem_nil x)
  have hblt : b < fs.length := by
    by_contra hcon
    rw [getD_nil_of_le (not_lt.mp hcon)] at hb
    exact absurd hb (List.not_mem_nil x)
  rw [List.getD_eq_getElem _ _ halt] at ha
  rw [List.getD_eq_getElem _ _ hblt] at hb
  have hpw := (List.nodup_flatten.mp hnd).2
  rw [List.pairwise_iff_getElem] at hpw
  rcases Nat.lt_trichotomy a b with hab | hab | hab
  · exact absurd hb (fun hb => hpw a b halt hblt hab ha hb)
  · exact hab
  · exact absurd ha (fun ha => hpw b a hblt halt hab hb ha)

theorem crowd_spec_none_iff (fit : List (List α)) (L : List Nat) (p : Nat) :
    ∀ m, crowd_spec fit L m p = none ↔
      ∃ i, i < m ∧ is_extreme (crowd_list fit L (i + 1)) p = true := by
  intro m
  induction m with
  | zero => simp [crowd_spec]
  | succ m ih =>
    unfold crowd_spec
    by_cases hx : is_extreme (crowd_list fit L (m + 1)) p = true
    · rw [if_pos hx]
      exact ⟨fun _ => ⟨m, by omega, hx⟩, fun _ => rfl⟩
    · rw [if_neg hx, Option.map_eq_none', ih]
      constructor
      · rintro ⟨i, hi, h⟩; exact ⟨i, by omega, h⟩
      · rintro ⟨i, hi, h⟩
        have : i ≠ m := fun e => hx (e ▸ h)
        exact ⟨i, by omega, h⟩

theorem crowd_spec_some (fit : List (List α)) (L : List Nat) (p : Nat) :
    ∀ m, (∀ i, i < m → ¬ is_extreme (crowd_list fit L (i + 1)) p = true) →
      crowd_spec fit L m p = some (Finset.sum (Finset.range m)
        (fun i => gap_of (crowd_list fit L (i + 1)) i p)) := by
  intro m
  induction m with
  | zero => intro _; simp [crowd_spec]
  | succ m ih =>
    intro h
    unfold crowd_spec
    rw [if_neg (h m (by omega)), ih (fun i hi => h i (by omega)), Finset.sum_range_succ]
    rfl

/-- In the sort order of objective `i`, the successor of an inner position
has a value not below that of its predecessor. -/
theorem gap_of_nonneg (fit : List (List α)) (L : List Nat) (i p : Nat) (hp : p < L.length)
    (hx : ¬ is_extreme (crowd_list fit L (i + 1)) p = true) :
    0 ≤ gap_of (crowd_list fit L (i + 1)) i p := by
  have hlen : (crowd_list fit L (i + 1)).length = L.length := crowd_list_length fit L (i + 1)
  have hnd := crowd_list_nodup fit L (i + 1)
  have hperm := crowd_list_perm fit L (i + 1)
  have hsorted : (crowd_list fit L (i + 1)).Pairwise
      (fun a b => a.1.getD i 0 ≤ b.1.getD i 0) := FitComp_sorted i (crowd_list fit L i)
  generalize crowd_list fit L (i + 1) = cl at hlen hnd hperm hsorted hx
  have hmem : p ∈ cl.map Prod.snd := hperm.mem_iff.mpr (List.mem_range.mpr hp)
  have hj : (cl.map Prod.snd).indexOf p < cl.length := by
    have := List.indexOf_lt_length.mpr hmem
    simpa using this
  generalize hjdef : (cl.map Prod.snd).indexOf p = j at hj
  have hpj : (cl[j]).2 = p := by
    have := List.indexOf_get (l := cl.map Prod.snd) (a := p) (by rw [hjdef]; simpa using hj)
    simp only [hjdef, List.get_eq_getElem, List.getElem_map] at this
    exact this
  have hne0 : j ≠ 0 := by
    intro e
    apply hx
    unfold is_extreme
    have : cl.head? = some cl[j] := by
      rw [List.head?_eq_getElem?, ← e, List.getElem?_eq_getElem hj]
    rw [this]
    simp [hpj]
  have hnel : j ≠ cl.length - 1 := by
    intro e
    apply hx
    unfold is_extreme
    have : cl.getLast? = some cl[j] := by
      rw [List.getLast?_eq_getElem?, ← e, List.getElem?_eq_getElem hj]
    rw [this]
    simp [hpj]
  unfold gap_of
  rw [hjdef, List.getD_eq_getElem _ _ (show j + 1 < cl.length by omega),
    List.getD_eq_getElem _ _ (show j - 1 < cl.length by omega), sub_nonneg]
  exact (List.pairwise_iff_getElem.mp hsorted) (j - 1) (j + 1) (by omega) (by omega) (by omega)

/-- The first front of the ranking is the list of the individuals that no
individual dominates for the test of line 119. -/
theorem selNSGA2_rank_head {pop : List (List α)} {m : Nat} (hwf : wf_pop pop m) (k : Nat) :
    ∃ st, selNSGA2_rank pop pop.length m k = some (pop, st) ∧
      st.lParetoFront.headD [] = (List.range pop.length).filter
        (fun x => (List.range pop.length).all (fun y => !dom_ind pop y x)) := by
  obtain ⟨pre, cur, st, e, h, -, -, -, st0, t, e0, ht, -⟩ := selNSGA2_rank_spec hwf k
  obtain ⟨st0', e0', h0⟩ := rank_inv_first hwf
  rw [e0] at e0'
  simp only [Option.some.injEq] at e0'
  subst e0'
  obtain ⟨pre', cur', h', hp⟩ := peel_iterate_inv hwf t [] _ st0 h0
  rw [← ht] at h'
  obtain ⟨rest, hrest⟩ := hp
  refine ⟨st, e, ?_⟩
  rw [h'.front, ← hrest]
  rfl

theorem not_dominated_iff {pop : List (List α)} {m : Nat} (hwf : wf_pop pop m) (x : Nat) :
    x ∈ (List.range pop.length).filter
        (fun x => (List.range pop.length).all (fun y => !dom_ind pop y x)) ↔
      (x < pop.length ∧ ∀ (y : Nat) (fy fx : List α), pop[y]? = some fy → pop[x]? = some fx →
        ¬ dominates fy fx) := by
  rw [List.mem_filter, List.mem_range, List.all_eq_true]
  constructor
  · rintro ⟨hx, hall⟩
    refine ⟨hx, fun y fy fx hy hfx hd => ?_⟩
    have hdi : dom_ind pop y x = true := (dom_ind_iff hwf y x).mpr ⟨fy, fx, hy, hfx, hd⟩
    have := hall y (List.mem_range.mpr (dom_ind_lt hdi).1)
    rw [hdi] at this
    exact absurd this (by simp)
  · rintro ⟨hx, hnd⟩
    refine ⟨hx, fun y _ => ?_⟩
    by_contra hcon
    have hdi : dom_ind pop y x = true := by
      cases hd : dom_ind pop y x
      · rw [hd] at hcon; exact absurd rfl hcon
      · rfl
    obtain ⟨fy, fx, hy, hfx, hd⟩ := (dom_ind_iff hwf y x).mp hdi
    exact hnd y fy fx hy hfx hd

/-- C11 (the code diverges): with one individual and `k = 2` the individual is
selected twice, so two individuals are returned and not `min(2, 1) = 1`; with
`k = 3` the loop of line 204 reads `lDistances[4294967295]` and there is no
result. -/
theorem selNSGA2_k_above_population :
    selNSGA2 ([[1]] : List (List Int)) 2 = some [0, 0] ∧
      selNSGA2 ([[1]] : List (List Int)) 3 = none := by
  decide

/-- On linearly ordered values (no NaN): for fitness vectors `a` and `b` of
equal length, `isDominated a b` returns, and it returns true exactly when
`a[i] ≤ b[i]` for every objective `i` and `a[i] < b[i]` for at least one `i`,
that is, when `b` dominates `a`. -/
theorem isDominated_iff_dominated (a b : List α) (h : a.length = b.length) :
    ∃ r, isDominated a b = some r ∧
      (r = true ↔ ((∀ (i : Nat) (x y : α), a[i]? = some x → b[i]? = some y → x ≤ y) ∧
        ∃ (i : Nat) (x y : α), a[i]? = some x ∧ b[i]? = some y ∧ x < y)) ∧
      (r = true ↔ dominates b a) := by
  obtain ⟨r, hr, hiff⟩ := isDominated_loop_spec a b false h
  obtain ⟨r', hr', hiff'⟩ := isDominated_spec a b h
  have : r' = r := by
    have e : some r' = some r := hr'.symm.trans hr
    simpa using e
  subst this
  refine ⟨r', hr', ?_, hiff'⟩
  rw [hiff]
  simp

/-- Witness for `isDominated_iff_dominated`: `(1, 2)` is dominated by `(1, 3)`. -/
theorem isDominated_iff_dominated_witness :
    ([1, 2] : List Int).length = ([1, 3] : List Int).length ∧
      (∃ r, isDominated ([1, 2] : List Int) [1, 3] = some r ∧
        (r = true ↔ ((∀ (i : Nat) (x y : Int), ([1, 2] : List Int)[i]? = some x →
            ([1, 3] : List Int)[i]? = some y → x ≤ y) ∧
          ∃ (i : Nat) (x y : Int), ([1, 2] : List Int)[i]? = some x ∧
            ([1, 3] : List Int)[i]? = some y ∧ x < y)) ∧
        (r = true ↔ dominates ([1, 3] : List Int) [1, 2])) ∧
      isDominated ([1, 2] : List Int) [1, 3] = some true ∧
      isDominated ([1, 3] : List Int) [1, 2] = some false :=
  ⟨rfl, isDominated_iff_dominated [1, 2] [1, 3] rfl, by decide, by decide⟩

/-- On linearly ordered values (no NaN): for every population with fitness
vectors of one length `m` the ranking of `selNSGA2` returns, and its front 0
holds exactly the individuals `x` that no individual `y` of the population
dominates. -/
theorem first_front_not_dominated (pop : List (List α)) (m k : Nat) (hwf : wf_pop pop m) :
    ∃ st, selNSGA2_rank pop pop.length m k = some (pop, st) ∧
      ∀ x, x ∈ st.lParetoFront.headD [] ↔
        (x < pop.length ∧ ∀ (y : Nat) (fy fx : List α), pop[y]? = some fy →
          pop[x]? = some fx → ¬ dominates fy fx) := by
  obtain ⟨st, e, hhead⟩ := selNSGA2_rank_head hwf k
  refine ⟨st, e, fun x => ?_⟩
  rw [hhead]
  exact not_dominated_iff hwf x

/-- Witness for `first_front_not_dominated`: `(2, 2)` is dominated by `(3, 3)`,
and front 0 holds the three other individuals. -/
theorem first_front_not_dominated_witness :
    wf_pop ([[1, 5], [5, 1], [3, 3], [2, 2]] : List (List Int)) 2 ∧
      (∃ st, selNSGA2_rank ([[1, 5], [5, 1], [3, 3], [2, 2]] : List (List Int))
          ([[1, 5], [5, 1], [3, 3], [2, 2]] : List (List Int)).length 2 2
            = some (([[1, 5], [5, 1], [3, 3], [2, 2]] : List (List Int)), st) ∧
        ∀ x, x ∈ st.lParetoFront.headD [] ↔
          (x < ([[1, 5], [5, 1], [3, 3], [2, 2]] : List (List Int)).length ∧
            ∀ (y : Nat) (fy fx : List Int),
              ([[1, 5], [5, 1], [3, 3], [2, 2]] : List (List Int))[y]? = some fy →
              ([[1, 5], [5, 1], [3, 3], [2, 2]] : List (List Int))[x]? = some fx →
              ¬ dominates fy fx)) ∧
      (selNSGA2_rank ([[1, 5], [5, 1], [3, 3], [2, 2]] : List (List Int)) 4 2 2).map
        (fun r => r.2.lParetoFront) = some [[0, 1, 2]] :=
  ⟨by decide,
    first_front_not_dominated [[1, 5], [5, 1], [3, 3], [2, 2]] 2 2 (by decide),
    by decide⟩

theorem picked_facts (d : Nat → dist_t α) (cur : List Nat) (hnd : cur.Nodup) (r : Nat)
    (hr : r ≤ cur.length) :
    ((((stable_sort crowdDistComp (dist_list d cur)).reverse).take r).map Prod.snd).length = r ∧
    ((((stable_sort crowdDistComp (dist_list d cur)).reverse).take r).map Prod.snd).Nodup ∧
    ∀ x, x ∈ (((stable_sort crowdDistComp (dist_list d cur)).reverse).take r).map Prod.snd →
      x ∈ cur := by
  have hperm : ((stable_sort crowdDistComp (dist_list d cur)).map Prod.snd).Perm cur := by
    have := (stable_sort_perm crowdDistComp (dist_list d cur)).map Prod.snd
    rwa [dist_list_snd] at this
  have hlen : (stable_sort crowdDistComp (dist_list d cur)).length = cur.length := by
    rw [stable_sort_length, dist_list_length]
  have hsub : ((((stable_sort crowdDistComp (dist_list d cur)).reverse).take r).map
      Prod.snd).Sublist (((stable_sort crowdDistComp (dist_list d cur)).map Prod.snd).reverse) := by
    rw [← List.map_reverse]
    exact (List.take_sublist _ _).map _
  refine ⟨?_, ?_, fun x hx => ?_⟩
  · rw [List.length_map, List.length_take, List.length_reverse, hlen]
    omega
  · exact hsub.nodup (List.nodup_reverse.mpr (hperm.nodup_iff.mpr hnd))
  · exact hperm.mem_iff.mp (List.mem_reverse.mp (hsub.subset hx))

/-- C17, amended: in exact arithmetic (no sum or difference rounds or
overflows), the crowding distance pass over a non-empty front `L` returns, and
for every position `p` of the front: the final distance is infinite when `p`
is first or last in the sort order of some objective `i < m` (the stable sort
by objective `i` of the list as the sort by objective `i - 1` left it);
otherwise it is the sum over the objectives of the value of the successor of
`p` minus the value of its predecessor in that sort order, not divided by
anything, and this sum is a number `≥ 0`. -/
theorem crowding_distance_values (fit : List (List α)) (L : List Nat) (m : Nat) (hL : L ≠ []) :
    ∃ c, crowd_distances fit m L = some c ∧ ∀ p, p < L.length →
      ((∃ i, i < m ∧ is_extreme (crowd_list fit L (i + 1)) p = true) →
        c.lDistances p = none) ∧
      ((¬ ∃ i, i < m ∧ is_extreme (crowd_list fit L (i + 1)) p = true) →
        c.lDistances p = some (Finset.sum (Finset.range m)
          (fun i => gap_of (crowd_list fit L (i + 1)) i p)) ∧
        0 ≤ Finset.sum (Finset.range m) (fun i => gap_of (crowd_list fit L (i + 1)) i p)) := by
  obtain ⟨c, hc, -, hd⟩ := crowd_distances_spec fit L hL m
  refine ⟨c, hc, fun p hp => ⟨fun hx => ?_, fun hx => ⟨?_, ?_⟩⟩⟩
  · rw [hd p hp]
    exact (crowd_spec_none_iff fit L p m).mpr hx
  · rw [hd p hp]
    exact crowd_spec_some fit L p m (fun i hi h => hx ⟨i, hi, h⟩)
  · refine Finset.sum_nonneg (fun i hi => ?_)
    exact gap_of_nonneg fit L i p hp (fun h => hx ⟨i, Finset.mem_range.mp hi, h⟩)

/-- Witness for `crowding_distance_values`: the front `(1,5)`, `(5,1)`, `(3,3)`,
with distances infinite, infinite and `8`. -/
theorem crowding_distance_values_witness :
    ([0, 1, 2] : List Nat) ≠ [] ∧
    (∃ c, crowd_distances ([[1, 5], [5, 1], [3, 3], [2, 2]] : List (List Int)) 2 [0, 1, 2]
        = some c ∧ ∀ p, p < ([0, 1, 2] : List Nat).length →
      ((∃ i, i < 2 ∧ is_extreme (crowd_list ([[1, 5], [5, 1], [3, 3], [2, 2]] : List (List Int))
          [0, 1, 2] (i + 1)) p = true) → c.lDistances p = none) ∧
      ((¬ ∃ i, i < 2 ∧ is_extreme (crowd_list ([[1, 5], [5, 1], [3, 3], [2, 2]] : List (List Int))
          [0, 1, 2] (i + 1)) p = true) →
        c.lDistances p = some (Finset.sum (Finset.range 2)
          (fun i => gap_of (crowd_list ([[1, 5], [5, 1], [3, 3], [2, 2]] : List (List Int))
            [0, 1, 2] (i + 1)) i p)) ∧
        0 ≤ Finset.sum (Finset.range 2)
          (fun i => gap_of (crowd_list ([[1, 5], [5, 1], [3, 3], [2, 2]] : List (List Int))
            [0, 1, 2] (i + 1)) i p))) ∧
    (crowd_distances ([[1, 5], [5, 1], [3, 3], [2, 2]] : List (List Int)) 2 [0, 1, 2]).map
      (fun c => [c.lDistances 0, c.lDistances 1, c.lDistances 2])
        = some [none, none, some 8] :=
  ⟨by simp, crowding_distance_values [[1, 5], [5, 1], [3, 3], [2, 2]] [0, 1, 2] 2 (by simp),
    by decide⟩

/-- C19 (the code diverges): the four individuals `(0,10)`, `(10,0)`, `(4,6)`,
`(6,4)` form front 0 with distances infinite, infinite, `12` and `12`; with
`k = 3` the result is individual 1, then 0, then 3: of two individuals with
equal distance the later one is taken first, and individual 3 is taken while
individual 2, earlier in the front with the same distance, is not. -/
theorem selNSGA2_ties_later_first :
    (selNSGA2_rank ([[0, 10], [10, 0], [4, 6], [6, 4]] : List (List Int)) 4 2 3).map
        (fun r => r.2.lParetoFront) = some [[0, 1, 2, 3]] ∧
      (crowd_distances ([[0, 10], [10, 0], [4, 6], [6, 4]] : List (List Int)) 2
          [0, 1, 2, 3]).map (fun c => dist_list c.lDistances [0, 1, 2, 3])
        = some [(none, 0), (none, 1), (some 12, 2), (some 12, 3)] ∧
      selNSGA2 ([[0, 10], [10, 0], [4, 6], [6, 4]] : List (List Int)) 3 = some [1, 0, 3] := by
  decide

/-- C20 (the code diverges): for the empty population `selNSGA2` has no
result, whatever `k`, also for `k = 0`: line 94 reads the fitness of individual
0 before line 96 tests `k == 0`. For a non-empty population and `k = 0` the
result is the empty list. -/
theorem selNSGA2_empty_population :
    (∀ k : Nat, selNSGA2 ([] : List (List α)) k = none) ∧
      ∀ (ind : List α) (pop : List (List α)), selNSGA2 (ind :: pop) 0 = some [] :=
  ⟨fun _ => rfl, fun _ _ => rfl⟩

/-- C29 (the code diverges): for the empty population and every `k > 0` the
call of `selNSGA2` signals no error: line 94 reads the fitness of individual
0 through the `NULL` that `PyList_GetItem` returns, and the call ends in a
crash, neither in an exception nor in a selection. -/
theorem selNSGA2_empty_no_error (k : Nat) :
    selNSGA2_call ([] : List (List α)) (k + 1) = call_result.crash ∧
      selNSGA2_call ([] : List (List α)) (k + 1) ≠ call_result.error ∧
      ∀ l, selNSGA2_call ([] : List (List α)) (k + 1) ≠ call_result.selection l :=
  ⟨rfl, fun h => call_result.noConfusion h, fun _ h => call_result.noConfusion h⟩

/-- One iteration of the peeling loop from a state that satisfies the
invariant: a front is pushed, non-empty while individuals are unranked, and
the count of ranked individuals grows by its length. -/
theorem peel_front_grows {fit : List (List α)} {m : Nat} (hwf : wf_pop fit m)
    {pre : List (List Nat)} {cur : List Nat} {st : rank_t} (h : rank_inv fit pre cur st) :
    ∃ pushed, rank_inv fit (pre ++ [cur]) pushed (peel_front st) ∧
      (st.lParetoSorted < fit.length → pushed ≠ []) ∧
      (peel_front st).lParetoFront = st.lParetoFront ++ [pushed] ∧
      (peel_front st).lParetoSorted = st.lParetoSorted + pushed.length := by
  obtain ⟨pushed, hi, hne⟩ := peel_front_inv hwf h
  refine ⟨pushed, hi, hne, ?_, ?_⟩
  · rw [hi.front, h.front]
  · rw [hi.sorted, h.sorted]
    simp only [List.flatten_append, List.flatten_cons, List.flatten_nil, List.append_nil,
      List.length_append]

/-- The peeling loop returns within `fit.length - lParetoSorted` iterations. -/
theorem rank_others_run {fit : List (List α)} {m : Nat} (hwf : wf_pop fit m) (k : Nat) :
    ∀ (fuel : Nat) (pre : List (List Nat)) (cur : List Nat) (st : rank_t),
      rank_inv fit pre cur st → fit.length - st.lParetoSorted ≤ fuel →
      ∃ t, rank_others k fit.length fuel st = some (peel_front^[t] st) ∧
        t ≤ fit.length - st.lParetoSorted ∧
        ¬ ((peel_front^[t] st).lParetoSorted < k ∧
          (peel_front^[t] st).lParetoSorted < fit.length) ∧
        ∀ t', t' < t → (peel_front^[t'] st).lParetoSorted < k ∧
          (peel_front^[t'] st).lParetoSorted < fit.length
  | 0, pre, cur, st, h, hf => by
    have hc : ¬ (st.lParetoSorted < k ∧ st.lParetoSorted < fit.length) := fun hh => by omega
    refine ⟨0, ?_, Nat.zero_le _, hc, fun t' ht' => absurd ht' (Nat.not_lt_zero _)⟩
    rw [rank_others, if_neg hc]
    rfl
  | fuel + 1, pre, cur, st, h, hf => by
    by_cases hc : st.lParetoSorted < k ∧ st.lParetoSorted < fit.length
    · obtain ⟨pushed, hi, hne, _, hs⟩ := peel_front_grows hwf h
      have hpos : 0 < pushed.length := List.length_pos.mpr (hne hc.2)
      have hle := rank_inv_sorted_le hi
      obtain ⟨t, e, ht, hstop, hrun⟩ := rank_others_run hwf k fuel (pre ++ [cur]) pushed
        (peel_front st) hi (by omega)
      refine ⟨t + 1, ?_, by omega, ?_, fun t' ht' => ?_⟩
      · rw [rank_others, if_pos hc, e, Function.iterate_succ_apply]
      · rw [Function.iterate_succ_apply]; exact hstop
      · cases t' with
        | zero => exact hc
        | succ u =>
          rw [Function.iterate_succ_apply]
          exact hrun u (by omega)
    · refine ⟨0, ?_, Nat.zero_le _, hc, fun t' ht' => absurd ht' (Nat.not_lt_zero _)⟩
      rw [rank_others, if_neg hc]
      rfl

/-- On linearly ordered values (no NaN): for a population whose fitness
vectors have one length and every `k`, the front-peeling loop of `selNSGA2`
(lines 135-148) returns after at most `n` iterations; and from every state
that the loop can reach, as long as fewer than `n` individuals are ranked, the
iteration pushes a non-empty front, so the count `lParetoSorted` of ranked
individuals strictly increases. -/
theorem peel_loop_terminates (pop : List (List α)) (m k : Nat) (hwf : wf_pop pop m) :
    ∃ st0 t, rank_first pop pop.length = some st0 ∧
      rank_others k pop.length pop.length st0 = some (peel_front^[t] st0) ∧
      t ≤ pop.length ∧
      ¬ ((peel_front^[t] st0).lParetoSorted < k ∧
        (peel_front^[t] st0).lParetoSorted < pop.length) ∧
      (∀ t', t' < t → (peel_front^[t'] st0).lParetoSorted < k ∧
        (peel_front^[t'] st0).lParetoSorted < pop.length) ∧
      ∀ t', (peel_front^[t'] st0).lParetoSorted < pop.length →
        ∃ pushed, pushed ≠ [] ∧
          (peel_front^[t' + 1] st0).lParetoFront
            = (peel_front^[t'] st0).lParetoFront ++ [pushed] ∧
          (peel_front^[t' + 1] st0).lParetoSorted
            = (peel_front^[t'] st0).lParetoSorted + pushed.length ∧
          (peel_front^[t'] st0).lParetoSorted < (peel_front^[t' + 1] st0).lParetoSorted := by
  obtain ⟨st0, e0, h0⟩ := rank_inv_first hwf
  obtain ⟨t, e, ht, hstop, hrun⟩ := rank_others_run hwf k pop.length [] _ st0 h0 (Nat.sub_le _ _)
  refine ⟨st0, t, e0, e, le_trans ht (Nat.sub_le _ _), hstop, hrun, fun t' hlt => ?_⟩
  obtain ⟨pre', cur', hi, _⟩ := peel_iterate_inv hwf t' [] _ st0 h0
  obtain ⟨pushed, _, hne, hf, hs⟩ := peel_front_grows hwf hi
  have hpos : 0 < pushed.length := List.length_pos.mpr (hne hlt)
  rw [Function.iterate_succ_apply']
  exact ⟨pushed, hne hlt, hf, hs, by omega⟩

theorem peel_loop_terminates_witness :
    wf_pop pop_example 2 ∧
      ∃ st0 t, rank_first pop_example pop_example.length = some st0 ∧
        rank_others 5 pop_example.length pop_example.length st0
          = some (peel_front^[t] st0) ∧
        t ≤ pop_example.length ∧
        ¬ ((peel_front^[t] st0).lParetoSorted < 5 ∧
          (peel_front^[t] st0).lParetoSorted < pop_example.length) ∧
        (∀ t', t' < t → (peel_front^[t'] st0).lParetoSorted < 5 ∧
          (peel_front^[t'] st0).lParetoSorted < pop_example.length) ∧
        ∀ t', (peel_front^[t'] st0).lParetoSorted < pop_example.length →
          ∃ pushed, pushed ≠ [] ∧
            (peel_front^[t' + 1] st0).lParetoFront
              = (peel_front^[t'] st0).lParetoFront ++ [pushed] ∧
            (peel_front^[t' + 1] st0).lParetoSorted
              = (peel_front^[t'] st0).lParetoSorted + pushed.length ∧
            (peel_front^[t'] st0).lParetoSorted
              < (peel_front^[t' + 1] st0).lParetoSorted :=
  ⟨by decide, peel_loop_terminates pop_example 2 5 (by decide)⟩

/-- The members of a front of the list are members of its flattening. -/
theorem mem_flatten_of_getD {fs : List (List Nat)} {s x : Nat} (h : x ∈ fs.getD s []) :
    x ∈ fs.flatten := by
  rw [List.getD_eq_getElem?_getD] at h
  cases hs : fs[s]? with
  | none => rw [hs] at h; simp at h
  | some f =>
    rw [hs] at h
    exact List.mem_flatten.mpr ⟨f, List.getElem?_mem hs, h⟩

/-- C36: for a population of `n` individuals (fitness vectors of one length)
and `1 ≤ k ≤ n`, `selNSGA2` returns a selection, and if individual `a`
dominates individual `b` and `b` is in the selection, then `a` is in it too. -/
theorem selNSGA2_dominators_selected (pop : List (List α)) (m k : Nat) (hwf : wf_pop pop m)
    (hne : pop ≠ []) (hn : pop.length < 4294967296) (hm : m < 4294967296) (hk1 : 1 ≤ k)
    (hkn : k ≤ pop.length) :
    ∃ out, selNSGA2 pop k = some out ∧
      ∀ (a b : Nat) (fa fb : List α), pop[a]? = some fa → pop[b]? = some fb →
        dominates fa fb → b ∈ out → a ∈ out := by
  obtain ⟨pre, cur, st, _, hinv, _, hpre, hk, hcase⟩ := selNSGA2_main hwf hne hn hm hk1 hkn
  have key : ∀ out : List Nat, (∀ x, x ∈ out → x ∈ pre.flatten ∨ x ∈ cur) →
      (∀ x, x ∈ pre.flatten → x ∈ out) →
      ∀ (a b : Nat) (fa fb : List α), pop[a]? = some fa → pop[b]? = some fb →
        dominates fa fb → b ∈ out → a ∈ out := by
    intro out hsub hsup a b fa fb ha hb hdom hbo
    have hd : dom_ind pop a b = true := (dom_ind_iff hwf a b).mpr ⟨fa, fb, ha, hb, hdom⟩
    have hbf : b ∈ (pre ++ [cur]).flatten := by
      rcases hsub b hbo with h | h
      · simp [h]
      · simp [h]
    obtain ⟨f, hf, hbf'⟩ := List.mem_flatten.mp hbf
    obtain ⟨s, hs, hsf⟩ := List.getElem_of_mem hf
    have hbs : b ∈ (pre ++ [cur]).getD s [] := by
      rw [List.getD_eq_getElem?_getD, List.getElem?_eq_getElem hs, hsf]
      exact hbf'
    obtain ⟨s', hs', has⟩ := (hinv.rank s b hbs).1 a hd
    have hsl : s < pre.length + 1 := by simpa using hs
    have hs'l : s' < pre.length := by omega
    have : a ∈ pre.getD s' [] := by
      rw [List.getD_eq_getElem?_getD, List.getElem?_append_left hs'l] at has
      rw [List.getD_eq_getElem?_getD]
      exact has
    exact hsup a (mem_flatten_of_getD this)
  rcases hcase with ⟨_, e⟩ | ⟨hlt, c, _, _, e⟩
  · refine ⟨_, e, key _ (fun x hx => List.mem_append.mp hx) (fun x hx => ?_)⟩
    exact List.mem_append_left _ hx
  · have hcur_nd : cur.Nodup := by
      have := hinv.nodup
      simp only [List.flatten_append, List.flatten_cons, List.flatten_nil,
        List.append_nil] at this
      exact (List.nodup_append.mp this).2.1
    obtain ⟨_, _, hmem⟩ := picked_facts c.lDistances cur hcur_nd (k - pre.flatten.length)
      (by omega)
    refine ⟨_, e, key _ (fun x hx => ?_) (fun x hx => List.mem_append_left _ hx)⟩
    rcases List.mem_append.mp hx with h | h
    · exact Or.inl h
    · exact Or.inr (hmem x h)

theorem selNSGA2_dominators_selected_witness :
    (wf_pop pop_example 2 ∧ pop_example ≠ [] ∧ 1 ≤ 3 ∧ 3 ≤ pop_example.length) ∧
      (∃ out, selNSGA2 pop_example 3 = some out ∧
        ∀ (a b : Nat) (fa fb : List Int), pop_example[a]? = some fa →
          pop_example[b]? = some fb → dominates fa fb → b ∈ out → a ∈ out) ∧
      selNSGA2 pop_example 3 = some [1, 0, 4] :=
  ⟨⟨by decide, by decide, by decide, by decide⟩,
    selNSGA2_dominators_selected pop_example 2 3 (by decide) (by decide) (by decide)
      (by decide) (by decide) (by decide),
    by decide⟩

/-- For a non-empty population the fronts are pairwise disjoint, no front
lists an individual twice, and the selection has no duplicate. -/
theorem selNSGA2_nodup_aux (pop : List (List α)) (m k : Nat) (hwf : wf_pop pop m)
    (hne : pop ≠ []) (hn : pop.length < 4294967296) (hm : m < 4294967296)
    (hkn : k ≤ pop.length) :
    ∃ st out, selNSGA2_rank pop pop.length m k = some (pop, st) ∧
      (∀ s s' x, x ∈ st.lParetoFront.getD s [] → x ∈ st.lParetoFront.getD s' [] → s = s') ∧
      (∀ f, f ∈ st.lParetoFront → f.Nodup) ∧
      selNSGA2 pop k = some out ∧ out.Nodup := by
  rcases Nat.eq_zero_or_pos k with hk0 | hk1
  · obtain ⟨pre, cur, st, e, hinv, _⟩ := selNSGA2_rank_spec hwf k
    have hnd : st.lParetoFront.flatten.Nodup := by rw [hinv.front]; exact hinv.nodup
    refine ⟨st, [], e, fun s s' x h1 h2 => fronts_disjoint hnd h1 h2,
      fun f hf => (List.nodup_flatten.mp hnd).1 f hf, ?_, List.nodup_nil⟩
    subst hk0
    cases pop with
    | nil => exact absurd rfl hne
    | cons ind0 rest => rfl
  · obtain ⟨pre, cur, st, e, hinv, _, hpre, hk, hcase⟩ := selNSGA2_main hwf hne hn hm hk1 hkn
    have hnd : st.lParetoFront.flatten.Nodup := by rw [hinv.front]; exact hinv.nodup
    have hnd' : (pre.flatten ++ cur).Nodup := by
      have := hinv.nodup
      simpa only [List.flatten_append, List.flatten_cons, List.flatten_nil,
        List.append_nil] using this
    obtain ⟨hp, hc, hdis⟩ := List.nodup_append.mp hnd'
    rcases hcase with ⟨_, e2⟩ | ⟨hlt, c, _, _, e2⟩
    · exact ⟨st, _, e, fun s s' x h1 h2 => fronts_disjoint hnd h1 h2,
        fun f hf => (List.nodup_flatten.mp hnd).1 f hf, e2, hnd'⟩
    · obtain ⟨_, hpn, hmem⟩ := picked_facts c.lDistances cur hc (k - pre.flatten.length)
        (by omega)
      refine ⟨st, _, e, fun s s' x h1 h2 => fronts_disjoint hnd h1 h2,
        fun f hf => (List.nodup_flatten.mp hnd).1 f hf, e2, ?_⟩
      exact List.nodup_append.mpr ⟨hp, hpn, fun x hx1 hx2 => hdis hx1 (hmem x hx2)⟩

/-- C37: for a population of `n` individuals (fitness vectors of one length)
and `k ≤ n`, no individual (index) appears twice in the selection that
`selNSGA2` returns; and for a non-empty population the call returns, the
fronts it computes are pairwise disjoint and no front lists an individual
twice. -/
theorem selNSGA2_no_duplicates (pop : List (List α)) (m k : Nat) (hwf : wf_pop pop m)
    (hn : pop.length < 4294967296) (hm : m < 4294967296) (hkn : k ≤ pop.length) :
    (∀ out : List Nat, selNSGA2 pop k = some out → out.Nodup) ∧
      (pop ≠ [] →
        ∃ st out, selNSGA2_rank pop pop.length m k = some (pop, st) ∧
          (∀ s s' x, x ∈ st.lParetoFront.getD s [] → x ∈ st.lParetoFront.getD s' [] →
            s = s') ∧
          (∀ f, f ∈ st.lParetoFront → f.Nodup) ∧
          selNSGA2 pop k = some out ∧ out.Nodup) := by
  refine ⟨fun out h => ?_, fun hne => selNSGA2_nodup_aux pop m k hwf hne hn hm hkn⟩
  cases pop with
  | nil => exact Option.noConfusion (show (none : Option (List Nat)) = some out from h)
  | cons ind0 rest =>
    obtain ⟨_, out', _, _, _, e, hnd⟩ :=
      selNSGA2_nodup_aux (ind0 :: rest) m k hwf (List.cons_ne_nil _ _) hn hm hkn
    rw [e] at h
    rw [← Option.some.inj h]
    exact hnd

theorem selNSGA2_no_duplicates_witness :
    (wf_pop pop_example 2 ∧ 4 ≤ pop_example.length) ∧
      ((∀ out : List Nat, selNSGA2 pop_example 4 = some out → out.Nodup) ∧
        (pop_example ≠ [] →
          ∃ st out, selNSGA2_rank pop_example pop_example.length 2 4 = some (pop_example, st) ∧
            (∀ s s' x, x ∈ st.lParetoFront.getD s [] → x ∈ st.lParetoFront.getD s' [] →
              s = s') ∧
            (∀ f, f ∈ st.lParetoFront → f.Nodup) ∧
            selNSGA2 pop_example 4 = some out ∧ out.Nodup)) ∧
      selNSGA2 pop_example 4 = some [0, 1, 2, 4] :=
  ⟨⟨by decide, by decide⟩,
    selNSGA2_no_duplicates pop_example 2 4 (by decide) (by decide) (by decide) (by decide),
    by decide⟩

theorem rank_count_sorted {fit : List (List α)} {i j a b : Nat} {st : rank_t}
    (hij : i < j) (hab : (a = i ∧ b = j) ∨ (a = j ∧ b = i)) (h : first_inv fit i j st)
    (hs : ∀ x, (st.lDominatedInds x).Pairwise (fun u v => u < v)) :
    ∀ x, ((rank_count st a b).lDominatedInds x).Pairwise (fun u v => u < v) := by
  intro x
  unfold rank_count
  simp only []
  by_cases hx : x = a
  · subst hx
    rw [Function.update_same]
    refine List.pairwise_append.mpr ⟨hs x, List.pairwise_singleton _ _, fun y hy z hz => ?_⟩
    simp only [List.mem_singleton] at hz
    subst hz
    have hsn := ((h.inds_mem x y).mp hy).2
    unfold seen at hsn
    have := of_decide_eq_true hsn
    rcases hab with ⟨h1, h2⟩ | ⟨h1, h2⟩
    · subst h1 h2; omega
    · subst h1 h2; omega
  · rw [Function.update_noteq hx]
    exact hs x

theorem rank_pair_sorted {fit : List (List α)} {m : Nat} (hwf : wf_pop fit m) {i j : Nat}
    {st st' : rank_t} (hij : i < j) (hj : j < fit.length) (h : first_inv fit i j st)
    (hs : ∀ x, (st.lDominatedInds x).Pairwise (fun u v => u < v))
    (e : rank_pair fit i st j = some st') :
    ∀ x, (st'.lDominatedInds x).Pairwise (fun u v => u < v) := by
  rw [rank_pair_eq hwf (by omega) hj] at e
  have e' := (Option.some.inj e).symm
  subst e'
  by_cases h1 : dom_ind fit i j = true
  · rw [if_pos h1]
    exact rank_count_sorted hij (Or.inl ⟨rfl, rfl⟩) h hs
  · rw [if_neg h1]
    by_cases h2 : dom_ind fit j i = true
    · rw [if_pos h2]
      exact rank_count_sorted hij (Or.inr ⟨rfl, rfl⟩) h hs
    · rw [if_neg h2]
      exact hs

theorem first_sorted_inner {fit : List (List α)} {m : Nat} (hwf : wf_pop fit m) {i : Nat} :
    ∀ (len j : Nat) (st : rank_t), i < j → j + len ≤ fit.length → first_inv fit i j st →
      (∀ x, (st.lDominatedInds x).Pairwise (fun u v => u < v)) →
      ∃ st', (List.range' j len).foldlM (rank_pair fit i) st = some st' ∧
        first_inv fit i (j + len) st' ∧
        ∀ x, (st'.lDominatedInds x).Pairwise (fun u v => u < v) := by
  intro len
  induction len with
  | zero => intro j st _ _ h hs; exact ⟨st, rfl, h, hs⟩
  | succ len ih =>
    intro j st hij hlen h hs
    obtain ⟨st1, e1, h1⟩ := first_inv_pair hwf hij (by omega) h
    have hs1 := rank_pair_sorted hwf hij (by omega) h hs e1
    obtain ⟨st2, e2, h2, hs2⟩ := ih (j + 1) st1 (by omega) (by omega) h1 hs1
    refine ⟨st2, ?_, ?_, hs2⟩
    · rw [List.range'_succ, List.foldlM_cons, e1]
      exact e2
    · rw [show j + (len + 1) = j + 1 + len by omega]
      exact h2

theorem first_sorted_outer {fit : List (List α)} {m : Nat} (hwf : wf_pop fit m) {i : Nat}
    {st st' : rank_t} (hi : i < fit.length) (h : first_inv fit i (i + 1) st)
    (hs : ∀ x, (st.lDominatedInds x).Pairwise (fun u v => u < v))
    (e : rank_first_step fit fit.length st i = some st') :
    ∀ x, (st'.lDominatedInds x).Pairwise (fun u v => u < v) := by
  obtain ⟨st1, e1, _, hs1⟩ := first_sorted_inner hwf (fit.length - (i + 1)) (i + 1) st
    (by omega) (by omega) h hs
  simp only [rank_first_step, e1, Option.some.injEq] at e
  subst e
  intro x
  unfold rank_first_check
  split
  · exact hs1 x
  · exact hs1 x

theorem first_sorted_loop {fit : List (List α)} {m : Nat} (hwf : wf_pop fit m) :
    ∀ i, i ≤ fit.length → ∃ st, (List.range i).foldlM (rank_first_step fit fit.length) rank_init
      = some st ∧ first_inv fit i (i + 1) st ∧
      ∀ x, (st.lDominatedInds x).Pairwise (fun u v => u < v) := by
  intro i
  induction i with
  | zero => intro _; exact ⟨rank_init, rfl, first_inv_init fit, fun _ => List.Pairwise.nil⟩
  | succ i ih =>
    intro hi
    obtain ⟨st, e, h, hs⟩ := ih (by omega)
    obtain ⟨st', e', h'⟩ := first_inv_outer hwf (by omega) h
    refine ⟨st', ?_, h', first_sorted_outer hwf (by omega) h hs e'⟩
    rw [List.range_succ, List.foldlM_append, e]
    simp [e']

/-- After the first ranking every list `lDominatedInds[x]` is ascending. -/
theorem rank_first_sorted {fit : List (List α)} {m : Nat} (hwf : wf_pop fit m) {st : rank_t}
    (e : rank_first fit fit.length = some st) :
    ∀ x, (st.lDominatedInds x).Pairwise (fun u v => u < v) := by
  obtain ⟨st', e', _, hs⟩ := first_sorted_loop hwf fit.length (le_refl _)
  have : st = st' := Option.some.inj (e.symm.trans e')
  subst this
  exact hs

theorem pushed_of_mem (c : Nat → Nat) : ∀ (Ds : List Nat) (x : Nat),
    x ∈ pushed_of c Ds → x ∈ Ds := by
  intro Ds
  induction Ds generalizing c with
  | nil => intro x h; simp [pushed_of] at h
  | cons D Ds ih =>
    intro x h
    simp only [pushed_of, List.mem_append] at h
    rcases h with h | h
    · split_ifs at h
      · simp only [List.mem_singleton] at h
        subst h; exact List.mem_cons_self _ _
      · simp at h
    · exact List.mem_cons_of_mem _ (ih _ x h)

/-- The fronts after the loop over `Ds`. -/
theorem peel_fold_pushed : ∀ (Ds : List Nat) (st : rank_t) (pre : List (List Nat))
    (cur : List Nat), st.lParetoFront = pre ++ [cur] → st.lFrontIndex = pre.length →
    (∀ x, Ds.count x ≤ st.lDominating x) →
    (Ds.foldl peel_one st).lParetoFront = pre ++ [cur ++ pushed_of st.lDominating Ds]
  | [], st, pre, cur, hf, _, _ => by simpa [pushed_of] using hf
  | D :: Ds, st, pre, cur, hf, hi, hc => by
    have hD : 1 ≤ st.lDominating D := by
      have := hc D
      rw [List.count_cons_self] at this
      omega
    obtain ⟨e1, e2, _, _, e5⟩ := peel_one_spec st D pre cur hf hi hD
    have hc1 : ∀ x, Ds.count x ≤ (peel_one st D).lDominating x := by
      intro x
      rw [e5]
      have := hc x
      by_cases hx : x = D
      · subst hx
        rw [List.count_cons_self] at this
        rw [Function.update_same]; omega
      · rw [List.count_cons_of_ne hx] at this
        rw [Function.update_noteq hx]; exact this
    rw [List.foldl_cons, peel_fold_pushed Ds (peel_one st D) pre _ e1 e2 hc1, e5, pushed_of,
      List.append_assoc]

theorem alternate_count (a b : Nat) (hab : a ≠ b) : ∀ (Ds : List Nat) (flag : Bool),
    alternate a b flag Ds → Ds.count b = Ds.count a + (if flag = true then 1 else 0)
  | [], false, _ => rfl
  | [], true, h => absurd h (by simp [alternate])
  | D :: Ds, false, h => by
    simp only [alternate] at h
    by_cases h1 : D = a
    · subst h1
      rw [if_pos rfl] at h
      have := alternate_count D b hab Ds true h
      rw [List.count_cons_self, List.count_cons_of_ne hab.symm, this]
      simp
    · rw [if_neg h1] at h
      by_cases h2 : D = b
      · rw [if_pos h2] at h; exact absurd h id
      · rw [if_neg h2] at h
        have := alternate_count a b hab Ds false h
        rw [List.count_cons_of_ne (Ne.symm h1), List.count_cons_of_ne (Ne.symm h2), this]
  | D :: Ds, true, h => by
    simp only [alternate] at h
    by_cases h1 : D = b
    · subst h1
      rw [if_pos rfl] at h
      have := alternate_count a D hab Ds false h
      rw [List.count_cons_self, List.count_cons_of_ne hab, this]
      simp
    · rw [if_neg h1] at h
      by_cases h2 : D = a
      · rw [if_pos h2] at h; exact absurd h id
      · rw [if_neg h2] at h
        have := alternate_count a b hab Ds true h
        rw [List.count_cons_of_ne (Ne.symm h1), List.count_cons_of_ne (Ne.symm h2), this]

/-- When `a` and `b` occur in turn and their counters agree, `a` is pushed
before `b`. -/
theorem pushed_of_order (a b : Nat) (hab : a ≠ b) : ∀ (Ds : List Nat) (c : Nat → Nat)
    (flag : Bool), (∀ x, Ds.count x ≤ c x) → alternate a b flag Ds →
    (flag = false → c a = c b) → (flag = true → c b = c a + 1 ∧ 1 ≤ c a) →
    b ∈ pushed_of c Ds → List.Sublist [a, b] (pushed_of c Ds)
  | [], _, _, _, _, _, _, hb => by simp [pushed_of] at hb
  | D :: Ds, c, false, hc, halt, h0, _, hb => by
    have hcab := h0 rfl
    simp only [alternate] at halt
    have hc1 : ∀ x, Ds.count x ≤ Function.update c D (c D - 1) x := by
      intro x
      have := hc x
      by_cases hx : x = D
      · subst hx
        rw [List.count_cons_self] at this
        rw [Function.update_same]; omega
      · rw [List.count_cons_of_ne hx] at this
        rw [Function.update_noteq hx]; exact this
    by_cases h1 : D = a
    · subst h1
      rw [if_pos rfl] at halt
      have hca : 1 ≤ c D := by
        have := hc D
        rw [List.count_cons_self] at this
        omega
      simp only [pushed_of] at hb ⊢
      by_cases hone : c D = 1
      · rw [if_pos hone] at hb ⊢
        have hb' : b ∈ pushed_of (Function.update c D (c D - 1)) Ds := by
          rcases List.mem_append.mp hb with h | h
          · simp only [List.mem_singleton] at h
            exact absurd h.symm hab
          · exact h
        exact List.Sublist.cons₂ _ (List.singleton_sublist.mpr hb')
      · rw [if_neg hone] at hb ⊢
        simp only [List.nil_append] at hb ⊢
        refine pushed_of_order D b hab Ds _ true hc1 halt (fun h => absurd h (by decide))
          (fun _ => ?_) hb
        rw [Function.update_same, Function.update_noteq hab.symm]
        omega
    · rw [if_neg h1] at halt
      by_cases h2 : D = b
      · rw [if_pos h2] at halt; exact absurd halt id
      · rw [if_neg h2] at halt
        simp only [pushed_of] at hb ⊢
        have hb' : b ∈ pushed_of (Function.update c D (c D - 1)) Ds := by
          rcases List.mem_append.mp hb with h | h
          · split_ifs at h
            · simp only [List.mem_singleton] at h
              exact absurd h.symm h2
            · simp at h
          · exact h
        have ih := pushed_of_order a b hab Ds _ false hc1 halt
          (fun _ => by
            rw [Function.update_noteq (Ne.symm h1), Function.update_noteq (Ne.symm h2)]
            exact hcab)
          (fun h => absurd h (by decide)) hb'
        exact ih.trans (List.sublist_append_right _ _)
  | D :: Ds, c, true, hc, halt, _, h1', hb => by
    obtain ⟨hcb, hca⟩ := h1' rfl
    simp only [alternate] at halt
    have hc1 : ∀ x, Ds.count x ≤ Function.update c D (c D - 1) x := by
      intro x
      have := hc x
      by_cases hx : x = D
      · subst hx
        rw [List.count_cons_self] at this
        rw [Function.update_same]; omega
      · rw [List.count_cons_of_ne hx] at this
        rw [Function.update_noteq hx]; exact this
    by_cases h1 : D = b
    · subst h1
      rw [if_pos rfl] at halt
      simp only [pushed_of] at hb ⊢
      have hne1 : c D ≠ 1 := by omega
      rw [if_neg hne1] at hb ⊢
      simp only [List.nil_append] at hb ⊢
      refine pushed_of_order a D hab Ds _ false hc1 halt (fun _ => ?_)
        (fun h => absurd h (by decide)) hb
      rw [Function.update_same, Function.update_noteq hab]
      omega
    · rw [if_neg h1] at halt
      by_cases h2 : D = a
      · rw [if_pos h2] at halt; exact absurd halt id
      · rw [if_neg h2] at halt
        simp only [pushed_of] at hb ⊢
        have hb' : b ∈ pushed_of (Function.update c D (c D - 1)) Ds := by
          rcases List.mem_append.mp hb with h | h
          · split_ifs at h
            · simp only [List.mem_singleton] at h
              exact absurd h.symm h1
            · simp at h
          · exact h
        have ih := pushed_of_order a b hab Ds _ true hc1 halt
          (fun h => absurd h (by decide))
          (fun _ => by
            rw [Function.update_noteq (Ne.symm h1), Function.update_noteq (Ne.symm h2)]
            exact ⟨hcb, hca⟩) hb'
        exact ih.trans (List.sublist_append_right _ _)

theorem alternate_none (a b : Nat) : ∀ (L : List Nat), a ∉ L → b ∉ L → alternate a b false L
  | [], _, _ => trivial
  | D :: L, ha, hb => by
    simp only [alternate]
    rw [if_neg (fun h => ha (by rw [h]; exact List.mem_cons_self _ _)),
      if_neg (fun h => hb (by rw [h]; exact List.mem_cons_self _ _))]
    exact alternate_none a b L (fun h => ha (List.mem_cons_of_mem _ h))
      (fun h => hb (List.mem_cons_of_mem _ h))

theorem alternate_sorted_after (a b : Nat) : ∀ (L : List Nat),
    L.Pairwise (fun u v => u < v) → a ∉ L → b ∈ L → alternate a b true L
  | [], _, _, hb => absurd hb (List.not_mem_nil _)
  | D :: L, hs, ha, hb => by
    simp only [alternate]
    obtain ⟨h1, h2⟩ := List.pairwise_cons.mp hs
    by_cases hD : D = b
    · rw [if_pos hD]
      refine alternate_none a b L (fun h => ha (List.mem_cons_of_mem _ h)) (fun h => ?_)
      have := h1 b h
      omega
    · rw [if_neg hD, if_neg (fun h => ha (by rw [h]; exact List.mem_cons_self _ _))]
      refine alternate_sorted_after a b L h2 (fun h => ha (List.mem_cons_of_mem _ h)) ?_
      rcases List.mem_cons.mp hb with h | h
      · exact absurd h.symm hD
      · exact h

theorem alternate_sorted (a b : Nat) (hab : a < b) : ∀ (L : List Nat),
    L.Pairwise (fun u v => u < v) → (a ∈ L ↔ b ∈ L) → alternate a b false L
  | [], _, _ => trivial
  | D :: L, hs, hiff => by
    simp only [alternate]
    obtain ⟨h1, h2⟩ := List.pairwise_cons.mp hs
    by_cases hD : D = a
    · rw [if_pos hD]
      have hb : b ∈ L := by
        rcases List.mem_cons.mp (hiff.mp (by rw [hD]; exact List.mem_cons_self _ _)) with h | h
        · omega
        · exact h
      refine alternate_sorted_after a b L h2 (fun h => ?_) hb
      have := h1 a h
      omega
    · rw [if_neg hD]
      by_cases hDb : D = b
      · exfalso
        rcases List.mem_cons.mp (hiff.mpr (by rw [hDb]; exact List.mem_cons_self _ _)) with h | h
        · omega
        · have := h1 a h
          omega
      · rw [if_neg hDb]
        refine alternate_sorted a b hab L h2 ⟨fun h => ?_, fun h => ?_⟩
        · rcases List.mem_cons.mp (hiff.mp (List.mem_cons_of_mem _ h)) with h' | h'
          · exact absurd h'.symm hDb
          · exact h'
        · rcases List.mem_cons.mp (hiff.mpr (List.mem_cons_of_mem _ h)) with h' | h'
          · exact absurd h'.symm hD
          · exact h'

theorem alternate_append (a b : Nat) : ∀ (X Y : List Nat) (flag : Bool),
    alternate a b flag X → alternate a b false Y → alternate a b flag (X ++ Y)
  | [], Y, false, _, hy => hy
  | [], _, true, hx, _ => absurd hx (by simp [alternate])
  | D :: X, Y, false, hx, hy => by
    simp only [alternate, List.cons_append] at hx ⊢
    by_cases h1 : D = a
    · rw [if_pos h1] at hx ⊢
      exact alternate_append a b X Y true hx hy
    · rw [if_neg h1] at hx ⊢
      by_cases h2 : D = b
      · rw [if_pos h2] at hx; exact absurd hx id
      · rw [if_neg h2] at hx ⊢
        exact alternate_append a b X Y false hx hy
  | D :: X, Y, true, hx, hy => by
    simp only [alternate, List.cons_append] at hx ⊢
    by_cases h1 : D = b
    · rw [if_pos h1] at hx ⊢
      exact alternate_append a b X Y false hx hy
    · rw [if_neg h1] at hx ⊢
      by_cases h2 : D = a
      · rw [if_pos h2] at hx; exact absurd hx id
      · rw [if_neg h2] at hx ⊢
        exact alternate_append a b X Y true hx hy

theorem alternate_flatMap (a b : Nat) (inds : Nat → List Nat)
    (h : ∀ P, alternate a b false (inds P)) :
    ∀ cur : List Nat, alternate a b false (cur.flatMap inds)
  | [] => trivial
  | P :: cur => by
    rw [List.flatMap_cons]
    exact alternate_append a b _ _ false (h P) (alternate_flatMap a b inds h cur)

theorem sublist_pair_of_sorted (a b : Nat) (hab : a < b) : ∀ (L : List Nat),
    L.Pairwise (fun u v => u < v) → a ∈ L → b ∈ L → List.Sublist [a, b] L
  | [], _, ha, _ => absurd ha (List.not_mem_nil _)
  | D :: L, hs, ha, hb => by
    obtain ⟨h1, h2⟩ := List.pairwise_cons.mp hs
    rcases List.mem_cons.mp ha with ha | ha
    · subst ha
      rcases List.mem_cons.mp hb with hb | hb
      · omega
      · exact List.Sublist.cons₂ _ (List.singleton_sublist.mpr hb)
    · rcases List.mem_cons.mp hb with hb | hb
      · have := h1 a ha
        omega
      · exact (sublist_pair_of_sorted a b hab L h2 ha hb).cons _

/-- Two individuals with the same fitness dominate and are dominated alike. -/
theorem dom_ind_twin {fit : List (List α)} {a b : Nat} (h : fit[a]? = fit[b]?) (y : Nat) :
    dom_ind fit a y = dom_ind fit b y ∧ dom_ind fit y a = dom_ind fit y b := by
  unfold dom_ind
  rw [h]
  exact ⟨rfl, rfl⟩

theorem pushed_of_mem_iff (Ds : List Nat) (c : Nat → Nat) (hc : ∀ x, Ds.count x ≤ c x)
    (x : Nat) : x ∈ pushed_of c Ds ↔ (x ∈ Ds ∧ Ds.count x = c x) := by
  obtain ⟨pushed, f1, _, _, _, _, _, f7⟩ := peel_fold_spec Ds
    { lParetoSorted := 0, lFrontIndex := 0, lParetoFront := [[]], lDominating := c,
      lDominatedInds := fun _ => [] } [] [] rfl rfl hc
  have f2 := peel_fold_pushed Ds
    { lParetoSorted := 0, lFrontIndex := 0, lParetoFront := [[]], lDominating := c,
      lDominatedInds := fun _ => [] } [] [] rfl rfl hc
  rw [f1] at f2
  simp only [List.nil_append, List.cons.injEq, and_true] at f2
  rw [← f2]
  exact f7 x

theorem peel_front_inds (st : rank_t) {pre : List (List Nat)} {cur : List Nat}
    (hf : st.lParetoFront = pre ++ [cur]) (hi : st.lFrontIndex = pre.length) :
    (peel_front st).lDominatedInds = st.lDominatedInds := by
  rw [peel_front_eq hf hi, peel_fold_inds]

/-- The visits of one iteration do not exceed the counters. -/
theorem peel_visits_le {fit : List (List α)} {pre : List (List Nat)} {cur : List Nat}
    {st : rank_t} (h : rank_inv fit pre cur st) (x : Nat) :
    (cur.flatMap st.lDominatedInds).count x ≤ st.lDominating x := by
  have hfl : (pre ++ [cur]).flatten = pre.flatten ++ cur := by simp
  have hnd := h.nodup
  rw [hfl] at hnd
  have hcur_nd : cur.Nodup := (List.nodup_append.mp hnd).2.1
  have hdisj : ∀ y, y ∈ cur → y ∉ pre.flatten := fun y hy hp =>
    (List.nodup_append.mp hnd).2.2 hp hy
  have hcur_lt : ∀ y, y ∈ cur → y < fit.length := fun y hy =>
    h.lt y (by rw [hfl]; exact List.mem_append_right _ hy)
  have hsplit : st.lDominating x = cur.countP (fun P => dom_ind fit P x)
      + (List.range fit.length).countP
        (fun y => dom_ind fit y x && !decide (y ∈ (pre ++ [cur]).flatten)) := by
    rw [h.cnt, countP_split _ (fun y => decide (y ∈ cur)),
      countP_sub_list (fun P => dom_ind fit P x) cur fit.length hcur_nd hcur_lt]
    congr 1
    · refine List.countP_congr (fun y _ => ?_)
      by_cases hy : y ∈ cur
      · simp [hy, hdisj y hy]
      · simp [hy]
    · refine List.countP_congr (fun y _ => ?_)
      rw [hfl]
      simp [not_or, and_assoc]
  rw [count_flatMap_inds (dom_ind fit) _ h.inds_nodup h.inds_mem x cur, hsplit]
  exact Nat.le_add_right _ _

/-- One iteration of the peeling loop keeps two individuals with the same
fitness together and in their order. -/
theorem twins_step {fit : List (List α)} {m : Nat} (hwf : wf_pop fit m)
    {pre : List (List Nat)} {cur : List Nat} {st : rank_t} (h : rank_inv fit pre cur st)
    (hs : ∀ x, (st.lDominatedInds x).Pairwise (fun u v => u < v)) {a b : Nat} (hab : a < b)
    (htw : fit[a]? = fit[b]?) (hok : twins_ok (pre ++ [cur]) a b) :
    ∃ pushed, rank_inv fit (pre ++ [cur]) pushed (peel_front st) ∧
      twins_ok ((pre ++ [cur]) ++ [pushed]) a b ∧
      ∀ x, ((peel_front st).lDominatedInds x).Pairwise (fun u v => u < v) := by
  obtain ⟨pushed, hi, _⟩ := peel_front_inv hwf h
  have hle := peel_visits_le h
  have hfront : (peel_front st).lParetoFront
      = (pre ++ [cur]) ++ [[] ++ pushed_of st.lDominating (cur.flatMap st.lDominatedInds)] := by
    rw [peel_front_eq h.front h.idx]
    exact peel_fold_pushed (cur.flatMap st.lDominatedInds)
      { st with lFrontIndex := st.lFrontIndex + 1, lParetoFront := st.lParetoFront ++ [[]] }
      (pre ++ [cur]) [] (by show st.lParetoFront ++ [[]] = _; rw [h.front])
      (by show st.lFrontIndex + 1 = _; rw [h.idx]; simp) hle
  have hpushed : pushed = pushed_of st.lDominating (cur.flatMap st.lDominatedInds) := by
    have := hi.front.symm.trans hfront
    simpa using this
  have hca : st.lDominating a = st.lDominating b := by
    rw [h.cnt a, h.cnt b]
    refine List.countP_congr (fun y _ => ?_)
    rw [(dom_ind_twin htw y).2]
  have halt : alternate a b false (cur.flatMap st.lDominatedInds) := by
    refine alternate_flatMap a b _ (fun P => ?_) cur
    refine alternate_sorted a b hab _ (hs P) ?_
    rw [h.inds_mem, h.inds_mem]
    have e : dom_ind fit P a = dom_ind fit P b := (dom_ind_twin htw P).2
    rw [e]
  have hcount := alternate_count a b (Nat.ne_of_lt hab) _ false halt
  simp only [Bool.false_eq_true, if_false, Nat.add_zero] at hcount
  refine ⟨pushed, hi, fun f hf => ?_, fun x => ?_⟩
  · rcases List.mem_append.mp hf with hf | hf
    · exact hok f hf
    · simp only [List.mem_singleton] at hf
      subst hf
      rw [hpushed]
      constructor
      · rw [pushed_of_mem_iff _ _ hle, pushed_of_mem_iff _ _ hle, ← hca, hcount]
        constructor
        · rintro ⟨h1, h2⟩
          refine ⟨List.count_pos_iff.mp ?_, h2⟩
          have := List.count_pos_iff.mpr h1
          omega
        · rintro ⟨h1, h2⟩
          refine ⟨List.count_pos_iff.mp ?_, h2⟩
          have := List.count_pos_iff.mpr h1
          omega
      · intro hb
        exact pushed_of_order a b (Nat.ne_of_lt hab) _ _ false hle halt (fun _ => hca)
          (fun hh => absurd hh (by decide)) hb
  · rw [peel_front_inds st h.front h.idx]
    exact hs x

theorem twins_iterate {fit : List (List α)} {m : Nat} (hwf : wf_pop fit m) {a b : Nat}
    (hab : a < b) (htw : fit[a]? = fit[b]?) :
    ∀ (t : Nat) (pre : List (List Nat)) (cur : List Nat) (st : rank_t),
      rank_inv fit pre cur st →
      (∀ x, (st.lDominatedInds x).Pairwise (fun u v => u < v)) →
      twins_ok (pre ++ [cur]) a b →
      ∃ pre' cur', rank_inv fit pre' cur' (peel_front^[t] st) ∧ twins_ok (pre' ++ [cur']) a b
  | 0, pre, cur, st, h, _, hok => ⟨pre, cur, h, hok⟩
  | t + 1, pre, cur, st, h, hs, hok => by
    obtain ⟨pushed, hi, hok', hs'⟩ := twins_step hwf h hs hab htw hok
    rw [Function.iterate_succ_apply]
    exact twins_iterate hwf hab htw t (pre ++ [cur]) pushed (peel_front st) hi hs' hok'

/-- C34: two individuals with identical fitness vectors are placed in the same
front and appear there in their input order, lower index first; and front 0
lists its members in ascending input index. -/
theorem identical_fitness_same_front (pop : List (List α)) (m k : Nat) (hwf : wf_pop pop m) :
    ∃ st, selNSGA2_rank pop pop.length m k = some (pop, st) ∧
      (∀ a b s, a < b → pop[a]? = pop[b]? →
        (a ∈ st.lParetoFront.getD s [] ↔ b ∈ st.lParetoFront.getD s []) ∧
        (b ∈ st.lParetoFront.getD s [] → List.Sublist [a, b] (st.lParetoFront.getD s []))) ∧
      (st.lParetoFront.headD []).Pairwise (fun u v => u < v) := by
  obtain ⟨pre, cur, st, e, hinv, _, _, _, st0, t, e0, est, _⟩ := selNSGA2_rank_spec hwf k
  obtain ⟨st0', e0', h0⟩ := rank_inv_first hwf
  have hst0 : st0 = st0' := Option.some.inj (e0.symm.trans e0')
  subst hst0
  have hs0 := rank_first_sorted hwf e0
  have hsorted0 : ((List.range pop.length).filter
      (fun x => (List.range pop.length).all (fun y => !dom_ind pop y x))).Pairwise
        (fun u v => u < v) :=
    (List.pairwise_lt_range pop.length).sublist (List.filter_sublist _)
  refine ⟨st, e, fun a b s hab htw => ?_, ?_⟩
  · have hok0 : twins_ok ([] ++ [(List.range pop.length).filter
        (fun x => (List.range pop.length).all (fun y => !dom_ind pop y x))]) a b := by
      intro f hf
      simp only [List.nil_append, List.mem_singleton] at hf
      subst hf
      have hiff : a ∈ (List.range pop.length).filter
            (fun x => (List.range pop.length).all (fun y => !dom_ind pop y x)) ↔
          b ∈ (List.range pop.length).filter
            (fun x => (List.range pop.length).all (fun y => !dom_ind pop y x)) := by
        have hlt : a < pop.length ↔ b < pop.length := by
          constructor
          · intro h
            by_contra hcon
            rw [List.getElem?_eq_getElem h, List.getElem?_eq_none (by omega)] at htw
            exact Option.noConfusion htw
          · intro h; omega
        have hall : (List.range pop.length).all (fun y => !dom_ind pop y a)
            = (List.range pop.length).all (fun y => !dom_ind pop y b) := by
          congr 1
          funext y
          rw [(dom_ind_twin htw y).2]
        simp only [List.mem_filter, List.mem_range, hlt, hall]
      exact ⟨hiff, fun hb => sublist_pair_of_sorted a b hab _ hsorted0 (hiff.mpr hb) hb⟩
    obtain ⟨pre', cur', hi', hok'⟩ := twins_iterate hwf hab htw t [] _ st0 h0 hs0 hok0
    rw [← est] at hi'
    rw [hi'.front]
    rw [List.getD_eq_getElem?_getD]
    cases hf : (pre' ++ [cur'])[s]? with
    | none => simp
    | some f =>
      simp only [Option.getD_some]
      exact hok' f (List.getElem?_mem hf)
  · obtain ⟨st', e', hhead⟩ := selNSGA2_rank_head hwf k
    have : st' = st := by
      have := Option.some.inj (e'.symm.trans e)
      exact (Prod.mk.inj this).2
    subst this
    rw [hhead]
    exact hsorted0

theorem identical_fitness_same_front_witness :
    wf_pop pop_example 2 ∧
      (∃ st, selNSGA2_rank pop_example pop_example.length 2 5 = some (pop_example, st) ∧
        (∀ a b s, a < b → pop_example[a]? = pop_example[b]? →
          (a ∈ st.lParetoFront.getD s [] ↔ b ∈ st.lParetoFront.getD s []) ∧
          (b ∈ st.lParetoFront.getD s [] →
            List.Sublist [a, b] (st.lParetoFront.getD s []))) ∧
        (st.lParetoFront.headD []).Pairwise (fun u v => u < v)) ∧
      (selNSGA2_rank pop_example pop_example.length 2 5).map (fun r => r.2.lParetoFront)
        = some [[0, 1, 2, 4], [3]] :=
  ⟨by decide, identical_fitness_same_front pop_example 2 5 (by decide), by decide⟩

end nsga2_properties

/-! ## NaN and overflow in `double` arithmetic -/

/-- C13 (the code diverges): on `double` values, for `a = (NaN, 0)` and
`b = (1, 1)` neither `a[0] > b[0]` nor `a[0] < b[0]` holds, the loop goes on,
and `isDominated(a, b)` returns true, although `b` does not dominate `a`:
`a[0] <= b[0]` is false. -/
theorem isDominated_nan_operand :
    isDominated_double [Ieee.double.nan, 0] [1, 1] = some true ∧
      ¬ ((Ieee.double.nan : Ieee.double) ≤ 1) ∧
      ¬ dominates_double [1, 1] [Ieee.double.nan, 0] := by
  decide

set_option maxRecDepth 4000 in
/-- C14 (the code diverges): for the population `(0, NaN, 5)`, `(1, 5, NaN)`,
`(NaN, 6, 4)` no individual dominates another one, yet `isDominated` holds
round the cycle, the first ranking (lines 115-132) gives every individual the
count `lDominating = 1`, and front 0 is empty. -/
theorem first_front_empty_nan :
    (rank_first_double pop_nan 3).map (fun st => (st.lParetoFront, st.lParetoSorted,
      st.lFrontIndex, st.lDominating 0, st.lDominating 1, st.lDominating 2))
      = some ([[]], 0, 0, 1, 1, 1) ∧
    ∀ a, a ∈ pop_nan → ∀ b, b ∈ pop_nan → ¬ dominates_double a b := by
  decide

/-- With an empty last front and no individual ranked, one more iteration of
the loop of line 135 pushes one more empty front and ranks nobody. -/
theorem peel_front_empty (st : rank_t) (h0 : st.lParetoSorted = 0)
    (hlen : st.lParetoFront.length = st.lFrontIndex + 1)
    (hlast : st.lParetoFront.getD st.lFrontIndex [] = []) :
    (peel_front st).lParetoSorted = 0 ∧
      (peel_front st).lParetoFront.length = (peel_front st).lFrontIndex + 1 ∧
      (peel_front st).lParetoFront.getD (peel_front st).lFrontIndex [] = [] := by
  have e : (st.lParetoFront ++ [[]]).getD (st.lFrontIndex + 1 - 1) [] = [] := by
    rw [Nat.add_sub_cancel, List.getD_append _ _ _ _ (by omega)]
    exact hlast
  have hp : peel_front st = { st with
      lFrontIndex := st.lFrontIndex + 1
      lParetoFront := st.lParetoFront ++ [[]] } := by
    unfold peel_front
    simp only [e, List.foldl_nil]
  rw [hp]
  refine ⟨h0, by simp [hlen], ?_⟩
  show (st.lParetoFront ++ [[]]).getD (st.lFrontIndex + 1) [] = []
  rw [List.getD_append_right _ _ _ _ (by omega), hlen]
  simp

/-- From such a state the loop of line 135 has not ended after any number of
iterations. -/
theorem rank_others_empty (k n : Nat) (hk : 0 < k) (hn : 0 < n) :
    ∀ (fuel : Nat) (st : rank_t), st.lParetoSorted = 0 →
      st.lParetoFront.length = st.lFrontIndex + 1 →
      st.lParetoFront.getD st.lFrontIndex [] = [] → rank_others k n fuel st = none
  | 0, st, h0, _, _ => by
    unfold rank_others
    rw [if_pos (by rw [h0]; exact ⟨hk, hn⟩)]
  | fuel + 1, st, h0, hlen, hlast => by
    obtain ⟨a, b, c⟩ := peel_front_empty st h0 hlen hlast
    unfold rank_others
    rw [if_pos (by rw [h0]; exact ⟨hk, hn⟩)]
    exact rank_others_empty k n hk hn fuel (peel_front st) a b c

set_option maxRecDepth 4000 in
/-- C35 (the code diverges): for the population `(0, NaN, 5)`, `(1, 5, NaN)`,
`(NaN, 6, 4)` and every `k ≥ 1` the first ranking leaves front 0 empty and no
individual ranked; every iteration of the loop of line 135 then peels an empty
front, `lParetoSorted` stays `0`, and the loop has not returned after any
number of iterations. -/
theorem peel_loop_never_ends_nan :
    ∃ st0, rank_first_double pop_nan 3 = some st0 ∧ st0.lParetoSorted = 0 ∧
      st0.lParetoFront = [[]] ∧
      ∀ k fuel, rank_others (k + 1) 3 fuel st0 = none ∧
        (peel_front^[fuel] st0).lParetoSorted = 0 := by
  have c : (rank_first_double pop_nan 3).map (fun st => (st.lParetoFront, st.lParetoSorted,
      st.lFrontIndex)) = some ([[]], 0, 0) := by decide
  cases h : rank_first_double pop_nan 3 with
  | none => rw [h] at c; exact absurd c (by simp)
  | some st0 =>
    rw [h] at c
    simp only [Option.map_some', Option.some.injEq, Prod.mk.injEq] at c
    obtain ⟨c1, c2, c3⟩ := c
    have hlen : st0.lParetoFront.length = st0.lFrontIndex + 1 := by rw [c1, c3]; rfl
    have hlast : st0.lParetoFront.getD st0.lFrontIndex [] = [] := by rw [c1, c3]; rfl
    refine ⟨st0, rfl, c2, c1, fun k fuel => ⟨rank_others_empty (k + 1) 3 (by omega) (by omega)
      fuel st0 c2 hlen hlast, ?_⟩⟩
    have key : ∀ t, (peel_front^[t] st0).lParetoSorted = 0 ∧
        (peel_front^[t] st0).lParetoFront.length = (peel_front^[t] st0).lFrontIndex + 1 ∧
        (peel_front^[t] st0).lParetoFront.getD (peel_front^[t] st0).lFrontIndex [] = [] := by
      intro t
      induction t with
      | zero => exact ⟨c2, hlen, hlast⟩
      | succ t ih =>
        rw [Function.iterate_succ_apply']
        exact peel_front_empty _ ih.1 ih.2.1 ih.2.2
    exact (key fuel).1

set_option maxRecDepth 4000 in
/-- C17, counterexample: in `double` arithmetic, for the front of the three
individuals `(-2^1023, 2^1023)`, `(0, 0)`, `(2^1023, -2^1023)` the individual
at position 1 is neither first nor last in the sort order of either objective
(the orders are positions 0, 1, 2 and 2, 1, 0), yet its distance after the
pass is `+inf`: the gap `2^1023 - (-2^1023)` of objective 0 overflows. -/
theorem crowding_distance_overflow :
    (crowd_distances_double pop_large 2 [0, 1, 2]).map
      (fun c => (c.lDistances 0, c.lDistances 1, c.lDistances 2))
      = some (Ieee.double.inf false, Ieee.double.inf false, Ieee.double.inf false) ∧
    (stable_sort (FitComp_double 0) (crowd_init_double pop_large [0, 1, 2]).lCrowdingList).map
      Prod.snd = [0, 1, 2] ∧
    (stable_sort (FitComp_double 1) (stable_sort (FitComp_double 0)
      (crowd_init_double pop_large [0, 1, 2]).lCrowdingList)).map Prod.snd = [2, 1, 0] ∧
    ∀ f, f ∈ pop_large → ∀ x, x ∈ f → Ieee.double.finite x = true := by
  decide

end CTools

namespace AntSimulatorFast

theorem cols_of_head {s : ant_t} (h : 0 < s.mExecTrail.length) :
    ∃ front, s.mExecTrail.head? = some front ∧ front.length = cols s := by
  unfold cols
  cases hT : s.mExecTrail with
  | nil => rw [hT] at h; exact absurd h (by decide)
  | cons a l => exact ⟨a, rfl, rfl⟩

theorem turnLeft_counted (s : ant_t) (hr : ready s) :
    ready (turnLeft s) ∧ counted s (turnLeft s) := by
  obtain ⟨h1, h2, h3, h4, h5, h6, h7, h8, h9⟩ := hr
  unfold turnLeft
  by_cases hm : s.mNbMovesAnt ≥ s.mMaxMoves
  · rw [if_pos hm]
    exact ⟨⟨h1, h2, h3, h4, h5, h6, h7, h8, h9⟩, rfl, h9, fun h => absurd hm (not_le.mpr h),
      fun _ => rfl⟩
  · rw [if_neg hm]
    have hlt : s.mNbMovesAnt < s.mMaxMoves := not_le.mp hm
    have e : (s.mNbMovesAnt + 1) % 4294967296 = s.mNbMovesAnt + 1 :=
      Nat.mod_eq_of_lt (by omega)
    simp only [e]
    split_ifs <;>
    exact ⟨⟨h1, h2, h3, h4, h5, h6, h7, h8, hlt⟩, rfl, hlt, fun _ => rfl,
      fun h => absurd h (not_le.mpr hlt)⟩

theorem turnRight_counted (s : ant_t) (hr : ready s) :
    ready (turnRight s) ∧ counted s (turnRight s) := by
  obtain ⟨h1, h2, h3, h4, h5, h6, h7, h8, h9⟩ := hr
  unfold turnRight
  by_cases hm : s.mNbMovesAnt ≥ s.mMaxMoves
  · rw [if_pos hm]
    exact ⟨⟨h1, h2, h3, h4, h5, h6, h7, h8, h9⟩, rfl, h9, fun h => absurd hm (not_le.mpr h),
      fun _ => rfl⟩
  · rw [if_neg hm]
    have hlt : s.mNbMovesAnt < s.mMaxMoves := not_le.mp hm
    have e : (s.mNbMovesAnt + 1) % 4294967296 = s.mNbMovesAnt + 1 :=
      Nat.mod_eq_of_lt (by omega)
    simp only [e]
    split_ifs <;>
    exact ⟨⟨h1, h2, h3, h4, h5, h6, h7, h8, hlt⟩, rfl, hlt, fun _ => rfl,
      fun h => absurd h (not_le.mpr hlt)⟩

theorem ready_row (s : ant_t) (r : Nat) (hr : ready s) (h : r < s.mExecTrail.length) :
    ready { s with mRowAnt := r } := by
  obtain ⟨h1, h2, h3, h4, h5, _, h7, h8, h9⟩ := hr
  exact ⟨h1, h2, h3, h4, h5, h, h7, h8, h9⟩

theorem ready_col (s : ant_t) (c : Nat) (hr : ready s) (h : c < cols s) :
    ready { s with mColAnt := c } := by
  obtain ⟨h1, h2, h3, h4, h5, h6, _, h8, h9⟩ := hr
  exact ⟨h1, h2, h3, h4, h5, h6, h, h8, h9⟩

/-- On a trail that has been set up, the first `switch` of `moveForward`
leaves the ant on the trail and changes only its position. -/
theorem advance_spec (s : ant_t) (hr : ready s) :
    ∃ s', advance s = some s' ∧ ready s' ∧ s'.mMaxMoves = s.mMaxMoves ∧
      s'.mNbMovesAnt = s.mNbMovesAnt ∧ s'.mExecTrail = s.mExecTrail := by
  have hr0 := hr
  obtain ⟨h1, h2, h3, h4, h5, h6, h7, h8, h9⟩ := hr
  obtain ⟨front, hf, hfl⟩ := cols_of_head h1
  have g1 : (s.mExecTrail.length + 4294967295) % 4294967296 < s.mExecTrail.length := by omega
  have g2 : s.mRowAnt - 1 < s.mExecTrail.length := by omega
  have g3 : (front.length + 4294967295) % 4294967296 < cols s := by rw [hfl]; omega
  have g4 : s.mColAnt - 1 < cols s := by omega
  have g5 : (s.mColAnt + 1) % 4294967296 = s.mColAnt + 1 := Nat.mod_eq_of_lt (by omega)
  have g6 : (s.mRowAnt + 1) % 4294967296 = s.mRowAnt + 1 := Nat.mod_eq_of_lt (by omega)
  unfold advance
  by_cases hN : s.mDirectionAnt = eAntNorth
  · rw [if_pos hN]
    by_cases h0 : s.mRowAnt = 0
    · rw [if_pos h0]
      exact ⟨_, rfl, ready_row s _ hr0 g1, rfl, rfl, rfl⟩
    · rw [if_neg h0]
      exact ⟨_, rfl, ready_row s _ hr0 g2, rfl, rfl, rfl⟩
  · rw [if_neg hN]
    by_cases hE : s.mDirectionAnt = eAntEast
    · rw [if_pos hE]
      simp only [hf]
      rw [g5, hfl]
      by_cases hc : s.mColAnt + 1 ≥ cols s
      · rw [if_pos hc]
        exact ⟨_, rfl, ready_col s _ hr0 h3, rfl, rfl, rfl⟩
      · rw [if_neg hc]
        exact ⟨_, rfl, ready_col s _ hr0 (not_le.mp hc), rfl, rfl, rfl⟩
    · rw [if_neg hE]
      by_cases hS : s.mDirectionAnt = eAntSouth
      · rw [if_pos hS]
        simp only [g6]
        by_cases hc : s.mRowAnt + 1 ≥ s.mExecTrail.length
        · rw [if_pos hc]
          exact ⟨_, rfl, ready_row s _ hr0 h1, rfl, rfl, rfl⟩
        · rw [if_neg hc]
          exact ⟨_, rfl, ready_row s _ hr0 (not_le.mp hc), rfl, rfl, rfl⟩
      · rw [if_neg hS]
        by_cases hW : s.mDirectionAnt = eAntWest
        · rw [if_pos hW]
          by_cases h0 : s.mColAnt = 0
          · rw [if_pos h0]
            simp only [hf]
            exact ⟨_, rfl, ready_col s _ hr0 g3, rfl, rfl, rfl⟩
          · rw [if_neg h0]
            exact ⟨_, rfl, ready_col s _ hr0 g4, rfl, rfl, rfl⟩
        · rw [if_neg hW]
          exact ⟨s, rfl, hr0, rfl, rfl, rfl⟩

/-- Writing one cell keeps the trail a rectangle of the same size. -/
theorem setCell_ready (s : ant_t) (row : List Nat) (v : Nat) (hr : ready s)
    (hrow : s.mExecTrail[s.mRowAnt]? = some row) : ready (setCell s row v) := by
  obtain ⟨h1, h2, h3, h4, h5, h6, h7, h8, h9⟩ := hr
  have hlen : (setCell s row v).mExecTrail.length = s.mExecTrail.length := by
    simp [setCell]
  have hrl : row.length = cols s := h5 row (List.getElem?_mem hrow)
  have hcols : cols (setCell s row v) = cols s := by
    unfold cols setCell
    cases hT : s.mExecTrail with
    | nil => rw [hT] at h1; exact absurd h1 (by decide)
    | cons a l =>
      simp only []
      cases hR : s.mRowAnt with
      | zero =>
        rw [hT, hR] at hrow
        simp only [List.getElem?_cons_zero, Option.some.injEq] at hrow
        subst hrow
        simp
      | succ k => simp
  refine ⟨by rw [hlen]; exact h1, by rw [hlen]; exact h2, by rw [hcols]; exact h3,
    by rw [hcols]; exact h4, ?_, by rw [hlen]; exact h6, by rw [hcols]; exact h7, h8, h9⟩
  intro r hr
  rw [hcols]
  have hr' : r ∈ s.mExecTrail.set s.mRowAnt (row.set s.mColAnt v) := hr
  rcases List.mem_or_eq_of_mem_set hr' with h | h
  · exact h5 r h
  · rw [h, List.length_set]; exact hrl

/-- On a trail that has been set up, the second `switch` of `moveForward`
finds the cell of the ant and leaves the counter as it is. -/
theorem visit_spec (s : ant_t) (hr : ready s) :
    ∃ s', visit s = some s' ∧ ready s' ∧ s'.mMaxMoves = s.mMaxMoves ∧
      s'.mNbMovesAnt = s.mNbMovesAnt := by
  have hr0 := hr
  obtain ⟨h1, h2, h3, h4, h5, h6, h7, h8, h9⟩ := hr
  obtain ⟨row, hrow⟩ : ∃ row, s.mExecTrail[s.mRowAnt]? = some row :=
    ⟨_, List.getElem?_eq_getElem h6⟩
  have hrl : row.length = cols s := h5 row (List.getElem?_mem hrow)
  obtain ⟨cell, hcell⟩ : ∃ cell, row[s.mColAnt]? = some cell :=
    ⟨_, List.getElem?_eq_getElem (by rw [hrl]; exact h7)⟩
  unfold visit
  simp only [hrow, hcell]
  split_ifs
  · exact ⟨s, rfl, hr0, rfl, rfl⟩
  · exact ⟨_, rfl, setCell_ready s row ePassed hr0 hrow, rfl, rfl⟩
  · have hs := setCell_ready s row eEatenPiece hr0 hrow
    exact ⟨_, rfl, hs, rfl, rfl⟩
  · exact ⟨s, rfl, hr0, rfl, rfl⟩

theorem moveForward_counted (s : ant_t) (hr : ready s) :
    ∃ s', moveForward s = some s' ∧ ready s' ∧ counted s s' := by
  have hr0 := hr
  obtain ⟨h1, h2, h3, h4, h5, h6, h7, h8, h9⟩ := hr
  unfold moveForward
  by_cases hm : s.mNbMovesAnt ≥ s.mMaxMoves
  · rw [if_pos hm]
    exact ⟨s, rfl, hr0, rfl, h9, fun h => absurd hm (not_le.mpr h), fun _ => rfl⟩
  · rw [if_neg hm]
    have hlt : s.mNbMovesAnt < s.mMaxMoves := not_le.mp hm
    have e : (s.mNbMovesAnt + 1) % 4294967296 = s.mNbMovesAnt + 1 :=
      Nat.mod_eq_of_lt (by omega)
    simp only [e]
    have hr1 : ready { s with mNbMovesAnt := s.mNbMovesAnt + 1 } :=
      ⟨h1, h2, h3, h4, h5, h6, h7, h8, hlt⟩
    obtain ⟨s1, e1, r1, m1, n1, _⟩ := advance_spec _ hr1
    obtain ⟨s2, e2, r2, m2, n2⟩ := visit_spec s1 r1
    rw [e1]
    simp only []
    refine ⟨s2, e2, r2, ?_, ?_, fun _ => ?_, fun h => absurd h (not_le.mpr hlt)⟩
    · rw [m2, m1]
    · exact r2.2.2.2.2.2.2.2.2
    · rw [n2, n1]

theorem call_counted (s : ant_t) (c : call_t) (hr : ready s) :
    ∃ s', call s c = some s' ∧ ready s' ∧ counted s s' := by
  cases c with
  | turnLeft => exact ⟨_, rfl, (turnLeft_counted s hr).1, (turnLeft_counted s hr).2⟩
  | turnRight => exact ⟨_, rfl, (turnRight_counted s hr).1, (turnRight_counted s hr).2⟩
  | moveForward => exact moveForward_counted s hr

theorem calls_ready : ∀ (cs : List call_t) (s : ant_t), ready s →
    ∃ s', calls s cs = some s' ∧ ready s' ∧ s'.mMaxMoves = s.mMaxMoves
  | [], s, hr => ⟨s, rfl, hr, rfl⟩
  | c :: cs, s, hr => by
    obtain ⟨s1, e1, r1, k1⟩ := call_counted s c hr
    obtain ⟨s2, e2, r2, m2⟩ := calls_ready cs s1 r1
    refine ⟨s2, ?_, r2, by rw [m2, k1.1]⟩
    rw [calls, e1]
    exact e2

/-- C39: on a simulator whose trail has been set up, every sequence of calls
of `turnLeft`, `turnRight` and `moveForward` runs and leaves the move counter
at most `mMaxMoves` (which no call changes); in the state reached, a further
call made while the counter is below `mMaxMoves` raises it by exactly one,
and a call made once it has reached `mMaxMoves` changes nothing. -/
theorem moves_never_exceed_max (s : ant_t) (cs : List call_t) (hr : ready s) :
    ∃ s', calls s cs = some s' ∧ s'.mNbMovesAnt ≤ s'.mMaxMoves ∧
      s'.mMaxMoves = s.mMaxMoves ∧
      ∀ c, ∃ s'', call s' c = some s'' ∧ s''.mNbMovesAnt ≤ s''.mMaxMoves ∧
        (s'.mNbMovesAnt < s'.mMaxMoves → s''.mNbMovesAnt = s'.mNbMovesAnt + 1) ∧
        (s'.mMaxMoves ≤ s'.mNbMovesAnt → s'' = s') := by
  obtain ⟨s1, e1, r1, m1⟩ := calls_ready cs s hr
  refine ⟨s1, e1, r1.2.2.2.2.2.2.2.2, m1, fun c => ?_⟩
  obtain ⟨s2, e2, _, k2⟩ := call_counted s1 c r1
  exact ⟨s2, e2, k2.2.1, k2.2.2.1, k2.2.2.2⟩

theorem moves_never_exceed_max_witness :
    ready ant_example ∧
      ∃ s', calls ant_example [call_t.moveForward, call_t.turnLeft, call_t.moveForward]
          = some s' ∧ s'.mNbMovesAnt ≤ s'.mMaxMoves ∧
        s'.mMaxMoves = ant_example.mMaxMoves ∧
        ∀ c, ∃ s'', call s' c = some s'' ∧ s''.mNbMovesAnt ≤ s''.mMaxMoves ∧
          (s'.mNbMovesAnt < s'.mMaxMoves → s''.mNbMovesAnt = s'.mNbMovesAnt + 1) ∧
          (s'.mMaxMoves ≤ s'.mNbMovesAnt → s'' = s') :=
  ⟨by decide, moves_never_exceed_max ant_example
    [call_t.moveForward, call_t.turnLeft, call_t.moveForward] (by decide)⟩

end AntSimulatorFast

namespace SNC

theorem takeWhile_cons_pos {p : Nat × Nat → Bool} {c : Nat × Nat} {L : Level} (h : p c = true) :
    (c :: L).takeWhile p = c :: L.takeWhile p ∧ (c :: L).dropWhile p = L.dropWhile p := by
  simp [List.takeWhile, List.dropWhile, h]

theorem takeWhile_cons_neg {p : Nat × Nat → Bool} {c : Nat × Nat} {L : Level} (h : p c = false) :
    (c :: L).takeWhile p = [] ∧ (c :: L).dropWhile p = c :: L := by
  simp [List.takeWhile, List.dropWhile, h]

/-- Without conflict the new connector goes between its neighbours in the
level. -/
theorem assign_ok (w1 w2 : Nat) (hw : w1 < w2) :
    ∀ (L : Level), Level.ok L → conflict L w1 w2 = false →
      Level.ok (Level.assign L w1 w2) ∧
        ∀ c, c ∈ Level.assign L w1 w2 → c = (w1, w2) ∨ c ∈ L
  | [], _, _ => by
    refine ⟨⟨fun c hc => ?_, ?_⟩, fun c hc => Or.inl ?_⟩
    · simp only [Level.assign, List.mem_singleton] at hc
      subst hc; exact hw
    · simp [Level.assign]
    · simpa [Level.assign] using hc
  | c :: L, hok, hcf => by
    obtain ⟨h1, h2⟩ := hok
    have hc12 : c.1 < c.2 := h1 c (List.mem_cons_self _ _)
    have hokL : Level.ok L :=
      ⟨fun x hx => h1 x (List.mem_cons_of_mem _ hx), (List.pairwise_cons.mp h2).2⟩
    have hcL : ∀ x, x ∈ L → c.2 < x.1 := (List.pairwise_cons.mp h2).1
    by_cases hgt : w1 > c.1
    · -- the iterator moves past `c`
      obtain ⟨t1, t2⟩ := takeWhile_cons_pos (p := fun x => decide (w1 > x.1)) (c := c) (L := L)
        (by simpa using hgt)
      have hcfL : conflict L w1 w2 = false ∧ c.2 < w1 := by
        unfold conflict at hcf ⊢
        simp only [t1, t2, Bool.or_eq_false_iff] at hcf ⊢
        obtain ⟨f1, f2⟩ := hcf
        refine ⟨⟨f1, ?_⟩, ?_⟩
        · cases hb : L.takeWhile (fun x => decide (w1 > x.1)) with
          | nil => rfl
          | cons y ys =>
            rw [hb] at f2
            rw [List.getLast?_cons_cons] at f2
            exact f2
        · cases hb : L.takeWhile (fun x => decide (w1 > x.1)) with
          | nil =>
            rw [hb] at f2
            simpa using f2
          | cons y ys =>
            have hy : y ∈ L.takeWhile (fun x => decide (w1 > x.1)) := by rw [hb]; simp
            have hyL : y ∈ L := (List.takeWhile_sublist _).subset hy
            have hyw : w1 > y.1 := by simpa using List.mem_takeWhile_imp hy
            have := hcL y hyL
            omega
      obtain ⟨ih1, ih2⟩ := assign_ok w1 w2 hw L hokL hcfL.1
      have e : Level.assign (c :: L) w1 w2 = c :: Level.assign L w1 w2 := by
        simp only [Level.assign]
        rw [if_neg (by omega), if_neg (by omega)]
      rw [e]
      refine ⟨⟨fun x hx => ?_, List.pairwise_cons.mpr ⟨fun x hx => ?_, ih1.2⟩⟩, fun x hx => ?_⟩
      · rcases List.mem_cons.mp hx with rfl | hx
        · exact hc12
        · exact ih1.1 x hx
      · rcases ih2 x hx with rfl | hx
        · exact hcfL.2
        · exact hcL x hx
      · rcases List.mem_cons.mp hx with rfl | hx
        · exact Or.inr (List.mem_cons_self _ _)
        · rcases ih2 x hx with h | h
          · exact Or.inl h
          · exact Or.inr (List.mem_cons_of_mem _ h)
    · -- the iterator stops at `c`
      obtain ⟨t1, t2⟩ := takeWhile_cons_neg (p := fun x => decide (w1 > x.1)) (c := c) (L := L)
        (by simpa using hgt)
      have hlt : w2 < c.1 := by
        unfold conflict at hcf
        simp only [t1, t2, Bool.or_eq_false_iff, List.head?_cons, List.getLast?_nil] at hcf
        simpa using hcf.1
      have e : Level.assign (c :: L) w1 w2 = (w1, w2) :: c :: L := by
        simp only [Level.assign]
        rw [if_pos (by omega)]
      rw [e]
      refine ⟨⟨fun x hx => ?_, List.pairwise_cons.mpr ⟨fun x hx => ?_, h2⟩⟩, fun x hx => ?_⟩
      · rcases List.mem_cons.mp hx with rfl | hx
        · exact hw
        · exact h1 x hx
      · rcases List.mem_cons.mp hx with rfl | hx
        · exact hlt
        · have := hcL x hx
          show w2 < x.1
          omega
      · rcases List.mem_cons.mp hx with rfl | hx
        · exact Or.inl rfl
        · exact Or.inr hx

theorem getLast?_split {β : Type} : ∀ (l : List β) (b : β), l.getLast? = some b →
    l = l.dropLast ++ [b]
  | [], _, h => by simp at h
  | [a], b, h => by
    simp only [List.getLast?_singleton, Option.some.injEq] at h
    subst h; rfl
  | a :: c :: l, b, h => by
    rw [List.getLast?_cons_cons] at h
    have ih := getLast?_split (c :: l) b h
    rw [List.dropLast_cons₂, List.cons_append, ← ih]

/-- One iteration keeps every level in order. -/
theorem add_connector_ok (net : List Level) (a b : Int) (h : ∀ L, L ∈ net → Level.ok L) :
    ∀ L, L ∈ add_connector net a b → Level.ok L := by
  unfold add_connector
  simp only []
  by_cases he : (a % 4294967296).toNat = (b % 4294967296).toNat
  · rw [if_pos he]; exact h
  · rw [if_neg he]
    obtain ⟨w1, w2, hw, hdef⟩ : ∃ w1 w2, w1 < w2 ∧
        (if (a % 4294967296).toNat > (b % 4294967296).toNat
          then ((b % 4294967296).toNat, (a % 4294967296).toNat)
          else ((a % 4294967296).toNat, (b % 4294967296).toNat)) = (w1, w2) := by
      by_cases hg : (a % 4294967296).toNat > (b % 4294967296).toNat
      · exact ⟨(b % 4294967296).toNat, (a % 4294967296).toNat, hg, by rw [if_pos hg]⟩
      · exact ⟨(a % 4294967296).toNat, (b % 4294967296).toNat,
          lt_of_le_of_ne (not_lt.mp hg) he, by rw [if_neg hg]⟩
    rw [hdef]
    simp only []
    have hsingle : Level.ok [(w1, w2)] :=
      ⟨fun c hc => by simp only [List.mem_singleton] at hc; subst hc; exact hw, by simp⟩
    cases hl : net.getLast? with
    | none =>
      simp only []
      intro L hL
      simp only [List.mem_singleton] at hL
      subst hL; exact hsingle
    | some back =>
      simp only []
      have hsplit := getLast?_split net back hl
      have hback : Level.ok back := h back (by rw [hsplit]; simp)
      by_cases hc : conflict back w1 w2 = true
      · rw [if_pos hc]
        intro L hL
        rcases List.mem_append.mp hL with hL | hL
        · exact h L hL
        · simp only [List.mem_singleton] at hL
          subst hL; exact hsingle
      · rw [if_neg hc]
        intro L hL
        rcases List.mem_append.mp hL with hL | hL
        · exact h L (List.mem_of_mem_dropLast hL)
        · simp only [List.mem_singleton] at hL
          subst hL
          exact (assign_ok w1 w2 hw back hback (by simpa using hc)).1

theorem foldl_ok : ∀ (cs : List (Int × Int)) (net : List Level), (∀ L, L ∈ net → Level.ok L) →
    ∀ L, L ∈ cs.foldl (fun mNetwork c => add_connector mNetwork c.1 c.2) net → Level.ok L
  | [], _, h => h
  | c :: cs, net, h => by
    rw [List.foldl_cons]
    exact foldl_ok cs _ (add_connector_ok net c.1 c.2 h)

/-- C40: for every connector list, each connector stored in a level of the
network built by `evalNetwork` has its first wire strictly below its second,
and the wire intervals `[first, second]` of two different connectors of one
level are disjoint: one ends before the other begins. -/
theorem levels_parallel (listNetwork : List (Int × Int)) :
    ∀ L, L ∈ evalNetwork_mNetwork listNetwork →
      (∀ c, c ∈ L → c.1 < c.2) ∧
      ∀ c1 c2, c1 ∈ L → c2 ∈ L → c1 ≠ c2 → c1.2 < c2.1 ∨ c2.2 < c1.1 := by
  intro L hL
  have hok : Level.ok L := foldl_ok listNetwork [] (fun _ h => absurd h (List.not_mem_nil _)) L hL
  refine ⟨hok.1, fun c1 c2 h1 h2 hne => ?_⟩
  have hsym : Symmetric (fun c1 c2 : Nat × Nat => c1.2 < c2.1 ∨ c2.2 < c1.1) :=
    fun _ _ h => h.symm
  exact (hok.2.imp (fun h => Or.inl h)).forall hsym h1 h2 hne

theorem levels_parallel_witness :
    evalNetwork_mNetwork [(0, 1), (3, 2), (1, 2), (-1, 0)]
        = [[(0, 1), (2, 3)], [(1, 2)], [(0, 4294967295)]] ∧
      (∀ c, c ∈ ([(0, 1), (2, 3)] : Level) → c.1 < c.2) ∧
      ∀ c1 c2, c1 ∈ ([(0, 1), (2, 3)] : Level) → c2 ∈ ([(0, 1), (2, 3)] : Level) → c1 ≠ c2 →
        c1.2 < c2.1 ∨ c2.2 < c1.1 :=
  ⟨by decide, levels_parallel [(0, 1), (3, 2), (1, 2), (-1, 0)] [(0, 1), (2, 3)] (by decide)⟩

end SNC
